import Mathlib

/-!
# ZenNode: the NODES builder of `ZenNode.cpp`, embedded in Lean

The file-scope variables of `ZenNode.cpp` become the fields of one record, `Builder`; every
function of the source is a Lean function that receives the record and returns the updated
record (or only the variables it writes).  Arrays are lists indexed from 0, pointers into
an array are indices, a read outside an array yields the zero record, `exit ( -1 )` is the
`Except.error` result.  `long` and `int` arithmetic is exact integer arithmetic (the source
relies on it not overflowing), fields of the 16-bit records are reduced with `toSHORT` and
`toUSHORT` where the source converts, and `REAL` arithmetic is exact rational arithmetic
carried out on numerator and denominator.
-/

namespace ZenNode

/-! ## Machine integers -/

/-- Value of the C++ conversion `( SHORT ) v`: the representative of `v` modulo 2^16 that
lies in `[-32768, 32767]`. -/
def toSHORT (v : Int) : Int := (v + 32768) % 65536 - 32768

/-- Value of the C++ conversion `( USHORT ) n` of a non-negative number. -/
def toUSHORT (n : Nat) : Nat := n % 65536

/-- The range of a `SHORT`. -/
def IsSHORT (v : Int) : Prop := -32768 ≤ v ∧ v ≤ 32767

instance (v : Int) : Decidable (IsSHORT v) := by unfold IsSHORT; infer_instance

/-- Modelled from the spec: `sgn` comes from `common.hpp`, which is not among the sources;
the spec writes it `sign(v)`, the sign of its argument as -1, 0 or 1. -/
def sgn (v : Int) : Int := if v < 0 then -1 else if 0 < v then 1 else 0

/-- Integer square root by upward search: `isqrtLoop fuel n k` is the largest `j` with
`k ≤ j ≤ k + fuel` and `j * j ≤ n`, provided `k * k ≤ n`. -/
def isqrtLoop : Nat → Nat → Nat → Nat
  | 0, _, k => k
  | fuel + 1, n, k => if (k + 1) * (k + 1) ≤ n then isqrtLoop fuel n (k + 1) else k

/-- The value of `( long ) hypot ( a, b )` for integers with `a * a + b * b = n`, and of
`( long ) sqrt ( r )` for a real `r` with integer part `n`: the floor of the square root. -/
def isqrt (n : Nat) : Nat := isqrtLoop n n 0

/-- The integer `( int ) ( v + 0.5 * sgn ( v ))` for the real number `v = num / det`:
`v` rounded to the nearest integer, halves away from zero (the conversion to `int`
truncates toward zero).  Computed on numerator and denominator. -/
def roundDiv (num det : Int) : Int :=
  sgn num * sgn det * (((2 * num.natAbs + det.natAbs) / (2 * det.natAbs) : Nat) : Int)

/-- Truncation of a rational toward zero: the C++ conversion of a `REAL` to `int`. -/
def truncQ (q : ℚ) : Int := if 0 ≤ q then ⌊q⌋ else ⌈q⌉

/-- Sign of a rational as a rational, for the expression `0.5 * sgn ( v )`. -/
def sgnQ (q : ℚ) : ℚ := if q < 0 then -1 else if 0 < q then 1 else 0

/-! ## Records of `level.hpp` and `ZenNode.hpp`

The two headers are not among the sources; the records are declared with the fields the
functions of `ZenNode.cpp` read and write. -/

/-- A map vertex, two `SHORT` coordinates. -/
structure wVertex where
  x : Int
  y : Int
deriving DecidableEq, Repr, Inhabited

/-- The SEG record of the output format; all fields are 16 bits wide. -/
structure wSegs where
  start : Nat
  end_ : Nat
  angle : Nat
  lineDef : Nat
  flip : Nat
  offset : Nat
deriving DecidableEq, Repr, Inhabited

/-- A working SEG. -/
structure SEG where
  Data : wSegs
  Sector : Nat
  Side : Int
  noSplit : Bool
deriving DecidableEq, Repr, Inhabited

/-- A bounding rectangle. -/
structure wBound where
  minx : Int
  miny : Int
  maxx : Int
  maxy : Int
deriving DecidableEq, Repr, Inhabited

/-- The NODE record of the output format: partition line, the bounding rectangles of the
right (`side0`) and left (`side1`) child and the ids of the right (`child0`) and left
(`child1`) child. -/
structure wNode where
  x : Int
  y : Int
  dx : Int
  dy : Int
  side0 : wBound
  side1 : wBound
  child0 : Nat
  child1 : Nat
deriving DecidableEq, Repr, Inhabited

/-- A node of the pool: `Next` is the index in the pool of the next node of the chain. -/
structure NODE where
  id : Nat
  Data : wNode
  Next : Option Nat
deriving DecidableEq, Repr, Inhabited

/-- A subsector of the output format. -/
structure wSSector where
  num : Nat
  first : Nat
deriving DecidableEq, Repr, Inhabited

/-- An entry of the alias table. -/
structure sAlias where
  index : Int
  flip : Bool
deriving DecidableEq, Repr, Inhabited

/-- A candidate of `Algorithm2`. -/
structure sScoreInfo where
  index : Int
  metric1 : Int
  metric2 : Int
  invalid : Int
  total : Int
deriving DecidableEq, Repr, Inhabited

/-- Modelled from the spec: the side labels of `ZenNode.hpp` (not among the sources),
LEFT = -1, SPLIT = 0, RIGHT = 1. -/
def SIDE_LEFT : Int := -1

/-- Modelled from the spec: see `SIDE_LEFT`. -/
def SIDE_SPLIT : Int := 0

/-- Modelled from the spec: see `SIDE_LEFT`. -/
def SIDE_RIGHT : Int := 1

/-- Modelled from the spec: the macro `IS_LEFT_RIGHT` of `ZenNode.hpp` (not among the
sources) holds of the labels LEFT and RIGHT only. -/
def IS_LEFT_RIGHT (side : Int) : Bool := side == SIDE_LEFT || side == SIDE_RIGHT

/-- Modelled from the spec: the macro `FLIP` of `ZenNode.hpp` (not among the sources)
exchanges LEFT and RIGHT when the partition runs against its alias (`SIDE_FLIPPED`, here
`true`) and leaves the label alone otherwise (`SIDE_NORMAL`, here `false`). -/
def FLIP (c : Bool) (side : Int) : Int := if c then -side else side

/-- Half a turn in binary angle measure. -/
def BAM180 : Nat := 0x8000

/-- The reasons for which the source calls `exit ( -1 )` (or fails its `assert`), and the
exhaustion of the recursion budget of the model. -/
inductive Halt where
  | vertexOverflow
  | endPointDuplicated
  | tooManySegs
  | nodePoolExhausted
  | ssectorPoolExhausted
  | tooManySubSectors
  | assertFailed
  | outOfFuel
deriving DecidableEq, Repr

/-! ## Array access -/

/-- Read `a [i]` for a signed index. -/
def readI {α : Type} [Inhabited α] (a : List α) (i : Int) : α :=
  if i < 0 then default else a.getD i.toNat default

/-- Write `a [i] = v` for a signed index. -/
def writeI {α : Type} (a : List α) (i : Int) (v : α) : List α :=
  if i < 0 then a else a.set i.toNat v

/-- The `n` elements of `a` from index `off`. -/
def slice {α : Type} (a : List α) (off n : Nat) : List α := (a.drop off).take n

/-- Overwrite the elements of `a` from index `off` with `xs`. -/
def blit {α : Type} (a : List α) (off : Nat) (xs : List α) : List α :=
  a.take off ++ xs ++ a.drop (off + xs.length)

/-! ## The variables of `ZenNode.cpp` -/

/-- The variables that `ComputeStaticVariables` sets.  `currentAlias` is the index in
`lineDefAlias` that the pointer of the source addresses, `currentSide` the row of
`sideInfo` it addresses (`none` for the null pointer), `currentFlipped` is `true` for
`SIDE_FLIPPED`. -/
structure Statics where
  currentAlias : Nat
  currentSide : Option Int
  currentFlipped : Bool
  ANGLE : Nat
  X : Int
  Y : Int
  DX : Int
  DY : Int
  H_2 : Int
  C : Int
deriving DecidableEq, Repr, Inhabited

/-- The variables a partition function writes while it scans the candidates. -/
structure Scan where
  lineChecked : List Bool
  convexList : List Int
  statics : Statics
  usedSector : List Nat
  score : List sScoreInfo
deriving DecidableEq, Repr, Inhabited

/-- The file-scope variables.  `segStart`, `newVertices` are the arrays with all their
slots; `nodePool` and `ssectorPool` hold the slots handed out so far, in order, so that
the pointer `nodePool` of the source is the length of the list; `convexList` holds the
entries below `convexPtr`, so that `convexPtr` is its length. -/
structure Builder where
  maxSegs : Nat
  maxVertices : Nat
  nodesLeft : Nat
  nodePool : List NODE
  nodeStart : Option Nat
  nodeCount : Nat
  segStart : List SEG
  segCount : Nat
  ssectorsLeft : Nat
  ssectorPool : List wSSector
  ssectorCount : Nat
  newVertices : List wVertex
  noVertices : Nat
  sectorCount : Nat
  keepUnique : List Bool
  uniqueSubsectors : Bool
  lineUsed : List Bool
  noAliases : Nat
  lineDefAlias : List sAlias
  sideInfo : Option (List (List Int))
  scan : Scan
  X1 : Int
  X2 : Int
  X3 : Int
  X4 : Int
  Y1 : Int
  Y2 : Int
  Y3 : Int
  Y4 : Int
deriving DecidableEq, Repr, Inhabited

/-- The vertex `newVertices [i]`. -/
def Builder.vertex (b : Builder) (i : Nat) : wVertex := b.newVertices.getD i default

/-- The seg `segStart [i]`. -/
def Builder.seg (b : Builder) (i : Nat) : SEG := b.segStart.getD i default

/-! ## Vertex pool -/

/-- `AddVertex`: the index of the first of the `noVertices` vertices at `(x, y)`, else a
new vertex in slot `noVertices`, else the fatal error of a full table. -/
def AddVertex (b : Builder) (x y : Int) : Except Halt (Nat × Builder) :=
  match (List.range b.noVertices).find? (fun i => (b.vertex i).x == x && (b.vertex i).y == y) with
  | some i => .ok (i, b)
  | none =>
    if b.noVertices ≥ b.maxVertices then .error .vertexOverflow
    else .ok (b.noVertices,
      { b with newVertices := b.newVertices.set b.noVertices ⟨toSHORT x, toSHORT y⟩,
               noVertices := b.noVertices + 1 })

/-! ## Bounding rectangle -/

/-- One round of the loop of `FindBounds`. -/
def FindBounds.step (b : Builder) (bound : wBound) (seg : SEG) : wBound :=
  let vertS := b.vertex seg.Data.start
  let vertE := b.vertex seg.Data.end_
  let loX := if vertS.x < vertE.x then vertS.x else vertE.x
  let hiX := if vertS.x < vertE.x then vertE.x else vertS.x
  let loY := if vertS.y < vertE.y then vertS.y else vertE.y
  let hiY := if vertS.y < vertE.y then vertE.y else vertS.y
  let bound := if loX < bound.minx then { bound with minx := toSHORT loX } else bound
  let bound := if hiX > bound.maxx then { bound with maxx := toSHORT hiX } else bound
  let bound := if loY < bound.miny then { bound with miny := toSHORT loY } else bound
  let bound := if hiY > bound.maxy then { bound with maxy := toSHORT hiY } else bound
  bound

/-- `FindBounds ( bound, seg, noSegs )` for the segs starting at index `seg` of the
array. -/
def FindBounds (b : Builder) (seg noSegs : Nat) : wBound :=
  let vert := b.vertex (b.seg seg).Data.start
  (List.range noSegs).foldl (fun bound i => FindBounds.step b bound (b.seg (seg + i)))
    ⟨vert.x, vert.y, vert.x, vert.y⟩

/-! ## The partition line -/

/-- The variables of the current partition. -/
def Builder.st (b : Builder) : Statics := b.scan.statics

/-- The alias entry `lineDefAlias [i]`. -/
def Builder.aliasOf (b : Builder) (i : Nat) : sAlias := b.lineDefAlias.getD i default

/-- `ComputeStaticVariables ( pSeg )`. -/
def ComputeStaticVariables (b : Builder) (pSeg : SEG) : Builder :=
  let currentAlias := b.aliasOf pSeg.Data.lineDef
  let vertS := b.vertex pSeg.Data.start
  let vertE := b.vertex pSeg.Data.end_
  let DX := vertE.x - vertS.x
  let DY := vertE.y - vertS.y
  { b with scan := { b.scan with statics :=
    { currentAlias := pSeg.Data.lineDef
      currentSide := match b.sideInfo with
        | some _ => some currentAlias.index
        | none => none
      currentFlipped := (pSeg.Data.flip ^^^ (if currentAlias.flip then 1 else 0)) != 0
      ANGLE := pSeg.Data.angle
      X := vertS.x
      Y := vertS.y
      DX := DX
      DY := DY
      H_2 := isqrt (DX * DX + DY * DY).toNat
      C := vertE.y * vertS.x - vertE.x * vertS.y } } }

/-- `CoLinear ( seg )`: does `seg` lie on the line of the current partition? -/
def CoLinear (b : Builder) (seg : SEG) : Bool :=
  if (b.st.ANGLE &&& 0x7FFF) ≠ (seg.Data.angle &&& 0x7FFF) then false
  else
    let vertS := b.vertex seg.Data.start
    if b.st.DX = 0 then vertS.x == b.st.X
    else if b.st.DY = 0 then vertS.y == b.st.Y
    else
      let y := b.st.DX * (vertS.y - b.st.Y) - b.st.DY * (vertS.x - b.st.X)
      y == 0 || (decide (y > -b.st.H_2) && decide (y < b.st.H_2))

/-! ## Aliases -/

/-- The inner loop of `GetLineDefAliases`: `x` runs from `n - 1` down to 0 and stops at
the first alias whose seg `CoLinear` accepts; `none` stands for the exit with `x == -1`. -/
def GetLineDefAliases.search (b : Builder) (segAlias : List Nat) : Nat → Option Nat
  | 0 => none
  | x + 1 =>
    if CoLinear b (b.seg (segAlias.getD x 0)) then some x
    else GetLineDefAliases.search b segAlias x

/-- One round of the outer loop of `GetLineDefAliases`, for linedef `i`.  The state is
the builder, the array `segAlias` (its `noAliases` entries, as indices of segs) and the
pointer `refSeg` (as an index). -/
def GetLineDefAliases.step (s : Builder × List Nat × Nat) (i : Nat) : Builder × List Nat × Nat :=
  let (b, segAlias, refSeg) := s
  if (b.seg refSeg).Data.lineDef ≠ i then s
  else
    let b := ComputeStaticVariables b (b.seg refSeg)
    let (b, segAlias) :=
      match GetLineDefAliases.search b segAlias b.noAliases with
      | none =>
        ({ b with lineDefAlias := b.lineDefAlias.set i ⟨b.noAliases, false⟩,
                  noAliases := b.noAliases + 1 },
         segAlias ++ [refSeg])
      | some x =>
        let testSeg := b.seg (segAlias.getD x 0)
        ({ b with lineDefAlias := b.lineDefAlias.set i
                    ⟨x, !((b.seg refSeg).Data.angle == testSeg.Data.angle)⟩ },
         segAlias)
    let refSeg := refSeg + 1
    let refSeg := if (b.seg refSeg).Data.lineDef = i then refSeg + 1 else refSeg
    (b, segAlias, refSeg)

/-- The state of `GetLineDefAliases` after the rounds for the linedefs `0 .. k - 1`. -/
def GetLineDefAliases.rounds (b : Builder) (lineDefCount k : Nat) : Builder × List Nat × Nat :=
  (List.range k).foldl GetLineDefAliases.step
    ({ b with noAliases := 0, lineDefAlias := List.replicate (lineDefCount + 1) ⟨0, false⟩ },
     [], 0)

/-- `GetLineDefAliases ( level )`, where `lineDefCount` is `level->LineDefCount ()`.  The
result is the builder with `noAliases` and `lineDefAlias` set, and the array `segAlias`. -/
def GetLineDefAliases (b : Builder) (lineDefCount : Nat) : Builder × List Nat :=
  let (b, segAlias, _) := GetLineDefAliases.rounds b lineDefCount lineDefCount
  ({ b with lineDefAlias := b.lineDefAlias.set lineDefCount
              { b.aliasOf lineDefCount with index := -1 } }, segAlias)

/-! ## Which side of the partition -/

/-- `IsZero ( seg, vert, side )`. -/
def IsZero (b : Builder) (seg : SEG) (vert : wVertex) (side : Int) : Int :=
  let vertS := b.vertex seg.Data.start
  let vertE := b.vertex seg.Data.end_
  let dx := vertE.x - vertS.x
  let dy := vertE.y - vertS.y
  let det := dx * b.st.DY - dy * b.st.DX
  if det = 0 then 0
  else
    let c := vertE.y * vertS.x - vertE.x * vertS.y
    let newX := roundDiv (b.st.C * dx - c * b.st.DX) det
    let newY := roundDiv (b.st.C * dy - c * b.st.DY) det
    if newX = vert.x ∧ newY = vert.y then 0 else side

/-- The labels `( y1, y2 )` that `_WhichSide` gives to the two ends of `seg`. -/
def _WhichSide.labels (b : Builder) (seg : SEG) : Int × Int :=
  let vertS := b.vertex seg.Data.start
  let vertE := b.vertex seg.Data.end_
  let DX := b.st.DX
  let DY := b.st.DY
  let X := b.st.X
  let Y := b.st.Y
  let H_2 := b.st.H_2
  if DX = 0 then
    if DY > 0 then (X - vertS.x, X - vertE.x) else (vertS.x - X, vertE.x - X)
  else if DY = 0 then
    if DX > 0 then (vertS.y - Y, vertE.y - Y) else (Y - vertS.y, Y - vertE.y)
  else
    let t1 := DX * (vertS.y - Y) - DY * (vertS.x - X)
    let t2 := DX * (vertE.y - Y) - DY * (vertE.x - X)
    let y1 := if t1 ≤ -H_2 then -1 else if t1 ≥ H_2 then 1
              else if t1 = 0 ∨ t2 = 0 then 0 else IsZero b seg vertS t1
    let y2 := if t2 ≤ -H_2 then -1 else if t2 ≥ H_2 then 1
              else if t2 = 0 ∨ t1 = 0 then 0 else IsZero b seg vertE t2
    let y1 := if (y1 < -1 ∨ y1 > 1) ∧ y2 = 0 then 0 else y1
    let y2 := if (y2 < -1 ∨ y2 > 1) ∧ y1 = 0 then 0 else y2
    if (y1 < -1 ∨ y1 > 1) ∧ (y2 < -1 ∨ y2 > 1) then (0, 0) else (y1, y2)

/-- `_WhichSide ( seg )`. -/
def _WhichSide (b : Builder) (seg : SEG) : Int :=
  let (y1, y2) := _WhichSide.labels b seg
  if y1 = 0 ∧ y2 = 0 then
    if seg.Data.angle = b.st.ANGLE then SIDE_RIGHT else SIDE_LEFT
  else if y1 < 0 then (if y2 ≤ 0 then SIDE_RIGHT else SIDE_SPLIT)
  else if y1 = 0 then (if y2 ≤ 0 then SIDE_RIGHT else SIDE_LEFT)
  else (if y2 ≥ 0 then SIDE_LEFT else SIDE_SPLIT)

/-- The entry `currentSide [sector]`. -/
def Builder.currentSideAt (b : Builder) (sector : Nat) : Int :=
  match b.st.currentSide, b.sideInfo with
  | some row, some info => (readI info row).getD sector 0
  | _, _ => 0

/-- `WhichSide ( seg )`. -/
def WhichSide (b : Builder) (seg : SEG) : Int :=
  let side := b.currentSideAt seg.Sector
  if IS_LEFT_RIGHT side then FLIP b.st.currentFlipped side
  else
    let al := b.aliasOf seg.Data.lineDef
    if al.index = (b.aliasOf b.st.currentAlias).index then
      let isFlipped := (seg.Data.flip ^^^ (if al.flip then 1 else 0)) != 0
      if b.st.currentFlipped = isFlipped then SIDE_RIGHT else SIDE_LEFT
    else _WhichSide b seg

/-! ## Splitting -/

/-- The assignment `segStart [i] = s`. -/
def Builder.setSeg (b : Builder) (i : Nat) (s : SEG) : Builder :=
  { b with segStart := b.segStart.set i s }

/-- `DivideSeg ( rSeg, lSeg )`, the two segs given by their indices in the array. -/
def DivideSeg (b : Builder) (rSeg lSeg : Nat) : Except Halt Builder :=
  let r := b.seg rSeg
  let vertS := b.vertex r.Data.start
  let vertE := b.vertex r.Data.end_
  let sideS := b.st.DX * (vertS.y - b.st.Y) - b.st.DY * (vertS.x - b.st.X)
  let dx := vertE.x - vertS.x
  let dy := vertE.y - vertS.y
  let c := vertE.y * vertS.x - vertE.x * vertS.y
  let det := dx * b.st.DY - dy * b.st.DX
  let xNum := b.st.C * dx - c * b.st.DX
  let yNum := b.st.C * dy - c * b.st.DY
  match AddVertex b (roundDiv xNum det) (roundDiv yNum det) with
  | .error e => .error e
  | .ok (newIndex, b) =>
    if r.Data.start = newIndex ∨ r.Data.end_ = newIndex then .error .endPointDuplicated
    else
      let dist := toUSHORT (isqrt
        (((xNum - vertS.x * det) ^ 2 + (yNum - vertS.y * det) ^ 2).toNat / (det * det).toNat))
      if sideS < 0 then
        let b := b.setSeg rSeg { r with Data := { r.Data with end_ := toUSHORT newIndex } }
        let l := b.seg lSeg
        .ok (b.setSeg lSeg { l with Data :=
          { l.Data with start := toUSHORT newIndex, offset := toUSHORT (l.Data.offset + dist) } })
      else
        let b := b.setSeg rSeg { r with Data := { r.Data with start := toUSHORT newIndex } }
        let l := b.seg lSeg
        let b := b.setSeg lSeg { l with Data := { l.Data with end_ := toUSHORT newIndex } }
        let r := b.seg rSeg
        .ok (b.setSeg rSeg { r with Data :=
          { r.Data with offset := toUSHORT (r.Data.offset + dist) } })

/-- The loop of `SplitSegs`: `n` rounds remain, `segs` is the current pointer. -/
def SplitSegs.loop (noSplits : Nat) : Nat → Nat → Builder → Except Halt Builder
  | 0, _, b => .ok b
  | n + 1, segs, b =>
    match DivideSeg b segs (segs + noSplits) with
    | .error e => .error e
    | .ok b => SplitSegs.loop noSplits n (segs + 1) b

/-- `SplitSegs ( segs, noSplits )`, `segs` given by its index in the array. -/
def SplitSegs (b : Builder) (segs noSplits : Nat) : Except Halt Builder :=
  let b := { b with segCount := b.segCount + noSplits }
  if b.segCount > b.maxSegs then .error .tooManySegs
  else
    let count := b.segCount - segs - noSplits
    let b := { b with segStart := blit b.segStart (segs + noSplits) (slice b.segStart segs count) }
    SplitSegs.loop noSplits noSplits segs b

/-! ## Sorting the segs of a list by side -/

/-- The array `count [3]` of the source: the numbers of LEFT, SPLIT and RIGHT segs. -/
structure Counts where
  lCount : Int
  sCount : Int
  rCount : Int
deriving DecidableEq, Repr, Inhabited

/-- The statement `count [side + 1]++`. -/
def Counts.bump (c : Counts) (side : Int) : Counts :=
  if side = SIDE_LEFT then { c with lCount := c.lCount + 1 }
  else if side = SIDE_SPLIT then { c with sCount := c.sCount + 1 }
  else if side = SIDE_RIGHT then { c with rCount := c.rCount + 1 }
  else c

/-- The first loop of `SortSegs`: every seg of the list gets its `Side`, and the sides
are counted. -/
def SortSegs.classify (seg : Nat) : Nat → Nat → Builder × Counts → Builder × Counts
  | 0, _, s => s
  | n + 1, i, (b, count) =>
    let side := WhichSide b (b.seg (seg + i))
    SortSegs.classify seg n (i + 1)
      (b.setSeg (seg + i) { b.seg (seg + i) with Side := side }, count.bump side)

/-- The scan `for ( i = 0; seg [i].Side == SIDE_RIGHT; i++ )` of `SortSegs`, which the
assertion before it keeps inside the list: the length of the leading run of RIGHT segs
among the segs `i .. i + n - 1` of the list. -/
def SortSegs.leading (b : Builder) (seg : Nat) : Nat → Nat → Nat
  | 0, i => i
  | n + 1, i =>
    if (b.seg (seg + i)).Side = SIDE_RIGHT then SortSegs.leading b seg n (i + 1) else i

/-- The distribution loop of `SortSegs`: RIGHT segs are moved down to `rSeg`, SPLIT and
LEFT segs are collected in the two parts of the buffer `tempSeg`, here the lists `sSeg`
and `lSeg`. -/
def SortSegs.distribute (seg : Nat) :
    Nat → Nat → Builder × Nat × List SEG × List SEG → Builder × Nat × List SEG × List SEG
  | 0, _, s => s
  | n + 1, i, (b, rSeg, sSeg, lSeg) =>
    let cur := b.seg (seg + i)
    SortSegs.distribute seg n (i + 1)
      (if cur.Side = SIDE_LEFT then (b, rSeg, sSeg, lSeg ++ [cur])
       else if cur.Side = SIDE_SPLIT then (b, rSeg, sSeg ++ [cur], lSeg)
       else if cur.Side = SIDE_RIGHT then (b.setSeg rSeg cur, rSeg + 1, sSeg, lSeg)
       else (b, rSeg, sSeg, lSeg))

/-- `SortSegs ( pSeg, seg, noSegs, noLeft, noRight, noSplits )`; `pSeg` is the index of
the partition seg in the array, `none` for the null pointer.  The result carries
`( noLeft, noRight, noSplits )`. -/
def SortSegs (b : Builder) (pSeg : Option Nat) (seg noSegs : Nat) :
    Except Halt (Builder × Nat × Nat × Nat) :=
  match pSeg with
  | none => .ok (b, 0, noSegs, 0)
  | some p =>
    let b := ComputeStaticVariables b (b.seg p)
    let (b, count) := SortSegs.classify seg noSegs 0 (b, ⟨0, 0, 0⟩)
    if count.lCount = 0 ∧ count.sCount = 0 then .error .assertFailed
    else
      let i := SortSegs.leading b seg noSegs 0
      let b :=
        if (i : Int) < count.rCount ∨ count.sCount ≠ 0 then
          let (b, rSeg, sSeg, lSeg) := SortSegs.distribute seg (noSegs - i) i (b, seg + i, [], [])
          let moved := (sSeg ++ lSeg).take (noSegs - count.rCount.toNat)
          { b with segStart := blit b.segStart rSeg moved }
        else b
      .ok (b, count.lCount.toNat, count.rCount.toNat, count.sCount.toNat)

/-! ## Choosing the partition -/

/-- The type of `PartitionFunction`: from the builder and the list `( segs, noSegs )` to
the chosen seg (its index in the array; `none` for the null pointer) and the values of
the variables the function writes. -/
abbrev PartitionFn := Builder → Nat → Nat → Option Nat × Scan

/-- `ChoosePartition ( seg, noSegs, noLeft, noRight, noSplits )`; the result carries
whether a partition was found and `( noLeft, noRight, noSplits )`. -/
def ChoosePartition (pf : PartitionFn) (b : Builder) (seg noSegs : Nat) :
    Except Halt (Bool × Builder × Nat × Nat × Nat) :=
  let b := { b with scan := { b.scan with
    lineChecked := blit b.scan.lineChecked 0 (b.lineUsed.take b.noAliases) } }
  let (pSeg, scan) := pf b seg noSegs
  let b := { b with scan := scan }
  match SortSegs b pSeg seg noSegs with
  | .error e => .error e
  | .ok (b, noLeft, noRight, noSplits) => .ok (pSeg.isSome, b, noLeft, noRight, noSplits)

/-- The counting loop of `Algorithm1` and `Algorithm3` over the segs `j .. j + n - 1` of
the list; with `maxSplits` given, the loop is left (`goto next`, here `none`) as soon as
the number of splits exceeds it. -/
def countSides (b : Builder) (segs : Nat) (maxSplits : Option Int) :
    Nat → Nat → Counts → Option Counts
  | 0, _, count => some count
  | n + 1, j, count =>
    let count := count.bump (WhichSide b (b.seg (segs + j)))
    match maxSplits with
    | some m => if count.sCount > m then none else countSides b segs maxSplits n (j + 1) count
    | none => countSides b segs maxSplits n (j + 1) count

/-- The metric of `Algorithm1` and `Algorithm3`; `/` of the source truncates toward
zero. -/
def classicMetric (b : Builder) (count : Counts) : Int :=
  let metric :=
    if count.sCount ≠ 0 then
      Int.tdiv (count.lCount * count.rCount)
        (if b.X1 ≠ 0 then
          (if Int.tdiv (b.X1 * count.sCount) b.X2 ≠ 0 then Int.tdiv (b.X1 * count.sCount) b.X2
           else 1)
         else 1)
        - (b.X3 * count.sCount + b.X4) * count.sCount
    else count.lCount * count.rCount
  if b.st.ANGLE &&& 0x3FFF ≠ 0 then metric - 1 else metric

/-- The local variables of `Algorithm1`. -/
structure Alg1State where
  b : Builder
  pSeg : Option Nat
  maxMetric : Int
  maxSplits : Int
deriving DecidableEq, Repr, Inhabited

/-- The loop of `Algorithm1` over the candidates `i .. i + n - 1`; the left component of
the result is `some` when the loop is left by `return testSeg`. -/
def Algorithm1.loop (segs noSegs : Nat) (bestMetric : Int) :
    Nat → Nat → Alg1State → Option Nat × Alg1State
  | 0, _, s => (none, s)
  | n + 1, i, s =>
    let testSeg := segs + i
    let al := (s.b.aliasOf (s.b.seg testSeg).Data.lineDef).index
    if readI s.b.scan.lineChecked al then Algorithm1.loop segs noSegs bestMetric n (i + 1) s
    else
      let b := { s.b with scan := { s.b.scan with
        lineChecked := writeI s.b.scan.lineChecked al true } }
      let b := ComputeStaticVariables b (b.seg testSeg)
      match countSides b segs (if s.maxMetric < 0 then none else some s.maxSplits)
          noSegs 0 ⟨0, 0, 0⟩ with
      | none => Algorithm1.loop segs noSegs bestMetric n (i + 1) { s with b := b }
      | some count =>
        if count.lCount + count.sCount ≠ 0 then
          let metric := classicMetric b count
          if metric = bestMetric then (some testSeg, { s with b := b })
          else if metric > s.maxMetric then
            Algorithm1.loop segs noSegs bestMetric n (i + 1)
              { b := b, pSeg := some testSeg, maxSplits := count.sCount + 2, maxMetric := metric }
          else Algorithm1.loop segs noSegs bestMetric n (i + 1) { s with b := b }
        else
          Algorithm1.loop segs noSegs bestMetric n (i + 1)
            { s with b := { b with scan := { b.scan with
                convexList := b.scan.convexList ++ [al] } } }

/-- `Algorithm1 ( segs, noSegs )`, ZenNode Classic.  The initial value `0x80000000` of the
32-bit `maxMetric` is `-2^31`. -/
def Algorithm1 : PartitionFn := fun b segs noSegs =>
  let bestMetric : Int := (noSegs / 2 : Nat) * (noSegs - noSegs / 2 : Nat)
  match Algorithm1.loop segs noSegs bestMetric noSegs 0
      { b := b, pSeg := none, maxMetric := -0x80000000, maxSplits := 0x7FFFFFFF } with
  | (some testSeg, s) => (some testSeg, s.b.scan)
  | (none, s) => (s.pSeg, s.b.scan)

/-! ## Keeping sectors apart -/

/-- `SortByLineDef`. -/
def SortByLineDef (s1 s2 : SEG) : Int :=
  if (s1.Data.lineDef : Int) - s2.Data.lineDef ≠ 0 then (s1.Data.lineDef : Int) - s2.Data.lineDef
  else (s1.Data.flip : Int) - s2.Data.flip

/-- `SortBySector`. -/
def SortBySector (keepUnique : List Bool) (s1 s2 : SEG) : Int :=
  let k (s : Nat) : Int := if keepUnique.getD s false then 1 else 0
  if k s2.Sector - k s1.Sector ≠ 0 then k s2.Sector - k s1.Sector
  else if (s1.Sector : Int) - s2.Sector ≠ 0 then (s1.Sector : Int) - s2.Sector
  else SortByLineDef s1 s2

/-- The call `qsort ( base, n, sizeof ( SEG ), cmp )` on the segs `base .. base + n - 1`.
The C library leaves the order of elements that compare equal open; the model sorts by
insertion, which keeps their order. -/
def qsortSegs (cmp : SEG → SEG → Int) (b : Builder) (base n : Nat) : Builder :=
  let sorted := List.insertionSort (fun s1 s2 => cmp s1 s2 ≤ 0) (slice b.segStart base n)
  { b with segStart := blit b.segStart base sorted }

/-- The scan `for ( i = 0; seg [i].Sector == sector; i++ )` of `SortSectors`, inside the
list: the length of the leading run of segs of sector `sector`. -/
def SortSectors.leading (b : Builder) (seg sector : Nat) : Nat → Nat → Nat
  | 0, i => i
  | n + 1, i =>
    if (b.seg (seg + i)).Sector = sector then SortSectors.leading b seg sector n (i + 1) else i

/-- `SortSectors ( seg, noSegs, noLeft, noRight )`; the result carries
`( noLeft, noRight )`. -/
def SortSectors (b : Builder) (seg noSegs : Nat) : Builder × Nat × Nat :=
  let b := qsortSegs (SortBySector b.keepUnique) b seg noSegs
  let i := SortSectors.leading b seg (b.seg seg).Sector noSegs 0
  (b, noSegs - i, i)

/-- The loop of `PartitionNode` that marks the sectors of the list in `usedSector`. -/
def PartitionNode.mark (b : Builder) (rSegs noSegs : Nat) : List Nat :=
  (List.range noSegs).foldl (fun used i => used.set (b.seg (rSegs + i)).Sector 1)
    (blit b.scan.usedSector 0 (List.replicate b.sectorCount 0))

/-- The loop `for ( i = 0; noSectors && ( i < sectorCount ); i++ )` of `PartitionNode`:
`true` when it leaves by `goto NonUnique`. -/
def PartitionNode.nonUnique (keepUnique : List Bool) (usedSector : List Nat) :
    Nat → Nat → Nat → Bool
  | 0, _, _ => false
  | n + 1, i, noSectors =>
    if noSectors = 0 then false
    else if usedSector.getD i 0 ≠ 0 then
      if keepUnique.getD i false then true
      else PartitionNode.nonUnique keepUnique usedSector n (i + 1) (noSectors - 1)
    else PartitionNode.nonUnique keepUnique usedSector n (i + 1) noSectors

/-- The assignment `nodePool [i] = f ( nodePool [i] )`. -/
def Builder.setNode (b : Builder) (i : Nat) (f : NODE → NODE) : Builder :=
  { b with nodePool := b.nodePool.set i (f (b.nodePool.getD i default)) }

/-- The node `nodePool [i]`. -/
def Builder.node (b : Builder) (i : Nat) : NODE := b.nodePool.getD i default

/-- The end of `PartitionNode`: the partition line and the two bounding rectangles are
stored in the node. -/
def PartitionNode.finish (b : Builder) (node rSegs noLeft noRight : Nat) : Builder :=
  let lSegs := rSegs + noRight
  b.setNode node (fun n => { n with Data := { n.Data with
    x := toSHORT b.st.X
    y := toSHORT b.st.Y
    dx := toSHORT b.st.DX
    dy := toSHORT b.st.DY
    side0 := FindBounds b rSegs noRight
    side1 := FindBounds b lSegs noLeft } })

/-- `PartitionNode ( node, rSegs, noSegs, noLeft, noRight )`; the result carries the
returned flag and `( noLeft, noRight )`. -/
def PartitionNode (pf : PartitionFn) (b : Builder) (node rSegs noSegs : Nat) :
    Except Halt (Bool × Builder × Nat × Nat) :=
  match ChoosePartition pf b rSegs noSegs with
  | .error e => .error e
  | .ok (false, b, noLeft, noRight, _) =>
    let b := if b.uniqueSubsectors then
        { b with scan := { b.scan with usedSector := PartitionNode.mark b rSegs noSegs } }
      else b
    let noSectors := ((List.range b.sectorCount).filter
      (fun i => b.scan.usedSector.getD i 0 ≠ 0)).length
    if b.uniqueSubsectors ∧ noSectors > 1 ∧
        PartitionNode.nonUnique b.keepUnique b.scan.usedSector b.sectorCount 0 noSectors then
      let b := ComputeStaticVariables b (b.seg rSegs)
      let (b, noLeft, noRight) := SortSectors b rSegs noSegs
      .ok (true, PartitionNode.finish b node rSegs noLeft noRight, noLeft, noRight)
    else
      let b := if noSegs > 1 then qsortSegs SortByLineDef b rSegs noSegs else b
      .ok (false, b, noLeft, noRight)
  | .ok (true, b, noLeft, noRight, noSplits) =>
    if noSplits ≠ 0 then
      match SplitSegs b (rSegs + noRight) noSplits with
      | .error e => .error e
      | .ok b =>
        .ok (true, PartitionNode.finish b node rSegs (noLeft + noSplits) (noRight + noSplits),
             noLeft + noSplits, noRight + noSplits)
    else .ok (true, PartitionNode.finish b node rSegs noLeft noRight, noLeft, noRight)

/-! ## The recursion -/

/-- `CreateSSector ( noSegs, segs )`; `segs` is the index of the first seg. -/
def CreateSSector (b : Builder) (noSegs segs : Nat) : Except Halt (Nat × Builder) :=
  if b.ssectorsLeft = 0 then .error .ssectorPoolExhausted
  else
    .ok (toUSHORT b.ssectorCount,
      { b with ssectorsLeft := b.ssectorsLeft - 1,
               ssectorPool := b.ssectorPool ++ [⟨toUSHORT noSegs, toUSHORT segs⟩],
               ssectorCount := b.ssectorCount + 1 })

/-- The statements `lineUsed [*tempPtr] = true` for the entries of the convex list from
`cptr` on, and their counterpart `lineUsed [*--convexPtr] = false`. -/
def markConvex (lineUsed : List Bool) (entries : List Int) (v : Bool) : List Bool :=
  entries.foldl (fun used e => writeI used e v) lineUsed

/-- The beginning of `CreateNode`: a node is taken from the pool, its `Next` is cleared
and the node becomes the `Next` of `prev`. -/
def CreateNode.enter (b : Builder) (prev : Option Nat) : Builder :=
  let node := b.nodePool.length
  let b := { b with nodesLeft := b.nodesLeft - 1,
                    nodePool := b.nodePool ++ [{ (default : NODE) with Next := none }] }
  match prev with
  | some p => b.setNode p (fun n => { n with Next := some node })
  | none => b

/-- The leaf path of `CreateNode`: the convex list is cut back to `cptr`, the first leaf
becomes `nodeStart`, and the node gets the id of a new subsector. -/
def CreateNode.leaf (b : Builder) (node cptr rSegs noSegs : Nat) :
    Except Halt (Builder × Nat × Nat × Nat) :=
  let b := { b with scan := { b.scan with convexList := b.scan.convexList.take cptr } }
  let b := if b.nodeStart = none then { b with nodeStart := some node } else b
  match CreateSSector b noSegs rSegs with
  | .error e => .error e
  | .ok (ssector, b) =>
    .ok (b.setNode node (fun n => { n with id := toUSHORT (0x8000 ||| ssector) }),
         node, noSegs, rSegs + noSegs)

/-- The alias `currentAlias->index` of the partition. -/
def Builder.partitionAlias (b : Builder) : Int := (b.aliasOf b.st.currentAlias).index

/-- The statements of `CreateNode` before the recursion: the alias of the partition and
the aliases put on the convex list since `cptr` are marked in `lineUsed`. -/
def CreateNode.mark (b : Builder) (cptr : Nat) : Builder :=
  let b := { b with lineUsed := writeI b.lineUsed b.partitionAlias true }
  { b with lineUsed := markConvex b.lineUsed (b.scan.convexList.drop cptr) true }

/-- The statement `node->Data.child [0] = rNode->id`. -/
def CreateNode.setChild0 (b : Builder) (node rNode : Nat) : Builder :=
  b.setNode node (fun n => { n with Data := { n.Data with child0 := (b.node rNode).id } })

/-- The statement `node->Data.child [1] = lNode->id`. -/
def CreateNode.setChild1 (b : Builder) (node lNode : Nat) : Builder :=
  b.setNode node (fun n => { n with Data := { n.Data with child1 := (b.node lNode).id } })

/-- The statements of `CreateNode` after the recursion: the convex list is emptied down
to `cptr` and its aliases and the alias `al` of the partition are unmarked, the node
becomes the `Next` of `lNode` and gets the next node id. -/
def CreateNode.finish (b : Builder) (node lNode cptr : Nat) (al : Int) : Builder :=
  let b := { b with
    lineUsed := markConvex b.lineUsed (b.scan.convexList.drop cptr).reverse false,
    scan := { b.scan with convexList := b.scan.convexList.take cptr } }
  let b := { b with lineUsed := writeI b.lineUsed al false }
  let b := b.setNode lNode (fun n => { n with Next := some node })
  let b := b.setNode node (fun n => { n with id := toUSHORT b.nodeCount })
  { b with nodeCount := b.nodeCount + 1 }

/-- `CreateNode ( prev, rSegs, noSegs, nextSeg )`.  The first argument bounds the depth
of the recursion; `rSegs` is the index of the first seg of the list.  The result carries
the index of the returned node in the pool and the final values of the reference
parameters `noSegs` and `nextSeg`. -/
def CreateNode (pf : PartitionFn) :
    Nat → Builder → Option Nat → Nat → Nat → Except Halt (Builder × Nat × Nat × Nat)
  | 0, _, _, _, _ => .error .outOfFuel
  | fuel + 1, b, prev, rSegs, noSegs =>
    if b.nodesLeft = 0 then .error .nodePoolExhausted
    else
      let node := b.nodePool.length
      let cptr := b.scan.convexList.length
      let b := CreateNode.enter b prev
      if noSegs ≤ 1 then CreateNode.leaf b node cptr rSegs noSegs
      else
        match PartitionNode pf b node rSegs noSegs with
        | .error e => .error e
        | .ok (false, b, _, _) => CreateNode.leaf b node cptr rSegs noSegs
        | .ok (true, b, noLeft, noRight) =>
          let al := b.partitionAlias
          match CreateNode pf fuel (CreateNode.mark b cptr) prev rSegs noRight with
          | .error e => .error e
          | .ok (b, rNode, noRight, lSegs) =>
            match CreateNode pf fuel (CreateNode.setChild0 b node rNode) (some rNode) lSegs
                noLeft with
            | .error e => .error e
            | .ok (b, lNode, noLeft, _) =>
              .ok (CreateNode.finish (CreateNode.setChild1 b node lNode) node lNode cptr al,
                   node, noLeft + noRight, rSegs + (noLeft + noRight))

/-! ## The results -/

/-- The loop `while ( nodeStart->id & 0x8000 ) nodeStart = nodeStart->Next` of
`GetNodes`: the first node of the chain from `cur` that is not a subsector; `none` when
the chain ends (the source then reads through a null pointer) or after `fuel` steps. -/
def GetNodes.skip (pool : List NODE) : Nat → Option Nat → Option Nat
  | 0, _ => none
  | _ + 1, none => none
  | fuel + 1, some p =>
    if (pool.getD p default).id &&& 0x8000 ≠ 0 then GetNodes.skip pool fuel (pool.getD p default).Next
    else some p

/-- The loop of `GetNodes` for the `n` records still to be written. -/
def GetNodes.loop (pool : List NODE) : Nat → Option Nat → Option (List wNode)
  | 0, _ => some []
  | n + 1, cur =>
    match GetNodes.skip pool (pool.length + 1) cur with
    | none => none
    | some p =>
      match GetNodes.loop pool n (pool.getD p default).Next with
      | none => none
      | some nodes => some ((pool.getD p default).Data :: nodes)

/-- `GetNodes ()`: the array of `nodeCount` records, `none` when the source does not
return one. -/
def GetNodes (b : Builder) : Option (List wNode) :=
  GetNodes.loop b.nodePool b.nodeCount b.nodeStart

/-! ## The partition functions Quality and Lite -/

/-- `sortTotalMetric`. -/
def sortTotalMetric (s1 s2 : sScoreInfo) : Int :=
  if s1.invalid - s2.invalid ≠ 0 then s1.invalid - s2.invalid
  else if s1.total - s2.total ≠ 0 then s1.total - s2.total
  else s1.index - s2.index

/-- `sortMetric1`. -/
def sortMetric1 (s1 s2 : sScoreInfo) : Int :=
  if s2.metric1 < s1.metric1 then -1
  else if s2.metric1 > s1.metric1 then 1
  else if s2.metric2 < s1.metric2 then -1
  else if s2.metric2 > s1.metric2 then 1
  else s1.index - s2.index

/-- `sortMetric2`. -/
def sortMetric2 (s1 s2 : sScoreInfo) : Int :=
  if s2.metric2 < s1.metric2 then -1
  else if s2.metric2 > s1.metric2 then 1
  else if s2.metric1 < s1.metric1 then -1
  else if s2.metric1 > s1.metric1 then 1
  else s1.index - s2.index

/-- The call `qsort ( score, n, sizeof ( sScoreInfo ), cmp )`. -/
def qsortScores (cmp : sScoreInfo → sScoreInfo → Int) (score : List sScoreInfo) (n : Nat) :
    List sScoreInfo :=
  blit score 0 (List.insertionSort (fun s1 s2 => cmp s1 s2 ≤ 0) (slice score 0 n))

/-- The statement `usedSector [s] |= m`. -/
def orAt (used : List Nat) (s m : Nat) : List Nat := used.set s (used.getD s 0 ||| m)

/-- The inner loop of `Algorithm2` over the segs `j .. j + n - 1` of the list: the sides
are counted, the sectors of the segs are marked by side in `usedSector`, and the SPLIT
segs with `noSplit` are counted in `invalid`. -/
def Algorithm2.classify (b : Builder) (segs : Nat) :
    Nat → Nat → Counts × List Nat × Int → Counts × List Nat × Int
  | 0, _, s => s
  | n + 1, j, (count, used, invalid) =>
    let destSeg := b.seg (segs + j)
    let side := WhichSide b destSeg
    Algorithm2.classify b segs n (j + 1)
      (if side = SIDE_LEFT then
        ({ count with lCount := count.lCount + 1 }, orAt used destSeg.Sector 0xF0, invalid)
       else if side = SIDE_SPLIT then
        ({ count with sCount := count.sCount + 1 }, orAt used destSeg.Sector 0xFF,
          if destSeg.noSplit then invalid + 1 else invalid)
       else if side = SIDE_RIGHT then
        ({ count with rCount := count.rCount + 1 }, orAt used destSeg.Sector 0x0F, invalid)
       else (count, used, invalid))

/-- The number of sectors `j < sectorCount` with `usedSector [j] == v`. -/
def countSectors (used : List Nat) (sectorCount v : Nat) : Int :=
  (((List.range sectorCount).filter (fun j => used.getD j 0 = v)).length : Nat)

/-- The expression of `Algorithm2` for `metric1` and `metric2`: with `s` splits, the
product divided and reduced by the penalty, else the product, or `0x80000000` (as a
32-bit value, `-2^31`) for a product of 0. -/
def qualityMetric (product s A B C D : Int) : Int :=
  if s ≠ 0 then
    Int.tdiv product
      (if A ≠ 0 then (if Int.tdiv (A * s) B ≠ 0 then Int.tdiv (A * s) B else 1) else 1)
      - (C * s + D) * s
  else if product ≠ 0 then product else -0x80000000

/-- The inner loop of `Algorithm2` over the whole list, from cleared counts and a cleared
array `usedSector`. -/
def Algorithm2.sides (b : Builder) (segs noSegs : Nat) : Counts × List Nat × Int :=
  Algorithm2.classify b segs noSegs 0
    (⟨0, 0, 0⟩, blit b.scan.usedSector 0 (List.replicate b.sectorCount 0), 0)

/-- The body of the loop of `Algorithm2` for seg `i` of the list, whose alias `al` has not
been checked: the alias is marked, the sides of the segs of the list are counted, and the
seg is stored as a candidate in `score [noScores]`, or its alias is put on the convex
list when no seg is on its left or split. -/
def Algorithm2.candidate (segs noSegs i : Nat) (al : Int) (b : Builder) (noScores : Nat) :
    Builder × Nat :=
  let testSeg := segs + i
  let b := { b with scan := { b.scan with lineChecked := writeI b.scan.lineChecked al true } }
  let b := ComputeStaticVariables b (b.seg testSeg)
  let (count, used, invalid) := Algorithm2.sides b segs noSegs
  let cur := { b.scan.score.getD noScores default with invalid := invalid }
  let b := { b with scan := { b.scan with usedSector := used } }
  if count.lCount + count.sCount ≠ 0 then
    let lsCount := countSectors used b.sectorCount 0xF0
    let ssCount := countSectors used b.sectorCount 0xFF
    let rsCount := countSectors used b.sectorCount 0x0F
    let product1 := (count.lCount + count.sCount) * (count.rCount + count.sCount)
    let product2 := (lsCount + ssCount) * (rsCount + ssCount)
    let cur := { cur with
      index := i
      metric1 := qualityMetric product1 count.sCount b.X1 b.X2 b.X3 b.X4
      metric2 := qualityMetric product2 ssCount b.Y1 b.Y2 b.Y3 b.Y4 }
    ({ b with scan := { b.scan with score := b.scan.score.set noScores cur } }, noScores + 1)
  else
    ({ b with scan := { b.scan with
        score := b.scan.score.set noScores cur,
        convexList := b.scan.convexList ++ [al] } }, noScores)

/-- The loop of `Algorithm2` over the candidates `i .. i + n - 1`; the state is the
builder and `noScores`. -/
def Algorithm2.loop (segs noSegs : Nat) : Nat → Nat → Builder × Nat → Builder × Nat
  | 0, _, s => s
  | n + 1, i, (b, noScores) =>
    let al := (b.aliasOf (b.seg (segs + i)).Data.lineDef).index
    if readI b.scan.lineChecked al then Algorithm2.loop segs noSegs n (i + 1) (b, noScores)
    else Algorithm2.loop segs noSegs n (i + 1) (Algorithm2.candidate segs noSegs i al b noScores)

/-- The two ranking loops of `Algorithm2` over the entries `i .. i + n - 1` of the sorted
array: the entry gets the rank (`add = false`) or has the rank added to its `total`
(`add = true`), and the rank grows where the key of the next entry differs. -/
def Algorithm2.rank (key : sScoreInfo → Int) (add : Bool) :
    Nat → Nat → Int → List sScoreInfo → List sScoreInfo
  | 0, _, _, score => score
  | n + 1, i, rank, score =>
    let cur := score.getD i default
    let score := score.set i { cur with total := if add then cur.total + rank else rank }
    let rank :=
      if key (score.getD i default) ≠ key (score.getD (i + 1) default) then rank + 1 else rank
    Algorithm2.rank key add n (i + 1) rank score

/-- The end of `Algorithm2`: the candidates are ranked by `metric1`, then by `metric2`,
and sorted by `sortTotalMetric`. -/
def Algorithm2.order (score : List sScoreInfo) (noScores : Nat) : List sScoreInfo :=
  if noScores > 1 then
    let score := qsortScores sortMetric1 score noScores
    let score := Algorithm2.rank (fun s => s.metric1) false noScores 0 0 score
    let score := qsortScores sortMetric2 score noScores
    let score := Algorithm2.rank (fun s => s.metric2) true noScores 0 0 score
    qsortScores sortTotalMetric score noScores
  else score

/-- The first part of `Algorithm2`: the array `score` is cleared and the candidates are
scored; the result carries `noScores`.  `memset ( score, -1, .. )` sets every field of
the `noAliases` entries to -1. -/
def Algorithm2.scan (b : Builder) (segs noSegs : Nat) : Builder × Nat :=
  let score := (List.replicate b.noAliases (⟨-1, -1, -1, -1, -1⟩ : sScoreInfo))
  let score := score.set 0 { score.getD 0 default with index := 0 }
  Algorithm2.loop segs noSegs noSegs 0 ({ b with scan := { b.scan with score := score } }, 0)

/-- `Algorithm2 ( segs, noSegs )`, ZenNode Quality. -/
def Algorithm2 : PartitionFn := fun b segs noSegs =>
  let (b, noScores) := Algorithm2.scan b segs noSegs
  let score := Algorithm2.order b.scan.score noScores
  let b := { b with scan := { b.scan with score := score } }
  (if noScores ≠ 0 then some (segs + (score.getD 0 default).index.toNat) else none, b.scan)

/-- The loop `for ( ; i < max; i++ )` of `Algorithm3` over the candidates
`i .. i + n - 1`; the left component of the result is `some` when the loop is left by
`return testSeg`. -/
def Algorithm3.loop (segs noSegs : Nat) (bestMetric : Int) :
    Nat → Nat → Alg1State → Option Nat × Alg1State
  | 0, _, s => (none, s)
  | n + 1, i, s =>
    let testSeg := segs + i
    let al := (s.b.aliasOf (s.b.seg testSeg).Data.lineDef).index
    if readI s.b.scan.lineChecked al then Algorithm3.loop segs noSegs bestMetric n (i + 1) s
    else
      let b := { s.b with scan := { s.b.scan with
        lineChecked := writeI s.b.scan.lineChecked al true } }
      let b := ComputeStaticVariables b (b.seg testSeg)
      match countSides b segs (if s.maxMetric < 0 then none else some s.maxSplits)
          noSegs 0 ⟨0, 0, 0⟩ with
      | none => Algorithm3.loop segs noSegs bestMetric n (i + 1) { s with b := b }
      | some count =>
        if count.lCount + count.sCount ≠ 0 then
          let metric := classicMetric b count
          if metric = bestMetric then (some testSeg, { s with b := b })
          else if metric > s.maxMetric then
            Algorithm3.loop segs noSegs bestMetric n (i + 1)
              { b := b, pSeg := some testSeg, maxSplits := count.sCount, maxMetric := metric }
          else Algorithm3.loop segs noSegs bestMetric n (i + 1) { s with b := b }
        else
          Algorithm3.loop segs noSegs bestMetric n (i + 1)
            { s with b := { b with scan := { b.scan with
                convexList := b.scan.convexList ++ [al] } } }

/-- The windows of `Algorithm3`: the candidates `i .. max - 1` are scanned and, while no
metric has been stored and segs remain, the window is extended by 5 (`goto retry`).  The
first argument bounds the number of windows. -/
def Algorithm3.windows (segs noSegs : Nat) (bestMetric : Int) :
    Nat → Nat → Nat → Alg1State → Option Nat × Alg1State
  | 0, _, _, s => (none, s)
  | fuel + 1, i, max, s =>
    match Algorithm3.loop segs noSegs bestMetric (max - i) i s with
    | (some testSeg, s) => (some testSeg, s)
    | (none, s) =>
      if s.maxMetric = -0x80000000 ∧ max < noSegs then
        Algorithm3.windows segs noSegs bestMetric fuel max
          (if max + 5 > noSegs then noSegs else max + 5) s
      else (none, s)

/-- `Algorithm3 ( segs, noSegs )`, ZenNode Lite. -/
def Algorithm3 : PartitionFn := fun b segs noSegs =>
  let bestMetric : Int := (noSegs / 2 : Nat) * (noSegs - noSegs / 2 : Nat)
  match Algorithm3.windows segs noSegs bestMetric (noSegs + 1) 0
      (if noSegs < 30 then noSegs else 30)
      { b := b, pSeg := none, maxMetric := -0x80000000, maxSplits := 0x7FFFFFFF } with
  | (some testSeg, s) => (some testSeg, s.b.scan)
  | (none, s) => (s.pSeg, s.b.scan)

/-! ## The level and the options

`level.hpp` and `ZenNode.hpp` are not among the sources; the level is the record of the
arrays that the functions of `ZenNode.cpp` read from it. -/

/-- Modelled from the spec: a linedef of the level (`level.hpp` is not among the sources),
with its two vertex indices and its two sidedef indices, the right one first;
`NO_SIDEDEF` marks an absent side. -/
structure wLineDef where
  start : Nat
  end_ : Nat
  sideDef0 : Nat
  sideDef1 : Nat
deriving DecidableEq, Repr, Inhabited

/-- Modelled from the spec: a sidedef of the level (`level.hpp` is not among the sources),
with its sector; `emptyText3` is the outcome of the test
`* ( USHORT * ) text3 == EMPTY_TEXTURE` on its mid-texture. -/
structure wSideDef where
  sector : Nat
  emptyText3 : Bool
deriving DecidableEq, Repr, Inhabited

/-- Modelled from the spec: the value 0xFFFF of `NO_SIDEDEF` (`level.hpp` is not among
the sources). -/
def NO_SIDEDEF : Nat := 0xFFFF

/-- Modelled from the spec: the level container as `CreateNODES` reads it after
`TrimVertices` and `PackVertices` (`level.hpp` is not among the sources). -/
structure DoomLevel where
  vertices : List wVertex
  lineDefs : List wLineDef
  sideDefs : List wSideDef
  sectorCount : Nat
deriving DecidableEq, Repr, Inhabited

/-- Modelled from the spec: the options of a build (`ZenNode.hpp` is not among the
sources); an absent array is `none`. -/
structure sBSPOptions where
  algorithm : Nat
  showProgress : Bool
  reduceLineDefs : Bool
  ignoreLineDef : Option (List Bool)
  dontSplit : Option (List Bool)
  keepUnique : Option (List Bool)
deriving DecidableEq, Repr, Inhabited

/-- A quarter turn in binary angle measure. -/
def BAM90 : Nat := 0x4000

/-- Three quarter turns in binary angle measure. -/
def BAM270 : Nat := 0xC000

/-- Modelled from the spec: the label UNKNOWN of an entry of the side table that has not
been set (`ZenNode.hpp` is not among the sources); it is none of the three side labels. -/
def SIDE_UNKNOWN : Int := -2

/-! ## The segs of the linedefs -/

/-- The angle `CreateSegs` gives to a linedef of direction `(dx, dy)`.  The expression
`( BAM ) ( atan2 ( dy, dx ) * BAM180 / M_PI + 0.5 * sgn ( dy ))` for a direction off the
axes is floating point; its value is the parameter `atanBAM`. -/
def CreateSegs.angle (atanBAM : Int → Int → Nat) (dx dy : Int) : Nat :=
  if dy = 0 then (if dx < 0 then BAM180 else 0)
  else if dx = 0 then (if dy < 0 then BAM270 else BAM90)
  else toUSHORT (atanBAM dx dy)

/-- One round of the loop of `CreateSegs`, for linedef `i`: the segs written so far,
followed by the segs of the linedef. -/
def CreateSegs.step (atanBAM : Int → Int → Nat) (b : Builder) (level : DoomLevel)
    (options : sBSPOptions) (segs : List SEG) (i : Nat) : List SEG :=
  let lineDef := level.lineDefs.getD i default
  let vertS := b.vertex lineDef.start
  let vertE := b.vertex lineDef.end_
  let dx := vertE.x - vertS.x
  let dy := vertE.y - vertS.y
  if dx = 0 ∧ dy = 0 then segs
  else
    let rSide := lineDef.sideDef0
    let lSide := lineDef.sideDef1
    let sideRight := if rSide = NO_SIDEDEF then none else some (level.sideDefs.getD rSide default)
    let sideLeft := if lSide = NO_SIDEDEF then none else some (level.sideDefs.getD lSide default)
    let reduce : Bool :=
      match sideRight, sideLeft with
      | some r, some l => options.reduceLineDefs && r.sector == l.sector
      | _, _ => false
    let sideLeft2 :=
      if reduce then
        match sideLeft with
        | some l => if l.emptyText3 then none else some l
        | none => none
      else sideLeft
    let sideRight2 :=
      if reduce then
        match sideRight with
        | some r => if r.emptyText3 then none else some r
        | none => none
      else sideRight
    if reduce = true ∧ sideLeft2 = none ∧ sideRight2 = none then segs
    else if (match options.ignoreLineDef with
        | some ign => ign.getD i false
        | none => false) then segs
    else
      let angle := CreateSegs.angle atanBAM dx dy
      let split :=
        match options.dontSplit with
        | some ds => ds.getD i false
        | none => false
      let segs :=
        match sideRight2 with
        | some r =>
          segs ++ [{ Data := { start := lineDef.start, end_ := lineDef.end_, angle := angle,
                               lineDef := toUSHORT i, flip := 0, offset := 0 },
                     Sector := r.sector, Side := 0, noSplit := split }]
        | none => segs
      match sideLeft2 with
      | some l =>
        segs ++ [{ Data := { start := lineDef.end_, end_ := lineDef.start,
                             angle := toUSHORT (angle + BAM180),
                             lineDef := toUSHORT i, flip := 1, offset := 0 },
                   Sector := l.sector, Side := 0, noSplit := split }]
      | none => segs

/-- The number of sidedefs the linedefs of the level have. -/
def CreateSegs.sides (level : DoomLevel) : Nat :=
  (level.lineDefs.map (fun l =>
    (if l.sideDef0 ≠ NO_SIDEDEF then 1 else 0) + (if l.sideDef1 ≠ NO_SIDEDEF then 1 else 0))).sum

/-- `CreateSegs ( level, options )`: `maxSegs` is twice the number of sidedefs
(`FACTOR_SEGS` is 2.0), the array is zeroed and then holds the segs of the linedefs in
the order of the linedefs. -/
def CreateSegs (atanBAM : Int → Int → Nat) (b : Builder) (level : DoomLevel)
    (options : sBSPOptions) : Builder :=
  let maxSegs := 2 * CreateSegs.sides level
  let segs := (List.range level.lineDefs.length).foldl
    (CreateSegs.step atanBAM b level options) []
  { b with maxSegs := maxSegs,
           segStart := segs ++ List.replicate (maxSegs - segs.length) default,
           segCount := segs.length }

/-! ## The side table -/

/-- The bounding rectangles of `GetSectorBounds` before the linedefs are read. -/
def GetSectorBounds.empty : wBound := { minx := 0x7FFF, miny := 0x7FFF, maxx := -0x8000, maxy := -0x8000 }

/-- The statements of `GetSectorBounds` for the side `index` of a linedef whose end points
span `loX .. hiX` and `loY .. hiY`. -/
def GetSectorBounds.side (level : DoomLevel) (loX hiX loY hiY : Int) (bound : List wBound)
    (index : Nat) : List wBound :=
  if index ≠ NO_SIDEDEF then
    let sec := (level.sideDefs.getD index default).sector
    let bound :=
      if loX < (bound.getD sec default).minx then
        bound.set sec { bound.getD sec default with minx := toSHORT loX }
      else bound
    let bound :=
      if hiX > (bound.getD sec default).maxx then
        bound.set sec { bound.getD sec default with maxx := toSHORT hiX }
      else bound
    let bound :=
      if loY < (bound.getD sec default).miny then
        bound.set sec { bound.getD sec default with miny := toSHORT loY }
      else bound
    if hiY > (bound.getD sec default).maxy then
      bound.set sec { bound.getD sec default with maxy := toSHORT hiY }
    else bound
  else bound

/-- One round of the loop of `GetSectorBounds` over the linedefs. -/
def GetSectorBounds.step (level : DoomLevel) (bound : List wBound) (lineDef : wLineDef) :
    List wBound :=
  let vertS := level.vertices.getD lineDef.start default
  let vertE := level.vertices.getD lineDef.end_ default
  let (loX, hiX) := if vertS.x < vertE.x then (vertS.x, vertE.x) else (vertE.x, vertS.x)
  let (loY, hiY) := if vertS.y < vertE.y then (vertS.y, vertE.y) else (vertE.y, vertS.y)
  let bound := GetSectorBounds.side level loX hiX loY hiY bound lineDef.sideDef0
  GetSectorBounds.side level loX hiX loY hiY bound lineDef.sideDef1

/-- `GetSectorBounds ( level )`. -/
def GetSectorBounds (level : DoomLevel) : List wBound :=
  level.lineDefs.foldl (GetSectorBounds.step level)
    (List.replicate level.sectorCount GetSectorBounds.empty)

/-- An entry of the sector list of `GetSectorInfo`: the sector and the sectors whose
bounding rectangles lie inside its own. -/
structure sSectorInfo where
  index : Nat
  noSubSectors : Nat
  subSector : List Nat
deriving DecidableEq, Repr, Inhabited

/-- `SectorSort`. -/
def SectorSort (p1 p2 : sSectorInfo) : Int :=
  if (p2.noSubSectors : Int) - p1.noSubSectors ≠ 0 then (p2.noSubSectors : Int) - p1.noSubSectors
  else -((p2.index : Int) - p1.index)

/-- The sectors `j` that the inner loop of `GetSectorInfo` stores for sector `i`. -/
def GetSectorInfo.contained (noSectors : Nat) (bound : List wBound) (i : Nat) : List Nat :=
  (List.range noSectors).filter (fun j =>
    decide ((bound.getD j default).minx ≥ (bound.getD i default).minx) &&
    decide ((bound.getD j default).maxx ≤ (bound.getD i default).maxx) &&
    decide ((bound.getD j default).miny ≥ (bound.getD i default).miny) &&
    decide ((bound.getD j default).maxy ≤ (bound.getD i default).maxy))

/-- The outer loop of `GetSectorInfo` for the sectors `i .. i + n - 1`; `max` is the
number of free slots for contained sectors, and the loop calls `exit` when a sector has
more contained sectors than slots are left. -/
def GetSectorInfo.loop (noSectors : Nat) (bound : List wBound) :
    Nat → Nat → Nat → List sSectorInfo → Except Halt (List sSectorInfo)
  | 0, _, _, info => .ok info
  | n + 1, i, max, info =>
    let sub := GetSectorInfo.contained noSectors bound i
    if sub.length > max then .error .tooManySubSectors
    else
      GetSectorInfo.loop noSectors bound n (i + 1) (max - sub.length)
        (info ++ [{ index := i, noSubSectors := sub.length, subSector := sub }])

/-- `GetSectorInfo ( noSectors, bound )`; `FACTOR_SUBSECTORS` is 256.  The comparison
`SectorSort` is 0 only for equal sectors, so the result of `qsort` is the sorted list. -/
def GetSectorInfo (noSectors : Nat) (bound : List wBound) : Except Halt (List sSectorInfo) :=
  match GetSectorInfo.loop noSectors bound noSectors 0 (noSectors * 256) [] with
  | .error e => .error e
  | .ok info => .ok (List.insertionSort (fun p1 p2 => SectorSort p1 p2 ≤ 0) info)

/-- The entry `sideInfo [alias][sector]`. -/
def Builder.sideAt (b : Builder) (al : Int) (sector : Nat) : Int :=
  match b.sideInfo with
  | some info => (readI info al).getD sector 0
  | none => 0

/-- The assignment `sideInfo [alias][sector] = side`. -/
def Builder.setSide (b : Builder) (al : Int) (sector : Nat) (side : Int) : Builder :=
  match b.sideInfo with
  | some info => { b with sideInfo := some (writeI info al ((readI info al).set sector side)) }
  | none => b

/-- The assignment `newVertices [i] = v`. -/
def Builder.setVertex (b : Builder) (i : Nat) (v : wVertex) : Builder :=
  { b with newVertices := b.newVertices.set i v }

/-- The body of the inner loop of `CreateSideInfo`, for alias `i` and the entry `sect` of
the sector list: the lower and the upper edge of the bounding rectangle of the sector are
put in the two vertices after the last vertex of the level and classified as the seg
`testSeg`. -/
def CreateSideInfo.sector (level : DoomLevel) (bound : List wBound) (i : Nat) (testSeg : SEG)
    (b : Builder) (sect : sSectorInfo) : Builder :=
  let v := level.vertices.length
  let s := sect.index
  if b.sideAt i s ≠ SIDE_UNKNOWN then b
  else
    let testSeg := { testSeg with Sector := s }
    let bd := bound.getD s default
    let b := b.setVertex v ⟨bd.minx, bd.miny⟩
    let b := b.setVertex (v + 1) ⟨bd.maxx, bd.miny⟩
    let side1 := WhichSide b testSeg
    if side1 ≠ SIDE_SPLIT then
      let b := b.setVertex v { b.vertex v with y := bd.maxy }
      let b := b.setVertex (v + 1) { b.vertex (v + 1) with y := bd.maxy }
      let side2 := WhichSide b testSeg
      if side2 = side1 then
        (sect.subSector.take sect.noSubSectors).reverse.foldl
          (fun b x => b.setSide i x side1) b
      else b.setSide i s SIDE_SPLIT
    else b.setSide i s SIDE_SPLIT

/-- `CreateSideInfo ( level, bound, sectInfo, aliasList )`; `aliasList` holds the indices
of the segs of the aliases. -/
def CreateSideInfo (b : Builder) (level : DoomLevel) (bound : List wBound)
    (sectInfo : List sSectorInfo) (aliasList : List Nat) : Builder :=
  let v := level.vertices.length
  let testSeg : SEG :=
    { Data := { start := toUSHORT v, end_ := toUSHORT (v + 1), angle := 0,
                lineDef := toUSHORT level.lineDefs.length, flip := 0, offset := 0 },
      Sector := 0, Side := 0, noSplit := false }
  let table := List.replicate b.noAliases (List.replicate level.sectorCount SIDE_UNKNOWN)
  (List.range b.noAliases).foldl (fun b i =>
    let partSeg := b.seg (aliasList.getD i 0)
    let b := ComputeStaticVariables b partSeg
    (sectInfo.take level.sectorCount).foldl (CreateSideInfo.sector level bound i testSeg) b)
    { b with sideInfo := some table }

/-! ## The build -/

/-- The loop of `CreateNODES` that makes sure every seg is on its own right side. -/
def CreateNODES.ownRight (b : Builder) : Builder :=
  (List.range b.segCount).foldl (fun b i =>
    let b := ComputeStaticVariables b (b.seg i)
    let side := WhichSide b (b.seg i)
    if side = SIDE_LEFT then
      let al := (b.aliasOf (b.seg i).Data.lineDef).index
      b.setSide al (b.seg i).Sector SIDE_SPLIT
    else b) b

/-- The branch of `CreateNODES` for the algorithms 1 and 2: aliases, sector bounds and the
side table. -/
def CreateNODES.tables (b : Builder) (level : DoomLevel) : Except Halt Builder :=
  let (b, aliasList) := GetLineDefAliases b level.lineDefs.length
  let b := { b with lineUsed := List.replicate b.noAliases false,
                    scan := { b.scan with lineChecked := List.replicate b.noAliases false } }
  let bound := GetSectorBounds level
  match GetSectorInfo b.sectorCount bound with
  | .error e => .error e
  | .ok sectInfo => .ok (CreateNODES.ownRight (CreateSideInfo b level bound sectInfo aliasList))

/-- The branch of `CreateNODES` for algorithm 3: every linedef is its own alias and every
entry of the side table, one row of `segCount` entries shared by all aliases, is SPLIT. -/
def CreateNODES.lite (b : Builder) (level : DoomLevel) : Builder :=
  let noAliases := level.lineDefs.length
  { b with noAliases := noAliases,
           lineDefAlias := (List.range noAliases).map (fun (i : Nat) => ⟨(i : Int), false⟩),
           sideInfo := some (List.replicate noAliases (List.replicate b.segCount SIDE_SPLIT)),
           lineUsed := List.replicate noAliases false,
           scan := { b.scan with lineChecked := List.replicate noAliases false } }

/-- The arrays that `CreateNODES` hands to the level: `GetVertices ()`, `GetSegs ()`,
`GetSSectors ( firstSSector )` and `GetNodes ()`. -/
structure LevelData where
  vertices : List wVertex
  segs : List wSegs
  ssectors : List wSSector
  nodes : Option (List wNode)
deriving DecidableEq, Repr, Inhabited

/-- `GetVertices ()`. -/
def GetVertices (b : Builder) : List wVertex := b.newVertices.take b.noVertices

/-- `GetSSectors ( first )`, `first` being the start of the pool. -/
def GetSSectors (b : Builder) : List wSSector := b.ssectorPool.take b.ssectorCount

/-- `GetSegs ()`. -/
def GetSegs (b : Builder) : List wSegs := (b.segStart.take b.segCount).map (fun s => s.Data)

/-- The partition function `CreateNODES` selects for `options->algorithm`. -/
def CreateNODES.partitionFunction (options : sBSPOptions) : PartitionFn :=
  if options.algorithm = 3 then Algorithm3
  else if options.algorithm = 2 then Algorithm2
  else Algorithm1

/-- The first statements of `CreateNODES`: the variables are initialised from the level
(as `TrimVertices` and `PackVertices` leave it) and the options.  The product with
`FACTOR_VERTEX` (1.7) is converted to `int`, here by integer division. -/
def CreateNODES.init (b : Builder) (level : DoomLevel) (options : sBSPOptions) : Builder :=
  let noVertices := level.vertices.length
  let maxVertices := 17 * noVertices / 10
  { b with
    X2 := if b.X2 = 0 then 1 else b.X2
    Y2 := if b.Y2 = 0 then 1 else b.Y2
    uniqueSubsectors := options.keepUnique.isSome
    nodeStart := none
    segStart := []
    nodeCount := 0
    ssectorCount := 0
    noVertices := noVertices
    sectorCount := level.sectorCount
    keepUnique := match options.keepUnique with
      | some k => k.take level.sectorCount ++
          List.replicate (level.sectorCount - k.length) false
      | none => List.replicate level.sectorCount true
    maxVertices := maxVertices
    newVertices := level.vertices ++ List.replicate (maxVertices - noVertices) default
    scan := { b.scan with usedSector := List.replicate level.sectorCount 0 } }

/-- The statements of `CreateNODES` between `CreateSegs` and the call of `CreateNode`: the
tables are set up and the pools are allocated.  The products with `FACTOR_NODE` (2.2) and
`FACTOR_SSECTOR` (50.0) are converted to `int`, here by integer division. -/
def CreateNODES.prepare (b : Builder) (level : DoomLevel) (options : sBSPOptions) :
    Except Halt Builder :=
  match (if options.algorithm ≠ 3 then CreateNODES.tables b level
         else .ok (CreateNODES.lite b level)) with
  | .error e => .error e
  | .ok b =>
    .ok { b with
      scan := { b.scan with
        score := if options.algorithm = 2 then List.replicate b.noAliases default else [],
        convexList := [] },
      nodesLeft := 22 * level.lineDefs.length / 10,
      nodePool := [],
      ssectorsLeft := 50 * level.sectorCount,
      ssectorPool := [] }

/-- The statements of `CreateNODES` up to the call of `CreateNode`. -/
def CreateNODES.setup (atanBAM : Int → Int → Nat) (b : Builder) (level : DoomLevel)
    (options : sBSPOptions) : Except Halt Builder :=
  CreateNODES.prepare (CreateSegs atanBAM (CreateNODES.init b level options) level options)
    level options

/-- `CreateNODES ( level, options )`: the final variables and the arrays handed to the
level.  The recursion budget of `CreateNode` is the size of the node pool plus one (every
call takes a node from the pool). -/
def CreateNODES (atanBAM : Int → Int → Nat) (b : Builder) (level : DoomLevel)
    (options : sBSPOptions) : Except Halt (Builder × LevelData) :=
  match CreateNODES.setup atanBAM b level options with
  | .error e => .error e
  | .ok b =>
    match CreateNode (CreateNODES.partitionFunction options) (b.nodesLeft + 1) b none 0
        b.segCount with
    | .error e => .error e
    | .ok (b, _, _, _) =>
      let b := { b with sideInfo := none }
      .ok (b, { vertices := GetVertices b, segs := GetSegs b, ssectors := GetSSectors b,
                nodes := GetNodes b })

/-! ## Notions used by the statements -/

/-- The coordinates of the live vertices are pairwise distinct. -/
def Builder.DistinctVertices (b : Builder) : Prop :=
  ∀ i j, i < j → j < b.noVertices → b.vertex i ≠ b.vertex j

/-- The start vertex of the seg `segStart [i]`. -/
def Builder.vertS (b : Builder) (i : Nat) : wVertex := b.vertex (b.seg i).Data.start

/-- The end vertex of the seg `segStart [i]`. -/
def Builder.vertE (b : Builder) (i : Nat) : wVertex := b.vertex (b.seg i).Data.end_

/-- Both ends of the seg `segStart [i]` have coordinates in the range of a `SHORT`. -/
def Builder.ShortEnds (b : Builder) (i : Nat) : Prop :=
  IsSHORT (b.vertS i).x ∧ IsSHORT (b.vertS i).y ∧ IsSHORT (b.vertE i).x ∧ IsSHORT (b.vertE i).y

/-- The rounded intersection of the line of the seg `segStart [i]` with the partition
line, as `IsZero` and `DivideSeg` compute it. -/
def Builder.splitPoint (b : Builder) (i : Nat) : Int × Int :=
  let vertS := b.vertS i
  let vertE := b.vertE i
  let dx := vertE.x - vertS.x
  let dy := vertE.y - vertS.y
  let c := vertE.y * vertS.x - vertE.x * vertS.y
  let det := dx * b.st.DY - dy * b.st.DX
  (roundDiv (b.st.C * dx - c * b.st.DX) det, roundDiv (b.st.C * dy - c * b.st.DY) det)

/-- The cross product `DX * ( y - Y ) - DY * ( x - X )` of a point with the partition. -/
def Builder.cross (b : Builder) (v : wVertex) : Int :=
  b.st.DX * (v.y - b.st.Y) - b.st.DY * (v.x - b.st.X)

/-- The right half that `DivideSeg` makes of the seg `r`, cut at vertex `v`, when the
start of `r` has cross product `sideS`; `d` is the distance from the start of `r` to the
cut. -/
def rightHalf (r : SEG) (sideS : Int) (v d : Nat) : SEG :=
  if sideS < 0 then { r with Data := { r.Data with end_ := v } }
  else { r with Data := { r.Data with start := v, offset := toUSHORT (r.Data.offset + d) } }

/-- The left half that `DivideSeg` makes of the copy `l` of the seg. -/
def leftHalf (l : SEG) (sideS : Int) (v d : Nat) : SEG :=
  if sideS < 0 then
    { l with Data := { l.Data with start := v, offset := toUSHORT (l.Data.offset + d) } }
  else { l with Data := { l.Data with end_ := v } }

/-- The value `( USHORT ) hypot ( x - vertS->x, y - vertS->y )` of `DivideSeg` for the
seg `segStart [i]`: the distance from its start to the exact intersection, rounded
down. -/
def Builder.splitDist (b : Builder) (i : Nat) : Nat :=
  let vertS := b.vertS i
  let vertE := b.vertE i
  let dx := vertE.x - vertS.x
  let dy := vertE.y - vertS.y
  let c := vertE.y * vertS.x - vertE.x * vertS.y
  let det := dx * b.st.DY - dy * b.st.DX
  let xNum := b.st.C * dx - c * b.st.DX
  let yNum := b.st.C * dy - c * b.st.DY
  toUSHORT (isqrt
    (((xNum - vertS.x * det) ^ 2 + (yNum - vertS.y * det) ^ 2).toNat / (det * det).toNat))

/-- Both ends of the seg `p` lie on the line through the two ends of the seg `q`. -/
def Builder.OnLineOf (b : Builder) (p q : SEG) : Prop :=
  let S := b.vertex q.Data.start
  let E := b.vertex q.Data.end_
  (E.x - S.x) * ((b.vertex p.Data.start).y - S.y) - (E.y - S.y) * ((b.vertex p.Data.start).x - S.x) = 0 ∧
  (E.x - S.x) * ((b.vertex p.Data.end_).y - S.y) - (E.y - S.y) * ((b.vertex p.Data.end_).x - S.x) = 0

instance (b : Builder) (p q : SEG) : Decidable (b.OnLineOf p q) := by
  unfold Builder.OnLineOf; infer_instance

/-- The variables that neither the choice of a partition nor the sorting and splitting
of segs writes, together with the number of segs. -/
def Builder.core (b : Builder) :
    List wSSector × List NODE × Nat × Option Nat × List Bool × Bool × Nat × Nat × Nat :=
  (b.ssectorPool, b.nodePool, b.nodeCount, b.nodeStart, b.keepUnique, b.uniqueSubsectors,
   b.sectorCount, b.maxSegs, b.segCount)

/-- The node `m` has the id, the `Next` pointer and the two child ids of the node `n`. -/
def SameLinks (n m : NODE) : Prop :=
  m.id = n.id ∧ m.Next = n.Next ∧ m.Data.child0 = n.Data.child0 ∧ m.Data.child1 = n.Data.child1

/-- The subsectors of the list address consecutive runs of segs that begin at seg `a`
and end just before seg `z`; the two fields of a subsector are the 16-bit values of the
first seg and of the length of its run. -/
def Tiles : Nat → List wSSector → Nat → Prop
  | a, [], z => a = z
  | a, s :: rest, z => ∃ m, s.first = toUSHORT a ∧ s.num = toUSHORT m ∧ Tiles (a + m) rest z

/-! ## The tree in the node pool -/

/-- The node `pool [i]`. -/
def nodeAt (pool : List NODE) (i : Nat) : NODE := pool.getD i default

/-- The test `id & 0x8000` of `GetNodes`: the id is that of a subsector. -/
def isSubsector (id : Nat) : Bool := id &&& 0x8000 != 0

/-- The shape of the calls of `CreateNode`: a leaf call, or a call that partitions, with
the shapes of its right and its left recursive call; `i` is the index in the pool of the
node the call takes. -/
inductive Shape where
  | leaf (i : Nat)
  | node (i : Nat) (r l : Shape)

/-- The node of the call itself. -/
def Shape.root : Shape → Nat
  | .leaf i => i
  | .node i _ _ => i

/-- The first node the calls complete: the leaf reached by going right. -/
def Shape.first : Shape → Nat
  | .leaf i => i
  | .node _ r _ => r.first

/-- The nodes in the order in which their calls complete. -/
def Shape.order : Shape → List Nat
  | .leaf i => [i]
  | .node i r l => r.order ++ l.order ++ [i]

/-- The calls take the pool entries `lo .. hi - 1`, in the order of the calls: first
the node itself, then the entries of the right call, then those of the left call. -/
def Shape.Spans : Shape → Nat → Nat → Prop
  | .leaf i, lo, hi => i = lo ∧ hi = lo + 1
  | .node i r l, lo, hi => i = lo ∧ ∃ m, r.Spans (lo + 1) m ∧ l.Spans m hi

/-- The ids in the pool fit the shape: a leaf call has left the id of a subsector, a
partitioning call an id without the bit `0x8000` and, in the two child fields, the ids of
the nodes its two recursive calls returned. -/
def Shape.Built (pool : List NODE) : Shape → Prop
  | .leaf i => isSubsector (nodeAt pool i).id = true
  | .node i r l =>
    isSubsector (nodeAt pool i).id = false ∧
    (nodeAt pool i).Data.child0 = (nodeAt pool r.root).id ∧
    (nodeAt pool i).Data.child1 = (nodeAt pool l.root).id ∧
    r.Built pool ∧ l.Built pool

/-- The `Next` pointers inside the shape: the node of the right call points to the first
node of the left call, the node of the left call to the node of the call itself. -/
def Shape.Linked (pool : List NODE) : Shape → Prop
  | .leaf _ => True
  | .node i r l =>
    r.Linked pool ∧ l.Linked pool ∧
    (nodeAt pool r.root).Next = some l.first ∧ (nodeAt pool l.root).Next = some i

/-- The nodes of a list that are not subsectors. -/
def interiorOf (pool : List NODE) (l : List Nat) : List Nat :=
  l.filter (fun x => !isSubsector (nodeAt pool x).id)

/-- The ids of the interior nodes of the shape, in the order in which their calls
complete. -/
def Shape.ids (pool : List NODE) (t : Shape) : List Nat :=
  (interiorOf pool t.order).map (fun x => (nodeAt pool x).id)

/-- In every partitioning call of the shape, a child id that is not a subsector id is
smaller than the id of the node. -/
def Shape.Ordered (pool : List NODE) : Shape → Prop
  | .leaf _ => True
  | .node i r l =>
    (isSubsector (nodeAt pool i).Data.child0 = false →
      (nodeAt pool i).Data.child0 < (nodeAt pool i).id) ∧
    (isSubsector (nodeAt pool i).Data.child1 = false →
      (nodeAt pool i).Data.child1 < (nodeAt pool i).id) ∧
    r.Ordered pool ∧ l.Ordered pool

/-- What a call of `CreateNode` that turns the builder `b` into `b2` has done to the
node pool, `t` being the shape of the call. -/
def NodePost (b : Builder) (prev : Option Nat) (b2 : Builder) (t : Shape) : Prop :=
  t.Spans b.nodePool.length b2.nodePool.length ∧
  t.Built b2.nodePool ∧ t.Linked b2.nodePool ∧
  t.ids b2.nodePool = List.range' b.nodeCount (b2.nodeCount - b.nodeCount) ∧
  b.nodeCount ≤ b2.nodeCount ∧
  (isSubsector (nodeAt b2.nodePool t.root).id = false →
    (nodeAt b2.nodePool t.root).id + 1 = b2.nodeCount) ∧
  (nodeAt b2.nodePool t.root).Next = none ∧
  (∀ p, prev = some p →
    (nodeAt b2.nodePool p).Next = some t.first ∧
    (nodeAt b2.nodePool p).id = (nodeAt b.nodePool p).id ∧
    (nodeAt b2.nodePool p).Data = (nodeAt b.nodePool p).Data) ∧
  (∀ j, j < b.nodePool.length → prev ≠ some j → nodeAt b2.nodePool j = nodeAt b.nodePool j) ∧
  (b.nodeStart = none → b2.nodeStart = some t.first) ∧
  (b.nodeStart ≠ none → b2.nodeStart = b.nodeStart)

/-- The node pool of `b1` is that of `b` after `CreateNode` has taken its node, cleared
its `Next` and linked it to `prev`, whatever has since been stored in the data of the
node. -/
def Entered (b : Builder) (prev : Option Nat) (b1 : Builder) : Prop :=
  b1.nodePool.length = b.nodePool.length + 1 ∧
  (nodeAt b1.nodePool b.nodePool.length).Next = none ∧
  (∀ j, j < b.nodePool.length → prev ≠ some j → nodeAt b1.nodePool j = nodeAt b.nodePool j) ∧
  (∀ p, prev = some p →
    (nodeAt b1.nodePool p).Next = some b.nodePool.length ∧
    (nodeAt b1.nodePool p).id = (nodeAt b.nodePool p).id ∧
    (nodeAt b1.nodePool p).Data = (nodeAt b.nodePool p).Data) ∧
  b1.nodeCount = b.nodeCount ∧ b1.nodeStart = b.nodeStart

/-- The `Next` pointers lead through the nodes of the list, one after the other, and
from the last node of the list to `nxt`. -/
def Chain (pool : List NODE) : List Nat → Option Nat → Prop
  | [], _ => True
  | x :: rest, nxt =>
    (nodeAt pool x).Next = (match rest with | [] => nxt | y :: _ => some y) ∧
    Chain pool rest nxt

/-! ## The sectors of the segs -/

/-- Every seg of the array belongs to one of the `n` sectors. -/
def SegsValid (n : Nat) (l : List SEG) : Prop := 0 < n ∧ ∀ s ∈ l, s.Sector < n

/-- What the steps of the build do to the seg array when they work on segs from index
`base` on: the array keeps its length, the segs before `base` stay as they are, and the
segs keep to the sectors of the map. -/
def SegStep (base : Nat) (l l2 : List SEG) : Prop :=
  l2.length = l.length ∧ (∀ i, i < base → l2.getD i default = l.getD i default) ∧
  ∀ n, SegsValid n l → SegsValid n l2

/-- Every entry of the seg array, used or not, has the number of a sector of the map. -/
def Builder.ValidSectors (b : Builder) : Prop := ∀ i, (b.seg i).Sector < b.sectorCount

/-- The `n` segs from seg `a` on do not mix a keep-unique sector with another sector:
they all belong to one sector, or none of their sectors is marked in `keepUnique`. -/
def Builder.Unmixed (b : Builder) (a n : Nat) : Prop :=
  (∀ i j, i < n → j < n → (b.seg (a + i)).Sector = (b.seg (a + j)).Sector) ∨
  (∀ i, i < n → b.keepUnique.getD (b.seg (a + i)).Sector false = false)

/-! ## The intersection with the partition line -/

/-- The determinant `dx * DY - dy * DX` of the seg `seg` and the partition. -/
def Builder.detOf (b : Builder) (seg : SEG) : Int :=
  ((b.vertex seg.Data.end_).x - (b.vertex seg.Data.start).x) * b.st.DY
    - ((b.vertex seg.Data.end_).y - (b.vertex seg.Data.start).y) * b.st.DX

/-- The numerators `C * dx - c * DX` and `C * dy - c * DY` of the two coordinates of the
intersection of the line of `seg` with the partition line; the denominator of both is
`detOf`. -/
def Builder.numOf (b : Builder) (seg : SEG) : Int × Int :=
  let vertS := b.vertex seg.Data.start
  let vertE := b.vertex seg.Data.end_
  let c := vertE.y * vertS.x - vertE.x * vertS.y
  (b.st.C * (vertE.x - vertS.x) - c * b.st.DX, b.st.C * (vertE.y - vertS.y) - c * b.st.DY)

/-- The exact intersection of the line of `seg` with the partition line, the values
`x` and `y` of `IsZero` and `DivideSeg`. -/
def Builder.exactOf (b : Builder) (seg : SEG) : ℚ × ℚ :=
  (((b.numOf seg).1 : ℚ) / (b.detOf seg), ((b.numOf seg).2 : ℚ) / (b.detOf seg))

/-- The integer point `( newX, newY )` of `IsZero` for `seg`. -/
def Builder.roundedOf (b : Builder) (seg : SEG) : Int × Int :=
  (roundDiv (b.numOf seg).1 (b.detOf seg), roundDiv (b.numOf seg).2 (b.detOf seg))

/-! ## The labels of `_WhichSide` for an off-axis partition -/

/-- The first value of a label: -1 or +1 for a cross product `t` outside `(-H, H)`, 0
when `t` or the cross product `t2` of the other end is 0, else the value `z` that `IsZero`
returns. -/
def rawLabel (H t t2 z : Int) : Int :=
  if t ≤ -H then -1 else if t ≥ H then 1 else if t = 0 ∨ t2 = 0 then 0 else z

/-- The three statements of `_WhichSide` that follow the computation of the two labels: a
label of magnitude above 1 is set to 0 when the other label is 0, and both are set to 0
when both have a magnitude above 1. -/
def cleanLabels (y1 y2 : Int) : Int × Int :=
  let y1 := if (y1 < -1 ∨ y1 > 1) ∧ y2 = 0 then 0 else y1
  let y2 := if (y2 < -1 ∨ y2 > 1) ∧ y1 = 0 then 0 else y2
  if (y1 < -1 ∨ y1 > 1) ∧ (y2 < -1 ∨ y2 > 1) then (0, 0) else (y1, y2)

/-! ## The segs of a linedef -/

/-- The segs that linedef `i` yields when `reduceLineDefs` is off: none for a linedef
with coincident end points or one flagged in `ignoreLineDef`; otherwise the seg of the
right side, if that side is present, followed by the seg of the left side, if that side
is present. -/
def lineDefSegs (atanBAM : Int → Int → Nat) (b : Builder) (level : DoomLevel)
    (options : sBSPOptions) (i : Nat) : List SEG :=
  let lineDef := level.lineDefs.getD i default
  let dx := (b.vertex lineDef.end_).x - (b.vertex lineDef.start).x
  let dy := (b.vertex lineDef.end_).y - (b.vertex lineDef.start).y
  let angle := CreateSegs.angle atanBAM dx dy
  let noSplit := match options.dontSplit with
    | some ds => ds.getD i false
    | none => false
  let ignored := match options.ignoreLineDef with
    | some ign => ign.getD i false
    | none => false
  if b.vertex lineDef.start = b.vertex lineDef.end_ ∨ ignored = true then []
  else
    (if lineDef.sideDef0 = NO_SIDEDEF then []
     else [{ Data := { start := lineDef.start, end_ := lineDef.end_, angle := angle,
                       lineDef := i, flip := 0, offset := 0 },
             Sector := (level.sideDefs.getD lineDef.sideDef0 default).sector, Side := 0,
             noSplit := noSplit }]) ++
    (if lineDef.sideDef1 = NO_SIDEDEF then []
     else [{ Data := { start := lineDef.end_, end_ := lineDef.start,
                       angle := (angle + BAM180) % 65536,
                       lineDef := i, flip := 1, offset := 0 },
             Sector := (level.sideDefs.getD lineDef.sideDef1 default).sector, Side := 0,
             noSplit := noSplit }])

/-! ## The progress of the recursion -/

/-- The variables that `PartitionNode` leaves alone, apart from those of `core`: the size
of the node pool, the marks of the used aliases, the alias table and the side table. -/
def Builder.tables (b : Builder) : Nat × List Bool × List sAlias × Option (List (List Int)) × Nat :=
  (b.nodesLeft, b.lineUsed, b.lineDefAlias, b.sideInfo, b.noAliases)

/-- The builder that `ChoosePartition` hands to the partition function: `lineChecked` has
been overwritten with the `noAliases` entries of `lineUsed`. -/
def ChoosePartition.input (b : Builder) : Builder :=
  { b with scan := { b.scan with
    lineChecked := blit b.scan.lineChecked 0 (b.lineUsed.take b.noAliases) } }

/-- The alias of the linedef of the seg `segStart [p]`. -/
def Builder.aliasAt (b : Builder) (p : Nat) : Int := (b.aliasOf (b.seg p).Data.lineDef).index

/-- The partition function, called on the list `( segs, noSegs )`, returns no seg or a
seg of the list whose alias is not marked in `lineChecked`. -/
def ReturnsUnchecked (pf : PartitionFn) (b : Builder) (segs noSegs : Nat) : Prop :=
  ∀ p scan, pf b segs noSegs = (some p, scan) →
    segs ≤ p ∧ p < segs + noSegs ∧ readI b.scan.lineChecked (b.aliasAt p) = false

/-- The side of a seg with respect to its own line. -/
def selfSide (b : Builder) (seg : SEG) : Int := WhichSide (ComputeStaticVariables b seg) seg

/-- Every alias marked in `old` is marked in `new`, and `new` marks at least one alias
more. -/
def MoreUsed (old new : List Bool) : Prop :=
  (∀ a, old.getD a false = true → new.getD a false = true) ∧
  ∃ a, old.getD a false = false ∧ new.getD a false = true

/-! ## The choice of `Algorithm2` -/

/-- The candidates that `Algorithm2` has scored when its first loop ends, in the order in
which they were stored. -/
def Algorithm2.candidates (b : Builder) (segs noSegs : Nat) : List sScoreInfo :=
  (Algorithm2.scan b segs noSegs).1.scan.score.take (Algorithm2.scan b segs noSegs).2

/-- The side of seg `j` of the list with respect to seg `i` of the list. -/
def sideOf (b : Builder) (segs i j : Nat) : Int :=
  WhichSide (ComputeStaticVariables b (b.seg (segs + i))) (b.seg (segs + j))

/-- Seg `i` of the list is an eligible candidate: its alias is not marked in `lineChecked`
and is not the alias of an earlier seg of the list (not yet checked), and some seg of the
list is not on its right side (not convex). -/
def eligible (b : Builder) (segs noSegs i : Nat) : Bool :=
  !(readI b.scan.lineChecked (b.aliasAt (segs + i))) &&
  (List.range i).all (fun k => b.aliasAt (segs + k) != b.aliasAt (segs + i)) &&
  (List.range noSegs).any (fun j => sideOf b segs i j != SIDE_RIGHT)

/-- The number of segs of the list with `noSplit` set that seg `i` of the list, as the
partition, would split. -/
def invalidOf (b : Builder) (segs noSegs i : Nat) : Nat :=
  (List.range noSegs).countP (fun j => sideOf b segs i j == SIDE_SPLIT && (b.seg (segs + j)).noSplit)

/-- The dense rank of the candidate `c` among the candidates `cands` by `key`,
descending: the number of distinct values of `key` among the candidates that are greater
than that of `c`. -/
def denseRank (key : sScoreInfo → Int) (cands : List sScoreInfo) (c : sScoreInfo) : Nat :=
  ((cands.map key).toFinset.filter (fun v => key c < v)).card

/-- The sum of the dense rank by `metric1` and the dense rank by `metric2`. -/
def totalRank (cands : List sScoreInfo) (c : sScoreInfo) : Int :=
  (denseRank (fun s => s.metric1) cands c : Int) + denseRank (fun s => s.metric2) cands c

/-- The lexicographic order of triples. -/
def lexLE (a b : Int × Int × Int) : Prop :=
  a.1 < b.1 ∨ (a.1 = b.1 ∧ (a.2.1 < b.2.1 ∨ (a.2.1 = b.2.1 ∧ a.2.2 ≤ b.2.2)))

instance (a b : Int × Int × Int) : Decidable (lexLE a b) := by unfold lexLE; infer_instance

/-- The assignment of a rank to the field `total` in the ranking loops of `Algorithm2`. -/
def withRank (add : Bool) (c : sScoreInfo) (rank : Int) : sScoreInfo :=
  { c with total := if add then c.total + rank else rank }

/-- The ranking loop of `Algorithm2` as a function of the list of candidates: the first
gets `rank`, and the rank grows from one candidate to the next where their keys differ. -/
def rankList (key : sScoreInfo → Int) (add : Bool) : Int → List sScoreInfo → List sScoreInfo
  | _, [] => []
  | rank, [c] => [withRank add c rank]
  | rank, c :: d :: rest =>
    withRank add c rank :: rankList key add (if key c ≠ key d then rank + 1 else rank) (d :: rest)

/-- The state `s` of the first loop of `Algorithm2` when it comes to seg `k` of the list,
in terms of the builder `b` at the call: the tables and the segs are those of `b`, an
alias is marked in `lineChecked` when it was marked at the call or is the alias of a seg
before seg `k`, the array `score` has room for the candidates to come, and the candidates
stored are the eligible segs before seg `k`, in their order, each with its number of
invalid splits. -/
def Algorithm2.Scanned (b : Builder) (segs noSegs k : Nat) (s : Builder × Nat) : Prop :=
  s.1.lineDefAlias = b.lineDefAlias ∧ s.1.sideInfo = b.sideInfo ∧
  s.1.newVertices = b.newVertices ∧ s.1.segStart = b.segStart ∧
  s.1.scan.lineChecked.length = b.noAliases ∧
  (∀ a : Nat, a < b.noAliases →
    (s.1.scan.lineChecked.getD a false = true ↔
      (b.scan.lineChecked.getD a false = true ∨ ∃ j, j < k ∧ b.aliasAt (segs + j) = (a : Int)))) ∧
  s.1.scan.score.length = b.noAliases ∧
  s.2 + s.1.scan.lineChecked.count false ≤ b.noAliases ∧
  (s.1.scan.score.take s.2).map (fun c => (c.index, c.invalid))
    = ((List.range k).filter (eligible b segs noSegs)).map
        (fun (i : Nat) => ((i : Int), (invalidOf b segs noSegs i : Int)))

/-! ## The layout that `SortSegs` leaves -/

/-- The seg `s` with the `Side` that `WhichSide` assigns to it. -/
def withSide (b : Builder) (s : SEG) : SEG := { s with Side := WhichSide b s }

/-- The segs of a list that carry the label `side`, in the order of the list. -/
def onSide (side : Int) (l : List SEG) : List SEG := l.filter (fun s => s.Side == side)

/-! ## The rows of the side table -/

/-- The row `sideInfo [al]` of the side table; the empty list when there is no table. -/
def Builder.sideRow (b : Builder) (al : Int) : List Int :=
  match b.sideInfo with
  | some info => readI info al
  | none => []

/-! ## The side table and the bounding rectangles -/

/-- The point `v` lies in the rectangle `bd`, its border included. -/
def wBound.Holds (bd : wBound) (v : wVertex) : Prop :=
  bd.minx ≤ v.x ∧ v.x ≤ bd.maxx ∧ bd.miny ≤ v.y ∧ v.y ≤ bd.maxy

/-- The four corners of a rectangle. -/
def wBound.corners (bd : wBound) : List wVertex :=
  [⟨bd.minx, bd.miny⟩, ⟨bd.maxx, bd.miny⟩, ⟨bd.minx, bd.maxy⟩, ⟨bd.maxx, bd.maxy⟩]

/-- The rectangle of sector `x` lies in the rectangle of sector `s`: the test of
`GetSectorInfo`. -/
def Contains (bound : List wBound) (s x : Nat) : Prop :=
  (bound.getD x default).minx ≥ (bound.getD s default).minx ∧
  (bound.getD x default).maxx ≤ (bound.getD s default).maxx ∧
  (bound.getD x default).miny ≥ (bound.getD s default).miny ∧
  (bound.getD x default).maxy ≤ (bound.getD s default).maxy

/-- The label that `_WhichSide` gives to the point `v` for a partition from `S` to `E`
that runs along an axis. -/
def axisLabel (S E v : wVertex) : Int :=
  if E.x - S.x = 0 then (if E.y - S.y > 0 then S.x - v.x else v.x - S.x)
  else (if E.x - S.x > 0 then v.y - S.y else S.y - v.y)

/-- The entry `side` of sector `x`, for the partition from `S` to `E`, is backed by the
rectangle of a sector `s`: the rectangle of `x` lies in it, and the labels of its four
corners are all at least 0 for LEFT, all at most 0 for RIGHT. -/
def Backed (S E : wVertex) (bound : List wBound) (x : Nat) (side : Int) : Prop :=
  ∃ s, Contains bound s x ∧
    ∀ c ∈ (bound.getD s default).corners,
      (side = SIDE_LEFT → 0 ≤ axisLabel S E c) ∧ (side = SIDE_RIGHT → axisLabel S E c ≤ 0)

/-- What the rounds of `CreateSideInfo` leave alone: the segs, the alias table, the
variables of the partition, the size of the vertex table and every vertex but the two
after the `v` vertices of the level, and the presence of the side table. -/
def TableStep (v : Nat) (b b2 : Builder) : Prop :=
  b2.segStart = b.segStart ∧ b2.lineDefAlias = b.lineDefAlias ∧
  b2.scan.statics = b.scan.statics ∧ b2.newVertices.length = b.newVertices.length ∧
  (∀ j, j ≠ v → j ≠ v + 1 → b2.vertex j = b.vertex j) ∧
  b2.sideInfo.isSome = b.sideInfo.isSome

/-- The builder with the lower edge of the rectangle `bd` in the two vertices after the
`v` vertices of the level, as `CreateSideInfo` stores it. -/
def lowerEdge (v : Nat) (bd : wBound) (b : Builder) : Builder :=
  (b.setVertex v ⟨bd.minx, bd.miny⟩).setVertex (v + 1) ⟨bd.maxx, bd.miny⟩

/-- The builder with the two vertices moved up to the upper edge of the rectangle. -/
def upperEdge (v : Nat) (bd : wBound) (b : Builder) : Builder :=
  (b.setVertex v { b.vertex v with y := bd.maxy }).setVertex (v + 1)
    { (b.setVertex v { b.vertex v with y := bd.maxy }).vertex (v + 1) with y := bd.maxy }

/-- The seg `testSeg` of `CreateSideInfo`: it runs between the two vertices after the
vertices of the level and belongs to the linedef after the last linedef. -/
def CreateSideInfo.testSeg (level : DoomLevel) : SEG :=
  { Data := { start := toUSHORT level.vertices.length,
              end_ := toUSHORT (level.vertices.length + 1), angle := 0,
              lineDef := toUSHORT level.lineDefs.length, flip := 0, offset := 0 },
    Sector := 0, Side := 0, noSplit := false }

/-! ## The metrics of the partition functions -/

/-- The value `bestMetric` of `Algorithm1` and `Algorithm3` for a list of `noSegs` segs. -/
def bestMetric (noSegs : Nat) : Int := (noSegs / 2 : Nat) * (noSegs - noSegs / 2 : Nat)

/-- The numbers of segs of the list on the left of seg `i` of the list, split by it and
on its right, seg `i` being the partition. -/
def countsOf (b : Builder) (segs noSegs i : Nat) : Counts :=
  { lCount := ((List.range noSegs).countP (fun j => sideOf b segs i j == SIDE_LEFT) : Nat)
    sCount := ((List.range noSegs).countP (fun j => sideOf b segs i j == SIDE_SPLIT) : Nat)
    rCount := ((List.range noSegs).countP (fun j => sideOf b segs i j == SIDE_RIGHT) : Nat) }

/-- The metric that `Algorithm1` and `Algorithm3` compute for seg `i` of the list from
the counts of the whole list. -/
def metricOf (b : Builder) (segs noSegs i : Nat) : Int :=
  classicMetric (ComputeStaticVariables b (b.seg (segs + i))) (countsOf b segs noSegs i)

/-- The counts `c` after the sides `side k` of the segs `k` of `l` have been counted. -/
def Counts.add (c : Counts) (side : Nat → Int) (l : List Nat) : Counts :=
  { lCount := c.lCount + (l.countP (fun k => side k == SIDE_LEFT) : Nat)
    sCount := c.sCount + (l.countP (fun k => side k == SIDE_SPLIT) : Nat)
    rCount := c.rCount + (l.countP (fun k => side k == SIDE_RIGHT) : Nat) }

/-! ## The scan of the candidates -/

/-- Seg `i` of the list is the first seg of the list with its alias, and this alias is
not marked in `lineChecked`: the partition functions test this seg, and no other seg of
its alias. -/
def fresh (b : Builder) (segs i : Nat) : Bool :=
  !(readI b.scan.lineChecked (b.aliasAt (segs + i))) &&
  (List.range i).all (fun k => b.aliasAt (segs + k) != b.aliasAt (segs + i))

/-- Seg `i` of the list is tested and found convex: it is the first seg of an unchecked
alias, and every seg of the list is on its right side. -/
def convexAt (b : Builder) (segs noSegs i : Nat) : Bool :=
  fresh b segs i && !(List.range noSegs).any (fun j => sideOf b segs i j != SIDE_RIGHT)

/-- The aliases of the segs before seg `k` of the list that are tested and found
convex, in the order of the segs. -/
def convexOf (b : Builder) (segs noSegs k : Nat) : List Int :=
  ((List.range k).filter (convexAt b segs noSegs)).map (fun i => b.aliasAt (segs + i))

/-- The array `lineChecked` when a scan comes to seg `k` of the list: an alias is marked
when it was marked at the call or is the alias of a seg before seg `k`. -/
def Marked (b : Builder) (segs k : Nat) (lc : List Bool) : Prop :=
  lc.length = b.noAliases ∧
  ∀ a : Nat, a < b.noAliases →
    (lc.getD a false = true ↔
      (b.scan.lineChecked.getD a false = true ∨ ∃ j, j < k ∧ b.aliasAt (segs + j) = (a : Int)))

/-- The count of seg `i` of the list is cut short by `goto next`: an earlier eligible seg
`j` with a metric of at least 0 has fewer splits than seg `i`, by more than `extra`
(2 in `Algorithm1`, 0 in `Algorithm3`). -/
def CutShort (extra : Int) (b : Builder) (segs noSegs i : Nat) : Prop :=
  ∃ j, j < i ∧ eligible b segs noSegs j = true ∧ 0 ≤ metricOf b segs noSegs j ∧
    (countsOf b segs noSegs j).sCount + extra < (countsOf b segs noSegs i).sCount

/-- The common form of the loops of `Algorithm1` and `Algorithm3`, which differ in the
value stored in `maxSplits`: `sCount + 2` in `Algorithm1`, `sCount` in `Algorithm3`. -/
def Classic.loop (extra : Int) (segs noSegs : Nat) (bestMetric : Int) :
    Nat → Nat → Alg1State → Option Nat × Alg1State
  | 0, _, s => (none, s)
  | n + 1, i, s =>
    let testSeg := segs + i
    let al := (s.b.aliasOf (s.b.seg testSeg).Data.lineDef).index
    if readI s.b.scan.lineChecked al then Classic.loop extra segs noSegs bestMetric n (i + 1) s
    else
      let b := { s.b with scan := { s.b.scan with
        lineChecked := writeI s.b.scan.lineChecked al true } }
      let b := ComputeStaticVariables b (b.seg testSeg)
      match countSides b segs (if s.maxMetric < 0 then none else some s.maxSplits)
          noSegs 0 ⟨0, 0, 0⟩ with
      | none => Classic.loop extra segs noSegs bestMetric n (i + 1) { s with b := b }
      | some count =>
        if count.lCount + count.sCount ≠ 0 then
          let metric := classicMetric b count
          if metric = bestMetric then (some testSeg, { s with b := b })
          else if metric > s.maxMetric then
            Classic.loop extra segs noSegs bestMetric n (i + 1)
              { b := b, pSeg := some testSeg, maxSplits := count.sCount + extra,
                maxMetric := metric }
          else Classic.loop extra segs noSegs bestMetric n (i + 1) { s with b := b }
        else
          Classic.loop extra segs noSegs bestMetric n (i + 1)
            { s with b := { b with scan := { b.scan with
                convexList := b.scan.convexList ++ [al] } } }

/-- The state `s` of the loop of `Algorithm1` or `Algorithm3` when it comes to seg `k` of
the list, in terms of the builder `b` at the call: the tables, the segs and the constants
are those of `b`; the aliases of the segs before seg `k` have been marked; the aliases
found convex have been put on the convex list; and either no seg is stored in `pSeg`,
`maxMetric` has its first value, and no eligible seg before seg `k` has a greater metric,
or `pSeg` is an eligible seg `p` before seg `k`, `maxMetric` and `maxSplits` are its metric
and its number of splits plus `extra`, and every eligible seg before seg `k` has at most
this metric or had its count cut short. -/
def Classic.Scanned (extra : Int) (b : Builder) (segs noSegs k : Nat) (s : Alg1State) : Prop :=
  s.b.lineDefAlias = b.lineDefAlias ∧ s.b.sideInfo = b.sideInfo ∧
  s.b.newVertices = b.newVertices ∧ s.b.segStart = b.segStart ∧
  (s.b.X1 = b.X1 ∧ s.b.X2 = b.X2 ∧ s.b.X3 = b.X3 ∧ s.b.X4 = b.X4) ∧
  Marked b segs k s.b.scan.lineChecked ∧
  s.b.scan.convexList = b.scan.convexList ++ convexOf b segs noSegs k ∧
  ((s.pSeg = none ∧ s.maxMetric = -0x80000000 ∧
      ∀ i, i < k → eligible b segs noSegs i = true → metricOf b segs noSegs i ≤ -0x80000000) ∨
   (∃ p, p < k ∧ s.pSeg = some (segs + p) ∧ eligible b segs noSegs p = true ∧
      -0x80000000 < metricOf b segs noSegs p ∧ s.maxMetric = metricOf b segs noSegs p ∧
      s.maxSplits = (countsOf b segs noSegs p).sCount + extra ∧
      ∀ i, i < k → eligible b segs noSegs i = true →
        metricOf b segs noSegs i ≤ metricOf b segs noSegs p ∨ CutShort extra b segs noSegs i))

/-- The builder after the statements `lineChecked [alias] = true` and
`ComputeStaticVariables ( testSeg )` for seg `i` of the list. -/
def Classic.tested (s : Alg1State) (segs i : Nat) : Builder :=
  let al := (s.b.aliasOf (s.b.seg (segs + i)).Data.lineDef).index
  let b := { s.b with scan := { s.b.scan with lineChecked := writeI s.b.scan.lineChecked al true } }
  ComputeStaticVariables b (b.seg (segs + i))

/-- The result `r` of `Algorithm1` or `Algorithm3` after a scan of the first `m` segs of
the list, in terms of the builder `b` at the call.  Either no seg is returned, the whole
list has been scanned, and no eligible seg has a metric above the first value of
`maxMetric`; or an eligible seg `p` is returned, and either its metric is `bestMetric`
and the scan has ended at seg `p`, or every eligible seg among the first `m` has at most
the metric of seg `p` or had its count cut short.  In each case the aliases found convex
have been added to the convex list. -/
def Classic.Outcome (extra : Int) (b : Builder) (segs noSegs m : Nat)
    (r : Option Nat × Scan) : Prop :=
  (r.1 = none ∧ m = noSegs ∧
    r.2.convexList = b.scan.convexList ++ convexOf b segs noSegs m ∧
    ∀ i, i < noSegs → eligible b segs noSegs i = true →
      metricOf b segs noSegs i ≤ -0x80000000) ∨
  (∃ p, p < m ∧ r.1 = some (segs + p) ∧ eligible b segs noSegs p = true ∧
    ((metricOf b segs noSegs p = bestMetric noSegs ∧
        r.2.convexList = b.scan.convexList ++ convexOf b segs noSegs p) ∨
     (-0x80000000 < metricOf b segs noSegs p ∧
        r.2.convexList = b.scan.convexList ++ convexOf b segs noSegs m ∧
        ∀ i, i < m → eligible b segs noSegs i = true →
          metricOf b segs noSegs i ≤ metricOf b segs noSegs p ∨
            CutShort extra b segs noSegs i)))

/-- The first state of the loops of `Algorithm1` and `Algorithm3`. -/
def Classic.start (b : Builder) : Alg1State :=
  { b := b, pSeg := none, maxMetric := -0x80000000, maxSplits := 0x7FFFFFFF }

/-- The value that `Algorithm1` and `Algorithm3` return when their loop ends with the
result `r`. -/
def Classic.result (r : Option Nat × Alg1State) : Option Nat × Scan :=
  match r with
  | (some testSeg, s) => (some testSeg, s.b.scan)
  | (none, s) => (s.pSeg, s.b.scan)

/-- The scan goes on with `f` unless its first part has returned a seg. -/
def Classic.andThen (f : Alg1State → Option Nat × Alg1State) (r : Option Nat × Alg1State) :
    Option Nat × Alg1State :=
  match r with
  | (some testSeg, s) => (some testSeg, s)
  | (none, s) => f s

/-- The number of segs that `Algorithm3` scans, by the rule: from the bound `max` the
window grows by 5 segs at a time, up to the whole list, as long as no seg below the bound
is eligible.  The first argument bounds the number of windows. -/
def Algorithm3.stop (b : Builder) (segs noSegs : Nat) : Nat → Nat → Nat
  | 0, max => max
  | fuel + 1, max =>
    if max < noSegs ∧ (List.range max).all (fun i => !eligible b segs noSegs i) then
      Algorithm3.stop b segs noSegs fuel (if max + 5 > noSegs then noSegs else max + 5)
    else max

/-- The bookkeeping of a scan that began in the builder `b0`: an alias that the scan `sc`
leaves unchecked was unchecked in `b0`, and the convex list of `sc` is that of `b0` with
aliases added that were unchecked in `b0`. -/
def Pushed (b0 : Builder) (sc : Scan) : Prop :=
  (∀ a, readI sc.lineChecked a = false → readI b0.scan.lineChecked a = false) ∧
  ∃ pushes, sc.convexList = b0.scan.convexList ++ pushes ∧
    ∀ a, a ∈ pushes → readI b0.scan.lineChecked a = false

/-- Some entry of the list `es` is the index `a`. -/
def Hit (es : List Int) (a : Nat) : Prop := ∃ e, e ∈ es ∧ 0 ≤ e ∧ e.toNat = a

instance (es : List Int) (a : Nat) : Decidable (Hit es a) := by
  unfold Hit; infer_instance

/-- The id that the leaf path of `CreateNode` stores for subsector `k`:
`0x8000 | CreateSSector ( .. )`, both 16-bit values. -/
def subsectorId (k : Nat) : Nat := toUSHORT (0x8000 ||| toUSHORT k)

/-- The ids of the pool entries `lo .. hi - 1` that are subsector ids, in pool order. -/
def leafIds (pool : List NODE) (lo hi : Nat) : List Nat :=
  ((List.range' lo (hi - lo)).map (fun x => (nodeAt pool x).id)).filter isSubsector

/-- The child fields of the records of an array of nodes: `child [0]` and `child [1]` of
every record. -/
def childFields : List wNode → List Nat
  | [] => []
  | n :: rest => n.child0 :: n.child1 :: childFields rest

/-! ## Sample maps -/

/-- A seg with offset 0, for the sample maps. -/
def mkSeg (start end_ angle lineDef flip sector : Nat) : SEG :=
  { Data := { start := start, end_ := end_, angle := angle, lineDef := lineDef, flip := flip,
              offset := 0 },
    Sector := sector, Side := 0, noSplit := false }

/-- A builder as `CreateNODES` leaves it before the aliases are computed: the vertex
table with `maxVertices` slots, the seg array with `maxSegs` slots, empty pools with
`nodesLeft` and `ssectorsLeft` free slots, no alias table and no side table, the default
constants of the metric. -/
def mkBuilder (verts : List wVertex) (maxVertices : Nat) (segs : List SEG) (maxSegs : Nat)
    (nodesLeft ssectorsLeft sectorCount : Nat) : Builder :=
  { maxSegs := maxSegs, maxVertices := maxVertices, nodesLeft := nodesLeft, nodePool := [],
    nodeStart := none, nodeCount := 0,
    segStart := segs ++ List.replicate (maxSegs - segs.length) default,
    segCount := segs.length,
    ssectorsLeft := ssectorsLeft, ssectorPool := [], ssectorCount := 0,
    newVertices := verts ++ List.replicate (maxVertices - verts.length) default,
    noVertices := verts.length,
    sectorCount := sectorCount, keepUnique := List.replicate sectorCount true,
    uniqueSubsectors := false, lineUsed := [], noAliases := 0, lineDefAlias := [],
    sideInfo := none,
    scan := { lineChecked := [], convexList := [], statics := default,
              usedSector := List.replicate sectorCount 0, score := [] },
    X1 := 24, X2 := 5, X3 := 1, X4 := 25, Y1 := 1, Y2 := 7, Y3 := 1, Y4 := 0 }

/-- The builder with an alias table and a side table in which every entry is SPLIT, so
that `WhichSide` decides by the alias or by `_WhichSide`. -/
def withTables (b : Builder) (aliases : List sAlias) (noAliases : Nat) : Builder :=
  { b with lineDefAlias := aliases, noAliases := noAliases,
           lineUsed := List.replicate noAliases false,
           sideInfo := some (List.replicate noAliases (List.replicate b.sectorCount SIDE_SPLIT)),
           scan := { b.scan with lineChecked := List.replicate noAliases false } }

/-- Two linedefs whose lines cross half way between grid points: linedef 0 runs from
(0,1) to (1,2), linedef 1 from (-2,2) to (1,-1). -/
def diagonalBase : Builder :=
  withTables
    (mkBuilder [⟨0, 1⟩, ⟨1, 2⟩, ⟨-2, 2⟩, ⟨1, -1⟩] 6
      [mkSeg 0 1 0x2000 0 0 0, mkSeg 2 3 0xE000 1 0 0] 4 4 50 1)
    [⟨0, false⟩, ⟨1, false⟩, ⟨-1, false⟩] 2

/-- The map `diagonalBase` with the seg of linedef 0 as the current partition. -/
def diagonalMap : Builder := ComputeStaticVariables diagonalBase (diagonalBase.seg 0)

/-- Three one-sided linedefs at 45 degrees: linedef 0 from (0,0) to (10,10) and linedef 2
from (20,20) to (30,30) lie on the line `y = x`, linedef 1 from (0,1) to (1,2) lies on
the line `y = x + 1`. -/
def parallelMap : Builder :=
  mkBuilder [⟨0, 0⟩, ⟨10, 10⟩, ⟨0, 1⟩, ⟨1, 2⟩, ⟨20, 20⟩, ⟨30, 30⟩] 10
    [mkSeg 0 1 0x2000 0 0 0, mkSeg 2 3 0x2000 1 0 0, mkSeg 4 5 0x2000 2 0 0] 6 6 50 1

/-- As `parallelMap`, with linedef 1 moved away to the line `y = x + 40`, from (0,40) to
(10,50). -/
def apartMap : Builder :=
  mkBuilder [⟨0, 0⟩, ⟨10, 10⟩, ⟨0, 40⟩, ⟨10, 50⟩, ⟨20, 20⟩, ⟨30, 30⟩] 10
    [mkSeg 0 1 0x2000 0 0 0, mkSeg 2 3 0x2000 1 0 0, mkSeg 4 5 0x2000 2 0 0] 6 6 50 1

/-- The square room of side 1024 with a two-sided linedef across the middle: linedefs 0
to 3 are the walls, one-sided, the room on their right; linedef 4 runs from (0,512) to
(1024,512) between sector 0 below and sector 1 above.  Every linedef has its own
alias. -/
def dividedRoom : Builder :=
  withTables
    (mkBuilder [⟨0, 0⟩, ⟨1024, 0⟩, ⟨1024, 1024⟩, ⟨0, 1024⟩, ⟨0, 512⟩, ⟨1024, 512⟩] 10
      [mkSeg 0 3 0x4000 0 0 0, mkSeg 3 2 0 1 0 1, mkSeg 2 1 0xC000 2 0 0,
       mkSeg 1 0 0x8000 3 0 0, mkSeg 4 5 0 4 0 0, mkSeg 5 4 0x8000 4 1 1] 12 11 100 2)
    [⟨0, false⟩, ⟨1, false⟩, ⟨2, false⟩, ⟨3, false⟩, ⟨4, false⟩, ⟨-1, false⟩] 5

/-- The result of `CreateNode` with `Algorithm1` on the full seg list of `dividedRoom`:
the builder, the root node and the final values of `noSegs` and `nextSeg`. -/
def dividedRoomBuilt : Builder × Nat × Nat × Nat :=
  match CreateNode Algorithm1 10 dividedRoom none 0 dividedRoom.segCount with
  | .ok r => r
  | .error _ => default

/-- A square room of side 1024 whose four walls are one-sided, the room on their right;
the walls of linedefs 0 and 1 belong to sector 0, those of linedefs 2 and 3 to sector 1,
and both sectors are to be kept unique.  The room is convex, so no seg is a partition. -/
def twoSectorRoom : Builder :=
  { withTables
      (mkBuilder [⟨0, 0⟩, ⟨1024, 0⟩, ⟨1024, 1024⟩, ⟨0, 1024⟩] 8
        [mkSeg 0 3 0x4000 0 0 0, mkSeg 3 2 0 1 0 0, mkSeg 2 1 0xC000 2 0 1,
         mkSeg 1 0 0x8000 3 0 1] 8 7 50 2)
      [⟨0, false⟩, ⟨1, false⟩, ⟨2, false⟩, ⟨3, false⟩, ⟨-1, false⟩] 4 with
    uniqueSubsectors := true }

/-- The result of `CreateNode` with `Algorithm1` on the full seg list of
`twoSectorRoom`. -/
def twoSectorBuilt : Builder × Nat × Nat × Nat :=
  match CreateNode Algorithm1 10 twoSectorRoom none 0 twoSectorRoom.segCount with
  | .ok r => r
  | .error _ => default

/-- The result of the call of `PartitionNode` that `CreateNode` makes on the full seg list
of `twoSectorRoom`. -/
def twoSectorSplit : Bool × Builder × Nat × Nat :=
  match PartitionNode Algorithm1 (CreateNode.enter twoSectorRoom none) 0 0 4 with
  | .ok r => r
  | .error _ => default

/-- A partition at 45 degrees with a seg on either side: seg 0 runs from (0,0) to (4,4),
seg 1 from (2,0) to (4,0) lies below the line, seg 2 from (0,2) to (0,4) above it, and
seg 3 from (0,-1) to (-1,1) crosses it. -/
def slopeBase : Builder :=
  withTables
    (mkBuilder [⟨0, 0⟩, ⟨4, 4⟩, ⟨2, 0⟩, ⟨4, 0⟩, ⟨0, 2⟩, ⟨0, 4⟩, ⟨0, -1⟩, ⟨-1, 1⟩] 12
      [mkSeg 0 1 0x2000 0 0 0, mkSeg 2 3 0 1 0 0, mkSeg 4 5 0x4000 2 0 0,
       mkSeg 6 7 0x5000 3 0 0] 8 8 50 1)
    [⟨0, false⟩, ⟨1, false⟩, ⟨2, false⟩, ⟨3, false⟩, ⟨-1, false⟩] 4

/-- The map `slopeBase` with seg 0 as the current partition. -/
def slopeMap : Builder := ComputeStaticVariables slopeBase (slopeBase.seg 0)

/-- The variables as the program starts: null pointers, empty arrays and the default
constants of the metric. -/
def freshBuilder : Builder := mkBuilder [] 0 [] 0 0 0 0

/-- The options of a Classic build without any of the optional arrays. -/
def classicOptions : sBSPOptions :=
  { algorithm := 1, showProgress := false, reduceLineDefs := false, ignoreLineDef := none,
    dontSplit := none, keepUnique := none }

/-- The sector 0 or 1, by a flag. -/
def sectorOf (f : Bool) : Nat := if f then 1 else 0

/-- The H-divided room: the square room of side 1024 with the vertices (0,0), (1024,0),
(1024,1024), (0,1024), (0,512), (1024,512).  The linedefs 0 to 3 are the west, north,
east and south wall, one-sided, the room on their right; linedef 4 runs from (0,512) to
(1024,512), with sector 0 on its right (below) and sector 1 on its left (above).  The
flags give the sectors of the four walls. -/
def hDividedRoom (w n e s : Bool) : DoomLevel :=
  { vertices := [⟨0, 0⟩, ⟨1024, 0⟩, ⟨1024, 1024⟩, ⟨0, 1024⟩, ⟨0, 512⟩, ⟨1024, 512⟩],
    lineDefs := [⟨0, 3, 0, NO_SIDEDEF⟩, ⟨3, 2, 1, NO_SIDEDEF⟩, ⟨2, 1, 2, NO_SIDEDEF⟩,
                 ⟨1, 0, 3, NO_SIDEDEF⟩, ⟨4, 5, 4, 5⟩],
    sideDefs := [⟨sectorOf w, false⟩, ⟨sectorOf n, false⟩, ⟨sectorOf e, false⟩,
                 ⟨sectorOf s, false⟩, ⟨0, false⟩, ⟨1, false⟩],
    sectorCount := 2 }

/-- The result of the Classic build of the H-divided room; no linedef is off the axes, so
that the angle function is not consulted. -/
def hDividedBuilt (w n e s : Bool) : Builder × LevelData :=
  (CreateNODES (fun _ _ => 0) freshBuilder (hDividedRoom w n e s)
    classicOptions).toOption.getD default

/-- The variables of the Classic build of the H-divided room (west, east and south wall in
sector 0, north wall in sector 1) at the call of `CreateNode`. -/
def hDividedSetup : Builder :=
  (CreateNODES.setup (fun _ _ => 0) freshBuilder (hDividedRoom false true false false)
    classicOptions).toOption.getD default

/-- The result of the call of `PartitionNode` that `CreateNode` makes on the full seg list
of `hDividedSetup`. -/
def hDividedSplit : Bool × Builder × Nat × Nat :=
  (PartitionNode Algorithm1 (CreateNode.enter hDividedSetup none) hDividedSetup.nodePool.length
    0 6).toOption.getD default

/-- A steep partition with two short segs across it: seg 0 runs from (0,0) to (1,3), seg 1
from (0,1) to (1,1), seg 2 from (0,2) to (1,2), seg 3 from (-2,-1) to (0,-1).  The line of
seg 1 meets the partition line at (1/3, 1), which rounds to the start of seg 1; the line
of seg 2 meets it at (2/3, 2), which rounds to the end of seg 2; the line of seg 3 meets
it at (-1/3, -1), which rounds to the end of seg 3. -/
def steepBase : Builder :=
  withTables
    (mkBuilder [⟨0, 0⟩, ⟨1, 3⟩, ⟨0, 1⟩, ⟨1, 1⟩, ⟨0, 2⟩, ⟨1, 2⟩, ⟨-2, -1⟩, ⟨0, -1⟩] 12
      [mkSeg 0 1 0x32E4 0 0 0, mkSeg 2 3 0 1 0 0, mkSeg 4 5 0 2 0 0, mkSeg 6 7 0 3 0 0]
      8 8 50 1)
    [⟨0, false⟩, ⟨1, false⟩, ⟨2, false⟩, ⟨3, false⟩, ⟨-1, false⟩] 4

/-- The map `steepBase` with seg 0 as the current partition. -/
def steepMap : Builder := ComputeStaticVariables steepBase (steepBase.seg 0)

/-- The options of a Lite build without any of the optional arrays. -/
def liteOptions : sBSPOptions :=
  { algorithm := 3, showProgress := false, reduceLineDefs := false, ignoreLineDef := none,
    dontSplit := none, keepUnique := none }

/-- A square room of side 1024 in a level with five sectors: the four walls are one-sided,
the room on their right, and their sidedefs name sector 4; the sectors 0 to 3 have no
sidedef. -/
def lastSectorRoom : DoomLevel :=
  { vertices := [⟨0, 0⟩, ⟨1024, 0⟩, ⟨1024, 1024⟩, ⟨0, 1024⟩],
    lineDefs := [⟨0, 3, 0, NO_SIDEDEF⟩, ⟨3, 2, 1, NO_SIDEDEF⟩, ⟨2, 1, 2, NO_SIDEDEF⟩,
                 ⟨1, 0, 3, NO_SIDEDEF⟩],
    sideDefs := [⟨4, false⟩, ⟨4, false⟩, ⟨4, false⟩, ⟨4, false⟩],
    sectorCount := 5 }

/-- The variables of the Lite build of `lastSectorRoom` at the call of `CreateNode`. -/
def lastSectorSetup : Builder :=
  (CreateNODES.setup (fun _ _ => 0) freshBuilder lastSectorRoom liteOptions).toOption.getD
    default

/-- A square room of side 1024 whose west wall is drawn from north to south, so that the
room is on its left: linedef 0 runs from (0,1024) to (0,0) and has a left sidedef only;
the linedefs 1 to 3 are the north, east and south wall, one-sided, the room on their
right. -/
def leftWallRoom : DoomLevel :=
  { vertices := [⟨0, 0⟩, ⟨1024, 0⟩, ⟨1024, 1024⟩, ⟨0, 1024⟩],
    lineDefs := [⟨3, 0, NO_SIDEDEF, 0⟩, ⟨3, 2, 1, NO_SIDEDEF⟩, ⟨2, 1, 2, NO_SIDEDEF⟩,
                 ⟨1, 0, 3, NO_SIDEDEF⟩],
    sideDefs := [⟨0, false⟩, ⟨0, false⟩, ⟨0, false⟩, ⟨0, false⟩],
    sectorCount := 1 }

/-- The variables of the build of `leftWallRoom` after `CreateSegs`. -/
def leftWallSegs : Builder :=
  CreateSegs (fun _ _ => 0) (CreateNODES.init freshBuilder leftWallRoom classicOptions)
    leftWallRoom classicOptions

/-- The value of the angle expression of `CreateSegs` for the direction (1,3),
`atan2 ( 3, 1 ) * BAM180 / M_PI + 0.5` truncated, for levels with no other direction off
the axes. -/
def steepAtan : Int → Int → Nat := fun _ _ => 0x32E4

/-- A triangle next to a square.  Sector 0 is the triangle (0,0), (1,3), (1,0), with the
linedefs 0 to 2; linedef 0 runs from (0,0) to (1,3).  Sector 1 is the square from
(-2,-1) to (0,1), with the linedefs 3 to 6; linedef 5 is its east wall, from (0,1) to
(0,-1).  All linedefs are one-sided, their sector on the right.  The line of linedef 0
meets the east wall of the square at (0,0). -/
def steepRoom : DoomLevel :=
  { vertices := [⟨0, 0⟩, ⟨1, 3⟩, ⟨1, 0⟩, ⟨-2, -1⟩, ⟨-2, 1⟩, ⟨0, 1⟩, ⟨0, -1⟩],
    lineDefs := [⟨0, 1, 0, NO_SIDEDEF⟩, ⟨1, 2, 1, NO_SIDEDEF⟩, ⟨2, 0, 2, NO_SIDEDEF⟩,
                 ⟨3, 4, 3, NO_SIDEDEF⟩, ⟨4, 5, 4, NO_SIDEDEF⟩, ⟨5, 6, 5, NO_SIDEDEF⟩,
                 ⟨6, 3, 6, NO_SIDEDEF⟩],
    sideDefs := [⟨0, false⟩, ⟨0, false⟩, ⟨0, false⟩, ⟨1, false⟩, ⟨1, false⟩, ⟨1, false⟩,
                 ⟨1, false⟩],
    sectorCount := 2 }

/-- The variables of the Classic build of `steepRoom` after `GetLineDefAliases`, and the
list of the segs of the aliases. -/
def steepAliases : Builder × List Nat :=
  GetLineDefAliases
    (CreateSegs steepAtan (CreateNODES.init freshBuilder steepRoom classicOptions) steepRoom
      classicOptions) steepRoom.lineDefs.length

/-- The variables of the Classic build of `steepRoom` at the call of `CreateSideInfo`. -/
def steepStart : Builder :=
  { steepAliases.1 with
    lineUsed := List.replicate steepAliases.1.noAliases false,
    scan := { steepAliases.1.scan with
      lineChecked := List.replicate steepAliases.1.noAliases false } }

/-- The sector list of `GetSectorInfo` for `steepRoom`. -/
def steepSectors : List sSectorInfo :=
  (GetSectorInfo steepStart.sectorCount (GetSectorBounds steepRoom)).toOption.getD []

/-- The variables of the Classic build of `steepRoom` after `CreateSideInfo`. -/
def steepTable : Builder :=
  CreateSideInfo steepStart steepRoom (GetSectorBounds steepRoom) steepSectors steepAliases.2

/-- A square room of side 1024 whose west wall faces outward: linedef 0 runs from
(0,1024) to (0,0) and has a right sidedef, so that the room lies on the left of its seg;
the linedefs 1 to 3 are the north, east and south wall, the room on their right. -/
def outwardWallRoom : DoomLevel :=
  { vertices := [⟨0, 0⟩, ⟨1024, 0⟩, ⟨1024, 1024⟩, ⟨0, 1024⟩],
    lineDefs := [⟨3, 0, 0, NO_SIDEDEF⟩, ⟨3, 2, 1, NO_SIDEDEF⟩, ⟨2, 1, 2, NO_SIDEDEF⟩,
                 ⟨1, 0, 3, NO_SIDEDEF⟩],
    sideDefs := [⟨0, false⟩, ⟨0, false⟩, ⟨0, false⟩, ⟨0, false⟩],
    sectorCount := 1 }

/-- The state of the loop of `Algorithm2` on the four segs of `slopeBase` when it comes
to seg 2: the segs 0 and 1 have been stored as candidates. -/
def slopeScored : Builder × Nat :=
  Algorithm2.loop 0 4 2 0
    ({ slopeBase with scan := { slopeBase.scan with
        score := List.replicate 4 (⟨-1, -1, -1, -1, -1⟩ : sScoreInfo) } }, 0)

/-- The value of the angle expression of `CreateSegs` for the directions off the axes of
the level `nearbyLevel`: `0x2000` for the directions (1,1) and (3,3), `0xA000` for the
direction (-1,-1). -/
def diagAtan : Int → Int → Nat := fun _ dy => if dy < 0 then 0xA000 else 0x2000

/-- Three one-sided linedefs of one sector.  Linedef 0 runs from (0,0) to (1,1) and
linedef 1 from (2,2) to (5,5), on the same line; linedef 2 runs from (2,1) to (1,0), in
the opposite direction on the parallel line one unit to the right. -/
def nearbyLevel : DoomLevel :=
  { vertices := [⟨0, 0⟩, ⟨1, 1⟩, ⟨2, 2⟩, ⟨5, 5⟩, ⟨2, 1⟩, ⟨1, 0⟩],
    lineDefs := [⟨0, 1, 0, NO_SIDEDEF⟩, ⟨2, 3, 1, NO_SIDEDEF⟩, ⟨4, 5, 2, NO_SIDEDEF⟩],
    sideDefs := [⟨0, false⟩, ⟨0, false⟩, ⟨0, false⟩],
    sectorCount := 1 }

/-- The options of a Quality build without any of the optional arrays. -/
def qualityOptions : sBSPOptions :=
  { algorithm := 2, showProgress := false, reduceLineDefs := false, ignoreLineDef := none,
    dontSplit := none, keepUnique := none }

/-- The builder that `ChoosePartition` hands to the partition function at the first call
of `CreateNode` in the build of `nearbyLevel` with the given options. -/
def nearbyInput (options : sBSPOptions) : Builder :=
  ChoosePartition.input
    ((CreateNODES.setup diagAtan freshBuilder nearbyLevel options).toOption.getD default)

/-- A row of 30 one-sided linedefs of one sector along the x axis, linedef `k` running from
`(k, 0)` to `(k + 1, 0)`, and linedef 30, which runs from (5,-3) to (5,3) across the
row. -/
def rowLevel : DoomLevel :=
  { vertices := (List.range 31).map (fun (k : Nat) => (⟨(k : Int), 0⟩ : wVertex))
      ++ [⟨5, -3⟩, ⟨5, 3⟩],
    lineDefs := (List.range 30).map (fun (k : Nat) => (⟨k, k + 1, k, NO_SIDEDEF⟩ : wLineDef))
      ++ [⟨31, 32, 30, NO_SIDEDEF⟩],
    sideDefs := List.replicate 31 ⟨0, false⟩,
    sectorCount := 1 }

/-- The builder that `ChoosePartition` hands to `Algorithm3` at the first call of
`CreateNode` in the Lite build of `rowLevel`. -/
def rowInput : Builder :=
  ChoosePartition.input
    ((CreateNODES.setup (fun _ _ => 0) freshBuilder rowLevel liteOptions).toOption.getD default)

/-- The options of a Classic build that keeps both sectors of a level of two sectors
unique. -/
def uniqueOptions : sBSPOptions := { classicOptions with keepUnique := some [true, true] }

/-- The variables of the build of the H-divided room (north and east wall in sector 1)
with `uniqueOptions` at the call of `CreateNode`. -/
def uniqueSetup : Builder :=
  (CreateNODES.setup (fun _ _ => 0) freshBuilder (hDividedRoom false true true false)
    uniqueOptions).toOption.getD default

/-- The result of the call of `PartitionNode` that the root call of `CreateNode` makes on
the six segs of `uniqueSetup`. -/
def uniqueSplit : Bool × Builder × Nat × Nat :=
  (PartitionNode Algorithm1 (CreateNode.enter uniqueSetup none) 0 0 6).toOption.getD default

/-- The variables at the first recursive call of the root call, on the right segs: the
root call has marked the alias of its partition and the aliases it found convex. -/
def uniqueFirst : Builder := CreateNode.mark uniqueSplit.2.1 0

/-- The result of the first recursive call of the root call. -/
def uniqueRight : Builder × Nat × Nat × Nat :=
  (CreateNode Algorithm1 11 uniqueFirst none 0 uniqueSplit.2.2.2).toOption.getD default

/-- The variables at the second recursive call of the root call, on the left segs. -/
def uniqueEntry : Builder := CreateNode.setChild0 uniqueRight.1 0 uniqueRight.2.1

/-- The room of `leftWallRoom` with a post inside: linedef 4 runs from (512,256) to
(512,768) and has a right sidedef of sector 1. -/
def leftWallPost : DoomLevel :=
  { vertices := [⟨0, 0⟩, ⟨1024, 0⟩, ⟨1024, 1024⟩, ⟨0, 1024⟩, ⟨512, 256⟩, ⟨512, 768⟩],
    lineDefs := [⟨3, 0, NO_SIDEDEF, 0⟩, ⟨3, 2, 1, NO_SIDEDEF⟩, ⟨2, 1, 2, NO_SIDEDEF⟩,
                 ⟨1, 0, 3, NO_SIDEDEF⟩, ⟨4, 5, 4, NO_SIDEDEF⟩],
    sideDefs := [⟨0, false⟩, ⟨0, false⟩, ⟨0, false⟩, ⟨0, false⟩, ⟨1, false⟩],
    sectorCount := 2 }

/-- The variables of the Classic build of `leftWallPost` at the call of `CreateNode`. -/
def leftWallPostSetup : Builder :=
  (CreateNODES.setup (fun _ _ => 0) freshBuilder leftWallPost classicOptions).toOption.getD
    default

/-! # Theorems -/

/-! ## Machine integers -/

theorem toSHORT_of_IsSHORT {v : Int} (h : IsSHORT v) : toSHORT v = v := by
  unfold IsSHORT at h
  unfold toSHORT
  omega

theorem toUSHORT_of_lt {n : Nat} (h : n < 65536) : toUSHORT n = n := by
  unfold toUSHORT
  omega

theorem toUSHORT_lt (n : Nat) : toUSHORT n < 65536 := by
  unfold toUSHORT
  omega

/-! ## Searching a range -/

theorem find_range_some (p : Nat → Bool) (n i : Nat)
    (h : (List.range n).find? p = some i) : i < n ∧ p i = true ∧ ∀ j, j < i → p j = false := by
  induction n with
  | zero => simp at h
  | succ n ih =>
    rw [List.range_succ, List.find?_append] at h
    cases hf : (List.range n).find? p with
    | some k =>
      rw [hf] at h
      simp at h
      subst h
      obtain ⟨h1, h2, h3⟩ := ih hf
      exact ⟨by omega, h2, h3⟩
    | none =>
      rw [hf] at h
      simp at h
      obtain ⟨h1, h2⟩ := h
      subst h2
      refine ⟨by omega, h1, ?_⟩
      intro j hj
      have := List.find?_eq_none.mp hf j (List.mem_range.mpr hj)
      simpa using this

theorem find_range_none (p : Nat → Bool) (n : Nat)
    (h : (List.range n).find? p = none) : ∀ j, j < n → p j = false := by
  intro j hj
  have := List.find?_eq_none.mp h j (List.mem_range.mpr hj)
  simpa using this

theorem find_range_first (p : Nat → Bool) (n i : Nat) (hi : i < n) (hp : p i = true)
    (hmin : ∀ j, j < i → p j = false) : (List.range n).find? p = some i := by
  cases hf : (List.range n).find? p with
  | none =>
    have := find_range_none p n hf i hi
    rw [hp] at this
    cases this
  | some k =>
    obtain ⟨h1, h2, h3⟩ := find_range_some p n k hf
    rcases Nat.lt_trichotomy k i with hlt | heq | hgt
    · have := hmin k hlt
      rw [h2] at this
      cases this
    · rw [heq]
    · have := h3 i hgt
      rw [hp] at this
      cases this

/-! ## Vertex pool -/

theorem vertex_match_iff (v : wVertex) (x y : Int) :
    (v.x == x && v.y == y) = true ↔ v = ⟨x, y⟩ := by
  cases v
  simp

theorem vertex_match_false_iff (v : wVertex) (x y : Int) :
    (v.x == x && v.y == y) = false ↔ v ≠ ⟨x, y⟩ := by
  rw [Ne, ← vertex_match_iff v x y]
  simp

theorem AddVertex_found (b : Builder) (x y : Int) (i : Nat) (hi : i < b.noVertices)
    (hv : b.vertex i = ⟨x, y⟩) (hmin : ∀ j, j < i → b.vertex j ≠ ⟨x, y⟩) :
    AddVertex b x y = .ok (i, b) := by
  unfold AddVertex
  rw [find_range_first _ b.noVertices i hi ((vertex_match_iff _ x y).mpr hv)
    (fun j hj => (vertex_match_false_iff _ x y).mpr (hmin j hj))]

theorem AddVertex_absent (b : Builder) (x y : Int)
    (habs : ∀ j, j < b.noVertices → b.vertex j ≠ ⟨x, y⟩) :
    AddVertex b x y =
      if b.noVertices ≥ b.maxVertices then .error .vertexOverflow
      else .ok (b.noVertices,
        { b with newVertices := b.newVertices.set b.noVertices ⟨toSHORT x, toSHORT y⟩,
                 noVertices := b.noVertices + 1 }) := by
  unfold AddVertex
  have : (List.range b.noVertices).find?
      (fun i => (b.vertex i).x == x && (b.vertex i).y == y) = none := by
    rw [List.find?_eq_none]
    intro j hj
    have := (vertex_match_false_iff _ x y).mpr (habs j (List.mem_range.mp hj))
    simp [this]
  rw [this]

theorem AddVertex_cases (b : Builder) (x y : Int) :
    (∃ i, i < b.noVertices ∧ b.vertex i = ⟨x, y⟩ ∧ (∀ j, j < i → b.vertex j ≠ ⟨x, y⟩) ∧
        AddVertex b x y = .ok (i, b)) ∨
    ((∀ j, j < b.noVertices → b.vertex j ≠ ⟨x, y⟩) ∧
      AddVertex b x y =
        if b.noVertices ≥ b.maxVertices then .error .vertexOverflow
        else .ok (b.noVertices,
          { b with newVertices := b.newVertices.set b.noVertices ⟨toSHORT x, toSHORT y⟩,
                   noVertices := b.noVertices + 1 })) := by
  cases hf : (List.range b.noVertices).find?
      (fun i => (b.vertex i).x == x && (b.vertex i).y == y) with
  | some i =>
    left
    obtain ⟨h1, h2, h3⟩ := find_range_some _ _ _ hf
    refine ⟨i, h1, (vertex_match_iff _ x y).mp h2,
      fun j hj => (vertex_match_false_iff _ x y).mp (h3 j hj), ?_⟩
    unfold AddVertex
    rw [hf]
  | none =>
    right
    have habs : ∀ j, j < b.noVertices → b.vertex j ≠ ⟨x, y⟩ :=
      fun j hj => (vertex_match_false_iff _ x y).mp (find_range_none _ _ hf j hj)
    exact ⟨habs, AddVertex_absent b x y habs⟩

theorem vertex_set_same (b : Builder) (n : Nat) (v : wVertex) (h : n < b.newVertices.length) :
    ({ b with newVertices := b.newVertices.set n v, noVertices := b.noVertices + 1 } : Builder).vertex n
      = v := by
  simp [Builder.vertex, List.getD_eq_getElem?_getD, List.getElem?_set, h]

theorem vertex_set_other (b : Builder) (n j : Nat) (v : wVertex) (h : j ≠ n) :
    ({ b with newVertices := b.newVertices.set n v, noVertices := b.noVertices + 1 } : Builder).vertex j
      = b.vertex j := by
  simp [Builder.vertex, List.getD_eq_getElem?_getD, List.getElem?_set, Ne.symm h]

theorem AddVertex_ok_props (b : Builder) (x y : Int) (hx : IsSHORT x) (hy : IsSHORT y)
    (hcap : b.maxVertices ≤ b.newVertices.length) (i : Nat) (b1 : Builder)
    (h : AddVertex b x y = .ok (i, b1)) :
    i < b1.noVertices ∧ b1.vertex i = ⟨x, y⟩ ∧ b.noVertices ≤ b1.noVertices ∧
      (∀ j, j < b.noVertices → b1.vertex j = b.vertex j) ∧
      (b.DistinctVertices → b1.DistinctVertices) := by
  rcases AddVertex_cases b x y with ⟨k, hk, hv, _, he⟩ | ⟨habs, he⟩
  · rw [he] at h
    injection h with h
    injection h with h1 h2
    subst h1
    subst h2
    exact ⟨hk, hv, le_refl _, fun _ _ => rfl, fun hd => hd⟩
  · rw [he] at h
    by_cases hfull : b.noVertices ≥ b.maxVertices
    · rw [if_pos hfull] at h
      cases h
    · rw [if_neg hfull] at h
      injection h with h
      injection h with h1 h2
      subst h1
      subst h2
      have hlen : b.noVertices < b.newVertices.length := by omega
      rw [toSHORT_of_IsSHORT hx, toSHORT_of_IsSHORT hy]
      refine ⟨Nat.lt_succ_self _, vertex_set_same b _ _ hlen, Nat.le_succ _, ?_, ?_⟩
      · intro j hj
        exact vertex_set_other b _ j _ (by omega)
      · intro hd p q hpq hq
        have hq2 : q < b.noVertices + 1 := hq
        by_cases hqn : q = b.noVertices
        · subst hqn
          rw [vertex_set_same b _ _ hlen, vertex_set_other b _ p _ (by omega)]
          exact habs p hpq
        · rw [vertex_set_other b _ p _ (by omega), vertex_set_other b _ q _ hqn]
          exact hd p q hpq (by omega)

/-- C10. `AddVertex ( x, y )` with `x` and `y` in the range of a `SHORT`, on a table
that has its `maxVertices` slots: if `(x, y)` is among the first `noVertices` entries the
lowest such index is returned and the builder (table and `noVertices`) is unchanged,
whether or not the table is full; otherwise, with `noVertices < maxVertices`, the point
is stored in slot `noVertices` and `noVertices` grows by one, and with a full table the
call is fatal.  Every returned index `i` has `table [i] = (x, y)` afterwards, the old
entries keep index and value, and pairwise distinct coordinates stay pairwise
distinct. -/
theorem AddVertex_contract (b : Builder) (x y : Int) (hx : IsSHORT x) (hy : IsSHORT y)
    (hcap : b.maxVertices ≤ b.newVertices.length) :
    (∀ i, i < b.noVertices → b.vertex i = ⟨x, y⟩ → (∀ j, j < i → b.vertex j ≠ ⟨x, y⟩) →
        AddVertex b x y = .ok (i, b)) ∧
    ((∀ j, j < b.noVertices → b.vertex j ≠ ⟨x, y⟩) → b.noVertices < b.maxVertices →
        AddVertex b x y = .ok (b.noVertices,
          { b with newVertices := b.newVertices.set b.noVertices ⟨x, y⟩,
                   noVertices := b.noVertices + 1 })) ∧
    ((∀ j, j < b.noVertices → b.vertex j ≠ ⟨x, y⟩) → b.maxVertices ≤ b.noVertices →
        AddVertex b x y = .error .vertexOverflow) ∧
    (∀ i b1, AddVertex b x y = .ok (i, b1) →
        i < b1.noVertices ∧ b1.vertex i = ⟨x, y⟩ ∧ b.noVertices ≤ b1.noVertices ∧
        (∀ j, j < b.noVertices → b1.vertex j = b.vertex j) ∧
        (b.DistinctVertices → b1.DistinctVertices)) := by
  refine ⟨fun i hi hv hmin => AddVertex_found b x y i hi hv hmin, ?_, ?_,
    fun i b1 h => AddVertex_ok_props b x y hx hy hcap i b1 h⟩
  · intro habs hroom
    rw [AddVertex_absent b x y habs, if_neg (by omega), toSHORT_of_IsSHORT hx,
      toSHORT_of_IsSHORT hy]
  · intro habs hfull
    rw [AddVertex_absent b x y habs, if_pos hfull]

/-! ## Bounding rectangle -/

theorem FindBounds.step_minx (b : Builder) (B : wBound) (s : SEG)
    (hsx : IsSHORT (b.vertex s.Data.start).x) (hex : IsSHORT (b.vertex s.Data.end_).x) :
    (FindBounds.step b B s).minx =
      min B.minx (min (b.vertex s.Data.start).x (b.vertex s.Data.end_).x) := by
  have e1 := toSHORT_of_IsSHORT hsx
  have e3 := toSHORT_of_IsSHORT hex
  simp only [FindBounds.step]
  generalize (b.vertex s.Data.start).x = sx at *
  generalize (b.vertex s.Data.end_).x = ex at *
  simp only [apply_ite wBound.minx, ite_self, min_def, max_def]
  split_ifs <;> omega

theorem FindBounds.step_maxx (b : Builder) (B : wBound) (s : SEG)
    (hsx : IsSHORT (b.vertex s.Data.start).x) (hex : IsSHORT (b.vertex s.Data.end_).x) :
    (FindBounds.step b B s).maxx =
      max B.maxx (max (b.vertex s.Data.start).x (b.vertex s.Data.end_).x) := by
  have e1 := toSHORT_of_IsSHORT hsx
  have e3 := toSHORT_of_IsSHORT hex
  simp only [FindBounds.step]
  generalize (b.vertex s.Data.start).x = sx at *
  generalize (b.vertex s.Data.end_).x = ex at *
  simp only [apply_ite wBound.maxx, ite_self, min_def, max_def]
  split_ifs <;> omega

theorem FindBounds.step_miny (b : Builder) (B : wBound) (s : SEG)
    (hsy : IsSHORT (b.vertex s.Data.start).y) (hey : IsSHORT (b.vertex s.Data.end_).y) :
    (FindBounds.step b B s).miny =
      min B.miny (min (b.vertex s.Data.start).y (b.vertex s.Data.end_).y) := by
  have e1 := toSHORT_of_IsSHORT hsy
  have e3 := toSHORT_of_IsSHORT hey
  simp only [FindBounds.step]
  generalize (b.vertex s.Data.start).y = sy at *
  generalize (b.vertex s.Data.end_).y = ey at *
  simp only [apply_ite wBound.miny, ite_self, min_def, max_def]
  split_ifs <;> omega

theorem FindBounds.step_maxy (b : Builder) (B : wBound) (s : SEG)
    (hsy : IsSHORT (b.vertex s.Data.start).y) (hey : IsSHORT (b.vertex s.Data.end_).y) :
    (FindBounds.step b B s).maxy =
      max B.maxy (max (b.vertex s.Data.start).y (b.vertex s.Data.end_).y) := by
  have e1 := toSHORT_of_IsSHORT hsy
  have e3 := toSHORT_of_IsSHORT hey
  simp only [FindBounds.step]
  generalize (b.vertex s.Data.start).y = sy at *
  generalize (b.vertex s.Data.end_).y = ey at *
  simp only [apply_ite wBound.maxy, ite_self, min_def, max_def]
  split_ifs <;> omega

theorem FindBounds_succ (b : Builder) (seg n : Nat) :
    FindBounds b seg (n + 1) = FindBounds.step b (FindBounds b seg n) (b.seg (seg + n)) := by
  simp only [FindBounds, List.range_succ, List.foldl_append, List.foldl_cons, List.foldl_nil]

theorem FindBounds_zero (b : Builder) (seg : Nat) :
    FindBounds b seg 0 = ⟨(b.vertS seg).x, (b.vertS seg).y, (b.vertS seg).x, (b.vertS seg).y⟩ := by
  simp [FindBounds, Builder.vertS]

theorem running_min (g m : Nat → Int) (a : Int) (N : Nat) (h0 : m 0 = a)
    (hs : ∀ n, n < N → m (n + 1) = min (m n) (g n)) :
    ∀ n, n ≤ N → m n ≤ a ∧ (∀ i, i < n → m n ≤ g i) ∧ (m n = a ∨ ∃ i, i < n ∧ m n = g i) := by
  intro n
  induction n with
  | zero =>
    intro _
    exact ⟨by omega, fun i hi => absurd hi (Nat.not_lt_zero i), Or.inl h0⟩
  | succ n ih =>
    intro hn
    obtain ⟨h1, h2, h3⟩ := ih (by omega)
    rw [hs n (by omega)]
    refine ⟨le_trans (min_le_left _ _) h1, ?_, ?_⟩
    · intro i hi
      by_cases hin : i = n
      · subst hin
        exact min_le_right _ _
      · exact le_trans (min_le_left _ _) (h2 i (by omega))
    · rcases le_total (m n) (g n) with hle | hle
      · rw [min_eq_left hle]
        rcases h3 with h3 | ⟨i, hi, h3⟩
        · exact Or.inl h3
        · exact Or.inr ⟨i, by omega, h3⟩
      · rw [min_eq_right hle]
        exact Or.inr ⟨n, by omega, rfl⟩

theorem running_max (g m : Nat → Int) (a : Int) (N : Nat) (h0 : m 0 = a)
    (hs : ∀ n, n < N → m (n + 1) = max (m n) (g n)) :
    ∀ n, n ≤ N → a ≤ m n ∧ (∀ i, i < n → g i ≤ m n) ∧ (m n = a ∨ ∃ i, i < n ∧ m n = g i) := by
  intro n
  induction n with
  | zero =>
    intro _
    exact ⟨by omega, fun i hi => absurd hi (Nat.not_lt_zero i), Or.inl h0⟩
  | succ n ih =>
    intro hn
    obtain ⟨h1, h2, h3⟩ := ih (by omega)
    rw [hs n (by omega)]
    refine ⟨le_trans h1 (le_max_left _ _), ?_, ?_⟩
    · intro i hi
      by_cases hin : i = n
      · subst hin
        exact le_max_right _ _
      · exact le_trans (h2 i (by omega)) (le_max_left _ _)
    · rcases le_total (m n) (g n) with hle | hle
      · rw [max_eq_right hle]
        exact Or.inr ⟨n, by omega, rfl⟩
      · rw [max_eq_left hle]
        rcases h3 with h3 | ⟨i, hi, h3⟩
        · exact Or.inl h3
        · exact Or.inr ⟨i, by omega, h3⟩

/-- C4. For a list of `noSegs >= 1` segs whose end points have `SHORT` coordinates,
the rectangle of `FindBounds` contains the start and the end vertex of each of the
`noSegs` segs, and each of its four bounds is the coordinate of the start or the end
vertex of one of these segs: the bounds are the minima and maxima over exactly these
end points. -/
theorem FindBounds_tight (b : Builder) (seg noSegs : Nat) (hn : 1 ≤ noSegs)
    (hshort : ∀ i, i < noSegs → b.ShortEnds (seg + i)) :
    (∀ i, i < noSegs →
      (FindBounds b seg noSegs).minx ≤ (b.vertS (seg + i)).x ∧
      (b.vertS (seg + i)).x ≤ (FindBounds b seg noSegs).maxx ∧
      (FindBounds b seg noSegs).minx ≤ (b.vertE (seg + i)).x ∧
      (b.vertE (seg + i)).x ≤ (FindBounds b seg noSegs).maxx ∧
      (FindBounds b seg noSegs).miny ≤ (b.vertS (seg + i)).y ∧
      (b.vertS (seg + i)).y ≤ (FindBounds b seg noSegs).maxy ∧
      (FindBounds b seg noSegs).miny ≤ (b.vertE (seg + i)).y ∧
      (b.vertE (seg + i)).y ≤ (FindBounds b seg noSegs).maxy) ∧
    (∃ i, i < noSegs ∧ ((FindBounds b seg noSegs).minx = (b.vertS (seg + i)).x ∨
      (FindBounds b seg noSegs).minx = (b.vertE (seg + i)).x)) ∧
    (∃ i, i < noSegs ∧ ((FindBounds b seg noSegs).maxx = (b.vertS (seg + i)).x ∨
      (FindBounds b seg noSegs).maxx = (b.vertE (seg + i)).x)) ∧
    (∃ i, i < noSegs ∧ ((FindBounds b seg noSegs).miny = (b.vertS (seg + i)).y ∨
      (FindBounds b seg noSegs).miny = (b.vertE (seg + i)).y)) ∧
    (∃ i, i < noSegs ∧ ((FindBounds b seg noSegs).maxy = (b.vertS (seg + i)).y ∨
      (FindBounds b seg noSegs).maxy = (b.vertE (seg + i)).y)) := by
  have hminx := running_min (fun i => min (b.vertS (seg + i)).x (b.vertE (seg + i)).x)
    (fun n => (FindBounds b seg n).minx) (b.vertS seg).x noSegs
    (by simp [FindBounds_zero])
    (fun n hn => by
      obtain ⟨h1, _, h3, _⟩ := hshort n hn
      simp only [FindBounds_succ]
      exact FindBounds.step_minx b _ _ h1 h3) noSegs (le_refl _)
  have hminy := running_min (fun i => min (b.vertS (seg + i)).y (b.vertE (seg + i)).y)
    (fun n => (FindBounds b seg n).miny) (b.vertS seg).y noSegs
    (by simp [FindBounds_zero])
    (fun n hn => by
      obtain ⟨_, h2, _, h4⟩ := hshort n hn
      simp only [FindBounds_succ]
      exact FindBounds.step_miny b _ _ h2 h4) noSegs (le_refl _)
  have hmaxx := running_max (fun i => max (b.vertS (seg + i)).x (b.vertE (seg + i)).x)
    (fun n => (FindBounds b seg n).maxx) (b.vertS seg).x noSegs
    (by simp [FindBounds_zero])
    (fun n hn => by
      obtain ⟨h1, _, h3, _⟩ := hshort n hn
      simp only [FindBounds_succ]
      exact FindBounds.step_maxx b _ _ h1 h3) noSegs (le_refl _)
  have hmaxy := running_max (fun i => max (b.vertS (seg + i)).y (b.vertE (seg + i)).y)
    (fun n => (FindBounds b seg n).maxy) (b.vertS seg).y noSegs
    (by simp [FindBounds_zero])
    (fun n hn => by
      obtain ⟨_, h2, _, h4⟩ := hshort n hn
      simp only [FindBounds_succ]
      exact FindBounds.step_maxy b _ _ h2 h4) noSegs (le_refl _)
  simp only at hminx hminy hmaxx hmaxy
  obtain ⟨a1, a2, a3⟩ := hminx
  obtain ⟨b1, b2, b3⟩ := hminy
  obtain ⟨c1, c2, c3⟩ := hmaxx
  obtain ⟨d1, d2, d3⟩ := hmaxy
  have z : seg + 0 = seg := rfl
  refine ⟨?_, ?_, ?_, ?_, ?_⟩
  · intro i hi
    have := a2 i hi
    have := b2 i hi
    have := c2 i hi
    have := d2 i hi
    simp only [le_min_iff, max_le_iff] at *
    omega
  · rcases a3 with h | ⟨i, hi, h⟩
    · exact ⟨0, by omega, Or.inl (by rw [z]; exact h)⟩
    · refine ⟨i, hi, ?_⟩
      rcases min_choice (b.vertS (seg + i)).x (b.vertE (seg + i)).x with e | e
      · exact Or.inl (by rw [h, e])
      · exact Or.inr (by rw [h, e])
  · rcases c3 with h | ⟨i, hi, h⟩
    · exact ⟨0, by omega, Or.inl (by rw [z]; exact h)⟩
    · refine ⟨i, hi, ?_⟩
      rcases max_choice (b.vertS (seg + i)).x (b.vertE (seg + i)).x with e | e
      · exact Or.inl (by rw [h, e])
      · exact Or.inr (by rw [h, e])
  · rcases b3 with h | ⟨i, hi, h⟩
    · exact ⟨0, by omega, Or.inl (by rw [z]; exact h)⟩
    · refine ⟨i, hi, ?_⟩
      rcases min_choice (b.vertS (seg + i)).y (b.vertE (seg + i)).y with e | e
      · exact Or.inl (by rw [h, e])
      · exact Or.inr (by rw [h, e])
  · rcases d3 with h | ⟨i, hi, h⟩
    · exact ⟨0, by omega, Or.inl (by rw [z]; exact h)⟩
    · refine ⟨i, hi, ?_⟩
      rcases max_choice (b.vertS (seg + i)).y (b.vertE (seg + i)).y with e | e
      · exact Or.inl (by rw [h, e])
      · exact Or.inr (by rw [h, e])

/-! ## Splitting -/

theorem seg_setSeg_same (b : Builder) (i : Nat) (s : SEG) (h : i < b.segStart.length) :
    (b.setSeg i s).seg i = s := by
  simp [Builder.seg, Builder.setSeg, List.getD_eq_getElem?_getD, List.getElem?_set, h]

theorem seg_setSeg_other (b : Builder) (i j : Nat) (s : SEG) (h : j ≠ i) :
    (b.setSeg i s).seg j = b.seg j := by
  simp [Builder.seg, Builder.setSeg, List.getD_eq_getElem?_getD, List.getElem?_set, Ne.symm h]

theorem length_setSeg (b : Builder) (i : Nat) (s : SEG) :
    (b.setSeg i s).segStart.length = b.segStart.length := by
  simp [Builder.setSeg]

/-- What `AddVertex` leaves alone: everything but the vertex table and its counter. -/
theorem AddVertex_frame (b : Builder) (x y : Int) (i : Nat) (b1 : Builder)
    (h : AddVertex b x y = .ok (i, b1)) :
    b1 = { b with newVertices := b1.newVertices, noVertices := b1.noVertices } ∧
      (i < b.noVertices ∨ i < b.maxVertices) := by
  rcases AddVertex_cases b x y with ⟨k, hk, _, _, he⟩ | ⟨_, he⟩
  · rw [he] at h
    injection h with h
    injection h with h1 h2
    subst h1
    subst h2
    exact ⟨rfl, Or.inl hk⟩
  · rw [he] at h
    by_cases hfull : b.noVertices ≥ b.maxVertices
    · rw [if_pos hfull] at h
      cases h
    · rw [if_neg hfull] at h
      injection h with h
      injection h with h1 h2
      subst h1
      subst h2
      exact ⟨rfl, Or.inr (by omega)⟩

theorem AddVertex_error (b : Builder) (x y : Int) (e : Halt)
    (h : AddVertex b x y = .error e) : e = .vertexOverflow := by
  rcases AddVertex_cases b x y with ⟨k, _, _, _, he⟩ | ⟨_, he⟩
  · rw [he] at h
    cases h
  · rw [he] at h
    by_cases hfull : b.noVertices ≥ b.maxVertices
    · rw [if_pos hfull] at h
      injection h with h
      exact h.symm
    · rw [if_neg hfull] at h
      cases h

theorem DivideSeg_error_of_AddVertex (b : Builder) (rSeg lSeg : Nat) (e : Halt)
    (h : AddVertex b (b.splitPoint rSeg).1 (b.splitPoint rSeg).2 = .error e) :
    DivideSeg b rSeg lSeg = .error e := by
  simp only [Builder.splitPoint, Builder.vertS, Builder.vertE] at h
  simp only [DivideSeg, h]

theorem DivideSeg_of_AddVertex (b : Builder) (rSeg lSeg : Nat) (i : Nat) (b1 : Builder)
    (h : AddVertex b (b.splitPoint rSeg).1 (b.splitPoint rSeg).2 = .ok (i, b1)) :
    ((b.seg rSeg).Data.start = i ∨ (b.seg rSeg).Data.end_ = i →
        DivideSeg b rSeg lSeg = .error .endPointDuplicated) ∧
    (¬ ((b.seg rSeg).Data.start = i ∨ (b.seg rSeg).Data.end_ = i) →
        ∃ b2, DivideSeg b rSeg lSeg = .ok b2) := by
  simp only [Builder.splitPoint, Builder.vertS, Builder.vertE] at h
  constructor
  · intro hdup
    simp only [DivideSeg, h, if_pos hdup]
  · intro hdup
    simp only [DivideSeg, h, if_neg hdup]
    split_ifs
    · exact ⟨_, rfl⟩
    · exact ⟨_, rfl⟩

theorem DivideSeg_ok (b : Builder) (rSeg lSeg : Nat) (b2 : Builder)
    (h : DivideSeg b rSeg lSeg = .ok b2) :
    ∃ i b1, AddVertex b (b.splitPoint rSeg).1 (b.splitPoint rSeg).2 = .ok (i, b1) ∧
      (b.seg rSeg).Data.start ≠ i ∧ (b.seg rSeg).Data.end_ ≠ i ∧
      b2 = { b1 with segStart := b2.segStart } ∧
      b2.segStart.length = b.segStart.length ∧
      (∀ j, j ≠ rSeg → j ≠ lSeg → b2.seg j = b.seg j) ∧
      (rSeg ≠ lSeg → rSeg < b.segStart.length → lSeg < b.segStart.length →
        b2.seg rSeg = rightHalf (b.seg rSeg) (b.cross (b.vertS rSeg)) (toUSHORT i) (b.splitDist rSeg) ∧
        b2.seg lSeg = leftHalf (b.seg lSeg) (b.cross (b.vertS rSeg)) (toUSHORT i) (b.splitDist rSeg)) := by
  cases hadd : AddVertex b (b.splitPoint rSeg).1 (b.splitPoint rSeg).2 with
  | error e =>
    rw [DivideSeg_error_of_AddVertex b rSeg lSeg e hadd] at h
    cases h
  | ok res =>
    obtain ⟨i, b1⟩ := res
    obtain ⟨hfr, _⟩ := AddVertex_frame b _ _ i b1 hadd
    have hsegs : b1.segStart = b.segStart := by rw [hfr]
    have hseg : ∀ j, b1.seg j = b.seg j := fun j => by simp [Builder.seg, hsegs]
    have hadd2 := hadd
    simp only [Builder.splitPoint, Builder.vertS, Builder.vertE] at hadd2
    by_cases hdup : (b.seg rSeg).Data.start = i ∨ (b.seg rSeg).Data.end_ = i
    · simp only [DivideSeg, hadd2, if_pos hdup] at h
      cases h
    · simp only [DivideSeg, hadd2, if_neg hdup] at h
      push_neg at hdup
      refine ⟨i, b1, rfl, hdup.1, hdup.2, ?_⟩
      by_cases hs : b.cross (b.vertS rSeg) < 0
      · have hs2 := hs
        simp only [Builder.cross, Builder.vertS] at hs2
        rw [if_pos hs2] at h
        injection h with h
        subst h
        refine ⟨rfl, by simp [Builder.setSeg, hsegs], ?_, ?_⟩
        · intro j hj1 hj2
          rw [seg_setSeg_other _ _ _ _ hj2, seg_setSeg_other _ _ _ _ hj1, hseg]
        · intro hne hr hl
          constructor
          · rw [seg_setSeg_other _ _ _ _ hne, seg_setSeg_same _ _ _ (by rw [hsegs]; exact hr)]
            rw [rightHalf, if_pos hs]
          · rw [seg_setSeg_same _ _ _ (by rw [length_setSeg, hsegs]; exact hl),
              seg_setSeg_other _ _ _ _ (Ne.symm hne), hseg]
            rw [leftHalf, if_pos hs]
            rfl
      · have hs2 := hs
        simp only [Builder.cross, Builder.vertS] at hs2
        rw [if_neg hs2] at h
        injection h with h
        subst h
        refine ⟨rfl, by simp [Builder.setSeg, hsegs], ?_, ?_⟩
        · intro j hj1 hj2
          rw [seg_setSeg_other _ _ _ _ hj1, seg_setSeg_other _ _ _ _ hj2,
            seg_setSeg_other _ _ _ _ hj1, hseg]
        · intro hne hr hl
          constructor
          · rw [seg_setSeg_same _ _ _ (by rw [length_setSeg, length_setSeg, hsegs]; exact hr),
              seg_setSeg_other _ _ _ _ hne,
              seg_setSeg_same _ _ _ (by rw [hsegs]; exact hr)]
            rw [rightHalf, if_neg hs]
            rfl
          · rw [seg_setSeg_other _ _ _ _ (Ne.symm hne),
              seg_setSeg_same _ _ _ (by rw [length_setSeg, hsegs]; exact hl),
              seg_setSeg_other _ _ _ _ (Ne.symm hne), hseg]
            rw [leftHalf, if_neg hs]

/-- C9. `DivideSeg` ends in its fatal error exactly when the index that `AddVertex`
returns for the rounded intersection is the start or the end index of the seg (the only
other failure is the one `AddVertex` itself raises on a full table, which is passed on);
and when `DivideSeg` returns, on a seg `rSeg` and its copy `lSeg` in a map whose vertex
indices fit in 16 bits, both halves have `start != end`. -/
theorem DivideSeg_abort_iff (b : Builder) (rSeg lSeg : Nat)
    (hne : rSeg ≠ lSeg) (hr : rSeg < b.segStart.length) (hl : lSeg < b.segStart.length)
    (hcopy : (b.seg lSeg).Data.start = (b.seg rSeg).Data.start ∧
      (b.seg lSeg).Data.end_ = (b.seg rSeg).Data.end_)
    (hv : b.noVertices ≤ 65536 ∧ b.maxVertices ≤ 65536) :
    (∀ i b1, AddVertex b (b.splitPoint rSeg).1 (b.splitPoint rSeg).2 = .ok (i, b1) →
      ((∃ e, DivideSeg b rSeg lSeg = .error e) ↔
        ((b.seg rSeg).Data.start = i ∨ (b.seg rSeg).Data.end_ = i))) ∧
    (DivideSeg b rSeg lSeg = .error .endPointDuplicated ↔
      ∃ i b1, AddVertex b (b.splitPoint rSeg).1 (b.splitPoint rSeg).2 = .ok (i, b1) ∧
        ((b.seg rSeg).Data.start = i ∨ (b.seg rSeg).Data.end_ = i)) ∧
    (∀ e, DivideSeg b rSeg lSeg = .error e → e ≠ .endPointDuplicated →
      e = .vertexOverflow ∧
        AddVertex b (b.splitPoint rSeg).1 (b.splitPoint rSeg).2 = .error .vertexOverflow) ∧
    (∀ b2, DivideSeg b rSeg lSeg = .ok b2 →
      (b2.seg rSeg).Data.start ≠ (b2.seg rSeg).Data.end_ ∧
      (b2.seg lSeg).Data.start ≠ (b2.seg lSeg).Data.end_) := by
  refine ⟨?_, ?_, ?_, ?_⟩
  · intro i b1 hadd
    obtain ⟨h1, h2⟩ := DivideSeg_of_AddVertex b rSeg lSeg i b1 hadd
    constructor
    · rintro ⟨e, he⟩
      by_contra hdup
      obtain ⟨b2, hb2⟩ := h2 hdup
      rw [hb2] at he
      cases he
    · intro hdup
      exact ⟨_, h1 hdup⟩
  · constructor
    · intro herr
      cases hadd : AddVertex b (b.splitPoint rSeg).1 (b.splitPoint rSeg).2 with
      | error e =>
        rw [DivideSeg_error_of_AddVertex b rSeg lSeg e hadd] at herr
        have := AddVertex_error b _ _ e hadd
        subst this
        cases herr
      | ok res =>
        obtain ⟨i, b1⟩ := res
        refine ⟨i, b1, rfl, ?_⟩
        by_contra hdup
        obtain ⟨b2, hb2⟩ := (DivideSeg_of_AddVertex b rSeg lSeg i b1 hadd).2 hdup
        rw [hb2] at herr
        cases herr
    · rintro ⟨i, b1, hadd, hdup⟩
      exact (DivideSeg_of_AddVertex b rSeg lSeg i b1 hadd).1 hdup
  · intro e herr hne2
    cases hadd : AddVertex b (b.splitPoint rSeg).1 (b.splitPoint rSeg).2 with
    | error e2 =>
      have h2 := DivideSeg_error_of_AddVertex b rSeg lSeg e2 hadd
      rw [h2] at herr
      injection herr with herr
      subst herr
      have := AddVertex_error b _ _ e2 hadd
      subst this
      exact ⟨rfl, rfl⟩
    | ok res =>
      obtain ⟨i, b1⟩ := res
      exfalso
      obtain ⟨h1, h2⟩ := DivideSeg_of_AddVertex b rSeg lSeg i b1 hadd
      by_cases hdup : (b.seg rSeg).Data.start = i ∨ (b.seg rSeg).Data.end_ = i
      · rw [h1 hdup] at herr
        injection herr with herr
        exact hne2 herr.symm
      · obtain ⟨b2, hb2⟩ := h2 hdup
        rw [hb2] at herr
        cases herr
  · intro b2 hok
    obtain ⟨i, b1, hadd, hs, he, _, _, _, hhalves⟩ := DivideSeg_ok b rSeg lSeg b2 hok
    obtain ⟨hR, hL⟩ := hhalves hne hr hl
    obtain ⟨_, hi⟩ := AddVertex_frame b _ _ i b1 hadd
    have hi2 : toUSHORT i = i := toUSHORT_of_lt (by omega)
    rw [hR, hL, hi2]
    unfold rightHalf leftHalf
    split_ifs
    · exact ⟨hs, by rw [hcopy.2]; exact Ne.symm he⟩
    · exact ⟨Ne.symm he, by rw [hcopy.1]; exact hs⟩

/-! ## Arrays -/

theorem length_slice {α : Type} (a : List α) (off n : Nat) (h : off + n ≤ a.length) :
    (slice a off n).length = n := by
  simp [slice]
  omega

theorem getD_slice {α : Type} (a : List α) (off n m : Nat) (d : α) (hm : m < n) :
    (slice a off n).getD m d = a.getD (off + m) d := by
  simp only [slice, List.getD_eq_getElem?_getD, List.getElem?_take, List.getElem?_drop, hm,
    if_true]

theorem length_blit {α : Type} (a xs : List α) (off : Nat) (h : off + xs.length ≤ a.length) :
    (blit a off xs).length = a.length := by
  simp [blit]
  omega

theorem getD_blit_lt {α : Type} (a xs : List α) (off j : Nat) (d : α) (h : off ≤ a.length)
    (hj : j < off) : (blit a off xs).getD j d = a.getD j d := by
  have h1 : j < (a.take off).length := by simp; omega
  simp only [blit, List.getD_eq_getElem?_getD, List.append_assoc]
  rw [List.getElem?_append_left h1, List.getElem?_take, if_pos hj]

theorem getD_blit_mid {α : Type} (a xs : List α) (off j : Nat) (d : α) (h : off ≤ a.length)
    (hj : j < xs.length) : (blit a off xs).getD (off + j) d = xs.getD j d := by
  have h1 : (a.take off).length = off := by simp; omega
  simp only [blit, List.getD_eq_getElem?_getD, List.append_assoc]
  rw [List.getElem?_append_right (by omega), h1, Nat.add_sub_cancel_left,
    List.getElem?_append_left hj]

theorem getD_blit_ge {α : Type} (a xs : List α) (off j : Nat) (d : α) (h : off ≤ a.length)
    (hj : off + xs.length ≤ j) : (blit a off xs).getD j d = a.getD j d := by
  have h1 : (a.take off).length = off := by simp; omega
  simp only [blit, List.getD_eq_getElem?_getD, List.append_assoc]
  rw [List.getElem?_append_right (by omega), h1, List.getElem?_append_right (by omega),
    List.getElem?_drop]
  congr 2
  omega

/-! ## `SplitSegs` -/

theorem DivideSeg_counts (b : Builder) (rSeg lSeg : Nat) (b2 : Builder)
    (h : DivideSeg b rSeg lSeg = .ok b2) :
    b2.segCount = b.segCount ∧ b2.maxSegs = b.maxSegs := by
  obtain ⟨i, b1, hadd, _, _, hfr2, _⟩ := DivideSeg_ok b rSeg lSeg b2 h
  obtain ⟨hfr1, _⟩ := AddVertex_frame b _ _ i b1 hadd
  rw [hfr2, hfr1]
  exact ⟨rfl, rfl⟩

theorem SplitSegs_loop_ok (k : Nat) :
    ∀ (n s : Nat) (b b2 : Builder), n ≤ k → s + k + n ≤ b.segStart.length →
      SplitSegs.loop k n s b = .ok b2 →
      b2.segCount = b.segCount ∧ b2.maxSegs = b.maxSegs ∧
      b2.segStart.length = b.segStart.length ∧
      (∀ j, (j < s ∨ (s + n ≤ j ∧ j < s + k) ∨ s + k + n ≤ j) → b2.seg j = b.seg j) ∧
      (∀ i, i < n → ∃ sideS v d,
        b2.seg (s + i) = rightHalf (b.seg (s + i)) sideS v d ∧
        b2.seg (s + k + i) = leftHalf (b.seg (s + k + i)) sideS v d) := by
  intro n
  induction n with
  | zero =>
    intro s b b2 _ _ h
    simp only [SplitSegs.loop] at h
    injection h with h
    subst h
    exact ⟨rfl, rfl, rfl, fun _ _ => rfl, fun i hi => absurd hi (Nat.not_lt_zero i)⟩
  | succ n ih =>
    intro s b b2 hnk hlen h
    simp only [SplitSegs.loop] at h
    cases hd : DivideSeg b s (s + k) with
    | error e =>
      rw [hd] at h
      cases h
    | ok b1 =>
      rw [hd] at h
      simp only at h
      obtain ⟨c1, c2⟩ := DivideSeg_counts b s (s + k) b1 hd
      obtain ⟨i0, b0, _, _, _, _, hl1, hother, hhalves⟩ := DivideSeg_ok b s (s + k) b1 hd
      obtain ⟨hR, hL⟩ := hhalves (by omega) (by omega) (by omega)
      obtain ⟨d1, d2, d3, d4, d5⟩ := ih (s + 1) b1 b2 (by omega) (by rw [hl1]; omega) h
      refine ⟨by rw [d1, c1], by rw [d2, c2], by rw [d3, hl1], ?_, ?_⟩
      · intro j hj
        rw [d4 j (by omega), hother j (by omega) (by omega)]
      · intro i hi
        rcases Nat.eq_zero_or_pos i with hi0 | hipos
        · subst hi0
          refine ⟨b.cross (b.vertS s), toUSHORT i0, b.splitDist s, ?_, ?_⟩
          · rw [Nat.add_zero, d4 s (by omega), hR]
          · rw [Nat.add_zero, d4 (s + k) (by omega), hL]
        · obtain ⟨sideS, v, d, e1, e2⟩ := d5 (i - 1) (by omega)
          have a1 : s + 1 + (i - 1) = s + i := by omega
          have a2 : s + 1 + k + (i - 1) = s + k + i := by omega
          rw [a1, hother (s + i) (by omega) (by omega)] at e1
          rw [a2, hother (s + k + i) (by omega) (by omega)] at e2
          exact ⟨sideS, v, d, e1, e2⟩

theorem SplitSegs_loop_error (k : Nat) :
    ∀ (n s : Nat) (b : Builder) (e : Halt), SplitSegs.loop k n s b = .error e →
      e = .vertexOverflow ∨ e = .endPointDuplicated := by
  intro n
  induction n with
  | zero =>
    intro s b e h
    simp only [SplitSegs.loop] at h
    cases h
  | succ n ih =>
    intro s b e h
    simp only [SplitSegs.loop] at h
    cases hd : DivideSeg b s (s + k) with
    | error e2 =>
      rw [hd] at h
      simp only at h
      injection h with h
      subst h
      cases hadd : AddVertex b (b.splitPoint s).1 (b.splitPoint s).2 with
      | error e3 =>
        rw [DivideSeg_error_of_AddVertex b s (s + k) e3 hadd] at hd
        injection hd with hd
        subst hd
        exact Or.inl (AddVertex_error b _ _ _ hadd)
      | ok res =>
        obtain ⟨i, b1⟩ := res
        obtain ⟨h1, h2⟩ := DivideSeg_of_AddVertex b s (s + k) i b1 hadd
        by_cases hdup : (b.seg s).Data.start = i ∨ (b.seg s).Data.end_ = i
        · rw [h1 hdup] at hd
          injection hd with hd
          exact Or.inr hd.symm
        · obtain ⟨b2, hb2⟩ := h2 hdup
          rw [hb2] at hd
          cases hd
    | ok b1 =>
      rw [hd] at h
      exact ih _ _ _ h

/-- C8. `SplitSegs ( segs, k )` for `k` segs that lie in the array (`segs + k <=
segCount`, the array having its `maxSegs` slots): if `segCount + k > maxSegs` the call
ends in the fatal error of too many segs; otherwise it never ends in that error (it can
only fail inside `DivideSeg`), and when it returns, `segCount` has grown by exactly `k`,
the segs before `segs` are untouched, `segs [i]` and `segs [i + k]` are the right and the
left half of the original `segs [i]` for every `i < k` (so both keep its lineDef, flip,
angle, sector and noSplit), and every seg of the former tail `segs [k ..]` has moved up
by `k` places unchanged. -/
theorem SplitSegs_layout (b : Builder) (segs k : Nat)
    (hlen : b.segStart.length = b.maxSegs) (hin : segs + k ≤ b.segCount) :
    (b.segCount + k > b.maxSegs → SplitSegs b segs k = .error .tooManySegs) ∧
    (b.segCount + k ≤ b.maxSegs →
      SplitSegs b segs k ≠ .error .tooManySegs ∧
      ∀ b2, SplitSegs b segs k = .ok b2 →
        b2.segCount = b.segCount + k ∧
        (∀ j, j < segs → b2.seg j = b.seg j) ∧
        (∀ i, i < k → ∃ sideS v d,
          b2.seg (segs + i) = rightHalf (b.seg (segs + i)) sideS v d ∧
          b2.seg (segs + k + i) = leftHalf (b.seg (segs + i)) sideS v d ∧
          (b2.seg (segs + i)).Data.lineDef = (b.seg (segs + i)).Data.lineDef ∧
          (b2.seg (segs + i)).Data.flip = (b.seg (segs + i)).Data.flip ∧
          (b2.seg (segs + i)).Data.angle = (b.seg (segs + i)).Data.angle ∧
          (b2.seg (segs + i)).Sector = (b.seg (segs + i)).Sector ∧
          (b2.seg (segs + i)).noSplit = (b.seg (segs + i)).noSplit ∧
          (b2.seg (segs + k + i)).Data.lineDef = (b.seg (segs + i)).Data.lineDef ∧
          (b2.seg (segs + k + i)).Data.flip = (b.seg (segs + i)).Data.flip ∧
          (b2.seg (segs + k + i)).Data.angle = (b.seg (segs + i)).Data.angle ∧
          (b2.seg (segs + k + i)).Sector = (b.seg (segs + i)).Sector ∧
          (b2.seg (segs + k + i)).noSplit = (b.seg (segs + i)).noSplit) ∧
        (∀ j, segs + k ≤ j → j < b.segCount → b2.seg (j + k) = b.seg j)) := by
  constructor
  · intro hbig
    simp only [SplitSegs]
    rw [if_pos hbig]
  · intro hfit
    have hnot : ¬ (b.segCount + k > b.maxSegs) := by omega
    -- the builder after the counter update and the `memmove`
    have hcount : (slice b.segStart segs (b.segCount + k - segs - k)).length
        = b.segCount + k - segs - k := length_slice _ _ _ (by omega)
    have hm_len : (blit b.segStart (segs + k)
        (slice b.segStart segs (b.segCount + k - segs - k))).length = b.segStart.length :=
      length_blit _ _ _ (by rw [hcount]; omega)
    have hm_lt : ∀ j, j < segs + k →
        (blit b.segStart (segs + k) (slice b.segStart segs (b.segCount + k - segs - k))).getD j
          default = b.seg j := by
      intro j hj
      rw [getD_blit_lt _ _ _ _ _ (by omega) hj]
      rfl
    have hm_mid : ∀ m, m < b.segCount - segs →
        (blit b.segStart (segs + k) (slice b.segStart segs (b.segCount + k - segs - k))).getD
          (segs + k + m) default = b.seg (segs + m) := by
      intro m hm
      rw [getD_blit_mid _ _ _ _ _ (by omega) (by rw [hcount]; omega),
        getD_slice _ _ _ _ _ (by omega)]
      rfl
    constructor
    · intro herr
      simp only [SplitSegs] at herr
      rw [if_neg hnot] at herr
      rcases SplitSegs_loop_error _ _ _ _ _ herr with h | h <;> cases h
    · intro b2 hok
      simp only [SplitSegs] at hok
      rw [if_neg hnot] at hok
      obtain ⟨e1, _, _, e4, e5⟩ := SplitSegs_loop_ok k k segs _ b2 (le_refl _)
        (by
          show segs + k + k ≤ (blit b.segStart (segs + k)
            (slice b.segStart segs (b.segCount + k - segs - k))).length
          rw [hm_len]
          omega) hok
      refine ⟨e1, ?_, ?_, ?_⟩
      · intro j hj
        rw [e4 j (Or.inl hj)]
        exact hm_lt j (by omega)
      · intro i hi
        obtain ⟨sideS, v, d, r1, r2⟩ := e5 i hi
        have r1 : b2.seg (segs + i) = rightHalf (b.seg (segs + i)) sideS v d := by
          rw [r1]
          congr 1
          exact hm_lt _ (by omega)
        have r2 : b2.seg (segs + k + i) = leftHalf (b.seg (segs + i)) sideS v d := by
          rw [r2]
          congr 1
          exact hm_mid i (by omega)
        refine ⟨sideS, v, d, r1, r2, ?_⟩
        rw [r1, r2]
        unfold rightHalf leftHalf
        split_ifs <;> simp
      · intro j hj1 hj2
        rw [e4 (j + k) (Or.inr (Or.inr (by omega)))]
        have : j + k = segs + k + (j - segs) := by omega
        simp only [Builder.seg]
        rw [this, hm_mid (j - segs) (by omega)]
        congr 1
        omega

/-! ## Square roots and rounding -/

theorem isqrtLoop_spec : ∀ (fuel n k : Nat), k * k ≤ n →
    k ≤ isqrtLoop fuel n k ∧ isqrtLoop fuel n k * isqrtLoop fuel n k ≤ n ∧
      (isqrtLoop fuel n k < k + fuel →
        n < (isqrtLoop fuel n k + 1) * (isqrtLoop fuel n k + 1)) := by
  intro fuel
  induction fuel with
  | zero =>
    intro n k hk
    simp only [isqrtLoop]
    exact ⟨le_refl _, hk, fun h => absurd h (by omega)⟩
  | succ fuel ih =>
    intro n k hk
    simp only [isqrtLoop]
    by_cases h : (k + 1) * (k + 1) ≤ n
    · rw [if_pos h]
      obtain ⟨h1, h2, h3⟩ := ih n (k + 1) h
      exact ⟨by omega, h2, fun hlt => h3 (by omega)⟩
    · rw [if_neg h]
      exact ⟨le_refl _, hk, fun _ => by omega⟩

theorem isqrt_sq_le (n : Nat) : isqrt n * isqrt n ≤ n :=
  (isqrtLoop_spec n n 0 (by omega)).2.1

theorem lt_isqrt_succ_sq (n : Nat) : n < (isqrt n + 1) * (isqrt n + 1) := by
  obtain ⟨_, h2, h3⟩ := isqrtLoop_spec n n 0 (by omega)
  by_cases h : isqrtLoop n n 0 < 0 + n
  · exact h3 h
  · have hge : n ≤ isqrt n := by
      unfold isqrt
      omega
    nlinarith

theorem le_isqrt {k n : Nat} (h : k * k ≤ n) : k ≤ isqrt n := by
  by_contra hlt
  have h1 : isqrt n + 1 ≤ k := by omega
  have h2 := lt_isqrt_succ_sq n
  have h3 : (isqrt n + 1) * (isqrt n + 1) ≤ k * k := Nat.mul_le_mul h1 h1
  omega

/-- The model of `hypot` agrees with the square root of the library. -/
theorem isqrt_eq_sqrt (n : Nat) : isqrt n = Nat.sqrt n := by
  rw [Nat.eq_sqrt]
  exact ⟨isqrt_sq_le n, lt_isqrt_succ_sq n⟩

theorem roundDiv_err (n d : Int) (hd : d ≠ 0) : 2 * |roundDiv n d * d - n| ≤ |d| := by
  have hD : 0 < d.natAbs := Int.natAbs_pos.mpr hd
  have h1 : 2 * d.natAbs * ((2 * n.natAbs + d.natAbs) / (2 * d.natAbs)) ≤ 2 * n.natAbs + d.natAbs :=
    Nat.mul_div_le _ _
  have h2 : 2 * n.natAbs + d.natAbs <
      2 * d.natAbs * ((2 * n.natAbs + d.natAbs) / (2 * d.natAbs) + 1) :=
    Nat.lt_mul_div_succ _ (by omega)
  unfold roundDiv
  generalize (2 * n.natAbs + d.natAbs) / (2 * d.natAbs) = q at h1 h2
  have e1 : (d.natAbs : Int) = |d| := Int.natCast_natAbs d
  have e2 : (n.natAbs : Int) = |n| := Int.natCast_natAbs n
  have h1' : 2 * |d| * (q : Int) ≤ 2 * |n| + |d| := by
    rw [← e1, ← e2]
    exact_mod_cast h1
  have h2' : 2 * |n| + |d| < 2 * |d| * ((q : Int) + 1) := by
    rw [← e1, ← e2]
    exact_mod_cast h2
  have hdabs : sgn d * d = |d| := by
    unfold sgn
    split_ifs with a b
    · rw [abs_of_neg a]; ring
    · rw [abs_of_pos b]; ring
    · omega
  have hnabs : sgn n * |n| = n := by
    unfold sgn
    split_ifs with a b
    · rw [abs_of_neg a]; ring
    · rw [abs_of_pos b]; ring
    · have : n = 0 := by omega
      simp [this]
  have key : sgn n * sgn d * (q : Int) * d - n = sgn n * ((q : Int) * |d| - |n|) := by
    have e : sgn n * ((q : Int) * |d| - |n|) = sgn n * (q : Int) * |d| - sgn n * |n| := by ring
    rw [e, hnabs, ← hdabs]
    ring
  rw [key, abs_mul]
  have hs : |sgn n| ≤ 1 := by
    unfold sgn
    split_ifs <;> simp
  have hs0 : 0 ≤ |sgn n| := abs_nonneg _
  have hb : 2 * abs ((q : Int) * |d| - |n|) ≤ |d| := by
    rcases abs_cases ((q : Int) * |d| - |n|) with ⟨h, _⟩ | ⟨h, _⟩ <;> rw [h] <;> linarith
  have hz : 0 ≤ abs ((q : Int) * |d| - |n|) := abs_nonneg _
  nlinarith

/-! ## The split point and the partition line -/

theorem cross_round_bound (DX DY X Y C dx dy c : Int) (hC : C = DY * X - DX * Y)
    (hdet : dx * DY - dy * DX ≠ 0) :
    2 * |DX * (roundDiv (C * dy - c * DY) (dx * DY - dy * DX) - Y)
        - DY * (roundDiv (C * dx - c * DX) (dx * DY - dy * DX) - X)| ≤ |DX| + |DY| := by
  have hx := roundDiv_err (C * dx - c * DX) (dx * DY - dy * DX) hdet
  have hy := roundDiv_err (C * dy - c * DY) (dx * DY - dy * DX) hdet
  generalize roundDiv (C * dx - c * DX) (dx * DY - dy * DX) = Px at hx ⊢
  generalize roundDiv (C * dy - c * DY) (dx * DY - dy * DX) = Py at hy ⊢
  generalize hdet2 : dx * DY - dy * DX = det at hx hy hdet
  have hpos : 0 < |det| := abs_pos.mpr hdet
  have key : (DX * (Py - Y) - DY * (Px - X)) * det
      = DX * (Py * det - (C * dy - c * DY)) - DY * (Px * det - (C * dx - c * DX)) := by
    rw [← hdet2, hC]
    ring
  have h1 : |DX * (Py - Y) - DY * (Px - X)| * |det|
      ≤ |DX| * |Py * det - (C * dy - c * DY)| + |DY| * |Px * det - (C * dx - c * DX)| := by
    rw [← abs_mul, key, ← abs_mul, ← abs_mul]
    exact abs_sub _ _
  have hDX : 0 ≤ |DX| := abs_nonneg _
  have hDY : 0 ≤ |DY| := abs_nonneg _
  have h2 : 2 * |DX * (Py - Y) - DY * (Px - X)| * |det| ≤ (|DX| + |DY|) * |det| := by
    nlinarith
  by_contra hlt
  push_neg at hlt
  nlinarith

theorem sq_bound_weak (a b m : Nat) (h : 2 * m ≤ a + b) : m * m ≤ a * a + b * b := by
  nlinarith [sq_nonneg ((a : Int) - b)]

theorem sq_bound_strict (a b m : Nat) (h : 2 * m ≤ a + b) (hne : ¬ (a = b ∧ a ≤ 2))
    (h0 : a ≠ 0 ∨ b ≠ 0) : (m + 1) * (m + 1) ≤ a * a + b * b := by
  by_cases hsmall : a ≤ 2 ∧ b ≤ 2
  · obtain ⟨ha, hb⟩ := hsmall
    interval_cases a <;> interval_cases b <;> simp_all <;> (have : m ≤ 1 := by omega) <;>
      interval_cases m <;> simp_all
  · have hbig : 3 ≤ a ∨ 3 ≤ b := by omega
    have hm : 2 * m + 2 ≤ a + b + 2 := by omega
    have h4 : (2 * m + 2) * (2 * m + 2) ≤ (a + b + 2) * (a + b + 2) := Nat.mul_le_mul hm hm
    have h5 : (a + b + 2) * (a + b + 2) ≤ 4 * (a * a + b * b) := by
      zify
      rcases hbig with h | h
      · have h' : (3 : Int) ≤ a := by exact_mod_cast h
        nlinarith [sq_nonneg ((a : Int) - b), sq_nonneg ((a : Int) - 1), sq_nonneg ((b : Int) - 1),
          mul_nonneg (sub_nonneg.mpr h') (sub_nonneg.mpr h')]
      · have h' : (3 : Int) ≤ b := by exact_mod_cast h
        nlinarith [sq_nonneg ((a : Int) - b), sq_nonneg ((a : Int) - 1), sq_nonneg ((b : Int) - 1),
          mul_nonneg (sub_nonneg.mpr h') (sub_nonneg.mpr h')]
    nlinarith

theorem WhichSide_split (b : Builder) (s : SEG) (h : WhichSide b s = SIDE_SPLIT) :
    _WhichSide b s = SIDE_SPLIT := by
  unfold WhichSide at h
  simp only at h
  by_cases h1 : IS_LEFT_RIGHT (b.currentSideAt s.Sector) = true
  · exfalso
    rw [if_pos h1] at h
    unfold IS_LEFT_RIGHT SIDE_LEFT SIDE_RIGHT at h1
    unfold FLIP SIDE_SPLIT at h
    simp only [Bool.or_eq_true, beq_iff_eq] at h1
    split_ifs at h <;> omega
  · rw [if_neg h1] at h
    by_cases h2 : (b.aliasOf s.Data.lineDef).index = (b.aliasOf b.st.currentAlias).index
    · exfalso
      rw [if_pos h2] at h
      split_ifs at h <;> revert h <;> decide
    · rw [if_neg h2] at h
      exact h

theorem _WhichSide_split (b : Builder) (s : SEG) (h : _WhichSide b s = SIDE_SPLIT) :
    ((_WhichSide.labels b s).1 < 0 ∧ 0 < (_WhichSide.labels b s).2) ∨
    (0 < (_WhichSide.labels b s).1 ∧ (_WhichSide.labels b s).2 < 0) := by
  unfold _WhichSide at h
  generalize _WhichSide.labels b s = l at h ⊢
  obtain ⟨y1, y2⟩ := l
  simp only [SIDE_SPLIT, SIDE_LEFT, SIDE_RIGHT] at h ⊢
  split_ifs at h <;> omega

theorem labels_det_ne_zero (b : Builder) (s : SEG)
    (hpart : b.st.DX ≠ 0 ∨ b.st.DY ≠ 0)
    (h : ((_WhichSide.labels b s).1 < 0 ∧ 0 < (_WhichSide.labels b s).2) ∨
      (0 < (_WhichSide.labels b s).1 ∧ (_WhichSide.labels b s).2 < 0)) :
    ((b.vertex s.Data.end_).x - (b.vertex s.Data.start).x) * b.st.DY
      - ((b.vertex s.Data.end_).y - (b.vertex s.Data.start).y) * b.st.DX ≠ 0 := by
  intro hdet
  unfold _WhichSide.labels at h
  simp only at h
  by_cases hDX : b.st.DX = 0
  · have hDY : b.st.DY ≠ 0 := by tauto
    rw [hDX] at hdet
    simp only [mul_zero, sub_zero, mul_eq_zero] at hdet
    have hx : (b.vertex s.Data.end_).x = (b.vertex s.Data.start).x := by
      rcases hdet with h1 | h1
      · omega
      · exact absurd h1 hDY
    rw [if_pos hDX, hx] at h
    split_ifs at h <;> simp only at h <;> omega
  · rw [if_neg hDX] at h
    by_cases hDY : b.st.DY = 0
    · rw [hDY] at hdet
      simp only [mul_zero, zero_sub, neg_eq_zero, mul_eq_zero] at hdet
      have hy : (b.vertex s.Data.end_).y = (b.vertex s.Data.start).y := by
        rcases hdet with h1 | h1
        · omega
        · exact absurd h1 hDX
      rw [if_pos hDY, hy] at h
      split_ifs at h <;> simp only at h <;> omega
    · rw [if_neg hDY] at h
      have hz1 : IsZero b s (b.vertex s.Data.start)
          (b.st.DX * ((b.vertex s.Data.start).y - b.st.Y)
            - b.st.DY * ((b.vertex s.Data.start).x - b.st.X)) = 0 := by
        unfold IsZero
        simp only [hdet, if_true]
      have hz2 : IsZero b s (b.vertex s.Data.end_)
          (b.st.DX * ((b.vertex s.Data.end_).y - b.st.Y)
            - b.st.DY * ((b.vertex s.Data.end_).x - b.st.X)) = 0 := by
        unfold IsZero
        simp only [hdet, if_true]
      have ht : b.st.DX * ((b.vertex s.Data.end_).y - b.st.Y)
            - b.st.DY * ((b.vertex s.Data.end_).x - b.st.X)
          = b.st.DX * ((b.vertex s.Data.start).y - b.st.Y)
            - b.st.DY * ((b.vertex s.Data.start).x - b.st.X) := by
        linear_combination -hdet
      rw [hz1, hz2, ht] at h
      generalize b.st.DX * ((b.vertex s.Data.start).y - b.st.Y)
            - b.st.DY * ((b.vertex s.Data.start).x - b.st.X) = t at h
      generalize b.st.H_2 = H at h
      split_ifs at h <;> simp only at h <;> omega

theorem toNat_sq_add (x y : Int) :
    (x * x + y * y).toNat = x.natAbs * x.natAbs + y.natAbs * y.natAbs := by
  have h : x * x + y * y = ((x.natAbs * x.natAbs + y.natAbs * y.natAbs : Nat) : Int) := by
    push_cast
    rw [abs_mul_abs_self, abs_mul_abs_self]
  rw [h, Int.toNat_natCast]

theorem statics_consistent (b : Builder) (pSeg : SEG) :
    (ComputeStaticVariables b pSeg).st.C =
        (ComputeStaticVariables b pSeg).st.DY * (ComputeStaticVariables b pSeg).st.X
          - (ComputeStaticVariables b pSeg).st.DX * (ComputeStaticVariables b pSeg).st.Y ∧
      (ComputeStaticVariables b pSeg).st.H_2 =
        isqrt ((ComputeStaticVariables b pSeg).st.DX.natAbs
            * (ComputeStaticVariables b pSeg).st.DX.natAbs
          + (ComputeStaticVariables b pSeg).st.DY.natAbs
            * (ComputeStaticVariables b pSeg).st.DY.natAbs) := by
  constructor
  · simp only [ComputeStaticVariables, Builder.st]
    ring
  · simp only [ComputeStaticVariables, Builder.st]
    rw [toNat_sq_add]

/-- C6, as amended.  For every partition of non-zero length (the variables being those
`ComputeStaticVariables` sets for a seg `pSeg`) and every seg that `WhichSide` classifies
SPLIT against it, the rounded intersection `P` that `DivideSeg` passes to `AddVertex`
satisfies `|DX * ( P.y - Y ) - DY * ( P.x - X )| <= H_2`, and the inequality is strict
unless `|DX| = |DY| <= 2`. -/
theorem splitPoint_near_line (b bp : Builder) (pSeg : SEG) (i : Nat)
    (hbp : bp = ComputeStaticVariables b pSeg)
    (hpart : bp.st.DX ≠ 0 ∨ bp.st.DY ≠ 0)
    (hsplit : WhichSide bp (bp.seg i) = SIDE_SPLIT) :
    |bp.cross ⟨(bp.splitPoint i).1, (bp.splitPoint i).2⟩| ≤ bp.st.H_2 ∧
    (¬ (|bp.st.DX| = |bp.st.DY| ∧ |bp.st.DX| ≤ 2) →
      |bp.cross ⟨(bp.splitPoint i).1, (bp.splitPoint i).2⟩| < bp.st.H_2) := by
  have hdet := labels_det_ne_zero bp (bp.seg i) hpart
    (_WhichSide_split bp _ (WhichSide_split bp _ hsplit))
  obtain ⟨hC, hH⟩ := statics_consistent b pSeg
  rw [← hbp] at hC hH
  have hb := cross_round_bound bp.st.DX bp.st.DY bp.st.X bp.st.Y bp.st.C
    ((bp.vertex (bp.seg i).Data.end_).x - (bp.vertex (bp.seg i).Data.start).x)
    ((bp.vertex (bp.seg i).Data.end_).y - (bp.vertex (bp.seg i).Data.start).y)
    ((bp.vertex (bp.seg i).Data.end_).y * (bp.vertex (bp.seg i).Data.start).x
      - (bp.vertex (bp.seg i).Data.end_).x * (bp.vertex (bp.seg i).Data.start).y) hC hdet
  have hcross : bp.cross ⟨(bp.splitPoint i).1, (bp.splitPoint i).2⟩ =
      bp.st.DX * (roundDiv (bp.st.C * ((bp.vertex (bp.seg i).Data.end_).y
          - (bp.vertex (bp.seg i).Data.start).y)
        - ((bp.vertex (bp.seg i).Data.end_).y * (bp.vertex (bp.seg i).Data.start).x
          - (bp.vertex (bp.seg i).Data.end_).x * (bp.vertex (bp.seg i).Data.start).y) * bp.st.DY)
        (((bp.vertex (bp.seg i).Data.end_).x - (bp.vertex (bp.seg i).Data.start).x) * bp.st.DY
          - ((bp.vertex (bp.seg i).Data.end_).y - (bp.vertex (bp.seg i).Data.start).y) * bp.st.DX)
        - bp.st.Y)
      - bp.st.DY * (roundDiv (bp.st.C * ((bp.vertex (bp.seg i).Data.end_).x
          - (bp.vertex (bp.seg i).Data.start).x)
        - ((bp.vertex (bp.seg i).Data.end_).y * (bp.vertex (bp.seg i).Data.start).x
          - (bp.vertex (bp.seg i).Data.end_).x * (bp.vertex (bp.seg i).Data.start).y) * bp.st.DX)
        (((bp.vertex (bp.seg i).Data.end_).x - (bp.vertex (bp.seg i).Data.start).x) * bp.st.DY
          - ((bp.vertex (bp.seg i).Data.end_).y - (bp.vertex (bp.seg i).Data.start).y) * bp.st.DX)
        - bp.st.X) := rfl
  rw [← hcross] at hb
  generalize bp.cross ⟨(bp.splitPoint i).1, (bp.splitPoint i).2⟩ = t at hb ⊢
  rw [hH]
  have e1 : |t| = (t.natAbs : Int) := (Int.natCast_natAbs t).symm
  have e2 : |bp.st.DX| = (bp.st.DX.natAbs : Int) := (Int.natCast_natAbs _).symm
  have e3 : |bp.st.DY| = (bp.st.DY.natAbs : Int) := (Int.natCast_natAbs _).symm
  rw [e1, e2, e3] at hb
  rw [e1, e2, e3]
  have hb2 : 2 * t.natAbs ≤ bp.st.DX.natAbs + bp.st.DY.natAbs := by exact_mod_cast hb
  constructor
  · exact_mod_cast le_isqrt (sq_bound_weak _ _ _ hb2)
  · intro hex
    have hex2 : ¬ (bp.st.DX.natAbs = bp.st.DY.natAbs ∧ bp.st.DX.natAbs ≤ 2) := by
      intro h
      apply hex
      exact_mod_cast h
    have h0 : bp.st.DX.natAbs ≠ 0 ∨ bp.st.DY.natAbs ≠ 0 := by
      rcases hpart with h | h
      · exact Or.inl (Int.natAbs_ne_zero.mpr h)
      · exact Or.inr (Int.natAbs_ne_zero.mpr h)
    have := le_isqrt (sq_bound_strict _ _ _ hb2 hex2 h0)
    exact_mod_cast this

theorem floor_half_up (N D : Nat) (hD : 0 < D) :
    ⌊((N : ℚ) / D + 1 / 2)⌋ = (((2 * N + D) / (2 * D) : Nat) : Int) := by
  have hD' : (D : ℚ) ≠ 0 := by exact_mod_cast hD.ne'
  have e : (N : ℚ) / D + 1 / 2 = ((2 * N + D : Nat) : ℚ) / ((2 * D : Nat) : ℚ) := by
    push_cast
    field_simp
    ring
  rw [e, Rat.floor_natCast_div_natCast]
  rfl

/-- The integer model of the rounding agrees with the expression of the source,
`( int ) ( v + 0.5 * sgn ( v ))` for `v = num / det`: the sum is formed in the rationals
and truncated toward zero. -/
theorem roundDiv_eq_truncQ (n d : Int) (hd : d ≠ 0) :
    roundDiv n d = truncQ ((n : ℚ) / d + 1 / 2 * sgnQ ((n : ℚ) / d)) := by
  have hD : 0 < d.natAbs := Int.natAbs_pos.mpr hd
  have hDq : (0 : ℚ) < (d.natAbs : ℚ) := by exact_mod_cast hD
  have key := floor_half_up n.natAbs d.natAbs hD
  have habs : |(n : ℚ) / d| = (n.natAbs : ℚ) / d.natAbs := by
    rw [abs_div, Nat.cast_natAbs, Nat.cast_natAbs, Int.cast_abs, Int.cast_abs]
  unfold roundDiv
  rw [← key, ← habs]
  have hdq : (d : ℚ) ≠ 0 := by exact_mod_cast hd
  rcases lt_trichotomy n 0 with hn | hn | hn
  · rcases lt_or_gt_of_ne hd with hdn | hdp
    · have hpos : (0 : ℚ) < (n : ℚ) / d := div_pos_of_neg_of_neg (by exact_mod_cast hn) (by exact_mod_cast hdn)
      have s1 : sgn n = -1 := by unfold sgn; simp [hn]
      have s2 : sgn d = -1 := by unfold sgn; simp [hdn]
      have s3 : sgnQ ((n : ℚ) / d) = 1 := by unfold sgnQ; simp [hpos, not_lt.mpr hpos.le]
      rw [s1, s2, s3, abs_of_pos hpos]
      unfold truncQ
      rw [if_pos (by positivity)]
      ring_nf
    · have hneg : (n : ℚ) / d < 0 := div_neg_of_neg_of_pos (by exact_mod_cast hn) (by exact_mod_cast hdp)
      have s1 : sgn n = -1 := by unfold sgn; simp [hn]
      have s2 : sgn d = 1 := by unfold sgn; simp [hdp, not_lt.mpr hdp.le]
      have s3 : sgnQ ((n : ℚ) / d) = -1 := by unfold sgnQ; simp [hneg]
      rw [s1, s2, s3, abs_of_neg hneg]
      unfold truncQ
      rw [if_neg (by linarith)]
      have : (n : ℚ) / d + 1 / 2 * -1 = -(-((n : ℚ) / d) + 1 / 2) := by ring
      rw [this, Int.ceil_neg]
      ring_nf
  · subst hn
    simp [sgn, sgnQ, truncQ]
  · rcases lt_or_gt_of_ne hd with hdn | hdp
    · have hneg : (n : ℚ) / d < 0 := div_neg_of_pos_of_neg (by exact_mod_cast hn) (by exact_mod_cast hdn)
      have s1 : sgn n = 1 := by unfold sgn; simp [hn, not_lt.mpr hn.le]
      have s2 : sgn d = -1 := by unfold sgn; simp [hdn]
      have s3 : sgnQ ((n : ℚ) / d) = -1 := by unfold sgnQ; simp [hneg]
      rw [s1, s2, s3, abs_of_neg hneg]
      unfold truncQ
      rw [if_neg (by linarith)]
      have : (n : ℚ) / d + 1 / 2 * -1 = -(-((n : ℚ) / d) + 1 / 2) := by ring
      rw [this, Int.ceil_neg]
      ring_nf
    · have hpos : (0 : ℚ) < (n : ℚ) / d := div_pos (by exact_mod_cast hn) (by exact_mod_cast hdp)
      have s1 : sgn n = 1 := by unfold sgn; simp [hn, not_lt.mpr hn.le]
      have s2 : sgn d = 1 := by unfold sgn; simp [hdp, not_lt.mpr hdp.le]
      have s3 : sgnQ ((n : ℚ) / d) = 1 := by unfold sgnQ; simp [hpos, not_lt.mpr hpos.le]
      rw [s1, s2, s3, abs_of_pos hpos]
      unfold truncQ
      rw [if_pos (by positivity)]
      ring_nf

/-- C6, counterexample.  Against the partition from (0,1) to (1,2), for which
`H_2 = ( long ) hypot ( 1, 1 ) = 1`, the seg from (-2,2) to (1,-1) is classified SPLIT;
its intersection (-1/2, 1/2) is rounded to (-1,1), `SplitSegs` stores that point as
vertex 4 and makes it the shared end point of the two halves, and its cross product
with the partition is 1, which is not below `H_2`. -/
theorem splitPoint_off_line :
    WhichSide diagonalMap (diagonalMap.seg 1) = SIDE_SPLIT ∧
    diagonalMap.splitPoint 1 = (-1, 1) ∧
    (SplitSegs diagonalMap 1 1).toOption.map
        (fun b => (b.noVertices, b.vertex 4, (b.seg 1).Data.start, (b.seg 2).Data.end_))
      = some (5, ⟨-1, 1⟩, 4, 4) ∧
    diagonalMap.st.H_2 = 1 ∧
    ¬ (|diagonalMap.st.DX * ((diagonalMap.splitPoint 1).2 - diagonalMap.st.Y)
        - diagonalMap.st.DY * ((diagonalMap.splitPoint 1).1 - diagonalMap.st.X)|
      < diagonalMap.st.H_2) := by
  decide

/-- C7, counterexample.  Linedef 0 from (0,0) to (10,10) and linedef 2 from (20,20) to
(30,30) lie on the line `y = x` and their segs have the same angle; linedef 1 from (0,1)
to (1,2), registered between them, opens alias 1 (against its short seg the tolerance
`H_2` is 1 and rejects alias 0), and linedef 2, whose tolerance is 14, is then given
alias 1 while linedef 0 has alias 0. -/
theorem alias_differs_on_one_line :
    (∀ v ∈ [parallelMap.vertS 0, parallelMap.vertE 0, parallelMap.vertS 2, parallelMap.vertE 2],
      v.y = v.x) ∧
    (parallelMap.seg 0).Data.angle = (parallelMap.seg 2).Data.angle ∧
    ((GetLineDefAliases parallelMap 3).1.aliasOf 0).index = 0 ∧
    ((GetLineDefAliases parallelMap 3).1.aliasOf 2).index = 1 := by
  decide

/-! ## Aliases -/

theorem ComputeStaticVariables_frame (b : Builder) (p : SEG) :
    ComputeStaticVariables b p =
      { b with scan := { b.scan with statics := (ComputeStaticVariables b p).scan.statics } } := by
  rfl

theorem seg_ComputeStaticVariables (b : Builder) (p : SEG) (i : Nat) :
    (ComputeStaticVariables b p).seg i = b.seg i := rfl

theorem vertex_ComputeStaticVariables (b : Builder) (p : SEG) (i : Nat) :
    (ComputeStaticVariables b p).vertex i = b.vertex i := rfl

theorem search_some (b : Builder) (sa : List Nat) :
    ∀ (m x : Nat), GetLineDefAliases.search b sa m = some x →
      x < m ∧ CoLinear b (b.seg (sa.getD x 0)) = true ∧
        ∀ y, x < y → y < m → CoLinear b (b.seg (sa.getD y 0)) = false := by
  intro m
  induction m with
  | zero =>
    intro x h
    simp [GetLineDefAliases.search] at h
  | succ m ih =>
    intro x h
    simp only [GetLineDefAliases.search] at h
    by_cases hc : CoLinear b (b.seg (sa.getD m 0)) = true
    · rw [if_pos hc] at h
      injection h with h
      subst h
      exact ⟨Nat.lt_succ_self _, hc, fun y h1 h2 => by omega⟩
    · rw [if_neg hc] at h
      obtain ⟨h1, h2, h3⟩ := ih x h
      refine ⟨by omega, h2, ?_⟩
      intro y hy1 hy2
      by_cases hym : y = m
      · subst hym
        simpa using hc
      · exact h3 y hy1 (by omega)

theorem search_eq (b : Builder) (sa : List Nat) (m x : Nat) (hx : x < m)
    (hacc : CoLinear b (b.seg (sa.getD x 0)) = true)
    (hrej : ∀ y, x < y → y < m → CoLinear b (b.seg (sa.getD y 0)) = false) :
    GetLineDefAliases.search b sa m = some x := by
  induction m with
  | zero => omega
  | succ m ih =>
    simp only [GetLineDefAliases.search]
    by_cases hxm : x = m
    · subst hxm
      rw [if_pos hacc]
    · have hr := hrej m (by omega) (by omega)
      rw [if_neg (by rw [hr]; simp)]
      exact ih (by omega) (fun y h1 h2 => hrej y h1 (by omega))

/-- What one round of `GetLineDefAliases` leaves alone. -/
theorem step_frame (s : Builder × List Nat × Nat) (i : Nat) :
    (GetLineDefAliases.step s i).1.segStart = s.1.segStart ∧
    (GetLineDefAliases.step s i).1.newVertices = s.1.newVertices ∧
    (GetLineDefAliases.step s i).1.lineDefAlias.length = s.1.lineDefAlias.length ∧
    (∀ j, j ≠ i → (GetLineDefAliases.step s i).1.aliasOf j = s.1.aliasOf j) ∧
    (∃ ext, (GetLineDefAliases.step s i).2.1 = s.2.1 ++ ext ∧
      (GetLineDefAliases.step s i).1.noAliases = s.1.noAliases + ext.length) := by
  obtain ⟨b, sa, r⟩ := s
  unfold GetLineDefAliases.step
  simp only
  by_cases hreg : (b.seg r).Data.lineDef ≠ i
  · rw [if_pos hreg]
    exact ⟨rfl, rfl, rfl, fun _ _ => rfl, [], by simp, rfl⟩
  · rw [if_neg hreg]
    cases hs : GetLineDefAliases.search (ComputeStaticVariables b (b.seg r)) sa
        (ComputeStaticVariables b (b.seg r)).noAliases with
    | none =>
      refine ⟨rfl, rfl, by simp [ComputeStaticVariables], ?_, [r], rfl, rfl⟩
      intro j hj
      simp [Builder.aliasOf, ComputeStaticVariables, List.getD_eq_getElem?_getD,
        List.getElem?_set, Ne.symm hj]
    | some x =>
      refine ⟨rfl, rfl, by simp [ComputeStaticVariables], ?_, [], by simp, rfl⟩
      intro j hj
      simp [Builder.aliasOf, ComputeStaticVariables, List.getD_eq_getElem?_getD,
        List.getElem?_set, Ne.symm hj]

/-- The entry one round of `GetLineDefAliases` writes for a linedef that has segs. -/
theorem step_at (s : Builder × List Nat × Nat) (i : Nat)
    (hreg : (s.1.seg s.2.2).Data.lineDef = i) (hlen : i < s.1.lineDefAlias.length) :
    (∀ x, GetLineDefAliases.search (ComputeStaticVariables s.1 (s.1.seg s.2.2)) s.2.1
        s.1.noAliases = some x →
      ((GetLineDefAliases.step s i).1.aliasOf i).index = x) ∧
    (GetLineDefAliases.search (ComputeStaticVariables s.1 (s.1.seg s.2.2)) s.2.1
        s.1.noAliases = none →
      ((GetLineDefAliases.step s i).1.aliasOf i).index = s.1.noAliases ∧
      (GetLineDefAliases.step s i).2.1 = s.2.1 ++ [s.2.2]) := by
  obtain ⟨b, sa, r⟩ := s
  simp only at hreg hlen ⊢
  have hreg2 : ¬ ((b.seg r).Data.lineDef ≠ i) := by simp [hreg]
  constructor
  · intro x hs
    have hs2 : GetLineDefAliases.search (ComputeStaticVariables b (b.seg r)) sa
        (ComputeStaticVariables b (b.seg r)).noAliases = some x := hs
    unfold GetLineDefAliases.step
    simp only
    rw [if_neg hreg2, hs2]
    simp [Builder.aliasOf, ComputeStaticVariables, List.getD_eq_getElem?_getD,
      List.getElem?_set, hlen]
  · intro hs
    have hs2 : GetLineDefAliases.search (ComputeStaticVariables b (b.seg r)) sa
        (ComputeStaticVariables b (b.seg r)).noAliases = none := hs
    unfold GetLineDefAliases.step
    simp only
    rw [if_neg hreg2, hs2]
    simp [Builder.aliasOf, ComputeStaticVariables, List.getD_eq_getElem?_getD,
      List.getElem?_set, hlen]

theorem rounds_succ (b : Builder) (n k : Nat) :
    GetLineDefAliases.rounds b n (k + 1) =
      GetLineDefAliases.step (GetLineDefAliases.rounds b n k) k := by
  simp only [GetLineDefAliases.rounds, List.range_succ, List.foldl_append, List.foldl_cons,
    List.foldl_nil]

theorem rounds_inv (b : Builder) (n : Nat) : ∀ k,
    (GetLineDefAliases.rounds b n k).1.segStart = b.segStart ∧
    (GetLineDefAliases.rounds b n k).1.newVertices = b.newVertices ∧
    (GetLineDefAliases.rounds b n k).1.lineDefAlias.length = n + 1 ∧
    (GetLineDefAliases.rounds b n k).2.1.length = (GetLineDefAliases.rounds b n k).1.noAliases := by
  intro k
  induction k with
  | zero => simp [GetLineDefAliases.rounds]
  | succ k ih =>
    obtain ⟨h1, h2, h3, h4⟩ := ih
    obtain ⟨f1, f2, f3, _, ext, f5, f6⟩ := step_frame (GetLineDefAliases.rounds b n k) k
    rw [rounds_succ]
    refine ⟨by rw [f1, h1], by rw [f2, h2], by rw [f3, h3], ?_⟩
    rw [f5, f6, List.length_append, h4]

theorem rounds_mono (b : Builder) (n k : Nat) : ∀ d,
    (∀ j, j < k → (GetLineDefAliases.rounds b n (k + d)).1.aliasOf j
      = (GetLineDefAliases.rounds b n k).1.aliasOf j) ∧
    ∃ ext, (GetLineDefAliases.rounds b n (k + d)).2.1
        = (GetLineDefAliases.rounds b n k).2.1 ++ ext ∧
      (GetLineDefAliases.rounds b n (k + d)).1.noAliases
        = (GetLineDefAliases.rounds b n k).1.noAliases + ext.length := by
  intro d
  induction d with
  | zero => exact ⟨fun _ _ => rfl, [], by simp, rfl⟩
  | succ d ih =>
    obtain ⟨h1, ext, h2, h3⟩ := ih
    obtain ⟨_, _, _, f4, ext2, f5, f6⟩ := step_frame (GetLineDefAliases.rounds b n (k + d)) (k + d)
    have e : k + (d + 1) = (k + d) + 1 := rfl
    rw [e, rounds_succ]
    refine ⟨?_, ext ++ ext2, ?_, ?_⟩
    · intro j hj
      rw [f4 j (by omega), h1 j hj]
    · rw [f5, h2, List.append_assoc]
    · rw [f6, h3, List.length_append]
      omega

theorem GetLineDefAliases_aliasOf (b : Builder) (n j : Nat) (hj : j < n) :
    (GetLineDefAliases b n).1.aliasOf j = (GetLineDefAliases.rounds b n (j + 1)).1.aliasOf j := by
  have h1 : (GetLineDefAliases b n).1.aliasOf j = (GetLineDefAliases.rounds b n n).1.aliasOf j := by
    simp only [GetLineDefAliases, Builder.aliasOf, List.getD_eq_getElem?_getD, List.getElem?_set]
    rw [if_neg (by omega)]
  have h2 := (rounds_mono b n (j + 1) (n - (j + 1))).1 j (Nat.lt_succ_self _)
  have e : j + 1 + (n - (j + 1)) = n := by omega
  rw [e] at h2
  rw [h1, h2]

theorem CoLinear_of_on_line (b : Builder) (q p : SEG)
    (hangle : q.Data.angle &&& 0x7FFF = p.Data.angle &&& 0x7FFF)
    (hnz : (b.vertex q.Data.end_).x - (b.vertex q.Data.start).x ≠ 0 ∨
      (b.vertex q.Data.end_).y - (b.vertex q.Data.start).y ≠ 0)
    (hline : b.OnLineOf p q) :
    CoLinear (ComputeStaticVariables b q) p = true := by
  unfold Builder.OnLineOf at hline
  obtain ⟨h1, _⟩ := hline
  unfold CoLinear
  simp only [ComputeStaticVariables, Builder.st, Builder.vertex] at *
  rw [if_neg (by simp [hangle])]
  by_cases hDX : (b.newVertices.getD q.Data.end_ default).x
      - (b.newVertices.getD q.Data.start default).x = 0
  · rw [if_pos hDX]
    rw [hDX] at h1
    have hDY : (b.newVertices.getD q.Data.end_ default).y
      - (b.newVertices.getD q.Data.start default).y ≠ 0 := by tauto
    simp only [zero_mul, zero_sub, neg_eq_zero, mul_eq_zero] at h1
    rcases h1 with h1 | h1
    · exact absurd h1 hDY
    · simp only [beq_iff_eq]
      omega
  · rw [if_neg hDX]
    by_cases hDY : (b.newVertices.getD q.Data.end_ default).y
        - (b.newVertices.getD q.Data.start default).y = 0
    · rw [if_pos hDY]
      rw [hDY] at h1
      simp only [zero_mul, sub_zero, mul_eq_zero] at h1
      rcases h1 with h1 | h1
      · exact absurd h1 hDX
      · simp only [beq_iff_eq]
        omega
    · rw [if_neg hDY]
      simp only [h1, beq_self_eq_true, Bool.true_or]

/-- C7, as amended.  Let linedefs `A < B` both have segs (the pointer `refSeg` of
`GetLineDefAliases` stands on a seg of the linedef when its round begins), let the four
end points of their segs lie on one line, of non-zero length, with seg angles equal
modulo `BAM180`.  If linedef `A` opened a new alias and `CoLinear`, with the seg of `B`
as the partition, rejects the seg of every alias opened after that one and before the
round of `B`, then the two linedefs get the same alias index. -/
theorem alias_shared (b : Builder) (n A B : Nat) (hAB : A < B) (hBn : B < n)
    (hregA : (b.seg (GetLineDefAliases.rounds b n A).2.2).Data.lineDef = A)
    (hregB : (b.seg (GetLineDefAliases.rounds b n B).2.2).Data.lineDef = B)
    (hopen : GetLineDefAliases.search
        (ComputeStaticVariables (GetLineDefAliases.rounds b n A).1
          (b.seg (GetLineDefAliases.rounds b n A).2.2))
        (GetLineDefAliases.rounds b n A).2.1 (GetLineDefAliases.rounds b n A).1.noAliases = none)
    (hangle : (b.seg (GetLineDefAliases.rounds b n B).2.2).Data.angle &&& 0x7FFF
      = (b.seg (GetLineDefAliases.rounds b n A).2.2).Data.angle &&& 0x7FFF)
    (hnz : (b.vertE (GetLineDefAliases.rounds b n B).2.2).x
          - (b.vertS (GetLineDefAliases.rounds b n B).2.2).x ≠ 0 ∨
        (b.vertE (GetLineDefAliases.rounds b n B).2.2).y
          - (b.vertS (GetLineDefAliases.rounds b n B).2.2).y ≠ 0)
    (hline : b.OnLineOf (b.seg (GetLineDefAliases.rounds b n A).2.2)
      (b.seg (GetLineDefAliases.rounds b n B).2.2))
    (hbetween : ∀ x, (GetLineDefAliases.rounds b n A).1.noAliases < x →
      x < (GetLineDefAliases.rounds b n B).1.noAliases →
      CoLinear (ComputeStaticVariables (GetLineDefAliases.rounds b n B).1
          (b.seg (GetLineDefAliases.rounds b n B).2.2))
        (b.seg ((GetLineDefAliases.rounds b n B).2.1.getD x 0)) = false) :
    ((GetLineDefAliases b n).1.aliasOf A).index = ((GetLineDefAliases b n).1.aliasOf B).index := by
  obtain ⟨a1, a2, a3, a4⟩ := rounds_inv b n A
  obtain ⟨b1, b2, b3, b4⟩ := rounds_inv b n B
  obtain ⟨c1, c2, c3, c4⟩ := rounds_inv b n (A + 1)
  have segA : ∀ i, (GetLineDefAliases.rounds b n A).1.seg i = b.seg i := fun i => by
    simp only [Builder.seg, a1]
  have segB : ∀ i, (GetLineDefAliases.rounds b n B).1.seg i = b.seg i := fun i => by
    simp only [Builder.seg, b1]
  have vertB : ∀ i, (GetLineDefAliases.rounds b n B).1.vertex i = b.vertex i := fun i => by
    simp only [Builder.vertex, b2]
  -- the round of `A`
  obtain ⟨_, hA2⟩ := step_at (GetLineDefAliases.rounds b n A) A (by rw [segA]; exact hregA)
    (by rw [a3]; omega)
  rw [segA] at hA2
  obtain ⟨iA, saA⟩ := hA2 hopen
  rw [← rounds_succ] at iA saA
  -- the alias of `A` is still there when the round of `B` begins
  obtain ⟨_, ext, m1, m2⟩ := rounds_mono b n (A + 1) (B - (A + 1))
  have e : A + 1 + (B - (A + 1)) = B := by omega
  rw [e, saA] at m1
  rw [e] at m2
  have hlenA1 : (GetLineDefAliases.rounds b n (A + 1)).1.noAliases
      = (GetLineDefAliases.rounds b n A).1.noAliases + 1 := by
    rw [← c4, saA, List.length_append, a4]
    rfl
  have hget : (GetLineDefAliases.rounds b n B).2.1.getD (GetLineDefAliases.rounds b n A).1.noAliases 0
      = (GetLineDefAliases.rounds b n A).2.2 := by
    rw [m1, List.getD_eq_getElem?_getD, List.append_assoc,
      List.getElem?_append_right (by rw [a4]), a4, Nat.sub_self]
    simp
  -- the round of `B`
  have hacc : CoLinear (ComputeStaticVariables (GetLineDefAliases.rounds b n B).1
        (b.seg (GetLineDefAliases.rounds b n B).2.2))
      (b.seg (GetLineDefAliases.rounds b n A).2.2) = true := by
    apply CoLinear_of_on_line
    · exact hangle
    · simp only [vertB]
      exact hnz
    · unfold Builder.OnLineOf
      simp only [vertB]
      exact hline
  have hsearch := search_eq
    (ComputeStaticVariables (GetLineDefAliases.rounds b n B).1
      (b.seg (GetLineDefAliases.rounds b n B).2.2))
    (GetLineDefAliases.rounds b n B).2.1 (GetLineDefAliases.rounds b n B).1.noAliases
    (GetLineDefAliases.rounds b n A).1.noAliases (by rw [m2, hlenA1]; omega)
    (by
      rw [hget, seg_ComputeStaticVariables, segB]
      exact hacc)
    (by
      intro y h1 h2
      rw [seg_ComputeStaticVariables, segB]
      exact hbetween y h1 h2)
  obtain ⟨hB1, _⟩ := step_at (GetLineDefAliases.rounds b n B) B (by rw [segB]; exact hregB)
    (by rw [b3]; omega)
  rw [segB] at hB1
  have iB := hB1 _ hsearch
  rw [← rounds_succ] at iB
  rw [GetLineDefAliases_aliasOf b n A (by omega), GetLineDefAliases_aliasOf b n B hBn, iA, iB]

/-! ## The recursion, case by case -/

/-- The three ways in which a call of `CreateNode` returns. -/
theorem CreateNode_cases (pf : PartitionFn) (fuel : Nat) (b : Builder) (prev : Option Nat)
    (rSegs noSegs : Nat) (r : Builder × Nat × Nat × Nat)
    (h : CreateNode pf (fuel + 1) b prev rSegs noSegs = .ok r) :
    b.nodesLeft ≠ 0 ∧
    ((noSegs ≤ 1 ∧
        CreateNode.leaf (CreateNode.enter b prev) b.nodePool.length b.scan.convexList.length
          rSegs noSegs = .ok r) ∨
     (1 < noSegs ∧ ∃ b2 nl nr,
        PartitionNode pf (CreateNode.enter b prev) b.nodePool.length rSegs noSegs
          = .ok (false, b2, nl, nr) ∧
        CreateNode.leaf b2 b.nodePool.length b.scan.convexList.length rSegs noSegs = .ok r) ∨
     (1 < noSegs ∧ ∃ b2 nl nr b3 rNode nr2 lSegs b4 lNode nl2 x,
        PartitionNode pf (CreateNode.enter b prev) b.nodePool.length rSegs noSegs
          = .ok (true, b2, nl, nr) ∧
        CreateNode pf fuel (CreateNode.mark b2 b.scan.convexList.length) prev rSegs nr
          = .ok (b3, rNode, nr2, lSegs) ∧
        CreateNode pf fuel (CreateNode.setChild0 b3 b.nodePool.length rNode) (some rNode)
          lSegs nl = .ok (b4, lNode, nl2, x) ∧
        r = (CreateNode.finish (CreateNode.setChild1 b4 b.nodePool.length lNode)
              b.nodePool.length lNode b.scan.convexList.length b2.partitionAlias,
             b.nodePool.length, nl2 + nr2, rSegs + (nl2 + nr2)))) := by
  unfold CreateNode at h
  by_cases h0 : b.nodesLeft = 0
  · rw [if_pos h0] at h
    cases h
  · rw [if_neg h0] at h
    refine ⟨h0, ?_⟩
    simp only at h
    by_cases h1 : noSegs ≤ 1
    · rw [if_pos h1] at h
      exact Or.inl ⟨h1, h⟩
    · rw [if_neg h1] at h
      right
      cases hp : PartitionNode pf (CreateNode.enter b prev) b.nodePool.length rSegs noSegs with
      | error e =>
        rw [hp] at h
        cases h
      | ok res =>
        obtain ⟨flag, b2, nl, nr⟩ := res
        rw [hp] at h
        cases flag with
        | false =>
          simp only at h
          exact Or.inl ⟨by omega, b2, nl, nr, rfl, h⟩
        | true =>
          simp only at h
          right
          cases hr : CreateNode pf fuel (CreateNode.mark b2 b.scan.convexList.length) prev rSegs
              nr with
          | error e =>
            rw [hr] at h
            cases h
          | ok res1 =>
            obtain ⟨b3, rNode, nr2, lSegs⟩ := res1
            rw [hr] at h
            simp only at h
            cases hl : CreateNode pf fuel (CreateNode.setChild0 b3 b.nodePool.length rNode)
                (some rNode) lSegs nl with
            | error e =>
              rw [hl] at h
              cases h
            | ok res2 =>
              obtain ⟨b4, lNode, nl2, x⟩ := res2
              rw [hl] at h
              simp only at h
              injection h with h
              exact ⟨by omega, b2, nl, nr, b3, rNode, nr2, lSegs, b4, lNode, nl2, x, rfl, hr,
                hl, h.symm⟩

/-! ## What sorting and splitting leave alone -/

theorem WhichSide_range (b : Builder) (s : SEG) :
    WhichSide b s = SIDE_LEFT ∨ WhichSide b s = SIDE_SPLIT ∨ WhichSide b s = SIDE_RIGHT := by
  unfold WhichSide
  simp only
  by_cases h1 : IS_LEFT_RIGHT (b.currentSideAt s.Sector) = true
  · rw [if_pos h1]
    unfold IS_LEFT_RIGHT at h1
    simp only [Bool.or_eq_true, beq_iff_eq] at h1
    unfold FLIP
    rcases h1 with h | h <;> rw [h] <;> split_ifs <;> simp [SIDE_LEFT, SIDE_RIGHT, SIDE_SPLIT]
  · rw [if_neg h1]
    by_cases h2 : (b.aliasOf s.Data.lineDef).index = (b.aliasOf b.st.currentAlias).index
    · rw [if_pos h2]
      split_ifs <;> simp
    · rw [if_neg h2]
      unfold _WhichSide
      simp only
      split_ifs <;> simp

theorem bump_total (c : Counts) (side : Int)
    (h : side = SIDE_LEFT ∨ side = SIDE_SPLIT ∨ side = SIDE_RIGHT) :
    (c.bump side).lCount + (c.bump side).sCount + (c.bump side).rCount
        = c.lCount + c.sCount + c.rCount + 1 ∧
      c.lCount ≤ (c.bump side).lCount ∧ c.sCount ≤ (c.bump side).sCount ∧
      c.rCount ≤ (c.bump side).rCount := by
  unfold Counts.bump
  rcases h with h | h | h <;> rw [h] <;> simp [SIDE_LEFT, SIDE_SPLIT, SIDE_RIGHT] <;> omega

theorem core_setSeg (b : Builder) (i : Nat) (s : SEG) : (b.setSeg i s).core = b.core := rfl

theorem classify_spec (seg : Nat) : ∀ (n i : Nat) (b : Builder) (c : Counts),
    (SortSegs.classify seg n i (b, c)).1.core = b.core ∧
    (SortSegs.classify seg n i (b, c)).1.segStart.length = b.segStart.length ∧
    (SortSegs.classify seg n i (b, c)).2.lCount + (SortSegs.classify seg n i (b, c)).2.sCount
        + (SortSegs.classify seg n i (b, c)).2.rCount
      = c.lCount + c.sCount + c.rCount + n ∧
    c.lCount ≤ (SortSegs.classify seg n i (b, c)).2.lCount ∧
    c.sCount ≤ (SortSegs.classify seg n i (b, c)).2.sCount ∧
    c.rCount ≤ (SortSegs.classify seg n i (b, c)).2.rCount := by
  intro n
  induction n with
  | zero =>
    intro i b c
    simp [SortSegs.classify]
  | succ n ih =>
    intro i b c
    simp only [SortSegs.classify]
    obtain ⟨h1, h2, h3, h4, h5, h6⟩ := ih (i + 1)
      (b.setSeg (seg + i) { b.seg (seg + i) with Side := WhichSide b (b.seg (seg + i)) })
      (c.bump (WhichSide b (b.seg (seg + i))))
    obtain ⟨g1, g2, g3, g4⟩ := bump_total c _ (WhichSide_range b (b.seg (seg + i)))
    refine ⟨by rw [h1, core_setSeg], by rw [h2, length_setSeg], ?_, ?_, ?_, ?_⟩
    · rw [h3, g1]
      push_cast
      ring
    · exact le_trans g2 h4
    · exact le_trans g3 h5
    · exact le_trans g4 h6

theorem distribute_core (seg : Nat) : ∀ (n i : Nat) (s : Builder × Nat × List SEG × List SEG),
    (SortSegs.distribute seg n i s).1.core = s.1.core := by
  intro n
  induction n with
  | zero =>
    intro i s
    rfl
  | succ n ih =>
    intro i s
    obtain ⟨b, rSeg, sSeg, lSeg⟩ := s
    simp only [SortSegs.distribute]
    rw [ih]
    split_ifs <;> rfl

theorem SortSegs_core (b : Builder) (pSeg : Option Nat) (seg noSegs : Nat)
    (b2 : Builder) (nl nr ns : Nat) (h : SortSegs b pSeg seg noSegs = .ok (b2, nl, nr, ns)) :
    b2.core = b.core ∧ nl + nr + ns = noSegs := by
  cases pSeg with
  | none =>
    simp only [SortSegs] at h
    injection h with h
    injection h with h1 h
    injection h with h2 h
    injection h with h3 h4
    subst h1 h2 h3 h4
    exact ⟨rfl, by omega⟩
  | some p =>
    simp only [SortSegs] at h
    obtain ⟨c1, c2, c3, c4, c5, c6⟩ := classify_spec seg noSegs 0
      (ComputeStaticVariables b (b.seg p)) ⟨0, 0, 0⟩
    generalize SortSegs.classify seg noSegs 0 (ComputeStaticVariables b (b.seg p), ⟨0, 0, 0⟩)
      = cl at h c1 c2 c3 c4 c5 c6
    obtain ⟨bc, count⟩ := cl
    simp only at h c1 c2 c3 c4 c5 c6
    split_ifs at h with hz hd
    · injection h with h
      injection h with h1 h
      injection h with h2 h
      injection h with h3 h4
      subst h1 h2 h3 h4
      refine ⟨?_, by omega⟩
      have := distribute_core seg (noSegs - SortSegs.leading bc seg noSegs 0)
        (SortSegs.leading bc seg noSegs 0) (bc, seg + SortSegs.leading bc seg noSegs 0, [], [])
      simp only [Builder.core] at this c1 ⊢
      simp only [Prod.mk.injEq] at this c1 ⊢
      simp only [ComputeStaticVariables] at c1
      obtain ⟨t1, t2, t3, t4, t5, t6, t7, t8, t9⟩ := this
      obtain ⟨u1, u2, u3, u4, u5, u6, u7, u8, u9⟩ := c1
      exact ⟨t1.trans u1, t2.trans u2, t3.trans u3, t4.trans u4, t5.trans u5, t6.trans u6,
        t7.trans u7, t8.trans u8, t9.trans u9⟩
    · injection h with h
      injection h with h1 h
      injection h with h2 h
      injection h with h3 h4
      subst h1 h2 h3 h4
      exact ⟨c1, by omega⟩

theorem DivideSeg_core (b : Builder) (rSeg lSeg : Nat) (b2 : Builder)
    (h : DivideSeg b rSeg lSeg = .ok b2) : b2.core = b.core := by
  obtain ⟨i, b1, hadd, _, _, hfr2, _⟩ := DivideSeg_ok b rSeg lSeg b2 h
  obtain ⟨hfr1, _⟩ := AddVertex_frame b _ _ i b1 hadd
  rw [hfr2, hfr1]
  rfl

theorem SplitSegs_loop_core (k : Nat) : ∀ (n s : Nat) (b b2 : Builder),
    SplitSegs.loop k n s b = .ok b2 → b2.core = b.core := by
  intro n
  induction n with
  | zero =>
    intro s b b2 h
    simp only [SplitSegs.loop] at h
    injection h with h
    rw [h]
  | succ n ih =>
    intro s b b2 h
    simp only [SplitSegs.loop] at h
    cases hd : DivideSeg b s (s + k) with
    | error e =>
      rw [hd] at h
      cases h
    | ok b1 =>
      rw [hd] at h
      rw [ih _ _ _ h, DivideSeg_core _ _ _ _ hd]

theorem SplitSegs_core (b : Builder) (segs k : Nat) (b2 : Builder)
    (h : SplitSegs b segs k = .ok b2) :
    b2.core = ({ b with segCount := b.segCount + k } : Builder).core := by
  simp only [SplitSegs] at h
  split_ifs at h
  rw [SplitSegs_loop_core _ _ _ _ _ h]
  rfl

theorem ChoosePartition_core (pf : PartitionFn) (b : Builder) (seg noSegs : Nat)
    (flag : Bool) (b2 : Builder) (nl nr ns : Nat)
    (h : ChoosePartition pf b seg noSegs = .ok (flag, b2, nl, nr, ns)) :
    b2.core = b.core ∧ nl + nr + ns = noSegs ∧
      (flag = false → ns = 0 ∧ b2.segStart = b.segStart) := by
  simp only [ChoosePartition] at h
  generalize pf { b with scan := { b.scan with
    lineChecked := blit b.scan.lineChecked 0 (b.lineUsed.take b.noAliases) } } seg noSegs
    = res at h
  obtain ⟨pSeg, scan⟩ := res
  simp only at h
  cases hs : SortSegs { b with scan := scan } pSeg seg noSegs with
  | error e =>
    rw [hs] at h
    cases h
  | ok r =>
    obtain ⟨b3, l3, r3, s3⟩ := r
    rw [hs] at h
    simp only at h
    injection h with h
    injection h with h0 h
    injection h with h1 h
    injection h with h2 h
    injection h with h3 h4
    subst h0 h1 h2 h3 h4
    obtain ⟨c1, c2⟩ := SortSegs_core _ _ _ _ _ _ _ _ hs
    refine ⟨by rw [c1]; rfl, c2, ?_⟩
    intro hflag
    cases pSeg with
    | some p => simp at hflag
    | none =>
      simp only [SortSegs] at hs
      injection hs with hs
      injection hs with hs1 hs
      injection hs with hs2 hs
      injection hs with hs3 hs4
      subst hs1 hs4
      exact ⟨rfl, rfl⟩

theorem SortSectors_leading_le (b : Builder) (seg sector : Nat) : ∀ n i,
    SortSectors.leading b seg sector n i ≤ i + n := by
  intro n
  induction n with
  | zero =>
    intro i
    simp [SortSectors.leading]
  | succ n ih =>
    intro i
    simp only [SortSectors.leading]
    split_ifs
    · have := ih (i + 1)
      omega
    · omega

theorem SortSectors_core (b : Builder) (seg noSegs : Nat) :
    (SortSectors b seg noSegs).1.core = b.core ∧
      (SortSectors b seg noSegs).2.1 + (SortSectors b seg noSegs).2.2 = noSegs := by
  simp only [SortSectors]
  refine ⟨rfl, ?_⟩
  have := SortSectors_leading_le (qsortSegs (SortBySector b.keepUnique) b seg noSegs) seg
    ((qsortSegs (SortBySector b.keepUnique) b seg noSegs).seg seg).Sector noSegs 0
  omega

/-! ## The node pool -/

theorem node_setNode_same (b : Builder) (i : Nat) (f : NODE → NODE) (h : i < b.nodePool.length) :
    (b.setNode i f).node i = f (b.node i) := by
  simp [Builder.node, Builder.setNode, List.getD_eq_getElem?_getD, List.getElem?_set, h]

theorem node_setNode_other (b : Builder) (i j : Nat) (f : NODE → NODE) (h : j ≠ i) :
    (b.setNode i f).node j = b.node j := by
  simp [Builder.node, Builder.setNode, List.getD_eq_getElem?_getD, List.getElem?_set, Ne.symm h]

theorem node_setNode_oob (b : Builder) (i : Nat) (f : NODE → NODE) (h : b.nodePool.length ≤ i) :
    (b.setNode i f).nodePool = b.nodePool := by
  simp only [Builder.setNode]
  exact List.set_eq_of_length_le h

theorem length_setNode (b : Builder) (i : Nat) (f : NODE → NODE) :
    (b.setNode i f).nodePool.length = b.nodePool.length := by
  simp [Builder.setNode]


theorem finish_core (b : Builder) (node rSegs nl nr : Nat) :
    (PartitionNode.finish b node rSegs nl nr).core
        = ({ b with nodePool := (PartitionNode.finish b node rSegs nl nr).nodePool } : Builder).core ∧
    (PartitionNode.finish b node rSegs nl nr).nodePool.length = b.nodePool.length ∧
    (∀ j, j ≠ node → (PartitionNode.finish b node rSegs nl nr).node j = b.node j) ∧
    SameLinks (b.node node) ((PartitionNode.finish b node rSegs nl nr).node node) := by
  refine ⟨rfl, ?_, ?_, ?_⟩
  · simp only [PartitionNode.finish, length_setNode]
  · intro j hj
    simp only [PartitionNode.finish]
    exact node_setNode_other _ _ _ _ hj
  · simp only [PartitionNode.finish]
    by_cases h : node < b.nodePool.length
    · rw [node_setNode_same _ _ _ h]
      exact ⟨rfl, rfl, rfl, rfl⟩
    · have : ∀ f, (b.setNode node f).node node = b.node node := by
        intro f
        simp only [Builder.node, node_setNode_oob b node f (by omega)]
      rw [this]
      exact ⟨rfl, rfl, rfl, rfl⟩

/-- What `PartitionNode` leaves alone, and the account of the segs: a partition divides
the `noSegs` segs and the segs added by splits into `noLeft` and `noRight`. -/
theorem PartitionNode_core (pf : PartitionFn) (b : Builder) (node rSegs noSegs : Nat)
    (flag : Bool) (b2 : Builder) (nl nr : Nat)
    (h : PartitionNode pf b node rSegs noSegs = .ok (flag, b2, nl, nr)) :
    b2.ssectorPool = b.ssectorPool ∧ b2.nodeCount = b.nodeCount ∧ b2.nodeStart = b.nodeStart ∧
    b2.keepUnique = b.keepUnique ∧ b2.uniqueSubsectors = b.uniqueSubsectors ∧
    b2.sectorCount = b.sectorCount ∧ b2.maxSegs = b.maxSegs ∧
    (flag = true → nl + nr + b.segCount = noSegs + b2.segCount) ∧
    (flag = false → b2.segCount = b.segCount) ∧
    b2.nodePool.length = b.nodePool.length ∧
    (∀ j, j ≠ node → b2.node j = b.node j) ∧
    SameLinks (b.node node) (b2.node node) := by
  have sl_refl : ∀ n : NODE, SameLinks n n := fun n => ⟨rfl, rfl, rfl, rfl⟩
  unfold PartitionNode at h
  cases hc : ChoosePartition pf b rSegs noSegs with
  | error e =>
    rw [hc] at h
    cases h
  | ok res =>
    obtain ⟨cflag, b1, l1, r1, s1⟩ := res
    rw [hc] at h
    obtain ⟨c1, c2, c3⟩ := ChoosePartition_core pf b rSegs noSegs cflag b1 l1 r1 s1 hc
    simp only [Builder.core, Prod.mk.injEq] at c1
    obtain ⟨k1, k2, k3, k4, k5, k6, k7, k8, k9⟩ := c1
    cases cflag with
    | false =>
      simp only at h
      have hbm : ∀ bm : Builder, bm = (if b1.uniqueSubsectors = true then
            { b1 with scan := { b1.scan with usedSector := PartitionNode.mark b1 rSegs noSegs } }
          else b1) → bm.core = b1.core := by
        intro bm e
        rw [e]
        split_ifs <;> rfl
      generalize hbe : (if b1.uniqueSubsectors = true then
            { b1 with scan := { b1.scan with usedSector := PartitionNode.mark b1 rSegs noSegs } }
          else b1) = bm at h
      have hbmc := hbm bm hbe.symm
      simp only [Builder.core, Prod.mk.injEq] at hbmc
      obtain ⟨m1, m2, m3, m4, m5, m6, m7, m8, m9⟩ := hbmc
      have g := SortSectors_core (ComputeStaticVariables bm (bm.seg rSegs)) rSegs noSegs
      generalize SortSectors (ComputeStaticVariables bm (bm.seg rSegs)) rSegs noSegs = ss at h g
      obtain ⟨bs, sl, sr⟩ := ss
      simp only at h g
      obtain ⟨g1, g2⟩ := g
      split_ifs at h with hnu hn
      · -- forced split of a keep-unique sector
        injection h with h
        injection h with h0 h
        injection h with h1 h
        injection h with h2 h3
        subst h0 h1 h2 h3
        obtain ⟨f1, f2, f3, f4⟩ := finish_core bs node rSegs sl sr
        simp only [Builder.core, Prod.mk.injEq, ComputeStaticVariables] at f1 g1
        obtain ⟨p1, p2, p3, p4, p5, p6, p7, p8, p9⟩ := f1
        obtain ⟨q1, q2, q3, q4, q5, q6, q7, q8, q9⟩ := g1
        refine ⟨by rw [p1, q1, m1, k1], by rw [p3, q3, m3, k3], by rw [p4, q4, m4, k4],
          by rw [p5, q5, m5, k5], by rw [p6, q6, m6, k6], by rw [p7, q7, m7, k7],
          by rw [p8, q8, m8, k8], ?_, ?_, ?_, ?_, ?_⟩
        · intro _
          rw [p9, q9, m9, k9]
          omega
        · intro hf
          cases hf
        · rw [f2, q2, m2, k2]
        · intro j hj
          rw [f3 j hj]
          simp only [Builder.node, q2, m2, k2]
        · have e : bs.node node = b.node node := by simp only [Builder.node, q2, m2, k2]
          rw [e] at f4
          exact f4
      · injection h with h
        injection h with h0 h
        injection h with h1 h
        injection h with h2 h3
        subst h0 h1 h2 h3
        have e : (qsortSegs SortByLineDef bm rSegs noSegs).core = bm.core := rfl
        simp only [Builder.core, Prod.mk.injEq] at e
        obtain ⟨q1, q2, q3, q4, q5, q6, q7, q8, q9⟩ := e
        refine ⟨by rw [q1, m1, k1], by rw [q3, m3, k3], by rw [q4, m4, k4],
          by rw [q5, m5, k5], by rw [q6, m6, k6], by rw [q7, m7, k7],
          by rw [q8, m8, k8], (fun hf => by cases hf), (fun _ => by rw [q9, m9, k9]),
          by rw [q2, m2, k2], (fun j _ => by simp only [Builder.node, q2, m2, k2]), ?_⟩
        simp only [Builder.node, q2, m2, k2]
        exact sl_refl _
      · injection h with h
        injection h with h0 h
        injection h with h1 h
        injection h with h2 h3
        subst h0 h1 h2 h3
        refine ⟨by rw [m1, k1], by rw [m3, k3], by rw [m4, k4],
          by rw [m5, k5], by rw [m6, k6], by rw [m7, k7],
          by rw [m8, k8], (fun hf => by cases hf), (fun _ => by rw [m9, k9]),
          by rw [m2, k2], (fun j _ => by simp only [Builder.node, m2, k2]), ?_⟩
        simp only [Builder.node, m2, k2]
        exact sl_refl _
    | true =>
      simp only at h
      by_cases hs : s1 ≠ 0
      · rw [if_pos hs] at h
        cases hsp : SplitSegs b1 (rSegs + r1) s1 with
        | error e =>
          rw [hsp] at h
          cases h
        | ok b3 =>
          rw [hsp] at h
          simp only at h
          injection h with h
          injection h with h0 h
          injection h with h1 h
          injection h with h2 h3
          subst h0 h1 h2 h3
          have sc := SplitSegs_core b1 (rSegs + r1) s1 b3 hsp
          obtain ⟨f1, f2, f3, f4⟩ := finish_core b3 node rSegs (l1 + s1) (r1 + s1)
          simp only [Builder.core, Prod.mk.injEq] at f1 sc
          obtain ⟨p1, p2, p3, p4, p5, p6, p7, p8, p9⟩ := f1
          obtain ⟨q1, q2, q3, q4, q5, q6, q7, q8, q9⟩ := sc
          refine ⟨by rw [p1, q1, k1], by rw [p3, q3, k3], by rw [p4, q4, k4], by rw [p5, q5, k5],
            by rw [p6, q6, k6], by rw [p7, q7, k7], by rw [p8, q8, k8], ?_, ?_, ?_, ?_, ?_⟩
          · intro _
            rw [p9, q9, k9]
            omega
          · intro hf
            cases hf
          · rw [f2, q2, k2]
          · intro j hj
            rw [f3 j hj]
            simp only [Builder.node, q2, k2]
          · have e : b3.node node = b.node node := by simp only [Builder.node, q2, k2]
            rw [e] at f4
            exact f4
      · rw [if_neg hs] at h
        injection h with h
        injection h with h0 h
        injection h with h1 h
        injection h with h2 h3
        subst h0 h1 h2 h3
        obtain ⟨f1, f2, f3, f4⟩ := finish_core b1 node rSegs l1 r1
        simp only [Builder.core, Prod.mk.injEq] at f1
        obtain ⟨p1, p2, p3, p4, p5, p6, p7, p8, p9⟩ := f1
        refine ⟨by rw [p1, k1], by rw [p3, k3], by rw [p4, k4], by rw [p5, k5],
          by rw [p6, k6], by rw [p7, k7], by rw [p8, k8], ?_, ?_, ?_, ?_, ?_⟩
        · intro _
          rw [p9, k9]
          omega
        · intro hf
          cases hf
        · rw [f2, k2]
        · intro j hj
          rw [f3 j hj]
          simp only [Builder.node, k2]
        · have e : b1.node node = b.node node := by simp only [Builder.node, k2]
          rw [e] at f4
          exact f4

/-! ## Subsectors tile the seg array -/

theorem Tiles_append : ∀ (l1 l2 : List wSSector) (a m z : Nat),
    Tiles a l1 m → Tiles m l2 z → Tiles a (l1 ++ l2) z := by
  intro l1
  induction l1 with
  | nil =>
    intro l2 a m z h1 h2
    simp only [Tiles] at h1
    subst h1
    exact h2
  | cons s rest ih =>
    intro l2 a m z h1 h2
    obtain ⟨k, e1, e2, h3⟩ := h1
    exact ⟨k, e1, e2, ih l2 _ _ _ h3 h2⟩

theorem Tiles_le : ∀ (l : List wSSector) (a z : Nat), Tiles a l z → a ≤ z := by
  intro l
  induction l with
  | nil =>
    intro a z h
    simp only [Tiles] at h
    omega
  | cons s rest ih =>
    intro a z h
    obtain ⟨k, _, _, h3⟩ := h
    have := ih _ _ h3
    omega

/-- Within the 16-bit range the fields of tiling subsectors are exact: each subsector
begins where the one before it ends, and the lengths add up to the length tiled. -/
theorem Tiles_exact : ∀ (l : List wSSector) (a z : Nat), Tiles a l z → z < 65536 →
    (∀ s ∈ l.head?, s.first = a) ∧
    (∀ k, k + 1 < l.length →
      (l.getD (k + 1) default).first = (l.getD k default).first + (l.getD k default).num) ∧
    (l.map (fun s => s.num)).sum = z - a ∧
    (∀ s ∈ l.getLast?, s.first + s.num = z) := by
  intro l
  induction l with
  | nil =>
    intro a z h _
    simp only [Tiles] at h
    subst h
    simp
  | cons s rest ih =>
    intro a z h hz
    obtain ⟨m, e1, e2, h3⟩ := h
    have hle := Tiles_le _ _ _ h3
    rw [toUSHORT_of_lt (by omega)] at e1 e2
    obtain ⟨i1, i2, i3, i4⟩ := ih _ _ h3 hz
    refine ⟨?_, ?_, ?_, ?_⟩
    · intro s' hs'
      simp only [List.head?_cons, Option.mem_def, Option.some.injEq] at hs'
      subst hs'
      exact e1
    · intro k hk
      cases k with
      | zero =>
        simp only [List.getD_cons_succ, List.getD_cons_zero, zero_add]
        cases rest with
        | nil => simp at hk
        | cons t rest2 =>
          simp only [List.getD_cons_zero]
          rw [i1 t (by simp), e1, e2]
      | succ k =>
        simp only [List.getD_cons_succ]
        exact i2 k (by simpa using hk)
    · simp only [List.map_cons, List.sum_cons, i3, e2]
      omega
    · intro s' hs'
      cases rest with
      | nil =>
        simp only [List.getLast?_singleton, Option.mem_def, Option.some.injEq] at hs'
        subst hs'
        simp only [Tiles] at h3
        rw [e1, e2]
        exact h3
      | cons t rest2 =>
        rw [List.getLast?_cons_cons] at hs'
        exact i4 s' hs'

theorem leaf_ok (b : Builder) (node cptr rSegs noSegs : Nat) (r : Builder × Nat × Nat × Nat)
    (h : CreateNode.leaf b node cptr rSegs noSegs = .ok r) :
    b.ssectorsLeft ≠ 0 ∧
    r = (({ b with
            scan := { b.scan with convexList := b.scan.convexList.take cptr },
            nodeStart := if b.nodeStart = none then some node else b.nodeStart,
            ssectorsLeft := b.ssectorsLeft - 1,
            ssectorPool := b.ssectorPool ++ [⟨toUSHORT noSegs, toUSHORT rSegs⟩],
            ssectorCount := b.ssectorCount + 1 } : Builder).setNode node
          (fun n => { n with id := toUSHORT (0x8000 ||| toUSHORT b.ssectorCount) }),
         node, noSegs, rSegs + noSegs) := by
  unfold CreateNode.leaf CreateSSector at h
  simp only at h
  by_cases h0 : b.ssectorsLeft = 0
  · exfalso
    split_ifs at h
  · refine ⟨h0, ?_⟩
    by_cases hs : b.nodeStart = none
    · simp only [hs, if_true, h0, if_false] at h
      injection h with h
      rw [← h, hs]
      rfl
    · simp only [hs, if_false, h0] at h
      injection h with h
      rw [← h]
      simp only [hs, if_false]

theorem enter_core (b : Builder) (prev : Option Nat) :
    (CreateNode.enter b prev).ssectorPool = b.ssectorPool ∧
    (CreateNode.enter b prev).segCount = b.segCount ∧
    (CreateNode.enter b prev).nodeCount = b.nodeCount ∧
    (CreateNode.enter b prev).nodeStart = b.nodeStart ∧
    (CreateNode.enter b prev).segStart = b.segStart ∧
    (CreateNode.enter b prev).keepUnique = b.keepUnique ∧
    (CreateNode.enter b prev).uniqueSubsectors = b.uniqueSubsectors ∧
    (CreateNode.enter b prev).sectorCount = b.sectorCount ∧
    (CreateNode.enter b prev).maxSegs = b.maxSegs := by
  cases prev <;> exact ⟨rfl, rfl, rfl, rfl, rfl, rfl, rfl, rfl, rfl⟩

/-- The account of one call of `CreateNode`: the subsectors it emits tile the segs from
`rSegs` to the returned `nextSeg`, which lies `noSegs` (as returned) after `rSegs`, and
the list has grown by the segs the call has added to the array. -/
theorem CreateNode_tiles (pf : PartitionFn) : ∀ (fuel : Nat) (b : Builder) (prev : Option Nat)
    (rSegs noSegs : Nat) (r : Builder × Nat × Nat × Nat),
    CreateNode pf fuel b prev rSegs noSegs = .ok r →
    r.2.2.2 = rSegs + r.2.2.1 ∧ r.2.2.1 + b.segCount = noSegs + r.1.segCount ∧
    ∃ new, new ≠ [] ∧ r.1.ssectorPool = b.ssectorPool ++ new ∧ Tiles rSegs new r.2.2.2 := by
  intro fuel
  induction fuel with
  | zero =>
    intro b prev rSegs noSegs r h
    simp only [CreateNode] at h
    cases h
  | succ fuel ih =>
    intro b prev rSegs noSegs r h
    obtain ⟨_, hc⟩ := CreateNode_cases pf fuel b prev rSegs noSegs r h
    obtain ⟨e1, e2, _⟩ := enter_core b prev
    have leaf_case : ∀ (b1 : Builder), b1.ssectorPool = b.ssectorPool → b1.segCount = b.segCount →
        CreateNode.leaf b1 b.nodePool.length b.scan.convexList.length rSegs noSegs = .ok r →
        r.2.2.2 = rSegs + r.2.2.1 ∧ r.2.2.1 + b.segCount = noSegs + r.1.segCount ∧
        ∃ new, new ≠ [] ∧ r.1.ssectorPool = b.ssectorPool ++ new ∧ Tiles rSegs new r.2.2.2 := by
      intro b1 hp hs hl
      obtain ⟨_, hr⟩ := leaf_ok _ _ _ _ _ _ hl
      rw [hr]
      refine ⟨rfl, ?_, [⟨toUSHORT noSegs, toUSHORT rSegs⟩], by simp, ?_, ?_⟩
      · show noSegs + b.segCount = noSegs + b1.segCount
        rw [hs]
      · show b1.ssectorPool ++ _ = _
        rw [hp]
      · exact ⟨noSegs, rfl, rfl, rfl⟩
    rcases hc with ⟨_, hl⟩ | ⟨_, b2, nl, nr, hp, hl⟩ |
      ⟨_, b2, nl, nr, b3, rNode, nr2, lSegs, b4, lNode, nl2, x, hp, hr, hl, hres⟩
    · exact leaf_case _ e1 e2 hl
    · obtain ⟨p1, _, _, _, _, _, _, _, p9, _⟩ := PartitionNode_core pf _ _ _ _ _ _ _ _ hp
      exact leaf_case b2 (by rw [p1, e1]) (by rw [p9 rfl, e2]) hl
    · obtain ⟨p1, _, _, _, _, _, _, p8, _, _⟩ := PartitionNode_core pf _ _ _ _ _ _ _ _ hp
      have p8 := p8 rfl
      obtain ⟨r1, r2, newR, r3, r4, r5⟩ := ih _ _ _ _ _ hr
      obtain ⟨l1, l2, newL, l3, l4, l5⟩ := ih _ _ _ _ _ hl
      simp only at r1 r2 r4 r5 l1 l2 l4 l5
      rw [hres]
      refine ⟨rfl, ?_, newR ++ newL, by simp [r3], ?_, ?_⟩
      · show nl2 + nr2 + b.segCount = noSegs + b4.segCount
        have a1 : (CreateNode.mark b2 b.scan.convexList.length).segCount = b2.segCount := rfl
        have a2 : (CreateNode.setChild0 b3 b.nodePool.length rNode).segCount = b3.segCount := rfl
        rw [a1] at r2
        rw [a2] at l2
        rw [e2] at p8
        omega
      · show b4.ssectorPool = _
        have a1 : (CreateNode.mark b2 b.scan.convexList.length).ssectorPool = b2.ssectorPool := rfl
        have a2 : (CreateNode.setChild0 b3 b.nodePool.length rNode).ssectorPool
            = b3.ssectorPool := rfl
        rw [l4, a2, r4, a1, p1, e1, List.append_assoc]
      · apply Tiles_append _ _ _ _ _ r5
        rw [r1] at l1 l5
        have : rSegs + (nl2 + nr2) = rSegs + nr2 + nl2 := by omega
        rw [this, ← l1]
        rw [r1]
        exact l5

/-! ## The sample build -/

theorem dividedRoom_builds :
    CreateNode Algorithm1 10 dividedRoom none 0 dividedRoom.segCount = .ok dividedRoomBuilt := by
  have h : (CreateNode Algorithm1 10 dividedRoom none 0 dividedRoom.segCount).toOption.isSome
      = true := by decide
  unfold dividedRoomBuilt
  cases hc : CreateNode Algorithm1 10 dividedRoom none 0 dividedRoom.segCount with
  | ok r => rfl
  | error e =>
    rw [hc] at h
    cases h

/-- C1.  When `CreateNode`, with any partition function, has built the tree over the
full seg list (from a fresh subsector pool, returning without a fatal error) and the
final number of segs fits in 16 bits, the subsectors tile the seg array in the order of
their emission: the first one begins at seg 0, each further one begins where the one
before it ends, and their lengths add up to the final `segCount`. -/
theorem subsectors_tile (pf : PartitionFn) (fuel : Nat) (b b2 : Builder) (node n next : Nat)
    (hfresh : b.ssectorPool = [])
    (hbuild : CreateNode pf fuel b none 0 b.segCount = .ok (b2, node, n, next))
    (h16 : b2.segCount < 65536) :
    (∃ s rest, b2.ssectorPool = s :: rest ∧ s.first = 0) ∧
    (∀ k, k + 1 < b2.ssectorPool.length →
      (b2.ssectorPool.getD (k + 1) default).first
        = (b2.ssectorPool.getD k default).first + (b2.ssectorPool.getD k default).num) ∧
    (b2.ssectorPool.map (fun s => s.num)).sum = b2.segCount := by
  obtain ⟨h1, h2, new, h3, h4, h5⟩ := CreateNode_tiles pf fuel b none 0 b.segCount _ hbuild
  simp only at h1 h2 h4 h5
  rw [hfresh, List.nil_append] at h4
  have hn : n = b2.segCount := by omega
  have hnext : next = b2.segCount := by omega
  rw [hnext] at h5
  obtain ⟨t1, t2, t3, _⟩ := Tiles_exact new 0 b2.segCount h5 h16
  rw [h4]
  refine ⟨?_, t2, t3⟩
  cases new with
  | nil => exact absurd rfl h3
  | cons s rest => exact ⟨s, rest, rfl, t1 s (by simp)⟩

theorem subsectors_tile_witness :
    dividedRoom.ssectorPool = [] ∧ dividedRoomBuilt.1.segCount < 65536 ∧
    (∃ s rest, dividedRoomBuilt.1.ssectorPool = s :: rest ∧ s.first = 0) ∧
    (∀ k, k + 1 < dividedRoomBuilt.1.ssectorPool.length →
      (dividedRoomBuilt.1.ssectorPool.getD (k + 1) default).first
        = (dividedRoomBuilt.1.ssectorPool.getD k default).first
          + (dividedRoomBuilt.1.ssectorPool.getD k default).num) ∧
    (dividedRoomBuilt.1.ssectorPool.map (fun s => s.num)).sum = dividedRoomBuilt.1.segCount :=
  ⟨rfl, by decide,
    subsectors_tile Algorithm1 10 dividedRoom dividedRoomBuilt.1 dividedRoomBuilt.2.1
      dividedRoomBuilt.2.2.1 dividedRoomBuilt.2.2.2 rfl dividedRoom_builds (by decide)⟩

/-! ## Shapes -/

theorem Spans_root : ∀ (t : Shape) (lo hi : Nat), t.Spans lo hi → t.root = lo ∧ lo < hi := by
  intro t
  induction t with
  | leaf i =>
    intro lo hi h
    obtain ⟨h1, h2⟩ := h
    exact ⟨h1, by omega⟩
  | node i r l ihr ihl =>
    intro lo hi h
    obtain ⟨h1, m, h2, h3⟩ := h
    have := (ihr _ _ h2).2
    have := (ihl _ _ h3).2
    exact ⟨h1, by omega⟩

theorem Spans_first : ∀ (t : Shape) (lo hi : Nat), t.Spans lo hi → lo ≤ t.first ∧ t.first < hi := by
  intro t
  induction t with
  | leaf i =>
    intro lo hi h
    obtain ⟨h1, h2⟩ := h
    simp only [Shape.first]
    omega
  | node i r l ihr ihl =>
    intro lo hi h
    obtain ⟨h1, m, h2, h3⟩ := h
    have := ihr _ _ h2
    have := (Spans_root _ _ _ h3).2
    simp only [Shape.first]
    omega

theorem Spans_mem : ∀ (t : Shape) (lo hi : Nat), t.Spans lo hi →
    ∀ x, x ∈ t.order ↔ (lo ≤ x ∧ x < hi) := by
  intro t
  induction t with
  | leaf i =>
    intro lo hi h x
    obtain ⟨h1, h2⟩ := h
    simp only [Shape.order, List.mem_singleton]
    omega
  | node i r l ihr ihl =>
    intro lo hi h x
    obtain ⟨h1, m, h2, h3⟩ := h
    have := (Spans_root _ _ _ h2).2
    have := (Spans_root _ _ _ h3).2
    simp only [Shape.order, List.mem_append, List.mem_singleton, ihr _ _ h2 x, ihl _ _ h3 x]
    omega

theorem Spans_length : ∀ (t : Shape) (lo hi : Nat), t.Spans lo hi →
    t.order.length = hi - lo := by
  intro t
  induction t with
  | leaf i =>
    intro lo hi h
    obtain ⟨h1, h2⟩ := h
    simp only [Shape.order, List.length_singleton]
    omega
  | node i r l ihr ihl =>
    intro lo hi h
    obtain ⟨h1, m, h2, h3⟩ := h
    have := (Spans_root _ _ _ h2).2
    have := (Spans_root _ _ _ h3).2
    simp only [Shape.order, List.length_append, List.length_singleton, ihr _ _ h2, ihl _ _ h3]
    omega

theorem order_head : ∀ (t : Shape), t.order.head? = some t.first := by
  intro t
  induction t with
  | leaf i => rfl
  | node i r l ihr _ =>
    simp only [Shape.order, Shape.first, List.append_assoc]
    rw [List.head?_append, ihr]
    rfl

theorem order_getLast : ∀ (t : Shape), t.order.getLast? = some t.root := by
  intro t
  cases t with
  | leaf i => rfl
  | node i r l => simp [Shape.order, Shape.root]

theorem interiorOf_append (pool : List NODE) (l1 l2 : List Nat) :
    interiorOf pool (l1 ++ l2) = interiorOf pool l1 ++ interiorOf pool l2 := by
  simp [interiorOf]

theorem interiorOf_congr (p1 p2 : List NODE) (l : List Nat)
    (h : ∀ x ∈ l, (nodeAt p2 x).id = (nodeAt p1 x).id) :
    interiorOf p2 l = interiorOf p1 l := by
  unfold interiorOf
  apply List.filter_congr
  intro x hx
  rw [h x hx]

theorem ids_node (pool : List NODE) (i : Nat) (r l : Shape)
    (h : isSubsector (nodeAt pool i).id = false) :
    (Shape.node i r l).ids pool = r.ids pool ++ l.ids pool ++ [(nodeAt pool i).id] := by
  simp only [Shape.ids, Shape.order, interiorOf_append, List.map_append]
  simp [interiorOf, h]

theorem ids_leaf (pool : List NODE) (i : Nat) (h : isSubsector (nodeAt pool i).id = true) :
    (Shape.leaf i).ids pool = [] := by
  simp [Shape.ids, Shape.order, interiorOf, h]

/-- A shape keeps its ids when the pool changes outside the ids and data of its nodes. -/
theorem Built_congr (p1 p2 : List NODE) : ∀ (t : Shape) (lo hi : Nat), t.Spans lo hi →
    (∀ x, lo ≤ x → x < hi →
      (nodeAt p2 x).id = (nodeAt p1 x).id ∧ (nodeAt p2 x).Data = (nodeAt p1 x).Data) →
    t.Built p1 → t.Built p2 := by
  intro t
  induction t with
  | leaf i =>
    intro lo hi hs heq hb
    obtain ⟨h1, h2⟩ := hs
    simp only [Shape.Built] at hb ⊢
    rw [(heq i (by omega) (by omega)).1]
    exact hb
  | node i r l ihr ihl =>
    intro lo hi hs heq hb
    obtain ⟨h1, m, h2, h3⟩ := hs
    obtain ⟨b1, b2, b3, b4, b5⟩ := hb
    obtain ⟨rr, rlt⟩ := Spans_root _ _ _ h2
    obtain ⟨lr, llt⟩ := Spans_root _ _ _ h3
    refine ⟨?_, ?_, ?_, ?_, ?_⟩
    · rw [(heq i (by omega) (by omega)).1]
      exact b1
    · rw [(heq i (by omega) (by omega)).2, (heq r.root (by omega) (by omega)).1]
      exact b2
    · rw [(heq i (by omega) (by omega)).2, (heq l.root (by omega) (by omega)).1]
      exact b3
    · exact ihr _ _ h2 (fun x hx1 hx2 => heq x (by omega) (by omega)) b4
    · exact ihl _ _ h3 (fun x hx1 hx2 => heq x (by omega) (by omega)) b5

theorem ids_congr (p1 p2 : List NODE) (t : Shape) (lo hi : Nat) (hs : t.Spans lo hi)
    (heq : ∀ x, lo ≤ x → x < hi → (nodeAt p2 x).id = (nodeAt p1 x).id) :
    t.ids p2 = t.ids p1 := by
  have hm := Spans_mem t lo hi hs
  unfold Shape.ids
  rw [interiorOf_congr p1 p2 _ (fun x hx => heq x ((hm x).mp hx).1 ((hm x).mp hx).2)]
  apply List.map_congr_left
  intro x hx
  have hx2 : x ∈ t.order := (List.mem_filter.mp hx).1
  exact heq x ((hm x).mp hx2).1 ((hm x).mp hx2).2

/-- A shape keeps its links when the `Next` pointers of its nodes other than its root
are kept. -/
theorem Linked_congr (p1 p2 : List NODE) : ∀ (t : Shape) (lo hi : Nat), t.Spans lo hi →
    (∀ x, lo < x → x < hi → (nodeAt p2 x).Next = (nodeAt p1 x).Next) →
    t.Linked p1 → t.Linked p2 := by
  intro t
  induction t with
  | leaf i =>
    intro lo hi _ _ _
    trivial
  | node i r l ihr ihl =>
    intro lo hi hs heq hb
    obtain ⟨h1, m, h2, h3⟩ := hs
    obtain ⟨b1, b2, b3, b4⟩ := hb
    obtain ⟨rr, rlt⟩ := Spans_root _ _ _ h2
    obtain ⟨lr, llt⟩ := Spans_root _ _ _ h3
    refine ⟨?_, ?_, ?_, ?_⟩
    · exact ihr _ _ h2 (fun x hx1 hx2 => heq x (by omega) (by omega)) b1
    · exact ihl _ _ h3 (fun x hx1 hx2 => heq x (by omega) (by omega)) b2
    · rw [heq r.root (by omega) (by omega)]
      exact b3
    · rw [heq l.root (by omega) (by omega)]
      exact b4

/-! ## Ids -/

theorem isSubsector_eq (x : Nat) : isSubsector x = x.testBit 15 := by
  unfold isSubsector
  have h : x &&& 0x8000 = (x.testBit 15).toNat * 2 ^ 15 := by
    have := Nat.and_two_pow x 15
    simpa using this
  rw [h]
  cases x.testBit 15 <;> simp

theorem isSubsector_of_lt {x : Nat} (h : x < 0x8000) : isSubsector x = false := by
  rw [isSubsector_eq]
  exact Nat.testBit_lt_two_pow (by simpa using h)

theorem isSubsector_leafId (s : Nat) : isSubsector (toUSHORT (0x8000 ||| s)) = true := by
  rw [isSubsector_eq]
  unfold toUSHORT
  have : (65536 : Nat) = 2 ^ 16 := by norm_num
  rw [this, Nat.testBit_mod_two_pow, Nat.testBit_or]
  have h2 : Nat.testBit 0x8000 15 = true := by decide
  simp [h2]

/-! ## The pool, statement by statement -/

theorem nodeAt_append_lt (pool : List NODE) (n : NODE) (j : Nat) (h : j < pool.length) :
    nodeAt (pool ++ [n]) j = nodeAt pool j := by
  simp only [nodeAt, List.getD_eq_getElem?_getD]
  rw [List.getElem?_append_left h]

theorem nodeAt_append_eq (pool : List NODE) (n : NODE) :
    nodeAt (pool ++ [n]) pool.length = n := by
  simp [nodeAt, List.getD_eq_getElem?_getD]

theorem nodeAt_set_same (pool : List NODE) (i : Nat) (n : NODE) (h : i < pool.length) :
    nodeAt (pool.set i n) i = n := by
  simp [nodeAt, List.getD_eq_getElem?_getD, List.getElem?_set, h]

theorem nodeAt_set_other (pool : List NODE) (i j : Nat) (n : NODE) (h : j ≠ i) :
    nodeAt (pool.set i n) j = nodeAt pool j := by
  simp [nodeAt, List.getD_eq_getElem?_getD, List.getElem?_set, Ne.symm h]

theorem setNode_pool (b : Builder) (i : Nat) (f : NODE → NODE) :
    (b.setNode i f).nodePool = b.nodePool.set i (f (nodeAt b.nodePool i)) := rfl

theorem enter_pool (b : Builder) (prev : Option Nat)
    (hp : ∀ p, prev = some p → p < b.nodePool.length) :
    (CreateNode.enter b prev).nodePool.length = b.nodePool.length + 1 ∧
    (nodeAt (CreateNode.enter b prev).nodePool b.nodePool.length).Next = none ∧
    (∀ j, j < b.nodePool.length → prev ≠ some j →
      nodeAt (CreateNode.enter b prev).nodePool j = nodeAt b.nodePool j) ∧
    (∀ p, prev = some p →
      nodeAt (CreateNode.enter b prev).nodePool p
        = { nodeAt b.nodePool p with Next := some b.nodePool.length }) := by
  cases prev with
  | none =>
    simp only [CreateNode.enter]
    refine ⟨by simp, ?_, ?_, ?_⟩
    · rw [nodeAt_append_eq]
    · intro j hj _
      exact nodeAt_append_lt _ _ _ hj
    · intro p h
      cases h
  | some q =>
    have hq := hp q rfl
    simp only [CreateNode.enter, setNode_pool]
    refine ⟨by simp, ?_, ?_, ?_⟩
    · rw [nodeAt_set_other _ _ _ _ (by omega), nodeAt_append_eq]
    · intro j hj hne
      rw [nodeAt_set_other _ _ _ _ (by intro e; apply hne; rw [e]), nodeAt_append_lt _ _ _ hj]
    · intro p h
      injection h with h
      subst h
      rw [nodeAt_set_same _ _ _ (by simp; omega), nodeAt_append_lt _ _ _ hq]

theorem leaf_pool (b : Builder) (node cptr rSegs noSegs : Nat) (r : Builder × Nat × Nat × Nat)
    (h : CreateNode.leaf b node cptr rSegs noSegs = .ok r) (hn : node < b.nodePool.length) :
    r.2.1 = node ∧ r.1.nodeCount = b.nodeCount ∧
    r.1.nodePool.length = b.nodePool.length ∧
    isSubsector (nodeAt r.1.nodePool node).id = true ∧
    (nodeAt r.1.nodePool node).Next = (nodeAt b.nodePool node).Next ∧
    (∀ j, j ≠ node → nodeAt r.1.nodePool j = nodeAt b.nodePool j) ∧
    (b.nodeStart = none → r.1.nodeStart = some node) ∧
    (b.nodeStart ≠ none → r.1.nodeStart = b.nodeStart) := by
  obtain ⟨_, hr⟩ := leaf_ok _ _ _ _ _ _ h
  rw [hr]
  simp only [setNode_pool]
  refine ⟨trivial, rfl, by simp [Builder.setNode], ?_, ?_, ?_, ?_, ?_⟩
  · rw [nodeAt_set_same _ _ _ hn]
    exact isSubsector_leafId _
  · rw [nodeAt_set_same _ _ _ hn]
  · intro j hj
    rw [nodeAt_set_other _ _ _ _ hj]
  · intro hs
    simp [Builder.setNode, hs]
  · intro hs
    simp [Builder.setNode, hs]

theorem setChild0_pool (b : Builder) (node rNode : Nat) (hn : node < b.nodePool.length) :
    (CreateNode.setChild0 b node rNode).nodePool.length = b.nodePool.length ∧
    (nodeAt (CreateNode.setChild0 b node rNode).nodePool node).Data.child0
      = (nodeAt b.nodePool rNode).id ∧
    (nodeAt (CreateNode.setChild0 b node rNode).nodePool node).Next
      = (nodeAt b.nodePool node).Next ∧
    (∀ j, j ≠ node → nodeAt (CreateNode.setChild0 b node rNode).nodePool j = nodeAt b.nodePool j) ∧
    (CreateNode.setChild0 b node rNode).nodeCount = b.nodeCount ∧
    (CreateNode.setChild0 b node rNode).nodeStart = b.nodeStart := by
  simp only [CreateNode.setChild0, setNode_pool]
  refine ⟨by simp, ?_, ?_, ?_, rfl, rfl⟩
  · rw [nodeAt_set_same _ _ _ hn]
    rfl
  · rw [nodeAt_set_same _ _ _ hn]
  · intro j hj
    rw [nodeAt_set_other _ _ _ _ hj]

theorem finish_pool (b : Builder) (node lNode cptr : Nat) (al : Int)
    (hn : node < b.nodePool.length) (hl : lNode < b.nodePool.length) (hne : lNode ≠ node) :
    (CreateNode.finish (CreateNode.setChild1 b node lNode) node lNode cptr al).nodePool.length
      = b.nodePool.length ∧
    (CreateNode.finish (CreateNode.setChild1 b node lNode) node lNode cptr al).nodeCount
      = b.nodeCount + 1 ∧
    (CreateNode.finish (CreateNode.setChild1 b node lNode) node lNode cptr al).nodeStart
      = b.nodeStart ∧
    (nodeAt (CreateNode.finish (CreateNode.setChild1 b node lNode) node lNode cptr al).nodePool
      node).id = toUSHORT b.nodeCount ∧
    (nodeAt (CreateNode.finish (CreateNode.setChild1 b node lNode) node lNode cptr al).nodePool
      node).Data.child0 = (nodeAt b.nodePool node).Data.child0 ∧
    (nodeAt (CreateNode.finish (CreateNode.setChild1 b node lNode) node lNode cptr al).nodePool
      node).Data.child1 = (nodeAt b.nodePool lNode).id ∧
    (nodeAt (CreateNode.finish (CreateNode.setChild1 b node lNode) node lNode cptr al).nodePool
      node).Next = (nodeAt b.nodePool node).Next ∧
    nodeAt (CreateNode.finish (CreateNode.setChild1 b node lNode) node lNode cptr al).nodePool
      lNode = { nodeAt b.nodePool lNode with Next := some node } ∧
    (∀ j, j ≠ node → j ≠ lNode →
      nodeAt (CreateNode.finish (CreateNode.setChild1 b node lNode) node lNode cptr al).nodePool j
        = nodeAt b.nodePool j) := by
  have e1 : (CreateNode.setChild1 b node lNode).nodePool
      = b.nodePool.set node { nodeAt b.nodePool node with Data :=
          { (nodeAt b.nodePool node).Data with child1 := (nodeAt b.nodePool lNode).id } } := rfl
  have e2 : (CreateNode.finish (CreateNode.setChild1 b node lNode) node lNode cptr al).nodePool
      = (((CreateNode.setChild1 b node lNode).nodePool.set lNode
          { nodeAt (CreateNode.setChild1 b node lNode).nodePool lNode with Next := some node }).set
          node
          { nodeAt ((CreateNode.setChild1 b node lNode).nodePool.set lNode
              { nodeAt (CreateNode.setChild1 b node lNode).nodePool lNode with
                Next := some node }) node with id := toUSHORT b.nodeCount }) := rfl
  have l1 : (CreateNode.setChild1 b node lNode).nodePool.length = b.nodePool.length := by
    rw [e1, List.length_set]
  have a1 : nodeAt (CreateNode.setChild1 b node lNode).nodePool node
      = { nodeAt b.nodePool node with Data :=
          { (nodeAt b.nodePool node).Data with child1 := (nodeAt b.nodePool lNode).id } } := by
    rw [e1, nodeAt_set_same _ _ _ hn]
  have a2 : ∀ j, j ≠ node → nodeAt (CreateNode.setChild1 b node lNode).nodePool j
      = nodeAt b.nodePool j := by
    intro j hj
    rw [e1, nodeAt_set_other _ _ _ _ hj]
  rw [e2]
  generalize (CreateNode.setChild1 b node lNode).nodePool = p1 at l1 a1 a2 ⊢
  have hn1 : node < (p1.set lNode { nodeAt p1 lNode with Next := some node }).length := by
    rw [List.length_set, l1]
    exact hn
  refine ⟨by rw [List.length_set, List.length_set, l1], rfl, rfl, ?_, ?_, ?_, ?_, ?_, ?_⟩
  · rw [nodeAt_set_same _ _ _ hn1]
  · rw [nodeAt_set_same _ _ _ hn1, nodeAt_set_other _ _ _ _ (Ne.symm hne), a1]
  · rw [nodeAt_set_same _ _ _ hn1, nodeAt_set_other _ _ _ _ (Ne.symm hne), a1]
  · rw [nodeAt_set_same _ _ _ hn1, nodeAt_set_other _ _ _ _ (Ne.symm hne), a1]
  · rw [nodeAt_set_other _ _ _ _ hne, nodeAt_set_same _ _ _ (by rw [l1]; exact hl), a2 _ hne]
  · intro j h1 h2
    rw [nodeAt_set_other _ _ _ _ h1, nodeAt_set_other _ _ _ _ h2, a2 _ h1]

/-! ## The tree that `CreateNode` leaves in the pool -/

theorem Entered_enter (b : Builder) (prev : Option Nat)
    (hp : ∀ p, prev = some p → p < b.nodePool.length) : Entered b prev (CreateNode.enter b prev) := by
  obtain ⟨h1, h2, h3, h4⟩ := enter_pool b prev hp
  obtain ⟨_, _, c3, c4, _⟩ := enter_core b prev
  refine ⟨h1, h2, h3, ?_, c3, c4⟩
  intro p hpp
  rw [h4 p hpp]
  exact ⟨rfl, rfl, rfl⟩

theorem Entered_partition (pf : PartitionFn) (b : Builder) (prev : Option Nat) (b1 : Builder)
    (hp : ∀ p, prev = some p → p < b.nodePool.length)
    (he : Entered b prev b1) (rSegs noSegs : Nat) (flag : Bool) (b2 : Builder) (nl nr : Nat)
    (h : PartitionNode pf b1 b.nodePool.length rSegs noSegs = .ok (flag, b2, nl, nr)) :
    Entered b prev b2 := by
  obtain ⟨e1, e2, e3, e4, e5, e6⟩ := he
  obtain ⟨_, p2, p3, _, _, _, _, _, _, p10, p11, p12⟩ :=
    PartitionNode_core pf _ _ _ _ _ _ _ _ h
  have p11' : ∀ j, j ≠ b.nodePool.length → nodeAt b2.nodePool j = nodeAt b1.nodePool j := p11
  have p12' : SameLinks (nodeAt b1.nodePool b.nodePool.length)
      (nodeAt b2.nodePool b.nodePool.length) := p12
  refine ⟨by rw [p10, e1], ?_, ?_, ?_, by rw [p2, e5], by rw [p3, e6]⟩
  · rw [p12'.2.1, e2]
  · intro j hj hne
    rw [p11' j (by omega), e3 j hj hne]
  · intro p hpp
    have := hp p hpp
    rw [p11' p (by omega)]
    exact e4 p hpp

theorem CreateNode_nodeCount (pf : PartitionFn) : ∀ (fuel : Nat) (b : Builder)
    (prev : Option Nat) (rSegs noSegs : Nat) (r : Builder × Nat × Nat × Nat),
    CreateNode pf fuel b prev rSegs noSegs = .ok r → b.nodeCount ≤ r.1.nodeCount := by
  intro fuel
  induction fuel with
  | zero =>
    intro b prev rSegs noSegs r h
    simp only [CreateNode] at h
    cases h
  | succ fuel ih =>
    intro b prev rSegs noSegs r h
    obtain ⟨_, hc⟩ := CreateNode_cases pf fuel b prev rSegs noSegs r h
    obtain ⟨_, _, e3, _⟩ := enter_core b prev
    rcases hc with ⟨_, hl⟩ | ⟨_, b2, nl, nr, hp, hl⟩ |
      ⟨_, b2, nl, nr, b3, rNode, nr2, lSegs, b4, lNode, nl2, x, hp, hr, hl, hres⟩
    · obtain ⟨_, hr⟩ := leaf_ok _ _ _ _ _ _ hl
      rw [hr]
      show b.nodeCount ≤ (CreateNode.enter b prev).nodeCount
      rw [e3]
    · obtain ⟨_, hr⟩ := leaf_ok _ _ _ _ _ _ hl
      obtain ⟨_, p2, _⟩ := PartitionNode_core pf _ _ _ _ _ _ _ _ hp
      rw [hr]
      show b.nodeCount ≤ b2.nodeCount
      rw [p2, e3]
    · obtain ⟨_, p2, _⟩ := PartitionNode_core pf _ _ _ _ _ _ _ _ hp
      have h1 := ih _ _ _ _ _ hr
      have h2 := ih _ _ _ _ _ hl
      have a1 : (CreateNode.mark b2 b.scan.convexList.length).nodeCount = b2.nodeCount := rfl
      have a2 : (CreateNode.setChild0 b3 b.nodePool.length rNode).nodeCount = b3.nodeCount := rfl
      simp only at h1 h2
      rw [a1, p2, e3] at h1
      rw [a2] at h2
      rw [hres]
      show b.nodeCount ≤ b4.nodeCount + 1
      omega

theorem NodePost_leaf (b : Builder) (prev : Option Nat) (b1 : Builder)
    (hp : ∀ p, prev = some p → p < b.nodePool.length) (he : Entered b prev b1)
    (cptr rSegs noSegs : Nat) (r : Builder × Nat × Nat × Nat)
    (h : CreateNode.leaf b1 b.nodePool.length cptr rSegs noSegs = .ok r) :
    r.2.1 = b.nodePool.length ∧ NodePost b prev r.1 (.leaf b.nodePool.length) := by
  obtain ⟨e1, e2, e3, e4, e5, e6⟩ := he
  obtain ⟨l1, l2, l3, l4, l5, l6, l7, l8⟩ := leaf_pool _ _ _ _ _ _ h (by omega)
  refine ⟨l1, ?_, l4, trivial, ?_, by rw [l2, e5], ?_, ?_, ?_, ?_, ?_, ?_⟩
  · exact ⟨rfl, by rw [l3, e1]⟩
  · rw [ids_leaf _ _ l4, l2, e5, Nat.sub_self]
    rfl
  · intro hf
    simp only [Shape.root] at hf
    rw [l4] at hf
    cases hf
  · simp only [Shape.root]
    rw [l5, e2]
  · intro p hpp
    have := hp p hpp
    rw [l6 p (by omega)]
    exact e4 p hpp
  · intro j hj hne
    rw [l6 j (by omega), e3 j hj hne]
  · intro hs
    rw [← e6] at hs
    exact l7 hs
  · intro hs
    rw [← e6] at hs
    rw [l8 hs, e6]

theorem range'_glue (c0 c3 c4 : Nat) (h1 : c0 ≤ c3) (h2 : c3 ≤ c4) :
    List.range' c0 (c3 - c0) ++ List.range' c3 (c4 - c3) ++ [c4]
      = List.range' c0 (c4 + 1 - c0) := by
  have e1 : List.range' c0 (c3 - c0) ++ List.range' c3 (c4 - c3) = List.range' c0 (c4 - c0) := by
    have := List.range'_append c0 (c3 - c0) (c4 - c3) 1
    simp only [Nat.one_mul] at this
    have e : c0 + (c3 - c0) = c3 := by omega
    rw [e] at this
    rw [this]
    congr 1
    omega
  have e2 : [c4] = List.range' c4 1 := rfl
  rw [e1, e2]
  have := List.range'_append c0 (c4 - c0) 1 1
  simp only [Nat.one_mul] at this
  have e : c0 + (c4 - c0) = c4 := by omega
  rw [e] at this
  rw [this]
  congr 1
  omega

theorem NodePost_node (b : Builder) (prev : Option Nat) (b2 b3 b4 : Builder) (tr tl : Shape)
    (cptr : Nat) (al : Int)
    (hp : ∀ p, prev = some p → p < b.nodePool.length)
    (he : Entered b prev b2)
    (hr : NodePost (CreateNode.mark b2 cptr) prev b3 tr)
    (hl : NodePost (CreateNode.setChild0 b3 b.nodePool.length (b.nodePool.length + 1))
      (some (b.nodePool.length + 1)) b4 tl)
    (hcount : b4.nodeCount < 0x8000) :
    NodePost b prev
      (CreateNode.finish (CreateNode.setChild1 b4 b.nodePool.length b3.nodePool.length)
        b.nodePool.length b3.nodePool.length cptr al)
      (.node b.nodePool.length tr tl) := by
  obtain ⟨e1, e2, e3, e4, e5, e6⟩ := he
  obtain ⟨r1, r2, r3, r4, r5, r6, r7, r8, r9, r10, r11⟩ := hr
  have mk1 : (CreateNode.mark b2 cptr).nodePool = b2.nodePool := rfl
  have mk2 : (CreateNode.mark b2 cptr).nodeCount = b2.nodeCount := rfl
  have mk3 : (CreateNode.mark b2 cptr).nodeStart = b2.nodeStart := rfl
  rw [mk1] at r1 r8 r9
  rw [mk2] at r4 r5
  rw [mk3] at r10 r11
  rw [e1] at r1 r9
  obtain ⟨rr, rlt⟩ := Spans_root _ _ _ r1
  have hn3 : b.nodePool.length < b3.nodePool.length := by omega
  obtain ⟨s1, s2, s3, s4, s5, s6⟩ :=
    setChild0_pool b3 b.nodePool.length (b.nodePool.length + 1) hn3
  obtain ⟨l1, l2, l3, l4, l5, l6, l7, l8, l9, l10, l11⟩ := hl
  rw [s1] at l1 l9
  rw [s5] at l4 l5
  rw [s6] at l10 l11
  obtain ⟨lr, llt⟩ := Spans_root _ _ _ l1
  obtain ⟨f1, f2, f3, f4, f5, f6, f7, f8, f9⟩ :=
    finish_pool b4 b.nodePool.length b3.nodePool.length cptr al (by omega) llt (by omega)
  generalize (CreateNode.finish (CreateNode.setChild1 b4 b.nodePool.length b3.nodePool.length)
    b.nodePool.length b3.nodePool.length cptr al) = b5 at f1 f2 f3 f4 f5 f6 f7 f8 f9 ⊢
  generalize (CreateNode.setChild0 b3 b.nodePool.length (b.nodePool.length + 1)).nodePool = PC
    at s2 s3 s4 l8 l9
  -- the pools, entry by entry
  have H4C : ∀ j, j < b3.nodePool.length → j ≠ b.nodePool.length + 1 →
      nodeAt b4.nodePool j = nodeAt PC j := by
    intro j hj hne
    exact l9 j hj (by intro h; injection h with h; exact hne h.symm)
  obtain ⟨P1, P2, P3⟩ := l8 (b.nodePool.length + 1) rfl
  have hid5 : ∀ x, x ≠ b.nodePool.length → (nodeAt b5.nodePool x).id = (nodeAt b4.nodePool x).id ∧
      (nodeAt b5.nodePool x).Data = (nodeAt b4.nodePool x).Data := by
    intro x hx
    by_cases hxm : x = b3.nodePool.length
    · rw [hxm, f8]
      exact ⟨rfl, rfl⟩
    · rw [f9 x hx hxm]
      exact ⟨rfl, rfl⟩
  have hid4 : ∀ x, x < b3.nodePool.length → x ≠ b.nodePool.length →
      (nodeAt b4.nodePool x).id = (nodeAt b3.nodePool x).id ∧
      (nodeAt b4.nodePool x).Data = (nodeAt b3.nodePool x).Data := by
    intro x hx hne
    by_cases hxr : x = b.nodePool.length + 1
    · rw [hxr, P2, P3, s4 _ (by omega)]
      exact ⟨rfl, rfl⟩
    · rw [H4C x hx hxr, s4 x hne]
      exact ⟨rfl, rfl⟩
  have hc4 : b4.nodeCount < 0x8000 := hcount
  have hid0 : isSubsector (nodeAt b5.nodePool b.nodePool.length).id = false := by
    rw [f4, toUSHORT_of_lt (by omega)]
    exact isSubsector_of_lt hc4
  have hn0_4 : nodeAt b4.nodePool b.nodePool.length = nodeAt PC b.nodePool.length :=
    H4C _ hn3 (by omega)
  refine ⟨?_, ?_, ?_, ?_, ?_, ?_, ?_, ?_, ?_, ?_, ?_⟩
  · -- the entries taken
    rw [f1]
    exact ⟨rfl, b3.nodePool.length, r1, l1⟩
  · -- the ids
    refine ⟨hid0, ?_, ?_, ?_, ?_⟩
    · rw [f5, hn0_4, s2, rr, (hid5 _ (by omega)).1, P2, s4 _ (by omega)]
    · rw [f6, lr, (hid5 _ (by omega)).1]
    · apply Built_congr b3.nodePool b5.nodePool tr _ _ r1 _ r2
      intro x hx1 hx2
      obtain ⟨a1, a2⟩ := hid5 x (by omega)
      obtain ⟨a3, a4⟩ := hid4 x hx2 (by omega)
      exact ⟨a1.trans a3, a2.trans a4⟩
    · apply Built_congr b4.nodePool b5.nodePool tl _ _ l1 _ l2
      intro x hx1 hx2
      exact hid5 x (by omega)
  · -- the links
    refine ⟨?_, ?_, ?_, ?_⟩
    · apply Linked_congr b3.nodePool b5.nodePool tr _ _ r1 _ r3
      intro x hx1 hx2
      rw [f9 x (by omega) (by omega), H4C x hx2 (by omega), s4 x (by omega)]
    · apply Linked_congr b4.nodePool b5.nodePool tl _ _ l1 _ l3
      intro x hx1 hx2
      rw [f9 x (by omega) (by omega)]
    · rw [rr, f9 _ (by omega) (by omega), P1]
    · rw [lr, f8]
  · -- the ids are consecutive
    rw [ids_node _ _ _ _ hid0, f4, toUSHORT_of_lt (by omega), f2]
    rw [ids_congr b3.nodePool b5.nodePool tr _ _ r1
        (fun x hx1 hx2 => ((hid5 x (by omega)).1).trans (hid4 x hx2 (by omega)).1),
      ids_congr b4.nodePool b5.nodePool tl _ _ l1 (fun x hx1 hx2 => (hid5 x (by omega)).1),
      r4, l4, e5]
    rw [e5] at r5
    exact range'_glue _ _ _ r5 l5
  · rw [f2]
    rw [e5] at r5
    omega
  · intro _
    simp only [Shape.root]
    rw [f4, toUSHORT_of_lt (by omega), f2]
  · simp only [Shape.root]
    rw [f7, hn0_4, s3, r9 _ (by omega) (by
      intro h
      have := hp _ h
      omega), e2]
  · intro p hpp
    have hlt := hp p hpp
    obtain ⟨q1, q2, q3⟩ := r8 p hpp
    obtain ⟨q4, q5, q6⟩ := e4 p hpp
    have e54 : nodeAt b5.nodePool p = nodeAt b3.nodePool p := by
      rw [f9 p (by omega) (by omega), H4C p (by omega) (by omega), s4 p (by omega)]
    rw [e54]
    exact ⟨q1, q2.trans q5, q3.trans q6⟩
  · intro j hj hne
    rw [f9 j (by omega) (by omega), H4C j (by omega) (by omega), s4 j (by omega),
      r9 j (by omega) hne, e3 j hj hne]
  · intro hs
    rw [f3]
    rw [← e6] at hs
    have h3 := r10 hs
    rw [l11 (by rw [h3]; simp), h3]
    rfl
  · intro hs
    rw [f3]
    rw [← e6] at hs
    have h3 := r11 hs
    rw [l11 (by rw [h3]; exact hs), h3, e6]

/-- The tree of a call of `CreateNode`: the call returns the pool entry it has taken,
and when fewer than `0x8000` interior nodes have been numbered, the pool holds, after
the old entries, the nodes of the call and of its recursive calls, linked in the order
of completion and numbered in that order. -/
theorem CreateNode_nodes (pf : PartitionFn) : ∀ (fuel : Nat) (b : Builder)
    (prev : Option Nat) (rSegs noSegs : Nat) (r : Builder × Nat × Nat × Nat),
    CreateNode pf fuel b prev rSegs noSegs = .ok r →
    (∀ p, prev = some p → p < b.nodePool.length) → r.1.nodeCount ≤ 0x8000 →
    r.2.1 = b.nodePool.length ∧ ∃ t : Shape, t.root = b.nodePool.length ∧ NodePost b prev r.1 t := by
  intro fuel
  induction fuel with
  | zero =>
    intro b prev rSegs noSegs r h
    simp only [CreateNode] at h
    cases h
  | succ fuel ih =>
    intro b prev rSegs noSegs r h hp hcount
    obtain ⟨_, hc⟩ := CreateNode_cases pf fuel b prev rSegs noSegs r h
    have hent := Entered_enter b prev hp
    rcases hc with ⟨_, hl⟩ | ⟨_, b2, nl, nr, hpn, hl⟩ |
      ⟨_, b2, nl, nr, b3, rNode, nr2, lSegs, b4, lNode, nl2, x, hpn, hr, hl, hres⟩
    · obtain ⟨h1, h2⟩ := NodePost_leaf b prev _ hp hent _ _ _ _ hl
      exact ⟨h1, .leaf b.nodePool.length, rfl, h2⟩
    · have hent2 := Entered_partition pf b prev _ hp hent _ _ _ _ _ _ hpn
      obtain ⟨h1, h2⟩ := NodePost_leaf b prev _ hp hent2 _ _ _ _ hl
      exact ⟨h1, .leaf b.nodePool.length, rfl, h2⟩
    · have hent2 := Entered_partition pf b prev _ hp hent _ _ _ _ _ _ hpn
      have hlen2 : b2.nodePool.length = b.nodePool.length + 1 := hent2.1
      have hc5 : b4.nodeCount + 1 ≤ 0x8000 := by
        rw [hres] at hcount
        have := (finish_pool b4 b.nodePool.length lNode b.scan.convexList.length
          b2.partitionAlias)
        exact hcount
      have m2 := CreateNode_nodeCount pf _ _ _ _ _ _ hl
      have a2 : (CreateNode.setChild0 b3 b.nodePool.length rNode).nodeCount = b3.nodeCount := rfl
      simp only at m2
      rw [a2] at m2
      obtain ⟨hr1, tr, _, hr2⟩ := ih _ _ _ _ _ hr
        (by
          intro p hpp
          have := hp p hpp
          show p < b2.nodePool.length
          omega)
        (by
          show b3.nodeCount ≤ 0x8000
          omega)
      simp only at hr1 hr2
      have hrN : rNode = b.nodePool.length + 1 := by
        rw [hr1]
        show b2.nodePool.length = _
        exact hlen2
      subst hrN
      have hsp := hr2.1
      have hrlt := (Spans_root _ _ _ hsp).2
      have hlen3 : b.nodePool.length + 1 < b3.nodePool.length := by
        have e : (CreateNode.mark b2 b.scan.convexList.length).nodePool.length
            = b.nodePool.length + 1 := hlen2
        rw [e] at hrlt
        exact hrlt
      obtain ⟨hl1, tl, _, hl2⟩ := ih _ _ _ _ _ hl
        (by
          intro p hpp
          injection hpp with hpp
          subst hpp
          show b.nodePool.length + 1 < (CreateNode.setChild0 b3 _ _).nodePool.length
          rw [(setChild0_pool b3 _ _ (by omega)).1]
          exact hlen3)
        (by
          show b4.nodeCount ≤ 0x8000
          omega)
      simp only at hl1 hl2
      have hlN : lNode = b3.nodePool.length := by
        rw [hl1, (setChild0_pool b3 _ _ (by omega)).1]
      subst hlN
      rw [hres]
      exact ⟨rfl, .node b.nodePool.length tr tl, rfl, NodePost_node b prev b2 b3 b4 tr tl _ _ hp hent2 hr2 hl2 (by omega)⟩

/-! ## The order of the ids -/

theorem root_mem_order (t : Shape) : t.root ∈ t.order := by
  cases t with
  | leaf i => simp [Shape.order, Shape.root]
  | node i r l => simp [Shape.order, Shape.root]

theorem root_id_mem (pool : List NODE) (t : Shape)
    (h : isSubsector (nodeAt pool t.root).id = false) :
    (nodeAt pool t.root).id ∈ t.ids pool := by
  unfold Shape.ids interiorOf
  apply List.mem_map.mpr
  refine ⟨t.root, ?_, rfl⟩
  apply List.mem_filter.mpr
  refine ⟨root_mem_order t, ?_⟩
  simp [h]

/-- Ids that grow along the order of completion put every child id below the id of its
node. -/
theorem Ordered_of_ids (pool : List NODE) : ∀ (t : Shape), t.Built pool →
    (t.ids pool).Pairwise (fun a c => a < c) → t.Ordered pool := by
  intro t
  induction t with
  | leaf i =>
    intro _ _
    trivial
  | node i r l ihr ihl =>
    intro hb hp
    obtain ⟨b0, b1, b2, b3, b4⟩ := hb
    rw [ids_node pool i r l b0] at hp
    rw [List.pairwise_append] at hp
    obtain ⟨hp1, _, hp3⟩ := hp
    rw [List.pairwise_append] at hp1
    obtain ⟨hr, hl, _⟩ := hp1
    refine ⟨?_, ?_, ihr b3 hr, ihl b4 hl⟩
    · intro hc
      rw [b1] at hc ⊢
      exact hp3 _ (List.mem_append_left _ (root_id_mem pool r hc)) _ (List.mem_singleton.mpr rfl)
    · intro hc
      rw [b2] at hc ⊢
      exact hp3 _ (List.mem_append_right _ (root_id_mem pool l hc)) _ (List.mem_singleton.mpr rfl)

theorem Ordered_at (pool : List NODE) : ∀ (t : Shape) (lo hi : Nat), t.Spans lo hi →
    t.Built pool → t.Ordered pool →
    ∀ x, lo ≤ x → x < hi → isSubsector (nodeAt pool x).id = false →
      (isSubsector (nodeAt pool x).Data.child0 = false →
        (nodeAt pool x).Data.child0 < (nodeAt pool x).id) ∧
      (isSubsector (nodeAt pool x).Data.child1 = false →
        (nodeAt pool x).Data.child1 < (nodeAt pool x).id) := by
  intro t
  induction t with
  | leaf i =>
    intro lo hi hs hb _ x h1 h2 hx
    obtain ⟨s1, s2⟩ := hs
    have : x = i := by omega
    subst this
    simp only [Shape.Built] at hb
    rw [hb] at hx
    cases hx
  | node i r l ihr ihl =>
    intro lo hi hs hb ho x h1 h2 hx
    obtain ⟨s1, m, s2, s3⟩ := hs
    obtain ⟨_, _, _, b3, b4⟩ := hb
    obtain ⟨o1, o2, o3, o4⟩ := ho
    by_cases hxi : x = i
    · subst hxi
      exact ⟨o1, o2⟩
    · by_cases hxm : x < m
      · exact ihr _ _ s2 b3 o3 x (by omega) hxm hx
      · exact ihl _ _ s3 b4 o4 x (by omega) h2 hx

theorem pairwise_range' (s n : Nat) : (List.range' s n).Pairwise (fun a c => a < c) := by
  have := List.pairwise_lt_range' s n
  simpa using this

/-! ## The walk of `GetNodes` -/

theorem Chain_append (pool : List NODE) (y : Nat) (l2 : List Nat) (nxt : Option Nat) :
    ∀ l1 : List Nat, Chain pool l1 (some y) → Chain pool (y :: l2) nxt →
      Chain pool (l1 ++ y :: l2) nxt := by
  intro l1
  induction l1 with
  | nil =>
    intro _ h
    exact h
  | cons x rest ih =>
    intro h1 h2
    obtain ⟨a1, a2⟩ := h1
    refine ⟨?_, ih a2 h2⟩
    cases rest with
    | nil => exact a1
    | cons z rest2 => exact a1

theorem Linked_chain (pool : List NODE) : ∀ t : Shape, t.Linked pool →
    Chain pool t.order (nodeAt pool t.root).Next := by
  intro t
  induction t with
  | leaf i =>
    intro _
    exact ⟨rfl, trivial⟩
  | node i r l ihr ihl =>
    intro h
    obtain ⟨h1, h2, h3, h4⟩ := h
    have cr := ihr h1
    have cl := ihl h2
    rw [h3] at cr
    rw [h4] at cl
    have hl := order_head l
    have ci : Chain pool [i] (nodeAt pool i).Next := ⟨rfl, trivial⟩
    simp only [Shape.order, Shape.root, List.append_assoc]
    cases hlo : l.order with
    | nil =>
      rw [hlo] at hl
      cases hl
    | cons f rest =>
      rw [hlo] at hl cl
      simp only [List.head?_cons, Option.some.injEq] at hl
      subst hl
      have c2 : Chain pool (l.first :: rest ++ [i]) (nodeAt pool i).Next :=
        Chain_append pool i [] _ (l.first :: rest) cl ci
      exact Chain_append pool l.first (rest ++ [i]) _ r.order cr c2

theorem isSubsector_iff (x : Nat) : isSubsector x = true ↔ x &&& 0x8000 ≠ 0 := by
  simp [isSubsector]

theorem skip_chain (pool : List NODE) (nxt : Option Nat) : ∀ (l : List Nat) (fuel : Nat),
    Chain pool l nxt → l.length < fuel → ∀ x rest, interiorOf pool l = x :: rest →
    ∃ l2 : List Nat, GetNodes.skip pool fuel l.head? = some x ∧ interiorOf pool l2 = rest ∧
      Chain pool l2 nxt ∧
      (nodeAt pool x).Next = (match l2 with | [] => nxt | y :: _ => some y) ∧
      l2.length < l.length := by
  intro l
  induction l with
  | nil =>
    intro fuel _ _ x rest h
    simp [interiorOf] at h
  | cons a l0 ih =>
    intro fuel hc hf x rest h
    obtain ⟨c1, c2⟩ := hc
    cases fuel with
    | zero => simp at hf
    | succ f =>
      simp only [List.length_cons] at hf
      by_cases hs : isSubsector (nodeAt pool a).id = true
      · have hi : interiorOf pool (a :: l0) = interiorOf pool l0 := by
          simp [interiorOf, hs]
        rw [hi] at h
        cases l0 with
        | nil => simp [interiorOf] at h
        | cons y l1 =>
          obtain ⟨l2, s1, s2, s3, s4, s5⟩ := ih f c2 (by omega) x rest h
          refine ⟨l2, ?_, s2, s3, s4, by simp only [List.length_cons] at s5 ⊢; omega⟩
          simp only [List.head?_cons, GetNodes.skip]
          have e : (pool.getD a default).id &&& 0x8000 ≠ 0 := (isSubsector_iff _).mp hs
          rw [if_pos e]
          have e2 : (pool.getD a default).Next = some y := c1
          rw [e2]
          exact s1
      · have hs2 : isSubsector (nodeAt pool a).id = false := by
          cases h0 : isSubsector (nodeAt pool a).id
          · rfl
          · exact absurd h0 hs
        have hi : interiorOf pool (a :: l0) = a :: interiorOf pool l0 := by
          simp [interiorOf, hs2]
        rw [hi] at h
        injection h with h1 h2
        subst h1
        refine ⟨l0, ?_, h2, c2, c1, by simp⟩
        simp only [List.head?_cons, GetNodes.skip]
        have e : ¬ ((pool.getD a default).id &&& 0x8000 ≠ 0) := by
          intro e
          exact hs ((isSubsector_iff _).mpr e)
        rw [if_neg e]

theorem loop_chain (pool : List NODE) : ∀ (n : Nat) (l : List Nat),
    Chain pool l none → l.length ≤ pool.length → (interiorOf pool l).length = n →
    GetNodes.loop pool n l.head?
      = some ((interiorOf pool l).map (fun x => (nodeAt pool x).Data)) := by
  intro n
  induction n with
  | zero =>
    intro l _ _ h
    rw [List.length_eq_zero] at h
    rw [h]
    rfl
  | succ n ih =>
    intro l hc hl h
    cases hi : interiorOf pool l with
    | nil =>
      rw [hi] at h
      cases h
    | cons x rest =>
      rw [hi] at h
      obtain ⟨l2, s1, s2, s3, s4, s5⟩ := skip_chain pool none l (pool.length + 1) hc (by omega) x rest hi
      have hn : (nodeAt pool x).Next = l2.head? := by
        rw [s4]
        cases l2 <;> rfl
      have := ih l2 s3 (by omega) (by rw [s2]; simpa using h)
      simp only [GetNodes.loop, s1]
      have e : (pool.getD x default).Next = l2.head? := hn
      rw [e, this, s2]
      rfl

/-- When the ids of the visited nodes count up from 0, the record of every visited node
stands at the index that is its id. -/
theorem records_by_id (pool : List NODE) (L : List Nat) (n : Nat)
    (hids : L.map (fun x => (nodeAt pool x).id) = List.range n) :
    (∀ x ∈ L, (nodeAt pool x).id < n ∧
      (L.map (fun x => (nodeAt pool x).Data)).getD (nodeAt pool x).id default
        = (nodeAt pool x).Data) ∧
    (∀ i, i < n → ∃ x ∈ L, (nodeAt pool x).id = i) := by
  have hlen : L.length = n := by
    have := congrArg List.length hids
    simpa using this
  have hk : ∀ k (hk : k < L.length), (nodeAt pool (L.get ⟨k, hk⟩)).id = k := by
    intro k hk
    have := congrArg (fun l => l.getD k 0) hids
    simp only [List.getD_eq_getElem?_getD, List.getElem?_map, List.getElem?_range (hlen ▸ hk),
      List.getElem?_eq_getElem hk] at this
    simpa using this
  constructor
  · intro x hx
    obtain ⟨k, hk1, hk2⟩ := List.getElem_of_mem hx
    have e := hk k hk1
    simp only [List.get_eq_getElem] at e
    rw [hk2] at e
    rw [e]
    refine ⟨by omega, ?_⟩
    simp only [List.getD_eq_getElem?_getD, List.getElem?_map, List.getElem?_eq_getElem hk1, hk2]
    rfl
  · intro i hi
    refine ⟨L.get ⟨i, by omega⟩, List.get_mem _ _ _, hk i (by omega)⟩

/-! ## The claims on the node ids -/

/-- C2.  In the nodes that a call of `CreateNode` (any partition function, at most
`0x8000` interior nodes numbered) has added to the pool, every interior node has, in
each child field that is not the id of a subsector, an id smaller than its own; the
child fields are the ids of the nodes that the two recursive calls returned (`Built`);
and the node the call returns, when it is an interior node, has the id
`nodeCount - 1`. -/
theorem child_ids_below_parent (pf : PartitionFn) (fuel : Nat) (b : Builder)
    (prev : Option Nat) (rSegs noSegs : Nat) (r : Builder × Nat × Nat × Nat)
    (hbuild : CreateNode pf fuel b prev rSegs noSegs = .ok r)
    (hprev : ∀ p, prev = some p → p < b.nodePool.length)
    (h16 : r.1.nodeCount ≤ 0x8000) :
    (∀ x, b.nodePool.length ≤ x → x < r.1.nodePool.length →
      isSubsector (nodeAt r.1.nodePool x).id = false →
      (isSubsector (nodeAt r.1.nodePool x).Data.child0 = false →
        (nodeAt r.1.nodePool x).Data.child0 < (nodeAt r.1.nodePool x).id) ∧
      (isSubsector (nodeAt r.1.nodePool x).Data.child1 = false →
        (nodeAt r.1.nodePool x).Data.child1 < (nodeAt r.1.nodePool x).id)) ∧
    (isSubsector (nodeAt r.1.nodePool r.2.1).id = false →
      (nodeAt r.1.nodePool r.2.1).id + 1 = r.1.nodeCount) ∧
    ∃ t : Shape, t.root = r.2.1 ∧ t.Spans b.nodePool.length r.1.nodePool.length ∧
      t.Built r.1.nodePool ∧ t.Ordered r.1.nodePool := by
  obtain ⟨h1, t, h2, h3⟩ := CreateNode_nodes pf fuel b prev rSegs noSegs r hbuild hprev h16
  obtain ⟨p1, p2, _, p4, _, p6, _⟩ := h3
  have ho : t.Ordered r.1.nodePool := by
    apply Ordered_of_ids _ t p2
    rw [p4]
    exact pairwise_range' _ _
  refine ⟨Ordered_at _ t _ _ p1 p2 ho, ?_, t, by rw [h2, h1], p1, p2, ho⟩
  rw [h1, ← h2]
  exact p6

theorem child_ids_below_parent_witness :
    (∀ x, dividedRoom.nodePool.length ≤ x → x < dividedRoomBuilt.1.nodePool.length →
      isSubsector (nodeAt dividedRoomBuilt.1.nodePool x).id = false →
      (isSubsector (nodeAt dividedRoomBuilt.1.nodePool x).Data.child0 = false →
        (nodeAt dividedRoomBuilt.1.nodePool x).Data.child0
          < (nodeAt dividedRoomBuilt.1.nodePool x).id) ∧
      (isSubsector (nodeAt dividedRoomBuilt.1.nodePool x).Data.child1 = false →
        (nodeAt dividedRoomBuilt.1.nodePool x).Data.child1
          < (nodeAt dividedRoomBuilt.1.nodePool x).id)) ∧
    (isSubsector (nodeAt dividedRoomBuilt.1.nodePool dividedRoomBuilt.2.1).id = false →
      (nodeAt dividedRoomBuilt.1.nodePool dividedRoomBuilt.2.1).id + 1
        = dividedRoomBuilt.1.nodeCount) ∧
    ∃ t : Shape, t.root = dividedRoomBuilt.2.1 ∧
      t.Spans dividedRoom.nodePool.length dividedRoomBuilt.1.nodePool.length ∧
      t.Built dividedRoomBuilt.1.nodePool ∧ t.Ordered dividedRoomBuilt.1.nodePool :=
  child_ids_below_parent Algorithm1 10 dividedRoom none 0 dividedRoom.segCount dividedRoomBuilt
    dividedRoom_builds (fun _ h => by cases h) (by decide)

/-- C3.  After a build by `CreateNode` from an empty node pool (any partition function,
at most `0x8000` interior nodes), `GetNodes` returns an array of `nodeCount` records.
The `Next` pointers lead from `nodeStart` through all the nodes of the pool, in the
order `t.order` in which the calls completed; the ids of the interior nodes met on the
way are `0, 1, .., nodeCount - 1` in this order; the array holds their `Data` in this
order, so that the record of the interior node with id `i` stands at index `i`, and
every `i` below `nodeCount` is the id of an interior node.  The child fields of an
interior node are the ids of its two children (`Built`), so a child field that is not
the id of a subsector is the index of the record of that child. -/
theorem GetNodes_in_id_order (pf : PartitionFn) (fuel : Nat) (b : Builder)
    (rSegs noSegs : Nat) (r : Builder × Nat × Nat × Nat)
    (hpool : b.nodePool = []) (hcount : b.nodeCount = 0) (hstart : b.nodeStart = none)
    (hbuild : CreateNode pf fuel b none rSegs noSegs = .ok r)
    (h16 : r.1.nodeCount ≤ 0x8000) :
    ∃ (t : Shape) (nodes : List wNode),
      GetNodes r.1 = some nodes ∧ nodes.length = r.1.nodeCount ∧
      t.Spans 0 r.1.nodePool.length ∧ t.Built r.1.nodePool ∧
      r.1.nodeStart = t.order.head? ∧ Chain r.1.nodePool t.order none ∧
      (interiorOf r.1.nodePool t.order).map (fun x => (nodeAt r.1.nodePool x).id)
        = List.range r.1.nodeCount ∧
      nodes = (interiorOf r.1.nodePool t.order).map (fun x => (nodeAt r.1.nodePool x).Data) ∧
      (∀ x, x < r.1.nodePool.length → isSubsector (nodeAt r.1.nodePool x).id = false →
        (nodeAt r.1.nodePool x).id < r.1.nodeCount ∧
        nodes.getD (nodeAt r.1.nodePool x).id default = (nodeAt r.1.nodePool x).Data) ∧
      (∀ i, i < r.1.nodeCount → ∃ x, x < r.1.nodePool.length ∧
        isSubsector (nodeAt r.1.nodePool x).id = false ∧ (nodeAt r.1.nodePool x).id = i) := by
  obtain ⟨_, t, _, h3⟩ := CreateNode_nodes pf fuel b none rSegs noSegs r hbuild
    (fun _ h => by cases h) h16
  obtain ⟨p1, p2, p3, p4, _, _, p7, _, _, p10, _⟩ := h3
  rw [hpool] at p1
  rw [hcount] at p4
  simp only [List.length_nil, Nat.sub_zero] at p1 p4
  have hids : (interiorOf r.1.nodePool t.order).map (fun x => (nodeAt r.1.nodePool x).id)
      = List.range r.1.nodeCount := by
    rw [List.range_eq_range']
    exact p4
  have hch : Chain r.1.nodePool t.order none := by
    have := Linked_chain r.1.nodePool t p3
    rw [p7] at this
    exact this
  have hst : r.1.nodeStart = t.order.head? := by
    rw [order_head]
    exact p10 hstart
  have hlen : (interiorOf r.1.nodePool t.order).length = r.1.nodeCount := by
    have := congrArg List.length hids
    simpa using this
  have hget := loop_chain r.1.nodePool r.1.nodeCount t.order hch
    (by rw [Spans_length t _ _ p1]; omega) hlen
  obtain ⟨q1, q2⟩ := records_by_id r.1.nodePool _ _ hids
  have hm := Spans_mem t _ _ p1
  refine ⟨t, _, ?_, ?_, p1, p2, hst, hch, hids, rfl, ?_, ?_⟩
  · unfold GetNodes
    rw [hst]
    exact hget
  · simp only [List.length_map]
    exact hlen
  · intro x hx hi
    apply q1 x
    apply List.mem_filter.mpr
    exact ⟨(hm x).mpr ⟨by omega, hx⟩, by simp [hi]⟩
  · intro i hi
    obtain ⟨x, hx1, hx2⟩ := q2 i hi
    obtain ⟨m1, m2⟩ := List.mem_filter.mp hx1
    refine ⟨x, ((hm x).mp m1).2, ?_, hx2⟩
    simpa using m2

theorem GetNodes_in_id_order_witness :
    ∃ (t : Shape) (nodes : List wNode),
      GetNodes dividedRoomBuilt.1 = some nodes ∧ nodes.length = dividedRoomBuilt.1.nodeCount ∧
      t.Spans 0 dividedRoomBuilt.1.nodePool.length ∧ t.Built dividedRoomBuilt.1.nodePool ∧
      dividedRoomBuilt.1.nodeStart = t.order.head? ∧
      Chain dividedRoomBuilt.1.nodePool t.order none ∧
      (interiorOf dividedRoomBuilt.1.nodePool t.order).map
          (fun x => (nodeAt dividedRoomBuilt.1.nodePool x).id)
        = List.range dividedRoomBuilt.1.nodeCount ∧
      nodes = (interiorOf dividedRoomBuilt.1.nodePool t.order).map
          (fun x => (nodeAt dividedRoomBuilt.1.nodePool x).Data) ∧
      (∀ x, x < dividedRoomBuilt.1.nodePool.length →
        isSubsector (nodeAt dividedRoomBuilt.1.nodePool x).id = false →
        (nodeAt dividedRoomBuilt.1.nodePool x).id < dividedRoomBuilt.1.nodeCount ∧
        nodes.getD (nodeAt dividedRoomBuilt.1.nodePool x).id default
          = (nodeAt dividedRoomBuilt.1.nodePool x).Data) ∧
      (∀ i, i < dividedRoomBuilt.1.nodeCount → ∃ x, x < dividedRoomBuilt.1.nodePool.length ∧
        isSubsector (nodeAt dividedRoomBuilt.1.nodePool x).id = false ∧
        (nodeAt dividedRoomBuilt.1.nodePool x).id = i) :=
  GetNodes_in_id_order Algorithm1 10 dividedRoom 0 dividedRoom.segCount dividedRoomBuilt
    rfl rfl rfl dividedRoom_builds (by decide)

/-! ## The seg array under the steps of the build -/

theorem valid_getD (n : Nat) (l : List SEG) (i : Nat) (h : SegsValid n l) :
    (l.getD i default).Sector < n := by
  by_cases hi : i < l.length
  · rw [List.getD_eq_getElem _ _ hi]
    exact h.2 _ (List.getElem_mem _)
  · rw [List.getD_eq_default _ _ (by omega)]
    exact h.1

theorem SegStep_refl (base : Nat) (l : List SEG) : SegStep base l l :=
  ⟨rfl, fun _ _ => rfl, fun _ h => h⟩

theorem SegStep_trans (base : Nat) (l1 l2 l3 : List SEG)
    (h1 : SegStep base l1 l2) (h2 : SegStep base l2 l3) : SegStep base l1 l3 :=
  ⟨h2.1.trans h1.1, fun i hi => (h2.2.1 i hi).trans (h1.2.1 i hi),
    fun n h => h2.2.2 n (h1.2.2 n h)⟩

theorem SegStep_mono (base base2 : Nat) (l1 l2 : List SEG) (hb : base2 ≤ base)
    (h : SegStep base l1 l2) : SegStep base2 l1 l2 :=
  ⟨h.1, fun i hi => h.2.1 i (by omega), h.2.2⟩

theorem SegStep_then_set (base : Nat) (l l1 : List SEG) (i : Nat) (s : SEG)
    (h : SegStep base l l1) (hi : base ≤ i)
    (hs : ∀ n, SegsValid n l → s.Sector < n) : SegStep base l (l1.set i s) := by
  refine ⟨(List.length_set _ _ _).trans h.1, ?_, ?_⟩
  · intro j hj
    simp only [List.getD_eq_getElem?_getD]
    rw [List.getElem?_set_ne (by omega)]
    have := h.2.1 j hj
    simp only [List.getD_eq_getElem?_getD] at this
    exact this
  · intro n hv
    refine ⟨hv.1, ?_⟩
    intro x hx
    rcases List.mem_or_eq_of_mem_set hx with h2 | h2
    · exact (h.2.2 n hv).2 x h2
    · rw [h2]
      exact hs n hv

theorem SegStep_set (base : Nat) (l : List SEG) (i : Nat) (s : SEG) (hi : base ≤ i)
    (hs : ∀ n, SegsValid n l → s.Sector < n) : SegStep base l (l.set i s) :=
  SegStep_then_set base l l i s (SegStep_refl _ _) hi hs

theorem SegStep_then_blit (base : Nat) (l l1 : List SEG) (off : Nat) (xs : List SEG)
    (h : SegStep base l l1) (h1 : base ≤ off) (h2 : off + xs.length ≤ l1.length)
    (hs : ∀ n, SegsValid n l → ∀ s ∈ xs, s.Sector < n) : SegStep base l (blit l1 off xs) := by
  refine ⟨(length_blit _ _ _ h2).trans h.1, ?_, ?_⟩
  · intro j hj
    rw [getD_blit_lt _ _ _ _ _ (by omega) (by omega)]
    exact h.2.1 j hj
  · intro n hv
    refine ⟨hv.1, ?_⟩
    intro x hx
    simp only [blit, List.mem_append] at hx
    rcases hx with (hx | hx) | hx
    · exact (h.2.2 n hv).2 x (List.mem_of_mem_take hx)
    · exact hs n hv x hx
    · exact (h.2.2 n hv).2 x (List.mem_of_mem_drop hx)

theorem SegStep_blit (base : Nat) (l : List SEG) (off : Nat) (xs : List SEG) (h1 : base ≤ off)
    (h2 : off + xs.length ≤ l.length)
    (hs : ∀ n, SegsValid n l → ∀ s ∈ xs, s.Sector < n) : SegStep base l (blit l off xs) :=
  SegStep_then_blit base l l off xs (SegStep_refl _ _) h1 h2 hs

theorem mem_slice {α : Type} (a : List α) (off n : Nat) (x : α) (h : x ∈ slice a off n) :
    x ∈ a :=
  List.mem_of_mem_drop (List.mem_of_mem_take h)

theorem classify_step (seg : Nat) : ∀ (n i : Nat) (b : Builder) (c : Counts),
    SegStep seg b.segStart (SortSegs.classify seg n i (b, c)).1.segStart := by
  intro n
  induction n with
  | zero =>
    intro i b c
    exact SegStep_refl _ _
  | succ n ih =>
    intro i b c
    simp only [SortSegs.classify]
    refine SegStep_trans _ _ _ _ ?_ (ih (i + 1) _ _)
    apply SegStep_set _ _ _ _ (by omega)
    intro N hv
    exact valid_getD N b.segStart (seg + i) hv

theorem SortSegs_leading_le (b : Builder) (seg : Nat) : ∀ n i,
    SortSegs.leading b seg n i ≤ i + n := by
  intro n
  induction n with
  | zero =>
    intro i
    simp [SortSegs.leading]
  | succ n ih =>
    intro i
    simp only [SortSegs.leading]
    split_ifs
    · have := ih (i + 1)
      omega
    · omega

theorem distribute_step (seg : Nat) : ∀ (n i : Nat) (b : Builder) (rSeg : Nat)
    (sSeg lSeg : List SEG), seg ≤ rSeg →
    SegStep seg b.segStart (SortSegs.distribute seg n i (b, rSeg, sSeg, lSeg)).1.segStart ∧
    rSeg ≤ (SortSegs.distribute seg n i (b, rSeg, sSeg, lSeg)).2.1 ∧
    (SortSegs.distribute seg n i (b, rSeg, sSeg, lSeg)).2.1
        + (SortSegs.distribute seg n i (b, rSeg, sSeg, lSeg)).2.2.1.length
        + (SortSegs.distribute seg n i (b, rSeg, sSeg, lSeg)).2.2.2.length
      ≤ rSeg + sSeg.length + lSeg.length + n ∧
    (∀ N, SegsValid N b.segStart → (∀ s ∈ sSeg, s.Sector < N) → (∀ s ∈ lSeg, s.Sector < N) →
      (∀ s ∈ (SortSegs.distribute seg n i (b, rSeg, sSeg, lSeg)).2.2.1, s.Sector < N) ∧
      (∀ s ∈ (SortSegs.distribute seg n i (b, rSeg, sSeg, lSeg)).2.2.2, s.Sector < N)) := by
  intro n
  induction n with
  | zero =>
    intro i b rSeg sSeg lSeg _
    simp only [SortSegs.distribute]
    exact ⟨SegStep_refl _ _, le_refl _, by omega, fun N _ h1 h2 => ⟨h1, h2⟩⟩
  | succ n ih =>
    intro i b rSeg sSeg lSeg hr
    simp only [SortSegs.distribute]
    have hcur : ∀ N, SegsValid N b.segStart → (b.seg (seg + i)).Sector < N :=
      fun N hv => valid_getD N b.segStart (seg + i) hv
    split_ifs with h1 h2 h3
    · obtain ⟨a1, a2, a3, a4⟩ := ih (i + 1) b rSeg sSeg (lSeg ++ [b.seg (seg + i)]) hr
      refine ⟨a1, a2, ?_, ?_⟩
      · simp only [List.length_append, List.length_singleton] at a3
        omega
      · intro N hv hs hl
        apply a4 N hv hs
        intro s hs2
        rcases List.mem_append.mp hs2 with h | h
        · exact hl s h
        · rw [List.mem_singleton.mp h]
          exact hcur N hv
    · obtain ⟨a1, a2, a3, a4⟩ := ih (i + 1) b rSeg (sSeg ++ [b.seg (seg + i)]) lSeg hr
      refine ⟨a1, a2, ?_, ?_⟩
      · simp only [List.length_append, List.length_singleton] at a3
        omega
      · intro N hv hs hl
        apply a4 N hv _ hl
        intro s hs2
        rcases List.mem_append.mp hs2 with h | h
        · exact hs s h
        · rw [List.mem_singleton.mp h]
          exact hcur N hv
    · obtain ⟨a1, a2, a3, a4⟩ := ih (i + 1) (b.setSeg rSeg (b.seg (seg + i))) (rSeg + 1)
        sSeg lSeg (by omega)
      have st : SegStep seg b.segStart (b.setSeg rSeg (b.seg (seg + i))).segStart :=
        SegStep_set _ _ _ _ hr hcur
      refine ⟨SegStep_trans _ _ _ _ st a1, by omega, by omega, ?_⟩
      intro N hv hs hl
      exact a4 N (st.2.2 N hv) hs hl
    · obtain ⟨a1, a2, a3, a4⟩ := ih (i + 1) b rSeg sSeg lSeg hr
      exact ⟨a1, a2, by omega, a4⟩

theorem SortSegs_step (b : Builder) (pSeg : Option Nat) (seg noSegs : Nat)
    (b2 : Builder) (nl nr ns : Nat) (h : SortSegs b pSeg seg noSegs = .ok (b2, nl, nr, ns))
    (hin : seg + noSegs ≤ b.segStart.length) :
    SegStep seg b.segStart b2.segStart := by
  cases pSeg with
  | none =>
    simp only [SortSegs] at h
    injection h with h
    injection h with h1 h
    subst h1
    exact SegStep_refl _ _
  | some p =>
    simp only [SortSegs] at h
    have c1 := classify_step seg noSegs 0 (ComputeStaticVariables b (b.seg p)) ⟨0, 0, 0⟩
    have c0 : (ComputeStaticVariables b (b.seg p)).segStart = b.segStart := rfl
    rw [c0] at c1
    generalize SortSegs.classify seg noSegs 0 (ComputeStaticVariables b (b.seg p), ⟨0, 0, 0⟩)
      = cl at h c1
    obtain ⟨bc, count⟩ := cl
    simp only at h c1
    split_ifs at h with hz hd
    · injection h with h
      injection h with h1 h
      subst h1
      have hle := SortSegs_leading_le bc seg noSegs 0
      obtain ⟨a1, a2, a3, a4⟩ := distribute_step seg (noSegs - SortSegs.leading bc seg noSegs 0)
        (SortSegs.leading bc seg noSegs 0) bc (seg + SortSegs.leading bc seg noSegs 0) [] []
        (by omega)
      generalize SortSegs.distribute seg (noSegs - SortSegs.leading bc seg noSegs 0)
        (SortSegs.leading bc seg noSegs 0) (bc, seg + SortSegs.leading bc seg noSegs 0, [], [])
        = ds at a1 a2 a3 a4
      obtain ⟨bd, rSeg, sSeg, lSeg⟩ := ds
      simp only [List.length_nil] at a1 a2 a3 a4 ⊢
      have hl1 : bd.segStart.length = b.segStart.length := a1.1.trans c1.1
      apply SegStep_then_blit _ _ _ _ _ (SegStep_trans _ _ _ _ c1 a1) (by omega)
      · have : (List.take (noSegs - count.rCount.toNat) (sSeg ++ lSeg)).length
            ≤ sSeg.length + lSeg.length := by
          simp only [List.length_take, List.length_append]
          omega
        omega
      · intro N hv s hs
        obtain ⟨v1, v2⟩ := a4 N (c1.2.2 N hv) (by simp) (by simp)
        rcases List.mem_append.mp (List.mem_of_mem_take hs) with h | h
        · exact v1 s h
        · exact v2 s h
    · injection h with h
      injection h with h1 h
      subst h1
      exact c1

theorem ChoosePartition_step (pf : PartitionFn) (b : Builder) (seg noSegs : Nat)
    (flag : Bool) (b2 : Builder) (nl nr ns : Nat)
    (h : ChoosePartition pf b seg noSegs = .ok (flag, b2, nl, nr, ns))
    (hin : seg + noSegs ≤ b.segStart.length) :
    SegStep seg b.segStart b2.segStart := by
  simp only [ChoosePartition] at h
  generalize pf { b with scan := { b.scan with
    lineChecked := blit b.scan.lineChecked 0 (b.lineUsed.take b.noAliases) } } seg noSegs
    = res at h
  obtain ⟨pSeg, scan⟩ := res
  simp only at h
  cases hs : SortSegs { b with scan := scan } pSeg seg noSegs with
  | error e =>
    rw [hs] at h
    cases h
  | ok r =>
    obtain ⟨b3, l3, r3, s3⟩ := r
    rw [hs] at h
    simp only at h
    injection h with h
    injection h with h0 h
    injection h with h1 h
    subst h1
    exact SortSegs_step { b with scan := scan } _ _ _ _ _ _ _ hs hin

theorem SegStep_then_update (base : Nat) (l l1 : List SEG) (i : Nat) (f : SEG → SEG)
    (hf : ∀ s, (f s).Sector = s.Sector) (h : SegStep base l l1) (hi : base ≤ i) :
    SegStep base l (l1.set i (f (l1.getD i default))) := by
  apply SegStep_then_set _ _ _ _ _ h hi
  intro n hv
  rw [hf]
  exact valid_getD n l1 i (h.2.2 n hv)

theorem DivideSeg_step (base : Nat) (b : Builder) (rSeg lSeg : Nat) (b2 : Builder)
    (h : DivideSeg b rSeg lSeg = .ok b2) (hr : base ≤ rSeg) (hl : base ≤ lSeg) :
    SegStep base b.segStart b2.segStart := by
  cases hadd : AddVertex b (b.splitPoint rSeg).1 (b.splitPoint rSeg).2 with
  | error e =>
    rw [DivideSeg_error_of_AddVertex b rSeg lSeg e hadd] at h
    cases h
  | ok res =>
    obtain ⟨i, b1⟩ := res
    obtain ⟨hfr, _⟩ := AddVertex_frame b _ _ i b1 hadd
    have hsegs : b1.segStart = b.segStart := by rw [hfr]
    have hadd2 := hadd
    simp only [Builder.splitPoint, Builder.vertS, Builder.vertE] at hadd2
    by_cases hdup : (b.seg rSeg).Data.start = i ∨ (b.seg rSeg).Data.end_ = i
    · simp only [DivideSeg, hadd2, if_pos hdup] at h
      cases h
    · simp only [DivideSeg, hadd2, if_neg hdup] at h
      split_ifs at h
      · injection h with h
        subst h
        simp only [Builder.setSeg, Builder.seg, hsegs]
        exact SegStep_then_update base _ _ lSeg
          (fun s => { s with Data :=
            { s.Data with start := toUSHORT i, offset := toUSHORT (s.Data.offset + _) } })
          (fun _ => rfl)
          (SegStep_then_update base _ _ rSeg
            (fun s => { s with Data := { s.Data with end_ := toUSHORT i } })
            (fun _ => rfl) (SegStep_refl _ _) hr) hl
      · injection h with h
        subst h
        simp only [Builder.setSeg, Builder.seg, hsegs]
        exact SegStep_then_update base _ _ rSeg
          (fun s => { s with Data := { s.Data with offset := toUSHORT (s.Data.offset + _) } })
          (fun _ => rfl)
          (SegStep_then_update base _ _ lSeg
            (fun s => { s with Data := { s.Data with end_ := toUSHORT i } })
            (fun _ => rfl)
            (SegStep_then_update base _ _ rSeg
              (fun s => { s with Data := { s.Data with start := toUSHORT i } })
              (fun _ => rfl) (SegStep_refl _ _) hr) hl) hr

theorem SplitSegs_loop_step (base k : Nat) : ∀ (n s : Nat) (b b2 : Builder),
    SplitSegs.loop k n s b = .ok b2 → base ≤ s → SegStep base b.segStart b2.segStart := by
  intro n
  induction n with
  | zero =>
    intro s b b2 h _
    simp only [SplitSegs.loop] at h
    injection h with h
    rw [h]
    exact SegStep_refl _ _
  | succ n ih =>
    intro s b b2 h hs
    simp only [SplitSegs.loop] at h
    cases hd : DivideSeg b s (s + k) with
    | error e =>
      rw [hd] at h
      cases h
    | ok b1 =>
      rw [hd] at h
      exact SegStep_trans _ _ _ _ (DivideSeg_step base _ _ _ _ hd hs (by omega))
        (ih _ _ _ h (by omega))

theorem SplitSegs_step (b : Builder) (segs k : Nat) (b2 : Builder)
    (h : SplitSegs b segs k = .ok b2) (hlen : b.maxSegs ≤ b.segStart.length)
    (hin : segs ≤ b.segCount) :
    SegStep segs b.segStart b2.segStart ∧ b2.segCount ≤ b.maxSegs := by
  simp only [SplitSegs] at h
  split_ifs at h with hov
  have hc := (SplitSegs_loop_core _ _ _ _ _ h)
  have st := SplitSegs_loop_step segs k _ _ _ _ h (le_refl _)
  simp only at st
  constructor
  · refine SegStep_trans _ _ _ _ ?_ st
    apply SegStep_blit _ _ _ _ (by omega)
    · have : (slice b.segStart segs (b.segCount + k - segs - k)).length
          ≤ b.segCount + k - segs - k := by
        simp only [slice, List.length_take]
        omega
      omega
    · intro n hv s hs
      exact hv.2 s (mem_slice _ _ _ _ hs)
  · have e : b2.segCount = b.segCount + k := by
      have := congrArg (fun c => c.2.2.2.2.2.2.2.2) hc
      exact this
    have e2 : b2.maxSegs = b.maxSegs := by
      have := congrArg (fun c => c.2.2.2.2.2.2.2.1) hc
      exact this
    omega

theorem qsortSegs_step (base0 : Nat) (cmp : SEG → SEG → Int) (b : Builder) (base n : Nat)
    (hb : base0 ≤ base) (hin : base + n ≤ b.segStart.length) :
    SegStep base0 b.segStart (qsortSegs cmp b base n).segStart ∧
    (∀ i, i < n → ∃ k, k < n ∧ (qsortSegs cmp b base n).seg (base + i) = b.seg (base + k)) ∧
    (∀ k, k < n → ∃ i, i < n ∧ (qsortSegs cmp b base n).seg (base + i) = b.seg (base + k)) := by
  have hp := List.perm_insertionSort (fun s1 s2 => cmp s1 s2 ≤ 0) (slice b.segStart base n)
  have hl : (List.insertionSort (fun s1 s2 => cmp s1 s2 ≤ 0) (slice b.segStart base n)).length
      = n := by
    rw [hp.length_eq, length_slice _ _ _ hin]
  have hmem : ∀ x, x ∈ slice b.segStart base n ↔ ∃ k, k < n ∧ x = b.seg (base + k) := by
    intro x
    constructor
    · intro hx
      obtain ⟨k, hk, e⟩ := List.getElem_of_mem hx
      have hk2 : k < n := by
        rw [length_slice _ _ _ hin] at hk
        exact hk
      refine ⟨k, hk2, ?_⟩
      rw [← e]
      have := getD_slice b.segStart base n k default hk2
      rw [List.getD_eq_getElem _ _ hk] at this
      exact this
    · rintro ⟨k, hk, e⟩
      rw [e]
      have := getD_slice b.segStart base n k default hk
      have hk2 : k < (slice b.segStart base n).length := by
        rw [length_slice _ _ _ hin]
        exact hk
      rw [List.getD_eq_getElem _ _ hk2] at this
      show b.segStart.getD (base + k) default ∈ _
      rw [← this]
      exact List.getElem_mem _
  refine ⟨?_, ?_, ?_⟩
  · simp only [qsortSegs]
    apply SegStep_blit _ _ _ _ hb (by omega)
    intro N hv s hs
    exact hv.2 s (mem_slice _ _ _ _ (hp.mem_iff.mp hs))
  · intro i hi
    have e : (qsortSegs cmp b base n).seg (base + i)
        = (List.insertionSort (fun s1 s2 => cmp s1 s2 ≤ 0) (slice b.segStart base n)).getD i
            default := by
      simp only [qsortSegs, Builder.seg]
      exact getD_blit_mid _ _ _ _ _ (by omega) (by omega)
    rw [e, List.getD_eq_getElem _ _ (by omega)]
    exact (hmem _).mp (hp.mem_iff.mp (List.getElem_mem _))
  · intro k hk
    have hx : b.seg (base + k) ∈ List.insertionSort (fun s1 s2 => cmp s1 s2 ≤ 0)
        (slice b.segStart base n) :=
      hp.mem_iff.mpr ((hmem _).mpr ⟨k, hk, rfl⟩)
    obtain ⟨i, hi, e⟩ := List.getElem_of_mem hx
    refine ⟨i, by omega, ?_⟩
    rw [← e]
    simp only [qsortSegs, Builder.seg]
    rw [getD_blit_mid _ _ _ _ _ (by omega) (by omega), List.getD_eq_getElem _ _ hi]

/-! ## The test for keep-unique sectors -/

theorem mark_fold (sector : Nat → Nat) : ∀ (is : List Nat) (U : List Nat) (j : Nat),
    j < U.length →
    (((is.foldl (fun used i => used.set (sector i) 1) U).getD j 0 ≠ 0) ↔
      (U.getD j 0 ≠ 0 ∨ ∃ i ∈ is, sector i = j)) := by
  intro is
  induction is with
  | nil =>
    intro U j _
    simp
  | cons a rest ih =>
    intro U j hj
    simp only [List.foldl_cons]
    rw [ih (U.set (sector a) 1) j (by rw [List.length_set]; exact hj)]
    by_cases hs : sector a = j
    · have e : (U.set (sector a) 1).getD j 0 = 1 := by
        rw [hs]
        simp only [List.getD_eq_getElem?_getD]
        rw [List.getElem?_set_self hj]
        rfl
      rw [e]
      constructor
      · intro _
        exact Or.inr ⟨a, List.mem_cons_self _ _, hs⟩
      · intro _
        exact Or.inl (by decide)
    · have e : (U.set (sector a) 1).getD j 0 = U.getD j 0 := by
        simp only [List.getD_eq_getElem?_getD]
        rw [List.getElem?_set_ne hs]
      rw [e]
      constructor
      · rintro (h | ⟨i, hi, e2⟩)
        · exact Or.inl h
        · exact Or.inr ⟨i, List.mem_cons_of_mem _ hi, e2⟩
      · rintro (h | ⟨i, hi, e2⟩)
        · exact Or.inl h
        · rcases List.mem_cons.mp hi with h3 | h3
          · rw [h3] at e2
            exact absurd e2 hs
          · exact Or.inr ⟨i, h3, e2⟩

/-- After the marking loop of `PartitionNode`, a sector is marked in `usedSector` exactly
when a seg of the list belongs to it. -/
theorem mark_spec (b : Builder) (rSegs noSegs : Nat) (j : Nat) (hj : j < b.sectorCount) :
    ((PartitionNode.mark b rSegs noSegs).getD j 0 ≠ 0) ↔
      ∃ i, i < noSegs ∧ (b.seg (rSegs + i)).Sector = j := by
  unfold PartitionNode.mark
  have hlen : j < (blit b.scan.usedSector 0 (List.replicate b.sectorCount 0)).length := by
    simp [blit]
    omega
  rw [mark_fold (fun i => (b.seg (rSegs + i)).Sector) _ _ j hlen]
  have h0 : (blit b.scan.usedSector 0 (List.replicate b.sectorCount 0)).getD j 0 = 0 := by
    have := getD_blit_mid b.scan.usedSector (List.replicate b.sectorCount 0) 0 j 0
      (Nat.zero_le _) (by simpa using hj)
    rw [Nat.zero_add] at this
    rw [this]
    simp [List.getD_eq_getElem?_getD, List.getElem?_replicate, hj]
  rw [h0]
  constructor
  · rintro (h | ⟨i, hi, e⟩)
    · exact absurd rfl h
    · exact ⟨i, List.mem_range.mp hi, e⟩
  · rintro ⟨i, hi, e⟩
    exact Or.inr ⟨i, List.mem_range.mpr hi, e⟩

/-- The loop over the marked sectors leaves by `goto NonUnique` as soon as a marked
sector is to be kept unique, provided `noSectors` is the number of marked sectors still
ahead. -/
theorem nonUnique_spec (kU : List Bool) (U : List Nat) : ∀ (n i ns : Nat),
    ns = ((List.range' i n).filter (fun k => decide (U.getD k 0 ≠ 0))).length →
    (∃ j, i ≤ j ∧ j < i + n ∧ U.getD j 0 ≠ 0 ∧ kU.getD j false = true) →
    PartitionNode.nonUnique kU U n i ns = true := by
  intro n
  induction n with
  | zero =>
    intro i ns _ h
    obtain ⟨j, h1, h2, _⟩ := h
    omega
  | succ n ih =>
    intro i ns hns h
    obtain ⟨j, h1, h2, h3, h4⟩ := h
    rw [List.range'_succ, List.filter_cons] at hns
    simp only [PartitionNode.nonUnique]
    by_cases hu : U.getD i 0 ≠ 0
    · rw [if_pos (by simpa using hu)] at hns
      simp only [List.length_cons] at hns
      rw [if_neg (by omega), if_pos hu]
      by_cases hk : kU.getD i false = true
      · rw [if_pos hk]
      · rw [if_neg hk]
        apply ih (i + 1) (ns - 1) (by omega)
        refine ⟨j, ?_, by omega, h3, h4⟩
        by_contra hc
        have : j = i := by omega
        rw [this] at h4
        exact hk h4
    · rw [if_neg (by simpa using hu)] at hns
      have hne : ns ≠ 0 := by
        intro hz
        rw [hz] at hns
        have hnil := List.length_eq_zero.mp hns.symm
        have hj : j ∈ (List.range' (i + 1) n).filter (fun k => decide (U.getD k 0 ≠ 0)) := by
          apply List.mem_filter.mpr
          refine ⟨?_, by simpa using h3⟩
          rw [List.mem_range'_1]
          refine ⟨?_, by omega⟩
          by_contra hc
          have : j = i := by omega
          rw [this] at h3
          exact hu h3
        rw [hnil] at hj
        cases hj
      rw [if_neg hne, if_neg hu]
      apply ih (i + 1) ns hns
      refine ⟨j, ?_, by omega, h3, h4⟩
      by_contra hc
      have : j = i := by omega
      rw [this] at h3
      exact hu h3

theorem two_marked (p : Nat → Bool) (n s1 s2 : Nat) (h1 : s1 < n) (h2 : s2 < n)
    (hne : s1 ≠ s2) (p1 : p s1 = true) (p2 : p s2 = true) :
    1 < ((List.range n).filter p).length := by
  have m1 : s1 ∈ (List.range n).filter p :=
    List.mem_filter.mpr ⟨List.mem_range.mpr h1, p1⟩
  have m2 : s2 ∈ (List.range n).filter p :=
    List.mem_filter.mpr ⟨List.mem_range.mpr h2, p2⟩
  generalize (List.range n).filter p = l at m1 m2
  match l, m1, m2 with
  | [], m1, _ => cases m1
  | [a], m1, m2 =>
    rw [List.mem_singleton] at m1 m2
    exact absurd (m1.trans m2.symm) hne
  | _ :: _ :: _, _, _ => simp

theorem Unmixed_of_test (b : Builder) (rSegs noSegs : Nat)
    (hv : ∀ i, i < noSegs → (b.seg (rSegs + i)).Sector < b.sectorCount)
    (h : ¬ (1 < ((List.range b.sectorCount).filter
          (fun i => decide ((PartitionNode.mark b rSegs noSegs).getD i 0 ≠ 0))).length ∧
        PartitionNode.nonUnique b.keepUnique (PartitionNode.mark b rSegs noSegs) b.sectorCount 0
          ((List.range b.sectorCount).filter
            (fun i => decide ((PartitionNode.mark b rSegs noSegs).getD i 0 ≠ 0))).length
          = true)) :
    b.Unmixed rSegs noSegs := by
  by_contra hm
  apply h
  unfold Builder.Unmixed at hm
  push_neg at hm
  obtain ⟨⟨i, j, hi, hj, hne⟩, ⟨k, hk, hkU⟩⟩ := hm
  have used : ∀ i, i < noSegs →
      (PartitionNode.mark b rSegs noSegs).getD (b.seg (rSegs + i)).Sector 0 ≠ 0 :=
    fun i hi => (mark_spec b rSegs noSegs _ (hv i hi)).mpr ⟨i, hi, rfl⟩
  constructor
  · exact two_marked _ _ _ _ (hv i hi) (hv j hj) hne (by simpa using used i hi)
      (by simpa using used j hj)
  · apply nonUnique_spec _ _ _ 0 _ (by rw [List.range_eq_range'])
    refine ⟨(b.seg (rSegs + k)).Sector, Nat.zero_le _, by have := hv k hk; omega, used k hk, ?_⟩
    cases hc : b.keepUnique.getD (b.seg (rSegs + k)).Sector false
    · exact absurd hc hkU
    · rfl

theorem Unmixed_of_range (b b2 : Builder) (a n : Nat) (hk : b2.keepUnique = b.keepUnique)
    (hr : ∀ i, i < n → ∃ k, k < n ∧ b2.seg (a + i) = b.seg (a + k))
    (h : b.Unmixed a n) : b2.Unmixed a n := by
  rcases h with h | h
  · left
    intro i j hi hj
    obtain ⟨k1, hk1, e1⟩ := hr i hi
    obtain ⟨k2, hk2, e2⟩ := hr j hj
    rw [e1, e2]
    exact h k1 k2 hk1 hk2
  · right
    intro i hi
    obtain ⟨k1, hk1, e1⟩ := hr i hi
    rw [e1, hk]
    exact h k1 hk1

/-- The seg array across `PartitionNode`: the segs before the list stay, the array keeps
its length and its sectors, the number of segs stays within `maxSegs`; and when segs are
to be kept unique, `PartitionNode` returns `false` only on a list that does not mix a
keep-unique sector with another sector, and returns `true`, dividing the list by
`SortSectors`, when no partition is found in a list that does. -/
theorem PartitionNode_segs (pf : PartitionFn) (b : Builder) (node rSegs noSegs : Nat)
    (flag : Bool) (b2 : Builder) (nl nr : Nat)
    (h : PartitionNode pf b node rSegs noSegs = .ok (flag, b2, nl, nr))
    (hlen : b.segStart.length = b.maxSegs) (hcap : b.segCount ≤ b.maxSegs)
    (hin : rSegs + noSegs ≤ b.segCount) :
    SegStep rSegs b.segStart b2.segStart ∧ b2.segCount ≤ b2.maxSegs ∧
    (b.uniqueSubsectors = true → b.ValidSectors →
      (flag = false → b.Unmixed rSegs noSegs ∧ b2.Unmixed rSegs noSegs) ∧
      (∀ fl bc l r s, ChoosePartition pf b rSegs noSegs = .ok (fl, bc, l, r, s) → fl = false →
        ¬ b.Unmixed rSegs noSegs →
        flag = true ∧
        b2 = PartitionNode.finish
          (SortSectors (ComputeStaticVariables
            { bc with scan := { bc.scan with usedSector := PartitionNode.mark bc rSegs noSegs } }
            (bc.seg rSegs)) rSegs noSegs).1 node rSegs nl nr ∧
        nl = (SortSectors (ComputeStaticVariables
            { bc with scan := { bc.scan with usedSector := PartitionNode.mark bc rSegs noSegs } }
            (bc.seg rSegs)) rSegs noSegs).2.1 ∧
        nr = (SortSectors (ComputeStaticVariables
            { bc with scan := { bc.scan with usedSector := PartitionNode.mark bc rSegs noSegs } }
            (bc.seg rSegs)) rSegs noSegs).2.2)) := by
  unfold PartitionNode at h
  cases hc : ChoosePartition pf b rSegs noSegs with
  | error e =>
    rw [hc] at h
    cases h
  | ok res =>
    obtain ⟨cflag, b1, l1, r1, s1⟩ := res
    rw [hc] at h
    obtain ⟨c1, c2, c3⟩ := ChoosePartition_core pf b rSegs noSegs cflag b1 l1 r1 s1 hc
    have cs := ChoosePartition_step pf b rSegs noSegs cflag b1 l1 r1 s1 hc (by omega)
    simp only [Builder.core, Prod.mk.injEq] at c1
    obtain ⟨k1, k2, k3, k4, k5, k6, k7, k8, k9⟩ := c1
    have hku : b1.keepUnique = b.keepUnique := k5
    have hus : b1.uniqueSubsectors = b.uniqueSubsectors := k6
    have hsc : b1.sectorCount = b.sectorCount := k7
    have hms : b1.maxSegs = b.maxSegs := k8
    have hcn : b1.segCount = b.segCount := k9
    cases cflag with
    | false =>
      obtain ⟨_, hss⟩ := c3 rfl
      have hseg : ∀ i, b1.seg i = b.seg i := fun i => by simp only [Builder.seg, hss]
      have hUb : b1.Unmixed rSegs noSegs → b.Unmixed rSegs noSegs := fun hm =>
        Unmixed_of_range b1 b rSegs noSegs hku.symm (fun i hi => ⟨i, hi, (hseg _).symm⟩) hm
      simp only at h
      by_cases hu : b1.uniqueSubsectors = true
      · rw [if_pos hu] at h
        split_ifs at h with hnu hn
        · -- the list is divided by sector
          injection h with h
          injection h with h0 h
          injection h with h1 h
          injection h with h2 h3
          subst h0 h1 h2 h3
          have q := qsortSegs_step rSegs (SortBySector b1.keepUnique)
            (ComputeStaticVariables
              { b1 with scan := { b1.scan with
                usedSector := PartitionNode.mark b1 rSegs noSegs } } (b1.seg rSegs))
            rSegs noSegs (le_refl _) (by
              show rSegs + noSegs ≤ b1.segStart.length
              rw [hss]
              omega)
          refine ⟨?_, ?_, ?_⟩
          · rw [← hss]
            exact q.1
          · show b1.segCount ≤ b1.maxSegs
            omega
          · intro _ _
            refine ⟨(fun hf => by cases hf), ?_⟩
            intro fl bc l r s hcp hfl hmix
            injection hcp with hcp
            injection hcp with _ hcp
            injection hcp with hcp _
            subst hcp
            exact ⟨rfl, rfl, rfl, rfl⟩
        · injection h with h
          injection h with h0 h
          injection h with h1 h
          subst h0 h1
          have q := qsortSegs_step rSegs SortByLineDef
            { b1 with scan := { b1.scan with
                usedSector := PartitionNode.mark b1 rSegs noSegs } }
            rSegs noSegs (le_refl _) (by
              show rSegs + noSegs ≤ b1.segStart.length
              rw [hss]
              omega)
          refine ⟨?_, ?_, ?_⟩
          · rw [← hss]
            exact q.1
          · show b1.segCount ≤ b1.maxSegs
            omega
          · intro _ hval
            have hm1 : b1.Unmixed rSegs noSegs := by
              apply Unmixed_of_test
              · intro i _
                rw [hseg, hsc]
                exact hval _
              · exact fun hab => hnu ⟨hu, hab⟩
            refine ⟨fun _ => ⟨hUb hm1, ?_⟩, ?_⟩
            · exact Unmixed_of_range b1 _ rSegs noSegs rfl q.2.1 hm1
            · intro fl bc l r s hcp hfl hmix
              exact absurd (hUb hm1) hmix
        · injection h with h
          injection h with h0 h
          injection h with h1 h
          subst h0 h1
          refine ⟨?_, ?_, ?_⟩
          · rw [← hss]
            exact SegStep_refl _ _
          · show b1.segCount ≤ b1.maxSegs
            omega
          · intro _ hval
            have hm1 : b1.Unmixed rSegs noSegs := by
              apply Unmixed_of_test
              · intro i _
                rw [hseg, hsc]
                exact hval _
              · exact fun hab => hnu ⟨hu, hab⟩
            refine ⟨fun _ => ⟨hUb hm1, ?_⟩, ?_⟩
            · exact Unmixed_of_range b1 _ rSegs noSegs rfl (fun i hi => ⟨i, hi, rfl⟩) hm1
            · intro fl bc l r s hcp hfl hmix
              exact absurd (hUb hm1) hmix
      · have hu2 : b1.uniqueSubsectors = false := by
          cases h0 : b1.uniqueSubsectors
          · rfl
          · exact absurd h0 hu
        simp only [hu2, Bool.false_eq_true, if_false, false_and] at h
        split_ifs at h with hn
        · injection h with h
          injection h with h0 h
          injection h with h1 h
          subst h0 h1
          have q := qsortSegs_step rSegs SortByLineDef b1 rSegs noSegs (le_refl _) (by
              rw [hss]
              omega)
          refine ⟨?_, ?_, ?_⟩
          · rw [← hss]
            exact q.1
          · show b1.segCount ≤ b1.maxSegs
            omega
          · intro hub
            rw [← hus, hu2] at hub
            cases hub
        · injection h with h
          injection h with h0 h
          injection h with h1 h
          subst h0 h1
          refine ⟨cs, by omega, ?_⟩
          intro hub
          rw [← hus, hu2] at hub
          cases hub
    | true =>
      simp only at h
      have hnotfalse : ∀ fl bc l r s, ChoosePartition pf b rSegs noSegs = .ok (fl, bc, l, r, s) →
          fl = false → False := by
        intro fl bc l r s hcp hfl
        rw [hc] at hcp
        injection hcp with hcp
        injection hcp with hcp _
        rw [← hcp] at hfl
        cases hfl
      split_ifs at h with hsp
      · cases hsplit : SplitSegs b1 (rSegs + r1) s1 with
        | error e =>
          rw [hsplit] at h
          cases h
        | ok b3 =>
          rw [hsplit] at h
          simp only at h
          injection h with h
          injection h with h0 h
          injection h with h1 h
          subst h0 h1
          obtain ⟨t1, t2⟩ := SplitSegs_step b1 (rSegs + r1) s1 b3 hsplit
            (by rw [cs.1, hms, hlen]) (by omega)
          have hc3 := SplitSegs_core _ _ _ _ hsplit
          have hm3 : b3.maxSegs = b1.maxSegs := by
            have := congrArg (fun c => c.2.2.2.2.2.2.2.1) hc3
            exact this
          refine ⟨?_, ?_, ?_⟩
          · exact SegStep_trans _ _ _ _ cs (SegStep_mono _ _ _ _ (by omega) t1)
          · show b3.segCount ≤ b3.maxSegs
            omega
          · intro _ _
            exact ⟨(fun hf => by cases hf), fun fl bc l r s hcp hfl _ =>
              (hnotfalse fl bc l r s (hc.trans hcp) hfl).elim⟩
      · injection h with h
        injection h with h0 h
        injection h with h1 h
        subst h0 h1
        refine ⟨cs, ?_, ?_⟩
        · show b1.segCount ≤ b1.maxSegs
          omega
        · intro _ _
          exact ⟨(fun hf => by cases hf), fun fl bc l r s hcp hfl _ =>
            (hnotfalse fl bc l r s (hc.trans hcp) hfl).elim⟩

theorem valid_iff (b : Builder) : b.ValidSectors ↔ SegsValid b.sectorCount b.segStart := by
  constructor
  · intro h
    constructor
    · have := h b.segStart.length
      simp only [Builder.seg] at this
      rw [List.getD_eq_default _ _ (le_refl _)] at this
      exact lt_of_le_of_lt (Nat.zero_le _) this
    · intro s hs
      obtain ⟨k, hk, e⟩ := List.getElem_of_mem hs
      have := h k
      simp only [Builder.seg] at this
      rw [List.getD_eq_getElem _ _ hk, e] at this
      exact this
  · intro h i
    exact valid_getD _ _ i h

theorem Unmixed_frame (b b2 : Builder) (a n hi : Nat) (hk : b2.keepUnique = b.keepUnique)
    (hf : ∀ i, i < hi → b2.seg i = b.seg i) (hle : a + n ≤ hi)
    (h : b.Unmixed a n) : b2.Unmixed a n :=
  Unmixed_of_range b b2 a n hk (fun i hlt => ⟨i, hlt, hf _ (by omega)⟩) h

/-- The segs across one call of `CreateNode` when segs are to be kept unique: the segs
before the list stay as they are, and every subsector the call emits lies in the list
and does not mix a keep-unique sector with another sector. -/
theorem CreateNode_unmixed (pf : PartitionFn) : ∀ (fuel : Nat) (b : Builder)
    (prev : Option Nat) (rSegs noSegs : Nat) (r : Builder × Nat × Nat × Nat),
    CreateNode pf fuel b prev rSegs noSegs = .ok r →
    b.uniqueSubsectors = true → b.ValidSectors → b.segStart.length = b.maxSegs →
    b.segCount ≤ b.maxSegs → rSegs + noSegs ≤ b.segCount →
    SegStep rSegs b.segStart r.1.segStart ∧ r.1.maxSegs = b.maxSegs ∧
    r.1.segCount ≤ r.1.maxSegs ∧ r.1.keepUnique = b.keepUnique ∧
    r.1.uniqueSubsectors = true ∧ r.1.sectorCount = b.sectorCount ∧
    ∃ new, r.1.ssectorPool = b.ssectorPool ++ new ∧
      ∀ s ∈ new, ∃ a m, rSegs ≤ a ∧ a + m ≤ rSegs + r.2.2.1 ∧
        s.first = toUSHORT a ∧ s.num = toUSHORT m ∧ r.1.Unmixed a m := by
  intro fuel
  induction fuel with
  | zero =>
    intro b prev rSegs noSegs r h
    simp only [CreateNode] at h
    cases h
  | succ fuel ih =>
    intro b prev rSegs noSegs r h hu hval hlen hcap hin
    obtain ⟨_, hc⟩ := CreateNode_cases pf fuel b prev rSegs noSegs r h
    obtain ⟨e1, e2, _, _, e5, e6, e7, e8, e9⟩ := enter_core b prev
    have leaf_case : ∀ (b1 : Builder), b1.ssectorPool = b.ssectorPool →
        SegStep rSegs b.segStart b1.segStart → b1.maxSegs = b.maxSegs →
        b1.segCount ≤ b1.maxSegs → b1.keepUnique = b.keepUnique →
        b1.uniqueSubsectors = true → b1.sectorCount = b.sectorCount →
        b1.Unmixed rSegs noSegs →
        CreateNode.leaf b1 b.nodePool.length b.scan.convexList.length rSegs noSegs = .ok r →
        SegStep rSegs b.segStart r.1.segStart ∧ r.1.maxSegs = b.maxSegs ∧
        r.1.segCount ≤ r.1.maxSegs ∧ r.1.keepUnique = b.keepUnique ∧
        r.1.uniqueSubsectors = true ∧ r.1.sectorCount = b.sectorCount ∧
        ∃ new, r.1.ssectorPool = b.ssectorPool ++ new ∧
          ∀ s ∈ new, ∃ a m, rSegs ≤ a ∧ a + m ≤ rSegs + r.2.2.1 ∧
            s.first = toUSHORT a ∧ s.num = toUSHORT m ∧ r.1.Unmixed a m := by
      intro b1 hp hst hm hc1 hk hu1 hs1 hmix hl
      obtain ⟨_, hr⟩ := leaf_ok _ _ _ _ _ _ hl
      rw [hr]
      refine ⟨hst, hm, hc1, hk, hu1, hs1, [⟨toUSHORT noSegs, toUSHORT rSegs⟩], ?_, ?_⟩
      · show b1.ssectorPool ++ _ = _
        rw [hp]
      · intro s hs
        rw [List.mem_singleton] at hs
        rw [hs]
        exact ⟨rSegs, noSegs, le_refl _, le_refl _, rfl, rfl,
          Unmixed_of_range b1 _ rSegs noSegs rfl (fun i hi => ⟨i, hi, rfl⟩) hmix⟩
    rcases hc with ⟨hle1, hl⟩ | ⟨_, b2, nl, nr, hp, hl⟩ |
      ⟨_, b2, nl, nr, b3, rNode, nr2, lSegs, b4, lNode, nl2, x, hp, hr, hl, hres⟩
    · apply leaf_case _ e1 (by rw [e5]; exact SegStep_refl _ _) e9 (by rw [e2, e9]; exact hcap)
        e6 (by rw [e7]; exact hu) e8 _ hl
      left
      intro i j hi hj
      have : i = j := by omega
      rw [this]
    · obtain ⟨p1, _, _, p4, p5, p6, p7, _, p9, _⟩ := PartitionNode_core pf _ _ _ _ _ _ _ _ hp
      obtain ⟨s1, s2, s3⟩ := PartitionNode_segs pf _ _ _ _ _ _ _ _ hp (by rw [e5, e9]; exact hlen)
        (by rw [e2, e9]; exact hcap) (by rw [e2]; exact hin)
      rw [e5] at s1
      have hvE : (CreateNode.enter b prev).ValidSectors := by
        rw [valid_iff, e5, e8]
        exact (valid_iff b).mp hval
      obtain ⟨s4, _⟩ := s3 (by rw [e7]; exact hu) hvE
      exact leaf_case b2 (by rw [p1, e1]) s1 (by rw [p7, e9]) s2 (by rw [p4, e6])
        (by rw [p5, e7]; exact hu) (by rw [p6, e8]) (s4 rfl).2 hl
    · obtain ⟨p1, _, _, p4, p5, p6, p7, p8, _, _⟩ := PartitionNode_core pf _ _ _ _ _ _ _ _ hp
      have p8 := p8 rfl
      rw [e2] at p8
      obtain ⟨s1, s2, _⟩ := PartitionNode_segs pf _ _ _ _ _ _ _ _ hp (by rw [e5, e9]; exact hlen)
        (by rw [e2, e9]; exact hcap) (by rw [e2]; exact hin)
      rw [e5] at s1
      have hv2 : b2.ValidSectors := by
        rw [valid_iff, p6, e8]
        exact s1.2.2 _ ((valid_iff b).mp hval)
      have hm2 : b2.maxSegs = b.maxSegs := by rw [p7, e9]
      have hl2 : b2.segStart.length = b2.maxSegs := by rw [s1.1, hm2, hlen]
      obtain ⟨t1, t2, _⟩ := CreateNode_tiles pf _ _ _ _ _ _ hr
      obtain ⟨u1, u2, _⟩ := CreateNode_tiles pf _ _ _ _ _ _ hl
      have a1 : (CreateNode.mark b2 b.scan.convexList.length).segCount = b2.segCount := rfl
      have a2 : (CreateNode.setChild0 b3 b.nodePool.length rNode).segCount = b3.segCount := rfl
      simp only at t1 t2 u1 u2
      rw [a1] at t2
      rw [a2] at u2
      obtain ⟨r1, r2, r3, r4, r5, r6, newR, r7, r8⟩ := ih _ _ _ _ _ hr
        (by show b2.uniqueSubsectors = true; rw [p5, e7]; exact hu) hv2 hl2 s2
        (by show rSegs + nr ≤ b2.segCount; omega)
      simp only at r1 r2 r3 r4 r5 r6 r7 r8
      have m1 : (CreateNode.mark b2 b.scan.convexList.length).segStart = b2.segStart := rfl
      have m2 : (CreateNode.mark b2 b.scan.convexList.length).maxSegs = b2.maxSegs := rfl
      have m3 : (CreateNode.mark b2 b.scan.convexList.length).keepUnique = b2.keepUnique := rfl
      have m4 : (CreateNode.mark b2 b.scan.convexList.length).sectorCount = b2.sectorCount := rfl
      have m5 : (CreateNode.mark b2 b.scan.convexList.length).ssectorPool = b2.ssectorPool := rfl
      rw [m1] at r1
      rw [m2] at r2
      rw [m3] at r4
      rw [m4] at r6
      rw [m5] at r7
      have hv3 : b3.ValidSectors := by
        rw [valid_iff, r6]
        exact r1.2.2 _ ((valid_iff b2).mp hv2)
      obtain ⟨l1, l2, l3, l4, l5, l6, newL, l7, l8⟩ := ih _ _ _ _ _ hl
        (by show b3.uniqueSubsectors = true; exact r5) hv3
        (by show b3.segStart.length = b3.maxSegs; rw [r1.1, r2, hl2])
        (by show b3.segCount ≤ b3.maxSegs; exact r3)
        (by show lSegs + nl ≤ b3.segCount; omega)
      simp only at l1 l2 l3 l4 l5 l6 l7 l8
      have n1 : (CreateNode.setChild0 b3 b.nodePool.length rNode).segStart = b3.segStart := rfl
      have n2 : (CreateNode.setChild0 b3 b.nodePool.length rNode).maxSegs = b3.maxSegs := rfl
      have n3 : (CreateNode.setChild0 b3 b.nodePool.length rNode).keepUnique = b3.keepUnique := rfl
      have n4 : (CreateNode.setChild0 b3 b.nodePool.length rNode).sectorCount = b3.sectorCount := rfl
      have n5 : (CreateNode.setChild0 b3 b.nodePool.length rNode).ssectorPool = b3.ssectorPool := rfl
      rw [n1] at l1
      rw [n2] at l2
      rw [n3] at l4
      rw [n4] at l6
      rw [n5] at l7
      rw [hres]
      have hle : rSegs ≤ lSegs := by omega
      refine ⟨?_, ?_, ?_, ?_, ?_, ?_, newR ++ newL, ?_, ?_⟩
      · show SegStep rSegs b.segStart b4.segStart
        exact SegStep_trans _ _ _ _ s1 (SegStep_trans _ _ _ _ r1 (SegStep_mono _ _ _ _ hle l1))
      · show b4.maxSegs = b.maxSegs
        rw [l2, r2, hm2]
      · show b4.segCount ≤ b4.maxSegs
        exact l3
      · show b4.keepUnique = b.keepUnique
        rw [l4, r4, p4, e6]
      · show b4.uniqueSubsectors = true
        exact l5
      · show b4.sectorCount = b.sectorCount
        rw [l6, r6, p6, e8]
      · show b4.ssectorPool = _
        rw [l7, r7, p1, e1, List.append_assoc]
      · intro s hs
        rcases List.mem_append.mp hs with hs | hs
        · obtain ⟨a, m, q1, q2, q3, q4, q5⟩ := r8 s hs
          refine ⟨a, m, q1, by show a + m ≤ rSegs + (nl2 + nr2); omega, q3, q4, ?_⟩
          have : b4.Unmixed a m :=
            Unmixed_frame b3 b4 a m lSegs l4 (fun i hi => l1.2.1 i hi) (by omega) q5
          exact Unmixed_of_range b4 _ a m rfl (fun i hi => ⟨i, hi, rfl⟩) this
        · obtain ⟨a, m, q1, q2, q3, q4, q5⟩ := l8 s hs
          refine ⟨a, m, by omega, by show a + m ≤ rSegs + (nl2 + nr2); omega, q3, q4, ?_⟩
          exact Unmixed_of_range b4 _ a m rfl (fun i hi => ⟨i, hi, rfl⟩) q5

theorem twoSectorRoom_builds :
    CreateNode Algorithm1 10 twoSectorRoom none 0 twoSectorRoom.segCount
      = .ok twoSectorBuilt := by
  have h : (CreateNode Algorithm1 10 twoSectorRoom none 0 twoSectorRoom.segCount).toOption.isSome
      = true := by decide
  unfold twoSectorBuilt
  cases hc : CreateNode Algorithm1 10 twoSectorRoom none 0 twoSectorRoom.segCount with
  | ok r => rfl
  | error e =>
    rw [hc] at h
    cases h

theorem twoSectorRoom_splits :
    PartitionNode Algorithm1 (CreateNode.enter twoSectorRoom none) 0 0 4
      = .ok (twoSectorSplit.1, twoSectorSplit.2.1, twoSectorSplit.2.2.1, twoSectorSplit.2.2.2) := by
  have h : (PartitionNode Algorithm1 (CreateNode.enter twoSectorRoom none) 0 0 4).toOption.isSome
      = true := by decide
  unfold twoSectorSplit
  cases hc : PartitionNode Algorithm1 (CreateNode.enter twoSectorRoom none) 0 0 4 with
  | ok r => rfl
  | error e =>
    rw [hc] at h
    cases h

theorem twoSectorRoom_valid : (CreateNode.enter twoSectorRoom none).ValidSectors ∧
    twoSectorRoom.ValidSectors :=
  ⟨(valid_iff _).mpr ⟨by decide, by decide⟩, (valid_iff _).mpr ⟨by decide, by decide⟩⟩

/-- C5.  With `uniqueSubsectors` set (a `keepUnique` array was supplied), after a build by
`CreateNode` over the full seg list (any partition function, the seg array of `maxSegs`
entries with sector numbers below `sectorCount`, the final `segCount` fitting in 16
bits), no subsector mixes a keep-unique sector with another sector: its segs all belong
to one sector, or none of their sectors is marked in `keepUnique`.  This is so because
`PartitionNode` returns `false` (the leaf path) only on a list of that kind; when no
partition is found in a list that mixes a keep-unique sector with another sector, it
returns `true` with the division of the list made by `SortSectors`, on which
`CreateNode` recurses. -/
theorem keepUnique_unmixed (pf : PartitionFn) (fuel : Nat) (b : Builder)
    (r : Builder × Nat × Nat × Nat)
    (hfresh : b.ssectorPool = []) (hu : b.uniqueSubsectors = true) (hval : b.ValidSectors)
    (hlen : b.segStart.length = b.maxSegs) (hcap : b.segCount ≤ b.maxSegs)
    (hbuild : CreateNode pf fuel b none 0 b.segCount = .ok r) (h16 : r.1.segCount < 65536) :
    (∀ s ∈ r.1.ssectorPool, r.1.Unmixed s.first s.num) ∧
    (∀ (b1 : Builder) (node rSegs noSegs : Nat) (flag : Bool) (b2 : Builder) (nl nr : Nat),
      b1.uniqueSubsectors = true → b1.ValidSectors → b1.segStart.length = b1.maxSegs →
      b1.segCount ≤ b1.maxSegs → rSegs + noSegs ≤ b1.segCount →
      PartitionNode pf b1 node rSegs noSegs = .ok (flag, b2, nl, nr) →
      (flag = false → b1.Unmixed rSegs noSegs) ∧
      (∀ fl bc l r s, ChoosePartition pf b1 rSegs noSegs = .ok (fl, bc, l, r, s) → fl = false →
        ¬ b1.Unmixed rSegs noSegs →
        flag = true ∧
        b2 = PartitionNode.finish
          (SortSectors (ComputeStaticVariables
            { bc with scan := { bc.scan with usedSector := PartitionNode.mark bc rSegs noSegs } }
            (bc.seg rSegs)) rSegs noSegs).1 node rSegs nl nr ∧
        nl = (SortSectors (ComputeStaticVariables
            { bc with scan := { bc.scan with usedSector := PartitionNode.mark bc rSegs noSegs } }
            (bc.seg rSegs)) rSegs noSegs).2.1 ∧
        nr = (SortSectors (ComputeStaticVariables
            { bc with scan := { bc.scan with usedSector := PartitionNode.mark bc rSegs noSegs } }
            (bc.seg rSegs)) rSegs noSegs).2.2)) := by
  constructor
  · obtain ⟨_, _, _, _, _, _, new, h7, h8⟩ :=
      CreateNode_unmixed pf fuel b none 0 b.segCount r hbuild hu hval hlen hcap (by omega)
    obtain ⟨_, t2, _⟩ := CreateNode_tiles pf fuel b none 0 b.segCount r hbuild
    rw [hfresh, List.nil_append] at h7
    intro s hs
    rw [h7] at hs
    obtain ⟨a, m, _, q2, q3, q4, q5⟩ := h8 s hs
    have ha : toUSHORT a = a := toUSHORT_of_lt (by omega)
    have hm : toUSHORT m = m := toUSHORT_of_lt (by omega)
    rw [q3, q4, ha, hm]
    exact q5
  · intro b1 node rSegs noSegs flag b2 nl nr h1 h2 h3 h4 h5 hp
    obtain ⟨_, _, s3⟩ := PartitionNode_segs pf b1 node rSegs noSegs flag b2 nl nr hp h3 h4 h5
    obtain ⟨s4, s5⟩ := s3 h1 h2
    exact ⟨fun hf => (s4 hf).1, s5⟩

theorem keepUnique_unmixed_witness :
    (∀ s ∈ twoSectorBuilt.1.ssectorPool, twoSectorBuilt.1.Unmixed s.first s.num) ∧
    twoSectorBuilt.1.ssectorPool = [⟨2, 0⟩, ⟨2, 2⟩] ∧
    ¬ (CreateNode.enter twoSectorRoom none).Unmixed 0 4 ∧
    twoSectorSplit.1 = true ∧ twoSectorSplit.2.2.1 = 2 ∧ twoSectorSplit.2.2.2 = 2 := by
  have h := keepUnique_unmixed Algorithm1 10 twoSectorRoom twoSectorBuilt rfl rfl
    twoSectorRoom_valid.2 (by decide) (by decide) twoSectorRoom_builds (by decide)
  have hmix : ¬ (CreateNode.enter twoSectorRoom none).Unmixed 0 4 := by
    intro hm
    rcases hm with hm | hm
    · have := hm 0 2 (by decide) (by decide)
      revert this
      decide
    · have := hm 0 (by decide)
      revert this
      decide
  have hl := (h.2 (CreateNode.enter twoSectorRoom none) 0 0 4 _ _ _ _ rfl twoSectorRoom_valid.1
    (by decide) (by decide) (by decide) twoSectorRoom_splits)
  refine ⟨h.1, by decide, hmix, ?_, by decide, by decide⟩
  cases hcp : ChoosePartition Algorithm1 (CreateNode.enter twoSectorRoom none) 0 4 with
  | error e =>
    exfalso
    have : (ChoosePartition Algorithm1 (CreateNode.enter twoSectorRoom none) 0 4).toOption.isSome
        = true := by decide
    rw [hcp] at this
    cases this
  | ok res =>
    obtain ⟨fl, bc, l, r, s⟩ := res
    have hfl : fl = false := by
      have : (ChoosePartition Algorithm1 (CreateNode.enter twoSectorRoom none) 0 4).toOption.map
          (fun x => x.1) = some false := by decide
      rw [hcp] at this
      exact Option.some.inj this
    exact (hl.2 fl bc l r s hcp hfl hmix).1

/-! ## The claims on the sample maps -/

theorem FindBounds_tight_witness :
    (∀ i, i < 4 → dividedRoom.ShortEnds (0 + i)) ∧
    (FindBounds dividedRoom 0 4).minx ≤ (dividedRoom.vertS (0 + 2)).x ∧
    (∃ i, i < 4 ∧ ((FindBounds dividedRoom 0 4).maxy = (dividedRoom.vertS (0 + i)).y ∨
      (FindBounds dividedRoom 0 4).maxy = (dividedRoom.vertE (0 + i)).y)) := by
  have hs : ∀ i, i < 4 → dividedRoom.ShortEnds (0 + i) := by
    intro i hi
    interval_cases i <;> exact ⟨by decide, by decide, by decide, by decide⟩
  have h := FindBounds_tight dividedRoom 0 4 (by decide) hs
  exact ⟨hs, (h.1 2 (by decide)).1, h.2.2.2.2⟩

theorem AddVertex_contract_witness :
    IsSHORT 5 ∧ IsSHORT 7 ∧ IsSHORT 0 ∧ IsSHORT 512 ∧
    dividedRoom.maxVertices ≤ dividedRoom.newVertices.length ∧
    AddVertex dividedRoom 5 7 = .ok (dividedRoom.noVertices,
      { dividedRoom with newVertices := dividedRoom.newVertices.set dividedRoom.noVertices ⟨5, 7⟩,
                         noVertices := dividedRoom.noVertices + 1 }) ∧
    AddVertex dividedRoom 0 512 = .ok (4, dividedRoom) :=
  ⟨by decide, by decide, by decide, by decide, by decide,
    (AddVertex_contract dividedRoom 5 7 (by decide) (by decide) (by decide)).2.1
      (by decide) (by decide),
    (AddVertex_contract dividedRoom 0 512 (by decide) (by decide) (by decide)).1 4
      (by decide) (by decide) (by decide)⟩

theorem DivideSeg_abort_iff_witness :
    ∃ b2, DivideSeg (diagonalMap.setSeg 2 (diagonalMap.seg 1)) 1 2 = .ok b2 ∧
      (b2.seg 1).Data.start ≠ (b2.seg 1).Data.end_ ∧
      (b2.seg 2).Data.start ≠ (b2.seg 2).Data.end_ := by
  cases h : DivideSeg (diagonalMap.setSeg 2 (diagonalMap.seg 1)) 1 2 with
  | error e =>
    exfalso
    have hs : (DivideSeg (diagonalMap.setSeg 2 (diagonalMap.seg 1)) 1 2).toOption.isSome
        = true := by decide
    rw [h] at hs
    cases hs
  | ok b2 =>
    exact ⟨b2, rfl, (DivideSeg_abort_iff (diagonalMap.setSeg 2 (diagonalMap.seg 1)) 1 2
      (by decide) (by decide) (by decide) (by decide) (by decide)).2.2.2 b2 h⟩

theorem SplitSegs_layout_witness :
    ∃ b2, SplitSegs diagonalMap 1 1 = .ok b2 ∧ b2.segCount = diagonalMap.segCount + 1 ∧
      (∀ j, j < 1 → b2.seg j = diagonalMap.seg j) ∧
      (b2.seg (1 + 1 + 0)).Sector = (diagonalMap.seg (1 + 0)).Sector := by
  cases h : SplitSegs diagonalMap 1 1 with
  | error e =>
    exfalso
    have hs : (SplitSegs diagonalMap 1 1).toOption.isSome = true := by decide
    rw [h] at hs
    cases hs
  | ok b2 =>
    have hl := ((SplitSegs_layout diagonalMap 1 1 (by decide) (by decide)).2 (by decide)).2 b2 h
    obtain ⟨h1, h2, h3, _⟩ := hl
    obtain ⟨_, _, _, h4⟩ := h3 0 (by decide)
    exact ⟨b2, rfl, h1, h2, h4.2.2.2.2.2.2.2.2.2.2.1⟩

theorem splitPoint_near_line_witness :
    (diagonalMap.st.DX ≠ 0 ∨ diagonalMap.st.DY ≠ 0) ∧
    WhichSide diagonalMap (diagonalMap.seg 1) = SIDE_SPLIT ∧
    |diagonalMap.cross ⟨(diagonalMap.splitPoint 1).1, (diagonalMap.splitPoint 1).2⟩|
      ≤ diagonalMap.st.H_2 :=
  ⟨by decide, by decide,
    (splitPoint_near_line diagonalBase diagonalMap (diagonalBase.seg 0) 1 rfl (by decide)
      (by decide)).1⟩

theorem alias_shared_witness :
    ((GetLineDefAliases apartMap 3).1.aliasOf 0).index
      = ((GetLineDefAliases apartMap 3).1.aliasOf 2).index := by
  apply alias_shared apartMap 3 0 2 (by decide) (by decide) (by decide) (by decide) (by decide)
    (by decide) (by decide) (by decide)
  intro x h1 h2
  have e1 : (GetLineDefAliases.rounds apartMap 3 0).1.noAliases = 0 := by decide
  have e2 : (GetLineDefAliases.rounds apartMap 3 2).1.noAliases = 2 := by decide
  rw [e1] at h1
  rw [e2] at h2
  have : x = 1 := by omega
  subst this
  decide

/-! ## The classification by `_WhichSide` -/

/-- C15.  With `(y1, y2)` the labels that `_WhichSide` computes for the two ends of the
seg: the result is SPLIT exactly when both labels are non-zero with opposite signs, LEFT
exactly when both are `>= 0` and not both zero or both are zero and the angle of the seg
differs from `ANGLE`, RIGHT exactly when both are `<= 0` and not both zero or both are
zero and the angle of the seg is `ANGLE`; for a partition along an axis the labels are
the signed offsets of the two ends from the partition line; and the three results are
-1, 0 and +1. -/
theorem _WhichSide_by_labels (b : Builder) (seg : SEG) :
    (_WhichSide b seg = SIDE_SPLIT ↔
      ((_WhichSide.labels b seg).1 < 0 ∧ 0 < (_WhichSide.labels b seg).2) ∨
      (0 < (_WhichSide.labels b seg).1 ∧ (_WhichSide.labels b seg).2 < 0)) ∧
    (_WhichSide b seg = SIDE_LEFT ↔
      (0 ≤ (_WhichSide.labels b seg).1 ∧ 0 ≤ (_WhichSide.labels b seg).2 ∧
        ¬ ((_WhichSide.labels b seg).1 = 0 ∧ (_WhichSide.labels b seg).2 = 0)) ∨
      ((_WhichSide.labels b seg).1 = 0 ∧ (_WhichSide.labels b seg).2 = 0 ∧
        seg.Data.angle ≠ b.st.ANGLE)) ∧
    (_WhichSide b seg = SIDE_RIGHT ↔
      ((_WhichSide.labels b seg).1 ≤ 0 ∧ (_WhichSide.labels b seg).2 ≤ 0 ∧
        ¬ ((_WhichSide.labels b seg).1 = 0 ∧ (_WhichSide.labels b seg).2 = 0)) ∨
      ((_WhichSide.labels b seg).1 = 0 ∧ (_WhichSide.labels b seg).2 = 0 ∧
        seg.Data.angle = b.st.ANGLE)) ∧
    (b.st.DX = 0 → 0 < b.st.DY → _WhichSide.labels b seg
      = (b.st.X - (b.vertex seg.Data.start).x, b.st.X - (b.vertex seg.Data.end_).x)) ∧
    (b.st.DX = 0 → ¬ 0 < b.st.DY → _WhichSide.labels b seg
      = ((b.vertex seg.Data.start).x - b.st.X, (b.vertex seg.Data.end_).x - b.st.X)) ∧
    (b.st.DX ≠ 0 → b.st.DY = 0 → 0 < b.st.DX → _WhichSide.labels b seg
      = ((b.vertex seg.Data.start).y - b.st.Y, (b.vertex seg.Data.end_).y - b.st.Y)) ∧
    (b.st.DX ≠ 0 → b.st.DY = 0 → ¬ 0 < b.st.DX → _WhichSide.labels b seg
      = (b.st.Y - (b.vertex seg.Data.start).y, b.st.Y - (b.vertex seg.Data.end_).y)) ∧
    SIDE_LEFT = -1 ∧ SIDE_SPLIT = 0 ∧ SIDE_RIGHT = 1 := by
  refine ⟨?_, ?_, ?_, ?_, ?_, ?_, ?_, rfl, rfl, rfl⟩
  · unfold _WhichSide
    generalize _WhichSide.labels b seg = l
    obtain ⟨y1, y2⟩ := l
    simp only [SIDE_SPLIT, SIDE_LEFT, SIDE_RIGHT]
    split_ifs <;> constructor <;> intro h <;> first | omega | (exfalso; omega) | simp_all
  · unfold _WhichSide
    generalize _WhichSide.labels b seg = l
    obtain ⟨y1, y2⟩ := l
    simp only [SIDE_SPLIT, SIDE_LEFT, SIDE_RIGHT]
    split_ifs <;> constructor <;> intro h <;> first | omega | (exfalso; omega) | simp_all
  · unfold _WhichSide
    generalize _WhichSide.labels b seg = l
    obtain ⟨y1, y2⟩ := l
    simp only [SIDE_SPLIT, SIDE_LEFT, SIDE_RIGHT]
    split_ifs <;> constructor <;> intro h <;> first | omega | (exfalso; omega) | simp_all
  · intro h1 h2
    simp only [_WhichSide.labels, h1, if_true, gt_iff_lt, h2]
  · intro h1 h2
    simp only [_WhichSide.labels, h1, if_true, gt_iff_lt, h2, if_false]
  · intro h1 h2 h3
    simp only [_WhichSide.labels, h1, if_false, h2, if_true, gt_iff_lt, h3]
  · intro h1 h2 h3
    simp only [_WhichSide.labels, h1, if_false, h2, if_true, gt_iff_lt, h3]

theorem H_2_pos (b : Builder) (pSeg : SEG)
    (h : (ComputeStaticVariables b pSeg).st.DX ≠ 0 ∨ (ComputeStaticVariables b pSeg).st.DY ≠ 0) :
    0 < (ComputeStaticVariables b pSeg).st.H_2 := by
  obtain ⟨_, hH⟩ := statics_consistent b pSeg
  rw [hH]
  have : 1 ≤ isqrt ((ComputeStaticVariables b pSeg).st.DX.natAbs
      * (ComputeStaticVariables b pSeg).st.DX.natAbs
      + (ComputeStaticVariables b pSeg).st.DY.natAbs
        * (ComputeStaticVariables b pSeg).st.DY.natAbs) := by
    apply le_isqrt
    rcases h with h | h
    · have := Int.natAbs_pos.mpr h
      nlinarith
    · have := Int.natAbs_pos.mpr h
      nlinarith
  omega

theorem labels_offAxis (b : Builder) (seg : SEG) (hDX : b.st.DX ≠ 0) (hDY : b.st.DY ≠ 0) :
    _WhichSide.labels b seg =
      cleanLabels
        (rawLabel b.st.H_2 (b.cross (b.vertex seg.Data.start)) (b.cross (b.vertex seg.Data.end_))
          (IsZero b seg (b.vertex seg.Data.start) (b.cross (b.vertex seg.Data.start))))
        (rawLabel b.st.H_2 (b.cross (b.vertex seg.Data.end_)) (b.cross (b.vertex seg.Data.start))
          (IsZero b seg (b.vertex seg.Data.end_) (b.cross (b.vertex seg.Data.end_)))) := by
  simp only [_WhichSide.labels, hDX, hDY, if_false, cleanLabels, rawLabel, Builder.cross]

/-- A label -1 or +1 passes the three clean-up statements unchanged. -/
theorem cleanLabels_unit (y1 y2 : Int) :
    ((y1 = -1 ∨ y1 = 1) → (cleanLabels y1 y2).1 = y1) ∧
    ((y2 = -1 ∨ y2 = 1) → (cleanLabels y1 y2).2 = y2) := by
  unfold cleanLabels
  constructor
  · intro h
    simp only
    split_ifs <;> first | rfl | omega
  · intro h
    simp only
    split_ifs <;> first | rfl | omega

/-- C16, counterexample.  Against the partition from (0,0) to (4,4), for which `H_2` is
5, both ends of the seg from (2,0) to (4,0) have a cross product `t <= -H_2`, and
`_WhichSide` answers RIGHT, not LEFT; both ends of the seg from (0,2) to (0,4) have
`t >= H_2`, and `_WhichSide` answers LEFT, not RIGHT. -/
theorem below_the_line_is_right :
    slopeMap.st.DX ≠ 0 ∧ slopeMap.st.DY ≠ 0 ∧ slopeMap.st.H_2 = 5 ∧
    slopeMap.cross (slopeMap.vertS 1) ≤ -slopeMap.st.H_2 ∧
    slopeMap.cross (slopeMap.vertE 1) ≤ -slopeMap.st.H_2 ∧
    _WhichSide slopeMap (slopeMap.seg 1) = SIDE_RIGHT ∧
    _WhichSide slopeMap (slopeMap.seg 1) ≠ SIDE_LEFT ∧
    slopeMap.cross (slopeMap.vertS 2) ≥ slopeMap.st.H_2 ∧
    slopeMap.cross (slopeMap.vertE 2) ≥ slopeMap.st.H_2 ∧
    _WhichSide slopeMap (slopeMap.seg 2) = SIDE_LEFT ∧
    _WhichSide slopeMap (slopeMap.seg 2) ≠ SIDE_RIGHT := by
  decide

/-- C16, as amended.  For an off-axis partition (the variables being those
`ComputeStaticVariables` sets for a seg `pSeg` with `DX != 0` and `DY != 0`) and
`t = DX * ( vy - Y ) - DY * ( vx - X )`: an end point with `t <= -H_2` gets the label -1,
the label of the RIGHT side, and one with `t >= H_2` the label +1, the label of the LEFT
side; a seg whose two end points have `t <= -H_2` is RIGHT, and one whose two end points
have `t >= H_2` is LEFT. -/
theorem offAxis_sides (b bp : Builder) (pSeg seg : SEG)
    (hbp : bp = ComputeStaticVariables b pSeg) (hDX : bp.st.DX ≠ 0) (hDY : bp.st.DY ≠ 0) :
    (bp.cross (bp.vertex seg.Data.start) ≤ -bp.st.H_2 → (_WhichSide.labels bp seg).1 = -1) ∧
    (bp.cross (bp.vertex seg.Data.end_) ≤ -bp.st.H_2 → (_WhichSide.labels bp seg).2 = -1) ∧
    (bp.cross (bp.vertex seg.Data.start) ≥ bp.st.H_2 → (_WhichSide.labels bp seg).1 = 1) ∧
    (bp.cross (bp.vertex seg.Data.end_) ≥ bp.st.H_2 → (_WhichSide.labels bp seg).2 = 1) ∧
    (bp.cross (bp.vertex seg.Data.start) ≤ -bp.st.H_2 →
      bp.cross (bp.vertex seg.Data.end_) ≤ -bp.st.H_2 → _WhichSide bp seg = SIDE_RIGHT) ∧
    (bp.cross (bp.vertex seg.Data.start) ≥ bp.st.H_2 →
      bp.cross (bp.vertex seg.Data.end_) ≥ bp.st.H_2 → _WhichSide bp seg = SIDE_LEFT) := by
  have hpos : 0 < bp.st.H_2 := by
    rw [hbp]
    exact H_2_pos b pSeg (Or.inl (by rw [← hbp]; exact hDX))
  have hl := labels_offAxis bp seg hDX hDY
  generalize bp.cross (bp.vertex seg.Data.start) = t1 at hl ⊢
  generalize bp.cross (bp.vertex seg.Data.end_) = t2 at hl ⊢
  generalize IsZero bp seg (bp.vertex seg.Data.start) t1 = z1 at hl
  generalize IsZero bp seg (bp.vertex seg.Data.end_) t2 = z2 at hl
  generalize bp.st.H_2 = H at hl hpos ⊢
  have r1n : t1 ≤ -H → rawLabel H t1 t2 z1 = -1 := fun h => by
    unfold rawLabel
    rw [if_pos h]
  have r2n : t2 ≤ -H → rawLabel H t2 t1 z2 = -1 := fun h => by
    unfold rawLabel
    rw [if_pos h]
  have r1p : t1 ≥ H → rawLabel H t1 t2 z1 = 1 := fun h => by
    unfold rawLabel
    rw [if_neg (by omega), if_pos h]
  have r2p : t2 ≥ H → rawLabel H t2 t1 z2 = 1 := fun h => by
    unfold rawLabel
    rw [if_neg (by omega), if_pos h]
  have side : ∀ y1 y2 : Int, _WhichSide.labels bp seg = (y1, y2) →
      (y1 = -1 → y2 = -1 → _WhichSide bp seg = SIDE_RIGHT) ∧
      (y1 = 1 → y2 = 1 → _WhichSide bp seg = SIDE_LEFT) := by
    intro y1 y2 e
    unfold _WhichSide
    rw [e]
    constructor
    · intro e1 e2
      subst e1 e2
      simp
    · intro e1 e2
      subst e1 e2
      simp
  refine ⟨?_, ?_, ?_, ?_, ?_, ?_⟩
  · intro h1
    rw [hl, r1n h1]
    exact (cleanLabels_unit _ _).1 (Or.inl rfl)
  · intro h2
    rw [hl, r2n h2]
    exact (cleanLabels_unit _ _).2 (Or.inl rfl)
  · intro h1
    rw [hl, r1p h1]
    exact (cleanLabels_unit _ _).1 (Or.inr rfl)
  · intro h2
    rw [hl, r2p h2]
    exact (cleanLabels_unit _ _).2 (Or.inr rfl)
  · intro h1 h2
    apply (side (-1) (-1) _).1 rfl rfl
    rw [hl, r1n h1, r2n h2]
    rfl
  · intro h1 h2
    apply (side 1 1 _).2 rfl rfl
    rw [hl, r1p h1, r2p h2]
    rfl

theorem offAxis_sides_witness :
    slopeMap.st.DX ≠ 0 ∧ slopeMap.st.DY ≠ 0 ∧
    slopeMap.cross (slopeMap.vertex (slopeMap.seg 1).Data.start) ≤ -slopeMap.st.H_2 ∧
    slopeMap.cross (slopeMap.vertex (slopeMap.seg 1).Data.end_) ≤ -slopeMap.st.H_2 ∧
    _WhichSide slopeMap (slopeMap.seg 1) = SIDE_RIGHT :=
  ⟨by decide, by decide, by decide, by decide,
    (offAxis_sides slopeBase slopeMap (slopeBase.seg 0) (slopeMap.seg 1) rfl (by decide)
      (by decide)).2.2.2.2.1 (by decide) (by decide)⟩

/-! ## The variables of the partition -/

/-- C17, counterexample.  For the partition from (0,0) to (4,4), `DX = DY = 4`, the stored
`H_2` is 5, the integer part of the length of the partition, while `DX^2 + DY^2` is
32. -/
theorem H_2_is_the_length :
    (ComputeStaticVariables slopeBase (slopeBase.seg 0)).st.DX = 4 ∧
    (ComputeStaticVariables slopeBase (slopeBase.seg 0)).st.DY = 4 ∧
    (ComputeStaticVariables slopeBase (slopeBase.seg 0)).st.H_2 = 5 ∧
    (ComputeStaticVariables slopeBase (slopeBase.seg 0)).st.H_2 ≠
      (ComputeStaticVariables slopeBase (slopeBase.seg 0)).st.DX ^ 2
        + (ComputeStaticVariables slopeBase (slopeBase.seg 0)).st.DY ^ 2 := by
  decide

/-- C17, as amended.  For every partition seg, with start `(xS, yS)` and end `(xE, yE)`,
`ComputeStaticVariables` stores `X = xS`, `Y = yS`, `DX = xE - xS`, `DY = yE - yS`,
`C = yE * xS - xE * yS` and the tolerance `H_2 = floor ( sqrt ( DX^2 + DY^2 ))`, the
integer part of the length of the partition: `H_2^2 <= DX^2 + DY^2 < (H_2 + 1)^2`. -/
theorem statics_stored (b : Builder) (pSeg : SEG) :
    (ComputeStaticVariables b pSeg).st.X = (b.vertex pSeg.Data.start).x ∧
    (ComputeStaticVariables b pSeg).st.Y = (b.vertex pSeg.Data.start).y ∧
    (ComputeStaticVariables b pSeg).st.DX
      = (b.vertex pSeg.Data.end_).x - (b.vertex pSeg.Data.start).x ∧
    (ComputeStaticVariables b pSeg).st.DY
      = (b.vertex pSeg.Data.end_).y - (b.vertex pSeg.Data.start).y ∧
    (ComputeStaticVariables b pSeg).st.C
      = (b.vertex pSeg.Data.end_).y * (b.vertex pSeg.Data.start).x
        - (b.vertex pSeg.Data.end_).x * (b.vertex pSeg.Data.start).y ∧
    (ComputeStaticVariables b pSeg).st.H_2
      = Nat.sqrt (((ComputeStaticVariables b pSeg).st.DX ^ 2
          + (ComputeStaticVariables b pSeg).st.DY ^ 2).toNat) ∧
    0 ≤ (ComputeStaticVariables b pSeg).st.H_2 ∧
    (ComputeStaticVariables b pSeg).st.H_2 ^ 2
      ≤ (ComputeStaticVariables b pSeg).st.DX ^ 2 + (ComputeStaticVariables b pSeg).st.DY ^ 2 ∧
    (ComputeStaticVariables b pSeg).st.DX ^ 2 + (ComputeStaticVariables b pSeg).st.DY ^ 2
      < ((ComputeStaticVariables b pSeg).st.H_2 + 1) ^ 2 := by
  obtain ⟨_, hH⟩ := statics_consistent b pSeg
  have hsq : (ComputeStaticVariables b pSeg).st.DX ^ 2 + (ComputeStaticVariables b pSeg).st.DY ^ 2
      = ((((ComputeStaticVariables b pSeg).st.DX.natAbs
            * (ComputeStaticVariables b pSeg).st.DX.natAbs
          + (ComputeStaticVariables b pSeg).st.DY.natAbs
            * (ComputeStaticVariables b pSeg).st.DY.natAbs : Nat)) : Int) := by
    push_cast
    rw [abs_mul_abs_self, abs_mul_abs_self]
    ring
  have h1 := isqrt_sq_le ((ComputeStaticVariables b pSeg).st.DX.natAbs
            * (ComputeStaticVariables b pSeg).st.DX.natAbs
          + (ComputeStaticVariables b pSeg).st.DY.natAbs
            * (ComputeStaticVariables b pSeg).st.DY.natAbs)
  have h2 := lt_isqrt_succ_sq ((ComputeStaticVariables b pSeg).st.DX.natAbs
            * (ComputeStaticVariables b pSeg).st.DX.natAbs
          + (ComputeStaticVariables b pSeg).st.DY.natAbs
            * (ComputeStaticVariables b pSeg).st.DY.natAbs)
  refine ⟨rfl, rfl, rfl, rfl, rfl, ?_, ?_, ?_, ?_⟩
  · rw [hsq, Int.toNat_natCast, ← isqrt_eq_sqrt]
    exact hH
  · rw [hH]
    exact Int.natCast_nonneg _
  · rw [hsq, hH]
    have : (isqrt ((ComputeStaticVariables b pSeg).st.DX.natAbs
            * (ComputeStaticVariables b pSeg).st.DX.natAbs
          + (ComputeStaticVariables b pSeg).st.DY.natAbs
            * (ComputeStaticVariables b pSeg).st.DY.natAbs) : Int) ^ 2
        = ((isqrt ((ComputeStaticVariables b pSeg).st.DX.natAbs
            * (ComputeStaticVariables b pSeg).st.DX.natAbs
          + (ComputeStaticVariables b pSeg).st.DY.natAbs
            * (ComputeStaticVariables b pSeg).st.DY.natAbs)
          * isqrt ((ComputeStaticVariables b pSeg).st.DX.natAbs
            * (ComputeStaticVariables b pSeg).st.DX.natAbs
          + (ComputeStaticVariables b pSeg).st.DY.natAbs
            * (ComputeStaticVariables b pSeg).st.DY.natAbs) : Nat) : Int) := by
      push_cast
      ring
    rw [this]
    exact_mod_cast h1
  · rw [hsq, hH]
    have : ((isqrt ((ComputeStaticVariables b pSeg).st.DX.natAbs
            * (ComputeStaticVariables b pSeg).st.DX.natAbs
          + (ComputeStaticVariables b pSeg).st.DY.natAbs
            * (ComputeStaticVariables b pSeg).st.DY.natAbs) : Int) + 1) ^ 2
        = (((isqrt ((ComputeStaticVariables b pSeg).st.DX.natAbs
            * (ComputeStaticVariables b pSeg).st.DX.natAbs
          + (ComputeStaticVariables b pSeg).st.DY.natAbs
            * (ComputeStaticVariables b pSeg).st.DY.natAbs) + 1)
          * (isqrt ((ComputeStaticVariables b pSeg).st.DX.natAbs
            * (ComputeStaticVariables b pSeg).st.DX.natAbs
          + (ComputeStaticVariables b pSeg).st.DY.natAbs
            * (ComputeStaticVariables b pSeg).st.DY.natAbs) + 1) : Nat) : Int) := by
      push_cast
      ring
    rw [this]
    exact_mod_cast h2

/-- C18.  For every partition (the variables being those `ComputeStaticVariables` stores
for a seg) and every point `v`: if the cross product `t = DX * ( vy - Y ) - DY * ( vx - X )`
satisfies `-H_2 < t < H_2`, then `t^2 < DX^2 + DY^2`, that is, the square of the distance
of the point from the line of the partition, `t^2 / (DX^2 + DY^2)`, is below 1. -/
theorem within_one_unit (b : Builder) (pSeg : SEG) (v : wVertex)
    (hlo : -(ComputeStaticVariables b pSeg).st.H_2 < (ComputeStaticVariables b pSeg).cross v)
    (hhi : (ComputeStaticVariables b pSeg).cross v < (ComputeStaticVariables b pSeg).st.H_2) :
    (ComputeStaticVariables b pSeg).cross v ^ 2
      < (ComputeStaticVariables b pSeg).st.DX ^ 2 + (ComputeStaticVariables b pSeg).st.DY ^ 2 ∧
    (((ComputeStaticVariables b pSeg).cross v : ℚ) ^ 2
      / (((ComputeStaticVariables b pSeg).st.DX : ℚ) ^ 2
          + ((ComputeStaticVariables b pSeg).st.DY : ℚ) ^ 2) < 1) := by
  obtain ⟨_, _, _, _, _, _, h0, h1, _⟩ := statics_stored b pSeg
  generalize (ComputeStaticVariables b pSeg).cross v = t at hlo hhi ⊢
  generalize (ComputeStaticVariables b pSeg).st.H_2 = H at hlo hhi h0 h1 ⊢
  generalize (ComputeStaticVariables b pSeg).st.DX = DX at h1 ⊢
  generalize (ComputeStaticVariables b pSeg).st.DY = DY at h1 ⊢
  have ht : t ^ 2 < H ^ 2 := by
    have : |t| < H := abs_lt.mpr ⟨hlo, hhi⟩
    have := sq_lt_sq' hlo hhi
    exact this
  have hlt : t ^ 2 < DX ^ 2 + DY ^ 2 := lt_of_lt_of_le ht h1
  refine ⟨hlt, ?_⟩
  have hpos : (0 : ℚ) < (DX : ℚ) ^ 2 + (DY : ℚ) ^ 2 := by
    have : (0 : Int) < DX ^ 2 + DY ^ 2 := lt_of_le_of_lt (sq_nonneg t) hlt
    exact_mod_cast this
  rw [div_lt_one hpos]
  exact_mod_cast hlt

theorem within_one_unit_witness :
    -slopeMap.st.H_2 < slopeMap.cross ⟨3, 2⟩ ∧ slopeMap.cross ⟨3, 2⟩ < slopeMap.st.H_2 ∧
    (ComputeStaticVariables slopeBase (slopeBase.seg 0)).cross ⟨3, 2⟩ ^ 2
      < (ComputeStaticVariables slopeBase (slopeBase.seg 0)).st.DX ^ 2
        + (ComputeStaticVariables slopeBase (slopeBase.seg 0)).st.DY ^ 2 :=
  ⟨by decide, by decide,
    (within_one_unit slopeBase (slopeBase.seg 0) ⟨3, 2⟩ (by decide) (by decide)).1⟩

/-! ## The rounded intersection -/

theorem IsZero_eq (b : Builder) (seg : SEG) (vert : wVertex) (side : Int) :
    IsZero b seg vert side =
      if b.detOf seg = 0 then 0
      else if (b.roundedOf seg).1 = vert.x ∧ (b.roundedOf seg).2 = vert.y then 0 else side := by
  rfl

/-- Outside the calls of `_WhichSide`: with `side = 0`, which `_WhichSide` never
passes, the value 0 of `IsZero` says nothing.  For the seg from (-2,2) to (1,-1), the
partition from (0,1) to (1,2) and the point (0,0), `IsZero` with `side = 0` returns 0
although `det` is 6 and the rounded intersection is (-1,1), not the point. -/
theorem IsZero_of_side_zero :
    IsZero diagonalMap (diagonalMap.seg 1) ⟨0, 0⟩ 0 = 0 ∧
    diagonalMap.detOf (diagonalMap.seg 1) = 6 ∧
    diagonalMap.roundedOf (diagonalMap.seg 1) = (-1, 1) ∧
    ¬ (diagonalMap.detOf (diagonalMap.seg 1) = 0 ∨
      ((diagonalMap.roundedOf (diagonalMap.seg 1)).1 = (⟨0, 0⟩ : wVertex).x ∧
       (diagonalMap.roundedOf (diagonalMap.seg 1)).2 = (⟨0, 0⟩ : wVertex).y)) := by
  decide

/-- C19.  `IsZero ( seg, vert, side )` returns 0 when `det = dx * DY - dy * DX` is 0 or
the rounded intersection of the line of `seg` with the partition line equals `vert` in
both coordinates, and returns `side` unchanged in every other case.  `_WhichSide`, the
only caller, passes as `side` a cross product `t1` or `t2` that it has found non-zero
(`( t1 == 0 ) || ( t2 == 0 ) ? 0 : IsZero ( .. )`), and for `side != 0` `IsZero` returns 0
if and only if `det` is 0 or the rounded intersection equals `vert`. -/
theorem IsZero_spec (b : Builder) (seg : SEG) (vert : wVertex) (side : Int) :
    ((b.detOf seg = 0 ∨
        ((b.roundedOf seg).1 = vert.x ∧ (b.roundedOf seg).2 = vert.y)) →
      IsZero b seg vert side = 0) ∧
    (¬ (b.detOf seg = 0 ∨
        ((b.roundedOf seg).1 = vert.x ∧ (b.roundedOf seg).2 = vert.y)) →
      IsZero b seg vert side = side) ∧
    (side ≠ 0 →
      (IsZero b seg vert side = 0 ↔
        (b.detOf seg = 0 ∨
          ((b.roundedOf seg).1 = vert.x ∧ (b.roundedOf seg).2 = vert.y)))) := by
  rw [IsZero_eq]
  refine ⟨?_, ?_, ?_⟩
  · rintro (h | h)
    · rw [if_pos h]
    · split_ifs <;> rfl
  · intro h
    push_neg at h
    rw [if_neg h.1, if_neg (fun hc => h.2 hc.1 hc.2)]
  · intro hs
    constructor
    · intro h
      by_contra hc
      push_neg at hc
      rw [if_neg hc.1, if_neg (fun hx => hc.2 hx.1 hx.2)] at h
      exact hs h
    · rintro (h | h)
      · rw [if_pos h]
      · split_ifs <;> rfl

/-- Two calls that `_WhichSide` makes for seg 1 of `steepMap`, whose ends have the cross
products 1 and -2 against the partition of length 3: for the start the rounded
intersection is the start itself and `IsZero` returns 0, for the end it is not and
`IsZero` returns the cross product -2. -/
theorem IsZero_spec_witness :
    steepMap.cross ⟨0, 1⟩ = 1 ∧ steepMap.cross ⟨1, 1⟩ = -2 ∧
    IsZero steepMap (steepMap.seg 1) ⟨0, 1⟩ 1 = 0 ∧
    IsZero steepMap (steepMap.seg 1) ⟨1, 1⟩ (-2) = -2 ∧
    (IsZero steepMap (steepMap.seg 1) ⟨1, 1⟩ (-2) = 0 ↔
      (steepMap.detOf (steepMap.seg 1) = 0 ∨
        ((steepMap.roundedOf (steepMap.seg 1)).1 = (⟨1, 1⟩ : wVertex).x ∧
         (steepMap.roundedOf (steepMap.seg 1)).2 = (⟨1, 1⟩ : wVertex).y))) :=
  ⟨by decide, by decide, by decide, by decide,
    (IsZero_spec steepMap (steepMap.seg 1) ⟨1, 1⟩ (-2)).2.2 (by decide)⟩

/-- C20, counterexample.  The line of the seg from (0,-1) to (-1,1) meets the partition
from (0,0) to (4,4) at (-1/3, -1/3).  `IsZero` and `DivideSeg` derive the point (0,0)
from it, while `floor ( v + 0.5 * sign ( v ))` is -1 for `v = -1/3`. -/
theorem rounding_is_not_floor :
    slopeMap.exactOf (slopeMap.seg 3) = (-1 / 3, -1 / 3) ∧
    slopeMap.roundedOf (slopeMap.seg 3) = (0, 0) ∧
    slopeMap.splitPoint 3 = (0, 0) ∧
    ⌊(slopeMap.exactOf (slopeMap.seg 3)).1
        + 1 / 2 * sgnQ (slopeMap.exactOf (slopeMap.seg 3)).1⌋ = -1 := by
  have h1 : slopeMap.numOf (slopeMap.seg 3) = (4, 4) := by decide
  have h2 : slopeMap.detOf (slopeMap.seg 3) = -12 := by decide
  have e : slopeMap.exactOf (slopeMap.seg 3) = (-1 / 3, -1 / 3) := by
    unfold Builder.exactOf
    rw [h1, h2]
    norm_num
  refine ⟨e, by decide, by decide, ?_⟩
  rw [e]
  have hs : sgnQ (-1 / 3 : ℚ) = -1 := by
    unfold sgnQ
    norm_num
  simp only [hs]
  rw [Int.floor_eq_iff]
  norm_num

/-- C20, as amended.  For the exact intersection `(x, y)` of the line of a seg with the
partition line (`det != 0`), the integers that `IsZero` compares with and that `DivideSeg`
passes to `AddVertex` are `v + 0.5 * sign ( v )` truncated toward zero for `v = x` and
`v = y`: `v` rounded to the nearest integer, halves away from zero.  This is
`floor ( v + 0.5 * sign ( v ))` for `v >= 0` and `ceil ( v + 0.5 * sign ( v ))` for
`v < 0`. -/
theorem rounding_truncates (b : Builder) (seg : SEG) (hdet : b.detOf seg ≠ 0) :
    (b.roundedOf seg).1
      = truncQ ((b.exactOf seg).1 + 1 / 2 * sgnQ (b.exactOf seg).1) ∧
    (b.roundedOf seg).2
      = truncQ ((b.exactOf seg).2 + 1 / 2 * sgnQ (b.exactOf seg).2) ∧
    (∀ vert side, IsZero b seg vert side =
      if (b.roundedOf seg).1 = vert.x ∧ (b.roundedOf seg).2 = vert.y then 0 else side) ∧
    (∀ i, b.seg i = seg → b.splitPoint i = b.roundedOf seg) ∧
    (∀ v : ℚ, 0 ≤ v → truncQ (v + 1 / 2 * sgnQ v) = ⌊v + 1 / 2 * sgnQ v⌋) ∧
    (∀ v : ℚ, v < 0 → truncQ (v + 1 / 2 * sgnQ v) = ⌈v + 1 / 2 * sgnQ v⌉) := by
  refine ⟨roundDiv_eq_truncQ _ _ hdet, roundDiv_eq_truncQ _ _ hdet, ?_, ?_, ?_, ?_⟩
  · intro vert side
    rw [IsZero_eq, if_neg hdet]
  · intro i hi
    rw [← hi]
    rfl
  · intro v hv
    have hs : 0 ≤ sgnQ v := by
      unfold sgnQ
      split_ifs <;> linarith
    unfold truncQ
    rw [if_pos (by linarith)]
  · intro v hv
    have hs : sgnQ v = -1 := by
      unfold sgnQ
      rw [if_pos hv]
    unfold truncQ
    rw [hs, if_neg (by linarith)]

theorem rounding_truncates_witness :
    slopeMap.detOf (slopeMap.seg 3) ≠ 0 ∧
    (slopeMap.roundedOf (slopeMap.seg 3)).1
      = truncQ ((slopeMap.exactOf (slopeMap.seg 3)).1
          + 1 / 2 * sgnQ (slopeMap.exactOf (slopeMap.seg 3)).1) :=
  ⟨by decide, (rounding_truncates slopeMap (slopeMap.seg 3) (by decide)).1⟩

/-! ## The segs of the linedefs -/

theorem vertex_eq_iff (v w : wVertex) : v = w ↔ (w.x - v.x = 0 ∧ w.y - v.y = 0) := by
  constructor
  · intro h
    rw [h]
    simp
  · intro h
    cases v
    cases w
    simp only [wVertex.mk.injEq]
    simp only at h
    omega

theorem CreateSegs_step_eq (atanBAM : Int → Int → Nat) (b : Builder) (level : DoomLevel)
    (options : sBSPOptions) (hred : options.reduceLineDefs = false) (segs : List SEG) (i : Nat)
    (hi : i < 65536) :
    CreateSegs.step atanBAM b level options segs i
      = segs ++ lineDefSegs atanBAM b level options i := by
  have hu : toUSHORT i = i := toUSHORT_of_lt hi
  have hv := vertex_eq_iff (b.vertex (level.lineDefs.getD i default).start)
    (b.vertex (level.lineDefs.getD i default).end_)
  unfold CreateSegs.step lineDefSegs
  simp only
  generalize level.lineDefs.getD i default = ld at hv ⊢
  generalize level.sideDefs.getD ld.sideDef0 default = sd0
  generalize level.sideDefs.getD ld.sideDef1 default = sd1
  generalize b.vertex ld.start = vS at hv ⊢
  generalize b.vertex ld.end_ = vE at hv ⊢
  generalize (match options.dontSplit with
    | some ds => ds.getD i false
    | none => false) = split
  by_cases hz : vE.x - vS.x = 0 ∧ vE.y - vS.y = 0
  · have hv2 := hv.mpr hz
    simp [hz, hv2]
  · have hv2 : ¬ vS = vE := fun h => hz (hv.mp h)
    cases hign : (match options.ignoreLineDef with
        | some ign => ign.getD i false
        | none => false)
    · by_cases h0 : ld.sideDef0 = NO_SIDEDEF <;>
        by_cases h1 : ld.sideDef1 = NO_SIDEDEF <;>
        simp [hz, hv2, h0, h1, hred, toUSHORT, Nat.mod_eq_of_lt hi]
    · by_cases h0 : ld.sideDef0 = NO_SIDEDEF <;>
        by_cases h1 : ld.sideDef1 = NO_SIDEDEF <;>
        simp [hz, hv2, h0, h1, hred, toUSHORT, Nat.mod_eq_of_lt hi]

theorem foldl_append_segs (f : Nat → List SEG) (step : List SEG → Nat → List SEG) :
    ∀ (l : List Nat) (acc : List SEG), (∀ i ∈ l, ∀ a, step a i = a ++ f i) →
      l.foldl step acc = acc ++ l.flatMap f := by
  intro l
  induction l with
  | nil =>
    intro acc _
    simp
  | cons x rest ih =>
    intro acc h
    simp only [List.foldl_cons, List.flatMap_cons]
    rw [h x (List.mem_cons_self _ _), ih _ (fun i hi a => h i (List.mem_cons_of_mem _ hi) a),
      List.append_assoc]

/-- C11.  With `reduceLineDefs` off (and at most 65536 linedefs, the range of the 16-bit
field `lineDef`), the segs that `CreateSegs` leaves in the array, `segCount` of them, are
the segs of the linedefs in ascending order of the linedefs: a linedef with coincident
end points or one flagged in `ignoreLineDef` yields none, any other linedef `i` yields
the seg of its right side, when present, as `(start, end, angle, lineDef = i, flip = 0,
sector of sideDef[0])`, then the seg of its left side, when present, as `(end, start,
angle + BAM180 mod 2^16, lineDef = i, flip = 1, sector of sideDef[1])`, both with
`noSplit = dontSplit[i]` (false without the array).  Every seg has `start != end`, and a
linedef with both sides yields its two segs with flips 0 and 1. -/
theorem CreateSegs_order (atanBAM : Int → Int → Nat) (b : Builder) (level : DoomLevel)
    (options : sBSPOptions) (hred : options.reduceLineDefs = false)
    (hn : level.lineDefs.length ≤ 65536) :
    (CreateSegs atanBAM b level options).segStart.take
        (CreateSegs atanBAM b level options).segCount
      = (List.range level.lineDefs.length).flatMap (lineDefSegs atanBAM b level options) ∧
    (∀ i, i < (CreateSegs atanBAM b level options).segCount →
      ((CreateSegs atanBAM b level options).seg i).Data.start
        ≠ ((CreateSegs atanBAM b level options).seg i).Data.end_) ∧
    (∀ i, i < level.lineDefs.length →
      b.vertex (level.lineDefs.getD i default).start
        ≠ b.vertex (level.lineDefs.getD i default).end_ →
      (match options.ignoreLineDef with
        | some ign => ign.getD i false
        | none => false) = false →
      (level.lineDefs.getD i default).sideDef0 ≠ NO_SIDEDEF →
      (level.lineDefs.getD i default).sideDef1 ≠ NO_SIDEDEF →
      ∃ r l, lineDefSegs atanBAM b level options i = [r, l] ∧
        r.Data.flip = 0 ∧ l.Data.flip = 1 ∧ r.Data.lineDef = i ∧ l.Data.lineDef = i ∧
        l.Data.start = r.Data.end_ ∧ l.Data.end_ = r.Data.start) := by
  have hfold : (List.range level.lineDefs.length).foldl
      (CreateSegs.step atanBAM b level options) []
      = (List.range level.lineDefs.length).flatMap (lineDefSegs atanBAM b level options) := by
    rw [foldl_append_segs (lineDefSegs atanBAM b level options)]
    · simp
    · intro i hi a
      exact CreateSegs_step_eq atanBAM b level options hred a i
        (by have := List.mem_range.mp hi; omega)
  have htake : (CreateSegs atanBAM b level options).segStart.take
        (CreateSegs atanBAM b level options).segCount
      = (List.range level.lineDefs.length).flatMap (lineDefSegs atanBAM b level options) := by
    simp only [CreateSegs, hfold]
    rw [List.take_left']
    rfl
  have hne : ∀ s ∈ (List.range level.lineDefs.length).flatMap
      (lineDefSegs atanBAM b level options), s.Data.start ≠ s.Data.end_ := by
    intro s hs he
    obtain ⟨i, _, hs2⟩ := List.mem_flatMap.mp hs
    unfold lineDefSegs at hs2
    simp only at hs2
    by_cases h1 : b.vertex (level.lineDefs.getD i default).start
          = b.vertex (level.lineDefs.getD i default).end_ ∨
        (match options.ignoreLineDef with
          | some ign => ign.getD i false
          | none => false) = true
    · rw [if_pos h1] at hs2
      cases hs2
    · rw [if_neg h1] at hs2
      push_neg at h1
      rcases List.mem_append.mp hs2 with h | h
      · split_ifs at h
        · cases h
        · rw [List.mem_singleton] at h
          rw [h] at he
          simp only at he
          exact h1.1 (by rw [he])
      · split_ifs at h
        · cases h
        · rw [List.mem_singleton] at h
          rw [h] at he
          simp only at he
          exact h1.1 (by rw [he])
  refine ⟨htake, ?_, ?_⟩
  · intro i hi
    apply hne
    rw [← htake]
    have hlen : i < ((CreateSegs atanBAM b level options).segStart.take
        (CreateSegs atanBAM b level options).segCount).length := by
      rw [htake]
      have : (CreateSegs atanBAM b level options).segCount
          = ((List.range level.lineDefs.length).flatMap
              (lineDefSegs atanBAM b level options)).length := by
        simp only [CreateSegs, hfold]
      omega
    have e : (CreateSegs atanBAM b level options).seg i
        = ((CreateSegs atanBAM b level options).segStart.take
            (CreateSegs atanBAM b level options).segCount).get ⟨i, hlen⟩ := by
      simp only [Builder.seg, List.get_eq_getElem, List.getElem_take]
      rw [List.getD_eq_getElem]
    rw [e]
    exact List.get_mem _ _ _
  · intro i _ hv hign h0 h1
    unfold lineDefSegs
    simp only [hv, hign, Bool.false_eq_true, or_self, if_false, h0, h1]
    exact ⟨_, _, rfl, rfl, rfl, rfl, rfl, rfl, rfl⟩

theorem CreateSegs_order_witness :
    classicOptions.reduceLineDefs = false ∧
    (CreateSegs (fun _ _ => 0)
        (CreateNODES.init freshBuilder (hDividedRoom false true false false) classicOptions)
        (hDividedRoom false true false false) classicOptions).segCount = 6 ∧
    ∃ r l, lineDefSegs (fun _ _ => 0)
        (CreateNODES.init freshBuilder (hDividedRoom false true false false) classicOptions)
        (hDividedRoom false true false false) classicOptions 4 = [r, l] ∧
      r.Data.flip = 0 ∧ l.Data.flip = 1 ∧ r.Sector = 0 ∧ l.Sector = 1 :=
  ⟨rfl, by decide,
    (((CreateSegs_order (fun _ _ => 0)
        (CreateNODES.init freshBuilder (hDividedRoom false true false false) classicOptions)
        (hDividedRoom false true false false) classicOptions rfl (by decide)).2.2 4
        (by decide) (by decide) rfl (by decide) (by decide)).imp
      (fun r h => h.imp (fun l h => by
        obtain ⟨h1, h2, h3, _⟩ := h
        refine ⟨h1, h2, h3, ?_, ?_⟩
        · have : r = ([r, l] : List SEG).getD 0 default := rfl
          rw [this, ← h1]
          decide
        · have : l = ([r, l] : List SEG).getD 1 default := rfl
          rw [this, ← h1]
          decide)))⟩

/-! ## The H-divided room -/

theorem ok_of_isSome {α β : Type} [Inhabited α] [Inhabited β] (x : Except Halt (α × β))
    (h : x.toOption.isSome = true) :
    x = .ok ((x.toOption.getD default).1, (x.toOption.getD default).2) := by
  cases x with
  | ok r => rfl
  | error e => cases h

theorem hDividedRoom_runs : ∀ w n e s : Bool,
    (CreateNODES (fun _ _ => 0) freshBuilder (hDividedRoom w n e s)
      classicOptions).toOption.isSome = true := by
  decide!

theorem hDividedRoom_builds (w n e s : Bool) :
    CreateNODES (fun _ _ => 0) freshBuilder (hDividedRoom w n e s) classicOptions
      = .ok ((hDividedBuilt w n e s).1, (hDividedBuilt w n e s).2) := by
  exact ok_of_isSome _ (hDividedRoom_runs w n e s)

theorem hDividedRoom_segs (atanBAM : Int → Int → Nat) (w n e s : Bool) :
    CreateSegs atanBAM (CreateNODES.init freshBuilder (hDividedRoom w n e s) classicOptions)
        (hDividedRoom w n e s) classicOptions
      = CreateSegs (fun _ _ => 0)
          (CreateNODES.init freshBuilder (hDividedRoom w n e s) classicOptions)
          (hDividedRoom w n e s) classicOptions := by
  cases w <;> cases n <;> cases e <;> cases s <;> rfl

theorem CreateNODES_congr (f g : Int → Int → Nat) (b : Builder) (level : DoomLevel)
    (options : sBSPOptions)
    (h : CreateSegs f (CreateNODES.init b level options) level options
      = CreateSegs g (CreateNODES.init b level options) level options) :
    CreateNODES f b level options = CreateNODES g b level options := by
  unfold CreateNODES CreateNODES.setup
  rw [h]

theorem hDividedRoom_any_angle (atanBAM : Int → Int → Nat) (w n e s : Bool) :
    CreateNODES atanBAM freshBuilder (hDividedRoom w n e s) classicOptions
      = .ok ((hDividedBuilt w n e s).1, (hDividedBuilt w n e s).2) := by
  rw [← hDividedRoom_builds]
  exact CreateNODES_congr _ _ _ _ _ (hDividedRoom_segs atanBAM w n e s)

theorem hDividedBuilt_data : ∀ w n e s : Bool,
    (hDividedBuilt w n e s).2.vertices = (hDividedRoom w n e s).vertices ∧
    (hDividedBuilt w n e s).2.ssectors = [⟨4, 0⟩, ⟨4, 4⟩] ∧
    (hDividedBuilt w n e s).2.segs.length = 8 ∧
    (hDividedBuilt w n e s).2.nodes
      = some [{ x := 0, y := 512, dx := 1024, dy := 0,
                side0 := { minx := 0, miny := 0, maxx := 1024, maxy := 512 },
                side1 := { minx := 0, miny := 512, maxx := 1024, maxy := 1024 },
                child0 := 0x8000, child1 := 0x8001 }] := by
  decide!

/-- C14, the scenario as stated fails.  The Classic build of the H-divided room (west,
east and south wall in sector 0, north wall in sector 1) yields two subsectors of 4 segs
each, not of 3: each half of the room is bounded by the cross wall, two half-walls and one
outer wall. -/
theorem hDivided_subsectors_have_four_segs :
    ∃ b d, CreateNODES (fun _ _ => 0) freshBuilder (hDividedRoom false true false false)
        classicOptions = .ok (b, d) ∧
      d.ssectors.map (fun s => s.num) = [4, 4] ∧ ¬ (∀ s ∈ d.ssectors, s.num = 3) := by
  have h := (hDividedBuilt_data false true false false).2.1
  refine ⟨(hDividedBuilt false true false false).1, (hDividedBuilt false true false false).2,
    hDividedRoom_builds false true false false, ?_, ?_⟩
  · rw [h]
    rfl
  · rw [h]
    decide

/-- C14, amended.  For the square room (0,0), (1024,0), (1024,1024), (0,1024) with four
one-sided wall linedefs, the room on their right, and a fifth two-sided linedef from
(0,512) to (1024,512) between sector 0 and sector 1, the Classic build (whatever the
sectors of the four walls and whatever the angle function) produces exactly 1 interior
node, whose partition is the middle line and whose children are the subsectors 0 and 1,
2 subsectors with 4 segs each, 8 segs in all, and leaves the vertex table as it was. -/
theorem hDivided_build (atanBAM : Int → Int → Nat) (w n e s : Bool) :
    ∃ b d nd, CreateNODES atanBAM freshBuilder (hDividedRoom w n e s) classicOptions
        = .ok (b, d) ∧
      d.nodes = some [nd] ∧
      (nd.x, nd.y, nd.dx, nd.dy) = (0, 512, 1024, 0) ∧
      nd.child0 = 0x8000 ∧ nd.child1 = 0x8001 ∧
      d.ssectors = [⟨4, 0⟩, ⟨4, 4⟩] ∧
      d.segs.length = 8 ∧
      d.vertices = (hDividedRoom w n e s).vertices := by
  obtain ⟨h1, h2, h3, h4⟩ := hDividedBuilt_data w n e s
  exact ⟨(hDividedBuilt w n e s).1, (hDividedBuilt w n e s).2, _,
    hDividedRoom_any_angle atanBAM w n e s, h4, rfl, rfl, rfl, h2, h3, h1⟩

/-! ## Termination of the recursion -/

theorem SplitSegs_error (b : Builder) (segs k : Nat) (e : Halt)
    (h : SplitSegs b segs k = .error e) : e ≠ .outOfFuel := by
  simp only [SplitSegs] at h
  split_ifs at h
  · injection h with h
    rw [← h]
    exact fun c => by cases c
  · rcases SplitSegs_loop_error _ _ _ _ _ h with h | h <;> rw [h] <;> exact fun c => by cases c

theorem SortSegs_error (b : Builder) (pSeg : Option Nat) (seg noSegs : Nat) (e : Halt)
    (h : SortSegs b pSeg seg noSegs = .error e) : e = .assertFailed := by
  cases pSeg with
  | none =>
    simp only [SortSegs] at h
    cases h
  | some p =>
    simp only [SortSegs] at h
    generalize SortSegs.classify seg noSegs 0 (ComputeStaticVariables b (b.seg p), ⟨0, 0, 0⟩)
      = cl at h
    obtain ⟨bc, count⟩ := cl
    simp only at h
    split_ifs at h
    · injection h with h
      exact h.symm

theorem ChoosePartition_error (pf : PartitionFn) (b : Builder) (seg noSegs : Nat) (e : Halt)
    (h : ChoosePartition pf b seg noSegs = .error e) : e ≠ .outOfFuel := by
  simp only [ChoosePartition] at h
  generalize pf { b with scan := { b.scan with
    lineChecked := blit b.scan.lineChecked 0 (b.lineUsed.take b.noAliases) } } seg noSegs
    = res at h
  obtain ⟨pSeg, scan⟩ := res
  simp only at h
  cases hs : SortSegs { b with scan := scan } pSeg seg noSegs with
  | error e2 =>
    rw [hs] at h
    injection h with h
    rw [← h, SortSegs_error _ _ _ _ _ hs]
    exact fun c => by cases c
  | ok r =>
    rw [hs] at h
    cases h

theorem PartitionNode_error (pf : PartitionFn) (b : Builder) (node rSegs noSegs : Nat)
    (e : Halt) (h : PartitionNode pf b node rSegs noSegs = .error e) : e ≠ .outOfFuel := by
  unfold PartitionNode at h
  cases hc : ChoosePartition pf b rSegs noSegs with
  | error e2 =>
    rw [hc] at h
    injection h with h
    rw [← h]
    exact ChoosePartition_error _ _ _ _ _ hc
  | ok res =>
    obtain ⟨cflag, b1, l1, r1, s1⟩ := res
    rw [hc] at h
    cases cflag with
    | false =>
      simp only at h
      split_ifs at h
    | true =>
      simp only at h
      split_ifs at h
      · cases hs : SplitSegs b1 (rSegs + r1) s1 with
        | error e2 =>
          rw [hs] at h
          injection h with h
          rw [← h]
          exact SplitSegs_error _ _ _ _ hs
        | ok b2 =>
          rw [hs] at h
          cases h

theorem classify_frame (seg : Nat) : ∀ (n i : Nat) (b : Builder) (c : Counts),
    (SortSegs.classify seg n i (b, c)).1
      = { b with segStart := (SortSegs.classify seg n i (b, c)).1.segStart } := by
  intro n
  induction n with
  | zero =>
    intro i b c
    rfl
  | succ n ih =>
    intro i b c
    simp only [SortSegs.classify]
    rw [ih]
    rfl

theorem distribute_frame (seg : Nat) : ∀ (n i : Nat) (s : Builder × Nat × List SEG × List SEG),
    (SortSegs.distribute seg n i s).1
      = { s.1 with segStart := (SortSegs.distribute seg n i s).1.segStart } := by
  intro n
  induction n with
  | zero =>
    intro i s
    rfl
  | succ n ih =>
    intro i s
    obtain ⟨b, rSeg, sSeg, lSeg⟩ := s
    simp only [SortSegs.distribute]
    rw [ih]
    split_ifs <;> rfl

theorem SortSegs_frame (b : Builder) (p seg noSegs : Nat)
    (b2 : Builder) (nl nr ns : Nat)
    (h : SortSegs b (some p) seg noSegs = .ok (b2, nl, nr, ns)) :
    b2 = { ComputeStaticVariables b (b.seg p) with segStart := b2.segStart } := by
  simp only [SortSegs] at h
  have c1 := classify_frame seg noSegs 0 (ComputeStaticVariables b (b.seg p)) ⟨0, 0, 0⟩
  generalize SortSegs.classify seg noSegs 0 (ComputeStaticVariables b (b.seg p), ⟨0, 0, 0⟩)
    = cl at h c1
  obtain ⟨bc, count⟩ := cl
  simp only at h c1
  split_ifs at h with hz hd
  · injection h with h
    injection h with h1 h
    subst h1
    have d1 := distribute_frame seg (noSegs - SortSegs.leading bc seg noSegs 0)
      (SortSegs.leading bc seg noSegs 0) (bc, seg + SortSegs.leading bc seg noSegs 0, [], [])
    generalize SortSegs.distribute seg (noSegs - SortSegs.leading bc seg noSegs 0)
      (SortSegs.leading bc seg noSegs 0) (bc, seg + SortSegs.leading bc seg noSegs 0, [], [])
      = ds at d1
    obtain ⟨bd, rSeg, sSeg, lSeg⟩ := ds
    simp only at d1 ⊢
    rw [d1, c1]
  · injection h with h
    injection h with h1 h
    subst h1
    rw [c1]

theorem DivideSeg_tables (b : Builder) (rSeg lSeg : Nat) (b2 : Builder)
    (h : DivideSeg b rSeg lSeg = .ok b2) :
    b2.tables = b.tables ∧ b2.scan = b.scan := by
  obtain ⟨i, b1, hadd, _, _, hfr2, _⟩ := DivideSeg_ok b rSeg lSeg b2 h
  obtain ⟨hfr1, _⟩ := AddVertex_frame b _ _ i b1 hadd
  rw [hfr2, hfr1]
  exact ⟨rfl, rfl⟩

theorem SplitSegs_loop_tables (k : Nat) : ∀ (n s : Nat) (b b2 : Builder),
    SplitSegs.loop k n s b = .ok b2 → b2.tables = b.tables ∧ b2.scan = b.scan := by
  intro n
  induction n with
  | zero =>
    intro s b b2 h
    simp only [SplitSegs.loop] at h
    injection h with h
    rw [h]
    exact ⟨rfl, rfl⟩
  | succ n ih =>
    intro s b b2 h
    simp only [SplitSegs.loop] at h
    cases hd : DivideSeg b s (s + k) with
    | error e =>
      rw [hd] at h
      cases h
    | ok b1 =>
      rw [hd] at h
      obtain ⟨h1, h2⟩ := ih _ _ _ h
      obtain ⟨g1, g2⟩ := DivideSeg_tables _ _ _ _ hd
      exact ⟨h1.trans g1, h2.trans g2⟩

theorem SplitSegs_tables (b : Builder) (segs k : Nat) (b2 : Builder)
    (h : SplitSegs b segs k = .ok b2) : b2.tables = b.tables ∧ b2.scan = b.scan := by
  simp only [SplitSegs] at h
  split_ifs at h
  obtain ⟨h1, h2⟩ := SplitSegs_loop_tables _ _ _ _ _ h
  exact ⟨h1, h2⟩

/-- The result of `ChoosePartition` in terms of the seg that the partition function
returns. -/
theorem ChoosePartition_cases (pf : PartitionFn) (b : Builder) (seg noSegs : Nat)
    (flag : Bool) (b2 : Builder) (nl nr ns : Nat)
    (h : ChoosePartition pf b seg noSegs = .ok (flag, b2, nl, nr, ns)) :
    (flag = false ∧ (pf (ChoosePartition.input b) seg noSegs).1 = none ∧
      b2 = { b with scan := (pf (ChoosePartition.input b) seg noSegs).2 }) ∨
    (flag = true ∧ ∃ p, (pf (ChoosePartition.input b) seg noSegs).1 = some p ∧
      SortSegs { b with scan := (pf (ChoosePartition.input b) seg noSegs).2 } (some p) seg noSegs
        = .ok (b2, nl, nr, ns)) := by
  simp only [ChoosePartition] at h
  unfold ChoosePartition.input
  generalize pf { b with scan := { b.scan with
    lineChecked := blit b.scan.lineChecked 0 (b.lineUsed.take b.noAliases) } } seg noSegs
    = res at h ⊢
  obtain ⟨pSeg, scan⟩ := res
  simp only at h ⊢
  cases hs : SortSegs { b with scan := scan } pSeg seg noSegs with
  | error e =>
    rw [hs] at h
    cases h
  | ok r =>
    obtain ⟨b3, l3, r3, s3⟩ := r
    rw [hs] at h
    simp only at h
    injection h with h
    injection h with h0 h
    injection h with h1 h
    injection h with h2 h
    injection h with h3 h4
    subst h0 h1 h2 h3 h4
    cases pSeg with
    | none =>
      left
      simp only [SortSegs] at hs
      injection hs with hs
      injection hs with hs1 hs
      exact ⟨rfl, rfl, hs1.symm⟩
    | some p =>
      right
      exact ⟨rfl, p, rfl, hs⟩

theorem PartitionNode_tables (pf : PartitionFn) (b : Builder) (node rSegs noSegs : Nat)
    (flag : Bool) (b2 : Builder) (nl nr : Nat)
    (h : PartitionNode pf b node rSegs noSegs = .ok (flag, b2, nl, nr)) :
    b2.tables = b.tables := by
  unfold PartitionNode at h
  cases hc : ChoosePartition pf b rSegs noSegs with
  | error e =>
    rw [hc] at h
    cases h
  | ok res =>
    obtain ⟨cflag, b1, l1, r1, s1⟩ := res
    rw [hc] at h
    have e1 : b1.tables = b.tables := by
      rcases ChoosePartition_cases pf b rSegs noSegs cflag b1 l1 r1 s1 hc with
        ⟨_, _, e⟩ | ⟨_, p, _, e⟩
      · rw [e]
        rfl
      · rw [SortSegs_frame _ _ _ _ _ _ _ _ e]
        rfl
    cases cflag with
    | false =>
      simp only at h
      split_ifs at h <;>
        (injection h with h
         injection h with h1 h
         injection h with h2 h
         rw [← h2, ← e1]
         try rfl)
    | true =>
      simp only at h
      split_ifs at h
      · cases hs : SplitSegs b1 (rSegs + r1) s1 with
        | error e =>
          rw [hs] at h
          cases h
        | ok b3 =>
          rw [hs] at h
          injection h with h
          injection h with h1 h
          injection h with h2 h
          rw [← h2, ← e1, ← (SplitSegs_tables _ _ _ _ hs).1]
          rfl
      · injection h with h
        injection h with h1 h
        injection h with h2 h
        rw [← h2, ← e1]
        rfl

theorem leaf_fuel (b : Builder) (node cptr rSegs noSegs : Nat) :
    CreateNode.leaf b node cptr rSegs noSegs ≠ .error .outOfFuel ∧
    ∀ r, CreateNode.leaf b node cptr rSegs noSegs = .ok r → r.1.nodesLeft = b.nodesLeft := by
  constructor
  · intro h
    unfold CreateNode.leaf CreateSSector at h
    simp only at h
    split_ifs at h <;> cases h
  · intro r h
    obtain ⟨_, hr⟩ := leaf_ok _ _ _ _ _ _ h
    rw [hr]
    rfl

theorem enter_nodesLeft (b : Builder) (prev : Option Nat) :
    (CreateNode.enter b prev).nodesLeft = b.nodesLeft - 1 := by
  cases prev <;> rfl

/-- Every call of `CreateNode` takes a node from the pool: with more fuel than nodes are
left the recursion does not run out of fuel, and a call that returns has used up at least
one node. -/
theorem CreateNode_fuel (pf : PartitionFn) : ∀ (fuel : Nat) (b : Builder) (prev : Option Nat)
    (rSegs noSegs : Nat), b.nodesLeft < fuel →
    CreateNode pf fuel b prev rSegs noSegs ≠ .error .outOfFuel ∧
    ∀ r, CreateNode pf fuel b prev rSegs noSegs = .ok r → r.1.nodesLeft < b.nodesLeft := by
  intro fuel
  induction fuel with
  | zero =>
    intro b prev rSegs noSegs h
    omega
  | succ fuel ih =>
    intro b prev rSegs noSegs hf
    by_cases h0 : b.nodesLeft = 0
    · simp only [CreateNode, if_pos h0]
      exact ⟨(fun c => by cases c), (fun r c => by cases c)⟩
    · have hen := enter_nodesLeft b prev
      by_cases h1 : noSegs ≤ 1
      · simp only [CreateNode, if_neg h0, if_pos h1]
        obtain ⟨l1, l2⟩ := leaf_fuel (CreateNode.enter b prev) b.nodePool.length
          b.scan.convexList.length rSegs noSegs
        refine ⟨l1, fun r hr => ?_⟩
        rw [l2 r hr, hen]
        omega
      · simp only [CreateNode, if_neg h0, if_neg h1]
        cases hp : PartitionNode pf (CreateNode.enter b prev) b.nodePool.length rSegs noSegs with
        | error e =>
          simp only
          refine ⟨fun c => ?_, (fun r c => by cases c)⟩
          injection c with c
          exact PartitionNode_error _ _ _ _ _ _ hp c
        | ok res =>
          obtain ⟨flag, b2, nl, nr⟩ := res
          have ht := PartitionNode_tables _ _ _ _ _ _ _ _ _ hp
          have hn2 : b2.nodesLeft = b.nodesLeft - 1 := by
            have := congrArg Prod.fst ht
            simp only [Builder.tables] at this
            rw [this, hen]
          cases flag with
          | false =>
            simp only
            obtain ⟨l1, l2⟩ := leaf_fuel b2 b.nodePool.length
              b.scan.convexList.length rSegs noSegs
            refine ⟨l1, fun r hr => ?_⟩
            rw [l2 r hr, hn2]
            omega
          | true =>
            simp only
            have hm : (CreateNode.mark b2 b.scan.convexList.length).nodesLeft
                = b.nodesLeft - 1 := hn2
            obtain ⟨r1, r2⟩ := ih (CreateNode.mark b2 b.scan.convexList.length) prev rSegs nr
              (by rw [hm]; omega)
            cases hr : CreateNode pf fuel (CreateNode.mark b2 b.scan.convexList.length) prev
                rSegs nr with
            | error e =>
              simp only
              refine ⟨fun c => ?_, (fun r c => by cases c)⟩
              injection c with c
              rw [c] at hr
              exact r1 hr
            | ok res =>
              obtain ⟨b3, rNode, nr2, lSegs⟩ := res
              simp only
              have h3 := r2 _ hr
              simp only at h3
              have hs : (CreateNode.setChild0 b3 b.nodePool.length rNode).nodesLeft
                  = b3.nodesLeft := rfl
              obtain ⟨q1, q2⟩ := ih (CreateNode.setChild0 b3 b.nodePool.length rNode)
                (some rNode) lSegs nl (by rw [hs]; omega)
              cases hl : CreateNode pf fuel (CreateNode.setChild0 b3 b.nodePool.length rNode)
                  (some rNode) lSegs nl with
              | error e =>
                simp only
                refine ⟨fun c => ?_, (fun r c => by cases c)⟩
                injection c with c
                rw [c] at hl
                exact q1 hl
              | ok res =>
                obtain ⟨b4, lNode, nl2, x⟩ := res
                simp only
                have h4 := q2 _ hl
                simp only at h4
                refine ⟨(fun c => by cases c), fun r hr2 => ?_⟩
                injection hr2 with hr2
                rw [← hr2]
                have hfin : (CreateNode.finish (CreateNode.setChild1 b4 b.nodePool.length lNode)
                    b.nodePool.length lNode b.scan.convexList.length b2.partitionAlias).nodesLeft
                    = b4.nodesLeft := rfl
                simp only [hfin]
                omega

/-! ## The progress of the recursion -/

theorem statics_congr (b b2 : Builder) (s : SEG) (h1 : b.lineDefAlias = b2.lineDefAlias)
    (h2 : b.sideInfo = b2.sideInfo) (h3 : b.newVertices = b2.newVertices) :
    (ComputeStaticVariables b s).scan.statics = (ComputeStaticVariables b2 s).scan.statics := by
  simp only [ComputeStaticVariables, Builder.aliasOf, Builder.vertex, h1, h2, h3]

theorem WhichSide_congr (b b2 : Builder) (s : SEG) (h1 : b.lineDefAlias = b2.lineDefAlias)
    (h2 : b.sideInfo = b2.sideInfo) (h3 : b.newVertices = b2.newVertices)
    (h4 : b.scan.statics = b2.scan.statics) : WhichSide b s = WhichSide b2 s := by
  simp only [WhichSide, Builder.currentSideAt, _WhichSide, _WhichSide.labels, IsZero, Builder.st,
    Builder.aliasOf, Builder.vertex, h1, h2, h3, h4]

theorem selfSide_congr (b b2 : Builder) (s : SEG) (h1 : b.lineDefAlias = b2.lineDefAlias)
    (h2 : b.sideInfo = b2.sideInfo) (h3 : b.newVertices = b2.newVertices) :
    selfSide b s = selfSide b2 s := by
  unfold selfSide
  exact WhichSide_congr _ _ _ h1 h2 h3 (statics_congr b b2 s h1 h2 h3)

theorem classify_right (seg : Nat) : ∀ (n i : Nat) (b : Builder) (c : Counts) (j : Nat),
    i ≤ j → j < i + n → WhichSide b (b.seg (seg + j)) = SIDE_RIGHT →
    c.rCount + 1 ≤ (SortSegs.classify seg n i (b, c)).2.rCount := by
  intro n
  induction n with
  | zero =>
    intro i b c j h1 h2 _
    omega
  | succ n ih =>
    intro i b c j h1 h2 hr
    simp only [SortSegs.classify]
    obtain ⟨_, _, _, _, _, m1⟩ := classify_spec seg n (i + 1)
      (b.setSeg (seg + i) { b.seg (seg + i) with Side := WhichSide b (b.seg (seg + i)) })
      (c.bump (WhichSide b (b.seg (seg + i))))
    by_cases hj : j = i
    · subst hj
      have : (c.bump (WhichSide b (b.seg (seg + j)))).rCount = c.rCount + 1 := by
        rw [hr]
        simp [Counts.bump, SIDE_RIGHT, SIDE_LEFT, SIDE_SPLIT]
      rw [← this]
      exact m1
    · obtain ⟨_, _, _, g⟩ := bump_total c _ (WhichSide_range b (b.seg (seg + i)))
      have := ih (i + 1)
        (b.setSeg (seg + i) { b.seg (seg + i) with Side := WhichSide b (b.seg (seg + i)) })
        (c.bump (WhichSide b (b.seg (seg + i)))) j (by omega) (by omega)
        (by
          rw [seg_setSeg_other _ _ _ _ (by omega)]
          rw [← hr]
          exact WhichSide_congr _ _ _ rfl rfl rfl rfl)
      exact le_trans (add_le_add_right g 1) this

theorem SortSegs_right (b : Builder) (p seg noSegs : Nat) (b2 : Builder) (nl nr ns : Nat)
    (h : SortSegs b (some p) seg noSegs = .ok (b2, nl, nr, ns)) (j : Nat) (hj : j < noSegs)
    (hr : WhichSide (ComputeStaticVariables b (b.seg p)) (b.seg (seg + j)) = SIDE_RIGHT) :
    1 ≤ nr ∧ nl + nr + ns = noSegs := by
  obtain ⟨_, hsum⟩ := SortSegs_core _ _ _ _ _ _ _ _ h
  refine ⟨?_, hsum⟩
  simp only [SortSegs] at h
  have c1 := classify_right seg noSegs 0 (ComputeStaticVariables b (b.seg p)) ⟨0, 0, 0⟩ j
    (Nat.zero_le _) (by omega) hr
  generalize SortSegs.classify seg noSegs 0 (ComputeStaticVariables b (b.seg p), ⟨0, 0, 0⟩)
    = cl at h c1
  obtain ⟨bc, count⟩ := cl
  simp only at h c1
  split_ifs at h <;>
    (injection h with h
     injection h with h1 h
     injection h with h2 h
     injection h with h3 h4
     omega)

theorem leading_ge (b : Builder) (seg sector : Nat) : ∀ n i,
    i ≤ SortSectors.leading b seg sector n i := by
  intro n
  induction n with
  | zero =>
    intro i
    simp [SortSectors.leading]
  | succ n ih =>
    intro i
    simp only [SortSectors.leading]
    split_ifs
    · exact le_trans (Nat.le_succ i) (ih (i + 1))
    · exact le_refl _

theorem leading_lt (b : Builder) (seg sector : Nat) : ∀ n i,
    (∃ k, i ≤ k ∧ k < i + n ∧ (b.seg (seg + k)).Sector ≠ sector) →
    SortSectors.leading b seg sector n i < i + n := by
  intro n
  induction n with
  | zero =>
    intro i h
    obtain ⟨k, h1, h2, _⟩ := h
    omega
  | succ n ih =>
    intro i h
    obtain ⟨k, h1, h2, h3⟩ := h
    simp only [SortSectors.leading]
    split_ifs with hs
    · have hk : k ≠ i := fun e => h3 (by rw [e]; exact hs)
      have := ih (i + 1) ⟨k, by omega, by omega, h3⟩
      omega
    · omega

theorem two_of_length {α : Type} (l : List α) (hn : l.Nodup) (h : 1 < l.length) :
    ∃ a b, a ∈ l ∧ b ∈ l ∧ a ≠ b := by
  match l, hn, h with
  | [], _, h => simp at h
  | [_], _, h => simp at h
  | a :: b :: rest, hn, _ =>
    refine ⟨a, b, by simp, by simp, ?_⟩
    intro e
    rw [e] at hn
    simp at hn

/-- The forced division of `SortSectors`: when the list has segs of two sectors, both
parts are shorter than the list. -/
theorem SortSectors_parts (b : Builder) (seg noSegs i1 i2 : Nat)
    (hin : seg + noSegs ≤ b.segStart.length) (h1 : i1 < noSegs) (h2 : i2 < noSegs)
    (hne : (b.seg (seg + i1)).Sector ≠ (b.seg (seg + i2)).Sector) :
    1 ≤ (SortSectors b seg noSegs).2.2 ∧ (SortSectors b seg noSegs).2.2 < noSegs ∧
    (SortSectors b seg noSegs).2.1 + (SortSectors b seg noSegs).2.2 = noSegs := by
  obtain ⟨_, hsum⟩ := SortSectors_core b seg noSegs
  obtain ⟨_, _, q⟩ := qsortSegs_step seg (SortBySector b.keepUnique) b seg noSegs (le_refl _) hin
  simp only [SortSectors] at hsum ⊢
  refine ⟨?_, ?_, hsum⟩
  · cases noSegs with
    | zero => omega
    | succ n =>
      simp only [SortSectors.leading, Nat.add_zero, if_true]
      exact leading_ge _ _ _ _ _
  · have := leading_lt (qsortSegs (SortBySector b.keepUnique) b seg noSegs) seg
      ((qsortSegs (SortBySector b.keepUnique) b seg noSegs).seg seg).Sector noSegs 0
    rw [Nat.zero_add] at this
    apply this
    obtain ⟨k1, hk1, e1⟩ := q i1 h1
    obtain ⟨k2, hk2, e2⟩ := q i2 h2
    by_cases hc : ((qsortSegs (SortBySector b.keepUnique) b seg noSegs).seg (seg + k1)).Sector
        = ((qsortSegs (SortBySector b.keepUnique) b seg noSegs).seg seg).Sector
    · refine ⟨k2, Nat.zero_le _, hk2, ?_⟩
      rw [← hc, e1, e2]
      exact fun e => hne e.symm
    · exact ⟨k1, Nat.zero_le _, hk1, hc⟩

/-- The two ways in which `PartitionNode` returns `true`: with the partition that the
partition function has returned, the segs sorted by `SortSegs` and the SPLIT segs
divided, or, without a partition, with the list divided by sector into two shorter
lists. -/
theorem PartitionNode_true (pf : PartitionFn) (b : Builder) (node rSegs noSegs : Nat)
    (b2 : Builder) (nl nr : Nat)
    (h : PartitionNode pf b node rSegs noSegs = .ok (true, b2, nl, nr))
    (hin : rSegs + noSegs ≤ b.segStart.length) :
    (∃ p bc l r s, (pf (ChoosePartition.input b) rSegs noSegs).1 = some p ∧
      SortSegs { b with scan := (pf (ChoosePartition.input b) rSegs noSegs).2 } (some p)
        rSegs noSegs = .ok (bc, l, r, s) ∧
      nl = l + s ∧ nr = r + s ∧ b2.scan.statics = bc.scan.statics) ∨
    (1 ≤ nr ∧ nr < noSegs ∧ nl + nr = noSegs) := by
  unfold PartitionNode at h
  cases hc : ChoosePartition pf b rSegs noSegs with
  | error e =>
    rw [hc] at h
    cases h
  | ok res =>
    obtain ⟨cflag, b1, l1, r1, s1⟩ := res
    rw [hc] at h
    obtain ⟨c1, c2, c3⟩ := ChoosePartition_core pf b rSegs noSegs cflag b1 l1 r1 s1 hc
    simp only [Builder.core, Prod.mk.injEq] at c1
    obtain ⟨k1, k2, k3, k4, k5, k6, k7, k8, k9⟩ := c1
    have hsc : b1.sectorCount = b.sectorCount := k7
    cases cflag with
    | false =>
      right
      obtain ⟨_, hss⟩ := c3 rfl
      simp only at h
      by_cases hu : b1.uniqueSubsectors = true
      · rw [if_pos hu] at h
        split_ifs at h with hnu
        · injection h with h
          injection h with h0 h
          injection h with h1 h
          injection h with h2 h3
          subst h2 h3
          obtain ⟨_, hcount, _⟩ := hnu
          obtain ⟨j1, j2, m1, m2, hne⟩ := two_of_length _
            ((List.nodup_range b1.sectorCount).filter _) hcount
          obtain ⟨r1, u1⟩ := List.mem_filter.mp m1
          obtain ⟨r2, u2⟩ := List.mem_filter.mp m2
          have v1 := (mark_spec b1 rSegs noSegs j1 (List.mem_range.mp r1)).mp
            (by simpa using u1)
          have v2 := (mark_spec b1 rSegs noSegs j2 (List.mem_range.mp r2)).mp
            (by simpa using u2)
          obtain ⟨i1, hi1, e1⟩ := v1
          obtain ⟨i2, hi2, e2⟩ := v2
          exact SortSectors_parts _ rSegs noSegs i1 i2
            (by
              show rSegs + noSegs ≤ b1.segStart.length
              rw [hss]
              exact hin) hi1 hi2
            (by
              show (b1.seg (rSegs + i1)).Sector ≠ (b1.seg (rSegs + i2)).Sector
              rw [e1, e2]
              exact hne)
        all_goals
          (injection h with h
           injection h with h0 h
           cases h0)
      · have hu2 : b1.uniqueSubsectors = false := by
          cases h0 : b1.uniqueSubsectors
          · rfl
          · exact absurd h0 hu
        simp only [hu2, Bool.false_eq_true, if_false, false_and] at h
        split_ifs at h <;>
          (injection h with h
           injection h with h0 h
           cases h0)
    | true =>
      left
      rcases ChoosePartition_cases pf b rSegs noSegs true b1 l1 r1 s1 hc with
        ⟨hf, _⟩ | ⟨_, p, hp, hs⟩
      · cases hf
      · simp only at h
        split_ifs at h with hsp
        · cases hss : SplitSegs b1 (rSegs + r1) s1 with
          | error e =>
            rw [hss] at h
            cases h
          | ok b3 =>
            rw [hss] at h
            injection h with h
            injection h with h0 h
            injection h with h1 h
            injection h with h2 h3
            refine ⟨p, b1, l1, r1, s1, hp, hs, h2.symm, h3.symm, ?_⟩
            rw [← h1]
            show b3.scan.statics = b1.scan.statics
            rw [(SplitSegs_tables _ _ _ _ hss).2]
        · injection h with h
          injection h with h0 h
          injection h with h1 h
          injection h with h2 h3
          have hs0 : s1 = 0 := by
            by_contra hx
            exact hsp hx
          refine ⟨p, b1, l1, r1, s1, hp, hs, ?_, ?_, ?_⟩
          · rw [← h2, hs0]
            rfl
          · rw [← h3, hs0]
            rfl
          · rw [← h1]
            rfl

theorem writeI_true_mono (l : List Bool) (a : Int) (x : Nat) (h : l.getD x false = true) :
    (writeI l a true).getD x false = true := by
  unfold writeI
  split_ifs
  · exact h
  · by_cases hx : a.toNat = x
    · have hlt : x < l.length := by
        by_contra hc
        rw [List.getD_eq_default _ _ (by omega)] at h
        cases h
      rw [hx]
      simp [List.getD_eq_getElem?_getD, List.getElem?_set, hlt]
    · simp only [List.getD_eq_getElem?_getD, List.getElem?_set, if_neg hx] at h ⊢
      exact h

theorem markConvex_mono : ∀ (entries : List Int) (l : List Bool) (x : Nat),
    l.getD x false = true → (markConvex l entries true).getD x false = true := by
  intro entries
  induction entries with
  | nil =>
    intro l x h
    exact h
  | cons e rest ih =>
    intro l x h
    simp only [markConvex, List.foldl_cons]
    exact ih _ _ (writeI_true_mono l e x h)

theorem enter_frame (b : Builder) (prev : Option Nat) :
    (CreateNode.enter b prev).lineUsed = b.lineUsed ∧
    (CreateNode.enter b prev).noAliases = b.noAliases ∧
    (CreateNode.enter b prev).lineDefAlias = b.lineDefAlias ∧
    (CreateNode.enter b prev).sideInfo = b.sideInfo ∧
    (CreateNode.enter b prev).newVertices = b.newVertices ∧
    (CreateNode.enter b prev).segStart = b.segStart ∧
    (CreateNode.enter b prev).scan = b.scan := by
  cases prev <;> exact ⟨rfl, rfl, rfl, rfl, rfl, rfl, rfl⟩

/-- The account of the two recursive calls of a call of `CreateNode` on a list of more
than one seg, whose partition function returns only unchecked segs of the list, and in
which every seg of the list is on its own right side. -/
theorem CreateNode_progress (pf : PartitionFn) (b : Builder) (prev : Option Nat)
    (rSegs noSegs : Nat) (b2 : Builder) (nl nr : Nat)
    (hp : PartitionNode pf (CreateNode.enter b prev) b.nodePool.length rSegs noSegs
      = .ok (true, b2, nl, nr))
    (hlen : b.lineUsed.length = b.noAliases)
    (hin : rSegs + noSegs ≤ b.segStart.length)
    (hal : ∀ j, j < noSegs → 0 ≤ b.aliasAt (rSegs + j) ∧ b.aliasAt (rSegs + j) < b.noAliases)
    (hpf : ReturnsUnchecked pf (ChoosePartition.input (CreateNode.enter b prev)) rSegs noSegs)
    (hown : ∀ j, j < noSegs → selfSide b (b.seg (rSegs + j)) = SIDE_RIGHT) :
    (nr < noSegs ∨
      MoreUsed b.lineUsed (CreateNode.mark b2 b.scan.convexList.length).lineUsed) ∧
    nl < noSegs := by
  obtain ⟨f1, f2, f3, f4, f5, f6, f7⟩ := enter_frame b prev
  have ht := PartitionNode_tables _ _ _ _ _ _ _ _ _ hp
  simp only [Builder.tables, Prod.mk.injEq] at ht
  obtain ⟨_, t2, t3, t4, t5⟩ := ht
  rcases PartitionNode_true pf _ _ rSegs noSegs b2 nl nr hp (by rw [f6]; exact hin) with
    ⟨p, bc, l, r, s, hsome, hsort, hnl, hnr, hst⟩ | ⟨h1, h2, h3⟩
  · -- the partition function has returned seg `p`
    obtain ⟨u1, u2, u3⟩ := hpf p _ (Prod.ext hsome rfl)
    have hj : p - rSegs < noSegs := by omega
    have hpj : rSegs + (p - rSegs) = p := by omega
    have hseg : ∀ i, ({ CreateNode.enter b prev with
        scan := (pf (ChoosePartition.input (CreateNode.enter b prev)) rSegs noSegs).2 }
          : Builder).seg i = b.seg i := fun i => by
      simp only [Builder.seg, f6]
    obtain ⟨r1, rsum⟩ := SortSegs_right _ p rSegs noSegs bc l r s hsort (p - rSegs) hj (by
      rw [hpj, hseg]
      have := hown (p - rSegs) hj
      rw [hpj] at this
      rw [← this]
      unfold selfSide
      exact WhichSide_congr _ _ _ f3 f4 f5 (statics_congr _ _ _ f3 f4 f5))
    refine ⟨Or.inr ⟨?_, ?_⟩, by omega⟩
    · intro a ha
      simp only [CreateNode.mark]
      apply markConvex_mono
      apply writeI_true_mono
      rw [t2, f1]
      exact ha
    · -- the alias of the partition is newly marked
      have hfr := SortSegs_frame _ _ _ _ _ _ _ _ hsort
      have hcur : b2.st.currentAlias = (b.seg p).Data.lineDef := by
        unfold Builder.st
        rw [hst, hfr]
        show ((ComputeStaticVariables _ _).scan.statics).currentAlias = _
        simp only [ComputeStaticVariables]
        rw [hseg]
      have hpa : b2.partitionAlias = b.aliasAt p := by
        unfold Builder.partitionAlias Builder.aliasAt Builder.aliasOf
        rw [hcur, t3, f3]
      obtain ⟨a0, a1⟩ := hal (p - rSegs) hj
      rw [hpj] at a0 a1
      have hchk : (ChoosePartition.input (CreateNode.enter b prev)).aliasAt p = b.aliasAt p := by
        simp only [Builder.aliasAt, Builder.aliasOf, Builder.seg, ChoosePartition.input, f3, f6]
      rw [hchk] at u3
      have hlt : (b.aliasAt p).toNat < b.lineUsed.length := by omega
      refine ⟨(b.aliasAt p).toNat, ?_, ?_⟩
      · simp only [readI, if_neg (not_lt.mpr a0), ChoosePartition.input, f1, f2, f7] at u3
        have hm := getD_blit_mid b.scan.lineChecked (b.lineUsed.take b.noAliases) 0
          (b.aliasAt p).toNat default (Nat.zero_le _) (by
            rw [List.length_take]
            omega)
        rw [Nat.zero_add] at hm
        rw [hm] at u3
        simp only [List.getD_eq_getElem?_getD, List.getElem?_take] at u3 ⊢
        rw [if_pos (by omega)] at u3
        exact u3
      · simp only [CreateNode.mark]
        apply markConvex_mono
        rw [hpa, t2, f1]
        simp only [writeI, if_neg (not_lt.mpr a0)]
        simp [List.getD_eq_getElem?_getD, List.getElem?_set, hlt]
  · exact ⟨Or.inl h2, by omega⟩

/-! ## The partition functions return unchecked segs -/

theorem readI_nonneg (l : List Bool) (x : Int) (hx : ¬ x < 0) :
    readI l x = l.getD x.toNat false := by
  unfold readI
  rw [if_neg hx]
  rfl

theorem readI_writeI_true (l : List Bool) (a x : Int) (h : readI (writeI l a true) x = false) :
    readI l x = false := by
  by_cases hx : x < 0
  · unfold readI
    rw [if_pos hx]
    rfl
  · rw [readI_nonneg _ _ hx] at h ⊢
    cases hr : l.getD x.toNat false with
    | false => rfl
    | true =>
      rw [writeI_true_mono l a x.toNat hr] at h
      cases h

/-- The invariant of the loop of `Algorithm1`: the alias table and the segs are those of
the builder `b0` at the call, an alias that is still unchecked was unchecked at the call,
and the seg stored in `pSeg` is a seg of the list whose alias was unchecked at the
call. -/
theorem Algorithm1_loop_unchecked (b0 : Builder) (segs noSegs : Nat) (bestMetric : Int) :
    ∀ (n i : Nat) (s : Alg1State), i + n ≤ noSegs →
      s.b.lineDefAlias = b0.lineDefAlias → s.b.segStart = b0.segStart →
      (∀ a, readI s.b.scan.lineChecked a = false → readI b0.scan.lineChecked a = false) →
      (∀ p, s.pSeg = some p →
        segs ≤ p ∧ p < segs + noSegs ∧ readI b0.scan.lineChecked (b0.aliasAt p) = false) →
      (∀ p, (Algorithm1.loop segs noSegs bestMetric n i s).1 = some p →
        segs ≤ p ∧ p < segs + noSegs ∧ readI b0.scan.lineChecked (b0.aliasAt p) = false) ∧
      (∀ p, (Algorithm1.loop segs noSegs bestMetric n i s).2.pSeg = some p →
        segs ≤ p ∧ p < segs + noSegs ∧ readI b0.scan.lineChecked (b0.aliasAt p) = false) := by
  intro n
  induction n with
  | zero =>
    intro i s _ _ _ _ hp
    simp only [Algorithm1.loop]
    exact ⟨(fun p h => by cases h), hp⟩
  | succ n ih =>
    intro i s hi h1 h2 h3 hp
    simp only [Algorithm1.loop]
    have hal : (s.b.aliasOf (s.b.seg (segs + i)).Data.lineDef).index = b0.aliasAt (segs + i) := by
      simp only [Builder.aliasAt, Builder.aliasOf, Builder.seg, h1, h2]
    by_cases hc : readI s.b.scan.lineChecked (s.b.aliasOf (s.b.seg (segs + i)).Data.lineDef).index
        = true
    · rw [if_pos hc]
      exact ih (i + 1) s (by omega) h1 h2 h3 hp
    · rw [if_neg hc]
      have hc2 : readI s.b.scan.lineChecked (b0.aliasAt (segs + i)) = false := by
        rw [← hal]
        cases hx : readI s.b.scan.lineChecked
          (s.b.aliasOf (s.b.seg (segs + i)).Data.lineDef).index
        · rfl
        · exact absurd hx hc
      have good : segs ≤ segs + i ∧ segs + i < segs + noSegs ∧
          readI b0.scan.lineChecked (b0.aliasAt (segs + i)) = false :=
        ⟨by omega, by omega, h3 _ hc2⟩
      have h3n : ∀ a, readI (writeI s.b.scan.lineChecked
          (s.b.aliasOf (s.b.seg (segs + i)).Data.lineDef).index true) a = false →
          readI b0.scan.lineChecked a = false :=
        fun a ha => h3 a (readI_writeI_true _ _ _ ha)
      split
      · exact ih (i + 1) _ (by omega) h1 h2 h3n hp
      · split_ifs
        · refine ⟨fun p hq => ?_, hp⟩
          injection hq with hq
          rw [← hq]
          exact good
        · refine ih (i + 1) _ (by omega) h1 h2 h3n ?_
          intro p hq
          injection hq with hq
          rw [← hq]
          exact good
        · exact ih (i + 1) _ (by omega) h1 h2 h3n hp
        · exact ih (i + 1) _ (by omega) h1 h2 h3n hp

theorem Algorithm1_unchecked (b : Builder) (segs noSegs : Nat) :
    ReturnsUnchecked Algorithm1 b segs noSegs := by
  intro p scan h
  simp only [Algorithm1] at h
  obtain ⟨g1, g2⟩ := Algorithm1_loop_unchecked b segs noSegs
    (((noSegs / 2 : Nat) : Int) * ((noSegs - noSegs / 2 : Nat) : Int)) noSegs 0
    { b := b, pSeg := none, maxMetric := -0x80000000, maxSplits := 0x7FFFFFFF }
    (by omega) rfl rfl (fun a ha => ha) (fun p hq => by cases hq)
  generalize Algorithm1.loop segs noSegs
    (((noSegs / 2 : Nat) : Int) * ((noSegs - noSegs / 2 : Nat) : Int)) noSegs 0
    { b := b, pSeg := none, maxMetric := -0x80000000, maxSplits := 0x7FFFFFFF } = res at h g1 g2
  obtain ⟨o, s⟩ := res
  cases o with
  | some t =>
    simp only at h
    injection h with h1 h2
    exact g1 p h1
  | none =>
    simp only at h
    injection h with h1 h2
    exact g2 p h1

theorem Algorithm3_loop_unchecked (b0 : Builder) (segs noSegs : Nat) (bestMetric : Int) :
    ∀ (n i : Nat) (s : Alg1State), i + n ≤ noSegs →
      s.b.lineDefAlias = b0.lineDefAlias → s.b.segStart = b0.segStart →
      (∀ a, readI s.b.scan.lineChecked a = false → readI b0.scan.lineChecked a = false) →
      (∀ p, s.pSeg = some p →
        segs ≤ p ∧ p < segs + noSegs ∧ readI b0.scan.lineChecked (b0.aliasAt p) = false) →
      (∀ p, (Algorithm3.loop segs noSegs bestMetric n i s).1 = some p →
        segs ≤ p ∧ p < segs + noSegs ∧ readI b0.scan.lineChecked (b0.aliasAt p) = false) ∧
      (Algorithm3.loop segs noSegs bestMetric n i s).2.b.lineDefAlias = b0.lineDefAlias ∧
      (Algorithm3.loop segs noSegs bestMetric n i s).2.b.segStart = b0.segStart ∧
      (∀ a, readI (Algorithm3.loop segs noSegs bestMetric n i s).2.b.scan.lineChecked a = false →
        readI b0.scan.lineChecked a = false) ∧
      (∀ p, (Algorithm3.loop segs noSegs bestMetric n i s).2.pSeg = some p →
        segs ≤ p ∧ p < segs + noSegs ∧ readI b0.scan.lineChecked (b0.aliasAt p) = false) := by
  intro n
  induction n with
  | zero =>
    intro i s _ h1 h2 h3 hp
    simp only [Algorithm3.loop]
    exact ⟨(fun p h => by cases h), h1, h2, h3, hp⟩
  | succ n ih =>
    intro i s hi h1 h2 h3 hp
    simp only [Algorithm3.loop]
    have hal : (s.b.aliasOf (s.b.seg (segs + i)).Data.lineDef).index = b0.aliasAt (segs + i) := by
      simp only [Builder.aliasAt, Builder.aliasOf, Builder.seg, h1, h2]
    by_cases hc : readI s.b.scan.lineChecked (s.b.aliasOf (s.b.seg (segs + i)).Data.lineDef).index
        = true
    · rw [if_pos hc]
      exact ih (i + 1) s (by omega) h1 h2 h3 hp
    · rw [if_neg hc]
      have hc2 : readI s.b.scan.lineChecked (b0.aliasAt (segs + i)) = false := by
        rw [← hal]
        cases hx : readI s.b.scan.lineChecked
          (s.b.aliasOf (s.b.seg (segs + i)).Data.lineDef).index
        · rfl
        · exact absurd hx hc
      have good : segs ≤ segs + i ∧ segs + i < segs + noSegs ∧
          readI b0.scan.lineChecked (b0.aliasAt (segs + i)) = false :=
        ⟨by omega, by omega, h3 _ hc2⟩
      have h3n : ∀ a, readI (writeI s.b.scan.lineChecked
          (s.b.aliasOf (s.b.seg (segs + i)).Data.lineDef).index true) a = false →
          readI b0.scan.lineChecked a = false :=
        fun a ha => h3 a (readI_writeI_true _ _ _ ha)
      split
      · exact ih (i + 1) _ (by omega) h1 h2 h3n hp
      · split_ifs
        · refine ⟨fun p hq => ?_, h1, h2, h3n, hp⟩
          injection hq with hq
          rw [← hq]
          exact good
        · refine ih (i + 1) _ (by omega) h1 h2 h3n ?_
          intro p hq
          injection hq with hq
          rw [← hq]
          exact good
        · exact ih (i + 1) _ (by omega) h1 h2 h3n hp
        · exact ih (i + 1) _ (by omega) h1 h2 h3n hp

theorem Algorithm3_windows_unchecked (b0 : Builder) (segs noSegs : Nat) (bestMetric : Int) :
    ∀ (fuel i max : Nat) (s : Alg1State), i ≤ noSegs → max ≤ noSegs →
      s.b.lineDefAlias = b0.lineDefAlias → s.b.segStart = b0.segStart →
      (∀ a, readI s.b.scan.lineChecked a = false → readI b0.scan.lineChecked a = false) →
      (∀ p, s.pSeg = some p →
        segs ≤ p ∧ p < segs + noSegs ∧ readI b0.scan.lineChecked (b0.aliasAt p) = false) →
      (∀ p, (Algorithm3.windows segs noSegs bestMetric fuel i max s).1 = some p →
        segs ≤ p ∧ p < segs + noSegs ∧ readI b0.scan.lineChecked (b0.aliasAt p) = false) ∧
      (∀ p, (Algorithm3.windows segs noSegs bestMetric fuel i max s).2.pSeg = some p →
        segs ≤ p ∧ p < segs + noSegs ∧ readI b0.scan.lineChecked (b0.aliasAt p) = false) := by
  intro fuel
  induction fuel with
  | zero =>
    intro i max s _ _ _ _ _ hp
    simp only [Algorithm3.windows]
    exact ⟨(fun p h => by cases h), hp⟩
  | succ fuel ih =>
    intro i max s hi hm h1 h2 h3 hp
    simp only [Algorithm3.windows]
    obtain ⟨g1, g2, g3, g4, g5⟩ := Algorithm3_loop_unchecked b0 segs noSegs bestMetric
      (max - i) i s (by omega) h1 h2 h3 hp
    generalize Algorithm3.loop segs noSegs bestMetric (max - i) i s = res at g1 g2 g3 g4 g5
    obtain ⟨o, s2⟩ := res
    cases o with
    | some t =>
      simp only
      exact ⟨g1, g5⟩
    | none =>
      simp only
      split_ifs
      · exact ih max noSegs s2 hm (le_refl _) g2 g3 g4 g5
      · exact ih max (max + 5) s2 hm (by omega) g2 g3 g4 g5
      · exact ⟨(fun p h => by cases h), g5⟩

theorem Algorithm3_unchecked (b : Builder) (segs noSegs : Nat) :
    ReturnsUnchecked Algorithm3 b segs noSegs := by
  intro p scan h
  simp only [Algorithm3] at h
  obtain ⟨g1, g2⟩ := Algorithm3_windows_unchecked b segs noSegs
    (((noSegs / 2 : Nat) : Int) * ((noSegs - noSegs / 2 : Nat) : Int)) (noSegs + 1) 0
    (if noSegs < 30 then noSegs else 30)
    { b := b, pSeg := none, maxMetric := -0x80000000, maxSplits := 0x7FFFFFFF }
    (Nat.zero_le _) (by split_ifs <;> omega) rfl rfl (fun a ha => ha)
    (fun p hq => by cases hq)
  generalize Algorithm3.windows segs noSegs
    (((noSegs / 2 : Nat) : Int) * ((noSegs - noSegs / 2 : Nat) : Int)) (noSegs + 1) 0
    (if noSegs < 30 then noSegs else 30)
    { b := b, pSeg := none, maxMetric := -0x80000000, maxSplits := 0x7FFFFFFF } = res at h g1 g2
  obtain ⟨o, s⟩ := res
  cases o with
  | some t =>
    simp only at h
    injection h with h1 h2
    exact g1 p h1
  | none =>
    simp only at h
    injection h with h1 h2
    exact g2 p h1

/-! ## Termination and progress of `CreateNode` -/

theorem hDividedSplit_eq :
    PartitionNode Algorithm1 (CreateNode.enter hDividedSetup none) hDividedSetup.nodePool.length
      0 6 = .ok (true, hDividedSplit.2.1, 4, 4) := by
  have h := ok_of_isSome (PartitionNode Algorithm1 (CreateNode.enter hDividedSetup none)
    hDividedSetup.nodePool.length 0 6) (by decide!)
  have h1 : hDividedSplit.1 = true := by decide!
  have h2 : hDividedSplit.2.2 = (4, 4) := by decide!
  have e : (hDividedSplit.1, hDividedSplit.2) = (true, hDividedSplit.2.1, 4, 4) := by
    rw [h1, ← h2]
  rw [← e]
  exact h

/-- C12.  `CreateNode` terminates, with every partition function and from every state:
each call takes a node from the pool (or aborts when the pool is empty), so that a
recursion budget above `nodesLeft` is never used up; the call returns or aborts with one
of the fatal errors of the source.  And the recursion makes progress: when a call on a
list of `noSegs > 1` segs goes on to its two recursive calls (`PartitionNode` has
returned `true` with the state `b2` and the list lengths `nl` and `nr`), these are the
call on the `nr` right segs, in the state `CreateNode.mark b2`, and the call on the `nl`
left segs; and in a build (`lineUsed` has `noAliases` entries, the list lies in the seg
array, the aliases of its segs are valid, the partition function returns only a seg of
the list whose alias it has not found checked, every seg of the list is on its own right
side) the right call receives fewer segs than `noSegs` or runs with every alias marked
that was marked before and at least one more, and the left call receives fewer segs
than `noSegs`; on the forced division that keeps sectors unique both calls receive fewer
segs. -/
theorem CreateNode_terminates (pf : PartitionFn) (fuel : Nat) (b : Builder) (prev : Option Nat)
    (rSegs noSegs : Nat) (hfuel : b.nodesLeft < fuel) :
    CreateNode pf fuel b prev rSegs noSegs ≠ .error .outOfFuel ∧
    ∀ b2 nl nr, 1 < noSegs →
      PartitionNode pf (CreateNode.enter b prev) b.nodePool.length rSegs noSegs
        = .ok (true, b2, nl, nr) →
      (∀ f r, CreateNode pf (f + 1) b prev rSegs noSegs = .ok r →
        ∃ b3 rNode nr2 lSegs b4 lNode nl2 x,
          CreateNode pf f (CreateNode.mark b2 b.scan.convexList.length) prev rSegs nr
            = .ok (b3, rNode, nr2, lSegs) ∧
          CreateNode pf f (CreateNode.setChild0 b3 b.nodePool.length rNode) (some rNode)
            lSegs nl = .ok (b4, lNode, nl2, x)) ∧
      (b.lineUsed.length = b.noAliases → rSegs + noSegs ≤ b.segStart.length →
        (∀ j, j < noSegs →
          0 ≤ b.aliasAt (rSegs + j) ∧ b.aliasAt (rSegs + j) < b.noAliases) →
        ReturnsUnchecked pf (ChoosePartition.input (CreateNode.enter b prev)) rSegs noSegs →
        (∀ j, j < noSegs → selfSide b (b.seg (rSegs + j)) = SIDE_RIGHT) →
        (nr < noSegs ∨
          MoreUsed b.lineUsed (CreateNode.mark b2 b.scan.convexList.length).lineUsed) ∧
        nl < noSegs) := by
  refine ⟨(CreateNode_fuel pf fuel b prev rSegs noSegs hfuel).1, ?_⟩
  intro b2 nl nr hn hp
  refine ⟨?_, fun hlen hin hal hpf hown =>
    CreateNode_progress pf b prev rSegs noSegs b2 nl nr hp hlen hin hal hpf hown⟩
  intro f r hr
  obtain ⟨_, hc⟩ := CreateNode_cases pf f b prev rSegs noSegs r hr
  rcases hc with ⟨h1, _⟩ | ⟨_, b2', nl', nr', hp', _⟩ |
    ⟨_, b2', nl', nr', b3, rNode, nr2, lSegs, b4, lNode, nl2, x, hp', hr1, hr2, _⟩
  · omega
  · rw [hp] at hp'
    injection hp' with hp'
    injection hp' with hp'
    cases hp'
  · rw [hp] at hp'
    injection hp' with hp'
    injection hp' with _ hp'
    injection hp' with e1 hp'
    injection hp' with e2 e3
    subst e1 e2 e3
    exact ⟨b3, rNode, nr2, lSegs, b4, lNode, nl2, x, hr1, hr2⟩

theorem CreateNode_terminates_witness :
    hDividedSetup.nodesLeft < 12 ∧
    CreateNode Algorithm1 12 hDividedSetup none 0 6 ≠ .error .outOfFuel ∧
    ((4 < 6 ∨ MoreUsed hDividedSetup.lineUsed
        (CreateNode.mark hDividedSplit.2.1 hDividedSetup.scan.convexList.length).lineUsed) ∧
      4 < 6) :=
  ⟨by decide!,
   (CreateNode_terminates Algorithm1 12 hDividedSetup none 0 6 (by decide!)).1,
   ((CreateNode_terminates Algorithm1 12 hDividedSetup none 0 6 (by decide!)).2
      hDividedSplit.2.1 4 4 (by decide) hDividedSplit_eq).2
     (by decide!) (by decide!) (by decide!) (Algorithm1_unchecked _ _ _) (by decide!)⟩

/-! ## The candidates of `Algorithm2` -/

theorem classify2_spec (bc : Builder) (segs : Nat) :
    ∀ (n j : Nat) (count : Counts) (used : List Nat) (invalid : Int),
      (Algorithm2.classify bc segs n j (count, used, invalid)).2.2
        = invalid + ((List.range' j n).countP (fun k =>
            WhichSide bc (bc.seg (segs + k)) == SIDE_SPLIT && (bc.seg (segs + k)).noSplit) : Nat) ∧
      (Algorithm2.classify bc segs n j (count, used, invalid)).1.lCount
          + (Algorithm2.classify bc segs n j (count, used, invalid)).1.sCount
        = count.lCount + count.sCount + ((List.range' j n).countP (fun k =>
            WhichSide bc (bc.seg (segs + k)) != SIDE_RIGHT) : Nat) := by
  intro n
  induction n with
  | zero =>
    intro j count used invalid
    simp [Algorithm2.classify]
  | succ n ih =>
    intro j count used invalid
    simp only [Algorithm2.classify, List.range'_succ, List.countP_cons]
    rcases WhichSide_range bc (bc.seg (segs + j)) with h | h | h
    · obtain ⟨i1, i2⟩ := ih (j + 1) { count with lCount := count.lCount + 1 }
        (orAt used (bc.seg (segs + j)).Sector 0xF0) invalid
      rw [h, if_pos rfl, i1, i2]
      generalize List.countP (fun k => WhichSide bc (bc.seg (segs + k)) == SIDE_SPLIT &&
        (bc.seg (segs + k)).noSplit) (List.range' (j + 1) n) = A
      generalize List.countP (fun k => WhichSide bc (bc.seg (segs + k)) != SIDE_RIGHT)
        (List.range' (j + 1) n) = B
      constructor
      · simp [SIDE_LEFT, SIDE_SPLIT]
      · simp [SIDE_LEFT, SIDE_RIGHT]
        ring
    · obtain ⟨i1, i2⟩ := ih (j + 1) { count with sCount := count.sCount + 1 }
        (orAt used (bc.seg (segs + j)).Sector 0xFF)
        (if (bc.seg (segs + j)).noSplit then invalid + 1 else invalid)
      rw [h, if_neg (by decide), if_pos rfl, i1, i2]
      generalize List.countP (fun k => WhichSide bc (bc.seg (segs + k)) == SIDE_SPLIT &&
        (bc.seg (segs + k)).noSplit) (List.range' (j + 1) n) = A
      generalize List.countP (fun k => WhichSide bc (bc.seg (segs + k)) != SIDE_RIGHT)
        (List.range' (j + 1) n) = B
      constructor
      · cases (bc.seg (segs + j)).noSplit <;> simp
        ring
      · simp [SIDE_SPLIT, SIDE_RIGHT]
        ring
    · obtain ⟨i1, i2⟩ := ih (j + 1) { count with rCount := count.rCount + 1 }
        (orAt used (bc.seg (segs + j)).Sector 0x0F) invalid
      rw [h, if_neg (by decide), if_neg (by decide), if_pos rfl, i1, i2]
      generalize List.countP (fun k => WhichSide bc (bc.seg (segs + k)) == SIDE_SPLIT &&
        (bc.seg (segs + k)).noSplit) (List.range' (j + 1) n) = A
      generalize List.countP (fun k => WhichSide bc (bc.seg (segs + k)) != SIDE_RIGHT)
        (List.range' (j + 1) n) = B
      constructor
      · simp [SIDE_RIGHT, SIDE_SPLIT]
      · simp

theorem count_false_set (l : List Bool) : ∀ (i : Nat), i < l.length → l.getD i false = false →
    (l.set i true).count false + 1 = l.count false := by
  induction l with
  | nil =>
    intro i h _
    simp at h
  | cons x l ih =>
    intro i h hx
    cases i with
    | zero =>
      simp only [List.getD_cons_zero] at hx
      rw [hx]
      simp
    | succ i =>
      simp only [List.getD_cons_succ] at hx
      simp only [List.length_cons, Nat.add_lt_add_iff_right] at h
      have := ih i h hx
      cases x <;> simp [List.set_cons_succ, List.count_cons] <;> omega

theorem take_set_succ {α : Type} (l : List α) (i : Nat) (x : α) (h : i < l.length) :
    (l.set i x).take (i + 1) = l.take i ++ [x] := by
  induction l generalizing i with
  | nil => simp at h
  | cons a l ih =>
    cases i with
    | zero => simp
    | succ i =>
      simp only [List.length_cons, Nat.add_lt_add_iff_right] at h
      simp [List.set_cons_succ, ih i h]

theorem take_set_self {α : Type} (l : List α) (i : Nat) (x : α) :
    (l.set i x).take i = l.take i := by
  induction l generalizing i with
  | nil => simp
  | cons a l ih =>
    cases i with
    | zero => simp
    | succ i => simp [List.set_cons_succ, ih i]

theorem classify_congr (b1 b2 : Builder) (segs : Nat)
    (hw : ∀ s, WhichSide b1 s = WhichSide b2 s) (hs : b1.segStart = b2.segStart) :
    ∀ (n j : Nat) (st : Counts × List Nat × Int),
      Algorithm2.classify b1 segs n j st = Algorithm2.classify b2 segs n j st := by
  have hseg : ∀ i, b1.seg i = b2.seg i := fun i => by simp only [Builder.seg, hs]
  intro n
  induction n with
  | zero =>
    intro j st
    rfl
  | succ n ih =>
    intro j st
    obtain ⟨c, u, v⟩ := st
    simp only [Algorithm2.classify]
    rw [ih, hseg, hw]

/-- What the body of the loop of `Algorithm2` does with a seg whose alias is unchecked. -/
theorem candidate_props (segs noSegs k : Nat) (al : Int) (bs : Builder) (ns : Nat) :
    (Algorithm2.candidate segs noSegs k al bs ns).1.lineDefAlias = bs.lineDefAlias ∧
    (Algorithm2.candidate segs noSegs k al bs ns).1.sideInfo = bs.sideInfo ∧
    (Algorithm2.candidate segs noSegs k al bs ns).1.newVertices = bs.newVertices ∧
    (Algorithm2.candidate segs noSegs k al bs ns).1.segStart = bs.segStart ∧
    (Algorithm2.candidate segs noSegs k al bs ns).1.scan.lineChecked
      = writeI bs.scan.lineChecked al true ∧
    ∃ cur, (Algorithm2.candidate segs noSegs k al bs ns).1.scan.score
        = bs.scan.score.set ns cur ∧
      cur.invalid
        = (Algorithm2.sides (ComputeStaticVariables bs (bs.seg (segs + k))) segs noSegs).2.2 ∧
      (((Algorithm2.sides (ComputeStaticVariables bs (bs.seg (segs + k))) segs noSegs).1.lCount
          + (Algorithm2.sides (ComputeStaticVariables bs (bs.seg (segs + k))) segs noSegs).1.sCount
          ≠ 0 ∧
        (Algorithm2.candidate segs noSegs k al bs ns).2 = ns + 1 ∧ cur.index = k) ∨
       ((Algorithm2.sides (ComputeStaticVariables bs (bs.seg (segs + k))) segs noSegs).1.lCount
          + (Algorithm2.sides (ComputeStaticVariables bs (bs.seg (segs + k))) segs noSegs).1.sCount
          = 0 ∧
        (Algorithm2.candidate segs noSegs k al bs ns).2 = ns)) := by
  have hsd : Algorithm2.sides (ComputeStaticVariables { bs with scan := { bs.scan with
      lineChecked := writeI bs.scan.lineChecked al true } } (bs.seg (segs + k))) segs noSegs
      = Algorithm2.sides (ComputeStaticVariables bs (bs.seg (segs + k))) segs noSegs := by
    unfold Algorithm2.sides
    exact classify_congr
      (ComputeStaticVariables { bs with scan := { bs.scan with
        lineChecked := writeI bs.scan.lineChecked al true } } (bs.seg (segs + k)))
      (ComputeStaticVariables bs (bs.seg (segs + k))) segs
      (fun s => WhichSide_congr _ _ _ rfl rfl rfl rfl) rfl noSegs 0
      (⟨0, 0, 0⟩, blit bs.scan.usedSector 0 (List.replicate bs.sectorCount 0), 0)
  unfold Algorithm2.candidate
  simp only
  have e1 : ({ bs with scan := { bs.scan with
      lineChecked := writeI bs.scan.lineChecked al true } } : Builder).seg (segs + k)
      = bs.seg (segs + k) := rfl
  rw [e1, hsd]
  generalize Algorithm2.sides (ComputeStaticVariables bs (bs.seg (segs + k))) segs noSegs = cl
  obtain ⟨count, used, invalid⟩ := cl
  simp only
  split_ifs with hz
  · exact ⟨rfl, rfl, rfl, rfl, rfl, _, rfl, rfl, Or.inl ⟨hz, rfl, rfl⟩⟩
  · exact ⟨rfl, rfl, rfl, rfl, rfl, _, rfl, rfl, Or.inr ⟨not_not.mp hz, rfl⟩⟩

theorem sides_spec (b bs : Builder) (segs noSegs k : Nat)
    (h1 : bs.lineDefAlias = b.lineDefAlias) (h2 : bs.sideInfo = b.sideInfo)
    (h3 : bs.newVertices = b.newVertices) (h4 : bs.segStart = b.segStart) :
    (Algorithm2.sides (ComputeStaticVariables bs (bs.seg (segs + k))) segs noSegs).2.2
      = (invalidOf b segs noSegs k : Int) ∧
    ((Algorithm2.sides (ComputeStaticVariables bs (bs.seg (segs + k))) segs noSegs).1.lCount
        + (Algorithm2.sides (ComputeStaticVariables bs (bs.seg (segs + k))) segs noSegs).1.sCount
        ≠ 0 ↔
      (List.range noSegs).any (fun j => sideOf b segs k j != SIDE_RIGHT) = true) := by
  have hseg : ∀ i, bs.seg i = b.seg i := fun i => by simp only [Builder.seg, h4]
  have hw : ∀ j, WhichSide (ComputeStaticVariables bs (bs.seg (segs + k)))
      ((ComputeStaticVariables bs (bs.seg (segs + k))).seg (segs + j)) = sideOf b segs k j := by
    intro j
    unfold sideOf
    rw [seg_ComputeStaticVariables, hseg, hseg]
    exact WhichSide_congr _ _ _ h1 h2 h3 (statics_congr _ _ _ h1 h2 h3)
  have hns : ∀ j, ((ComputeStaticVariables bs (bs.seg (segs + k))).seg (segs + j)).noSplit
      = (b.seg (segs + j)).noSplit := by
    intro j
    rw [seg_ComputeStaticVariables, hseg]
  obtain ⟨c1, c2⟩ := classify2_spec (ComputeStaticVariables bs (bs.seg (segs + k))) segs noSegs 0
    ⟨0, 0, 0⟩ (blit (ComputeStaticVariables bs (bs.seg (segs + k))).scan.usedSector 0
      (List.replicate (ComputeStaticVariables bs (bs.seg (segs + k))).sectorCount 0)) 0
  simp only [hw, hns] at c1 c2
  unfold Algorithm2.sides
  rw [c1, c2]
  simp only [← List.range_eq_range', zero_add]
  refine ⟨rfl, ?_⟩
  rw [List.any_eq_true]
  constructor
  · intro h
    have hp : 0 < List.countP (fun j => sideOf b segs k j != SIDE_RIGHT) (List.range noSegs) := by
      omega
    obtain ⟨x, hx, hpx⟩ := List.countP_pos_iff.mp hp
    exact ⟨x, hx, hpx⟩
  · rintro ⟨x, hx, hpx⟩
    have : 0 < List.countP (fun j => sideOf b segs k j != SIDE_RIGHT) (List.range noSegs) :=
      List.countP_pos_iff.mpr ⟨x, hx, hpx⟩
    omega

theorem eligible_iff (b : Builder) (segs noSegs k : Nat) (lc : List Bool)
    (ha : 0 ≤ b.aliasAt (segs + k))
    (h5 : (lc.getD (b.aliasAt (segs + k)).toNat false = true ↔
      (b.scan.lineChecked.getD (b.aliasAt (segs + k)).toNat false = true ∨
        ∃ j, j < k ∧ b.aliasAt (segs + j) = ((b.aliasAt (segs + k)).toNat : Int)))) :
    eligible b segs noSegs k = true ↔
      (lc.getD (b.aliasAt (segs + k)).toNat false = false ∧
        (List.range noSegs).any (fun j => sideOf b segs k j != SIDE_RIGHT) = true) := by
  have hcast : ((b.aliasAt (segs + k)).toNat : Int) = b.aliasAt (segs + k) := Int.toNat_of_nonneg ha
  rw [hcast] at h5
  unfold eligible
  rw [readI_nonneg _ _ (not_lt.mpr ha)]
  simp only [Bool.and_eq_true, Bool.not_eq_true', List.all_eq_true, List.mem_range, bne_iff_ne,
    ne_eq]
  constructor
  · rintro ⟨⟨u1, u2⟩, u3⟩
    refine ⟨?_, u3⟩
    cases hx : lc.getD (b.aliasAt (segs + k)).toNat false with
    | false => rfl
    | true =>
      rcases h5.mp hx with h | ⟨j, hj, e⟩
      · rw [u1] at h
        cases h
      · exact absurd e (u2 j hj)
  · rintro ⟨v1, v3⟩
    refine ⟨⟨?_, ?_⟩, v3⟩
    · cases hx : b.scan.lineChecked.getD (b.aliasAt (segs + k)).toNat false with
      | false => rfl
      | true =>
        rw [h5.mpr (Or.inl hx)] at v1
        cases v1
    · intro j hj e
      rw [h5.mpr (Or.inr ⟨j, hj, e⟩)] at v1
      cases v1

theorem getD_writeI_true (l : List Bool) (a : Int) (x : Nat) (ha : 0 ≤ a) (hx : x < l.length) :
    (writeI l a true).getD x false = true ↔ (l.getD x false = true ∨ x = a.toNat) := by
  unfold writeI
  rw [if_neg (not_lt.mpr ha)]
  by_cases e : a.toNat = x
  · subst e
    simp [List.getD_eq_getElem?_getD, List.getElem?_set, hx]
  · simp only [List.getD_eq_getElem?_getD, List.getElem?_set, if_neg e]
    constructor
    · exact fun h => Or.inl h
    · rintro (h | h)
      · exact h
      · exact absurd h.symm e

theorem length_writeI {α : Type} (l : List α) (a : Int) (v : α) :
    (writeI l a v).length = l.length := by
  unfold writeI
  split_ifs
  · rfl
  · exact List.length_set _ _ _

theorem count_false_pos (l : List Bool) (i : Nat) (h : i < l.length)
    (hx : l.getD i false = false) : 0 < l.count false := by
  rw [List.count_pos_iff]
  rw [List.getD_eq_getElem _ _ h] at hx
  rw [← hx]
  exact List.getElem_mem _

theorem filter_range_succ (p : Nat → Bool) (k : Nat) :
    (List.range (k + 1)).filter p = (List.range k).filter p ++ (if p k then [k] else []) := by
  rw [List.range_succ, List.filter_append]
  congr 1
  by_cases h : p k = true
  · simp [h]
  · simp [h]

theorem scan_skip (b : Builder) (segs noSegs k : Nat) (bs : Builder) (ns : Nat)
    (hs : Algorithm2.Scanned b segs noSegs k (bs, ns))
    (ha : 0 ≤ b.aliasAt (segs + k)) (hlt : b.aliasAt (segs + k) < b.noAliases)
    (hc : bs.scan.lineChecked.getD (b.aliasAt (segs + k)).toNat false = true) :
    Algorithm2.Scanned b segs noSegs (k + 1) (bs, ns) := by
  obtain ⟨h1, h2, h3, h4, h5, h6, h7, h8, h9⟩ := hs
  have hcast : ((b.aliasAt (segs + k)).toNat : Int) = b.aliasAt (segs + k) := Int.toNat_of_nonneg ha
  have hlt2 : (b.aliasAt (segs + k)).toNat < b.noAliases := by omega
  refine ⟨h1, h2, h3, h4, h5, ?_, h7, h8, ?_⟩
  · intro x hx
    rw [h6 x hx]
    constructor
    · rintro (h | ⟨j, hj, e⟩)
      · exact Or.inl h
      · exact Or.inr ⟨j, by omega, e⟩
    · rintro (h | ⟨j, hj, e⟩)
      · exact Or.inl h
      · by_cases hjk : j < k
        · exact Or.inr ⟨j, hjk, e⟩
        · have hj2 : j = k := by omega
          rw [hj2] at e
          have hx2 : x = (b.aliasAt (segs + k)).toNat := by omega
          rw [hx2]
          exact (h6 _ hlt2).mp hc
  · have he : eligible b segs noSegs k = false := by
      cases hx : eligible b segs noSegs k with
      | false => rfl
      | true =>
        have := ((eligible_iff b segs noSegs k bs.scan.lineChecked ha (h6 _ hlt2)).mp hx).1
        rw [hc] at this
        cases this
    rw [filter_range_succ, he]
    simpa using h9

theorem scan_candidate (b : Builder) (segs noSegs k : Nat) (bs : Builder) (ns : Nat)
    (hs : Algorithm2.Scanned b segs noSegs k (bs, ns))
    (ha : 0 ≤ b.aliasAt (segs + k)) (hlt : b.aliasAt (segs + k) < b.noAliases)
    (hc : bs.scan.lineChecked.getD (b.aliasAt (segs + k)).toNat false = false) :
    Algorithm2.Scanned b segs noSegs (k + 1)
      (Algorithm2.candidate segs noSegs k (b.aliasAt (segs + k)) bs ns) := by
  obtain ⟨h1, h2, h3, h4, h5, h6, h7, h8, h9⟩ := hs
  simp only at h1 h2 h3 h4 h5 h6 h7 h8 h9
  have hcast : ((b.aliasAt (segs + k)).toNat : Int) = b.aliasAt (segs + k) := Int.toNat_of_nonneg ha
  have hlt2 : (b.aliasAt (segs + k)).toNat < b.noAliases := by omega
  obtain ⟨c1, c2, c3, c4, c5, cur, hscore, hinv, hcase⟩ :=
    candidate_props segs noSegs k (b.aliasAt (segs + k)) bs ns
  obtain ⟨s1, s2⟩ := sides_spec b bs segs noSegs k h1 h2 h3 h4
  have hel := eligible_iff b segs noSegs k bs.scan.lineChecked ha (h6 _ hlt2)
  have hcnt := count_false_set bs.scan.lineChecked (b.aliasAt (segs + k)).toNat
    (by rw [h5]; exact hlt2) hc
  have hpos := count_false_pos bs.scan.lineChecked (b.aliasAt (segs + k)).toNat
    (by rw [h5]; exact hlt2) hc
  have hw : writeI bs.scan.lineChecked (b.aliasAt (segs + k)) true
      = bs.scan.lineChecked.set (b.aliasAt (segs + k)).toNat true := by
    unfold writeI
    rw [if_neg (not_lt.mpr ha)]
  have hns : ns < bs.scan.score.length := by omega
  have hr2 : (Algorithm2.candidate segs noSegs k (b.aliasAt (segs + k)) bs ns).2 ≤ ns + 1 := by
    rcases hcase with ⟨_, e, _⟩ | ⟨_, e⟩ <;> omega
  refine ⟨c1.trans h1, c2.trans h2, c3.trans h3, c4.trans h4, ?_, ?_, ?_, ?_, ?_⟩
  · show (Algorithm2.candidate segs noSegs k (b.aliasAt (segs + k)) bs ns).1.scan.lineChecked.length
      = b.noAliases
    rw [c5, length_writeI, h5]
  · intro x hx
    show (Algorithm2.candidate segs noSegs k (b.aliasAt (segs + k)) bs ns).1.scan.lineChecked.getD
      x false = true ↔ _
    rw [c5, getD_writeI_true _ _ _ ha (by rw [h5]; exact hx), h6 x hx]
    constructor
    · rintro ((h | ⟨j, hj, e⟩) | h)
      · exact Or.inl h
      · exact Or.inr ⟨j, by omega, e⟩
      · exact Or.inr ⟨k, by omega, by rw [h, hcast]⟩
    · rintro (h | ⟨j, hj, e⟩)
      · exact Or.inl (Or.inl h)
      · by_cases hjk : j < k
        · exact Or.inl (Or.inr ⟨j, hjk, e⟩)
        · have hj2 : j = k := by omega
          rw [hj2] at e
          exact Or.inr (by omega)
  · show (Algorithm2.candidate segs noSegs k (b.aliasAt (segs + k)) bs ns).1.scan.score.length
      = b.noAliases
    rw [hscore, List.length_set, h7]
  · show (Algorithm2.candidate segs noSegs k (b.aliasAt (segs + k)) bs ns).2
      + (Algorithm2.candidate segs noSegs k (b.aliasAt (segs + k)) bs ns).1.scan.lineChecked.count
          false ≤ b.noAliases
    rw [c5, hw]
    omega
  · show ((Algorithm2.candidate segs noSegs k (b.aliasAt (segs + k)) bs ns).1.scan.score.take
        (Algorithm2.candidate segs noSegs k (b.aliasAt (segs + k)) bs ns).2).map
          (fun c => (c.index, c.invalid)) = _
    rw [filter_range_succ, hscore]
    rcases hcase with ⟨hnz, e, hidx⟩ | ⟨hz, e⟩
    · have he : eligible b segs noSegs k = true := hel.mpr ⟨hc, s2.mp hnz⟩
      rw [e, he, take_set_succ _ _ _ hns, List.map_append, h9, if_pos rfl, List.map_append]
      congr 1
      simp only [List.map_cons, List.map_nil]
      rw [hidx, hinv, s1]
    · have he : eligible b segs noSegs k = false := by
        cases hx : eligible b segs noSegs k with
        | false => rfl
        | true =>
          have := s2.mpr (hel.mp hx).2
          exact absurd hz this
      rw [e, he, take_set_self, h9]
      simp

theorem scan_loop (b : Builder) (segs noSegs : Nat)
    (hal : ∀ j, j < noSegs → 0 ≤ b.aliasAt (segs + j) ∧ b.aliasAt (segs + j) < b.noAliases) :
    ∀ (n k : Nat) (s : Builder × Nat), k + n = noSegs → Algorithm2.Scanned b segs noSegs k s →
      Algorithm2.Scanned b segs noSegs noSegs (Algorithm2.loop segs noSegs n k s) := by
  intro n
  induction n with
  | zero =>
    intro k s hk hs
    simp only [Algorithm2.loop]
    have e : k = noSegs := by omega
    rw [e] at hs
    exact hs
  | succ n ih =>
    intro k s hk hs
    obtain ⟨bs, ns⟩ := s
    obtain ⟨ha, hlt⟩ := hal k (by omega)
    have h1 : bs.lineDefAlias = b.lineDefAlias := hs.1
    have h4 : bs.segStart = b.segStart := hs.2.2.2.1
    have hal2 : (bs.aliasOf (bs.seg (segs + k)).Data.lineDef).index = b.aliasAt (segs + k) := by
      simp only [Builder.aliasAt, Builder.aliasOf, Builder.seg, h1, h4]
    simp only [Algorithm2.loop]
    rw [hal2, readI_nonneg _ _ (not_lt.mpr ha)]
    by_cases hc : bs.scan.lineChecked.getD (b.aliasAt (segs + k)).toNat false = true
    · rw [if_pos hc]
      exact ih (k + 1) _ (by omega) (scan_skip b segs noSegs k bs ns hs ha hlt hc)
    · rw [if_neg hc]
      have hc2 : bs.scan.lineChecked.getD (b.aliasAt (segs + k)).toNat false = false := by
        cases hx : bs.scan.lineChecked.getD (b.aliasAt (segs + k)).toNat false
        · rfl
        · exact absurd hx hc
      exact ih (k + 1) _ (by omega) (scan_candidate b segs noSegs k bs ns hs ha hlt hc2)

/-- The first loop of `Algorithm2` stores the eligible segs of the list, in their order,
each with its number of invalid splits. -/
theorem scan_spec (b : Builder) (segs noSegs : Nat)
    (hchk : b.scan.lineChecked.length = b.noAliases)
    (hal : ∀ j, j < noSegs → 0 ≤ b.aliasAt (segs + j) ∧ b.aliasAt (segs + j) < b.noAliases) :
    Algorithm2.Scanned b segs noSegs noSegs (Algorithm2.scan b segs noSegs) := by
  unfold Algorithm2.scan
  apply scan_loop b segs noSegs hal noSegs 0 _ (by omega)
  refine ⟨rfl, rfl, rfl, rfl, hchk, ?_, ?_, ?_, ?_⟩
  · intro a _
    constructor
    · exact fun h => Or.inl h
    · rintro (h | ⟨j, hj, _⟩)
      · exact h
      · omega
  · simp
  · show 0 + b.scan.lineChecked.count false ≤ b.noAliases
    have := List.count_le_length false b.scan.lineChecked
    omega
  · simp

/-! ## Sorting and ranking the candidates of `Algorithm2` -/

theorem qsortScores_append (cmp : sScoreInfo → sScoreInfo → Int) (L rest : List sScoreInfo) :
    qsortScores cmp (L ++ rest) L.length
      = List.insertionSort (fun s1 s2 => cmp s1 s2 ≤ 0) L ++ rest := by
  unfold qsortScores slice blit
  simp only [List.drop_zero, List.take_left', List.take_zero, List.nil_append, Nat.zero_add,
    List.length_insertionSort, List.drop_left']

theorem getD_append_length {α : Type} (pre rest : List α) (c d : α) :
    (pre ++ c :: rest).getD pre.length d = c := by
  rw [List.getD_eq_getElem?_getD, List.getElem?_append_right (le_refl _), Nat.sub_self]
  simp

theorem getD_append_succ {α : Type} (pre rest : List α) (c d : α) :
    (pre ++ c :: rest).getD (pre.length + 1) d = rest.getD 0 d := by
  rw [List.getD_eq_getElem?_getD, List.getElem?_append_right (by omega)]
  simp [List.getD_eq_getElem?_getD]

theorem set_append_length {α : Type} (pre rest : List α) (c x : α) :
    (pre ++ c :: rest).set pre.length x = pre ++ x :: rest := by
  induction pre with
  | nil => rfl
  | cons a pre ih =>
    simp only [List.cons_append, List.length_cons, List.set_cons_succ, ih]

theorem rank_step (key : sScoreInfo → Int) (add : Bool) (n i : Nat) (r : Int)
    (score : List sScoreInfo) :
    Algorithm2.rank key add (n + 1) i r score
      = Algorithm2.rank key add n (i + 1)
          (if key ((score.set i (withRank add (score.getD i default) r)).getD i default)
              ≠ key ((score.set i (withRank add (score.getD i default) r)).getD (i + 1) default)
            then r + 1 else r)
          (score.set i (withRank add (score.getD i default) r)) := rfl

theorem rank_append (key : sScoreInfo → Int) (add : Bool)
    (hkey : ∀ c r, key (withRank add c r) = key c) :
    ∀ (L pre rest : List sScoreInfo) (r : Int),
      Algorithm2.rank key add L.length pre.length r (pre ++ (L ++ rest))
        = pre ++ (rankList key add r L ++ rest) := by
  intro L
  induction L with
  | nil =>
    intro pre rest r
    simp [Algorithm2.rank, rankList]
  | cons c L ih =>
    intro pre rest r
    rw [List.length_cons, rank_step, List.cons_append, getD_append_length, set_append_length,
      getD_append_length, getD_append_succ, hkey]
    have e : pre ++ withRank add c r :: (L ++ rest)
        = (pre ++ [withRank add c r]) ++ (L ++ rest) := by
      simp
    have el : pre.length + 1 = (pre ++ [withRank add c r]).length := by simp
    rw [e, el, ih]
    cases L with
    | nil =>
      simp [rankList]
    | cons d L =>
      simp [rankList, List.getD_eq_getElem?_getD]

theorem length_rankList (key : sScoreInfo → Int) (add : Bool) :
    ∀ (L : List sScoreInfo) (r : Int), (rankList key add r L).length = L.length := by
  intro L
  induction L with
  | nil =>
    intro r
    rfl
  | cons c L ih =>
    intro r
    cases L with
    | nil => rfl
    | cons d L =>
      simp only [rankList, List.length_cons]
      rw [ih]
      rfl

/-- On a list sorted by `key`, descending, the ranking loop stores dense ranks: with a
start rank that counts the keys `P` above all keys of the list, each candidate gets the
number of distinct keys above its own. -/
theorem rankList_dense (key : sScoreInfo → Int) (add : Bool) :
    ∀ (L : List sScoreInfo) (P : Finset Int),
      L.Pairwise (fun a b => key b ≤ key a) →
      (∀ p ∈ P, ∀ c ∈ L, key c < p) →
      rankList key add (P.card : Int) L
        = L.map (fun c => withRank add c
            (((P ∪ (L.map key).toFinset).filter (fun v => key c < v)).card : Int)) := by
  intro L
  induction L with
  | nil =>
    intro P _ _
    rfl
  | cons c L ih =>
    intro P hs hP
    have hc : ∀ x ∈ L, key x ≤ key c := (List.pairwise_cons.mp hs).1
    have hhead : (P ∪ ((c :: L).map key).toFinset).filter (fun v => key c < v) = P := by
      ext v
      simp only [Finset.mem_filter, Finset.mem_union, List.mem_toFinset, List.mem_map]
      constructor
      · rintro ⟨h | ⟨x, hx, e⟩, hlt⟩
        · exact h
        · exfalso
          rcases List.mem_cons.mp hx with h | h
          · rw [h] at e
            omega
          · have := hc x h
            omega
      · intro h
        exact ⟨Or.inl h, hP v h c (List.mem_cons_self _ _)⟩
    cases L with
    | nil =>
      simp only [rankList, List.map_cons, List.map_nil] at hhead ⊢
      rw [hhead]
    | cons d L =>
      have hd : key d ≤ key c := hc d (List.mem_cons_self _ _)
      have hnot : key c ∉ P := fun h => by
        have := hP _ h c (List.mem_cons_self _ _)
        omega
      have hset : (if key c ≠ key d then insert (key c) P else P) ∪ ((d :: L).map key).toFinset
          = P ∪ ((c :: d :: L).map key).toFinset := by
        ext v
        by_cases hk : key c = key d
        · simp only [hk, ne_eq, not_true_eq_false, if_false, Finset.mem_union, List.mem_toFinset,
            List.map_cons, List.mem_cons]
          tauto
        · simp only [ne_eq, hk, not_false_eq_true, if_true, Finset.mem_union, Finset.mem_insert,
            List.mem_toFinset, List.map_cons, List.mem_cons]
          tauto
      have hcard : (((if key c ≠ key d then insert (key c) P else P).card : Nat) : Int)
          = if key c ≠ key d then (P.card : Int) + 1 else P.card := by
        by_cases hk : key c = key d
        · simp [hk]
        · simp [hk, Finset.card_insert_of_not_mem hnot]
      have := ih (if key c ≠ key d then insert (key c) P else P) (List.pairwise_cons.mp hs).2
        (by
          intro p hp x hx
          have hxd : key x ≤ key d := by
            rcases List.mem_cons.mp hx with h | h
            · rw [h]
            · exact (List.pairwise_cons.mp (List.pairwise_cons.mp hs).2).1 x h
          by_cases hk : key c = key d
          · rw [if_neg (by simpa using hk)] at hp
            exact hP p hp x (List.mem_cons_of_mem _ hx)
          · rw [if_pos hk] at hp
            rcases Finset.mem_insert.mp hp with h | h
            · rw [h]
              omega
            · exact hP p h x (List.mem_cons_of_mem _ hx))
      rw [hcard, hset] at this
      rw [rankList, this]
      simp only [List.map_cons] at hhead ⊢
      rw [hhead]

theorem sortMetric1_total : IsTotal sScoreInfo (fun s1 s2 => sortMetric1 s1 s2 ≤ 0) :=
  ⟨fun a b => by
    unfold sortMetric1
    split_ifs <;> omega⟩

theorem sortMetric1_trans : IsTrans sScoreInfo (fun s1 s2 => sortMetric1 s1 s2 ≤ 0) :=
  ⟨fun a b c => by
    unfold sortMetric1
    split_ifs <;> omega⟩

theorem sortMetric2_total : IsTotal sScoreInfo (fun s1 s2 => sortMetric2 s1 s2 ≤ 0) :=
  ⟨fun a b => by
    unfold sortMetric2
    split_ifs <;> omega⟩

theorem sortMetric2_trans : IsTrans sScoreInfo (fun s1 s2 => sortMetric2 s1 s2 ≤ 0) :=
  ⟨fun a b c => by
    unfold sortMetric2
    split_ifs <;> omega⟩

theorem sortTotalMetric_total : IsTotal sScoreInfo (fun s1 s2 => sortTotalMetric s1 s2 ≤ 0) :=
  ⟨fun a b => by
    unfold sortTotalMetric
    split_ifs <;> omega⟩

theorem sortTotalMetric_trans : IsTrans sScoreInfo (fun s1 s2 => sortTotalMetric s1 s2 ≤ 0) :=
  ⟨fun a b c => by
    unfold sortTotalMetric
    split_ifs <;> omega⟩

theorem sortMetric1_key (a b : sScoreInfo) (h : sortMetric1 a b ≤ 0) : b.metric1 ≤ a.metric1 := by
  unfold sortMetric1 at h
  split_ifs at h <;> omega

theorem sortMetric2_key (a b : sScoreInfo) (h : sortMetric2 a b ≤ 0) : b.metric2 ≤ a.metric2 := by
  unfold sortMetric2 at h
  split_ifs at h <;> omega

theorem sortTotalMetric_iff (a b : sScoreInfo) :
    sortTotalMetric a b ≤ 0 ↔ lexLE (a.invalid, a.total, a.index) (b.invalid, b.total, b.index) := by
  unfold sortTotalMetric lexLE
  simp only
  split_ifs <;> omega

theorem denseRank_perm (key : sScoreInfo → Int) (L M : List sScoreInfo) (h : L.Perm M)
    (c : sScoreInfo) : denseRank key L c = denseRank key M c := by
  unfold denseRank
  rw [List.toFinset_eq_of_perm _ _ (h.map key)]

/-- The sorted list of `rankList`, from rank 0: every candidate gets its dense rank. -/
theorem rankList_sorted (key : sScoreInfo → Int) (add : Bool) (S : List sScoreInfo)
    (hs : S.Pairwise (fun a b => key b ≤ key a)) :
    rankList key add 0 S = S.map (fun c => withRank add c (denseRank key S c)) := by
  have := rankList_dense key add S ∅ hs (fun p hp => by simp at hp)
  simp only [Finset.card_empty, Nat.cast_zero, Finset.empty_union] at this
  exact this

theorem rank_sorted (key : sScoreInfo → Int) (add : Bool)
    (hkey : ∀ c r, key (withRank add c r) = key c) (S rest : List sScoreInfo) (n : Nat)
    (hn : n = S.length) (hs : S.Pairwise (fun a b => key b ≤ key a)) :
    Algorithm2.rank key add n 0 0 (S ++ rest)
      = S.map (fun c => withRank add c (denseRank key S c)) ++ rest := by
  have := rank_append key add hkey S [] rest 0
  simp only [List.length_nil, List.nil_append] at this
  rw [hn, this, rankList_sorted key add S hs]

/-- The end of `Algorithm2` on more than one candidate: the candidates `L`, each with the
sum of its two dense ranks in `total`, sorted by `sortTotalMetric`. -/
theorem order_spec (L rest : List sScoreInfo) (hn : 1 < L.length) :
    ∃ S, Algorithm2.order (L ++ rest) L.length = S ++ rest ∧
      S.Perm (L.map (fun c => { c with total := totalRank L c })) ∧
      S.Sorted (fun a b => sortTotalMetric a b ≤ 0) := by
  haveI := sortMetric1_total
  haveI := sortMetric1_trans
  haveI := sortMetric2_total
  haveI := sortMetric2_trans
  haveI := sortTotalMetric_total
  haveI := sortTotalMetric_trans
  unfold Algorithm2.order
  rw [if_pos hn]
  simp only
  -- by `metric1`
  rw [qsortScores_append]
  have p1 := List.perm_insertionSort (fun s1 s2 => sortMetric1 s1 s2 ≤ 0) L
  have s1 := List.sorted_insertionSort (fun s1 s2 => sortMetric1 s1 s2 ≤ 0) L
  generalize List.insertionSort (fun s1 s2 => sortMetric1 s1 s2 ≤ 0) L = S1 at p1 s1
  rw [rank_sorted (fun s => s.metric1) false (fun c r => rfl) S1 rest L.length p1.length_eq.symm
    (s1.imp (fun h => sortMetric1_key _ _ h))]
  -- by `metric2`
  have l1 : L.length = (S1.map (fun c => withRank false c
      (denseRank (fun s => s.metric1) S1 c))).length := by
    rw [List.length_map, p1.length_eq]
  have q1 : (S1.map (fun c => withRank false c (denseRank (fun s => s.metric1) S1 c))).Perm
      (L.map (fun c => withRank false c (denseRank (fun s => s.metric1) L c))) := by
    have e : S1.map (fun c => withRank false c (denseRank (fun s => s.metric1) S1 c))
        = S1.map (fun c => withRank false c (denseRank (fun s => s.metric1) L c)) :=
      List.map_congr_left (fun c _ => by rw [denseRank_perm _ S1 L p1])
    rw [e]
    exact p1.map _
  generalize S1.map (fun c => withRank false c (denseRank (fun s => s.metric1) S1 c)) = T1
    at l1 q1
  rw [l1, qsortScores_append]
  have p2 := List.perm_insertionSort (fun s1 s2 => sortMetric2 s1 s2 ≤ 0) T1
  have s2 := List.sorted_insertionSort (fun s1 s2 => sortMetric2 s1 s2 ≤ 0) T1
  generalize List.insertionSort (fun s1 s2 => sortMetric2 s1 s2 ≤ 0) T1 = S2 at p2 s2
  rw [rank_sorted (fun s => s.metric2) true (fun c r => rfl) S2 rest T1.length p2.length_eq.symm
    (s2.imp (fun h => sortMetric2_key _ _ h))]
  have l2 : T1.length = (S2.map (fun c => withRank true c
      (denseRank (fun s => s.metric2) S2 c))).length := by
    rw [List.length_map, p2.length_eq]
  have hk2 : ∀ c, denseRank (fun s => s.metric2) S2 c = denseRank (fun s => s.metric2) L c := by
    intro c
    rw [denseRank_perm _ S2 _ (p2.trans q1)]
    unfold denseRank
    rw [List.map_map]
    rfl
  have q2 : (S2.map (fun c => withRank true c (denseRank (fun s => s.metric2) S2 c))).Perm
      (L.map (fun c => { c with total := totalRank L c })) := by
    have e : S2.map (fun c => withRank true c (denseRank (fun s => s.metric2) S2 c))
        = S2.map (fun c => withRank true c (denseRank (fun s => s.metric2) L c)) :=
      List.map_congr_left (fun c _ => by rw [hk2])
    rw [e]
    refine ((p2.trans q1).map _).trans ?_
    rw [List.map_map]
    exact List.Perm.of_eq (List.map_congr_left (fun c _ => rfl))
  generalize S2.map (fun c => withRank true c (denseRank (fun s => s.metric2) S2 c)) = T2
    at l2 q2
  rw [l2, qsortScores_append]
  exact ⟨_, rfl, (List.perm_insertionSort _ T2).trans q2, List.sorted_insertionSort _ T2⟩

/-! ## The choice of `Algorithm2` -/

theorem lexLE_refl (a : Int × Int × Int) : lexLE a a :=
  Or.inr ⟨rfl, Or.inr ⟨rfl, le_refl _⟩⟩

/-- The candidate at the head of the array `score` when `Algorithm2` has ordered its
candidates `L`. -/
theorem score_head (L rest : List sScoreInfo) (hL : L ≠ []) :
    ∃ m, m ∈ L ∧ ((Algorithm2.order (L ++ rest) L.length).getD 0 default).index = m.index ∧
      ∀ c ∈ L, lexLE (m.invalid, totalRank L m, m.index) (c.invalid, totalRank L c, c.index) := by
  by_cases hn : 1 < L.length
  · obtain ⟨S, hS, hperm, hsorted⟩ := order_spec L rest hn
    rw [hS]
    cases S with
    | nil =>
      have := hperm.length_eq
      simp only [List.length_nil, List.length_map] at this
      omega
    | cons x S =>
      have hx : x ∈ L.map (fun c => { c with total := totalRank L c }) :=
        hperm.subset (List.mem_cons_self _ _)
      obtain ⟨m, hm, e⟩ := List.mem_map.mp hx
      refine ⟨m, hm, ?_, ?_⟩
      · simp only [List.cons_append, List.getD_cons_zero]
        rw [← e]
      · intro c hc
        have hc2 : ({ c with total := totalRank L c } : sScoreInfo) ∈ x :: S :=
          hperm.symm.subset (List.mem_map.mpr ⟨c, hc, rfl⟩)
        have hle : sortTotalMetric x { c with total := totalRank L c } ≤ 0 := by
          rcases List.mem_cons.mp hc2 with h | h
          · rw [h]
            rcases sortTotalMetric_total.total x x with t | t <;> exact t
          · exact List.rel_of_sorted_cons hsorted _ h
        rw [← e] at hle
        exact (sortTotalMetric_iff _ _).mp hle
  · cases L with
    | nil => exact absurd rfl hL
    | cons m L =>
      cases L with
      | cons d L =>
        simp only [List.length_cons] at hn
        omega
      | nil =>
        refine ⟨m, List.mem_cons_self _ _, ?_, ?_⟩
        · simp [Algorithm2.order]
        · intro c hc
          rw [List.mem_singleton] at hc
          rw [hc]
          exact lexLE_refl _

/-- C13.  Let the array `lineChecked` have its `noAliases` entries and the segs of the
list have valid aliases.  The candidates that `Algorithm2` scores are the eligible segs of
the list (alias not yet checked, not convex), in the order of the list, each with its
position in the list as `index` and with the number of segs with `noSplit` that it would
split as `invalid`.  Whenever at least one seg is eligible, `Algorithm2` returns the
candidate that is lexicographically minimal in `(invalid, total, index)`, `total` being
the sum of the dense rank of the candidate by `metric1`, descending, and its dense rank by
`metric2`, descending; in particular the returned candidate splits no seg with `noSplit`
when some candidate splits none. -/
theorem Algorithm2_choice (b : Builder) (segs noSegs : Nat)
    (hchk : b.scan.lineChecked.length = b.noAliases)
    (hal : ∀ j, j < noSegs → 0 ≤ b.aliasAt (segs + j) ∧ b.aliasAt (segs + j) < b.noAliases)
    (hel : ∃ i, i < noSegs ∧ eligible b segs noSegs i = true) :
    (Algorithm2.candidates b segs noSegs).map (fun c => (c.index, c.invalid))
      = ((List.range noSegs).filter (eligible b segs noSegs)).map
          (fun (i : Nat) => ((i : Int), (invalidOf b segs noSegs i : Int))) ∧
    ∃ m, m ∈ Algorithm2.candidates b segs noSegs ∧
      (Algorithm2 b segs noSegs).1 = some (segs + m.index.toNat) ∧
      (∀ c ∈ Algorithm2.candidates b segs noSegs,
        lexLE (m.invalid, totalRank (Algorithm2.candidates b segs noSegs) m, m.index)
          (c.invalid, totalRank (Algorithm2.candidates b segs noSegs) c, c.index)) ∧
      ((∃ c ∈ Algorithm2.candidates b segs noSegs, c.invalid = 0) → m.invalid = 0) := by
  obtain ⟨_, _, _, _, _, _, h7, h8, h9⟩ := scan_spec b segs noSegs hchk hal
  have hcl : (Algorithm2.candidates b segs noSegs).length = (Algorithm2.scan b segs noSegs).2 := by
    unfold Algorithm2.candidates
    rw [List.length_take]
    omega
  have hne : Algorithm2.candidates b segs noSegs ≠ [] := by
    intro e
    obtain ⟨i, hi, he⟩ := hel
    have hm : ((i : Int), (invalidOf b segs noSegs i : Int)) ∈
        ((List.range noSegs).filter (eligible b segs noSegs)).map
          (fun (i : Nat) => ((i : Int), (invalidOf b segs noSegs i : Int))) :=
      List.mem_map.mpr ⟨i, List.mem_filter.mpr ⟨List.mem_range.mpr hi, he⟩, rfl⟩
    rw [← h9] at hm
    unfold Algorithm2.candidates at e
    rw [e] at hm
    simp at hm
  have hsplit : (Algorithm2.scan b segs noSegs).1.scan.score
      = Algorithm2.candidates b segs noSegs
        ++ (Algorithm2.scan b segs noSegs).1.scan.score.drop (Algorithm2.scan b segs noSegs).2 := by
    unfold Algorithm2.candidates
    exact (List.take_append_drop _ _).symm
  have hinv : ∀ c ∈ Algorithm2.candidates b segs noSegs, 0 ≤ c.invalid := by
    intro c hc
    have hm : (c.index, c.invalid) ∈ (Algorithm2.candidates b segs noSegs).map
        (fun c => (c.index, c.invalid)) := List.mem_map.mpr ⟨c, hc, rfl⟩
    unfold Algorithm2.candidates at hm
    rw [h9] at hm
    obtain ⟨i, _, e⟩ := List.mem_map.mp hm
    injection e with _ e2
    rw [← e2]
    exact Int.natCast_nonneg _
  refine ⟨h9, ?_⟩
  obtain ⟨m, hm, hidx, hmin⟩ := score_head (Algorithm2.candidates b segs noSegs)
    ((Algorithm2.scan b segs noSegs).1.scan.score.drop (Algorithm2.scan b segs noSegs).2) hne
  rw [← hsplit, hcl] at hidx
  refine ⟨m, hm, ?_, hmin, ?_⟩
  · have hns : (Algorithm2.scan b segs noSegs).2 ≠ 0 := by
      rw [← hcl]
      exact fun e => hne (List.length_eq_zero.mp e)
    simp only [Algorithm2]
    rw [if_pos hns, hidx]
  · rintro ⟨c, hc, hz⟩
    have h0 := hinv m hm
    have := hmin c hc
    unfold lexLE at this
    simp only at this
    rw [hz] at this
    omega

theorem Algorithm2_choice_witness :
    slopeBase.scan.lineChecked.length = slopeBase.noAliases ∧
    (List.range 4).map (eligible slopeBase 0 4) = [true, true, true, false] ∧
    (Algorithm2 slopeBase 0 4).1 = some 2 ∧
    ∃ m, m ∈ Algorithm2.candidates slopeBase 0 4 ∧
      (Algorithm2 slopeBase 0 4).1 = some (0 + m.index.toNat) ∧
      (∀ c ∈ Algorithm2.candidates slopeBase 0 4,
        lexLE (m.invalid, totalRank (Algorithm2.candidates slopeBase 0 4) m, m.index)
          (c.invalid, totalRank (Algorithm2.candidates slopeBase 0 4) c, c.index)) ∧
      ((∃ c ∈ Algorithm2.candidates slopeBase 0 4, c.invalid = 0) → m.invalid = 0) :=
  ⟨by decide!, by decide!, by decide!,
   (Algorithm2_choice slopeBase 0 4 (by decide!) (by decide!)
      ⟨2, by decide, by decide!⟩).2⟩

/-! ## The point of `IsZero` is the point of `DivideSeg` -/

/-- C21.  For a seg `segStart [rSeg]` whose line is not parallel to the partition
(`det != 0`), the integer point `( newX, newY )` that `IsZero` compares an end point with
is the point that `DivideSeg` passes to `AddVertex`: an error of `AddVertex` at that
point is the error of `DivideSeg`, and a vertex `i` returned by `AddVertex` at that point
is the vertex at which `DivideSeg` cuts the seg (or over which it aborts, when `i` is an
end of the seg).  So when `IsZero` reports a point `vert` as on-line (returns 0 for a
`side != 0`), `vert` has the coordinates of that point, and the vertex `AddVertex`
returns for the split is a vertex with the coordinates of `vert`. -/
theorem IsZero_point_is_split_point (b : Builder) (rSeg lSeg : Nat) (vert : wVertex)
    (side : Int) (hdet : b.detOf (b.seg rSeg) ≠ 0) :
    (IsZero b (b.seg rSeg) vert side =
      if (b.roundedOf (b.seg rSeg)).1 = vert.x ∧ (b.roundedOf (b.seg rSeg)).2 = vert.y
      then 0 else side) ∧
    (∀ e, AddVertex b (b.roundedOf (b.seg rSeg)).1 (b.roundedOf (b.seg rSeg)).2 = .error e →
      DivideSeg b rSeg lSeg = .error e) ∧
    (∀ i b1,
      AddVertex b (b.roundedOf (b.seg rSeg)).1 (b.roundedOf (b.seg rSeg)).2 = .ok (i, b1) →
      ((b.seg rSeg).Data.start = i ∨ (b.seg rSeg).Data.end_ = i →
        DivideSeg b rSeg lSeg = .error .endPointDuplicated) ∧
      (¬ ((b.seg rSeg).Data.start = i ∨ (b.seg rSeg).Data.end_ = i) →
        ∃ b2, DivideSeg b rSeg lSeg = .ok b2 ∧ b2 = { b1 with segStart := b2.segStart } ∧
          (rSeg ≠ lSeg → rSeg < b.segStart.length → lSeg < b.segStart.length →
            ((b2.seg rSeg).Data.end_ = toUSHORT i ∧ (b2.seg lSeg).Data.start = toUSHORT i) ∨
            ((b2.seg rSeg).Data.start = toUSHORT i ∧ (b2.seg lSeg).Data.end_ = toUSHORT i)))) ∧
    (side ≠ 0 → IsZero b (b.seg rSeg) vert side = 0 →
      vert = ⟨(b.roundedOf (b.seg rSeg)).1, (b.roundedOf (b.seg rSeg)).2⟩ ∧
      (IsSHORT vert.x → IsSHORT vert.y → b.maxVertices ≤ b.newVertices.length →
        ∀ i b1,
          AddVertex b (b.roundedOf (b.seg rSeg)).1 (b.roundedOf (b.seg rSeg)).2 = .ok (i, b1) →
          b1.vertex i = vert)) := by
  have hp : b.roundedOf (b.seg rSeg) = b.splitPoint rSeg := rfl
  refine ⟨?_, ?_, ?_, ?_⟩
  · rw [IsZero_eq, if_neg hdet]
  · intro e he
    rw [hp] at he
    exact DivideSeg_error_of_AddVertex b rSeg lSeg e he
  · intro i b1 hadd
    rw [hp] at hadd
    refine ⟨(DivideSeg_of_AddVertex b rSeg lSeg i b1 hadd).1, ?_⟩
    intro hdup
    obtain ⟨b2, h2⟩ := (DivideSeg_of_AddVertex b rSeg lSeg i b1 hadd).2 hdup
    obtain ⟨i', b1', hadd', _, _, hb2, _, _, hhalves⟩ := DivideSeg_ok b rSeg lSeg b2 h2
    rw [hadd] at hadd'
    injection hadd' with hadd'
    injection hadd' with hi hb
    subst hi
    subst hb
    refine ⟨b2, h2, hb2, ?_⟩
    intro hne hr hl
    obtain ⟨e1, e2⟩ := hhalves hne hr hl
    rw [e1, e2]
    unfold rightHalf leftHalf
    by_cases hs : b.cross (b.vertS rSeg) < 0
    · left
      rw [if_pos hs, if_pos hs]
      exact ⟨rfl, rfl⟩
    · right
      rw [if_neg hs, if_neg hs]
      exact ⟨rfl, rfl⟩
  · intro hside hz
    rw [IsZero_eq, if_neg hdet] at hz
    have hxy : (b.roundedOf (b.seg rSeg)).1 = vert.x ∧ (b.roundedOf (b.seg rSeg)).2 = vert.y := by
      by_contra hne
      rw [if_neg hne] at hz
      exact hside hz
    obtain ⟨hx, hy⟩ := hxy
    have hvert : vert = ⟨(b.roundedOf (b.seg rSeg)).1, (b.roundedOf (b.seg rSeg)).2⟩ := by
      cases vert
      simp only at hx hy
      rw [hx, hy]
    refine ⟨hvert, ?_⟩
    intro hsx hsy hcap i b1 hadd
    rw [hx, hy] at hadd
    exact (AddVertex_ok_props b vert.x vert.y hsx hsy hcap i b1 hadd).2.1

theorem IsZero_point_is_split_point_witness :
    diagonalMap.detOf (diagonalMap.seg 1) ≠ 0 ∧
    (IsZero diagonalMap (diagonalMap.seg 1) ⟨-1, 1⟩ 5 =
      if (diagonalMap.roundedOf (diagonalMap.seg 1)).1 = (⟨-1, 1⟩ : wVertex).x ∧
        (diagonalMap.roundedOf (diagonalMap.seg 1)).2 = (⟨-1, 1⟩ : wVertex).y
      then 0 else 5) :=
  ⟨by decide, (IsZero_point_is_split_point diagonalMap 1 2 ⟨-1, 1⟩ 5 (by decide)).1⟩

/-! ## The guard of `_WhichSide` for a near miss -/

/-- C22.  For an off-axis partition (`DX != 0`, `DY != 0`) let `r1` and `r2` be the labels
that `_WhichSide` first computes for the start and the end of the seg.  If one of them is
0 and the other one has a magnitude above 1, both final labels are 0 and the seg is taken
as collinear: RIGHT if `seg.angle = ANGLE`, else LEFT, whatever the sign of the label out
of range.  A label -1 or +1 paired with a label 0 stays as it is, and the seg goes to the
side of that label: RIGHT for -1, LEFT for +1. -/
theorem near_miss_is_collinear (b : Builder) (seg : SEG) (r1 r2 : Int)
    (hDX : b.st.DX ≠ 0) (hDY : b.st.DY ≠ 0)
    (h1 : r1 = rawLabel b.st.H_2 (b.cross (b.vertex seg.Data.start))
      (b.cross (b.vertex seg.Data.end_))
      (IsZero b seg (b.vertex seg.Data.start) (b.cross (b.vertex seg.Data.start))))
    (h2 : r2 = rawLabel b.st.H_2 (b.cross (b.vertex seg.Data.end_))
      (b.cross (b.vertex seg.Data.start))
      (IsZero b seg (b.vertex seg.Data.end_) (b.cross (b.vertex seg.Data.end_)))) :
    (((r1 = 0 ∧ (r2 < -1 ∨ r2 > 1)) ∨ (r2 = 0 ∧ (r1 < -1 ∨ r1 > 1))) →
      _WhichSide.labels b seg = (0, 0) ∧
      _WhichSide b seg = if seg.Data.angle = b.st.ANGLE then SIDE_RIGHT else SIDE_LEFT) ∧
    (r1 = 0 → (r2 = -1 ∨ r2 = 1) →
      _WhichSide.labels b seg = (0, r2) ∧
      _WhichSide b seg = if r2 = -1 then SIDE_RIGHT else SIDE_LEFT) ∧
    (r2 = 0 → (r1 = -1 ∨ r1 = 1) →
      _WhichSide.labels b seg = (r1, 0) ∧
      _WhichSide b seg = if r1 = -1 then SIDE_RIGHT else SIDE_LEFT) := by
  have hl := labels_offAxis b seg hDX hDY
  rw [← h1, ← h2] at hl
  refine ⟨?_, ?_, ?_⟩
  · intro h
    have hc : cleanLabels r1 r2 = (0, 0) := by
      unfold cleanLabels
      rcases h with ⟨e1, e2⟩ | ⟨e2, e1⟩
      · subst e1
        simp only
        split_ifs <;> first | rfl | omega
      · subst e2
        have hy : (if (r1 < -1 ∨ r1 > 1) ∧ True then (0 : Int) else r1) = 0 :=
          if_pos ⟨e1, trivial⟩
        simp only [hy]
        simp
    rw [hc] at hl
    refine ⟨hl, ?_⟩
    unfold _WhichSide
    rw [hl]
    simp only [and_self, if_true]
  · intro e1 e2
    have hc : cleanLabels r1 r2 = (0, r2) := by
      unfold cleanLabels
      subst e1
      simp only
      split_ifs <;> first | rfl | omega
    rw [hc] at hl
    refine ⟨hl, ?_⟩
    unfold _WhichSide
    rw [hl]
    rcases e2 with e2 | e2 <;> subst e2 <;> simp [SIDE_RIGHT, SIDE_LEFT]
  · intro e2 e1
    have hc : cleanLabels r1 r2 = (r1, 0) := by
      unfold cleanLabels
      subst e2
      simp only
      split_ifs <;> first | rfl | omega
    rw [hc] at hl
    refine ⟨hl, ?_⟩
    unfold _WhichSide
    rw [hl]
    rcases e1 with e1 | e1 <;> subst e1 <;> simp [SIDE_RIGHT, SIDE_LEFT]

theorem near_miss_is_collinear_witness :
    steepMap.st.DX ≠ 0 ∧ steepMap.st.DY ≠ 0 ∧
    ((0 : Int) = 0 ∧ ((-2 : Int) < -1 ∨ (-2 : Int) > 1)) ∧
    _WhichSide.labels steepMap (steepMap.seg 1) = (0, 0) ∧
    _WhichSide steepMap (steepMap.seg 1) =
      if (steepMap.seg 1).Data.angle = steepMap.st.ANGLE then SIDE_RIGHT else SIDE_LEFT :=
  ⟨by decide, by decide, by decide,
    ((near_miss_is_collinear steepMap (steepMap.seg 1) 0 (-2) (by decide) (by decide)
      (by decide) (by decide)).1 (Or.inl (by decide)))⟩

/-! ## The two shortcuts of `WhichSide` -/

/-- C23, counterexample.  In the H-divided room, with the south wall (seg 3) as the
partition, the side table holds RIGHT for the sector of seg 5, the left side of the cross
wall.  The partition runs with its alias (`currentFlipped` is false) and seg 5 runs
against its own (`flip` is 1, the flip of its alias is false), so that `currentFlipped`
XOR (`seg.flip != alias.flip`) is true; yet `WhichSide` returns the entry as it is,
RIGHT, which is also the answer of `_WhichSide`. -/
theorem cached_side_ignores_seg_flip :
    (ComputeStaticVariables hDividedSetup (hDividedSetup.seg 3)).currentSideAt
      (hDividedSetup.seg 5).Sector = SIDE_RIGHT ∧
    (ComputeStaticVariables hDividedSetup (hDividedSetup.seg 3)).st.currentFlipped = false ∧
    (hDividedSetup.seg 5).Data.flip = 1 ∧
    (hDividedSetup.aliasOf (hDividedSetup.seg 5).Data.lineDef).flip = false ∧
    WhichSide (ComputeStaticVariables hDividedSetup (hDividedSetup.seg 3))
      (hDividedSetup.seg 5) = SIDE_RIGHT ∧
    _WhichSide (ComputeStaticVariables hDividedSetup (hDividedSetup.seg 3))
      (hDividedSetup.seg 5) = SIDE_RIGHT := by
  decide!

/-- C23, as amended.  When the entry of the side table for the alias of the partition
`pSeg` and the sector of `seg` is LEFT or RIGHT, `WhichSide` returns that entry with its
side swapped if and only if `currentFlipped` is set, that is if the flip of `pSeg` differs
from the flip of its alias, and returns it unchanged otherwise; the flip of `seg` and the
alias of `seg` play no part. -/
theorem WhichSide_cached (b : Builder) (pSeg seg : SEG)
    (h : IS_LEFT_RIGHT ((ComputeStaticVariables b pSeg).currentSideAt seg.Sector) = true) :
    (ComputeStaticVariables b pSeg).st.currentFlipped =
      ((pSeg.Data.flip ^^^ (if (b.aliasOf pSeg.Data.lineDef).flip then 1 else 0)) != 0) ∧
    WhichSide (ComputeStaticVariables b pSeg) seg =
      (if (ComputeStaticVariables b pSeg).st.currentFlipped
       then -(ComputeStaticVariables b pSeg).currentSideAt seg.Sector
       else (ComputeStaticVariables b pSeg).currentSideAt seg.Sector) ∧
    ((ComputeStaticVariables b pSeg).st.currentFlipped = true →
      ((ComputeStaticVariables b pSeg).currentSideAt seg.Sector = SIDE_LEFT →
        WhichSide (ComputeStaticVariables b pSeg) seg = SIDE_RIGHT) ∧
      ((ComputeStaticVariables b pSeg).currentSideAt seg.Sector = SIDE_RIGHT →
        WhichSide (ComputeStaticVariables b pSeg) seg = SIDE_LEFT)) ∧
    (∀ seg2 : SEG, seg2.Sector = seg.Sector →
      WhichSide (ComputeStaticVariables b pSeg) seg2 =
        WhichSide (ComputeStaticVariables b pSeg) seg) := by
  have hw : ∀ s : SEG, s.Sector = seg.Sector →
      WhichSide (ComputeStaticVariables b pSeg) s =
        FLIP (ComputeStaticVariables b pSeg).st.currentFlipped
          ((ComputeStaticVariables b pSeg).currentSideAt seg.Sector) := by
    intro s hs
    unfold WhichSide
    simp only [hs]
    rw [if_pos h]
  have hself := hw seg rfl
  refine ⟨rfl, ?_, ?_, ?_⟩
  · rw [hself]
    unfold FLIP
    cases (ComputeStaticVariables b pSeg).st.currentFlipped <;> simp
  · intro hc
    rw [hself, hc]
    unfold FLIP
    constructor
    · intro e
      rw [e]
      rfl
    · intro e
      rw [e]
      rfl
  · intro seg2 h2
    rw [hw seg2 h2, hself]

theorem WhichSide_cached_witness :
    IS_LEFT_RIGHT ((ComputeStaticVariables hDividedSetup (hDividedSetup.seg 3)).currentSideAt
      (hDividedSetup.seg 5).Sector) = true ∧
    WhichSide (ComputeStaticVariables hDividedSetup (hDividedSetup.seg 3))
        (hDividedSetup.seg 5) =
      (if (ComputeStaticVariables hDividedSetup (hDividedSetup.seg 3)).st.currentFlipped
       then -(ComputeStaticVariables hDividedSetup (hDividedSetup.seg 3)).currentSideAt
         (hDividedSetup.seg 5).Sector
       else (ComputeStaticVariables hDividedSetup (hDividedSetup.seg 3)).currentSideAt
         (hDividedSetup.seg 5).Sector) :=
  ⟨by decide!,
    (WhichSide_cached hDividedSetup (hDividedSetup.seg 3) (hDividedSetup.seg 5)
      (by decide!)).2.1⟩

/-- C24.  When the entry of the side table for the alias of the partition `pSeg` and the
sector of `seg` is neither LEFT nor RIGHT, and the linedef of `seg` has the alias index of
the linedef of `pSeg`, `WhichSide` returns RIGHT if `seg.flip` XOR the flip of the alias
of `seg` equals `pSeg.flip` XOR the flip of the alias of `pSeg`, and LEFT otherwise.  It
never returns SPLIT there, and the answer is the same for every content of the vertex
table. -/
theorem WhichSide_same_alias (b : Builder) (pSeg seg : SEG)
    (hside : IS_LEFT_RIGHT ((ComputeStaticVariables b pSeg).currentSideAt seg.Sector) = false)
    (hal : (b.aliasOf seg.Data.lineDef).index = (b.aliasOf pSeg.Data.lineDef).index) :
    WhichSide (ComputeStaticVariables b pSeg) seg =
      (if ((seg.Data.flip ^^^ (if (b.aliasOf seg.Data.lineDef).flip then 1 else 0)) != 0) =
          ((pSeg.Data.flip ^^^ (if (b.aliasOf pSeg.Data.lineDef).flip then 1 else 0)) != 0)
       then SIDE_RIGHT else SIDE_LEFT) ∧
    WhichSide (ComputeStaticVariables b pSeg) seg ≠ SIDE_SPLIT ∧
    (∀ vertices : List wVertex,
      WhichSide (ComputeStaticVariables { b with newVertices := vertices } pSeg) seg =
        WhichSide (ComputeStaticVariables b pSeg) seg) := by
  have key : ∀ vertices : List wVertex,
      WhichSide (ComputeStaticVariables { b with newVertices := vertices } pSeg) seg =
      (if ((seg.Data.flip ^^^ (if (b.aliasOf seg.Data.lineDef).flip then 1 else 0)) != 0) =
          ((pSeg.Data.flip ^^^ (if (b.aliasOf pSeg.Data.lineDef).flip then 1 else 0)) != 0)
       then SIDE_RIGHT else SIDE_LEFT) := by
    intro vertices
    have hs : (ComputeStaticVariables { b with newVertices := vertices } pSeg).currentSideAt
        seg.Sector = (ComputeStaticVariables b pSeg).currentSideAt seg.Sector := rfl
    unfold WhichSide
    simp only [hs, hside]
    have ha : ((ComputeStaticVariables { b with newVertices := vertices } pSeg).aliasOf
        seg.Data.lineDef).index =
        ((ComputeStaticVariables { b with newVertices := vertices } pSeg).aliasOf
          (ComputeStaticVariables { b with newVertices := vertices } pSeg).st.currentAlias).index :=
      hal
    rw [if_neg (by simp), if_pos ha]
    have hf : (ComputeStaticVariables { b with newVertices := vertices } pSeg).st.currentFlipped =
        ((pSeg.Data.flip ^^^ (if (b.aliasOf pSeg.Data.lineDef).flip then 1 else 0)) != 0) := rfl
    have hg : ((ComputeStaticVariables { b with newVertices := vertices } pSeg).aliasOf
        seg.Data.lineDef).flip = (b.aliasOf seg.Data.lineDef).flip := rfl
    simp only [hf, hg]
    generalize ((pSeg.Data.flip ^^^ (if (b.aliasOf pSeg.Data.lineDef).flip then 1 else 0)) != 0)
      = p
    generalize ((seg.Data.flip ^^^ (if (b.aliasOf seg.Data.lineDef).flip then 1 else 0)) != 0)
      = s
    cases p <;> cases s <;> rfl
  have hb : ({ b with newVertices := b.newVertices } : Builder) = b := rfl
  have hself := key b.newVertices
  rw [hb] at hself
  refine ⟨hself, ?_, ?_⟩
  · rw [hself]
    split_ifs <;> decide
  · intro vertices
    rw [key vertices, hself]

theorem WhichSide_same_alias_witness :
    IS_LEFT_RIGHT ((ComputeStaticVariables dividedRoom (dividedRoom.seg 4)).currentSideAt
      (dividedRoom.seg 5).Sector) = false ∧
    (dividedRoom.aliasOf (dividedRoom.seg 5).Data.lineDef).index =
      (dividedRoom.aliasOf (dividedRoom.seg 4).Data.lineDef).index ∧
    WhichSide (ComputeStaticVariables dividedRoom (dividedRoom.seg 4)) (dividedRoom.seg 5)
      ≠ SIDE_SPLIT :=
  ⟨by decide, by decide,
    (WhichSide_same_alias dividedRoom (dividedRoom.seg 4) (dividedRoom.seg 5)
      (by decide) (by decide)).2.1⟩

/-! ## The two halves of a divided seg -/

/-- C30.  Let `DivideSeg` split the seg `segStart [rSeg]`, which runs from vertex `s` to
vertex `e`, with `segStart [lSeg]` holding its copy, and let `i` be the vertex that
`AddVertex` returned; `v` is `i` as stored in the 16-bit fields.  If
`sideS = DX * ( vS.y - Y ) - DY * ( vS.x - X ) < 0`, the right half is `(s, v)` and the
left half is `(v, e)`; otherwise the right half is `(v, e)` and the left half is
`(s, v)`.  In both cases the halves keep the angle, the linedef, the flip and the sector
of the seg, `i` is neither `s` nor `e`, one half starts at `s` and the other one ends at
`e`, the half that starts at `s` keeps its offset, and the offset of the other half grows
by the distance from `s` to the cut. -/
theorem DivideSeg_halves (b : Builder) (rSeg lSeg : Nat)
    (hne : rSeg ≠ lSeg) (hr : rSeg < b.segStart.length) (hl : lSeg < b.segStart.length)
    (hcopy : b.seg lSeg = b.seg rSeg) :
    ∀ b2, DivideSeg b rSeg lSeg = .ok b2 →
      ∃ i b1, AddVertex b (b.splitPoint rSeg).1 (b.splitPoint rSeg).2 = .ok (i, b1) ∧
        (b.seg rSeg).Data.start ≠ i ∧ (b.seg rSeg).Data.end_ ≠ i ∧
        (b.noVertices ≤ 65536 → b.maxVertices ≤ 65536 → toUSHORT i = i) ∧
        (b.cross (b.vertS rSeg) < 0 →
          (b2.seg rSeg).Data.start = (b.seg rSeg).Data.start ∧
          (b2.seg rSeg).Data.end_ = toUSHORT i ∧
          (b2.seg lSeg).Data.start = toUSHORT i ∧
          (b2.seg lSeg).Data.end_ = (b.seg rSeg).Data.end_ ∧
          (b2.seg rSeg).Data.offset = (b.seg rSeg).Data.offset ∧
          (b2.seg lSeg).Data.offset =
            toUSHORT ((b.seg rSeg).Data.offset + b.splitDist rSeg)) ∧
        (¬ b.cross (b.vertS rSeg) < 0 →
          (b2.seg rSeg).Data.start = toUSHORT i ∧
          (b2.seg rSeg).Data.end_ = (b.seg rSeg).Data.end_ ∧
          (b2.seg lSeg).Data.start = (b.seg rSeg).Data.start ∧
          (b2.seg lSeg).Data.end_ = toUSHORT i ∧
          (b2.seg lSeg).Data.offset = (b.seg rSeg).Data.offset ∧
          (b2.seg rSeg).Data.offset =
            toUSHORT ((b.seg rSeg).Data.offset + b.splitDist rSeg)) ∧
        (b2.seg rSeg).Data.angle = (b.seg rSeg).Data.angle ∧
        (b2.seg lSeg).Data.angle = (b.seg rSeg).Data.angle ∧
        (b2.seg rSeg).Data.lineDef = (b.seg rSeg).Data.lineDef ∧
        (b2.seg lSeg).Data.lineDef = (b.seg rSeg).Data.lineDef ∧
        (b2.seg rSeg).Data.flip = (b.seg rSeg).Data.flip ∧
        (b2.seg lSeg).Data.flip = (b.seg rSeg).Data.flip ∧
        (b2.seg rSeg).Sector = (b.seg rSeg).Sector ∧
        (b2.seg lSeg).Sector = (b.seg rSeg).Sector := by
  intro b2 h
  obtain ⟨i, b1, hadd, hs, he, _, _, _, hhalves⟩ := DivideSeg_ok b rSeg lSeg b2 h
  obtain ⟨e1, e2⟩ := hhalves hne hr hl
  rw [hcopy] at e2
  refine ⟨i, b1, hadd, hs, he, ?_, ?_, ?_, ?_⟩
  · intro hn hm
    apply toUSHORT_of_lt
    rcases AddVertex_cases b (b.splitPoint rSeg).1 (b.splitPoint rSeg).2 with
      ⟨k, hk, _, _, hk2⟩ | ⟨_, hk2⟩
    · rw [hk2] at hadd
      injection hadd with hadd
      injection hadd with hi _
      omega
    · rw [hk2] at hadd
      split_ifs at hadd with hfull
      injection hadd with hadd
      injection hadd with hi _
      omega
  · intro hneg
    rw [e1, e2]
    unfold rightHalf leftHalf
    rw [if_pos hneg, if_pos hneg]
    exact ⟨rfl, rfl, rfl, rfl, rfl, rfl⟩
  · intro hneg
    rw [e1, e2]
    unfold rightHalf leftHalf
    rw [if_neg hneg, if_neg hneg]
    exact ⟨rfl, rfl, rfl, rfl, rfl, rfl⟩
  · rw [e1, e2]
    unfold rightHalf leftHalf
    by_cases hneg : b.cross (b.vertS rSeg) < 0
    · rw [if_pos hneg, if_pos hneg]
      exact ⟨rfl, rfl, rfl, rfl, rfl, rfl, rfl, rfl⟩
    · rw [if_neg hneg, if_neg hneg]
      exact ⟨rfl, rfl, rfl, rfl, rfl, rfl, rfl, rfl⟩

theorem DivideSeg_halves_witness :
    ∃ b2, DivideSeg (diagonalMap.setSeg 2 (diagonalMap.seg 1)) 1 2 = .ok b2 ∧
      ∃ i b1, AddVertex (diagonalMap.setSeg 2 (diagonalMap.seg 1))
          ((diagonalMap.setSeg 2 (diagonalMap.seg 1)).splitPoint 1).1
          ((diagonalMap.setSeg 2 (diagonalMap.seg 1)).splitPoint 1).2 = .ok (i, b1) ∧
        ((diagonalMap.setSeg 2 (diagonalMap.seg 1)).seg 1).Data.start ≠ i := by
  cases h : DivideSeg (diagonalMap.setSeg 2 (diagonalMap.seg 1)) 1 2 with
  | error e =>
    exfalso
    have hs : (DivideSeg (diagonalMap.setSeg 2 (diagonalMap.seg 1)) 1 2).toOption.isSome
        = true := by decide
    rw [h] at hs
    cases hs
  | ok b2 =>
    obtain ⟨i, b1, h1, h2, _⟩ := DivideSeg_halves (diagonalMap.setSeg 2 (diagonalMap.seg 1)) 1 2
      (by decide) (by decide) (by decide) (by decide) b2 h
    exact ⟨b2, rfl, i, b1, h1, h2⟩

/-! ## The layout that `SortSegs` leaves -/

theorem bump_counts (c : Counts) (side : Int) :
    c.bump side =
      ⟨c.lCount + (if side = SIDE_LEFT then 1 else 0),
       c.sCount + (if side = SIDE_SPLIT then 1 else 0),
       c.rCount + (if side = SIDE_RIGHT then 1 else 0)⟩ := by
  unfold Counts.bump
  by_cases h1 : side = SIDE_LEFT
  · subst h1
    simp [SIDE_LEFT, SIDE_SPLIT, SIDE_RIGHT]
  · by_cases h2 : side = SIDE_SPLIT
    · subst h2
      simp [SIDE_LEFT, SIDE_SPLIT, SIDE_RIGHT]
    · by_cases h3 : side = SIDE_RIGHT
      · subst h3
        simp [SIDE_LEFT, SIDE_SPLIT, SIDE_RIGHT]
      · simp [h1, h2, h3]

theorem onSide_cons (side : Int) (s : SEG) (l : List SEG) :
    onSide side (s :: l) = if s.Side = side then s :: onSide side l else onSide side l := by
  unfold onSide
  rw [List.filter_cons]
  by_cases h : s.Side = side
  · simp [h]
  · simp [h]

theorem onSide_append (side : Int) (l1 l2 : List SEG) :
    onSide side (l1 ++ l2) = onSide side l1 ++ onSide side l2 := by
  unfold onSide
  exact List.filter_append _ _

theorem withSide_congr (b b2 : Builder) (h1 : b.lineDefAlias = b2.lineDefAlias)
    (h2 : b.sideInfo = b2.sideInfo) (h3 : b.newVertices = b2.newVertices)
    (h4 : b.scan.statics = b2.scan.statics) : withSide b = withSide b2 := by
  funext s
  unfold withSide
  rw [WhichSide_congr b b2 s h1 h2 h3 h4]

theorem seg_at_split (b : Builder) (pre rest post : List SEG) (cur : SEG)
    (h : b.segStart = pre ++ cur :: rest ++ post) : b.seg pre.length = cur := by
  unfold Builder.seg
  rw [h, List.append_assoc, List.getD_eq_getElem?_getD,
    List.getElem?_append_right (le_refl _)]
  simp

theorem set_at_split (pre rest : List SEG) (cur x : SEG) :
    (pre ++ cur :: rest).set pre.length x = pre ++ x :: rest := by
  rw [List.set_append_right _ _ (le_refl _)]
  simp

/-- The first loop of `SortSegs` on the part `rest` of the array. -/
theorem classify_list (seg : Nat) : ∀ (rest pre post : List SEG) (b : Builder) (c : Counts)
    (i : Nat), b.segStart = pre ++ rest ++ post → pre.length = seg + i →
    SortSegs.classify seg rest.length i (b, c) =
      ({ b with segStart := pre ++ rest.map (withSide b) ++ post },
       ⟨c.lCount + (onSide SIDE_LEFT (rest.map (withSide b))).length,
        c.sCount + (onSide SIDE_SPLIT (rest.map (withSide b))).length,
        c.rCount + (onSide SIDE_RIGHT (rest.map (withSide b))).length⟩) := by
  intro rest
  induction rest with
  | nil =>
    intro pre post b c i h _
    simp only [List.length_nil, SortSegs.classify, List.map_nil, onSide, List.filter_nil,
      Nat.cast_zero, add_zero]
    rw [← h]
  | cons cur rest ih =>
    intro pre post b c i h hp
    simp only [List.length_cons, SortSegs.classify]
    have hcur : b.seg (seg + i) = cur := by
      rw [← hp]
      exact seg_at_split b pre (rest ++ post) [] cur (by simpa using h)
    rw [hcur]
    have hset : (b.setSeg (seg + i) { cur with Side := WhichSide b cur }).segStart
        = (pre ++ [withSide b cur]) ++ rest ++ post := by
      simp only [Builder.setSeg]
      rw [h, ← hp]
      have := set_at_split pre (rest ++ post) cur (withSide b cur)
      simp [withSide] at this ⊢
    have hw : withSide (b.setSeg (seg + i) { cur with Side := WhichSide b cur }) = withSide b :=
      withSide_congr _ _ rfl rfl rfl rfl
    rw [ih (pre ++ [withSide b cur]) post _ _ (i + 1) hset (by simp [hp]; omega), hw,
      bump_counts]
    simp only [List.map_cons, onSide_cons]
    have hside : (withSide b cur).Side = WhichSide b cur := rfl
    rw [hside]
    refine Prod.ext ?_ ?_
    · simp only [Builder.setSeg, List.append_assoc, List.singleton_append]
    · simp only
      by_cases h1 : WhichSide b cur = SIDE_LEFT
      · rw [h1]
        simp [SIDE_LEFT, SIDE_SPLIT, SIDE_RIGHT]
        ring
      · by_cases h2 : WhichSide b cur = SIDE_SPLIT
        · rw [h2]
          simp [SIDE_LEFT, SIDE_SPLIT, SIDE_RIGHT]
          ring
        · by_cases h3 : WhichSide b cur = SIDE_RIGHT
          · rw [h3]
            simp [SIDE_LEFT, SIDE_SPLIT, SIDE_RIGHT]
            ring
          · simp [h1, h2, h3]

/-- The scan for the leading RIGHT segs on the part `rest` of the array. -/
theorem leading_list (seg : Nat) : ∀ (rest pre post : List SEG) (b : Builder) (i : Nat),
    b.segStart = pre ++ rest ++ post → pre.length = seg + i →
    SortSegs.leading b seg rest.length i
      = i + (rest.takeWhile (fun s => s.Side == SIDE_RIGHT)).length := by
  intro rest
  induction rest with
  | nil =>
    intro pre post b i _ _
    simp [SortSegs.leading]
  | cons cur rest ih =>
    intro pre post b i h hp
    simp only [List.length_cons, SortSegs.leading]
    have hcur : b.seg (seg + i) = cur := by
      rw [← hp]
      exact seg_at_split b pre (rest ++ post) [] cur (by simpa using h)
    rw [hcur, List.takeWhile_cons]
    by_cases hs : cur.Side = SIDE_RIGHT
    · rw [if_pos hs, ih (pre ++ [cur]) post b (i + 1) (by simp [h]) (by simp [hp]; omega)]
      simp [hs]
      omega
    · rw [if_neg hs]
      simp [hs]

/-- The distribution loop of `SortSegs` on the part `rest` of the array; `mid` are the
slots between the write pointer `rSeg` and the read position. -/
theorem distribute_list (seg : Nat) : ∀ (rest pre mid post : List SEG) (b : Builder)
    (sS lS : List SEG) (i : Nat),
    b.segStart = pre ++ mid ++ rest ++ post → (pre ++ mid).length = seg + i →
    (∀ s ∈ rest, s.Side = SIDE_LEFT ∨ s.Side = SIDE_SPLIT ∨ s.Side = SIDE_RIGHT) →
    ∃ mid2 : List SEG,
      mid2.length
        = mid.length + (onSide SIDE_SPLIT rest).length + (onSide SIDE_LEFT rest).length ∧
      SortSegs.distribute seg rest.length i (b, pre.length, sS, lS) =
        ({ b with segStart := pre ++ onSide SIDE_RIGHT rest ++ mid2 ++ post },
         pre.length + (onSide SIDE_RIGHT rest).length,
         sS ++ onSide SIDE_SPLIT rest, lS ++ onSide SIDE_LEFT rest) := by
  intro rest
  induction rest with
  | nil =>
    intro pre mid post b sS lS i h _ _
    refine ⟨mid, by simp [onSide], ?_⟩
    have e : pre ++ onSide SIDE_RIGHT [] ++ mid ++ post = b.segStart := by
      rw [h]
      simp [onSide]
    rw [e]
    simp [SortSegs.distribute, onSide]
  | cons cur rest ih =>
    intro pre mid post b sS lS i h hp hrange
    have hcur : b.seg (seg + i) = cur := by
      rw [← hp]
      exact seg_at_split b (pre ++ mid) (rest ++ post) [] cur (by simpa using h)
    have hrest : ∀ s ∈ rest, s.Side = SIDE_LEFT ∨ s.Side = SIDE_SPLIT ∨ s.Side = SIDE_RIGHT :=
      fun s hs => hrange s (List.mem_cons_of_mem _ hs)
    simp only [List.length_cons, SortSegs.distribute, hcur]
    rcases hrange cur (List.mem_cons_self _ _) with hL | hS | hR
    · rw [if_pos hL]
      obtain ⟨mid2, hlen, heq⟩ := ih pre (mid ++ [cur]) post b sS (lS ++ [cur]) (i + 1)
        (by simp [h]) (by simp only [← List.append_assoc, List.length_append] at hp ⊢; simp; omega)
        hrest
      refine ⟨mid2, ?_, ?_⟩
      · rw [hlen]
        simp [onSide_cons, hL, SIDE_LEFT, SIDE_SPLIT]
        omega
      · rw [heq]
        simp [onSide_cons, hL, SIDE_LEFT, SIDE_SPLIT, SIDE_RIGHT]
    · rw [if_neg (by rw [hS]; decide), if_pos hS]
      obtain ⟨mid2, hlen, heq⟩ := ih pre (mid ++ [cur]) post b (sS ++ [cur]) lS (i + 1)
        (by simp [h]) (by simp only [← List.append_assoc, List.length_append] at hp ⊢; simp; omega)
        hrest
      refine ⟨mid2, ?_, ?_⟩
      · rw [hlen]
        simp [onSide_cons, hS, SIDE_LEFT, SIDE_SPLIT]
        omega
      · rw [heq]
        simp [onSide_cons, hS, SIDE_LEFT, SIDE_SPLIT, SIDE_RIGHT]
    · rw [if_neg (by rw [hR]; decide), if_neg (by rw [hR]; decide), if_pos hR]
      cases mid with
      | nil =>
        have hset : (b.setSeg pre.length cur).segStart = (pre ++ [cur]) ++ [] ++ rest ++ post := by
          simp only [Builder.setSeg]
          rw [h]
          have := set_at_split pre (rest ++ post) cur cur
          simp at this ⊢
        obtain ⟨mid2, hlen, heq⟩ := ih (pre ++ [cur]) [] post (b.setSeg pre.length cur) sS lS
          (i + 1) hset (by simp at hp ⊢; omega) hrest
        refine ⟨mid2, ?_, ?_⟩
        · rw [hlen]
          simp [onSide_cons, hR, SIDE_LEFT, SIDE_SPLIT, SIDE_RIGHT]
        · have hl : (pre ++ [cur]).length = pre.length + 1 := by simp
          rw [hl] at heq
          rw [heq]
          simp [onSide_cons, hR, SIDE_LEFT, SIDE_SPLIT, SIDE_RIGHT, Builder.setSeg]
          omega
      | cons m ms =>
        have hset : (b.setSeg pre.length cur).segStart
            = (pre ++ [cur]) ++ (ms ++ [cur]) ++ rest ++ post := by
          simp only [Builder.setSeg]
          rw [h]
          have := set_at_split pre (ms ++ cur :: rest ++ post) m cur
          simp at this ⊢
        obtain ⟨mid2, hlen, heq⟩ := ih (pre ++ [cur]) (ms ++ [cur]) post
          (b.setSeg pre.length cur) sS lS (i + 1) hset (by simp at hp ⊢; omega) hrest
        refine ⟨mid2, ?_, ?_⟩
        · rw [hlen]
          simp [onSide_cons, hR, SIDE_LEFT, SIDE_SPLIT, SIDE_RIGHT]
        · have hl : (pre ++ [cur]).length = pre.length + 1 := by simp
          rw [hl] at heq
          rw [heq]
          simp [onSide_cons, hR, SIDE_LEFT, SIDE_SPLIT, SIDE_RIGHT, Builder.setSeg]
          omega

theorem onSide_perm : ∀ (l : List SEG),
    (∀ s ∈ l, s.Side = SIDE_LEFT ∨ s.Side = SIDE_SPLIT ∨ s.Side = SIDE_RIGHT) →
    (onSide SIDE_RIGHT l ++ onSide SIDE_SPLIT l ++ onSide SIDE_LEFT l).Perm l := by
  intro l
  induction l with
  | nil =>
    intro _
    simp [onSide]
  | cons cur l ih =>
    intro h
    have ih2 := ih (fun s hs => h s (List.mem_cons_of_mem _ hs))
    rcases h cur (List.mem_cons_self _ _) with hL | hS | hR
    · have e : onSide SIDE_RIGHT (cur :: l) ++ onSide SIDE_SPLIT (cur :: l)
          ++ onSide SIDE_LEFT (cur :: l)
          = (onSide SIDE_RIGHT l ++ onSide SIDE_SPLIT l) ++ cur :: onSide SIDE_LEFT l := by
        simp [onSide_cons, hL, SIDE_LEFT, SIDE_SPLIT, SIDE_RIGHT]
      rw [e]
      exact List.perm_middle.trans (List.Perm.cons _ ih2)
    · have e : onSide SIDE_RIGHT (cur :: l) ++ onSide SIDE_SPLIT (cur :: l)
          ++ onSide SIDE_LEFT (cur :: l)
          = onSide SIDE_RIGHT l ++ cur :: (onSide SIDE_SPLIT l ++ onSide SIDE_LEFT l) := by
        simp [onSide_cons, hS, SIDE_LEFT, SIDE_SPLIT, SIDE_RIGHT]
      rw [e]
      refine List.perm_middle.trans (List.Perm.cons _ ?_)
      rw [← List.append_assoc]
      exact ih2
    · have e : onSide SIDE_RIGHT (cur :: l) ++ onSide SIDE_SPLIT (cur :: l)
          ++ onSide SIDE_LEFT (cur :: l)
          = cur :: (onSide SIDE_RIGHT l ++ onSide SIDE_SPLIT l ++ onSide SIDE_LEFT l) := by
        simp [onSide_cons, hR, SIDE_LEFT, SIDE_SPLIT, SIDE_RIGHT]
      rw [e]
      exact List.Perm.cons _ ih2

theorem sides_in_range (b : Builder) (l : List SEG) :
    ∀ s ∈ l.map (withSide b),
      s.Side = SIDE_LEFT ∨ s.Side = SIDE_SPLIT ∨ s.Side = SIDE_RIGHT := by
  intro s hs
  rw [List.mem_map] at hs
  obtain ⟨t, _, ht⟩ := hs
  rw [← ht]
  exact WhichSide_range b t

theorem array_parts (a : List SEG) (seg noSegs : Nat) (h : seg + noSegs ≤ a.length) :
    a = a.take seg ++ slice a seg noSegs ++ a.drop (seg + noSegs) ∧
    (a.take seg).length = seg ∧ (slice a seg noSegs).length = noSegs := by
  refine ⟨?_, ?_, length_slice a seg noSegs h⟩
  · unfold slice
    rw [List.append_assoc, ← List.drop_drop, List.take_append_drop, List.take_append_drop]
  · rw [List.length_take]
    omega

theorem slice_of_parts (pre mid post : List SEG) (seg noSegs : Nat) (h1 : pre.length = seg)
    (h2 : mid.length = noSegs) : slice (pre ++ mid ++ post) seg noSegs = mid := by
  unfold slice
  rw [List.append_assoc, ← h1, List.drop_left, ← h2, List.take_left]

theorem runs_of_right (l : List SEG) :
    onSide SIDE_RIGHT (l.takeWhile (fun s => s.Side == SIDE_RIGHT))
      = l.takeWhile (fun s => s.Side == SIDE_RIGHT) ∧
    onSide SIDE_SPLIT (l.takeWhile (fun s => s.Side == SIDE_RIGHT)) = [] ∧
    onSide SIDE_LEFT (l.takeWhile (fun s => s.Side == SIDE_RIGHT)) = [] := by
  have hall : ∀ s ∈ l.takeWhile (fun s => s.Side == SIDE_RIGHT), s.Side = SIDE_RIGHT := by
    intro s hs
    have := List.mem_takeWhile_imp hs
    simpa using this
  refine ⟨?_, ?_, ?_⟩
  · unfold onSide
    rw [List.filter_eq_self]
    intro s hs
    simp [hall s hs]
  · unfold onSide
    rw [List.filter_eq_nil_iff]
    intro s hs
    simp [hall s hs, SIDE_RIGHT, SIDE_SPLIT]
  · unfold onSide
    rw [List.filter_eq_nil_iff]
    intro s hs
    simp [hall s hs, SIDE_RIGHT, SIDE_LEFT]

theorem take_of_parts (pre mid post : List SEG) (seg : Nat) (h : pre.length = seg) :
    (pre ++ mid ++ post).take seg = pre := by
  rw [List.append_assoc, ← h, List.take_left]

theorem drop_of_parts (pre mid post : List SEG) (n : Nat) (h : (pre ++ mid).length = n) :
    (pre ++ mid ++ post).drop n = post := by
  rw [← h, List.drop_left]

/-- C29.  Let `marked` be the segs of the list `( seg, noSegs )`, each with the `Side`
that `WhichSide` assigns to it for the partition `segStart [p]`.  Without a partition
(null pointer) `SortSegs` leaves the builder as it is and returns `noRight = noSegs`,
`noSplits = noLeft = 0`.  With the partition, if every seg of the list is RIGHT the
assertion of `SortSegs` fails; if some seg is not RIGHT, `SortSegs` returns, the list
then holds the RIGHT segs of `marked`, followed by its SPLIT segs, followed by its LEFT
segs, each group in the order of the input, which is a permutation of `marked`; the rest
of the array is as before, and `noLeft`, `noRight` and `noSplits` are the sizes of the
three groups, whose sum is `noSegs`. -/
theorem SortSegs_layout (b : Builder) (p seg noSegs : Nat) (marked : List SEG)
    (hin : seg + noSegs ≤ b.segStart.length)
    (hm : marked = (slice b.segStart seg noSegs).map
      (withSide (ComputeStaticVariables b (b.seg p)))) :
    SortSegs b none seg noSegs = .ok (b, 0, noSegs, 0) ∧
    ((∀ s ∈ marked, s.Side = SIDE_RIGHT) →
      SortSegs b (some p) seg noSegs = .error .assertFailed) ∧
    ((∃ s ∈ marked, s.Side ≠ SIDE_RIGHT) →
      ∃ b2, SortSegs b (some p) seg noSegs =
          .ok (b2, (onSide SIDE_LEFT marked).length, (onSide SIDE_RIGHT marked).length,
            (onSide SIDE_SPLIT marked).length) ∧
        b2 = { ComputeStaticVariables b (b.seg p) with segStart := b2.segStart } ∧
        slice b2.segStart seg noSegs
          = onSide SIDE_RIGHT marked ++ onSide SIDE_SPLIT marked ++ onSide SIDE_LEFT marked ∧
        b2.segStart.take seg = b.segStart.take seg ∧
        b2.segStart.drop (seg + noSegs) = b.segStart.drop (seg + noSegs)) ∧
    (onSide SIDE_RIGHT marked ++ onSide SIDE_SPLIT marked ++ onSide SIDE_LEFT marked).Perm
      marked ∧
    (onSide SIDE_RIGHT marked).length + (onSide SIDE_SPLIT marked).length
      + (onSide SIDE_LEFT marked).length = noSegs := by
  obtain ⟨hparts, hpre, hlen⟩ := array_parts b.segStart seg noSegs hin
  generalize hbp : ComputeStaticVariables b (b.seg p) = bp at hm
  have hbseg : bp.segStart = b.segStart := by rw [← hbp]; rfl
  have hrange := sides_in_range bp (slice b.segStart seg noSegs)
  rw [← hm] at hrange
  have hmlen : marked.length = noSegs := by rw [hm, List.length_map, hlen]
  have hperm := onSide_perm marked hrange
  have hsum : (onSide SIDE_RIGHT marked).length + (onSide SIDE_SPLIT marked).length
      + (onSide SIDE_LEFT marked).length = noSegs := by
    have := hperm.length_eq
    rw [List.length_append, List.length_append, hmlen] at this
    exact this
  -- the first loop
  have hc := classify_list seg (slice b.segStart seg noSegs) (b.segStart.take seg)
    (b.segStart.drop (seg + noSegs)) bp ⟨0, 0, 0⟩ 0 (by rw [hbseg]; exact hparts)
    (by rw [hpre]; rfl)
  rw [hlen, ← hm] at hc
  simp only [zero_add] at hc
  -- the scan for the leading RIGHT segs
  have hlead := leading_list seg marked (b.segStart.take seg) (b.segStart.drop (seg + noSegs))
    { bp with segStart := b.segStart.take seg ++ marked ++ b.segStart.drop (seg + noSegs) } 0
    rfl (by rw [hpre]; rfl)
  rw [hmlen, zero_add] at hlead
  obtain ⟨r1, r2, r3⟩ := runs_of_right marked
  have hsplit := List.takeWhile_append_dropWhile (fun s : SEG => s.Side == SIDE_RIGHT) marked
  generalize hL : marked.takeWhile (fun s => s.Side == SIDE_RIGHT) = lead at hlead r1 r2 r3 hsplit
  generalize hR : marked.dropWhile (fun s => s.Side == SIDE_RIGHT) = rst at hsplit
  have hrst : ∀ s ∈ rst, s.Side = SIDE_LEFT ∨ s.Side = SIDE_SPLIT ∨ s.Side = SIDE_RIGHT := by
    intro s hs
    apply hrange
    rw [← hsplit]
    exact List.mem_append_right _ hs
  have gR : onSide SIDE_RIGHT marked = lead ++ onSide SIDE_RIGHT rst := by
    rw [← hsplit, onSide_append, r1]
  have gS : onSide SIDE_SPLIT marked = onSide SIDE_SPLIT rst := by
    rw [← hsplit, onSide_append, r2, List.nil_append]
  have gL : onSide SIDE_LEFT marked = onSide SIDE_LEFT rst := by
    rw [← hsplit, onSide_append, r3, List.nil_append]
  have hrlen : rst.length = noSegs - lead.length := by
    rw [← hmlen, ← hsplit, List.length_append]
    omega
  refine ⟨rfl, ?_, ?_, hperm, hsum⟩
  · intro hall
    have e1 : onSide SIDE_LEFT marked = [] := by
      unfold onSide
      rw [List.filter_eq_nil_iff]
      intro s hs
      simp [hall s hs, SIDE_RIGHT, SIDE_LEFT]
    have e2 : onSide SIDE_SPLIT marked = [] := by
      unfold onSide
      rw [List.filter_eq_nil_iff]
      intro s hs
      simp [hall s hs, SIDE_RIGHT, SIDE_SPLIT]
    simp only [SortSegs, hbp, hc, e1, e2, List.length_nil, Nat.cast_zero, and_self, if_true]
  · rintro ⟨s, hs, hne⟩
    have hnot : ¬ (((onSide SIDE_LEFT marked).length : Int) = 0 ∧
        ((onSide SIDE_SPLIT marked).length : Int) = 0) := by
      rintro ⟨z1, z2⟩
      have z1n : (onSide SIDE_LEFT marked).length = 0 := by exact_mod_cast z1
      have z2n : (onSide SIDE_SPLIT marked).length = 0 := by exact_mod_cast z2
      rcases hrange s hs with h | h | h
      · have : s ∈ onSide SIDE_LEFT marked := by
          unfold onSide
          rw [List.mem_filter]
          exact ⟨hs, by simp [h]⟩
        rw [List.length_eq_zero.mp z1n] at this
        cases this
      · have : s ∈ onSide SIDE_SPLIT marked := by
          unfold onSide
          rw [List.mem_filter]
          exact ⟨hs, by simp [h]⟩
        rw [List.length_eq_zero.mp z2n] at this
        cases this
      · exact hne h
    simp only [SortSegs, hbp, hc, if_neg hnot, hlead, Int.toNat_ofNat]
    by_cases hmove : ((lead.length : Nat) : Int) < ((onSide SIDE_RIGHT marked).length : Int) ∨
        ((onSide SIDE_SPLIT marked).length : Int) ≠ 0
    · rw [if_pos hmove]
      obtain ⟨mid2, hmid, hd⟩ := distribute_list seg rst (b.segStart.take seg ++ lead) []
        (b.segStart.drop (seg + noSegs))
        { bp with segStart := b.segStart.take seg ++ marked ++ b.segStart.drop (seg + noSegs) }
        [] [] lead.length
        (by simp only [List.append_nil, ← hsplit, List.append_assoc])
        (by simp only [List.append_nil, List.length_append, hpre])
        hrst
      have hpl : (b.segStart.take seg ++ lead).length = seg + lead.length := by
        rw [List.length_append, hpre]
      rw [hpl, hrlen] at hd
      rw [hd]
      simp only [List.nil_append]
      have htake : (onSide SIDE_SPLIT rst ++ onSide SIDE_LEFT rst).take
          (noSegs - (onSide SIDE_RIGHT marked).length)
          = onSide SIDE_SPLIT rst ++ onSide SIDE_LEFT rst := by
        apply List.take_of_length_le
        rw [List.length_append, ← gS, ← gL]
        omega
      rw [htake]
      have hblit : blit (b.segStart.take seg ++ lead ++ onSide SIDE_RIGHT rst ++ mid2
            ++ b.segStart.drop (seg + noSegs))
          (seg + lead.length + (onSide SIDE_RIGHT rst).length)
          (onSide SIDE_SPLIT rst ++ onSide SIDE_LEFT rst)
          = b.segStart.take seg
            ++ (onSide SIDE_RIGHT marked ++ onSide SIDE_SPLIT marked ++ onSide SIDE_LEFT marked)
            ++ b.segStart.drop (seg + noSegs) := by
        unfold blit
        have hA : (b.segStart.take seg ++ lead ++ onSide SIDE_RIGHT rst).length
            = seg + lead.length + (onSide SIDE_RIGHT rst).length := by
          simp only [List.length_append, hpre]
        have hB : mid2.length = (onSide SIDE_SPLIT rst ++ onSide SIDE_LEFT rst).length := by
          rw [hmid, List.length_append]
          simp
        rw [← hA]
        have t1 : (b.segStart.take seg ++ lead ++ onSide SIDE_RIGHT rst ++ mid2
            ++ b.segStart.drop (seg + noSegs)).take
              (b.segStart.take seg ++ lead ++ onSide SIDE_RIGHT rst).length
            = b.segStart.take seg ++ lead ++ onSide SIDE_RIGHT rst := by
          rw [List.append_assoc _ mid2, List.take_left]
        have t2 : (b.segStart.take seg ++ lead ++ onSide SIDE_RIGHT rst ++ mid2
            ++ b.segStart.drop (seg + noSegs)).drop
              ((b.segStart.take seg ++ lead ++ onSide SIDE_RIGHT rst).length
                + (onSide SIDE_SPLIT rst ++ onSide SIDE_LEFT rst).length)
            = b.segStart.drop (seg + noSegs) := by
          rw [← hB, ← List.length_append, List.drop_left]
        rw [t1, t2, gR, gS, gL]
        simp only [List.append_assoc]
      rw [hblit]
      refine ⟨_, rfl, rfl, ?_, ?_, ?_⟩
      · exact slice_of_parts _ _ _ seg noSegs hpre
          (by rw [List.length_append, List.length_append]; exact hsum)
      · exact take_of_parts _ _ _ seg hpre
      · exact drop_of_parts _ _ _ (seg + noSegs)
          (by rw [List.length_append, hpre, List.length_append, List.length_append, hsum])
    · rw [if_neg hmove]
      have hRn : (onSide SIDE_RIGHT rst).length = 0 := by
        have h1 : ¬ (((lead.length : Nat) : Int) < ((onSide SIDE_RIGHT marked).length : Int)) :=
          fun h => hmove (Or.inl h)
        rw [gR, List.length_append] at h1
        push_cast at h1
        omega
      have hSn : (onSide SIDE_SPLIT marked).length = 0 := by
        have h2 : ¬ (((onSide SIDE_SPLIT marked).length : Int) ≠ 0) := fun h => hmove (Or.inr h)
        push_neg at h2
        exact_mod_cast h2
      have hlayout : onSide SIDE_RIGHT marked ++ onSide SIDE_SPLIT marked
          ++ onSide SIDE_LEFT marked = marked := by
        have hLall : onSide SIDE_LEFT rst = rst := by
          unfold onSide
          rw [List.filter_eq_self]
          intro s hs
          rcases hrst s hs with h | h | h
          · simp [h]
          · exfalso
            have : s ∈ onSide SIDE_SPLIT rst := by
              unfold onSide
              rw [List.mem_filter]
              exact ⟨hs, by simp [h]⟩
            rw [← gS, List.length_eq_zero.mp hSn] at this
            cases this
          · exfalso
            have : s ∈ onSide SIDE_RIGHT rst := by
              unfold onSide
              rw [List.mem_filter]
              exact ⟨hs, by simp [h]⟩
            rw [List.length_eq_zero.mp hRn] at this
            cases this
        rw [gR, List.length_eq_zero.mp hRn, gL, hLall, List.length_eq_zero.mp hSn]
        simp only [List.append_nil]
        exact hsplit
      refine ⟨_, rfl, rfl, ?_, ?_, ?_⟩
      · simp only
        rw [hlayout]
        exact slice_of_parts _ _ _ seg noSegs hpre hmlen
      · exact take_of_parts _ _ _ seg hpre
      · exact drop_of_parts _ _ _ (seg + noSegs) (by rw [List.length_append, hpre, hmlen])

theorem SortSegs_layout_witness :
    0 + 6 ≤ dividedRoom.segStart.length ∧
    ∃ b2, SortSegs dividedRoom (some 4) 0 6 =
        .ok (b2,
          (onSide SIDE_LEFT ((slice dividedRoom.segStart 0 6).map
            (withSide (ComputeStaticVariables dividedRoom (dividedRoom.seg 4))))).length,
          (onSide SIDE_RIGHT ((slice dividedRoom.segStart 0 6).map
            (withSide (ComputeStaticVariables dividedRoom (dividedRoom.seg 4))))).length,
          (onSide SIDE_SPLIT ((slice dividedRoom.segStart 0 6).map
            (withSide (ComputeStaticVariables dividedRoom (dividedRoom.seg 4))))).length) ∧
      (slice b2.segStart 0 6).map (fun s => (s.Data.lineDef, s.Side))
        = [(3, 1), (4, 1), (0, 0), (2, 0), (1, -1), (4, -1)] := by
  refine ⟨by decide, ?_⟩
  obtain ⟨b2, h1, _, h3, _⟩ := (SortSegs_layout dividedRoom 4 0 6 _ (by decide) rfl).2.2.1
    (by decide)
  refine ⟨b2, h1, ?_⟩
  rw [h3]
  decide

/-! ## Every seg is on its own right side -/

theorem currentSideAt_statics (b : Builder) (s : SEG) (sector : Nat) :
    (ComputeStaticVariables b s).currentSideAt sector
      = b.sideAt (b.aliasOf s.Data.lineDef).index sector := by
  unfold Builder.currentSideAt Builder.sideAt
  cases h : b.sideInfo with
  | none => simp [ComputeStaticVariables, Builder.st, h]
  | some info => simp [ComputeStaticVariables, Builder.st, h]

/-- The side of a seg with respect to its own line is read from the side table, and is
RIGHT when the entry is neither LEFT nor RIGHT. -/
theorem selfSide_eq (b : Builder) (s : SEG) :
    selfSide b s =
      if IS_LEFT_RIGHT (b.sideAt (b.aliasOf s.Data.lineDef).index s.Sector) then
        FLIP ((s.Data.flip ^^^ (if (b.aliasOf s.Data.lineDef).flip then 1 else 0)) != 0)
          (b.sideAt (b.aliasOf s.Data.lineDef).index s.Sector)
      else SIDE_RIGHT := by
  unfold selfSide WhichSide
  simp only [currentSideAt_statics]
  by_cases h : IS_LEFT_RIGHT (b.sideAt (b.aliasOf s.Data.lineDef).index s.Sector) = true
  · rw [if_pos h, if_pos h]
    rfl
  · rw [if_neg h, if_neg h]
    have ha : ((ComputeStaticVariables b s).aliasOf s.Data.lineDef).index
        = ((ComputeStaticVariables b s).aliasOf (ComputeStaticVariables b s).st.currentAlias).index :=
      rfl
    rw [if_pos ha]
    have hf : (ComputeStaticVariables b s).st.currentFlipped
        = ((s.Data.flip ^^^ (if ((ComputeStaticVariables b s).aliasOf s.Data.lineDef).flip
            then 1 else 0)) != 0) := rfl
    rw [if_pos hf]

theorem selfSide_range (b : Builder) (s : SEG) :
    selfSide b s = SIDE_LEFT ∨ selfSide b s = SIDE_RIGHT := by
  rw [selfSide_eq]
  by_cases h : IS_LEFT_RIGHT (b.sideAt (b.aliasOf s.Data.lineDef).index s.Sector) = true
  · rw [if_pos h]
    unfold IS_LEFT_RIGHT at h
    simp only [Bool.or_eq_true, beq_iff_eq] at h
    unfold FLIP
    rcases h with h | h <;> rw [h] <;> split_ifs <;> simp [SIDE_LEFT, SIDE_RIGHT]
  · rw [if_neg h]
    right
    rfl

theorem getD_set_eq {α : Type} (l : List α) (i j : Nat) (v d : α) :
    (l.set i v).getD j d = if j = i ∧ i < l.length then v else l.getD j d := by
  simp only [List.getD_eq_getElem?_getD, List.getElem?_set]
  by_cases h1 : i = j
  · subst h1
    by_cases h2 : i < l.length
    · simp [h2]
    · simp [h2, List.getElem?_eq_none (by omega : l.length ≤ i)]
  · simp [h1, Ne.symm h1]

theorem lt_of_getD_ne {α : Type} (l : List α) (i : Nat) (d : α) (h : l.getD i d ≠ d) :
    i < l.length := by
  by_contra hlt
  apply h
  simp [List.getD_eq_getElem?_getD, List.getElem?_eq_none (by omega : l.length ≤ i)]

theorem sideAt_setSide (b : Builder) (al : Int) (sector : Nat) (v : Int) (al2 : Int)
    (sector2 : Nat) :
    ((b.setSide al sector v).sideAt al2 sector2 = b.sideAt al2 sector2 ∨
      (b.setSide al sector v).sideAt al2 sector2 = v) ∧
    (b.sideAt al sector ≠ 0 → (b.setSide al sector v).sideAt al sector = v) := by
  have hd : (default : List Int) = [] := rfl
  unfold Builder.setSide Builder.sideAt
  cases h : b.sideInfo with
  | none =>
    simp only [h]
    exact ⟨Or.inl trivial, fun hne => absurd rfl hne⟩
  | some info =>
    simp only
    unfold readI writeI
    by_cases hneg : al < 0
    · simp only [hneg, if_true]
      refine ⟨Or.inl trivial, ?_⟩
      intro hne
      exfalso
      apply hne
      rw [hd]
      rfl
    · simp only [hneg, if_false]
      constructor
      · by_cases hneg2 : al2 < 0
        · simp only [hneg2, if_true]
          left
          trivial
        · simp only [hneg2, if_false]
          rw [getD_set_eq]
          by_cases hc : al2.toNat = al.toNat ∧ al.toNat < info.length
          · rw [if_pos hc, getD_set_eq, hc.1]
            by_cases hc2 : sector2 = sector ∧ sector < (info.getD al.toNat default).length
            · right
              rw [if_pos hc2]
            · left
              rw [if_neg hc2]
          · left
            rw [if_neg hc]
      · intro hne
        have hrow : al.toNat < info.length := by
          by_contra hlt
          apply hne
          rw [List.getD_eq_getElem?_getD info,
            List.getElem?_eq_none (by omega : info.length ≤ al.toNat)]
          rfl
        have hcol := lt_of_getD_ne _ _ _ hne
        rw [getD_set_eq, if_pos ⟨rfl, hrow⟩, getD_set_eq, if_pos ⟨rfl, hcol⟩]

/-- One round of the loop of `CreateNODES` that demotes the entry of a seg on its own
left. -/
theorem ownRight_step (b : Builder) (s : SEG) :
    (selfSide b s ≠ SIDE_LEFT → selfSide b s = SIDE_RIGHT) ∧
    (selfSide b s = SIDE_LEFT →
      selfSide ((ComputeStaticVariables b s).setSide (b.aliasOf s.Data.lineDef).index
        s.Sector SIDE_SPLIT) s = SIDE_RIGHT) ∧
    (∀ (al : Int) (sector : Nat) (t : SEG), selfSide b t = SIDE_RIGHT →
      selfSide ((ComputeStaticVariables b s).setSide al sector SIDE_SPLIT) t = SIDE_RIGHT) := by
  have hal : ∀ (al : Int) (sector : Nat) (n : Nat),
      ((ComputeStaticVariables b s).setSide al sector SIDE_SPLIT).aliasOf n = b.aliasOf n := by
    intro al sector n
    unfold Builder.setSide
    cases h : (ComputeStaticVariables b s).sideInfo <;> rfl
  have hside : ∀ (al : Int) (sector : Nat), (ComputeStaticVariables b s).sideAt al sector
      = b.sideAt al sector := fun _ _ => rfl
  refine ⟨?_, ?_, ?_⟩
  · intro h
    rcases selfSide_range b s with h1 | h1
    · exact absurd h1 h
    · exact h1
  · intro h
    rw [selfSide_eq] at h
    by_cases hlr : IS_LEFT_RIGHT (b.sideAt (b.aliasOf s.Data.lineDef).index s.Sector) = true
    · have hne : (ComputeStaticVariables b s).sideAt (b.aliasOf s.Data.lineDef).index s.Sector
          ≠ 0 := by
        rw [hside]
        intro h0
        rw [h0] at hlr
        exact absurd hlr (by decide)
      have := (sideAt_setSide (ComputeStaticVariables b s) (b.aliasOf s.Data.lineDef).index
        s.Sector SIDE_SPLIT (b.aliasOf s.Data.lineDef).index s.Sector).2 hne
      rw [selfSide_eq, hal, this]
      rfl
    · rw [if_neg hlr] at h
      exact absurd h (by decide)
  · intro al sector t ht
    rw [selfSide_eq] at ht ⊢
    rw [hal]
    rcases (sideAt_setSide (ComputeStaticVariables b s) al sector SIDE_SPLIT
      (b.aliasOf t.Data.lineDef).index t.Sector).1 with h | h
    · rw [h, hside]
      exact ht
    · rw [h]
      rfl

theorem setSide_frame (b : Builder) (al : Int) (sector : Nat) (v : Int) :
    (b.setSide al sector v).segStart = b.segStart ∧
    (b.setSide al sector v).lineDefAlias = b.lineDefAlias ∧
    (b.setSide al sector v).newVertices = b.newVertices ∧
    (b.setSide al sector v).segCount = b.segCount := by
  unfold Builder.setSide
  cases b.sideInfo <;> exact ⟨rfl, rfl, rfl, rfl⟩

/-- The loop of `CreateNODES` over the segs `0 .. k - 1`: the segs and the alias table
stay as they are, and each of these segs is on its own right side afterwards. -/
theorem ownRight_rounds (b : Builder) : ∀ k : Nat,
    ((List.range k).foldl (fun b i =>
        let b := ComputeStaticVariables b (b.seg i)
        let side := WhichSide b (b.seg i)
        if side = SIDE_LEFT then
          let al := (b.aliasOf (b.seg i).Data.lineDef).index
          b.setSide al (b.seg i).Sector SIDE_SPLIT
        else b) b).segStart = b.segStart ∧
    ((List.range k).foldl (fun b i =>
        let b := ComputeStaticVariables b (b.seg i)
        let side := WhichSide b (b.seg i)
        if side = SIDE_LEFT then
          let al := (b.aliasOf (b.seg i).Data.lineDef).index
          b.setSide al (b.seg i).Sector SIDE_SPLIT
        else b) b).segCount = b.segCount ∧
    ∀ j, j < k →
      selfSide ((List.range k).foldl (fun b i =>
        let b := ComputeStaticVariables b (b.seg i)
        let side := WhichSide b (b.seg i)
        if side = SIDE_LEFT then
          let al := (b.aliasOf (b.seg i).Data.lineDef).index
          b.setSide al (b.seg i).Sector SIDE_SPLIT
        else b) b) (b.seg j) = SIDE_RIGHT := by
  intro k
  induction k with
  | zero =>
    refine ⟨rfl, rfl, ?_⟩
    intro j hj
    omega
  | succ k ih =>
    rw [List.range_succ, List.foldl_append]
    simp only [List.foldl_cons, List.foldl_nil]
    generalize (List.range k).foldl (fun b i =>
        let b := ComputeStaticVariables b (b.seg i)
        let side := WhichSide b (b.seg i)
        if side = SIDE_LEFT then
          let al := (b.aliasOf (b.seg i).Data.lineDef).index
          b.setSide al (b.seg i).Sector SIDE_SPLIT
        else b) b = c at ih ⊢
    obtain ⟨hseg, hcount, hright⟩ := ih
    have hsegk : (ComputeStaticVariables c (c.seg k)).seg k = c.seg k := rfl
    have hself : WhichSide (ComputeStaticVariables c (c.seg k)) (c.seg k) = selfSide c (c.seg k) :=
      rfl
    have hck : ∀ j, c.seg j = b.seg j := by
      intro j
      unfold Builder.seg
      rw [hseg]
    obtain ⟨s1, s2, s3⟩ := ownRight_step c (c.seg k)
    rw [hsegk, hself]
    by_cases hl : selfSide c (c.seg k) = SIDE_LEFT
    · rw [if_pos hl]
      obtain ⟨f1, _, _, f4⟩ := setSide_frame (ComputeStaticVariables c (c.seg k))
        ((ComputeStaticVariables c (c.seg k)).aliasOf (c.seg k).Data.lineDef).index
        (c.seg k).Sector SIDE_SPLIT
      refine ⟨f1.trans hseg, f4.trans hcount, ?_⟩
      intro j hj
      by_cases hjk : j = k
      · subst hjk
        rw [← hck]
        exact s2 hl
      · exact s3 _ _ _ (hright j (by omega))
    · rw [if_neg hl]
      refine ⟨hseg, hcount, ?_⟩
      intro j hj
      rw [selfSide_congr (ComputeStaticVariables c (c.seg k)) c _ rfl rfl rfl]
      by_cases hjk : j = k
      · subst hjk
        rw [← hck]
        exact s1 hl
      · exact hright j (by omega)

theorem ownRight_spec (b : Builder) :
    (CreateNODES.ownRight b).segStart = b.segStart ∧
    (CreateNODES.ownRight b).segCount = b.segCount ∧
    ∀ j, j < b.segCount → selfSide (CreateNODES.ownRight b) (b.seg j) = SIDE_RIGHT :=
  ownRight_rounds b b.segCount

theorem own_right_of_tables (c b1 : Builder)
    (h1 : b1.segStart = (CreateNODES.ownRight c).segStart)
    (h2 : b1.segCount = (CreateNODES.ownRight c).segCount)
    (h3 : b1.lineDefAlias = (CreateNODES.ownRight c).lineDefAlias)
    (h4 : b1.sideInfo = (CreateNODES.ownRight c).sideInfo)
    (h5 : b1.newVertices = (CreateNODES.ownRight c).newVertices) :
    ∀ i, i < b1.segCount →
      WhichSide (ComputeStaticVariables b1 (b1.seg i)) (b1.seg i) = SIDE_RIGHT := by
  obtain ⟨hseg, hcount, hright⟩ := ownRight_spec c
  intro i hi
  have hs : WhichSide (ComputeStaticVariables b1 (b1.seg i)) (b1.seg i) = selfSide b1 (b1.seg i) :=
    rfl
  rw [hs, selfSide_congr b1 (CreateNODES.ownRight c) _ h3 h4 h5]
  have hsegi : b1.seg i = c.seg i := by
    unfold Builder.seg
    rw [h1, hseg]
  rw [hsegi]
  exact hright i (by rw [← hcount, ← h2]; exact hi)

/-- C25.  When `CreateNODES`, for algorithm 1 or 2, has built the alias table and the
side table and has run its loop over the segs, every seg of the list is on its own right
side: `WhichSide`, with the seg itself as the partition, returns RIGHT for it, whether
the loop came to the seg before or after the last change of the side table. -/
theorem every_seg_on_its_own_right (atanBAM : Int → Int → Nat) (b : Builder)
    (level : DoomLevel) (options : sBSPOptions) (b1 : Builder)
    (halg : options.algorithm ≠ 3)
    (h : CreateNODES.setup atanBAM b level options = .ok b1) :
    ∀ i, i < b1.segCount →
      WhichSide (ComputeStaticVariables b1 (b1.seg i)) (b1.seg i) = SIDE_RIGHT := by
  unfold CreateNODES.setup CreateNODES.prepare at h
  rw [if_pos halg] at h
  unfold CreateNODES.tables at h
  simp only at h
  generalize CreateSegs atanBAM (CreateNODES.init b level options) level options = bs at h
  generalize GetLineDefAliases bs level.lineDefs.length = ga at h
  obtain ⟨ba, aliasList⟩ := ga
  simp only at h
  cases hinfo : GetSectorInfo ba.sectorCount (GetSectorBounds level) with
  | error e =>
    rw [hinfo] at h
    cases h
  | ok sectInfo =>
    rw [hinfo] at h
    simp only at h
    injection h with h
    subst h
    exact own_right_of_tables _ _ rfl rfl rfl rfl rfl

theorem every_seg_on_its_own_right_witness :
    classicOptions.algorithm ≠ 3 ∧
    ∃ b1, CreateNODES.setup (fun _ _ => 0) freshBuilder outwardWallRoom classicOptions
        = .ok b1 ∧ b1.segCount = 4 ∧
      b1.sideInfo = some [[SIDE_SPLIT], [SIDE_RIGHT], [SIDE_RIGHT], [SIDE_SPLIT]] ∧
      ∀ i, i < b1.segCount →
        WhichSide (ComputeStaticVariables b1 (b1.seg i)) (b1.seg i) = SIDE_RIGHT := by
  refine ⟨by decide, ?_⟩
  cases h : CreateNODES.setup (fun _ _ => 0) freshBuilder outwardWallRoom classicOptions with
  | error e =>
    exfalso
    have hs : (CreateNODES.setup (fun _ _ => 0) freshBuilder outwardWallRoom
        classicOptions).toOption.isSome = true := by
      decide!
    rw [h] at hs
    cases hs
  | ok b1 =>
    have hc : ((CreateNODES.setup (fun _ _ => 0) freshBuilder outwardWallRoom
        classicOptions).toOption.getD default).segCount = 4 ∧
        ((CreateNODES.setup (fun _ _ => 0) freshBuilder outwardWallRoom
        classicOptions).toOption.getD default).sideInfo
          = some [[SIDE_SPLIT], [SIDE_RIGHT], [SIDE_RIGHT], [SIDE_SPLIT]] := by decide!
    rw [h] at hc
    exact ⟨b1, rfl, hc.1, hc.2, every_seg_on_its_own_right (fun _ _ => 0) freshBuilder
      outwardWallRoom classicOptions b1 (by decide) h⟩

/-! ## The tables of the Lite build -/

/-- The failing input of C28.  In the Lite build of `lastSectorRoom`, whose four walls
name sector 4, the row of the side table has four entries, one per seg
(`new char [ segCount ]`), so that the lookup `currentSide [seg.Sector]` for seg 0
addresses the entry 4 of a row that has the entries 0 to 3: the lookup is not inside the
row, against the comment `Set all sideInfo entries to SIDE_SPLIT` of the source. -/
theorem lite_row_shorter_than_sector :
    (lastSectorSetup.seg 0).Sector = 4 ∧
    lastSectorSetup.segCount = 4 ∧
    lastSectorSetup.sideRow (lastSectorSetup.aliasOf (lastSectorSetup.seg 0).Data.lineDef).index
      = [SIDE_SPLIT, SIDE_SPLIT, SIDE_SPLIT, SIDE_SPLIT] ∧
    ¬ ((lastSectorSetup.seg 0).Sector <
      (lastSectorSetup.sideRow
        (lastSectorSetup.aliasOf (lastSectorSetup.seg 0).Data.lineDef).index).length) := by
  decide!

/-- What the Lite branch of `CreateNODES` installs (C28): an identity alias table,
`lineDefAlias [i] = (i, false)` for every linedef `i`, and a side table whose row for
every alias has `segCount` entries, all SPLIT.  For a partition `pSeg` of a linedef of the
level and a seg whose sector number is below `segCount`, the lookup
`currentSide [seg.Sector]` is inside the row and yields SPLIT, so that `WhichSide` does
not answer from the table: it decides by the alias or calls `_WhichSide`. -/
theorem lite_tables (atanBAM : Int → Int → Nat) (b : Builder) (level : DoomLevel)
    (options : sBSPOptions) (b1 : Builder) (halg : options.algorithm = 3)
    (h : CreateNODES.setup atanBAM b level options = .ok b1) :
    b1.noAliases = level.lineDefs.length ∧
    b1.lineDefAlias.length = level.lineDefs.length ∧
    (∀ i, i < level.lineDefs.length → b1.aliasOf i = ⟨(i : Int), false⟩) ∧
    (∀ i, i < level.lineDefs.length →
      b1.sideRow (b1.aliasOf i).index = List.replicate b1.segCount SIDE_SPLIT) ∧
    (∀ pSeg seg : SEG, pSeg.Data.lineDef < level.lineDefs.length →
      seg.Sector < b1.segCount →
      seg.Sector < (b1.sideRow (b1.aliasOf pSeg.Data.lineDef).index).length ∧
      (ComputeStaticVariables b1 pSeg).currentSideAt seg.Sector = SIDE_SPLIT ∧
      WhichSide (ComputeStaticVariables b1 pSeg) seg =
        if (b1.aliasOf seg.Data.lineDef).index = (b1.aliasOf pSeg.Data.lineDef).index then
          (if (ComputeStaticVariables b1 pSeg).st.currentFlipped
              = ((seg.Data.flip ^^^ (if (b1.aliasOf seg.Data.lineDef).flip then 1 else 0)) != 0)
           then SIDE_RIGHT else SIDE_LEFT)
        else _WhichSide (ComputeStaticVariables b1 pSeg) seg) := by
  unfold CreateNODES.setup CreateNODES.prepare at h
  rw [if_neg (by rw [halg]; decide)] at h
  simp only at h
  injection h with h
  generalize CreateSegs atanBAM (CreateNODES.init b level options) level options = bs at h
  have hal : ∀ i, i < level.lineDefs.length → b1.aliasOf i = ⟨(i : Int), false⟩ := by
    intro i hi
    rw [← h]
    simp only [Builder.aliasOf, CreateNODES.lite, List.getD_eq_getElem?_getD, List.getElem?_map,
      List.getElem?_range hi, Option.map_some', Option.getD_some]
  have hrow : ∀ i, i < level.lineDefs.length →
      b1.sideRow (b1.aliasOf i).index = List.replicate b1.segCount SIDE_SPLIT := by
    intro i hi
    rw [hal i hi, ← h]
    simp [Builder.sideRow, CreateNODES.lite, readI, List.getD_eq_getElem?_getD, hi]
  refine ⟨by rw [← h]; rfl,
    by rw [← h]; simp only [CreateNODES.lite, List.length_map, List.length_range], hal, hrow, ?_⟩
  intro pSeg seg hp hs
  have hr := hrow pSeg.Data.lineDef hp
  have hcur : (ComputeStaticVariables b1 pSeg).currentSideAt seg.Sector = SIDE_SPLIT := by
    rw [currentSideAt_statics]
    have : b1.sideAt (b1.aliasOf pSeg.Data.lineDef).index seg.Sector
        = (b1.sideRow (b1.aliasOf pSeg.Data.lineDef).index).getD seg.Sector 0 := by
      unfold Builder.sideAt Builder.sideRow
      cases b1.sideInfo <;> rfl
    rw [this, hr]
    simp [List.getD_eq_getElem?_getD, hs]
  refine ⟨by rw [hr, List.length_replicate]; exact hs, hcur, ?_⟩
  unfold WhichSide
  simp only [hcur]
  rw [if_neg (by decide)]
  rfl

theorem lite_tables_witness :
    liteOptions.algorithm = 3 ∧
    ∃ b1, CreateNODES.setup (fun _ _ => 0) freshBuilder lastSectorRoom liteOptions = .ok b1 ∧
      b1.noAliases = lastSectorRoom.lineDefs.length ∧
      ∀ i, i < lastSectorRoom.lineDefs.length → b1.aliasOf i = ⟨(i : Int), false⟩ := by
  refine ⟨by decide, ?_⟩
  cases h : CreateNODES.setup (fun _ _ => 0) freshBuilder lastSectorRoom liteOptions with
  | error e =>
    exfalso
    have hs : (CreateNODES.setup (fun _ _ => 0) freshBuilder lastSectorRoom
        liteOptions).toOption.isSome = true := by
      decide!
    rw [h] at hs
    cases hs
  | ok b1 =>
    have ht := lite_tables (fun _ _ => 0) freshBuilder lastSectorRoom liteOptions b1
      (by decide) h
    exact ⟨b1, rfl, ht.1, ht.2.2.1⟩

/-! ## The flip of an alias -/

/-- The entry one round of `GetLineDefAliases` writes for a linedef that has segs, with
its flip, and the array `segAlias` after the round. -/
theorem step_entry (s : Builder × List Nat × Nat) (i : Nat)
    (hreg : (s.1.seg s.2.2).Data.lineDef = i) (hlen : i < s.1.lineDefAlias.length) :
    (∀ x, GetLineDefAliases.search (ComputeStaticVariables s.1 (s.1.seg s.2.2)) s.2.1
        s.1.noAliases = some x →
      (GetLineDefAliases.step s i).1.aliasOf i
        = ⟨x, !((s.1.seg s.2.2).Data.angle == (s.1.seg (s.2.1.getD x 0)).Data.angle)⟩ ∧
      (GetLineDefAliases.step s i).2.1 = s.2.1) ∧
    (GetLineDefAliases.search (ComputeStaticVariables s.1 (s.1.seg s.2.2)) s.2.1
        s.1.noAliases = none →
      (GetLineDefAliases.step s i).1.aliasOf i = ⟨s.1.noAliases, false⟩ ∧
      (GetLineDefAliases.step s i).2.1 = s.2.1 ++ [s.2.2]) := by
  obtain ⟨b, sa, r⟩ := s
  simp only at hreg hlen ⊢
  have hreg2 : ¬ ((b.seg r).Data.lineDef ≠ i) := by simp [hreg]
  constructor
  · intro x hs
    have hs2 : GetLineDefAliases.search (ComputeStaticVariables b (b.seg r)) sa
        (ComputeStaticVariables b (b.seg r)).noAliases = some x := hs
    unfold GetLineDefAliases.step
    simp only
    rw [if_neg hreg2, hs2]
    simp [Builder.aliasOf, ComputeStaticVariables, List.getD_eq_getElem?_getD,
      List.getElem?_set, hlen, Builder.seg]
  · intro hs
    have hs2 : GetLineDefAliases.search (ComputeStaticVariables b (b.seg r)) sa
        (ComputeStaticVariables b (b.seg r)).noAliases = none := hs
    unfold GetLineDefAliases.step
    simp only
    rw [if_neg hreg2, hs2]
    simp [Builder.aliasOf, ComputeStaticVariables, List.getD_eq_getElem?_getD,
      List.getElem?_set, hlen]

theorem angle_of_CoLinear (b : Builder) (seg : SEG) (h : CoLinear b seg = true) :
    b.st.ANGLE &&& 0x7FFF = seg.Data.angle &&& 0x7FFF := by
  unfold CoLinear at h
  by_contra hne
  rw [if_pos hne] at h
  cases h

theorem half_turn_ne (x y : Nat) (hx : x < 65536) (hy : y < 65536)
    (h : x &&& 0x7FFF = y &&& 0x7FFF) : toUSHORT (x + BAM180) ≠ y ↔ x = y := by
  have e : ∀ z : Nat, z &&& 0x7FFF = z % 32768 := fun z =>
    Nat.and_pow_two_sub_one_eq_mod z 15
  rw [e, e] at h
  unfold toUSHORT BAM180
  omega

theorem GetLineDefAliases_list (b : Builder) (n : Nat) :
    (GetLineDefAliases b n).2 = (GetLineDefAliases.rounds b n n).2.1 := rfl

/-- The slip behind C26.  In `leftWallRoom` linedef 0 has a left side only.  Its seg, of
flip 1, opens alias 0, whose flip is false, and is the canonical seg of that alias: for
this seg `flip XOR alias.flip` is true although its angle is the angle of the canonical
seg. -/
theorem left_only_seg_counts_as_flipped :
    (leftWallSegs.seg 0).Data.lineDef = 0 ∧ (leftWallSegs.seg 0).Data.flip = 1 ∧
    (GetLineDefAliases leftWallSegs 4).1.aliasOf 0 = ⟨0, false⟩ ∧
    leftWallSegs.seg ((GetLineDefAliases leftWallSegs 4).2.getD 0 0) = leftWallSegs.seg 0 ∧
    (((leftWallSegs.seg 0).Data.flip ^^^
      (if ((GetLineDefAliases leftWallSegs 4).1.aliasOf 0).flip then 1 else 0)) != 0) = true ∧
    ¬ ((leftWallSegs.seg 0).Data.angle ≠
      (leftWallSegs.seg ((GetLineDefAliases leftWallSegs 4).2.getD 0 0)).Data.angle) := by
  decide!

/-- What `GetLineDefAliases` stores in the flip bit (C26).  Let the round of
`GetLineDefAliases` for linedef `i` find the pointer `refSeg` on the first seg
`segStart [r]` of the linedef, let `a` be the final entry `lineDefAlias [i]` and `c` the
canonical seg of the alias `a.index`.  The angle of the first seg equals the angle of `c`
modulo `BAM180`, and `a.flip` is set if and only if the two angles differ.  Hence for a
seg `s` of the linedef, `s.flip XOR a.flip` is true if and only if `s.angle != c.angle`
when the linedef has a right side (`s` the first seg, of flip 0, or the seg of the left
side, of flip 1 and the angle plus `BAM180`); when the linedef has only a left-side seg
the relation is inverted: `s.flip XOR a.flip` is true if and only if
`s.angle = c.angle`. -/
theorem alias_flip_direction (b : Builder) (n i r : Nat) (a : sAlias) (c : SEG)
    (hi : i < n)
    (hr : r = (GetLineDefAliases.rounds b n i).2.2)
    (hreg : (b.seg r).Data.lineDef = i)
    (ha : a = (GetLineDefAliases b n).1.aliasOf i)
    (hc : c = b.seg ((GetLineDefAliases b n).2.getD a.index.toNat 0)) :
    0 ≤ a.index ∧ a.index.toNat < (GetLineDefAliases b n).2.length ∧
    (b.seg r).Data.angle &&& 0x7FFF = c.Data.angle &&& 0x7FFF ∧
    (a.flip = true ↔ (b.seg r).Data.angle ≠ c.Data.angle) ∧
    (∀ s : SEG, s.Data.flip = 0 → s.Data.angle = (b.seg r).Data.angle →
      (((s.Data.flip ^^^ (if a.flip then 1 else 0)) != 0) = true ↔
        s.Data.angle ≠ c.Data.angle)) ∧
    (∀ s : SEG, (b.seg r).Data.flip = 0 → s.Data.flip = 1 →
      s.Data.angle = toUSHORT ((b.seg r).Data.angle + BAM180) →
      (b.seg r).Data.angle < 65536 → c.Data.angle < 65536 →
      (((s.Data.flip ^^^ (if a.flip then 1 else 0)) != 0) = true ↔
        s.Data.angle ≠ c.Data.angle)) ∧
    ((b.seg r).Data.flip = 1 →
      ((((b.seg r).Data.flip ^^^ (if a.flip then 1 else 0)) != 0) = true ↔
        (b.seg r).Data.angle = c.Data.angle)) := by
  obtain ⟨i1, _, i3, i4⟩ := rounds_inv b n i
  have segI : ∀ j, (GetLineDefAliases.rounds b n i).1.seg j = b.seg j := fun j => by
    simp only [Builder.seg, i1]
  obtain ⟨hsome, hnone⟩ := step_entry (GetLineDefAliases.rounds b n i) i
    (by rw [segI, ← hr]; exact hreg) (by rw [i3]; omega)
  rw [← rounds_succ] at hsome hnone
  rw [segI, ← hr] at hsome hnone
  -- the array of the aliases only grows
  obtain ⟨_, ext, m1, _⟩ := rounds_mono b n (i + 1) (n - (i + 1))
  have e : i + 1 + (n - (i + 1)) = n := by omega
  rw [e, ← GetLineDefAliases_list] at m1
  rw [GetLineDefAliases_aliasOf b n i hi] at ha
  have key : 0 ≤ a.index ∧ a.index.toNat < (GetLineDefAliases b n).2.length ∧
      (b.seg r).Data.angle &&& 0x7FFF = c.Data.angle &&& 0x7FFF ∧
      (a.flip = true ↔ (b.seg r).Data.angle ≠ c.Data.angle) := by
    cases hs : GetLineDefAliases.search
        (ComputeStaticVariables (GetLineDefAliases.rounds b n i).1 (b.seg r))
        (GetLineDefAliases.rounds b n i).2.1 (GetLineDefAliases.rounds b n i).1.noAliases with
    | none =>
      obtain ⟨e1, e2⟩ := hnone hs
      rw [e1] at ha
      have hidx : a.index.toNat = (GetLineDefAliases.rounds b n i).2.1.length := by
        rw [ha, i4]
        simp
      have hget : (GetLineDefAliases b n).2.getD a.index.toNat 0 = r := by
        rw [m1, e2, hidx, List.getD_eq_getElem?_getD, List.append_assoc,
          List.getElem?_append_right (le_refl _), Nat.sub_self]
        simp
      rw [hget] at hc
      refine ⟨by rw [ha]; simp, ?_, by rw [hc], ?_⟩
      · rw [m1, e2, hidx]
        simp
      · rw [hc, ha]
        simp
    | some x =>
      obtain ⟨e1, e2⟩ := hsome x hs
      obtain ⟨hx, hco, _⟩ := search_some _ _ _ _ hs
      rw [e1] at ha
      have hidx : a.index.toNat = x := by
        rw [ha]
        simp
      have hxl : x < (GetLineDefAliases.rounds b n i).2.1.length := by
        rw [i4]
        exact hx
      have hget : (GetLineDefAliases b n).2.getD a.index.toNat 0
          = (GetLineDefAliases.rounds b n i).2.1.getD x 0 := by
        rw [m1, e2, hidx, List.getD_eq_getElem?_getD, List.getD_eq_getElem?_getD,
          List.getElem?_append_left hxl]
      rw [hget] at hc
      rw [seg_ComputeStaticVariables, segI, ← hc] at hco
      rw [segI, ← hc] at ha
      refine ⟨by rw [ha]; simp, ?_, angle_of_CoLinear _ _ hco, ?_⟩
      · rw [m1, e2, hidx, List.length_append]
        omega
      · rw [ha]
        simp
  obtain ⟨k1, k2, k3, k4⟩ := key
  refine ⟨k1, k2, k3, k4, ?_, ?_, ?_⟩
  · intro s hf hang
    rw [hf, hang, ← k4]
    cases a.flip <;> simp
  · intro s hf0 hf hang hb1 hb2
    rw [hf, hang, half_turn_ne _ _ hb1 hb2 k3]
    have k5 : a.flip = false ↔ (b.seg r).Data.angle = c.Data.angle := by
      constructor
      · intro h
        by_contra hne
        have := k4.mpr hne
        rw [h] at this
        cases this
      · intro h
        cases hfl : a.flip with
        | false => rfl
        | true => exact absurd h (k4.mp hfl)
    rw [← k5]
    cases a.flip <;> simp
  · intro hf
    rw [hf]
    have k5 : a.flip = false ↔ (b.seg r).Data.angle = c.Data.angle := by
      constructor
      · intro h
        by_contra hne
        have := k4.mpr hne
        rw [h] at this
        cases this
      · intro h
        cases hfl : a.flip with
        | false => rfl
        | true => exact absurd h (k4.mp hfl)
    rw [← k5]
    cases a.flip <;> simp

theorem alias_flip_direction_witness :
    3 < 4 ∧ (leftWallSegs.seg 3).Data.lineDef = 3 ∧
    (((GetLineDefAliases leftWallSegs 4).1.aliasOf 3).flip = true ↔
      (leftWallSegs.seg 3).Data.angle ≠
        (leftWallSegs.seg ((GetLineDefAliases leftWallSegs 4).2.getD
          ((GetLineDefAliases leftWallSegs 4).1.aliasOf 3).index.toNat 0)).Data.angle) :=
  ⟨by decide, by decide!,
    (alias_flip_direction leftWallSegs 4 3 3 _ _ (by decide) (by decide!) (by decide!) rfl
      rfl).2.2.2.1⟩

/-- The failing input of C26.  `leftWallPost` is the room of `leftWallRoom` with a post
inside.  Seg 0, the seg of the west wall, whose linedef has a left side only, runs from
(0,0) to (0,1024) and is the canonical seg of alias 0; seg 4, the post, of sector 1, runs
from (512,256) to (512,768), on the right of seg 0, and the side table holds RIGHT for
alias 0 and sector 1.  With seg 0 as the partition `currentFlipped` is set, for the seg
has flip 1 and the flip of its alias is false, and `WhichSide` answers LEFT for seg 4 from
the table, while `_WhichSide` answers RIGHT.  The build makes seg 0 the partition of its
only node, the line from (0,0) with the direction (0,1024), and puts the post, seg 4,
into the left child, the subsector 1. -/
theorem left_only_partition_misclassifies :
    ((leftWallPostSetup.seg 0).Data.lineDef = 0 ∧ (leftWallPostSetup.seg 0).Data.flip = 1 ∧
      leftWallPostSetup.aliasOf 0 = ⟨0, false⟩ ∧
      leftWallPostSetup.vertex (leftWallPostSetup.seg 0).Data.start = ⟨0, 0⟩ ∧
      leftWallPostSetup.vertex (leftWallPostSetup.seg 0).Data.end_ = ⟨0, 1024⟩ ∧
      leftWallPostSetup.vertex (leftWallPostSetup.seg 4).Data.start = ⟨512, 256⟩ ∧
      leftWallPostSetup.vertex (leftWallPostSetup.seg 4).Data.end_ = ⟨512, 768⟩ ∧
      (leftWallPostSetup.seg 4).Sector = 1 ∧
      leftWallPostSetup.sideRow 0 = [SIDE_SPLIT, SIDE_RIGHT]) ∧
    ((ComputeStaticVariables leftWallPostSetup (leftWallPostSetup.seg 0)).st.currentFlipped
        = true ∧
      WhichSide (ComputeStaticVariables leftWallPostSetup (leftWallPostSetup.seg 0))
        (leftWallPostSetup.seg 4) = SIDE_LEFT ∧
      _WhichSide (ComputeStaticVariables leftWallPostSetup (leftWallPostSetup.seg 0))
        (leftWallPostSetup.seg 4) = SIDE_RIGHT) ∧
    (CreateNODES (fun _ _ => 0) freshBuilder leftWallPost classicOptions).toOption.map
        (fun r => ((r.2.nodes.getD []).map (fun n => (n.x, n.y, n.dx, n.dy)),
          (r.2.nodes.getD []).map (fun n => (n.child0, n.child1))))
      = some ([(0, 0, 0, 1024)], [(0x8000, 0x8001)]) ∧
    (CreateNODES (fun _ _ => 0) freshBuilder leftWallPost classicOptions).toOption.map
        (fun r => (r.2.ssectors.map (fun s => (s.num, s.first)),
          r.2.segs.map (fun s => s.lineDef)))
      = some ([(4, 0), (1, 4)], [0, 1, 2, 3, 4]) :=
  ⟨by decide!, by decide!, by decide!, by decide!⟩

/-! ## The side table and the classifier -/

theorem labels_axis (b : Builder) (seg : SEG) (S E : wVertex)
    (h : b.st.DX = 0 ∨ b.st.DY = 0) (hX : b.st.X = S.x) (hY : b.st.Y = S.y)
    (hDX : b.st.DX = E.x - S.x) (hDY : b.st.DY = E.y - S.y) :
    _WhichSide.labels b seg =
      (axisLabel S E (b.vertex seg.Data.start), axisLabel S E (b.vertex seg.Data.end_)) := by
  unfold _WhichSide.labels axisLabel
  simp only
  rw [← hDX, ← hDY, ← hX, ← hY]
  by_cases h1 : b.st.DX = 0
  · rw [if_pos h1, if_pos h1, if_pos h1]
    by_cases h2 : b.st.DY > 0
    · rw [if_pos h2, if_pos h2, if_pos h2]
    · rw [if_neg h2, if_neg h2, if_neg h2]
  · have h2 : b.st.DY = 0 := by
      rcases h with h | h
      · exact absurd h h1
      · exact h
    rw [if_neg h1, if_neg h1, if_neg h1, if_pos h2]
    by_cases h3 : b.st.DX > 0
    · rw [if_pos h3, if_pos h3, if_pos h3]
    · rw [if_neg h3, if_neg h3, if_neg h3]

theorem side_signs (b : Builder) (seg : SEG) :
    (_WhichSide b seg = SIDE_LEFT →
      0 ≤ (_WhichSide.labels b seg).1 ∧ 0 ≤ (_WhichSide.labels b seg).2) ∧
    (_WhichSide b seg = SIDE_RIGHT →
      (_WhichSide.labels b seg).1 ≤ 0 ∧ (_WhichSide.labels b seg).2 ≤ 0) ∧
    (0 ≤ (_WhichSide.labels b seg).1 → 0 ≤ (_WhichSide.labels b seg).2 →
      ¬ ((_WhichSide.labels b seg).1 = 0 ∧ (_WhichSide.labels b seg).2 = 0) →
      _WhichSide b seg = SIDE_LEFT) ∧
    ((_WhichSide.labels b seg).1 ≤ 0 → (_WhichSide.labels b seg).2 ≤ 0 →
      ¬ ((_WhichSide.labels b seg).1 = 0 ∧ (_WhichSide.labels b seg).2 = 0) →
      _WhichSide b seg = SIDE_RIGHT) := by
  unfold _WhichSide
  generalize _WhichSide.labels b seg = l
  obtain ⟨y1, y2⟩ := l
  simp only [SIDE_SPLIT, SIDE_LEFT, SIDE_RIGHT]
  refine ⟨?_, ?_, ?_, ?_⟩
  · split_ifs <;> intro h <;> first | omega | (exfalso; omega) | simp_all
  · split_ifs <;> intro h <;> first | omega | (exfalso; omega) | simp_all
  · intro h1 h2 h3
    split_ifs <;> first | rfl | omega
  · intro h1 h2 h3
    split_ifs <;> first | rfl | omega

theorem axisLabel_between (S E : wVertex) (bd : wBound) (v : wVertex) (h : bd.Holds v) :
    ((∀ c ∈ bd.corners, 0 ≤ axisLabel S E c) → 0 ≤ axisLabel S E v) ∧
    ((∀ c ∈ bd.corners, axisLabel S E c ≤ 0) → axisLabel S E v ≤ 0) := by
  obtain ⟨h1, h2, h3, h4⟩ := h
  constructor
  · intro hc
    have c1 := hc ⟨bd.minx, bd.miny⟩ (by simp [wBound.corners])
    have c2 := hc ⟨bd.maxx, bd.miny⟩ (by simp [wBound.corners])
    have c3 := hc ⟨bd.minx, bd.maxy⟩ (by simp [wBound.corners])
    have c4 := hc ⟨bd.maxx, bd.maxy⟩ (by simp [wBound.corners])
    unfold axisLabel at c1 c2 c3 c4 ⊢
    simp only at c1 c2 c3 c4
    split_ifs at c1 c2 c3 c4 ⊢ <;> omega
  · intro hc
    have c1 := hc ⟨bd.minx, bd.miny⟩ (by simp [wBound.corners])
    have c2 := hc ⟨bd.maxx, bd.miny⟩ (by simp [wBound.corners])
    have c3 := hc ⟨bd.minx, bd.maxy⟩ (by simp [wBound.corners])
    have c4 := hc ⟨bd.maxx, bd.maxy⟩ (by simp [wBound.corners])
    unfold axisLabel at c1 c2 c3 c4 ⊢
    simp only at c1 c2 c3 c4
    split_ifs at c1 c2 c3 c4 ⊢ <;> omega

theorem Holds_of_Contains (bound : List wBound) (s x : Nat) (v : wVertex)
    (hc : Contains bound s x) (h : (bound.getD x default).Holds v) :
    (bound.getD s default).Holds v := by
  unfold Contains at hc
  unfold wBound.Holds at h ⊢
  omega

theorem TableStep_refl (v : Nat) (b : Builder) : TableStep v b b :=
  ⟨rfl, rfl, rfl, rfl, fun _ _ _ => rfl, rfl⟩

theorem TableStep_trans (v : Nat) (b b2 b3 : Builder) (h1 : TableStep v b b2)
    (h2 : TableStep v b2 b3) : TableStep v b b3 := by
  obtain ⟨a1, a2, a3, a4, a5, a6⟩ := h1
  obtain ⟨c1, c2, c3, c4, c5, c6⟩ := h2
  exact ⟨c1.trans a1, c2.trans a2, c3.trans a3, c4.trans a4,
    fun j hj1 hj2 => (c5 j hj1 hj2).trans (a5 j hj1 hj2), c6.trans a6⟩

theorem TableStep_setSide (v : Nat) (b : Builder) (al : Int) (sector : Nat) (side : Int) :
    TableStep v b (b.setSide al sector side) := by
  unfold Builder.setSide
  cases h : b.sideInfo with
  | none => exact ⟨rfl, rfl, rfl, rfl, fun _ _ _ => rfl, by simp [h]⟩
  | some info => exact ⟨rfl, rfl, rfl, rfl, fun _ _ _ => rfl, by simp [h]⟩

theorem vertex_setVertex (b : Builder) (i j : Nat) (c : wVertex) :
    (b.setVertex i c).vertex j = if j = i ∧ i < b.newVertices.length then c else b.vertex j := by
  unfold Builder.setVertex Builder.vertex
  exact getD_set_eq _ _ _ _ _

theorem TableStep_setVertex (v : Nat) (b : Builder) (i : Nat) (c : wVertex)
    (hi : i = v ∨ i = v + 1) : TableStep v b (b.setVertex i c) := by
  refine ⟨rfl, rfl, rfl, by simp [Builder.setVertex], ?_, rfl⟩
  intro j hj1 hj2
  rw [vertex_setVertex, if_neg]
  rintro ⟨e, _⟩
  rcases hi with hi | hi <;> omega

theorem sideAt_setSide_at (b : Builder) (al : Int) (sector : Nat) (v : Int) (al2 : Int)
    (sector2 : Nat) :
    (b.setSide al sector v).sideAt al2 sector2 = b.sideAt al2 sector2 ∨
      (al2 = al ∧ sector2 = sector ∧ (b.setSide al sector v).sideAt al2 sector2 = v) := by
  unfold Builder.setSide Builder.sideAt
  cases h : b.sideInfo with
  | none =>
    simp only [h]
    exact Or.inl trivial
  | some info =>
    simp only
    unfold readI writeI
    by_cases hneg : al < 0
    · simp only [hneg, if_true]
      exact Or.inl trivial
    · simp only [hneg, if_false]
      by_cases hneg2 : al2 < 0
      · simp only [hneg2, if_true]
        left
        trivial
      · simp only [hneg2, if_false]
        rw [getD_set_eq]
        by_cases hc : al2.toNat = al.toNat ∧ al.toNat < info.length
        · rw [if_pos hc, getD_set_eq, hc.1]
          by_cases hc2 : sector2 = sector ∧ sector < (info.getD al.toNat default).length
          · right
            rw [if_pos hc2]
            exact ⟨by omega, hc2.1, rfl⟩
          · left
            rw [if_neg hc2]
        · left
          rw [if_neg hc]

/-- The loop `while ( x ) sideInfo [i][ sect->subSector [--x]] = side1`. -/
theorem setSide_fold (v : Nat) (i : Int) (side : Int) : ∀ (l : List Nat) (b : Builder),
    TableStep v b (l.foldl (fun b x => b.setSide i x side) b) ∧
    ∀ (al : Int) (x : Nat),
      (l.foldl (fun b x => b.setSide i x side) b).sideAt al x = b.sideAt al x ∨
      (al = i ∧ x ∈ l ∧ (l.foldl (fun b x => b.setSide i x side) b).sideAt al x = side) := by
  intro l
  induction l with
  | nil =>
    intro b
    exact ⟨TableStep_refl v b, fun _ _ => Or.inl rfl⟩
  | cons x0 l ih =>
    intro b
    simp only [List.foldl_cons]
    obtain ⟨f, h⟩ := ih (b.setSide i x0 side)
    refine ⟨TableStep_trans v _ _ _ (TableStep_setSide v b i x0 side) f, ?_⟩
    intro al x
    rcases h al x with h1 | ⟨h1, h2, h3⟩
    · rw [h1]
      rcases sideAt_setSide_at b i x0 side al x with g | ⟨g1, g2, g3⟩
      · exact Or.inl g
      · exact Or.inr ⟨g1, by rw [g2]; exact List.mem_cons_self _ _, g3⟩
    · exact Or.inr ⟨h1, List.mem_cons_of_mem _ h2, h3⟩

theorem currentSideAt_row (b : Builder) (i : Int) (sector : Nat)
    (h : b.st.currentSide = some i) : b.currentSideAt sector = b.sideAt i sector := by
  unfold Builder.currentSideAt Builder.sideAt
  rw [h]
  cases b.sideInfo <;> rfl

theorem WhichSide_uncached (b : Builder) (seg : SEG)
    (h1 : IS_LEFT_RIGHT (b.currentSideAt seg.Sector) = false)
    (h2 : (b.aliasOf seg.Data.lineDef).index ≠ (b.aliasOf b.st.currentAlias).index) :
    WhichSide b seg = _WhichSide b seg := by
  unfold WhichSide
  simp only [h1]
  rw [if_neg (by simp), if_neg h2]

theorem sector_eq (level : DoomLevel) (bound : List wBound) (i : Nat) (testSeg : SEG)
    (b : Builder) (sect : sSectorInfo) :
    CreateSideInfo.sector level bound i testSeg b sect =
      if b.sideAt i sect.index ≠ SIDE_UNKNOWN then b
      else if WhichSide (lowerEdge level.vertices.length (bound.getD sect.index default) b)
          { testSeg with Sector := sect.index } ≠ SIDE_SPLIT then
        (if WhichSide (upperEdge level.vertices.length (bound.getD sect.index default)
              (lowerEdge level.vertices.length (bound.getD sect.index default) b))
            { testSeg with Sector := sect.index }
            = WhichSide (lowerEdge level.vertices.length (bound.getD sect.index default) b)
              { testSeg with Sector := sect.index } then
          (sect.subSector.take sect.noSubSectors).reverse.foldl
            (fun c x => c.setSide i x
              (WhichSide (lowerEdge level.vertices.length (bound.getD sect.index default) b)
                { testSeg with Sector := sect.index }))
            (upperEdge level.vertices.length (bound.getD sect.index default)
              (lowerEdge level.vertices.length (bound.getD sect.index default) b))
         else (upperEdge level.vertices.length (bound.getD sect.index default)
              (lowerEdge level.vertices.length (bound.getD sect.index default) b)).setSide i
                sect.index SIDE_SPLIT)
      else (lowerEdge level.vertices.length (bound.getD sect.index default) b).setSide i
        sect.index SIDE_SPLIT := rfl

theorem TableStep_lowerEdge (v : Nat) (bd : wBound) (b : Builder) :
    TableStep v b (lowerEdge v bd b) :=
  TableStep_trans v _ _ _ (TableStep_setVertex v b v _ (Or.inl rfl))
    (TableStep_setVertex v _ (v + 1) _ (Or.inr rfl))

theorem TableStep_upperEdge (v : Nat) (bd : wBound) (b : Builder) :
    TableStep v b (upperEdge v bd b) :=
  TableStep_trans v _ _ _ (TableStep_setVertex v b v _ (Or.inl rfl))
    (TableStep_setVertex v _ (v + 1) _ (Or.inr rfl))

theorem vertex_lowerEdge (v : Nat) (bd : wBound) (b : Builder)
    (hv : v + 1 < b.newVertices.length) :
    (lowerEdge v bd b).vertex v = ⟨bd.minx, bd.miny⟩ ∧
    (lowerEdge v bd b).vertex (v + 1) = ⟨bd.maxx, bd.miny⟩ := by
  unfold lowerEdge
  constructor
  · rw [vertex_setVertex, if_neg (by omega), vertex_setVertex, if_pos ⟨rfl, by omega⟩]
  · rw [vertex_setVertex, if_pos ⟨rfl, by simp [Builder.setVertex]; omega⟩]

theorem vertex_upperEdge (v : Nat) (bd : wBound) (b : Builder)
    (hv : v + 1 < b.newVertices.length) :
    (upperEdge v bd (lowerEdge v bd b)).vertex v = ⟨bd.minx, bd.maxy⟩ ∧
    (upperEdge v bd (lowerEdge v bd b)).vertex (v + 1) = ⟨bd.maxx, bd.maxy⟩ := by
  obtain ⟨l1, l2⟩ := vertex_lowerEdge v bd b hv
  have hlen : (lowerEdge v bd b).newVertices.length = b.newVertices.length :=
    (TableStep_lowerEdge v bd b).2.2.2.1
  unfold upperEdge
  constructor
  · rw [vertex_setVertex, if_neg (by omega), vertex_setVertex, if_pos ⟨rfl, by omega⟩, l1]
  · rw [vertex_setVertex, if_pos ⟨rfl, by simp [Builder.setVertex]; omega⟩,
      vertex_setVertex, if_neg (by omega), l2]

/-- What the body of the inner loop of `CreateSideInfo` for alias `i` leaves alone, the
rows of the other aliases among it. -/
theorem sector_step (level : DoomLevel) (bound : List wBound) (i : Nat) (testSeg : SEG)
    (b : Builder) (sect : sSectorInfo) :
    TableStep level.vertices.length b (CreateSideInfo.sector level bound i testSeg b sect) ∧
    (∀ (al : Int) (x : Nat), al ≠ (i : Int) →
      (CreateSideInfo.sector level bound i testSeg b sect).sideAt al x = b.sideAt al x) := by
  rw [sector_eq]
  have e1 := TableStep_lowerEdge level.vertices.length (bound.getD sect.index default) b
  have e2 := TableStep_upperEdge level.vertices.length (bound.getD sect.index default)
    (lowerEdge level.vertices.length (bound.getD sect.index default) b)
  have s1 : ∀ (al : Int) (x : Nat),
      (lowerEdge level.vertices.length (bound.getD sect.index default) b).sideAt al x
        = b.sideAt al x := fun _ _ => rfl
  have s2 : ∀ (al : Int) (x : Nat),
      (upperEdge level.vertices.length (bound.getD sect.index default)
        (lowerEdge level.vertices.length (bound.getD sect.index default) b)).sideAt al x
        = b.sideAt al x := fun _ _ => rfl
  generalize lowerEdge level.vertices.length (bound.getD sect.index default) b = b1
    at e1 e2 s1 s2 ⊢
  generalize upperEdge level.vertices.length (bound.getD sect.index default) b1 = b2
    at e2 s2 ⊢
  split_ifs with h1 h2 h3
  · exact ⟨TableStep_refl _ b, fun _ _ _ => rfl⟩
  · obtain ⟨f, h⟩ := setSide_fold level.vertices.length (i : Int)
      (WhichSide b1 { testSeg with Sector := sect.index })
      (sect.subSector.take sect.noSubSectors).reverse b2
    refine ⟨TableStep_trans _ _ _ _ (TableStep_trans _ _ _ _ e1 e2) f, ?_⟩
    intro al x hal
    rcases h al x with g | ⟨g, _, _⟩
    · rw [g, s2]
    · exact absurd g hal
  · refine ⟨TableStep_trans _ _ _ _ (TableStep_trans _ _ _ _ e1 e2)
      (TableStep_setSide _ _ _ _ _), ?_⟩
    intro al x hal
    rcases sideAt_setSide_at b2 i sect.index SIDE_SPLIT al x with g | ⟨g, _, _⟩
    · rw [g, s2]
    · exact absurd g hal
  · refine ⟨TableStep_trans _ _ _ _ e1 (TableStep_setSide _ _ _ _ _), ?_⟩
    intro al x hal
    rcases sideAt_setSide_at b1 i sect.index SIDE_SPLIT al x with g | ⟨g, _, _⟩
    · rw [g, s1]
    · exact absurd g hal

/-- The row of alias `i` after the body of the inner loop of `CreateSideInfo`, for a
partition along an axis: an entry is as before, or SPLIT, or backed by the rectangle of
the sector of the round. -/
theorem sector_row (level : DoomLevel) (bound : List wBound) (i : Nat) (testSeg : SEG)
    (b : Builder) (sect : sSectorInfo) (S E : wVertex)
    (hcs : b.st.currentSide = some (i : Int))
    (hsent : (b.aliasOf testSeg.Data.lineDef).index ≠ (b.aliasOf b.st.currentAlias).index)
    (hstart : testSeg.Data.start = level.vertices.length)
    (hend : testSeg.Data.end_ = level.vertices.length + 1)
    (hv : level.vertices.length + 1 < b.newVertices.length)
    (haa : b.st.DX = 0 ∨ b.st.DY = 0)
    (hX : b.st.X = S.x) (hY : b.st.Y = S.y)
    (hDX : b.st.DX = E.x - S.x) (hDY : b.st.DY = E.y - S.y)
    (hsub : ∀ x ∈ sect.subSector.take sect.noSubSectors, Contains bound sect.index x) :
    ∀ x, (CreateSideInfo.sector level bound i testSeg b sect).sideAt i x = b.sideAt i x ∨
      (CreateSideInfo.sector level bound i testSeg b sect).sideAt i x = SIDE_SPLIT ∨
      Backed S E bound x ((CreateSideInfo.sector level bound i testSeg b sect).sideAt i x) := by
  intro x
  rw [sector_eq]
  obtain ⟨l1, l2⟩ := vertex_lowerEdge level.vertices.length (bound.getD sect.index default) b hv
  obtain ⟨u1, u2⟩ := vertex_upperEdge level.vertices.length (bound.getD sect.index default) b hv
  have s1 : ∀ (al : Int) (y : Nat),
      (lowerEdge level.vertices.length (bound.getD sect.index default) b).sideAt al y
        = b.sideAt al y := fun _ _ => rfl
  have s2 : ∀ (al : Int) (y : Nat),
      (upperEdge level.vertices.length (bound.getD sect.index default)
        (lowerEdge level.vertices.length (bound.getD sect.index default) b)).sideAt al y
        = b.sideAt al y := fun _ _ => rfl
  -- the two calls of `WhichSide` come to `_WhichSide`
  have w1 : b.sideAt i sect.index = SIDE_UNKNOWN →
      WhichSide (lowerEdge level.vertices.length (bound.getD sect.index default) b)
        { testSeg with Sector := sect.index }
      = _WhichSide (lowerEdge level.vertices.length (bound.getD sect.index default) b)
        { testSeg with Sector := sect.index } := by
    intro hg
    apply WhichSide_uncached
    · have : (lowerEdge level.vertices.length (bound.getD sect.index default) b).currentSideAt
          sect.index = b.sideAt i sect.index := currentSideAt_row b i sect.index hcs
      simp only
      rw [this, hg]
      rfl
    · exact hsent
  have w2 : b.sideAt i sect.index = SIDE_UNKNOWN →
      WhichSide (upperEdge level.vertices.length (bound.getD sect.index default)
          (lowerEdge level.vertices.length (bound.getD sect.index default) b))
        { testSeg with Sector := sect.index }
      = _WhichSide (upperEdge level.vertices.length (bound.getD sect.index default)
          (lowerEdge level.vertices.length (bound.getD sect.index default) b))
        { testSeg with Sector := sect.index } := by
    intro hg
    apply WhichSide_uncached
    · have : (upperEdge level.vertices.length (bound.getD sect.index default)
          (lowerEdge level.vertices.length (bound.getD sect.index default) b)).currentSideAt
          sect.index = b.sideAt i sect.index := currentSideAt_row b i sect.index hcs
      simp only
      rw [this, hg]
      rfl
    · exact hsent
  -- the labels of the two edges
  have a1 := labels_axis (lowerEdge level.vertices.length (bound.getD sect.index default) b)
    { testSeg with Sector := sect.index } S E haa hX hY hDX hDY
  have a2 := labels_axis (upperEdge level.vertices.length (bound.getD sect.index default)
    (lowerEdge level.vertices.length (bound.getD sect.index default) b))
    { testSeg with Sector := sect.index } S E haa hX hY hDX hDY
  simp only [hstart, hend, l1, l2] at a1
  simp only [hstart, hend, u1, u2] at a2
  have g1 := side_signs (lowerEdge level.vertices.length (bound.getD sect.index default) b)
    { testSeg with Sector := sect.index }
  have g2 := side_signs (upperEdge level.vertices.length (bound.getD sect.index default)
    (lowerEdge level.vertices.length (bound.getD sect.index default) b))
    { testSeg with Sector := sect.index }
  rw [a1] at g1
  rw [a2] at g2
  generalize lowerEdge level.vertices.length (bound.getD sect.index default) b = b1
    at s1 s2 w1 w2 g1 g2 ⊢
  generalize upperEdge level.vertices.length (bound.getD sect.index default) b1 = b2
    at s2 w2 g2 ⊢
  split_ifs with h1 h2 h3
  · exact Or.inl rfl
  · have hg : b.sideAt i sect.index = SIDE_UNKNOWN := by
      by_contra hne
      exact h1 hne
    rw [w2 hg, w1 hg] at h3
    rw [w1 hg]
    obtain ⟨_, h⟩ := setSide_fold level.vertices.length (i : Int)
      (_WhichSide b1 { testSeg with Sector := sect.index })
      (sect.subSector.take sect.noSubSectors).reverse b2
    rcases h i x with g | ⟨_, hmem, g⟩
    · left
      rw [g, s2]
    · right
      right
      rw [g]
      refine ⟨sect.index, hsub x (List.mem_reverse.mp hmem), ?_⟩
      intro c hc
      simp only [wBound.corners, List.mem_cons, List.mem_singleton, List.not_mem_nil,
        or_false] at hc
      constructor
      · intro hside
        have p1 := g1.1 hside
        have p2 := g2.1 (h3.trans hside)
        rcases hc with rfl | rfl | rfl | rfl
        · exact p1.1
        · exact p1.2
        · exact p2.1
        · exact p2.2
      · intro hside
        have p1 := g1.2.1 hside
        have p2 := g2.2.1 (h3.trans hside)
        rcases hc with rfl | rfl | rfl | rfl
        · exact p1.1
        · exact p1.2
        · exact p2.1
        · exact p2.2
  · rcases sideAt_setSide_at b2 i sect.index SIDE_SPLIT i x with g | ⟨_, _, g⟩
    · left
      rw [g, s2]
    · right
      left
      exact g
  · rcases sideAt_setSide_at b1 i sect.index SIDE_SPLIT i x with g | ⟨_, _, g⟩
    · left
      rw [g, s1]
    · right
      left
      exact g

/-- The inner loop of `CreateSideInfo` for alias `i` over the sectors of the list. -/
theorem sectors_fold (level : DoomLevel) (bound : List wBound) (i : Nat) (testSeg : SEG) :
    ∀ (sects : List sSectorInfo) (b : Builder),
    TableStep level.vertices.length b
      (sects.foldl (CreateSideInfo.sector level bound i testSeg) b) ∧
    (∀ (al : Int) (x : Nat), al ≠ (i : Int) →
      (sects.foldl (CreateSideInfo.sector level bound i testSeg) b).sideAt al x
        = b.sideAt al x) := by
  intro sects
  induction sects with
  | nil =>
    intro b
    exact ⟨TableStep_refl _ b, fun _ _ _ => rfl⟩
  | cons sect rest ih =>
    intro b
    simp only [List.foldl_cons]
    obtain ⟨f1, o1⟩ := sector_step level bound i testSeg b sect
    obtain ⟨f2, o2⟩ := ih (CreateSideInfo.sector level bound i testSeg b sect)
    exact ⟨TableStep_trans _ _ _ _ f1 f2, fun al x hal => (o2 al x hal).trans (o1 al x hal)⟩

theorem sectors_row (level : DoomLevel) (bound : List wBound) (i : Nat) (testSeg : SEG)
    (S E : wVertex)
    (hstart : testSeg.Data.start = level.vertices.length)
    (hend : testSeg.Data.end_ = level.vertices.length + 1) :
    ∀ (sects : List sSectorInfo) (b : Builder),
    b.st.currentSide = some (i : Int) →
    (b.aliasOf testSeg.Data.lineDef).index ≠ (b.aliasOf b.st.currentAlias).index →
    level.vertices.length + 1 < b.newVertices.length →
    (b.st.DX = 0 ∨ b.st.DY = 0) →
    b.st.X = S.x → b.st.Y = S.y → b.st.DX = E.x - S.x → b.st.DY = E.y - S.y →
    (∀ sect ∈ sects, ∀ x ∈ sect.subSector.take sect.noSubSectors,
      Contains bound sect.index x) →
    ∀ x, (sects.foldl (CreateSideInfo.sector level bound i testSeg) b).sideAt i x
        = b.sideAt i x ∨
      (sects.foldl (CreateSideInfo.sector level bound i testSeg) b).sideAt i x = SIDE_SPLIT ∨
      Backed S E bound x
        ((sects.foldl (CreateSideInfo.sector level bound i testSeg) b).sideAt i x) := by
  intro sects
  induction sects with
  | nil =>
    intro b _ _ _ _ _ _ _ _ _ x
    exact Or.inl rfl
  | cons sect rest ih =>
    intro b hcs hsent hv haa hX hY hDX hDY hsub x
    simp only [List.foldl_cons]
    obtain ⟨⟨_, f2, f3, f4, _, _⟩, _⟩ := sector_step level bound i testSeg b sect
    have hst : (CreateSideInfo.sector level bound i testSeg b sect).st = b.st := f3
    have hal : ∀ n, (CreateSideInfo.sector level bound i testSeg b sect).aliasOf n = b.aliasOf n := by
      intro n
      unfold Builder.aliasOf
      rw [f2]
    have r1 := sector_row level bound i testSeg b sect S E hcs hsent hstart hend hv haa hX hY
      hDX hDY (hsub sect (List.mem_cons_self _ _)) x
    have r2 := ih (CreateSideInfo.sector level bound i testSeg b sect)
      (by rw [hst]; exact hcs) (by rw [hal, hal, hst]; exact hsent) (by rw [f4]; exact hv)
      (by rw [hst]; exact haa) (by rw [hst]; exact hX) (by rw [hst]; exact hY)
      (by rw [hst]; exact hDX) (by rw [hst]; exact hDY)
      (fun s hs => hsub s (List.mem_cons_of_mem _ hs)) x
    rcases r2 with r2 | r2 | r2
    · rw [r2]
      exact r1
    · exact Or.inr (Or.inl r2)
    · exact Or.inr (Or.inr r2)

theorem GetSectorInfo_loop_subs (noSectors : Nat) (bound : List wBound) :
    ∀ (n i max : Nat) (info out : List sSectorInfo),
    (∀ sect ∈ info, ∀ x ∈ sect.subSector.take sect.noSubSectors,
      Contains bound sect.index x) →
    GetSectorInfo.loop noSectors bound n i max info = .ok out →
    ∀ sect ∈ out, ∀ x ∈ sect.subSector.take sect.noSubSectors,
      Contains bound sect.index x := by
  intro n
  induction n with
  | zero =>
    intro i max info out h hl
    simp only [GetSectorInfo.loop] at hl
    injection hl with hl
    rw [← hl]
    exact h
  | succ n ih =>
    intro i max info out h hl
    simp only [GetSectorInfo.loop] at hl
    split_ifs at hl with hbig
    apply ih _ _ _ _ _ hl
    intro sect hs
    rw [List.mem_append] at hs
    rcases hs with hs | hs
    · exact h sect hs
    · rw [List.mem_singleton] at hs
      rw [hs]
      intro x hx
      have hx2 := List.mem_of_mem_take hx
      simp only [GetSectorInfo.contained, List.mem_filter, Bool.and_eq_true,
        decide_eq_true_eq] at hx2
      obtain ⟨_, ⟨⟨c1, c2⟩, c3⟩, c4⟩ := hx2
      exact ⟨c1, c2, c3, c4⟩

/-- Every sector that `GetSectorInfo` lists for a sector has its rectangle inside the
rectangle of that sector. -/
theorem GetSectorInfo_subs (noSectors : Nat) (bound : List wBound) (info : List sSectorInfo)
    (h : GetSectorInfo noSectors bound = .ok info) :
    ∀ sect ∈ info, ∀ x ∈ sect.subSector.take sect.noSubSectors,
      Contains bound sect.index x := by
  unfold GetSectorInfo at h
  cases hl : GetSectorInfo.loop noSectors bound noSectors 0 (noSectors * 256) [] with
  | error e =>
    rw [hl] at h
    cases h
  | ok out =>
    rw [hl] at h
    simp only at h
    injection h with h
    intro sect hs
    rw [← h] at hs
    have hs2 := (List.perm_insertionSort _ out).mem_iff.mp hs
    exact GetSectorInfo_loop_subs noSectors bound _ _ _ _ out
      (fun s hs => absurd hs (List.not_mem_nil s)) hl sect hs2

theorem getD_replicate_cases {α : Type} (n m : Nat) (a d : α) :
    (List.replicate n a).getD m d = a ∨ (List.replicate n a).getD m d = d := by
  rw [List.getD_eq_getElem?_getD, List.getElem?_replicate]
  split_ifs
  · left
    rfl
  · right
    rfl

theorem fresh_table_unknown (b : Builder) (n m : Nat) (al : Int) (x : Nat) :
    ({ b with sideInfo := some (List.replicate n (List.replicate m SIDE_UNKNOWN)) } :
        Builder).sideAt al x ≠ SIDE_LEFT ∧
    ({ b with sideInfo := some (List.replicate n (List.replicate m SIDE_UNKNOWN)) } :
        Builder).sideAt al x ≠ SIDE_RIGHT := by
  have hd : (default : List Int) = [] := rfl
  have key : ({ b with sideInfo := some (List.replicate n (List.replicate m SIDE_UNKNOWN)) } :
      Builder).sideAt al x = SIDE_UNKNOWN ∨
      ({ b with sideInfo := some (List.replicate n (List.replicate m SIDE_UNKNOWN)) } :
      Builder).sideAt al x = 0 := by
    unfold Builder.sideAt readI
    simp only
    by_cases hneg : al < 0
    · rw [if_pos hneg, hd]
      right
      rfl
    · rw [if_neg hneg]
      rcases getD_replicate_cases n al.toNat (List.replicate m SIDE_UNKNOWN) default with h | h
      · rw [h]
        rcases getD_replicate_cases m x SIDE_UNKNOWN 0 with g | g
        · exact Or.inl g
        · exact Or.inr g
      · rw [h, hd]
        right
        rfl
  rcases key with h | h <;> rw [h] <;> exact ⟨by decide, by decide⟩

/-- The rounds of the outer loop of `CreateSideInfo` for the aliases `0 .. k - 1`, seen
from the row of alias `a`, whose seg `p` runs along an axis from `S` to `E`: an entry LEFT
or RIGHT of the row is backed by the rectangle of a sector. -/
theorem aliases_fold (b0 : Builder) (level : DoomLevel) (bound : List wBound)
    (sects : List sSectorInfo) (aliasList : List Nat) (testSeg : SEG) (a : Nat) (p : SEG)
    (S E : wVertex)
    (hp : p = b0.seg (aliasList.getD a 0))
    (hcanon : (b0.aliasOf p.Data.lineDef).index = (a : Int))
    (hsent : (b0.aliasOf testSeg.Data.lineDef).index ≠ (a : Int))
    (hstart : testSeg.Data.start = level.vertices.length)
    (hend : testSeg.Data.end_ = level.vertices.length + 1)
    (hv : level.vertices.length + 1 < b0.newVertices.length)
    (hps : p.Data.start < level.vertices.length) (hpe : p.Data.end_ < level.vertices.length)
    (hS : S = b0.vertex p.Data.start) (hE : E = b0.vertex p.Data.end_)
    (haa : E.x - S.x = 0 ∨ E.y - S.y = 0)
    (hsub : ∀ sect ∈ sects, ∀ x ∈ sect.subSector.take sect.noSubSectors,
      Contains bound sect.index x)
    (c0 : Builder) (hc0 : c0.segStart = b0.segStart ∧ c0.lineDefAlias = b0.lineDefAlias ∧
      c0.newVertices.length = b0.newVertices.length ∧
      (∀ j, j ≠ level.vertices.length → j ≠ level.vertices.length + 1 →
        c0.vertex j = b0.vertex j) ∧
      c0.sideInfo.isSome = true ∧
      ∀ x, (c0.sideAt a x = SIDE_LEFT ∨ c0.sideAt a x = SIDE_RIGHT) →
        Backed S E bound x (c0.sideAt a x)) :
    ∀ k : Nat,
      ((List.range k).foldl (fun b i =>
          let partSeg := b.seg (aliasList.getD i 0)
          let b := ComputeStaticVariables b partSeg
          sects.foldl (CreateSideInfo.sector level bound i testSeg) b) c0).segStart
        = b0.segStart ∧
      ((List.range k).foldl (fun b i =>
          let partSeg := b.seg (aliasList.getD i 0)
          let b := ComputeStaticVariables b partSeg
          sects.foldl (CreateSideInfo.sector level bound i testSeg) b) c0).lineDefAlias
        = b0.lineDefAlias ∧
      ((List.range k).foldl (fun b i =>
          let partSeg := b.seg (aliasList.getD i 0)
          let b := ComputeStaticVariables b partSeg
          sects.foldl (CreateSideInfo.sector level bound i testSeg) b) c0).newVertices.length
        = b0.newVertices.length ∧
      (∀ j, j ≠ level.vertices.length → j ≠ level.vertices.length + 1 →
        ((List.range k).foldl (fun b i =>
          let partSeg := b.seg (aliasList.getD i 0)
          let b := ComputeStaticVariables b partSeg
          sects.foldl (CreateSideInfo.sector level bound i testSeg) b) c0).vertex j
          = b0.vertex j) ∧
      ((List.range k).foldl (fun b i =>
          let partSeg := b.seg (aliasList.getD i 0)
          let b := ComputeStaticVariables b partSeg
          sects.foldl (CreateSideInfo.sector level bound i testSeg) b) c0).sideInfo.isSome
        = true ∧
      ∀ x, (((List.range k).foldl (fun b i =>
          let partSeg := b.seg (aliasList.getD i 0)
          let b := ComputeStaticVariables b partSeg
          sects.foldl (CreateSideInfo.sector level bound i testSeg) b) c0).sideAt a x
            = SIDE_LEFT ∨
          ((List.range k).foldl (fun b i =>
          let partSeg := b.seg (aliasList.getD i 0)
          let b := ComputeStaticVariables b partSeg
          sects.foldl (CreateSideInfo.sector level bound i testSeg) b) c0).sideAt a x
            = SIDE_RIGHT) →
        Backed S E bound x (((List.range k).foldl (fun b i =>
          let partSeg := b.seg (aliasList.getD i 0)
          let b := ComputeStaticVariables b partSeg
          sects.foldl (CreateSideInfo.sector level bound i testSeg) b) c0).sideAt a x) := by
  intro k
  induction k with
  | zero => exact hc0
  | succ k ih =>
    rw [List.range_succ, List.foldl_append]
    simp only [List.foldl_cons, List.foldl_nil]
    generalize (List.range k).foldl (fun b i =>
          let partSeg := b.seg (aliasList.getD i 0)
          let b := ComputeStaticVariables b partSeg
          sects.foldl (CreateSideInfo.sector level bound i testSeg) b) c0 = c at ih ⊢
    obtain ⟨i1, i2, i3, i4, i5, i6⟩ := ih
    obtain ⟨⟨f1, f2, f3, f4, f5, f6⟩, o⟩ := sectors_fold level bound k testSeg sects
      (ComputeStaticVariables c (c.seg (aliasList.getD k 0)))
    refine ⟨f1.trans i1, f2.trans i2, f4.trans i3,
      fun j h1 h2 => (f5 j h1 h2).trans (i4 j h1 h2), f6.trans i5, ?_⟩
    intro x
    by_cases hk : k = a
    · subst hk
      have hseg : c.seg (aliasList.getD k 0) = p := by
        rw [hp]
        unfold Builder.seg
        rw [i1]
      rw [hseg] at o ⊢
      have hal : ∀ n, (ComputeStaticVariables c p).aliasOf n = b0.aliasOf n := by
        intro n
        unfold Builder.aliasOf
        exact congrArg (fun l => List.getD l n default) i2
      have hvS : c.vertex p.Data.start = S := by
        rw [hS]
        exact i4 _ (by omega) (by omega)
      have hvE : c.vertex p.Data.end_ = E := by
        rw [hE]
        exact i4 _ (by omega) (by omega)
      have hcs : (ComputeStaticVariables c p).st.currentSide = some (k : Int) := by
        have : (ComputeStaticVariables c p).st.currentSide
            = match c.sideInfo with
              | some _ => some (c.aliasOf p.Data.lineDef).index
              | none => none := rfl
        rw [this]
        cases hinfo : c.sideInfo with
        | none =>
          rw [hinfo] at i5
          cases i5
        | some info =>
          simp only
          have : c.aliasOf p.Data.lineDef = b0.aliasOf p.Data.lineDef := hal _
          rw [this, hcanon]
      have hX : (ComputeStaticVariables c p).st.X = S.x := by
        rw [← hvS]
        rfl
      have hY : (ComputeStaticVariables c p).st.Y = S.y := by
        rw [← hvS]
        rfl
      have hDX : (ComputeStaticVariables c p).st.DX = E.x - S.x := by
        rw [← hvS, ← hvE]
        rfl
      have hDY : (ComputeStaticVariables c p).st.DY = E.y - S.y := by
        rw [← hvS, ← hvE]
        rfl
      have r := sectors_row level bound k testSeg S E hstart hend sects
        (ComputeStaticVariables c p) hcs
        (by
          rw [hal, hal]
          have : (ComputeStaticVariables c p).st.currentAlias = p.Data.lineDef := rfl
          rw [this, hcanon]
          exact hsent)
        (by
          have : (ComputeStaticVariables c p).newVertices = c.newVertices := rfl
          rw [this, i3]
          exact hv)
        (by rw [hDX, hDY]; exact haa) hX hY hDX hDY hsub x
      have hsame : (ComputeStaticVariables c p).sideAt k x = c.sideAt k x := rfl
      rcases r with r | r | r
      · rw [r, hsame]
        exact i6 x
      · rw [r]
        intro h
        rcases h with h | h <;> exact absurd h (by decide)
      · intro _
        exact r
    · have hne : (a : Int) ≠ (k : Int) := by
        intro h
        exact hk (by exact_mod_cast h.symm)
      rw [o a x hne]
      exact i6 x

theorem ok_of_some {α : Type} [Inhabited α] (x : Except Halt α) (d : α)
    (h : x.toOption.isSome = true) : x = .ok (x.toOption.getD d) := by
  cases x with
  | ok r => rfl
  | error e => cases h

/-- C27, counterexample.  In `steepRoom` alias 0 is the alias of linedef 0, whose seg 0
runs from (0,0) to (1,3), and the rectangle of sector 1 spans (-2,-1) to (0,1).
`CreateSideInfo` sets the entry of alias 0 and sector 1 to LEFT.  Seg 5, the east wall of
the square from (0,1) to (0,-1), has both ends in that rectangle and an alias of its own,
and `_WhichSide` classifies it, against seg 0, as SPLIT: the line of seg 0 meets it at
(0,0).  `WhichSide` answers LEFT for it from the table. -/
theorem side_table_hides_a_split :
    steepTable.sideAt 0 1 = SIDE_LEFT ∧
    steepAliases.2.getD 0 0 = 0 ∧
    (steepTable.vertex (steepTable.seg 0).Data.start,
      steepTable.vertex (steepTable.seg 0).Data.end_) = (⟨0, 0⟩, ⟨1, 3⟩) ∧
    (GetSectorBounds steepRoom).getD 1 default = ⟨-2, -1, 0, 1⟩ ∧
    (steepTable.seg 5).Data.lineDef = 5 ∧
    (steepTable.vertex (steepTable.seg 5).Data.start,
      steepTable.vertex (steepTable.seg 5).Data.end_) = (⟨0, 1⟩, ⟨0, -1⟩) ∧
    ((GetSectorBounds steepRoom).getD 1 default).Holds
      (steepTable.vertex (steepTable.seg 5).Data.start) ∧
    ((GetSectorBounds steepRoom).getD 1 default).Holds
      (steepTable.vertex (steepTable.seg 5).Data.end_) ∧
    (steepTable.aliasOf (steepTable.seg 5).Data.lineDef).index ≠ 0 ∧
    _WhichSide (ComputeStaticVariables steepTable (steepTable.seg 0)) (steepTable.seg 5)
      = SIDE_SPLIT ∧
    WhichSide (ComputeStaticVariables steepTable (steepTable.seg 0)) (steepTable.seg 5)
      = SIDE_LEFT := by
  unfold wBound.Holds
  decide!

/-- C27, as amended.  Let `p`, the canonical seg of alias `a`, run along an axis, from `S`
to `E`, in a builder whose alias table names `a` for the linedef of `p` and another index
for the entry after the last linedef, and whose vertex table has room for the two
vertices of the test seg.  If `CreateSideInfo` sets the entry of alias `a` and sector `s`
to LEFT (to RIGHT), then every seg `t` of the level, both ends of which lie in the
bounding rectangle of `s` and not both on the line of `p`, is classified LEFT (RIGHT) by
`_WhichSide` against `p`. -/
theorem side_table_agrees_on_axes (b0 : Builder) (level : DoomLevel) (bound : List wBound)
    (sectInfo : List sSectorInfo) (aliasList : List Nat) (n a s : Nat) (p t : SEG)
    (S E : wVertex)
    (hinfo : GetSectorInfo n bound = .ok sectInfo)
    (hp : p = b0.seg (aliasList.getD a 0))
    (hcanon : (b0.aliasOf p.Data.lineDef).index = (a : Int))
    (hsent : (b0.aliasOf (toUSHORT level.lineDefs.length)).index ≠ (a : Int))
    (hv : level.vertices.length + 1 < b0.newVertices.length)
    (hv16 : level.vertices.length + 1 < 65536)
    (hps : p.Data.start < level.vertices.length) (hpe : p.Data.end_ < level.vertices.length)
    (hS : S = b0.vertex p.Data.start) (hE : E = b0.vertex p.Data.end_)
    (haa : E.x - S.x = 0 ∨ E.y - S.y = 0)
    (hts : t.Data.start < level.vertices.length) (hte : t.Data.end_ < level.vertices.length)
    (hin1 : (bound.getD s default).Holds (b0.vertex t.Data.start))
    (hin2 : (bound.getD s default).Holds (b0.vertex t.Data.end_))
    (hoff : ¬ (axisLabel S E (b0.vertex t.Data.start) = 0 ∧
      axisLabel S E (b0.vertex t.Data.end_) = 0)) :
    ((CreateSideInfo b0 level bound sectInfo aliasList).sideAt a s = SIDE_LEFT →
      _WhichSide (ComputeStaticVariables (CreateSideInfo b0 level bound sectInfo aliasList) p) t
        = SIDE_LEFT) ∧
    ((CreateSideInfo b0 level bound sectInfo aliasList).sideAt a s = SIDE_RIGHT →
      _WhichSide (ComputeStaticVariables (CreateSideInfo b0 level bound sectInfo aliasList) p) t
        = SIDE_RIGHT) := by
  have hsub := GetSectorInfo_subs n bound sectInfo hinfo
  have hfold := aliases_fold b0 level bound (sectInfo.take level.sectorCount) aliasList
    (CreateSideInfo.testSeg level)
    a p S E hp hcanon hsent (toUSHORT_of_lt (by omega)) (toUSHORT_of_lt hv16) hv hps hpe hS hE
    haa (fun sect hs => hsub sect (List.mem_of_mem_take hs))
    { b0 with
      sideInfo := some (List.replicate b0.noAliases (List.replicate level.sectorCount SIDE_UNKNOWN)) }
    ⟨rfl, rfl, rfl, fun _ _ _ => rfl, rfl, fun x h => by
      obtain ⟨u1, u2⟩ := fresh_table_unknown b0 b0.noAliases level.sectorCount a x
      rcases h with h | h
      · exact absurd h u1
      · exact absurd h u2⟩
    b0.noAliases
  have hbt : CreateSideInfo b0 level bound sectInfo aliasList =
      (List.range b0.noAliases).foldl (fun b i =>
          let partSeg := b.seg (aliasList.getD i 0)
          let b := ComputeStaticVariables b partSeg
          (sectInfo.take level.sectorCount).foldl
            (CreateSideInfo.sector level bound i (CreateSideInfo.testSeg level)) b)
        { b0 with
          sideInfo := some (List.replicate b0.noAliases (List.replicate level.sectorCount SIDE_UNKNOWN)) } :=
    rfl
  rw [← hbt] at hfold
  generalize CreateSideInfo b0 level bound sectInfo aliasList = bt at hfold ⊢
  obtain ⟨_, _, _, k4, _, k6⟩ := hfold
  have vS : bt.vertex p.Data.start = S := by rw [hS]; exact k4 _ (by omega) (by omega)
  have vE : bt.vertex p.Data.end_ = E := by rw [hE]; exact k4 _ (by omega) (by omega)
  have vt1 : bt.vertex t.Data.start = b0.vertex t.Data.start := k4 _ (by omega) (by omega)
  have vt2 : bt.vertex t.Data.end_ = b0.vertex t.Data.end_ := k4 _ (by omega) (by omega)
  have hX : (ComputeStaticVariables bt p).st.X = S.x := by rw [← vS]; rfl
  have hY : (ComputeStaticVariables bt p).st.Y = S.y := by rw [← vS]; rfl
  have hDX : (ComputeStaticVariables bt p).st.DX = E.x - S.x := by rw [← vS, ← vE]; rfl
  have hDY : (ComputeStaticVariables bt p).st.DY = E.y - S.y := by rw [← vS, ← vE]; rfl
  have hl := labels_axis (ComputeStaticVariables bt p) t S E (by rw [hDX, hDY]; exact haa)
    hX hY hDX hDY
  have hvt1 : (ComputeStaticVariables bt p).vertex t.Data.start = b0.vertex t.Data.start := vt1
  have hvt2 : (ComputeStaticVariables bt p).vertex t.Data.end_ = b0.vertex t.Data.end_ := vt2
  rw [hvt1, hvt2] at hl
  obtain ⟨_, _, g3, g4⟩ := side_signs (ComputeStaticVariables bt p) t
  rw [hl] at g3 g4
  constructor
  · intro hside
    obtain ⟨s2, hcont, hcorn⟩ := k6 s (Or.inl hside)
    rw [hside] at hcorn
    have c : ∀ c ∈ (bound.getD s2 default).corners, 0 ≤ axisLabel S E c :=
      fun c hc => (hcorn c hc).1 rfl
    exact g3
      ((axisLabel_between S E _ _ (Holds_of_Contains bound s2 s _ hcont hin1)).1 c)
      ((axisLabel_between S E _ _ (Holds_of_Contains bound s2 s _ hcont hin2)).1 c) hoff
  · intro hside
    obtain ⟨s2, hcont, hcorn⟩ := k6 s (Or.inr hside)
    rw [hside] at hcorn
    have c : ∀ c ∈ (bound.getD s2 default).corners, axisLabel S E c ≤ 0 :=
      fun c hc => (hcorn c hc).2 rfl
    exact g4
      ((axisLabel_between S E _ _ (Holds_of_Contains bound s2 s _ hcont hin1)).2 c)
      ((axisLabel_between S E _ _ (Holds_of_Contains bound s2 s _ hcont hin2)).2 c) hoff

theorem side_table_agrees_on_axes_witness :
    steepTable.sideAt 1 1 = SIDE_RIGHT ∧
    steepStart.vertex (steepStart.seg 1).Data.start = ⟨1, 3⟩ ∧
    steepStart.vertex (steepStart.seg 1).Data.end_ = ⟨1, 0⟩ ∧
    _WhichSide (ComputeStaticVariables steepTable (steepStart.seg 1)) (steepStart.seg 5)
      = SIDE_RIGHT :=
  ⟨by decide!, by decide!, by decide!,
    (side_table_agrees_on_axes steepStart steepRoom (GetSectorBounds steepRoom) steepSectors
      steepAliases.2 steepStart.sectorCount 1 1 (steepStart.seg 1) (steepStart.seg 5)
      ⟨1, 3⟩ ⟨1, 0⟩ (ok_of_some _ [] (by decide!)) (by decide!) (by decide!) (by decide!)
      (by decide!) (by decide!) (by decide!) (by decide!) (by decide!) (by decide!)
      (by decide!) (by decide!) (by decide!) (by unfold wBound.Holds; decide!)
      (by unfold wBound.Holds; decide!) (by decide!)).2 (by decide!)⟩

/-! ## The greatest value of the Classic metric -/

theorem prod_le_half (l r a c : Int) (hl : 0 ≤ l) (hr : 0 ≤ r) (h : l + r ≤ a + c)
    (hc : c - a ≤ 1) (hc0 : 0 ≤ c - a) : l * r ≤ a * c := by
  have h1 : 0 ≤ (l - r) * (l - r) := mul_self_nonneg _
  have h2 : (l + r) * (l + r) ≤ (a + c) * (a + c) := by nlinarith
  have h3 : (c - a) * (c - a) ≤ 1 := by nlinarith
  have h4 : 4 * (l * r) ≤ 4 * (a * c) + 1 := by nlinarith
  omega

theorem prod_eq_half (l r a c : Int) (h : l + r = a + c) (hc : c - a ≤ 1) (hc0 : 0 ≤ c - a) :
    l * r = a * c ↔ |l - r| ≤ 1 := by
  constructor
  · intro e
    have h3 : (c - a) * (c - a) ≤ 1 := by nlinarith
    have h5 : (l + r) * (l + r) = (a + c) * (a + c) := by rw [h]
    have h4 : (l - r) * (l - r) = (c - a) * (c - a) := by linear_combination h5 - 4 * e
    rw [abs_le]
    constructor <;> nlinarith
  · intro e
    rw [abs_le] at e
    have : (l = a ∧ r = c) ∨ (l = c ∧ r = a) := by omega
    rcases this with ⟨e1, e2⟩ | ⟨e1, e2⟩
    · rw [e1, e2]
    · rw [e1, e2, mul_comm]

theorem tdiv_le_self_of_nonneg (x d : Int) (hx : 0 ≤ x) (hd : 1 ≤ d) : Int.tdiv x d ≤ x := by
  rw [Int.tdiv_eq_ediv hx (by omega)]
  exact Int.ediv_le_self d hx

/-- The bound of the Classic metric with the default constants. -/
theorem classicMetric_bound (b : Builder) (count : Counts) (n : Nat)
    (hX : b.X1 = 24 ∧ b.X2 = 5 ∧ b.X3 = 1 ∧ b.X4 = 25)
    (hl : 0 ≤ count.lCount) (hr : 0 ≤ count.rCount) (hs : 0 ≤ count.sCount)
    (hn : count.lCount + count.rCount + count.sCount = n) :
    classicMetric b count ≤ bestMetric n ∧
    (classicMetric b count = bestMetric n ↔
      count.sCount = 0 ∧ |count.lCount - count.rCount| ≤ 1 ∧ b.st.ANGLE &&& 0x3FFF = 0) := by
  obtain ⟨x1, x2, x3, x4⟩ := hX
  obtain ⟨l, s, r⟩ := count
  simp only at hl hr hs hn
  have e1 : ((n / 2 : Nat) : Int) + ((n - n / 2 : Nat) : Int) = n := by omega
  have e2 : ((n - n / 2 : Nat) : Int) - ((n / 2 : Nat) : Int) ≤ 1 := by omega
  have e3 : 0 ≤ ((n - n / 2 : Nat) : Int) - ((n / 2 : Nat) : Int) := by omega
  unfold classicMetric bestMetric
  simp only [x1, x2, x3, x4]
  generalize ((n / 2 : Nat) : Int) = a at e1 e2 e3 ⊢
  generalize ((n - n / 2 : Nat) : Int) = c at e1 e2 e3 ⊢
  have hp : l * r ≤ a * c := prod_le_half l r a c hl hr (by omega) e2 e3
  have hp0 : 0 ≤ l * r := mul_nonneg hl hr
  by_cases hs0 : s = 0
  · subst hs0
    have hq := prod_eq_half l r a c (by omega) e2 e3
    simp only [ne_eq, not_true_eq_false, if_false, true_and]
    by_cases ha : b.st.ANGLE &&& 0x3FFF = 0
    · simp only [ha, not_true_eq_false, if_false, and_true]
      exact ⟨hp, hq⟩
    · simp only [ha, not_false_eq_true, if_true, and_false, iff_false]
      constructor <;> omega
  · have hs1 : 1 ≤ s := by omega
    have hd : 1 ≤ (if (24 : Int) ≠ 0 then
        (if Int.tdiv (24 * s) 5 ≠ 0 then Int.tdiv (24 * s) 5 else 1) else 1) := by
      have h24 : 0 ≤ Int.tdiv (24 * s) 5 := Int.tdiv_nonneg (by omega) (by omega)
      split_ifs <;> omega
    have ht := tdiv_le_self_of_nonneg (l * r) _ hp0 hd
    have hpen : 26 ≤ (1 * s + 25) * s := by nlinarith
    simp only [ne_eq, hs0, not_false_eq_true, if_true, false_and, iff_false]
    generalize Int.tdiv (l * r) (if (24 : Int) ≠ 0 then
        (if Int.tdiv (24 * s) 5 ≠ 0 then Int.tdiv (24 * s) 5 else 1) else 1) = q at ht
    generalize (1 * s + 25) * s = pen at hpen
    split_ifs <;> constructor <;> omega

/-- C33.  With the default constants ( 24, 5, 1, 25 ), for counts `L, R, S ≥ 0` with
`L + R + S = n` the metric of `Algorithm1` is at most `bestMetric`, the product of
`n / 2` and `n - n / 2`, and it is equal to `bestMetric` exactly when `S = 0`, `L` and `R`
differ by at most 1 and the angle of the partition is a multiple of `0x4000`. -/
theorem classicMetric_le_bestMetric (b : Builder) (count : Counts) (n : Nat)
    (hX : b.X1 = 24 ∧ b.X2 = 5 ∧ b.X3 = 1 ∧ b.X4 = 25)
    (hl : 0 ≤ count.lCount) (hr : 0 ≤ count.rCount) (hs : 0 ≤ count.sCount)
    (hn : count.lCount + count.rCount + count.sCount = n) :
    classicMetric b count ≤ bestMetric n ∧
    (classicMetric b count = bestMetric n ↔
      count.sCount = 0 ∧ |count.lCount - count.rCount| ≤ 1 ∧ b.st.ANGLE &&& 0x3FFF = 0) :=
  classicMetric_bound b count n hX hl hr hs hn

theorem classicMetric_le_bestMetric_witness :
    (slopeMap.X1 = 24 ∧ slopeMap.X2 = 5 ∧ slopeMap.X3 = 1 ∧ slopeMap.X4 = 25) ∧
    classicMetric slopeMap ⟨1, 1, 2⟩ = -27 ∧
    classicMetric slopeMap ⟨1, 1, 2⟩ ≤ bestMetric 4 ∧
    (classicMetric slopeMap ⟨1, 1, 2⟩ = bestMetric 4 ↔
      (1 : Int) = 0 ∧ |(1 : Int) - 2| ≤ 1 ∧ slopeMap.st.ANGLE &&& 0x3FFF = 0) :=
  ⟨by decide, by decide,
   classicMetric_le_bestMetric slopeMap ⟨1, 1, 2⟩ 4 (by decide) (by decide) (by decide)
     (by decide) (by decide)⟩

/-! ## Counting the sides -/

theorem add_nil (c : Counts) (side : Nat → Int) : c.add side [] = c := by
  simp [Counts.add]

theorem add_bump (c : Counts) (side : Nat → Int) (j : Nat) (l : List Nat) :
    (c.bump (side j)).add side l = c.add side (j :: l) := by
  unfold Counts.add Counts.bump
  simp only [List.countP_cons]
  by_cases h1 : side j = SIDE_LEFT
  · rw [if_pos h1]
    simp [h1, SIDE_LEFT, SIDE_SPLIT, SIDE_RIGHT]
    ring
  · rw [if_neg h1]
    by_cases h2 : side j = SIDE_SPLIT
    · rw [if_pos h2]
      simp [h2, SIDE_LEFT, SIDE_SPLIT, SIDE_RIGHT]
      ring
    · rw [if_neg h2]
      by_cases h3 : side j = SIDE_RIGHT
      · rw [if_pos h3]
        simp [h3, SIDE_LEFT, SIDE_SPLIT, SIDE_RIGHT]
        ring
      · rw [if_neg h3]
        simp [h1, h2, h3]

theorem add_sCount_mono (c : Counts) (side : Nat → Int) (l : List Nat) :
    c.sCount ≤ (c.add side l).sCount := by
  unfold Counts.add
  simp

theorem add_zero_range (b : Builder) (segs noSegs i : Nat) :
    (⟨0, 0, 0⟩ : Counts).add (sideOf b segs i) (List.range noSegs) = countsOf b segs noSegs i := by
  simp [Counts.add, countsOf]

theorem countSides_some (bc : Builder) (segs : Nat) (ms : Option Int) :
    ∀ (n j : Nat) (c count : Counts), countSides bc segs ms n j c = some count →
      count = c.add (fun k => WhichSide bc (bc.seg (segs + k))) (List.range' j n) := by
  intro n
  induction n with
  | zero =>
    intro j c count h
    simp only [countSides, Option.some.injEq] at h
    rw [← h]
    exact (add_nil _ _).symm
  | succ n ih =>
    intro j c count h
    rw [List.range'_succ, ← add_bump c (fun k => WhichSide bc (bc.seg (segs + k))) j]
    cases ms with
    | none =>
      simp only [countSides] at h
      exact ih _ _ _ h
    | some m =>
      simp only [countSides] at h
      split_ifs at h
      exact ih _ _ _ h

theorem countSides_none (bc : Builder) (segs : Nat) (m : Int) :
    ∀ (n j : Nat) (c : Counts), countSides bc segs (some m) n j c = none →
      m < (c.add (fun k => WhichSide bc (bc.seg (segs + k))) (List.range' j n)).sCount := by
  intro n
  induction n with
  | zero =>
    intro j c h
    simp [countSides] at h
  | succ n ih =>
    intro j c h
    rw [List.range'_succ, ← add_bump c (fun k => WhichSide bc (bc.seg (segs + k))) j]
    simp only [countSides] at h
    split_ifs at h with hgt
    · exact lt_of_lt_of_le hgt (add_sCount_mono _ _ _)
    · exact ih _ _ h

theorem countSides_full (bc : Builder) (segs : Nat) :
    ∀ (n j : Nat) (c : Counts), countSides bc segs none n j c
      = some (c.add (fun k => WhichSide bc (bc.seg (segs + k))) (List.range' j n)) := by
  intro n
  induction n with
  | zero =>
    intro j c
    simp only [countSides, List.range'_zero, add_nil]
  | succ n ih =>
    intro j c
    rw [List.range'_succ, ← add_bump c (fun k => WhichSide bc (bc.seg (segs + k))) j]
    simp only [countSides]
    exact ih _ _

theorem classify2_counts (bc : Builder) (segs : Nat) :
    ∀ (n j : Nat) (count : Counts) (used : List Nat) (invalid : Int),
      (Algorithm2.classify bc segs n j (count, used, invalid)).1
        = count.add (fun k => WhichSide bc (bc.seg (segs + k))) (List.range' j n) := by
  intro n
  induction n with
  | zero =>
    intro j count used invalid
    simp only [Algorithm2.classify, List.range'_zero, add_nil]
  | succ n ih =>
    intro j count used invalid
    rw [List.range'_succ, ← add_bump count (fun k => WhichSide bc (bc.seg (segs + k))) j]
    simp only [Algorithm2.classify]
    rcases WhichSide_range bc (bc.seg (segs + j)) with h | h | h
    · rw [h, if_pos rfl, ih]
      rfl
    · rw [h, if_neg (by decide), if_pos rfl, ih]
      rfl
    · rw [h, if_neg (by decide), if_neg (by decide), if_pos rfl, ih]
      rfl

/-- The sides that a scan sees with seg `i` of the list as the partition are those of the
builder at the call, as long as the tables and the segs are the same. -/
theorem sideOf_congr (b bs : Builder) (segs i : Nat)
    (h1 : bs.lineDefAlias = b.lineDefAlias) (h2 : bs.sideInfo = b.sideInfo)
    (h3 : bs.newVertices = b.newVertices) (h4 : bs.segStart = b.segStart) :
    (fun k => WhichSide (ComputeStaticVariables bs (bs.seg (segs + i)))
      ((ComputeStaticVariables bs (bs.seg (segs + i))).seg (segs + k))) = sideOf b segs i := by
  have hseg : ∀ i, bs.seg i = b.seg i := fun i => by simp only [Builder.seg, h4]
  funext k
  unfold sideOf
  rw [seg_ComputeStaticVariables, hseg, hseg]
  exact WhichSide_congr _ _ _ h1 h2 h3 (statics_congr _ _ _ h1 h2 h3)

theorem countsOf_total (b : Builder) (segs noSegs i : Nat) :
    0 ≤ (countsOf b segs noSegs i).lCount ∧ 0 ≤ (countsOf b segs noSegs i).sCount ∧
    0 ≤ (countsOf b segs noSegs i).rCount ∧
    (countsOf b segs noSegs i).lCount + (countsOf b segs noSegs i).rCount
      + (countsOf b segs noSegs i).sCount = noSegs := by
  unfold countsOf
  simp only
  refine ⟨Int.natCast_nonneg _, Int.natCast_nonneg _, Int.natCast_nonneg _, ?_⟩
  have key : ∀ l : List Nat,
      l.countP (fun j => sideOf b segs i j == SIDE_LEFT)
        + l.countP (fun j => sideOf b segs i j == SIDE_RIGHT)
        + l.countP (fun j => sideOf b segs i j == SIDE_SPLIT) = l.length := by
    intro l
    induction l with
    | nil => rfl
    | cons x rest ih =>
      simp only [List.countP_cons, List.length_cons]
      rcases WhichSide_range (ComputeStaticVariables b (b.seg (segs + i))) (b.seg (segs + x))
        with h | h | h
      · have e : sideOf b segs i x = SIDE_LEFT := h
        simp [e, SIDE_LEFT, SIDE_RIGHT, SIDE_SPLIT] at ih ⊢
        omega
      · have e : sideOf b segs i x = SIDE_SPLIT := h
        simp [e, SIDE_LEFT, SIDE_RIGHT, SIDE_SPLIT] at ih ⊢
        omega
      · have e : sideOf b segs i x = SIDE_RIGHT := h
        simp [e, SIDE_LEFT, SIDE_RIGHT, SIDE_SPLIT] at ih ⊢
        omega
  have := key (List.range noSegs)
  rw [List.length_range] at this
  omega

/-- Some seg of the list is not on the right of seg `i` exactly when the counts of the
left and the split segs are not both 0. -/
theorem countsOf_convex (b : Builder) (segs noSegs i : Nat) :
    (countsOf b segs noSegs i).lCount + (countsOf b segs noSegs i).sCount ≠ 0 ↔
      (List.range noSegs).any (fun j => sideOf b segs i j != SIDE_RIGHT) = true := by
  obtain ⟨_, _, _, ht⟩ := countsOf_total b segs noSegs i
  have hr : ((countsOf b segs noSegs i).rCount = noSegs) ↔
      ∀ j ∈ List.range noSegs, (sideOf b segs i j == SIDE_RIGHT) = true := by
    unfold countsOf
    simp only
    rw [← List.countP_eq_length, List.length_range]
    exact Int.natCast_inj
  rw [List.any_eq_true]
  constructor
  · intro h
    by_contra hno
    push_neg at hno
    have : (countsOf b segs noSegs i).rCount = noSegs := by
      rw [hr]
      intro j hj
      have := hno j hj
      simpa using this
    omega
  · rintro ⟨j, hj, hne⟩ h0
    have : (countsOf b segs noSegs i).rCount = noSegs := by omega
    have := hr.mp this j hj
    simp only [bne_iff_ne, ne_eq] at hne
    simp only [beq_iff_eq] at this
    exact hne this

/-! ## The first metric of `Algorithm2` -/

theorem sides_counts (bs : Builder) (segs noSegs k : Nat) (lc : List Bool) :
    (Algorithm2.sides (ComputeStaticVariables { bs with scan := { bs.scan with lineChecked := lc } }
      (bs.seg (segs + k))) segs noSegs).1 = countsOf bs segs noSegs k := by
  unfold Algorithm2.sides
  rw [classify2_counts]
  have h := sideOf_congr bs { bs with scan := { bs.scan with lineChecked := lc } } segs k
    rfl rfl rfl rfl
  have e : ({ bs with scan := { bs.scan with lineChecked := lc } } : Builder).seg (segs + k)
      = bs.seg (segs + k) := rfl
  rw [e] at h
  rw [h, ← List.range_eq_range', add_zero_range]

/-- C34 does not hold: in the map `slopeBase`, `Algorithm2` gives the candidates 0 and 1
the `metric1` -25, and `Algorithm1` gives them, for the same counts and angles, the
metrics -27 and -26; only for candidate 2 are the two equal. -/
theorem metric1_differs_from_classic :
    (Algorithm2.candidates slopeBase 0 4).map (fun c => (c.index, c.metric1))
      = [(0, -25), (1, -25), (2, 3)] ∧
    (List.range 3).map (metricOf slopeBase 0 4) = [-27, -26, 3] ∧
    (List.range 3).map (fun i => ((countsOf slopeBase 0 4 i).lCount,
        (countsOf slopeBase 0 4 i).sCount, (countsOf slopeBase 0 4 i).rCount))
      = [(1, 1, 2), (2, 1, 1), (1, 0, 3)] := by
  decide!

/-- C34, amended.  For a seg `k` of the list that the loop of `Algorithm2` stores as a
candidate in `score [ns]`, with the counts `L, S, R` of the list, `metric1` is the
expression of `Algorithm2` on the product `(L + S) * (R + S)`: with `S ≠ 0` the product
is divided and reduced like the product `L * R` of `Algorithm1`, with `S = 0` it is the
product, or `0x80000000` for a product of 0, and nothing is subtracted for the angle
of the partition.  The metric of `Algorithm1` is the same expression on `L * R`, which
is `L * R` itself when `S = 0`, less 1 when the angle of the partition is not a multiple
of `0x4000`.  The two are equal when `S = 0`, `R ≠ 0` and the angle is a multiple of
`0x4000`. -/
theorem metric1_of_counts (segs noSegs k : Nat) (al : Int) (bs : Builder) (ns : Nat)
    (hns : ns < bs.scan.score.length)
    (hcand : (countsOf bs segs noSegs k).lCount + (countsOf bs segs noSegs k).sCount ≠ 0) :
    ((Algorithm2.candidate segs noSegs k al bs ns).1.scan.score.getD ns default).metric1
      = qualityMetric
          (((countsOf bs segs noSegs k).lCount + (countsOf bs segs noSegs k).sCount)
            * ((countsOf bs segs noSegs k).rCount + (countsOf bs segs noSegs k).sCount))
          (countsOf bs segs noSegs k).sCount bs.X1 bs.X2 bs.X3 bs.X4 ∧
    metricOf bs segs noSegs k
      = (if (countsOf bs segs noSegs k).sCount ≠ 0 then
          qualityMetric ((countsOf bs segs noSegs k).lCount * (countsOf bs segs noSegs k).rCount)
            (countsOf bs segs noSegs k).sCount bs.X1 bs.X2 bs.X3 bs.X4
         else (countsOf bs segs noSegs k).lCount * (countsOf bs segs noSegs k).rCount)
        - (if (bs.seg (segs + k)).Data.angle &&& 0x3FFF ≠ 0 then 1 else 0) ∧
    ((countsOf bs segs noSegs k).sCount = 0 → (countsOf bs segs noSegs k).rCount ≠ 0 →
      (bs.seg (segs + k)).Data.angle &&& 0x3FFF = 0 →
      ((Algorithm2.candidate segs noSegs k al bs ns).1.scan.score.getD ns default).metric1
        = metricOf bs segs noSegs k) := by
  have hc := sides_counts bs segs noSegs k (writeI bs.scan.lineChecked al true)
  have h1 : ((Algorithm2.candidate segs noSegs k al bs ns).1.scan.score.getD ns default).metric1
      = qualityMetric
          (((countsOf bs segs noSegs k).lCount + (countsOf bs segs noSegs k).sCount)
            * ((countsOf bs segs noSegs k).rCount + (countsOf bs segs noSegs k).sCount))
          (countsOf bs segs noSegs k).sCount bs.X1 bs.X2 bs.X3 bs.X4 := by
    unfold Algorithm2.candidate
    simp only
    have e1 : ({ bs with scan := { bs.scan with
        lineChecked := writeI bs.scan.lineChecked al true } } : Builder).seg (segs + k)
        = bs.seg (segs + k) := rfl
    rw [e1]
    generalize Algorithm2.sides (ComputeStaticVariables { bs with scan := { bs.scan with
        lineChecked := writeI bs.scan.lineChecked al true } } (bs.seg (segs + k))) segs noSegs
        = cl at hc
    obtain ⟨count, used, invalid⟩ := cl
    simp only at hc
    subst hc
    simp only
    rw [if_pos hcand]
    simp only [List.getD_eq_getElem?_getD]
    rw [List.getElem?_set_self]
    · rfl
    · exact hns
  have h2 : metricOf bs segs noSegs k
      = (if (countsOf bs segs noSegs k).sCount ≠ 0 then
          qualityMetric ((countsOf bs segs noSegs k).lCount * (countsOf bs segs noSegs k).rCount)
            (countsOf bs segs noSegs k).sCount bs.X1 bs.X2 bs.X3 bs.X4
         else (countsOf bs segs noSegs k).lCount * (countsOf bs segs noSegs k).rCount)
        - (if (bs.seg (segs + k)).Data.angle &&& 0x3FFF ≠ 0 then 1 else 0) := by
    unfold metricOf classicMetric qualityMetric
    have ea : (ComputeStaticVariables bs (bs.seg (segs + k))).st.ANGLE
        = (bs.seg (segs + k)).Data.angle := rfl
    have x1 : (ComputeStaticVariables bs (bs.seg (segs + k))).X1 = bs.X1 := rfl
    have x2 : (ComputeStaticVariables bs (bs.seg (segs + k))).X2 = bs.X2 := rfl
    have x3 : (ComputeStaticVariables bs (bs.seg (segs + k))).X3 = bs.X3 := rfl
    have x4 : (ComputeStaticVariables bs (bs.seg (segs + k))).X4 = bs.X4 := rfl
    rw [ea, x1, x2, x3, x4]
    generalize countsOf bs segs noSegs k = c
    by_cases hs : c.sCount = 0
    · simp only [hs, ne_eq, not_true_eq_false, if_false]
      split_ifs <;> simp
    · simp only [hs, ne_eq, not_false_eq_true, if_true]
      split_ifs <;> simp
  refine ⟨h1, h2, ?_⟩
  intro hs hr ha
  rw [h1, h2]
  obtain ⟨hl0, _, _, _⟩ := countsOf_total bs segs noSegs k
  generalize countsOf bs segs noSegs k = c at hs hr ha hcand hl0 ⊢
  have hl : c.lCount ≠ 0 := by
    intro e
    rw [e, hs] at hcand
    exact hcand rfl
  unfold qualityMetric
  simp only [hs, ha, ne_eq, not_true_eq_false, if_false, add_zero, sub_zero]
  rw [if_pos (mul_ne_zero hl hr)]

theorem metric1_of_counts_witness :
    (slopeScored.2 = 2 ∧ slopeScored.2 < slopeScored.1.scan.score.length ∧
      (countsOf slopeScored.1 0 4 2).lCount = 1 ∧ (countsOf slopeScored.1 0 4 2).sCount = 0 ∧
      (countsOf slopeScored.1 0 4 2).rCount = 3 ∧
      ((Algorithm2.candidate 0 4 2 2 slopeScored.1 slopeScored.2).1.scan.score.getD
        slopeScored.2 default).metric1 = 3) ∧
    ((Algorithm2.candidate 0 4 2 2 slopeScored.1 slopeScored.2).1.scan.score.getD
        slopeScored.2 default).metric1
      = qualityMetric
          (((countsOf slopeScored.1 0 4 2).lCount + (countsOf slopeScored.1 0 4 2).sCount)
            * ((countsOf slopeScored.1 0 4 2).rCount + (countsOf slopeScored.1 0 4 2).sCount))
          (countsOf slopeScored.1 0 4 2).sCount slopeScored.1.X1 slopeScored.1.X2
          slopeScored.1.X3 slopeScored.1.X4 ∧
    metricOf slopeScored.1 0 4 2
      = (if (countsOf slopeScored.1 0 4 2).sCount ≠ 0 then
          qualityMetric
            ((countsOf slopeScored.1 0 4 2).lCount * (countsOf slopeScored.1 0 4 2).rCount)
            (countsOf slopeScored.1 0 4 2).sCount slopeScored.1.X1 slopeScored.1.X2
            slopeScored.1.X3 slopeScored.1.X4
         else (countsOf slopeScored.1 0 4 2).lCount * (countsOf slopeScored.1 0 4 2).rCount)
        - (if (slopeScored.1.seg (0 + 2)).Data.angle &&& 0x3FFF ≠ 0 then 1 else 0) ∧
    ((countsOf slopeScored.1 0 4 2).sCount = 0 → (countsOf slopeScored.1 0 4 2).rCount ≠ 0 →
      (slopeScored.1.seg (0 + 2)).Data.angle &&& 0x3FFF = 0 →
      ((Algorithm2.candidate 0 4 2 2 slopeScored.1 slopeScored.2).1.scan.score.getD
        slopeScored.2 default).metric1 = metricOf slopeScored.1 0 4 2) :=
  ⟨by decide!, metric1_of_counts 0 4 2 2 slopeScored.1 slopeScored.2 (by decide!) (by decide!)⟩

/-! ## Both ends close to an off-axis partition -/

/-- C37.  For an off-axis partition, a seg whose two end points both have a cross product
`t` with `1 < |t| < H_2` gets the labels `( 0, 0 )`, whatever the signs of the two cross
products and whatever `IsZero` returns for the two end points; `_WhichSide` therefore
never answers SPLIT for it, but RIGHT when the angle of the seg is `ANGLE` and LEFT
otherwise. -/
theorem close_ends_never_split (b : Builder) (seg : SEG)
    (hDX : b.st.DX ≠ 0) (hDY : b.st.DY ≠ 0)
    (hS : 1 < |b.cross (b.vertex seg.Data.start)| ∧ |b.cross (b.vertex seg.Data.start)| < b.st.H_2)
    (hE : 1 < |b.cross (b.vertex seg.Data.end_)| ∧ |b.cross (b.vertex seg.Data.end_)| < b.st.H_2) :
    _WhichSide.labels b seg = (0, 0) ∧
    _WhichSide b seg = (if seg.Data.angle = b.st.ANGLE then SIDE_RIGHT else SIDE_LEFT) ∧
    _WhichSide b seg ≠ SIDE_SPLIT := by
  have hl := labels_offAxis b seg hDX hDY
  have z1 := IsZero_eq b seg (b.vertex seg.Data.start) (b.cross (b.vertex seg.Data.start))
  have z2 := IsZero_eq b seg (b.vertex seg.Data.end_) (b.cross (b.vertex seg.Data.end_))
  generalize IsZero b seg (b.vertex seg.Data.start) (b.cross (b.vertex seg.Data.start)) = u1
    at hl z1
  generalize IsZero b seg (b.vertex seg.Data.end_) (b.cross (b.vertex seg.Data.end_)) = u2
    at hl z2
  generalize b.cross (b.vertex seg.Data.start) = t1 at hl z1 hS
  generalize b.cross (b.vertex seg.Data.end_) = t2 at hl z2 hE
  obtain ⟨s1, s2⟩ := hS
  obtain ⟨e1, e2⟩ := hE
  rw [lt_abs] at s1 e1
  rw [abs_lt] at s2 e2
  have hu1 : u1 = 0 ∨ u1 = t1 := by
    rw [z1]
    split_ifs <;> simp
  have hu2 : u2 = 0 ∨ u2 = t2 := by
    rw [z2]
    split_ifs <;> simp
  have r1 : rawLabel b.st.H_2 t1 t2 u1 = u1 := by
    unfold rawLabel
    rw [if_neg (by omega), if_neg (by omega), if_neg (by omega)]
  have r2 : rawLabel b.st.H_2 t2 t1 u2 = u2 := by
    unfold rawLabel
    rw [if_neg (by omega), if_neg (by omega), if_neg (by omega)]
  rw [r1, r2] at hl
  have hc : cleanLabels u1 u2 = (0, 0) := by
    unfold cleanLabels
    simp only
    rcases hu1 with h | h <;> rcases hu2 with g | g <;> subst h <;> subst g <;>
      split_ifs <;> first | rfl | (exfalso; omega)
  rw [hc] at hl
  have hw : _WhichSide b seg
      = (if seg.Data.angle = b.st.ANGLE then SIDE_RIGHT else SIDE_LEFT) := by
    unfold _WhichSide
    rw [hl]
    simp
  refine ⟨hl, hw, ?_⟩
  rw [hw]
  split_ifs <;> simp [SIDE_RIGHT, SIDE_LEFT, SIDE_SPLIT]

theorem close_ends_never_split_witness :
    (steepMap.st.H_2 = 3 ∧ steepMap.cross (steepMap.vertex 4) = 2 ∧
      steepMap.cross (steepMap.vertex 3) = -2) ∧
    _WhichSide.labels steepMap (mkSeg 4 3 0x6000 1 0 0) = (0, 0) ∧
    _WhichSide steepMap (mkSeg 4 3 0x6000 1 0 0)
      = (if (mkSeg 4 3 0x6000 1 0 0).Data.angle = steepMap.st.ANGLE then SIDE_RIGHT
         else SIDE_LEFT) ∧
    _WhichSide steepMap (mkSeg 4 3 0x6000 1 0 0) ≠ SIDE_SPLIT :=
  ⟨by decide, close_ends_never_split steepMap (mkSeg 4 3 0x6000 1 0 0) (by decide) (by decide)
    (by decide) (by decide)⟩

/-! ## The divisions of `DivideSeg` -/

/-- C38.  For a partition seg `pSeg` whose two end points differ and every seg for which
`WhichSide` answers SPLIT, the determinant `det = dx * DY - dy * DX` by which
`DivideSeg` divides is not 0, and the cross product `sideS` of the start point of the seg
is not 0. -/
theorem split_seg_has_divisors (b : Builder) (pSeg seg : SEG)
    (hlen : (b.vertex pSeg.Data.start).x ≠ (b.vertex pSeg.Data.end_).x ∨
      (b.vertex pSeg.Data.start).y ≠ (b.vertex pSeg.Data.end_).y)
    (h : WhichSide (ComputeStaticVariables b pSeg) seg = SIDE_SPLIT) :
    (ComputeStaticVariables b pSeg).detOf seg ≠ 0 ∧
    (ComputeStaticVariables b pSeg).cross
      ((ComputeStaticVariables b pSeg).vertex seg.Data.start) ≠ 0 := by
  have hpart : (ComputeStaticVariables b pSeg).st.DX ≠ 0 ∨
      (ComputeStaticVariables b pSeg).st.DY ≠ 0 := by
    simp only [ComputeStaticVariables, Builder.st]
    rcases hlen with h1 | h1
    · left
      omega
    · right
      omega
  have hpos := H_2_pos b pSeg hpart
  have hlab := _WhichSide_split _ _ (WhichSide_split _ _ h)
  have hdet := labels_det_ne_zero _ _ hpart hlab
  refine ⟨hdet, ?_⟩
  generalize ComputeStaticVariables b pSeg = bp at hpart hpos hlab hdet ⊢
  have h1 : (_WhichSide.labels bp seg).1 ≠ 0 := by omega
  intro hz
  apply h1
  by_cases hDX : bp.st.DX = 0
  · have hDY : bp.st.DY ≠ 0 := by tauto
    simp only [Builder.cross, hDX, zero_mul, zero_sub, neg_eq_zero, mul_eq_zero, hDY,
      false_or] at hz
    simp only [_WhichSide.labels, hDX, if_true]
    split_ifs <;> simp only <;> omega
  · by_cases hDY : bp.st.DY = 0
    · simp only [Builder.cross, hDY, zero_mul, sub_zero, mul_eq_zero, hDX, false_or] at hz
      simp only [_WhichSide.labels, hDX, if_false, hDY, if_true]
      split_ifs <;> simp only <;> omega
    · rw [labels_offAxis bp seg hDX hDY, hz]
      unfold rawLabel cleanLabels
      simp only [true_or, if_true]
      rw [if_neg (by omega), if_neg (by omega)]
      simp only
      split_ifs <;> first | rfl | (exfalso; omega)

theorem split_seg_has_divisors_witness :
    ((slopeBase.vertex (slopeBase.seg 0).Data.start).x
        ≠ (slopeBase.vertex (slopeBase.seg 0).Data.end_).x ∨
      (slopeBase.vertex (slopeBase.seg 0).Data.start).y
        ≠ (slopeBase.vertex (slopeBase.seg 0).Data.end_).y) ∧
    WhichSide (ComputeStaticVariables slopeBase (slopeBase.seg 0)) (slopeBase.seg 3)
      = SIDE_SPLIT ∧
    (ComputeStaticVariables slopeBase (slopeBase.seg 0)).detOf (slopeBase.seg 3) ≠ 0 ∧
    (ComputeStaticVariables slopeBase (slopeBase.seg 0)).cross
      ((ComputeStaticVariables slopeBase (slopeBase.seg 0)).vertex
        (slopeBase.seg 3).Data.start) ≠ 0 :=
  ⟨by decide, by decide,
   split_seg_has_divisors slopeBase (slopeBase.seg 0) (slopeBase.seg 3) (by decide) (by decide)⟩

/-! ## The loops of `Algorithm1` and `Algorithm3` -/

theorem Algorithm1_loop_eq (segs noSegs : Nat) (bestMetric : Int) :
    ∀ (n i : Nat) (s : Alg1State),
      Algorithm1.loop segs noSegs bestMetric n i s = Classic.loop 2 segs noSegs bestMetric n i s := by
  intro n
  induction n with
  | zero =>
    intro i s
    rfl
  | succ n ih =>
    intro i s
    simp only [Algorithm1.loop, Classic.loop, ih]

theorem Algorithm3_loop_eq (segs noSegs : Nat) (bestMetric : Int) :
    ∀ (n i : Nat) (s : Alg1State),
      Algorithm3.loop segs noSegs bestMetric n i s = Classic.loop 0 segs noSegs bestMetric n i s := by
  intro n
  induction n with
  | zero =>
    intro i s
    rfl
  | succ n ih =>
    intro i s
    simp only [Algorithm3.loop, Classic.loop, ih, add_zero]

theorem eligible_eq (b : Builder) (segs noSegs i : Nat) :
    eligible b segs noSegs i
      = (fresh b segs i && (List.range noSegs).any (fun j => sideOf b segs i j != SIDE_RIGHT)) :=
  rfl

theorem marked_skip (b : Builder) (segs k : Nat) (lc : List Bool) (h : Marked b segs k lc)
    (ha : 0 ≤ b.aliasAt (segs + k)) (hlt : b.aliasAt (segs + k) < b.noAliases)
    (hc : lc.getD (b.aliasAt (segs + k)).toNat false = true) :
    Marked b segs (k + 1) lc := by
  obtain ⟨h5, h6⟩ := h
  have hlt2 : (b.aliasAt (segs + k)).toNat < b.noAliases := by omega
  refine ⟨h5, ?_⟩
  intro x hx
  rw [h6 x hx]
  constructor
  · rintro (h | ⟨j, hj, e⟩)
    · exact Or.inl h
    · exact Or.inr ⟨j, by omega, e⟩
  · rintro (h | ⟨j, hj, e⟩)
    · exact Or.inl h
    · by_cases hjk : j < k
      · exact Or.inr ⟨j, hjk, e⟩
      · have hj2 : j = k := by omega
        rw [hj2] at e
        have hx2 : x = (b.aliasAt (segs + k)).toNat := by omega
        rw [hx2]
        exact (h6 _ hlt2).mp hc

theorem marked_step (b : Builder) (segs k : Nat) (lc : List Bool) (h : Marked b segs k lc)
    (ha : 0 ≤ b.aliasAt (segs + k)) :
    Marked b segs (k + 1) (writeI lc (b.aliasAt (segs + k)) true) := by
  obtain ⟨h5, h6⟩ := h
  have hcast : ((b.aliasAt (segs + k)).toNat : Int) = b.aliasAt (segs + k) := Int.toNat_of_nonneg ha
  refine ⟨by rw [length_writeI, h5], ?_⟩
  intro x hx
  rw [getD_writeI_true _ _ _ ha (by rw [h5]; exact hx), h6 x hx]
  constructor
  · rintro ((h | ⟨j, hj, e⟩) | h)
    · exact Or.inl h
    · exact Or.inr ⟨j, by omega, e⟩
    · exact Or.inr ⟨k, by omega, by rw [h, hcast]⟩
  · rintro (h | ⟨j, hj, e⟩)
    · exact Or.inl (Or.inl h)
    · by_cases hjk : j < k
      · exact Or.inl (Or.inr ⟨j, hjk, e⟩)
      · have hj2 : j = k := by omega
        rw [hj2] at e
        exact Or.inr (by omega)

/-- When the scan comes to seg `k`, the alias of the seg is unmarked exactly when the seg
is the first of its alias in the list and the alias was unmarked at the call. -/
theorem fresh_iff (b : Builder) (segs k : Nat) (lc : List Bool) (h : Marked b segs k lc)
    (ha : 0 ≤ b.aliasAt (segs + k)) (hlt : b.aliasAt (segs + k) < b.noAliases) :
    fresh b segs k = true ↔ lc.getD (b.aliasAt (segs + k)).toNat false = false := by
  obtain ⟨_, h6⟩ := h
  have hcast : ((b.aliasAt (segs + k)).toNat : Int) = b.aliasAt (segs + k) := Int.toNat_of_nonneg ha
  have h5 := h6 (b.aliasAt (segs + k)).toNat (by omega)
  rw [hcast] at h5
  unfold fresh
  rw [readI_nonneg _ _ (not_lt.mpr ha)]
  simp only [Bool.and_eq_true, Bool.not_eq_true', List.all_eq_true, List.mem_range, bne_iff_ne,
    ne_eq]
  constructor
  · rintro ⟨u1, u2⟩
    cases hx : lc.getD (b.aliasAt (segs + k)).toNat false with
    | false => rfl
    | true =>
      rcases h5.mp hx with h | ⟨j, hj, e⟩
      · rw [u1] at h
        cases h
      · exact absurd e (u2 j hj)
  · intro v1
    refine ⟨?_, ?_⟩
    · cases hx : b.scan.lineChecked.getD (b.aliasAt (segs + k)).toNat false with
      | false => rfl
      | true =>
        rw [h5.mpr (Or.inl hx)] at v1
        cases v1
    · intro j hj e
      rw [h5.mpr (Or.inr ⟨j, hj, e⟩)] at v1
      cases v1

theorem convexOf_succ (b : Builder) (segs noSegs k : Nat) :
    convexOf b segs noSegs (k + 1)
      = convexOf b segs noSegs k
        ++ (if convexAt b segs noSegs k then [b.aliasAt (segs + k)] else []) := by
  unfold convexOf
  rw [filter_range_succ, List.map_append]
  congr 1
  split_ifs <;> rfl

theorem classicMetric_congr (b1 b2 : Builder) (c : Counts)
    (hX : b1.X1 = b2.X1 ∧ b1.X2 = b2.X2 ∧ b1.X3 = b2.X3 ∧ b1.X4 = b2.X4)
    (ha : b1.st.ANGLE = b2.st.ANGLE) : classicMetric b1 c = classicMetric b2 c := by
  obtain ⟨x1, x2, x3, x4⟩ := hX
  unfold classicMetric
  rw [x1, x2, x3, x4, ha]

theorem Classic.loop_succ (extra : Int) (segs noSegs : Nat) (bestMetric : Int) (n i : Nat)
    (s : Alg1State) :
    Classic.loop extra segs noSegs bestMetric (n + 1) i s =
      if readI s.b.scan.lineChecked (s.b.aliasOf (s.b.seg (segs + i)).Data.lineDef).index then
        Classic.loop extra segs noSegs bestMetric n (i + 1) s
      else
        match countSides (Classic.tested s segs i) segs
            (if s.maxMetric < 0 then none else some s.maxSplits) noSegs 0 ⟨0, 0, 0⟩ with
        | none =>
          Classic.loop extra segs noSegs bestMetric n (i + 1)
            { s with b := Classic.tested s segs i }
        | some count =>
          if count.lCount + count.sCount ≠ 0 then
            if classicMetric (Classic.tested s segs i) count = bestMetric then
              (some (segs + i), { s with b := Classic.tested s segs i })
            else if classicMetric (Classic.tested s segs i) count > s.maxMetric then
              Classic.loop extra segs noSegs bestMetric n (i + 1)
                { b := Classic.tested s segs i, pSeg := some (segs + i),
                  maxSplits := count.sCount + extra,
                  maxMetric := classicMetric (Classic.tested s segs i) count }
            else
              Classic.loop extra segs noSegs bestMetric n (i + 1)
                { s with b := Classic.tested s segs i }
          else
            Classic.loop extra segs noSegs bestMetric n (i + 1)
              { s with b := { Classic.tested s segs i with scan :=
                { (Classic.tested s segs i).scan with convexList :=
                    (Classic.tested s segs i).scan.convexList
                      ++ [(s.b.aliasOf (s.b.seg (segs + i)).Data.lineDef).index] } } } :=
  rfl

/-- What the test of seg `k` finds, in terms of the builder at the call. -/
theorem tested_props (extra : Int) (b : Builder) (segs noSegs k : Nat) (s : Alg1State)
    (hs : Classic.Scanned extra b segs noSegs k s)
    (ha : 0 ≤ b.aliasAt (segs + k)) :
    (Classic.tested s segs k).lineDefAlias = b.lineDefAlias ∧
    (Classic.tested s segs k).sideInfo = b.sideInfo ∧
    (Classic.tested s segs k).newVertices = b.newVertices ∧
    (Classic.tested s segs k).segStart = b.segStart ∧
    ((Classic.tested s segs k).X1 = b.X1 ∧ (Classic.tested s segs k).X2 = b.X2 ∧
      (Classic.tested s segs k).X3 = b.X3 ∧ (Classic.tested s segs k).X4 = b.X4) ∧
    Marked b segs (k + 1) (Classic.tested s segs k).scan.lineChecked ∧
    (Classic.tested s segs k).scan.convexList = b.scan.convexList ++ convexOf b segs noSegs k ∧
    (∀ ms count, countSides (Classic.tested s segs k) segs ms noSegs 0 ⟨0, 0, 0⟩ = some count →
      count = countsOf b segs noSegs k) ∧
    (∀ m, countSides (Classic.tested s segs k) segs (some m) noSegs 0 ⟨0, 0, 0⟩ = none →
      m < (countsOf b segs noSegs k).sCount) ∧
    countSides (Classic.tested s segs k) segs none noSegs 0 ⟨0, 0, 0⟩
      = some (countsOf b segs noSegs k) ∧
    classicMetric (Classic.tested s segs k) (countsOf b segs noSegs k)
      = metricOf b segs noSegs k := by
  obtain ⟨h1, h2, h3, h4, hX, hM, hcv, _⟩ := hs
  have hal2 : (s.b.aliasOf (s.b.seg (segs + k)).Data.lineDef).index = b.aliasAt (segs + k) := by
    simp only [Builder.aliasAt, Builder.aliasOf, Builder.seg, h1, h4]
  have hside : (fun j => WhichSide (Classic.tested s segs k)
      ((Classic.tested s segs k).seg (segs + j))) = sideOf b segs k :=
    sideOf_congr b { s.b with scan := { s.b.scan with
        lineChecked := writeI s.b.scan.lineChecked
          (s.b.aliasOf (s.b.seg (segs + k)).Data.lineDef).index true } }
      segs k h1 h2 h3 h4
  have hlc : (Classic.tested s segs k).scan.lineChecked
      = writeI s.b.scan.lineChecked (b.aliasAt (segs + k)) true := by
    rw [← hal2]
    rfl
  refine ⟨h1, h2, h3, h4, hX, ?_, hcv, ?_, ?_, ?_, ?_⟩
  · rw [hlc]
    exact marked_step b segs k _ hM ha
  · intro ms count hcs
    have := countSides_some _ _ _ _ _ _ _ hcs
    rw [hside, ← List.range_eq_range', add_zero_range] at this
    exact this
  · intro m hcs
    have := countSides_none _ _ _ _ _ _ hcs
    rw [hside, ← List.range_eq_range', add_zero_range] at this
    exact this
  · rw [countSides_full, hside, ← List.range_eq_range', add_zero_range]
  · unfold metricOf
    refine classicMetric_congr (Classic.tested s segs k)
      (ComputeStaticVariables b (b.seg (segs + k))) _ hX ?_
    show (s.b.seg (segs + k)).Data.angle = (b.seg (segs + k)).Data.angle
    simp only [Builder.seg, h4]

/-- The invariant of the loops of `Algorithm1` and `Algorithm3`: scanning the segs
`k .. m - 1` of the list either ends with the state of a scan that has come to seg `m`,
or it is left at an eligible seg `p` whose metric is `bestMetric`. -/
theorem classic_loop (extra : Int) (hextra : 0 ≤ extra) (b : Builder) (segs noSegs : Nat)
    (bestMetric : Int)
    (hal : ∀ j, j < noSegs → 0 ≤ b.aliasAt (segs + j) ∧ b.aliasAt (segs + j) < b.noAliases)
    (m : Nat) (hm : m ≤ noSegs) :
    ∀ (n k : Nat) (s : Alg1State), k + n = m → Classic.Scanned extra b segs noSegs k s →
      ((Classic.loop extra segs noSegs bestMetric n k s).1 = none ∧
        Classic.Scanned extra b segs noSegs m (Classic.loop extra segs noSegs bestMetric n k s).2) ∨
      (∃ p, k ≤ p ∧ p < m ∧
        (Classic.loop extra segs noSegs bestMetric n k s).1 = some (segs + p) ∧
        eligible b segs noSegs p = true ∧ metricOf b segs noSegs p = bestMetric ∧
        (Classic.loop extra segs noSegs bestMetric n k s).2.b.scan.convexList
          = b.scan.convexList ++ convexOf b segs noSegs p ∧
        Marked b segs (p + 1)
          (Classic.loop extra segs noSegs bestMetric n k s).2.b.scan.lineChecked) := by
  intro n
  induction n with
  | zero =>
    intro k s hk hs
    left
    have e : k = m := by omega
    subst e
    exact ⟨rfl, hs⟩
  | succ n ih =>
    intro k s hk hs
    have hstep : ∀ s2, Classic.Scanned extra b segs noSegs (k + 1) s2 →
        ((Classic.loop extra segs noSegs bestMetric n (k + 1) s2).1 = none ∧
          Classic.Scanned extra b segs noSegs m
            (Classic.loop extra segs noSegs bestMetric n (k + 1) s2).2) ∨
        (∃ p, k ≤ p ∧ p < m ∧
          (Classic.loop extra segs noSegs bestMetric n (k + 1) s2).1 = some (segs + p) ∧
          eligible b segs noSegs p = true ∧ metricOf b segs noSegs p = bestMetric ∧
          (Classic.loop extra segs noSegs bestMetric n (k + 1) s2).2.b.scan.convexList
            = b.scan.convexList ++ convexOf b segs noSegs p ∧
          Marked b segs (p + 1)
            (Classic.loop extra segs noSegs bestMetric n (k + 1) s2).2.b.scan.lineChecked) := by
      intro s2 hs2
      rcases ih (k + 1) s2 (by omega) hs2 with h | ⟨p, hp1, hp2⟩
      · exact Or.inl h
      · exact Or.inr ⟨p, by omega, hp2⟩
    obtain ⟨ha, hlt⟩ := hal k (by omega)
    obtain ⟨t1, t2, t3, t4, tX, tM, tcv, tsome, tnone, tfull, tmet⟩ :=
      tested_props extra b segs noSegs k s hs ha
    obtain ⟨h1, h2, h3, h4, hX, hM, hcv, hp⟩ := hs
    have hal2 : (s.b.aliasOf (s.b.seg (segs + k)).Data.lineDef).index = b.aliasAt (segs + k) := by
      simp only [Builder.aliasAt, Builder.aliasOf, Builder.seg, h1, h4]
    have hfr := fresh_iff b segs k s.b.scan.lineChecked hM ha hlt
    obtain ⟨c0, c1, c2, c3⟩ := countsOf_total b segs noSegs k
    have hcx := countsOf_convex b segs noSegs k
    rw [Classic.loop_succ, hal2, readI_nonneg _ _ (not_lt.mpr ha)]
    by_cases hc : s.b.scan.lineChecked.getD (b.aliasAt (segs + k)).toNat false = true
    · rw [if_pos hc]
      have hnf : fresh b segs k = false := by
        cases hx : fresh b segs k with
        | false => rfl
        | true =>
          rw [hfr.mp hx] at hc
          cases hc
      have hne : eligible b segs noSegs k = false := by
        rw [eligible_eq, hnf]
        rfl
      have hnc : convexAt b segs noSegs k = false := by
        unfold convexAt
        rw [hnf]
        rfl
      apply hstep
      refine ⟨h1, h2, h3, h4, hX, marked_skip b segs k _ hM ha hlt hc, ?_, ?_⟩
      · rw [convexOf_succ, hnc]
        simpa using hcv
      · rcases hp with ⟨q1, q2, q3⟩ | ⟨p, q1, q2, q3, q4, q5, q6, q7⟩
        · left
          refine ⟨q1, q2, fun i hi he => ?_⟩
          by_cases hik : i < k
          · exact q3 i hik he
          · have e : i = k := by omega
            rw [e, hne] at he
            cases he
        · right
          refine ⟨p, by omega, q2, q3, q4, q5, q6, fun i hi he => ?_⟩
          by_cases hik : i < k
          · exact q7 i hik he
          · have e : i = k := by omega
            rw [e, hne] at he
            cases he
    · rw [if_neg hc]
      have hc2 : s.b.scan.lineChecked.getD (b.aliasAt (segs + k)).toNat false = false := by
        cases hx : s.b.scan.lineChecked.getD (b.aliasAt (segs + k)).toNat false
        · rfl
        · exact absurd hx hc
      have hf : fresh b segs k = true := hfr.mpr hc2
      have hel : eligible b segs noSegs k = true ↔
          (countsOf b segs noSegs k).lCount + (countsOf b segs noSegs k).sCount ≠ 0 := by
        rw [eligible_eq, hf, hcx]
        simp
      have hcv0 : convexAt b segs noSegs k = true ↔
          (countsOf b segs noSegs k).lCount + (countsOf b segs noSegs k).sCount = 0 := by
        unfold convexAt
        rw [hf]
        constructor
        · intro h
          by_contra hne
          rw [hcx.mp hne] at h
          simp at h
        · intro h
          cases hx : (List.range noSegs).any (fun j => sideOf b segs k j != SIDE_RIGHT) with
          | false => rfl
          | true => exact absurd h (hcx.mpr hx)
      cases hcs : countSides (Classic.tested s segs k) segs
          (if s.maxMetric < 0 then none else some s.maxSplits) noSegs 0 ⟨0, 0, 0⟩ with
      | none =>
        simp only
        by_cases hneg : s.maxMetric < 0
        · rw [if_pos hneg, tfull] at hcs
          cases hcs
        · rw [if_neg hneg] at hcs
          have hgt := tnone _ hcs
          rcases hp with ⟨_, q2, _⟩ | ⟨p, q1, q2, q3, q4, q5, q6, q7⟩
          · rw [q2] at hneg
            exact absurd (by decide) hneg
          · obtain ⟨_, d1, _, _⟩ := countsOf_total b segs noSegs p
            have hek : eligible b segs noSegs k = true := hel.mpr (by omega)
            have hnc : convexAt b segs noSegs k = false := by
              cases hx : convexAt b segs noSegs k with
              | false => rfl
              | true =>
                have := hcv0.mp hx
                omega
            have hcut : CutShort extra b segs noSegs k :=
              ⟨p, q1, q3, by omega, by omega⟩
            apply hstep
            refine ⟨t1, t2, t3, t4, tX, tM, ?_, ?_⟩
            · rw [convexOf_succ, hnc]
              simpa using tcv
            · right
              refine ⟨p, by omega, q2, q3, q4, q5, q6, fun i hi he => ?_⟩
              by_cases hik : i < k
              · exact q7 i hik he
              · have e : i = k := by omega
                rw [e]
                exact Or.inr hcut
      | some count =>
        simp only
        have hcount := tsome _ _ hcs
        subst hcount
        rw [tmet]
        by_cases hz : (countsOf b segs noSegs k).lCount + (countsOf b segs noSegs k).sCount ≠ 0
        · rw [if_pos hz]
          have hek : eligible b segs noSegs k = true := hel.mpr hz
          have hnc : convexAt b segs noSegs k = false := by
            cases hx : convexAt b segs noSegs k with
            | false => rfl
            | true => exact absurd (hcv0.mp hx) hz
          have hcvn : (Classic.tested s segs k).scan.convexList
              = b.scan.convexList ++ convexOf b segs noSegs (k + 1) := by
            rw [convexOf_succ, hnc]
            simpa using tcv
          by_cases hbest : metricOf b segs noSegs k = bestMetric
          · rw [if_pos hbest]
            right
            exact ⟨k, le_refl _, by omega, rfl, hek, hbest, tcv, tM⟩
          · rw [if_neg hbest]
            by_cases hgt : metricOf b segs noSegs k > s.maxMetric
            · rw [if_pos hgt]
              apply hstep
              refine ⟨t1, t2, t3, t4, tX, tM, hcvn, ?_⟩
              right
              refine ⟨k, by omega, rfl, hek, ?_, rfl, rfl, fun i hi he => ?_⟩
              · rcases hp with ⟨_, q2, _⟩ | ⟨p, q1, q2, q3, q4, q5, q6, q7⟩
                · rw [q2] at hgt
                  exact hgt
                · rw [q5] at hgt
                  exact lt_trans q4 hgt
              · by_cases hik : i < k
                · rcases hp with ⟨_, q2, q3⟩ | ⟨p, q1, q2, q3, q4, q5, q6, q7⟩
                  · have := q3 i hik he
                    rw [q2] at hgt
                    left
                    omega
                  · rcases q7 i hik he with h | h
                    · rw [q5] at hgt
                      left
                      omega
                    · exact Or.inr h
                · have e : i = k := by omega
                  rw [e]
                  exact Or.inl (le_refl _)
            · rw [if_neg hgt]
              apply hstep
              refine ⟨t1, t2, t3, t4, tX, tM, hcvn, ?_⟩
              rcases hp with ⟨q1, q2, q3⟩ | ⟨p, q1, q2, q3, q4, q5, q6, q7⟩
              · left
                refine ⟨q1, q2, fun i hi he => ?_⟩
                by_cases hik : i < k
                · exact q3 i hik he
                · have e : i = k := by omega
                  rw [e]
                  rw [q2] at hgt
                  omega
              · right
                refine ⟨p, by omega, q2, q3, q4, q5, q6, fun i hi he => ?_⟩
                by_cases hik : i < k
                · exact q7 i hik he
                · have e : i = k := by omega
                  rw [e]
                  rw [q5] at hgt
                  left
                  omega
        · rw [if_neg hz]
          have hz0 : (countsOf b segs noSegs k).lCount + (countsOf b segs noSegs k).sCount = 0 :=
            not_not.mp hz
          have hne : eligible b segs noSegs k = false := by
            cases hx : eligible b segs noSegs k with
            | false => rfl
            | true => exact absurd hz0 (hel.mp hx)
          have hcvx : convexAt b segs noSegs k = true := hcv0.mpr hz0
          apply hstep
          refine ⟨t1, t2, t3, t4, tX, tM, ?_, ?_⟩
          · show (Classic.tested s segs k).scan.convexList ++ [b.aliasAt (segs + k)] = _
            rw [convexOf_succ, hcvx, tcv]
            simp
          · rcases hp with ⟨q1, q2, q3⟩ | ⟨p, q1, q2, q3, q4, q5, q6, q7⟩
            · left
              refine ⟨q1, q2, fun i hi he => ?_⟩
              by_cases hik : i < k
              · exact q3 i hik he
              · have e : i = k := by omega
                rw [e, hne] at he
                cases he
            · right
              refine ⟨p, by omega, q2, q3, q4, q5, q6, fun i hi he => ?_⟩
              by_cases hik : i < k
              · exact q7 i hik he
              · have e : i = k := by omega
                rw [e, hne] at he
                cases he

/-! ## The results of `Algorithm1` and `Algorithm3` -/

theorem Scanned_start (extra : Int) (b : Builder) (segs noSegs : Nat)
    (hchk : b.scan.lineChecked.length = b.noAliases) :
    Classic.Scanned extra b segs noSegs 0 (Classic.start b) := by
  refine ⟨rfl, rfl, rfl, rfl, ⟨rfl, rfl, rfl, rfl⟩, ⟨hchk, ?_⟩, ?_, ?_⟩
  · intro a _
    constructor
    · exact fun h => Or.inl h
    · rintro (h | ⟨j, hj, _⟩)
      · exact h
      · omega
  · simp [convexOf, Classic.start]
  · left
    exact ⟨rfl, rfl, fun i hi => by omega⟩

/-- The result of a scan of the first `m` segs that either has returned at once or ends
with a seg stored or with the whole list scanned. -/
theorem outcome_of_loop (extra : Int) (b : Builder) (segs noSegs m : Nat)
    (r : Option Nat × Alg1State)
    (h : (r.1 = none ∧ Classic.Scanned extra b segs noSegs m r.2) ∨
      (∃ p, 0 ≤ p ∧ p < m ∧ r.1 = some (segs + p) ∧
        eligible b segs noSegs p = true ∧ metricOf b segs noSegs p = bestMetric noSegs ∧
        r.2.b.scan.convexList = b.scan.convexList ++ convexOf b segs noSegs p ∧
        Marked b segs (p + 1) r.2.b.scan.lineChecked))
    (hend : r.1 = none → r.2.maxMetric = -0x80000000 → m = noSegs) :
    Classic.Outcome extra b segs noSegs m (Classic.result r) := by
  obtain ⟨o, s⟩ := r
  rcases h with ⟨hn, hs⟩ | ⟨p, _, hp1, hp2, hp3, hp4, hp5, _⟩
  · simp only at hn hs hend
    subst hn
    obtain ⟨_, _, _, _, _, _, hcv, hp⟩ := hs
    rcases hp with ⟨q1, q2, q3⟩ | ⟨p, q1, q2, q3, q4, q5, q6, q7⟩
    · left
      have e := hend rfl q2
      subst e
      exact ⟨q1, rfl, hcv, q3⟩
    · right
      exact ⟨p, q1, q2, q3, Or.inr ⟨q4, hcv, q7⟩⟩
  · simp only at hp2 hp5
    subst hp2
    right
    exact ⟨p, hp1, rfl, hp3, Or.inl ⟨hp4, hp5⟩⟩

theorem Algorithm1_eq (b : Builder) (segs noSegs : Nat) :
    Algorithm1 b segs noSegs
      = Classic.result (Classic.loop 2 segs noSegs (bestMetric noSegs) noSegs 0
          (Classic.start b)) := by
  unfold Algorithm1 Classic.result bestMetric Classic.start
  simp only [Algorithm1_loop_eq]

theorem Algorithm1_outcome (b : Builder) (segs noSegs : Nat)
    (hchk : b.scan.lineChecked.length = b.noAliases)
    (hal : ∀ j, j < noSegs → 0 ≤ b.aliasAt (segs + j) ∧ b.aliasAt (segs + j) < b.noAliases) :
    Classic.Outcome 2 b segs noSegs noSegs (Algorithm1 b segs noSegs) := by
  rw [Algorithm1_eq]
  apply outcome_of_loop
  · rcases classic_loop 2 (by decide) b segs noSegs (bestMetric noSegs) hal noSegs (le_refl _)
      noSegs 0 (Classic.start b) (by omega) (Scanned_start 2 b segs noSegs hchk)
      with h | ⟨p, h1, h2⟩
    · exact Or.inl h
    · exact Or.inr ⟨p, h1, h2⟩
  · intro _ _
    rfl

theorem loop_append (extra : Int) (segs noSegs : Nat) (bestMetric : Int) (n2 : Nat) :
    ∀ (n1 k : Nat) (s : Alg1State),
      Classic.loop extra segs noSegs bestMetric (n1 + n2) k s
        = Classic.andThen (Classic.loop extra segs noSegs bestMetric n2 (k + n1))
            (Classic.loop extra segs noSegs bestMetric n1 k s) := by
  intro n1
  induction n1 with
  | zero =>
    intro k s
    simp [Classic.loop, Classic.andThen]
  | succ n1 ih =>
    intro k s
    have e : n1 + 1 + n2 = (n1 + n2) + 1 := by omega
    have e2 : k + (n1 + 1) = (k + 1) + n1 := by omega
    rw [e, e2, Classic.loop_succ, Classic.loop_succ]
    by_cases hc : readI s.b.scan.lineChecked (s.b.aliasOf (s.b.seg (segs + k)).Data.lineDef).index
        = true
    · rw [if_pos hc, if_pos hc]
      exact ih (k + 1) s
    · rw [if_neg hc, if_neg hc]
      cases countSides (Classic.tested s segs k) segs
          (if s.maxMetric < 0 then none else some s.maxSplits) noSegs 0 ⟨0, 0, 0⟩ with
      | none =>
        simp only
        exact ih (k + 1) _
      | some count =>
        simp only
        by_cases hz : count.lCount + count.sCount ≠ 0
        · rw [if_pos hz, if_pos hz]
          by_cases hb : classicMetric (Classic.tested s segs k) count = bestMetric
          · rw [if_pos hb, if_pos hb]
            rfl
          · rw [if_neg hb, if_neg hb]
            by_cases hg : classicMetric (Classic.tested s segs k) count > s.maxMetric
            · rw [if_pos hg, if_pos hg]
              exact ih (k + 1) _
            · rw [if_neg hg, if_neg hg]
              exact ih (k + 1) _
        · rw [if_neg hz, if_neg hz]
          exact ih (k + 1) _

theorem windows_succ (segs noSegs : Nat) (bestMetric : Int) (fuel i max : Nat) (s : Alg1State) :
    Algorithm3.windows segs noSegs bestMetric (fuel + 1) i max s
      = Classic.andThen (fun s2 =>
          if s2.maxMetric = -0x80000000 ∧ max < noSegs then
            Algorithm3.windows segs noSegs bestMetric fuel max
              (if max + 5 > noSegs then noSegs else max + 5) s2
          else (none, s2))
          (Classic.loop 0 segs noSegs bestMetric (max - i) i s) := by
  rw [← Algorithm3_loop_eq]
  simp only [Algorithm3.windows, Classic.andThen]

theorem stop_props (b : Builder) (segs noSegs : Nat) :
    ∀ (fuel max : Nat), max ≤ noSegs → noSegs < fuel + max →
      max ≤ Algorithm3.stop b segs noSegs fuel max ∧
      Algorithm3.stop b segs noSegs fuel max ≤ noSegs ∧
      (Algorithm3.stop b segs noSegs fuel max < noSegs →
        ∃ i, i < Algorithm3.stop b segs noSegs fuel max ∧ eligible b segs noSegs i = true) ∧
      (max < Algorithm3.stop b segs noSegs fuel max →
        ∀ i, i + 5 < Algorithm3.stop b segs noSegs fuel max → eligible b segs noSegs i = false) ∧
      ((Algorithm3.stop b segs noSegs fuel max - max) % 5 = 0 ∨
        Algorithm3.stop b segs noSegs fuel max = noSegs) := by
  intro fuel
  induction fuel with
  | zero =>
    intro max h1 h2
    omega
  | succ fuel ih =>
    intro max h1 h2
    simp only [Algorithm3.stop]
    by_cases hc : max < noSegs ∧ (List.range max).all (fun i => !eligible b segs noSegs i) = true
    · rw [if_pos hc]
      obtain ⟨hlt, hall⟩ := hc
      have hnone : ∀ i, i < max → eligible b segs noSegs i = false := by
        intro i hi
        have := List.all_eq_true.mp hall i (List.mem_range.mpr hi)
        simpa using this
      by_cases h5 : max + 5 > noSegs
      · rw [if_pos h5]
        obtain ⟨g1, g2, g3, g4, g5⟩ := ih noSegs (le_refl _) (by omega)
        have e : Algorithm3.stop b segs noSegs fuel noSegs = noSegs := by omega
        rw [e]
        refine ⟨by omega, le_refl _, fun h => by omega, fun _ i hi => hnone i (by omega),
          Or.inr rfl⟩
      · rw [if_neg h5]
        obtain ⟨g1, g2, g3, g4, g5⟩ := ih (max + 5) (by omega) (by omega)
        refine ⟨by omega, g2, g3, fun _ i hi => ?_, ?_⟩
        · by_cases hw : max + 5 < Algorithm3.stop b segs noSegs fuel (max + 5)
          · exact g4 hw i hi
          · exact hnone i (by omega)
        · rcases g5 with g | g
          · left
            omega
          · exact Or.inr g
    · rw [if_neg hc]
      refine ⟨le_refl _, h1, fun h => ?_, fun h => by omega, Or.inl (by simp)⟩
      have hnall : ¬ (List.range max).all (fun i => !eligible b segs noSegs i) = true :=
        fun hall => hc ⟨h, hall⟩
      rw [List.all_eq_true] at hnall
      push_neg at hnall
      obtain ⟨i, hi, he⟩ := hnall
      refine ⟨i, List.mem_range.mp hi, ?_⟩
      simpa using he

/-- With metrics above the first value of `maxMetric`, the windows of `Algorithm3` scan
the segs up to the bound `Algorithm3.stop` and no further. -/
theorem windows_stop (b : Builder) (segs noSegs : Nat)
    (hal : ∀ j, j < noSegs → 0 ≤ b.aliasAt (segs + j) ∧ b.aliasAt (segs + j) < b.noAliases)
    (hover : ∀ i, i < noSegs → eligible b segs noSegs i = true →
      -0x80000000 < metricOf b segs noSegs i) :
    ∀ (fuel i max : Nat) (s : Alg1State), i ≤ max → max ≤ noSegs → noSegs < fuel + max →
      Classic.Scanned 0 b segs noSegs i s →
      Algorithm3.windows segs noSegs (bestMetric noSegs) fuel i max s
        = Classic.loop 0 segs noSegs (bestMetric noSegs)
            (Algorithm3.stop b segs noSegs fuel max - i) i s := by
  intro fuel
  induction fuel with
  | zero =>
    intro i max s _ h2 h3 _
    omega
  | succ fuel ih =>
    intro i max s h1 h2 h3 hs
    rw [windows_succ]
    simp only [Algorithm3.stop]
    have hl := classic_loop 0 (le_refl _) b segs noSegs (bestMetric noSegs) hal max h2
      (max - i) i s (by omega) hs
    generalize hr : Classic.loop 0 segs noSegs (bestMetric noSegs) (max - i) i s = r at hl
    obtain ⟨o, s2⟩ := r
    rcases hl with ⟨hn, hs2⟩ | ⟨p, hp1, hp2, hp3, hp4, _⟩
    · simp only at hn hs2
      subst hn
      have hcases : (s2.maxMetric = -0x80000000 ∧
            ∀ i, i < max → eligible b segs noSegs i = false) ∨
          (s2.maxMetric ≠ -0x80000000 ∧ ∃ p, p < max ∧ eligible b segs noSegs p = true) := by
        obtain ⟨_, _, _, _, _, _, _, hp⟩ := hs2
        rcases hp with ⟨_, q2, q3⟩ | ⟨p, q1, _, q3, q4, q5, _⟩
        · left
          refine ⟨q2, fun i hi => ?_⟩
          cases hx : eligible b segs noSegs i with
          | false => rfl
          | true =>
            have := q3 i hi hx
            have := hover i (by omega) hx
            omega
        · right
          exact ⟨(by rw [q5]; omega), p, q1, q3⟩
      by_cases hcont : s2.maxMetric = -0x80000000 ∧ max < noSegs
      · obtain ⟨hm, hlt⟩ := hcont
        have hnone : ∀ i, i < max → eligible b segs noSegs i = false := by
          rcases hcases with ⟨_, h⟩ | ⟨h, _⟩
          · exact h
          · exact absurd hm h
        have hall : (List.range max).all (fun i => !eligible b segs noSegs i) = true := by
          rw [List.all_eq_true]
          intro x hx
          rw [hnone x (List.mem_range.mp hx)]
          rfl
        have hcond : max < noSegs ∧
            (List.range max).all (fun i => !eligible b segs noSegs i) = true := ⟨hlt, hall⟩
        have hcond2 : s2.maxMetric = -0x80000000 ∧ max < noSegs := ⟨hm, hlt⟩
        rw [if_pos hcond]
        have hnext : max ≤ (if max + 5 > noSegs then noSegs else max + 5) ∧
            (if max + 5 > noSegs then noSegs else max + 5) ≤ noSegs ∧
            noSegs < fuel + (if max + 5 > noSegs then noSegs else max + 5) := by
          split_ifs <;> omega
        obtain ⟨n1, n2, n3⟩ := hnext
        obtain ⟨w1, _⟩ := stop_props b segs noSegs fuel
          (if max + 5 > noSegs then noSegs else max + 5) n2 n3
        have e : Algorithm3.stop b segs noSegs fuel (if max + 5 > noSegs then noSegs else max + 5) - i
            = (max - i) + (Algorithm3.stop b segs noSegs fuel
                (if max + 5 > noSegs then noSegs else max + 5) - max) := by
          omega
        have e2 : i + (max - i) = max := by omega
        rw [e, loop_append, hr, e2]
        simp only [Classic.andThen]
        rw [if_pos hcond2]
        exact ih max _ s2 n1 n2 n3 hs2
      · have hno : ¬ (max < noSegs ∧
            (List.range max).all (fun i => !eligible b segs noSegs i) = true) := by
          rintro ⟨hlt, hall⟩
          rcases hcases with ⟨h, _⟩ | ⟨_, p, hp, he⟩
          · exact hcont ⟨h, hlt⟩
          · have := List.all_eq_true.mp hall p (List.mem_range.mpr hp)
            rw [he] at this
            cases this
        rw [if_neg hno, hr]
        simp only [Classic.andThen]
        rw [if_neg hcont]
    · simp only at hp3
      subst hp3
      have hno : ¬ (max < noSegs ∧
          (List.range max).all (fun i => !eligible b segs noSegs i) = true) := by
        rintro ⟨_, hall⟩
        have := List.all_eq_true.mp hall p (List.mem_range.mpr hp2)
        rw [hp4] at this
        cases this
      rw [if_neg hno, hr]
      rfl

/-- The number of segs that `Algorithm3` scans in a list of `noSegs` segs. -/
theorem Algorithm3_eq (b : Builder) (segs noSegs : Nat)
    (hchk : b.scan.lineChecked.length = b.noAliases)
    (hal : ∀ j, j < noSegs → 0 ≤ b.aliasAt (segs + j) ∧ b.aliasAt (segs + j) < b.noAliases)
    (hover : ∀ i, i < noSegs → eligible b segs noSegs i = true →
      -0x80000000 < metricOf b segs noSegs i) :
    Algorithm3 b segs noSegs
      = Classic.result (Classic.loop 0 segs noSegs (bestMetric noSegs)
          (Algorithm3.stop b segs noSegs (noSegs + 1) (if noSegs < 30 then noSegs else 30)) 0
          (Classic.start b)) := by
  have h := windows_stop b segs noSegs hal hover (noSegs + 1) 0
    (if noSegs < 30 then noSegs else 30) (Classic.start b) (Nat.zero_le _)
    (by split_ifs <;> omega) (by omega) (Scanned_start 0 b segs noSegs hchk)
  rw [Nat.sub_zero] at h
  rw [← h]
  rfl

theorem Algorithm3_outcome (b : Builder) (segs noSegs : Nat)
    (hchk : b.scan.lineChecked.length = b.noAliases)
    (hal : ∀ j, j < noSegs → 0 ≤ b.aliasAt (segs + j) ∧ b.aliasAt (segs + j) < b.noAliases)
    (hover : ∀ i, i < noSegs → eligible b segs noSegs i = true →
      -0x80000000 < metricOf b segs noSegs i) :
    Classic.Outcome 0 b segs noSegs
      (Algorithm3.stop b segs noSegs (noSegs + 1) (if noSegs < 30 then noSegs else 30))
      (Algorithm3 b segs noSegs) := by
  rw [Algorithm3_eq b segs noSegs hchk hal hover]
  obtain ⟨w1, w2, w3, _⟩ := stop_props b segs noSegs (noSegs + 1)
    (if noSegs < 30 then noSegs else 30) (by split_ifs <;> omega) (by omega)
  have hl := classic_loop 0 (le_refl _) b segs noSegs (bestMetric noSegs) hal _ w2
    (Algorithm3.stop b segs noSegs (noSegs + 1) (if noSegs < 30 then noSegs else 30)) 0
    (Classic.start b) (by omega) (Scanned_start 0 b segs noSegs hchk)
  apply outcome_of_loop
  · rcases hl with h | ⟨p, h1, h2⟩
    · exact Or.inl h
    · exact Or.inr ⟨p, h1, h2⟩
  · intro hn hm
    rcases hl with ⟨_, hs⟩ | ⟨p, _, _, h3, _⟩
    · by_contra hne
      obtain ⟨i, hi, he⟩ := w3 (by omega)
      obtain ⟨_, _, _, _, _, _, _, hp⟩ := hs
      rcases hp with ⟨_, _, q3⟩ | ⟨p, _, _, _, q4, q5, _⟩
      · have := q3 i hi he
        have := hover i (by omega) he
        omega
      · rw [q5] at hm
        omega
    · rw [h3] at hn
      cases hn

/-! ## The result of `Algorithm2` -/

theorem sideOf_eq (b bs : Builder) (segs i : Nat)
    (h1 : bs.lineDefAlias = b.lineDefAlias) (h2 : bs.sideInfo = b.sideInfo)
    (h3 : bs.newVertices = b.newVertices) (h4 : bs.segStart = b.segStart) :
    sideOf bs segs i = sideOf b segs i := by
  rw [← sideOf_congr b bs segs i h1 h2 h3 h4]
  rfl

theorem countsOf_congr (b bs : Builder) (segs noSegs i : Nat)
    (h1 : bs.lineDefAlias = b.lineDefAlias) (h2 : bs.sideInfo = b.sideInfo)
    (h3 : bs.newVertices = b.newVertices) (h4 : bs.segStart = b.segStart) :
    countsOf bs segs noSegs i = countsOf b segs noSegs i := by
  unfold countsOf
  rw [sideOf_eq b bs segs i h1 h2 h3 h4]

theorem candidate_convex (segs noSegs k : Nat) (al : Int) (bs : Builder) (ns : Nat) :
    (Algorithm2.candidate segs noSegs k al bs ns).1.scan.convexList
      = bs.scan.convexList
        ++ (if (countsOf bs segs noSegs k).lCount + (countsOf bs segs noSegs k).sCount ≠ 0
            then [] else [al]) := by
  have hc := sides_counts bs segs noSegs k (writeI bs.scan.lineChecked al true)
  unfold Algorithm2.candidate
  simp only
  have e1 : ({ bs with scan := { bs.scan with
      lineChecked := writeI bs.scan.lineChecked al true } } : Builder).seg (segs + k)
      = bs.seg (segs + k) := rfl
  rw [e1]
  generalize Algorithm2.sides (ComputeStaticVariables { bs with scan := { bs.scan with
      lineChecked := writeI bs.scan.lineChecked al true } } (bs.seg (segs + k))) segs noSegs
      = cl at hc
  obtain ⟨count, used, invalid⟩ := cl
  simp only at hc
  subst hc
  simp only
  split_ifs
  · simp
    rfl
  · rfl

/-- The convex list when the first loop of `Algorithm2` ends. -/
theorem scan_convex (b : Builder) (segs noSegs : Nat)
    (hal : ∀ j, j < noSegs → 0 ≤ b.aliasAt (segs + j) ∧ b.aliasAt (segs + j) < b.noAliases) :
    ∀ (n k : Nat) (s : Builder × Nat), k + n = noSegs → Algorithm2.Scanned b segs noSegs k s →
      s.1.scan.convexList = b.scan.convexList ++ convexOf b segs noSegs k →
      (Algorithm2.loop segs noSegs n k s).1.scan.convexList
        = b.scan.convexList ++ convexOf b segs noSegs noSegs := by
  intro n
  induction n with
  | zero =>
    intro k s hk _ hcv
    have e : k = noSegs := by omega
    subst e
    exact hcv
  | succ n ih =>
    intro k s hk hs hcv
    obtain ⟨bs, ns⟩ := s
    obtain ⟨ha, hlt⟩ := hal k (by omega)
    have h1 : bs.lineDefAlias = b.lineDefAlias := hs.1
    have h2 : bs.sideInfo = b.sideInfo := hs.2.1
    have h3 : bs.newVertices = b.newVertices := hs.2.2.1
    have h4 : bs.segStart = b.segStart := hs.2.2.2.1
    have hM : Marked b segs k bs.scan.lineChecked := ⟨hs.2.2.2.2.1, hs.2.2.2.2.2.1⟩
    have hfr := fresh_iff b segs k bs.scan.lineChecked hM ha hlt
    have hal2 : (bs.aliasOf (bs.seg (segs + k)).Data.lineDef).index = b.aliasAt (segs + k) := by
      simp only [Builder.aliasAt, Builder.aliasOf, Builder.seg, h1, h4]
    simp only [Algorithm2.loop]
    rw [hal2, readI_nonneg _ _ (not_lt.mpr ha)]
    by_cases hc : bs.scan.lineChecked.getD (b.aliasAt (segs + k)).toNat false = true
    · rw [if_pos hc]
      have hnf : fresh b segs k = false := by
        cases hx : fresh b segs k with
        | false => rfl
        | true =>
          rw [hfr.mp hx] at hc
          cases hc
      have hnc : convexAt b segs noSegs k = false := by
        unfold convexAt
        rw [hnf]
        rfl
      apply ih (k + 1) _ (by omega) (scan_skip b segs noSegs k bs ns hs ha hlt hc)
      rw [convexOf_succ, hnc]
      simpa using hcv
    · rw [if_neg hc]
      have hc2 : bs.scan.lineChecked.getD (b.aliasAt (segs + k)).toNat false = false := by
        cases hx : bs.scan.lineChecked.getD (b.aliasAt (segs + k)).toNat false
        · rfl
        · exact absurd hx hc
      have hf : fresh b segs k = true := hfr.mpr hc2
      have hcx := countsOf_convex b segs noSegs k
      apply ih (k + 1) _ (by omega) (scan_candidate b segs noSegs k bs ns hs ha hlt hc2)
      rw [candidate_convex, countsOf_congr b bs segs noSegs k h1 h2 h3 h4, convexOf_succ]
      simp only at hcv
      rw [hcv, List.append_assoc]
      congr 2
      by_cases hz : (countsOf b segs noSegs k).lCount + (countsOf b segs noSegs k).sCount ≠ 0
      · rw [if_pos hz]
        have : convexAt b segs noSegs k = false := by
          unfold convexAt
          rw [hf, hcx.mp hz]
          rfl
        rw [this]
        rfl
      · rw [if_neg hz]
        have : convexAt b segs noSegs k = true := by
          unfold convexAt
          rw [hf]
          cases hx : (List.range noSegs).any (fun j => sideOf b segs k j != SIDE_RIGHT) with
          | false => rfl
          | true => exact absurd (hcx.mpr hx) hz
        rw [this]
        rfl

/-- The result of `Algorithm2`, in terms of the builder at the call: no seg is returned
exactly when no seg of the list is eligible, a returned seg is eligible, and the aliases
found convex have been added to the convex list. -/
theorem Algorithm2_outcome (b : Builder) (segs noSegs : Nat)
    (hchk : b.scan.lineChecked.length = b.noAliases)
    (hal : ∀ j, j < noSegs → 0 ≤ b.aliasAt (segs + j) ∧ b.aliasAt (segs + j) < b.noAliases) :
    ((Algorithm2 b segs noSegs).1 = none ↔
      ∀ i, i < noSegs → eligible b segs noSegs i = false) ∧
    (∀ p, (Algorithm2 b segs noSegs).1 = some p →
      ∃ i, i < noSegs ∧ p = segs + i ∧ eligible b segs noSegs i = true) ∧
    (Algorithm2 b segs noSegs).2.convexList
      = b.scan.convexList ++ convexOf b segs noSegs noSegs := by
  have hsp := scan_spec b segs noSegs hchk hal
  obtain ⟨_, _, _, _, _, _, h7, h8, h9⟩ := hsp
  have hcl : (Algorithm2.candidates b segs noSegs).length = (Algorithm2.scan b segs noSegs).2 := by
    unfold Algorithm2.candidates
    rw [List.length_take]
    omega
  have h9c : (Algorithm2.candidates b segs noSegs).map (fun c => (c.index, c.invalid))
      = ((List.range noSegs).filter (eligible b segs noSegs)).map
          (fun (i : Nat) => ((i : Int), (invalidOf b segs noSegs i : Int))) := h9
  have hlen : (Algorithm2.scan b segs noSegs).2
      = ((List.range noSegs).filter (eligible b segs noSegs)).length := by
    have := congrArg List.length h9c
    simp only [List.length_map] at this
    rw [← hcl, this]
  have hsplit : (Algorithm2.scan b segs noSegs).1.scan.score
      = Algorithm2.candidates b segs noSegs
        ++ (Algorithm2.scan b segs noSegs).1.scan.score.drop (Algorithm2.scan b segs noSegs).2 := by
    unfold Algorithm2.candidates
    exact (List.take_append_drop _ _).symm
  have hres : (Algorithm2 b segs noSegs).1
      = if (Algorithm2.scan b segs noSegs).2 ≠ 0 then
          some (segs + ((Algorithm2.order (Algorithm2.scan b segs noSegs).1.scan.score
            (Algorithm2.scan b segs noSegs).2).getD 0 default).index.toNat)
        else none := rfl
  have hnone : (Algorithm2.scan b segs noSegs).2 = 0 ↔
      ∀ i, i < noSegs → eligible b segs noSegs i = false := by
    rw [hlen, List.length_eq_zero, List.filter_eq_nil_iff]
    constructor
    · intro h i hi
      have := h i (List.mem_range.mpr hi)
      simpa using this
    · intro h i hi
      rw [h i (List.mem_range.mp hi)]
      simp
  refine ⟨?_, ?_, ?_⟩
  · rw [hres, ← hnone]
    by_cases hz : (Algorithm2.scan b segs noSegs).2 = 0
    · simp [hz]
    · simp [hz]
  · intro p hp
    rw [hres] at hp
    by_cases hz : (Algorithm2.scan b segs noSegs).2 = 0
    · rw [if_neg (not_not.mpr hz)] at hp
      cases hp
    · rw [if_pos hz] at hp
      have hne : Algorithm2.candidates b segs noSegs ≠ [] := by
        intro e
        rw [e] at hcl
        exact hz hcl.symm
      obtain ⟨m, hm, hidx, _⟩ := score_head (Algorithm2.candidates b segs noSegs)
        ((Algorithm2.scan b segs noSegs).1.scan.score.drop (Algorithm2.scan b segs noSegs).2) hne
      rw [← hsplit, hcl] at hidx
      rw [hidx] at hp
      have hmm : (m.index, m.invalid) ∈ (Algorithm2.candidates b segs noSegs).map
          (fun c => (c.index, c.invalid)) := List.mem_map.mpr ⟨m, hm, rfl⟩
      rw [h9c] at hmm
      obtain ⟨i, hi, e⟩ := List.mem_map.mp hmm
      obtain ⟨hi1, hi2⟩ := List.mem_filter.mp hi
      injection e with e1 _
      refine ⟨i, List.mem_range.mp hi1, ?_, hi2⟩
      injection hp with hp
      rw [← hp, ← e1]
      simp
  · show (Algorithm2.scan b segs noSegs).1.scan.convexList = _
    unfold Algorithm2.scan
    apply scan_convex b segs noSegs hal noSegs 0 _ (by omega)
    · refine ⟨rfl, rfl, rfl, rfl, hchk, ?_, ?_, ?_, ?_⟩
      · intro a _
        constructor
        · exact fun h => Or.inl h
        · rintro (h | ⟨j, hj, _⟩)
          · exact h
          · omega
      · simp
      · show 0 + b.scan.lineChecked.count false ≤ b.noAliases
        have := List.count_le_length false b.scan.lineChecked
        omega
      · simp
    · simp [convexOf]

/-! ## When the partition functions return no seg -/

theorem fresh_distinct (b : Builder) (segs x y : Nat) (hf : fresh b segs y = true)
    (hxy : x < y) : b.aliasAt (segs + x) ≠ b.aliasAt (segs + y) := by
  unfold fresh at hf
  simp only [Bool.and_eq_true, List.all_eq_true, List.mem_range, bne_iff_ne, ne_eq] at hf
  exact hf.2 x hxy

theorem fresh_unchecked (b : Builder) (segs i : Nat) (hf : fresh b segs i = true) :
    readI b.scan.lineChecked (b.aliasAt (segs + i)) = false := by
  unfold fresh at hf
  simp only [Bool.and_eq_true, Bool.not_eq_true'] at hf
  exact hf.1

theorem convexAt_fresh (b : Builder) (segs noSegs i : Nat)
    (h : convexAt b segs noSegs i = true) :
    fresh b segs i = true ∧
      (List.range noSegs).any (fun j => sideOf b segs i j != SIDE_RIGHT) = false := by
  unfold convexAt at h
  simp only [Bool.and_eq_true, Bool.not_eq_true'] at h
  exact h

theorem eligible_fresh (b : Builder) (segs noSegs i : Nat)
    (h : eligible b segs noSegs i = true) :
    fresh b segs i = true ∧
      (List.range noSegs).any (fun j => sideOf b segs i j != SIDE_RIGHT) = true := by
  rw [eligible_eq] at h
  simp only [Bool.and_eq_true] at h
  exact h

theorem mem_convexOf (b : Builder) (segs noSegs m : Nat) (a : Int)
    (h : a ∈ convexOf b segs noSegs m) :
    ∃ j, j < m ∧ convexAt b segs noSegs j = true ∧ b.aliasAt (segs + j) = a := by
  unfold convexOf at h
  obtain ⟨j, hj, e⟩ := List.mem_map.mp h
  obtain ⟨h1, h2⟩ := List.mem_filter.mp hj
  exact ⟨j, List.mem_range.mp h1, h2, e⟩

/-- No alias is put on the convex list twice. -/
theorem convexOf_nodup (b : Builder) (segs noSegs m : Nat) :
    (convexOf b segs noSegs m).Nodup := by
  unfold convexOf
  apply List.Nodup.map_on
  · intro x hx y hy e
    have fx := (convexAt_fresh b segs noSegs x (List.mem_filter.mp hx).2).1
    have fy := (convexAt_fresh b segs noSegs y (List.mem_filter.mp hy).2).1
    rcases Nat.lt_trichotomy x y with h | h | h
    · exact absurd e (fresh_distinct b segs x y fy h)
    · exact h
    · exact absurd e.symm (fresh_distinct b segs y x fx h)
  · exact (List.nodup_range m).filter _

/-- The aliases put on the convex list were not marked at the call. -/
theorem convexOf_unchecked (b : Builder) (segs noSegs m : Nat) (a : Int)
    (h : a ∈ convexOf b segs noSegs m) : readI b.scan.lineChecked a = false := by
  obtain ⟨j, _, hc, e⟩ := mem_convexOf b segs noSegs m a h
  rw [← e]
  exact fresh_unchecked b segs j (convexAt_fresh b segs noSegs j hc).1

/-- The alias of an eligible seg is not put on the convex list. -/
theorem eligible_not_convex (b : Builder) (segs noSegs m i : Nat)
    (h : eligible b segs noSegs i = true) :
    b.aliasAt (segs + i) ∉ convexOf b segs noSegs m := by
  intro hm
  obtain ⟨j, _, hc, e⟩ := mem_convexOf b segs noSegs m _ hm
  obtain ⟨fj, aj⟩ := convexAt_fresh b segs noSegs j hc
  obtain ⟨fi, ai⟩ := eligible_fresh b segs noSegs i h
  rcases Nat.lt_trichotomy i j with hlt | heq | hgt
  · exact fresh_distinct b segs i j fj hlt e.symm
  · rw [heq, aj] at ai
    cases ai
  · exact fresh_distinct b segs j i fi hgt e

/-- What the result of a scan by `Algorithm1` or `Algorithm3` says about the eligible
segs and the convex list. -/
theorem outcome_facts (extra : Int) (b : Builder) (segs noSegs m : Nat) (r : Option Nat × Scan)
    (hm : m ≤ noSegs) (ho : Classic.Outcome extra b segs noSegs m r)
    (hover : ∀ i, i < noSegs → eligible b segs noSegs i = true →
      -0x80000000 < metricOf b segs noSegs i) :
    (r.1 = none ↔ ∀ i, i < noSegs → eligible b segs noSegs i = false) ∧
    (∀ p, r.1 = some p → ∃ i, i < noSegs ∧ p = segs + i ∧ eligible b segs noSegs i = true) ∧
    ∃ k, k ≤ noSegs ∧ (r.1 = none → k = noSegs) ∧
      r.2.convexList = b.scan.convexList ++ convexOf b segs noSegs k := by
  rcases ho with ⟨h1, h2, h3, h4⟩ | ⟨p, h1, h2, h3, h4⟩
  · refine ⟨⟨fun _ i hi => ?_, fun _ => h1⟩, fun q hq => ?_, m, hm, fun _ => h2, h3⟩
    · cases hx : eligible b segs noSegs i with
      | false => rfl
      | true =>
        have := h4 i hi hx
        have := hover i hi hx
        omega
    · rw [h1] at hq
      cases hq
  · refine ⟨⟨fun hn => ?_, fun hall => ?_⟩, fun q hq => ?_, ?_⟩
    · rw [h2] at hn
      cases hn
    · rw [hall p (by omega)] at h3
      cases h3
    · rw [h2] at hq
      injection hq with hq
      exact ⟨p, by omega, hq.symm, h3⟩
    · rcases h4 with ⟨_, g⟩ | ⟨_, g, _⟩
      · refine ⟨p, by omega, fun hn => ?_, g⟩
        rw [h2] at hn
        cases hn
      · refine ⟨m, hm, fun hn => ?_, g⟩
        rw [h2] at hn
        cases hn

/-- C31 does not hold.  In the build of `nearbyLevel` the segs 0 and 1 lie on one line
and share alias 0.  At the first call of `CreateNode` no alias is marked, and each of
`Algorithm1`, `Algorithm2` and `Algorithm3` returns the null pointer, although seg 1, as
the partition, has seg 2 on its left: only seg 0 is tested for alias 0, and seg 0 has all
segs on its right. -/
theorem null_although_a_seg_has_a_left_seg :
    (nearbyInput classicOptions).segCount = 3 ∧
    (List.range 3).map (fun i => (nearbyInput classicOptions).aliasAt i) = [0, 0, 1] ∧
    (nearbyInput classicOptions).lineUsed = [false, false] ∧
    (nearbyInput classicOptions).scan.lineChecked = [false, false] ∧
    (Algorithm1 (nearbyInput classicOptions) 0 3).1 = none ∧
    (Algorithm2 (nearbyInput qualityOptions) 0 3).1 = none ∧
    (Algorithm3 (nearbyInput classicOptions) 0 3).1 = none ∧
    (List.range 3).map (fun j => sideOf (nearbyInput classicOptions) 0 1 j)
      = [SIDE_RIGHT, SIDE_RIGHT, SIDE_LEFT] ∧
    (List.range 3).map (fun j => sideOf (nearbyInput qualityOptions) 0 1 j)
      = [SIDE_RIGHT, SIDE_RIGHT, SIDE_LEFT] ∧
    (countsOf (nearbyInput classicOptions) 0 3 1).lCount
      + (countsOf (nearbyInput classicOptions) 0 3 1).sCount = 1 := by
  decide!

/-- C31, amended.  Let `pf` be `Algorithm1`, `Algorithm2` or `Algorithm3`, called on a
list whose segs have valid aliases, with `lineChecked` of `noAliases` entries (which
`ChoosePartition` has copied from `lineUsed`), and let the metric of every eligible seg
be above `-2^31` (no overflow).  A seg is eligible when it is the first seg of the list
with its alias, the alias is not marked, and the seg has `left + split > 0` as the
partition.  Then `pf` returns the null pointer exactly when no seg of the list is
eligible; a returned seg is an eligible seg of the list.  The function has scanned the
first `k` segs of the list (all of them when it returns the null pointer) and has added
to the convex list the aliases of those among them that are the first seg of an unmarked
alias and have `left + split = 0`, in their order: each such alias once, none of them
marked at the call, and none of them the alias of the returned seg. -/
theorem null_iff_no_eligible (pf : PartitionFn) (b : Builder) (segs noSegs : Nat)
    (hpf : pf = Algorithm1 ∨ pf = Algorithm2 ∨ pf = Algorithm3)
    (hchk : b.scan.lineChecked.length = b.noAliases)
    (hal : ∀ j, j < noSegs → 0 ≤ b.aliasAt (segs + j) ∧ b.aliasAt (segs + j) < b.noAliases)
    (hover : ∀ i, i < noSegs → eligible b segs noSegs i = true →
      -0x80000000 < metricOf b segs noSegs i) :
    ((pf b segs noSegs).1 = none ↔ ∀ i, i < noSegs → eligible b segs noSegs i = false) ∧
    ∃ k, k ≤ noSegs ∧ ((pf b segs noSegs).1 = none → k = noSegs) ∧
      (pf b segs noSegs).2.convexList = b.scan.convexList ++ convexOf b segs noSegs k ∧
      (convexOf b segs noSegs k).Nodup ∧
      (∀ a ∈ convexOf b segs noSegs k, readI b.scan.lineChecked a = false) ∧
      ∀ p, (pf b segs noSegs).1 = some p →
        ∃ i, i < noSegs ∧ p = segs + i ∧ eligible b segs noSegs i = true ∧
          b.aliasAt p ∉ convexOf b segs noSegs k := by
  have key : ((pf b segs noSegs).1 = none ↔ ∀ i, i < noSegs → eligible b segs noSegs i = false) ∧
      (∀ p, (pf b segs noSegs).1 = some p →
        ∃ i, i < noSegs ∧ p = segs + i ∧ eligible b segs noSegs i = true) ∧
      ∃ k, k ≤ noSegs ∧ ((pf b segs noSegs).1 = none → k = noSegs) ∧
        (pf b segs noSegs).2.convexList = b.scan.convexList ++ convexOf b segs noSegs k := by
    rcases hpf with h | h | h
    · rw [h]
      exact outcome_facts 2 b segs noSegs noSegs _ (le_refl _)
        (Algorithm1_outcome b segs noSegs hchk hal) hover
    · rw [h]
      obtain ⟨g1, g2, g3⟩ := Algorithm2_outcome b segs noSegs hchk hal
      exact ⟨g1, g2, noSegs, le_refl _, fun _ => rfl, g3⟩
    · rw [h]
      obtain ⟨_, w2, _⟩ := stop_props b segs noSegs (noSegs + 1)
        (if noSegs < 30 then noSegs else 30) (by split_ifs <;> omega) (by omega)
      exact outcome_facts 0 b segs noSegs _ _ w2
        (Algorithm3_outcome b segs noSegs hchk hal hover) hover
  obtain ⟨k1, k2, k, k3, k4, k5⟩ := key
  refine ⟨k1, k, k3, k4, k5, convexOf_nodup b segs noSegs k,
    fun a ha => convexOf_unchecked b segs noSegs k a ha, fun p hp => ?_⟩
  obtain ⟨i, hi, e, he⟩ := k2 p hp
  refine ⟨i, hi, e, he, ?_⟩
  rw [e]
  exact eligible_not_convex b segs noSegs k i he

theorem null_iff_no_eligible_witness :
    (slopeBase.scan.lineChecked.length = slopeBase.noAliases ∧
      (List.range 4).map (eligible slopeBase 0 4) = [true, true, true, false] ∧
      (Algorithm1 slopeBase 0 4).1 = some 2 ∧
      (Algorithm1 slopeBase 0 4).2.convexList = [3]) ∧
    ((Algorithm1 slopeBase 0 4).1 = none ↔ ∀ i, i < 4 → eligible slopeBase 0 4 i = false) ∧
    ∃ k, k ≤ 4 ∧ ((Algorithm1 slopeBase 0 4).1 = none → k = 4) ∧
      (Algorithm1 slopeBase 0 4).2.convexList
        = slopeBase.scan.convexList ++ convexOf slopeBase 0 4 k ∧
      (convexOf slopeBase 0 4 k).Nodup ∧
      (∀ a ∈ convexOf slopeBase 0 4 k, readI slopeBase.scan.lineChecked a = false) ∧
      ∀ p, (Algorithm1 slopeBase 0 4).1 = some p →
        ∃ i, i < 4 ∧ p = 0 + i ∧ eligible slopeBase 0 4 i = true ∧
          slopeBase.aliasAt p ∉ convexOf slopeBase 0 4 k :=
  ⟨by decide!,
   null_iff_no_eligible Algorithm1 slopeBase 0 4 (Or.inl rfl) (by decide!) (by decide!)
     (by decide!)⟩

/-! ## The assertion of `SortSegs` -/

theorem add_congr (c : Counts) (f g : Nat → Int) (l : List Nat) (h : ∀ k ∈ l, f k = g k) :
    c.add f l = c.add g l := by
  unfold Counts.add
  have e : ∀ side : Int, l.countP (fun k => f k == side) = l.countP (fun k => g k == side) := by
    intro side
    apply List.countP_congr
    intro k hk
    rw [h k hk]
  rw [e, e, e]

/-- The counts of the first loop of `SortSegs`. -/
theorem classify_counts (seg : Nat) : ∀ (n i : Nat) (b : Builder) (c : Counts),
    (SortSegs.classify seg n i (b, c)).2
      = c.add (fun k => WhichSide b (b.seg (seg + k))) (List.range' i n) := by
  intro n
  induction n with
  | zero =>
    intro i b c
    simp only [SortSegs.classify, List.range'_zero, add_nil]
  | succ n ih =>
    intro i b c
    rw [List.range'_succ, ← add_bump c (fun k => WhichSide b (b.seg (seg + k))) i]
    simp only [SortSegs.classify]
    rw [ih]
    apply add_congr
    intro k hk
    have hk2 : i + 1 ≤ k := by
      rw [List.mem_range'] at hk
      obtain ⟨d, _, e⟩ := hk
      omega
    rw [seg_setSeg_other _ _ _ _ (by omega)]
    exact WhichSide_congr _ _ _ rfl rfl rfl rfl

theorem input_checked (b : Builder) (hchk : b.scan.lineChecked.length = b.noAliases) :
    (ChoosePartition.input b).scan.lineChecked.length = (ChoosePartition.input b).noAliases := by
  show (blit b.scan.lineChecked 0 (b.lineUsed.take b.noAliases)).length = b.noAliases
  unfold blit
  simp only [List.take_zero, List.nil_append, List.length_append, List.length_take,
    List.length_drop, zero_add]
  omega

/-- The windows of `Algorithm3` return no seg or an eligible seg of the list. -/
theorem windows_returns (b : Builder) (segs noSegs : Nat)
    (hal : ∀ j, j < noSegs → 0 ≤ b.aliasAt (segs + j) ∧ b.aliasAt (segs + j) < b.noAliases) :
    ∀ (fuel i max : Nat) (s : Alg1State), i ≤ max → max ≤ noSegs →
      Classic.Scanned 0 b segs noSegs i s →
      ∀ p, (Classic.result
          (Algorithm3.windows segs noSegs (bestMetric noSegs) fuel i max s)).1 = some p →
        ∃ i, i < noSegs ∧ p = segs + i ∧ eligible b segs noSegs i = true := by
  have hstate : ∀ (k : Nat) (s : Alg1State), k ≤ noSegs → Classic.Scanned 0 b segs noSegs k s →
      ∀ p, s.pSeg = some p → ∃ i, i < noSegs ∧ p = segs + i ∧ eligible b segs noSegs i = true := by
    intro k s hk hs p hp
    obtain ⟨_, _, _, _, _, _, _, hq⟩ := hs
    rcases hq with ⟨q1, _⟩ | ⟨q, q1, q2, q3, _⟩
    · rw [q1] at hp
      cases hp
    · rw [q2] at hp
      injection hp with hp
      exact ⟨q, by omega, hp.symm, q3⟩
  intro fuel
  induction fuel with
  | zero =>
    intro i max s h1 h2 hs p hp
    exact hstate i s (by omega) hs p hp
  | succ fuel ih =>
    intro i max s h1 h2 hs p hp
    rw [windows_succ] at hp
    have hl := classic_loop 0 (le_refl _) b segs noSegs (bestMetric noSegs) hal max h2
      (max - i) i s (by omega) hs
    generalize Classic.loop 0 segs noSegs (bestMetric noSegs) (max - i) i s = r at hl hp
    obtain ⟨o, s2⟩ := r
    rcases hl with ⟨hn, hs2⟩ | ⟨q, _, hq2, hq3, hq4, _⟩
    · simp only at hn hs2
      subst hn
      simp only [Classic.andThen] at hp
      by_cases hcont : s2.maxMetric = -0x80000000 ∧ max < noSegs
      · rw [if_pos hcont] at hp
        exact ih max _ s2 (by split_ifs <;> omega) (by split_ifs <;> omega) hs2 p hp
      · rw [if_neg hcont] at hp
        exact hstate max s2 h2 hs2 p hp
    · simp only at hq3
      subst hq3
      simp only [Classic.andThen, Classic.result] at hp
      injection hp with hp
      exact ⟨q, by omega, hp.symm, hq4⟩

/-- Each of the three partition functions returns no seg or an eligible seg of the
list. -/
theorem returns_eligible (pf : PartitionFn) (b : Builder) (segs noSegs : Nat)
    (hpf : pf = Algorithm1 ∨ pf = Algorithm2 ∨ pf = Algorithm3)
    (hchk : b.scan.lineChecked.length = b.noAliases)
    (hal : ∀ j, j < noSegs → 0 ≤ b.aliasAt (segs + j) ∧ b.aliasAt (segs + j) < b.noAliases)
    (p : Nat) (hp : (pf b segs noSegs).1 = some p) :
    ∃ i, i < noSegs ∧ p = segs + i ∧ eligible b segs noSegs i = true := by
  rcases hpf with h | h | h
  · rw [h] at hp
    rcases Algorithm1_outcome b segs noSegs hchk hal with ⟨h1, _⟩ | ⟨q, h1, h2, h3, _⟩
    · rw [h1] at hp
      cases hp
    · rw [h2] at hp
      injection hp with hp
      exact ⟨q, h1, hp.symm, h3⟩
  · rw [h] at hp
    exact (Algorithm2_outcome b segs noSegs hchk hal).2.1 p hp
  · rw [h] at hp
    exact windows_returns b segs noSegs hal (noSegs + 1) 0 (if noSegs < 30 then noSegs else 30)
      (Classic.start b) (Nat.zero_le _) (by split_ifs <;> omega)
      (Scanned_start 0 b segs noSegs hchk) p hp

/-- The recount of `SortSegs` for seg `i` of the list as the partition. -/
theorem SortSegs_eligible (b : Builder) (scan : Scan) (segs noSegs i : Nat)
    (he : eligible b segs noSegs i = true) :
    ∃ b2 nl nr ns, SortSegs { b with scan := scan } (some (segs + i)) segs noSegs
        = .ok (b2, nl, nr, ns) ∧ 1 ≤ nl + ns ∧
      (nl : Int) = (countsOf b segs noSegs i).lCount ∧
      (ns : Int) = (countsOf b segs noSegs i).sCount := by
  have hcount : (SortSegs.classify segs noSegs 0
      (ComputeStaticVariables { b with scan := scan }
        (({ b with scan := scan } : Builder).seg (segs + i)), ⟨0, 0, 0⟩)).2
      = countsOf b segs noSegs i := by
    rw [classify_counts, sideOf_congr b { b with scan := scan } segs i rfl rfl rfl rfl,
      ← List.range_eq_range', add_zero_range]
  obtain ⟨c0, c1, _, _⟩ := countsOf_total b segs noSegs i
  have hnz : (countsOf b segs noSegs i).lCount + (countsOf b segs noSegs i).sCount ≠ 0 :=
    (countsOf_convex b segs noSegs i).mpr (eligible_fresh b segs noSegs i he).2
  simp only [SortSegs]
  generalize SortSegs.classify segs noSegs 0
      (ComputeStaticVariables { b with scan := scan }
        (({ b with scan := scan } : Builder).seg (segs + i)), ⟨0, 0, 0⟩) = cl at hcount
  obtain ⟨bc, count⟩ := cl
  simp only at hcount
  subst hcount
  simp only
  rw [if_neg (by omega)]
  refine ⟨_, _, _, _, rfl, by omega, ?_, ?_⟩
  · exact Int.toNat_of_nonneg c0
  · exact Int.toNat_of_nonneg c1

/-- C39.  Let the partition function be `Algorithm1`, `Algorithm2` or `Algorithm3`, the
array `lineChecked` have `noAliases` entries and the segs of the list have valid aliases.
Whenever the partition function, called by `ChoosePartition`, returns a seg,
the assertion of `SortSegs` holds: `ChoosePartition` returns `true` with
`noLeft + noSplits >= 1`. -/
theorem assertion_of_SortSegs_holds (pf : PartitionFn) (b : Builder) (segs noSegs : Nat)
    (hpf : pf = Algorithm1 ∨ pf = Algorithm2 ∨ pf = Algorithm3)
    (hchk : b.scan.lineChecked.length = b.noAliases)
    (hal : ∀ j, j < noSegs → 0 ≤ b.aliasAt (segs + j) ∧ b.aliasAt (segs + j) < b.noAliases)
    (hret : (pf (ChoosePartition.input b) segs noSegs).1 ≠ none) :
    ∃ b2 noLeft noRight noSplits,
      ChoosePartition pf b segs noSegs = .ok (true, b2, noLeft, noRight, noSplits) ∧
      1 ≤ noLeft + noSplits := by
  cases hp : (pf (ChoosePartition.input b) segs noSegs).1 with
  | none => exact absurd hp hret
  | some p =>
    obtain ⟨i, _, e, he⟩ := returns_eligible pf (ChoosePartition.input b) segs noSegs hpf
      (input_checked b hchk) hal p hp
    obtain ⟨b2, nl, nr, ns, hs, h1, _⟩ := SortSegs_eligible (ChoosePartition.input b)
      (pf (ChoosePartition.input b) segs noSegs).2 segs noSegs i he
    refine ⟨b2, nl, nr, ns, ?_, h1⟩
    subst e
    have hs2 : SortSegs { b with scan := (pf (ChoosePartition.input b) segs noSegs).2 }
        (some (segs + i)) segs noSegs = .ok (b2, nl, nr, ns) := hs
    unfold ChoosePartition.input at hp hs2
    simp only [ChoosePartition]
    generalize pf { b with scan := { b.scan with
      lineChecked := blit b.scan.lineChecked 0 (b.lineUsed.take b.noAliases) } } segs noSegs
      = res at hp hs2 ⊢
    obtain ⟨pSeg, scan⟩ := res
    simp only at hp hs2 ⊢
    subst hp
    rw [hs2]
    rfl

theorem assertion_of_SortSegs_holds_witness :
    (hDividedSetup.scan.lineChecked.length = hDividedSetup.noAliases ∧
      (Algorithm1 (ChoosePartition.input hDividedSetup) 0 6).1 ≠ none) ∧
    ∃ b2 noLeft noRight noSplits,
      ChoosePartition Algorithm1 hDividedSetup 0 6 = .ok (true, b2, noLeft, noRight, noSplits) ∧
      1 ≤ noLeft + noSplits :=
  ⟨by decide!,
   assertion_of_SortSegs_holds Algorithm1 hDividedSetup 0 6 (Or.inl rfl) (by decide!)
     (by decide!) (by decide!)⟩

/-! ## The windows of `Algorithm3` -/

/-- C35 does not hold.  In the Lite build of `rowLevel` the list has 31 segs.  Each of the
first 30 segs is a candidate with the metric -26, so that no candidate scored in the first
window has a positive metric, and seg 30, an eligible seg with the metric 130, remains.
`Algorithm3` does not extend the window: it returns seg 0, and the alias of seg 30 is
still unchecked. -/
theorem window_not_extended_after_a_negative_metric :
    rowInput.segCount = 31 ∧
    (List.range 30).all (fun i => eligible rowInput 0 31 i && metricOf rowInput 0 31 i == -26)
      = true ∧
    eligible rowInput 0 31 30 = true ∧ metricOf rowInput 0 31 30 = 130 ∧
    (Algorithm3 rowInput 0 31).1 = some 0 ∧
    readI rowInput.scan.lineChecked (rowInput.aliasAt 30) = false ∧
    readI (Algorithm3 rowInput 0 31).2.lineChecked (rowInput.aliasAt 30) = false ∧
    (List.range 30).all (fun i =>
      readI (Algorithm3 rowInput 0 31).2.lineChecked (rowInput.aliasAt i)) = true := by
  decide!

/-- C35, amended.  Let the segs of the list have valid aliases, `lineChecked` have
`noAliases` entries, and the metric of every eligible seg be above `-2^31`.  `Algorithm3`
first scans the first `min ( 30, n )` segs.  While no candidate has been stored so far,
that is, while no scanned seg is eligible, and unscanned segs remain, it extends the
window by 5 segs (up to `n`) and goes on; it stops as soon as a candidate has been stored,
whatever the sign of its metric, or the whole list has been scanned.  So `Algorithm3`
returns what one pass of its loop over the first `w` segs yields, `w` being the bound
`Algorithm3.stop`: `w` lies between `min ( 30, n )` and `n`, it is `n` or exceeds
`min ( 30, n )` by a multiple of 5, some seg before `w` is eligible when `w < n`, and no
seg more than 5 places before `w` is eligible when `w` exceeds `min ( 30, n )`. -/
theorem Algorithm3_window (b : Builder) (segs noSegs : Nat)
    (hchk : b.scan.lineChecked.length = b.noAliases)
    (hal : ∀ j, j < noSegs → 0 ≤ b.aliasAt (segs + j) ∧ b.aliasAt (segs + j) < b.noAliases)
    (hover : ∀ i, i < noSegs → eligible b segs noSegs i = true →
      -0x80000000 < metricOf b segs noSegs i) :
    ∃ w, w = Algorithm3.stop b segs noSegs (noSegs + 1) (if noSegs < 30 then noSegs else 30) ∧
      Algorithm3 b segs noSegs
        = Classic.result (Algorithm3.loop segs noSegs (bestMetric noSegs) w 0 (Classic.start b)) ∧
      (if noSegs < 30 then noSegs else 30) ≤ w ∧ w ≤ noSegs ∧
      (w < noSegs → ∃ i, i < w ∧ eligible b segs noSegs i = true) ∧
      ((if noSegs < 30 then noSegs else 30) < w →
        ∀ i, i + 5 < w → eligible b segs noSegs i = false) ∧
      ((w - (if noSegs < 30 then noSegs else 30)) % 5 = 0 ∨ w = noSegs) := by
  refine ⟨_, rfl, ?_, ?_⟩
  · rw [Algorithm3_loop_eq]
    exact Algorithm3_eq b segs noSegs hchk hal hover
  · exact stop_props b segs noSegs (noSegs + 1) (if noSegs < 30 then noSegs else 30)
      (by split_ifs <;> omega) (by omega)

theorem Algorithm3_window_witness :
    (rowInput.scan.lineChecked.length = rowInput.noAliases ∧
      Algorithm3.stop rowInput 0 31 (31 + 1) (if 31 < 30 then 31 else 30) = 30) ∧
    ∃ w, w = Algorithm3.stop rowInput 0 31 (31 + 1) (if 31 < 30 then 31 else 30) ∧
      Algorithm3 rowInput 0 31
        = Classic.result (Algorithm3.loop 0 31 (bestMetric 31) w 0 (Classic.start rowInput)) ∧
      (if 31 < 30 then 31 else 30) ≤ w ∧ w ≤ 31 ∧
      (w < 31 → ∃ i, i < w ∧ eligible rowInput 0 31 i = true) ∧
      ((if 31 < 30 then 31 else 30) < w → ∀ i, i + 5 < w → eligible rowInput 0 31 i = false) ∧
      ((w - (if 31 < 30 then 31 else 30)) % 5 = 0 ∨ w = 31) :=
  ⟨by decide!, Algorithm3_window rowInput 0 31 (by decide!) (by decide!) (by decide!)⟩

/-! ## The metric of the seg that `Algorithm1` returns -/

theorem Pushed_start (b : Builder) : Pushed b b.scan :=
  ⟨fun _ h => h, [], (List.append_nil _).symm, fun _ h => by cases h⟩

theorem classic_pushes (extra : Int) (b0 : Builder) (segs noSegs : Nat) (bestMetric : Int) :
    ∀ (n i : Nat) (s : Alg1State), Pushed b0 s.b.scan →
      Pushed b0 (Classic.loop extra segs noSegs bestMetric n i s).2.b.scan := by
  intro n
  induction n with
  | zero =>
    intro i s h
    exact h
  | succ n ih =>
    intro i s h
    rw [Classic.loop_succ]
    by_cases hc : readI s.b.scan.lineChecked (s.b.aliasOf (s.b.seg (segs + i)).Data.lineDef).index
        = true
    · rw [if_pos hc]
      exact ih (i + 1) s h
    · rw [if_neg hc]
      have hc2 : readI s.b.scan.lineChecked (s.b.aliasOf (s.b.seg (segs + i)).Data.lineDef).index
          = false := by
        cases hx : readI s.b.scan.lineChecked (s.b.aliasOf (s.b.seg (segs + i)).Data.lineDef).index
        · rfl
        · exact absurd hx hc
      obtain ⟨h1, pushes, h2, h3⟩ := h
      have hT : Pushed b0 (Classic.tested s segs i).scan :=
        ⟨fun a ha => h1 a (readI_writeI_true _ _ _ ha), pushes, h2, h3⟩
      have hP : Pushed b0 ({ Classic.tested s segs i with scan :=
          { (Classic.tested s segs i).scan with convexList :=
              (Classic.tested s segs i).scan.convexList
                ++ [(s.b.aliasOf (s.b.seg (segs + i)).Data.lineDef).index] } } : Builder).scan := by
        refine ⟨fun a ha => h1 a (readI_writeI_true _ _ _ ha),
          pushes ++ [(s.b.aliasOf (s.b.seg (segs + i)).Data.lineDef).index], ?_, ?_⟩
        · show s.b.scan.convexList ++ _ = _
          rw [h2, List.append_assoc]
        · intro a ha
          rcases List.mem_append.mp ha with ha | ha
          · exact h3 a ha
          · rw [List.mem_singleton.mp ha]
            exact h1 _ hc2
      cases countSides (Classic.tested s segs i) segs
          (if s.maxMetric < 0 then none else some s.maxSplits) noSegs 0 ⟨0, 0, 0⟩ with
      | none => exact ih (i + 1) _ hT
      | some count =>
        simp only
        split_ifs
        · exact hT
        · exact ih (i + 1) _ hT
        · exact ih (i + 1) _ hT
        · exact ih (i + 1) _ hP

theorem windows_pushes (b0 : Builder) (segs noSegs : Nat) (bestMetric : Int) :
    ∀ (fuel i max : Nat) (s : Alg1State), Pushed b0 s.b.scan →
      Pushed b0 (Algorithm3.windows segs noSegs bestMetric fuel i max s).2.b.scan := by
  intro fuel
  induction fuel with
  | zero =>
    intro i max s h
    exact h
  | succ fuel ih =>
    intro i max s h
    rw [windows_succ]
    have h1 := classic_pushes 0 b0 segs noSegs bestMetric (max - i) i s h
    generalize Classic.loop 0 segs noSegs bestMetric (max - i) i s = r at h1
    obtain ⟨o, s2⟩ := r
    cases o with
    | some t => exact h1
    | none =>
      simp only [Classic.andThen]
      split_ifs <;> first | exact ih _ _ _ h1 | exact h1

theorem Algorithm1_pushes (b : Builder) (segs noSegs : Nat) :
    Pushed b (Algorithm1 b segs noSegs).2 := by
  rw [Algorithm1_eq]
  have h1 := classic_pushes 2 b segs noSegs (bestMetric noSegs) noSegs 0 (Classic.start b)
    (Pushed_start b)
  generalize Classic.loop 2 segs noSegs (bestMetric noSegs) noSegs 0 (Classic.start b) = r at h1
  obtain ⟨o, s2⟩ := r
  cases o <;> exact h1

theorem Algorithm3_pushes (b : Builder) (segs noSegs : Nat) :
    Pushed b (Algorithm3 b segs noSegs).2 := by
  unfold Algorithm3
  have h1 := windows_pushes b segs noSegs
    (((noSegs / 2 : Nat) : Int) * ((noSegs - noSegs / 2 : Nat) : Int)) (noSegs + 1) 0
    (if noSegs < 30 then noSegs else 30)
    { b := b, pSeg := none, maxMetric := -0x80000000, maxSplits := 0x7FFFFFFF } (Pushed_start b)
  simp only
  generalize Algorithm3.windows segs noSegs
    (((noSegs / 2 : Nat) : Int) * ((noSegs - noSegs / 2 : Nat) : Int)) (noSegs + 1) 0
    (if noSegs < 30 then noSegs else 30)
    { b := b, pSeg := none, maxMetric := -0x80000000, maxSplits := 0x7FFFFFFF } = r at h1
  obtain ⟨o, s2⟩ := r
  cases o <;> exact h1

theorem Hit_cons (e : Int) (es : List Int) (a : Nat) :
    Hit (e :: es) a ↔ (0 ≤ e ∧ e.toNat = a) ∨ Hit es a := by
  unfold Hit
  constructor
  · rintro ⟨x, hx, h⟩
    rcases List.mem_cons.mp hx with e1 | e1
    · exact Or.inl (e1 ▸ h)
    · exact Or.inr ⟨x, e1, h⟩
  · rintro (h | ⟨x, hx, h⟩)
    · exact ⟨e, List.mem_cons_self _ _, h⟩
    · exact ⟨x, List.mem_cons_of_mem _ hx, h⟩

theorem Hit_reverse (es : List Int) (a : Nat) : Hit es.reverse a ↔ Hit es a := by
  unfold Hit
  simp only [List.mem_reverse]

theorem getD_writeI (l : List Bool) (i : Int) (v : Bool) (a : Nat) :
    (writeI l i v).getD a false
      = if (0 ≤ i ∧ i.toNat = a) ∧ a < l.length then v else l.getD a false := by
  unfold writeI
  by_cases hi : i < 0
  · rw [if_pos hi, if_neg (by omega)]
  · rw [if_neg hi, getD_set_eq]
    by_cases h : a = i.toNat ∧ i.toNat < l.length
    · rw [if_pos h, if_pos ⟨⟨by omega, h.1.symm⟩, by omega⟩]
    · rw [if_neg h, if_neg (by
        rintro ⟨⟨_, h1⟩, h2⟩
        exact h ⟨h1.symm, by omega⟩)]

theorem length_markConvex (v : Bool) : ∀ (es : List Int) (l : List Bool),
    (markConvex l es v).length = l.length := by
  intro es
  induction es with
  | nil =>
    intro l
    rfl
  | cons e rest ih =>
    intro l
    simp only [markConvex, List.foldl_cons]
    exact (ih _).trans (length_writeI _ _ _)

theorem getD_markConvex (v : Bool) : ∀ (es : List Int) (l : List Bool) (a : Nat),
    (markConvex l es v).getD a false
      = if Hit es a ∧ a < l.length then v else l.getD a false := by
  intro es
  induction es with
  | nil =>
    intro l a
    have hn : ¬ (Hit [] a ∧ a < l.length) := by
      rintro ⟨⟨x, hx, _⟩, _⟩
      cases hx
    rw [if_neg hn]
    rfl
  | cons e rest ih =>
    intro l a
    have h1 : markConvex l (e :: rest) v = markConvex (writeI l e v) rest v := rfl
    rw [h1, ih, length_writeI, getD_writeI]
    by_cases hr : Hit rest a ∧ a < l.length
    · rw [if_pos hr, if_pos ⟨(Hit_cons e rest a).mpr (Or.inr hr.1), hr.2⟩]
    · rw [if_neg hr]
      by_cases he : (0 ≤ e ∧ e.toNat = a) ∧ a < l.length
      · rw [if_pos he, if_pos ⟨(Hit_cons e rest a).mpr (Or.inl he.1), he.2⟩]
      · rw [if_neg he, if_neg]
        rintro ⟨hh, hlt⟩
        rcases (Hit_cons e rest a).mp hh with h | h
        · exact he ⟨h, hlt⟩
        · exact hr ⟨h, hlt⟩

/-- What the marking before the recursion does to an entry of `lineUsed`. -/
theorem getD_mark (b : Builder) (cptr a : Nat) :
    (CreateNode.mark b cptr).lineUsed.getD a false
      = if Hit (b.partitionAlias :: b.scan.convexList.drop cptr) a ∧ a < b.lineUsed.length
        then true else b.lineUsed.getD a false := by
  have h1 : (CreateNode.mark b cptr).lineUsed
      = markConvex (writeI b.lineUsed b.partitionAlias true) (b.scan.convexList.drop cptr) true :=
    rfl
  rw [h1, getD_markConvex, length_writeI, getD_writeI]
  by_cases hr : Hit (b.scan.convexList.drop cptr) a ∧ a < b.lineUsed.length
  · rw [if_pos hr, if_pos ⟨(Hit_cons _ _ a).mpr (Or.inr hr.1), hr.2⟩]
  · rw [if_neg hr]
    by_cases he : (0 ≤ b.partitionAlias ∧ b.partitionAlias.toNat = a) ∧ a < b.lineUsed.length
    · rw [if_pos he, if_pos ⟨(Hit_cons _ _ a).mpr (Or.inl he.1), he.2⟩]
    · rw [if_neg he, if_neg]
      rintro ⟨hh, hlt⟩
      rcases (Hit_cons _ _ a).mp hh with h | h
      · exact he ⟨h, hlt⟩
      · exact hr ⟨h, hlt⟩

/-- What the unmarking after the recursion does to an entry of `lineUsed`. -/
theorem getD_finish (b : Builder) (node lNode cptr : Nat) (al : Int) (a : Nat) :
    (CreateNode.finish b node lNode cptr al).lineUsed.getD a false
      = if Hit (al :: b.scan.convexList.drop cptr) a ∧ a < b.lineUsed.length
        then false else b.lineUsed.getD a false := by
  have h1 : (CreateNode.finish b node lNode cptr al).lineUsed
      = writeI (markConvex b.lineUsed (b.scan.convexList.drop cptr).reverse false) al false :=
    rfl
  rw [h1, getD_writeI, length_markConvex, getD_markConvex]
  simp only [Hit_reverse]
  by_cases he : (0 ≤ al ∧ al.toNat = a) ∧ a < b.lineUsed.length
  · rw [if_pos he, if_pos ⟨(Hit_cons _ _ a).mpr (Or.inl he.1), he.2⟩]
  · rw [if_neg he]
    by_cases hr : Hit (b.scan.convexList.drop cptr) a ∧ a < b.lineUsed.length
    · rw [if_pos hr, if_pos ⟨(Hit_cons _ _ a).mpr (Or.inr hr.1), hr.2⟩]
    · rw [if_neg hr, if_neg]
      rintro ⟨hh, hlt⟩
      rcases (Hit_cons _ _ a).mp hh with h | h
      · exact he ⟨h, hlt⟩
      · exact hr ⟨h, hlt⟩

theorem ext_getD (l1 l2 : List Bool) (hlen : l1.length = l2.length)
    (h : ∀ a, l1.getD a false = l2.getD a false) : l1 = l2 := by
  apply List.ext_getElem hlen
  intro i h1 h2
  have := h i
  rw [List.getD_eq_getElem _ _ h1, List.getD_eq_getElem _ _ h2] at this
  exact this

/-- An alias that the partition function finds unchecked is unused at the call of
`CreateNode`. -/
theorem unused_of_unchecked (b be : Builder) (hlen : b.lineUsed.length = b.noAliases)
    (h1 : be.lineUsed = b.lineUsed) (h2 : be.noAliases = b.noAliases) (e : Int) (a : Nat)
    (he : 0 ≤ e ∧ e.toNat = a)
    (hu : readI (ChoosePartition.input be).scan.lineChecked e = false) :
    b.lineUsed.getD a false = false := by
  by_cases ha : a < b.lineUsed.length
  · rw [readI_nonneg _ _ (not_lt.mpr he.1), he.2] at hu
    simp only [ChoosePartition.input, h1, h2] at hu
    have hm := getD_blit_mid be.scan.lineChecked (b.lineUsed.take b.noAliases) 0 a false
      (Nat.zero_le _) (by
        rw [List.length_take]
        omega)
    rw [Nat.zero_add] at hm
    rw [hm] at hu
    simp only [List.getD_eq_getElem?_getD, List.getElem?_take] at hu ⊢
    rw [if_pos (by omega)] at hu
    exact hu
  · exact List.getD_eq_default _ _ (by omega)

theorem leaf_frame (b : Builder) (node cptr rSegs noSegs : Nat) (r : Builder × Nat × Nat × Nat)
    (h : CreateNode.leaf b node cptr rSegs noSegs = .ok r) :
    r.1.scan.convexList = b.scan.convexList.take cptr ∧ r.1.lineUsed = b.lineUsed ∧
    r.1.noAliases = b.noAliases ∧ r.1.uniqueSubsectors = b.uniqueSubsectors := by
  obtain ⟨_, hr⟩ := leaf_ok b node cptr rSegs noSegs r h
  rw [hr]
  exact ⟨rfl, rfl, rfl, rfl⟩

theorem enter_unique (b : Builder) (prev : Option Nat) :
    (CreateNode.enter b prev).uniqueSubsectors = b.uniqueSubsectors := by
  cases prev <;> rfl

/-- The convex list that `PartitionNode` leaves is that of the partition function, and
the alias of the partition line is that of the seg the partition function has returned,
unless the partition is forced by the sectors that are kept unique. -/
theorem PartitionNode_stack (pf : PartitionFn) (b : Builder) (node rSegs noSegs : Nat)
    (flag : Bool) (b2 : Builder) (nl nr : Nat)
    (h : PartitionNode pf b node rSegs noSegs = .ok (flag, b2, nl, nr)) :
    b2.scan.convexList = (pf (ChoosePartition.input b) rSegs noSegs).2.convexList ∧
    (flag = true →
      (∃ p, (pf (ChoosePartition.input b) rSegs noSegs).1 = some p ∧
        b2.partitionAlias = b.aliasAt p) ∨
      ((pf (ChoosePartition.input b) rSegs noSegs).1 = none ∧ b.uniqueSubsectors = true)) := by
  unfold PartitionNode at h
  cases hc : ChoosePartition pf b rSegs noSegs with
  | error e =>
    rw [hc] at h
    cases h
  | ok res =>
    obtain ⟨cflag, b1, l1, r1, s1⟩ := res
    rw [hc] at h
    rcases ChoosePartition_cases pf b rSegs noSegs cflag b1 l1 r1 s1 hc with
      ⟨ef, hn, e⟩ | ⟨ef, p, hs, e⟩
    · subst ef
      subst e
      simp only at h
      by_cases hu : b.uniqueSubsectors = true
      · split_ifs at h <;>
          (injection h with h
           injection h with h1 h
           injection h with h2 h
           rw [← h2]
           exact ⟨rfl, fun _ => Or.inr ⟨hn, hu⟩⟩)
      · split_ifs at h <;>
          (injection h with h
           injection h with h1 h
           injection h with h2 h
           rw [← h2, ← h1]
           refine ⟨rfl, fun hf => ?_⟩
           first
           | exact absurd (And.left ‹_ ∧ _›) hu
           | cases hf)
    · subst ef
      have hfr := SortSegs_frame _ _ _ _ _ _ _ _ e
      have key : ∀ b3 : Builder, b3.tables = b1.tables → b3.scan = b1.scan → ∀ l r : Nat,
          (PartitionNode.finish b3 node rSegs l r).scan.convexList
            = (pf (ChoosePartition.input b) rSegs noSegs).2.convexList ∧
          (PartitionNode.finish b3 node rSegs l r).partitionAlias = b.aliasAt p := by
        intro b3 ht hsc l r
        simp only [Builder.tables, Prod.mk.injEq] at ht
        obtain ⟨_, _, t3, _, _⟩ := ht
        have e1 : (PartitionNode.finish b3 node rSegs l r).scan = b3.scan := rfl
        have e2 : (PartitionNode.finish b3 node rSegs l r).lineDefAlias = b3.lineDefAlias := rfl
        constructor
        · rw [e1, hsc, hfr]
          rfl
        · unfold Builder.partitionAlias Builder.aliasAt Builder.aliasOf Builder.st
          rw [e1, e2, hsc, t3, hfr]
          rfl
      simp only at h
      split_ifs at h
      · cases hsp : SplitSegs b1 (rSegs + r1) s1 with
        | error e =>
          rw [hsp] at h
          cases h
        | ok b3 =>
          rw [hsp] at h
          injection h with h
          injection h with h1 h
          injection h with h2 h
          obtain ⟨t1, t2⟩ := SplitSegs_tables _ _ _ _ hsp
          obtain ⟨k1, k2⟩ := key b3 t1 t2 (l1 + s1) (r1 + s1)
          rw [← h2]
          exact ⟨k1, fun _ => Or.inl ⟨p, hs, k2⟩⟩
      · injection h with h
        injection h with h1 h
        injection h with h2 h
        obtain ⟨k1, k2⟩ := key b1 rfl rfl l1 r1
        rw [← h2]
        exact ⟨k1, fun _ => Or.inl ⟨p, hs, k2⟩⟩

/-- The convex bookkeeping of a completed call of `CreateNode`, for a partition function
that pushes only aliases it found unchecked: the convex list is restored and no mark of
`lineUsed` is added.  When the function also returns only segs whose alias it found
unchecked, a build without unique subsectors has `lineUsed` restored. -/
theorem CreateNode_restores (pf : PartitionFn)
    (hpush : ∀ b segs noSegs, Pushed b (pf b segs noSegs).2) :
    ∀ (fuel : Nat) (b : Builder) (prev : Option Nat) (rSegs noSegs : Nat)
      (r : Builder × Nat × Nat × Nat),
      CreateNode pf fuel b prev rSegs noSegs = .ok r → b.lineUsed.length = b.noAliases →
      r.1.scan.convexList = b.scan.convexList ∧ r.1.noAliases = b.noAliases ∧
      r.1.lineUsed.length = b.lineUsed.length ∧ r.1.uniqueSubsectors = b.uniqueSubsectors ∧
      (∀ a, r.1.lineUsed.getD a false = true → b.lineUsed.getD a false = true) ∧
      ((∀ b segs noSegs, ReturnsUnchecked pf b segs noSegs) →
        b.uniqueSubsectors = false → r.1.lineUsed = b.lineUsed) := by
  intro fuel
  induction fuel with
  | zero =>
    intro b prev rSegs noSegs r h
    simp only [CreateNode] at h
    cases h
  | succ fuel ih =>
    intro b prev rSegs noSegs r h hlen
    obtain ⟨_, hc⟩ := CreateNode_cases pf fuel b prev rSegs noSegs r h
    obtain ⟨f1, f2, f3, f4, f5, f6, f7⟩ := enter_frame b prev
    have fu := enter_unique b prev
    rcases hc with ⟨_, hl⟩ | ⟨_, b2, nl, nr, hpn, hl⟩ |
      ⟨_, b2, nl, nr, b3, rNode, nr2, lSegs, b4, lNode, nl2, x, hpn, hr, hl, hres⟩
    · obtain ⟨l1, l2, l3, l4⟩ := leaf_frame _ _ _ _ _ _ hl
      rw [f7, List.take_length] at l1
      rw [f1] at l2
      exact ⟨l1, l3.trans f2, by rw [l2], l4.trans fu, fun a ha => by rw [l2] at ha; exact ha,
        fun _ _ => l2⟩
    · obtain ⟨l1, l2, l3, l4⟩ := leaf_frame _ _ _ _ _ _ hl
      have ht := PartitionNode_tables _ _ _ _ _ _ _ _ _ hpn
      simp only [Builder.tables, Prod.mk.injEq] at ht
      obtain ⟨_, t2, t3, t4, t5⟩ := ht
      obtain ⟨s1, _⟩ := PartitionNode_stack _ _ _ _ _ _ _ _ _ hpn
      obtain ⟨_, pushes, p1, _⟩ :=
        hpush (ChoosePartition.input (CreateNode.enter b prev)) rSegs noSegs
      have hcl : b2.scan.convexList = b.scan.convexList ++ pushes := by
        rw [s1, p1]
        show (CreateNode.enter b prev).scan.convexList ++ _ = _
        rw [f7]
      have hu2 : b2.uniqueSubsectors = b.uniqueSubsectors :=
        (PartitionNode_core _ _ _ _ _ _ _ _ _ hpn).2.2.2.2.1.trans fu
      rw [hcl, List.take_left] at l1
      rw [t2, f1] at l2
      exact ⟨l1, l3.trans (t5.trans f2), by rw [l2], l4.trans hu2,
        fun a ha => by rw [l2] at ha; exact ha, fun _ _ => l2⟩
    · have ht := PartitionNode_tables _ _ _ _ _ _ _ _ _ hpn
      simp only [Builder.tables, Prod.mk.injEq] at ht
      obtain ⟨_, t2, t3, t4, t5⟩ := ht
      obtain ⟨s1, s2⟩ := PartitionNode_stack _ _ _ _ _ _ _ _ _ hpn
      obtain ⟨_, pushes, p1, p2⟩ :=
        hpush (ChoosePartition.input (CreateNode.enter b prev)) rSegs noSegs
      have hcl : b2.scan.convexList = b.scan.convexList ++ pushes := by
        rw [s1, p1]
        show (CreateNode.enter b prev).scan.convexList ++ _ = _
        rw [f7]
      have hu2 : b2.uniqueSubsectors = b.uniqueSubsectors :=
        (PartitionNode_core _ _ _ _ _ _ _ _ _ hpn).2.2.2.2.1.trans fu
      have hdrop : b2.scan.convexList.drop b.scan.convexList.length = pushes := by
        rw [hcl, List.drop_left]
      have hL2 : b2.lineUsed = b.lineUsed := t2.trans f1
      have hN2 : b2.noAliases = b.noAliases := t5.trans f2
      have m1 : (CreateNode.mark b2 b.scan.convexList.length).lineUsed.length
          = b.lineUsed.length := by
        show (markConvex (writeI b2.lineUsed _ true) _ true).length = _
        rw [length_markConvex, length_writeI, hL2]
      have m2 : (CreateNode.mark b2 b.scan.convexList.length).noAliases = b.noAliases := hN2
      obtain ⟨a1, a2, a3, a4, a5, a6⟩ := ih _ _ _ _ _ hr (m1.trans (hlen.trans m2.symm))
      have a1 : b3.scan.convexList = b2.scan.convexList := a1
      have a2 : b3.noAliases = b.noAliases := a2.trans m2
      have a3 : b3.lineUsed.length = b.lineUsed.length := a3.trans m1
      have a4 : b3.uniqueSubsectors = b.uniqueSubsectors := a4.trans hu2
      obtain ⟨c1, c2, c3, c4, c5, c6⟩ := ih _ _ _ _ _ hl (by
        show b3.lineUsed.length = b3.noAliases
        rw [a3, a2]
        exact hlen)
      have c1 : b4.scan.convexList = b2.scan.convexList := c1.trans a1
      have c2 : b4.noAliases = b.noAliases := c2.trans a2
      have c3 : b4.lineUsed.length = b.lineUsed.length := c3.trans a3
      have c4 : b4.uniqueSubsectors = b.uniqueSubsectors := c4.trans a4
      have c5 : ∀ a, b4.lineUsed.getD a false = true → b3.lineUsed.getD a false = true := c5
      have eF : (CreateNode.setChild1 b4 b.nodePool.length lNode).scan.convexList.drop
          b.scan.convexList.length = pushes := by
        show b4.scan.convexList.drop _ = _
        rw [c1, hdrop]
      have eFl : (CreateNode.setChild1 b4 b.nodePool.length lNode).lineUsed.length
          = b.lineUsed.length := c3
      have g : ∀ a, (CreateNode.finish (CreateNode.setChild1 b4 b.nodePool.length lNode)
            b.nodePool.length lNode b.scan.convexList.length b2.partitionAlias).lineUsed.getD a false
          = if Hit (b2.partitionAlias :: pushes) a ∧ a < b.lineUsed.length then false
            else b4.lineUsed.getD a false := by
        intro a
        rw [getD_finish]
        simp only [eF, eFl]
        rfl
      have gm : ∀ a, (CreateNode.mark b2 b.scan.convexList.length).lineUsed.getD a false
          = if Hit (b2.partitionAlias :: pushes) a ∧ a < b.lineUsed.length then true
            else b.lineUsed.getD a false := by
        intro a
        rw [getD_mark]
        simp only [hdrop, hL2]
      rw [hres]
      refine ⟨?_, c2, ?_, c4, ?_, ?_⟩
      · show b4.scan.convexList.take b.scan.convexList.length = _
        rw [c1, hcl, List.take_left]
      · show (writeI (markConvex _ _ false) _ false).length = _
        rw [length_writeI, length_markConvex]
        exact c3
      · intro a ha
        rw [g a] at ha
        by_cases hh : Hit (b2.partitionAlias :: pushes) a ∧ a < b.lineUsed.length
        · rw [if_pos hh] at ha
          cases ha
        · rw [if_neg hh] at ha
          have h3 := a5 a (c5 a ha)
          rw [gm a, if_neg hh] at h3
          exact h3
      · intro hret hu
        have hsome : ∃ p, (pf (ChoosePartition.input (CreateNode.enter b prev)) rSegs noSegs).1
            = some p ∧ b2.partitionAlias = (CreateNode.enter b prev).aliasAt p := by
          rcases s2 rfl with h | ⟨_, h⟩
          · exact h
          · rw [fu, hu] at h
            cases h
        obtain ⟨p, hp1, hp2⟩ := hsome
        have hfree : ∀ a, Hit (b2.partitionAlias :: pushes) a → b.lineUsed.getD a false = false := by
          rintro a ⟨e, he, h0⟩
          refine unused_of_unchecked b (CreateNode.enter b prev) hlen f1 f2 e a h0 ?_
          rcases List.mem_cons.mp he with e1 | e1
          · rw [e1, hp2]
            exact (hret (ChoosePartition.input (CreateNode.enter b prev)) rSegs noSegs p _
              (Prod.ext hp1 rfl)).2.2
          · exact p2 e e1
        have a6 : b3.lineUsed = (CreateNode.mark b2 b.scan.convexList.length).lineUsed :=
          a6 hret (hu2.trans hu)
        have c6 : b4.lineUsed = b3.lineUsed := c6 hret (a4.trans hu)
        apply ext_getD
        · show (writeI (markConvex _ _ false) _ false).length = _
          rw [length_writeI, length_markConvex]
          exact c3
        · intro a
          rw [g a]
          by_cases hh : Hit (b2.partitionAlias :: pushes) a ∧ a < b.lineUsed.length
          · rw [if_pos hh]
            exact (hfree a hh.1).symm
          · rw [if_neg hh, c6, a6, gm a, if_neg hh]

theorem Algorithm2_loop_pushes (b0 : Builder) (segs noSegs : Nat) :
    ∀ (n i : Nat) (s : Builder × Nat), Pushed b0 s.1.scan →
      Pushed b0 (Algorithm2.loop segs noSegs n i s).1.scan := by
  intro n
  induction n with
  | zero =>
    intro i s h
    exact h
  | succ n ih =>
    intro i s h
    obtain ⟨bs, ns⟩ := s
    simp only [Algorithm2.loop]
    by_cases hc : readI bs.scan.lineChecked (bs.aliasOf (bs.seg (segs + i)).Data.lineDef).index
        = true
    · rw [if_pos hc]
      exact ih (i + 1) _ h
    · rw [if_neg hc]
      apply ih (i + 1)
      have hc2 : readI bs.scan.lineChecked (bs.aliasOf (bs.seg (segs + i)).Data.lineDef).index
          = false := by
        cases hx : readI bs.scan.lineChecked (bs.aliasOf (bs.seg (segs + i)).Data.lineDef).index
        · rfl
        · exact absurd hx hc
      obtain ⟨h1, pushes, h2, h3⟩ := h
      obtain ⟨_, _, _, _, c5, _⟩ := candidate_props segs noSegs i
        (bs.aliasOf (bs.seg (segs + i)).Data.lineDef).index bs ns
      have c6 := candidate_convex segs noSegs i
        (bs.aliasOf (bs.seg (segs + i)).Data.lineDef).index bs ns
      refine ⟨fun a ha => ?_, ?_⟩
      · rw [c5] at ha
        exact h1 a (readI_writeI_true _ _ _ ha)
      · rw [c6]
        split_ifs
        · exact ⟨pushes, by rw [List.append_nil]; exact h2, h3⟩
        · refine ⟨pushes ++ [(bs.aliasOf (bs.seg (segs + i)).Data.lineDef).index], ?_, ?_⟩
          · show bs.scan.convexList ++ _ = _
            rw [h2, List.append_assoc]
          · intro a ha
            rcases List.mem_append.mp ha with ha | ha
            · exact h3 a ha
            · rw [List.mem_singleton.mp ha]
              exact h1 _ hc2

theorem Algorithm2_pushes (b : Builder) (segs noSegs : Nat) :
    Pushed b (Algorithm2 b segs noSegs).2 := by
  have h : ∀ s : Builder × Nat, Pushed b s.1.scan →
      Pushed b (Algorithm2.loop segs noSegs noSegs 0 s).1.scan :=
    Algorithm2_loop_pushes b segs noSegs noSegs 0
  show Pushed b (Algorithm2.scan b segs noSegs).1.scan
  unfold Algorithm2.scan
  exact h _ (Pushed_start b)

/-- The failing input of C36.  The H-divided room (north and east wall in sector 1) is
built with both sectors kept unique.  The root call of `CreateNode` finds the divider, of
alias 4, as partition, with 4 segs on each side, and marks all five aliases: the aliases
0 to 3 are on the convex list.  Its first recursive call gets the four segs on the right
of the divider, the segs 0 to 3 (of sectors 0, 0, 0, 1), with every entry of `lineUsed`
set.  `Algorithm1` returns no seg there, so that `PartitionNode` takes the forced split
and makes the line of seg 0, of alias 3, the partition.  The call returns with the convex
list as it found it but with `lineUsed [3]` cleared, and the second recursive call of the
root call, on the left segs, is entered with alias 3 unmarked, although the root call has
marked it as convex for all its children. -/
theorem forced_split_clears_a_used_alias :
    (PartitionNode Algorithm1 (CreateNode.enter uniqueSetup none) 0 0 6).toOption.map
        (fun r => (r.1, r.2.2, r.2.1.partitionAlias)) = some (true, (4, 4), 4) ∧
    uniqueFirst.uniqueSubsectors = true ∧ uniqueFirst.noAliases = 5 ∧
    uniqueFirst.lineUsed = [true, true, true, true, true] ∧
    uniqueFirst.scan.convexList = [0, 1, 2, 3] ∧
    (Algorithm1 (ChoosePartition.input (CreateNode.enter uniqueFirst none)) 0 4).1 = none ∧
    uniqueFirst.aliasAt 0 = 3 ∧
    (CreateNode Algorithm1 11 uniqueFirst none 0 4).toOption.map
        (fun r => (r.1.lineUsed, r.1.scan.convexList, r.2))
      = some ([true, true, true, false, true], [0, 1, 2, 3], 1, 4, 4) ∧
    uniqueEntry.lineUsed = [true, true, true, false, true] := by
  decide!

/-- What a completed call of `CreateNode` does restore (C36), with any of the three
partition functions and `noAliases` entries in `lineUsed` on entry: the convex list is
restored, so that `convexPtr` has its value on entry, and no entry of `lineUsed` is set:
an entry that is set on return was set on entry.  With `Algorithm1` or `Algorithm3`, in a
build without unique subsectors, every entry of `lineUsed` has its value on entry. -/
theorem CreateNode_restores_bookkeeping (pf : PartitionFn)
    (hpf : pf = Algorithm1 ∨ pf = Algorithm2 ∨ pf = Algorithm3) (fuel : Nat) (b : Builder)
    (prev : Option Nat) (rSegs noSegs : Nat) (r : Builder × Nat × Nat × Nat)
    (h : CreateNode pf fuel b prev rSegs noSegs = .ok r)
    (hlen : b.lineUsed.length = b.noAliases) :
    r.1.scan.convexList = b.scan.convexList ∧
    (∀ a, r.1.lineUsed.getD a false = true → b.lineUsed.getD a false = true) ∧
    (pf ≠ Algorithm2 → b.uniqueSubsectors = false → r.1.lineUsed = b.lineUsed) := by
  have hpush : ∀ b segs noSegs, Pushed b (pf b segs noSegs).2 := by
    intro b segs noSegs
    rcases hpf with e | e | e
    · rw [e]
      exact Algorithm1_pushes b segs noSegs
    · rw [e]
      exact Algorithm2_pushes b segs noSegs
    · rw [e]
      exact Algorithm3_pushes b segs noSegs
  obtain ⟨k1, _, _, _, k5, k6⟩ := CreateNode_restores pf hpush fuel b prev rSegs noSegs r h hlen
  refine ⟨k1, k5, fun hne => k6 ?_⟩
  intro b segs noSegs
  rcases hpf with e | e | e
  · rw [e]
    exact Algorithm1_unchecked b segs noSegs
  · exact absurd e hne
  · rw [e]
    exact Algorithm3_unchecked b segs noSegs

theorem CreateNode_restores_bookkeeping_witness :
    dividedRoomBuilt.1.scan.convexList = dividedRoom.scan.convexList ∧
    (∀ a, dividedRoomBuilt.1.lineUsed.getD a false = true →
      dividedRoom.lineUsed.getD a false = true) ∧
    (Algorithm1 ≠ Algorithm2 → dividedRoom.uniqueSubsectors = false →
      dividedRoomBuilt.1.lineUsed = dividedRoom.lineUsed) :=
  CreateNode_restores_bookkeeping Algorithm1 (Or.inl rfl) 10 dividedRoom none 0
    dividedRoom.segCount dividedRoomBuilt dividedRoom_builds (by decide)

/-! ## The full binary tree -/

theorem DivideSeg_ssectors (b : Builder) (rSeg lSeg : Nat) (b2 : Builder)
    (h : DivideSeg b rSeg lSeg = .ok b2) : b2.ssectorCount = b.ssectorCount := by
  obtain ⟨i, b1, hadd, _, _, hfr2, _⟩ := DivideSeg_ok b rSeg lSeg b2 h
  obtain ⟨hfr1, _⟩ := AddVertex_frame b _ _ i b1 hadd
  rw [hfr2, hfr1]

theorem SplitSegs_loop_ssectors (k : Nat) : ∀ (n s : Nat) (b b2 : Builder),
    SplitSegs.loop k n s b = .ok b2 → b2.ssectorCount = b.ssectorCount := by
  intro n
  induction n with
  | zero =>
    intro s b b2 h
    simp only [SplitSegs.loop] at h
    injection h with h
    rw [h]
  | succ n ih =>
    intro s b b2 h
    simp only [SplitSegs.loop] at h
    cases hd : DivideSeg b s (s + k) with
    | error e =>
      rw [hd] at h
      cases h
    | ok b1 =>
      rw [hd] at h
      exact (ih _ _ _ h).trans (DivideSeg_ssectors _ _ _ _ hd)

theorem SplitSegs_ssectors (b : Builder) (segs k : Nat) (b2 : Builder)
    (h : SplitSegs b segs k = .ok b2) : b2.ssectorCount = b.ssectorCount := by
  simp only [SplitSegs] at h
  split_ifs at h
  have h1 := SplitSegs_loop_ssectors _ _ _ _ _ h
  exact h1

theorem PartitionNode_ssectors (pf : PartitionFn) (b : Builder) (node rSegs noSegs : Nat)
    (flag : Bool) (b2 : Builder) (nl nr : Nat)
    (h : PartitionNode pf b node rSegs noSegs = .ok (flag, b2, nl, nr)) :
    b2.ssectorCount = b.ssectorCount := by
  unfold PartitionNode at h
  cases hc : ChoosePartition pf b rSegs noSegs with
  | error e =>
    rw [hc] at h
    cases h
  | ok res =>
    obtain ⟨cflag, b1, l1, r1, s1⟩ := res
    rw [hc] at h
    have e1 : b1.ssectorCount = b.ssectorCount := by
      rcases ChoosePartition_cases pf b rSegs noSegs cflag b1 l1 r1 s1 hc with
        ⟨_, _, e⟩ | ⟨_, p, _, e⟩
      · rw [e]
      · rw [SortSegs_frame _ _ _ _ _ _ _ _ e]
        rfl
    cases cflag with
    | false =>
      simp only at h
      split_ifs at h <;>
        (injection h with h
         injection h with h1 h
         injection h with h2 h
         rw [← h2, ← e1]
         try rfl)
    | true =>
      simp only at h
      split_ifs at h
      · cases hs : SplitSegs b1 (rSegs + r1) s1 with
        | error e =>
          rw [hs] at h
          cases h
        | ok b3 =>
          rw [hs] at h
          injection h with h
          injection h with h1 h
          injection h with h2 h
          rw [← h2, ← e1, ← SplitSegs_ssectors _ _ _ _ hs]
          rfl
      · injection h with h
        injection h with h1 h
        injection h with h2 h
        rw [← h2, ← e1]
        rfl

/-- A call of `CreateNode` leaves the ids of the nodes that were in the pool as they
are, and adds at least one node. -/
theorem CreateNode_ids_below (pf : PartitionFn) (fuel : Nat) (b : Builder)
    (prev : Option Nat) (rSegs noSegs : Nat) (r : Builder × Nat × Nat × Nat)
    (h : CreateNode pf fuel b prev rSegs noSegs = .ok r)
    (hp : ∀ p, prev = some p → p < b.nodePool.length) (h16 : r.1.nodeCount ≤ 0x8000) :
    b.nodePool.length < r.1.nodePool.length ∧ r.2.1 = b.nodePool.length ∧
    ∀ x, x < b.nodePool.length → (nodeAt r.1.nodePool x).id = (nodeAt b.nodePool x).id := by
  obtain ⟨hroot, t, _, h3⟩ := CreateNode_nodes pf fuel b prev rSegs noSegs r h hp h16
  obtain ⟨p1, _, _, _, _, _, _, p8, p9, _, _⟩ := h3
  refine ⟨(Spans_root t _ _ p1).2, hroot, ?_⟩
  intro x hx
  by_cases hpx : prev = some x
  · exact (p8 x hpx).2.1
  · rw [p9 x hx hpx]

theorem range'_join (lo m hi : Nat) (h1 : lo ≤ m) (h2 : m ≤ hi) :
    List.range' lo (m - lo) ++ List.range' m (hi - m) = List.range' lo (hi - lo) := by
  have := List.range'_append lo (m - lo) (hi - m) 1
  simp only [Nat.one_mul] at this
  have e : lo + (m - lo) = m := by omega
  rw [e] at this
  rw [this]
  congr 1
  omega

theorem leafIds_congr (p1 p2 : List NODE) (lo hi : Nat)
    (h : ∀ x, lo ≤ x → x < hi → (nodeAt p1 x).id = (nodeAt p2 x).id) :
    leafIds p1 lo hi = leafIds p2 lo hi := by
  unfold leafIds
  congr 1
  apply List.map_congr_left
  intro x hx
  obtain ⟨h1, h2⟩ := List.mem_range'_1.mp hx
  exact h x h1 (by omega)

theorem leafIds_split (p : List NODE) (lo m hi : Nat) (h1 : lo ≤ m) (h2 : m ≤ hi) :
    leafIds p lo hi = leafIds p lo m ++ leafIds p m hi := by
  unfold leafIds
  rw [← range'_join lo m hi h1 h2, List.map_append, List.filter_append]

theorem leafIds_one (p : List NODE) (lo : Nat) :
    leafIds p lo (lo + 1) = if isSubsector (nodeAt p lo).id then [(nodeAt p lo).id] else [] := by
  unfold leafIds
  have e : lo + 1 - lo = 1 := by omega
  rw [e]
  simp only [List.range', List.map_cons, List.map_nil, List.filter_cons, List.filter_nil]

theorem enter_ssectors (b : Builder) (prev : Option Nat) :
    (CreateNode.enter b prev).ssectorCount = b.ssectorCount := by
  cases prev <;> rfl

theorem leaf_id (b : Builder) (node cptr rSegs noSegs : Nat) (r : Builder × Nat × Nat × Nat)
    (h : CreateNode.leaf b node cptr rSegs noSegs = .ok r) (hn : node < b.nodePool.length) :
    r.1.ssectorCount = b.ssectorCount + 1 ∧
    (nodeAt r.1.nodePool node).id = subsectorId b.ssectorCount ∧
    r.1.nodePool.length = b.nodePool.length := by
  obtain ⟨_, hr⟩ := leaf_ok _ _ _ _ _ _ h
  rw [hr]
  simp only [setNode_pool]
  refine ⟨rfl, ?_, by simp⟩
  rw [nodeAt_set_same _ _ _ hn]
  rfl

/-- The subsector ids that a call of `CreateNode` leaves in its pool entries are, in pool
order, the ids of the subsectors the call has created. -/
theorem CreateNode_leaves (pf : PartitionFn) : ∀ (fuel : Nat) (b : Builder)
    (prev : Option Nat) (rSegs noSegs : Nat) (r : Builder × Nat × Nat × Nat),
    CreateNode pf fuel b prev rSegs noSegs = .ok r →
    (∀ p, prev = some p → p < b.nodePool.length) → r.1.nodeCount ≤ 0x8000 →
    b.ssectorCount ≤ r.1.ssectorCount ∧
    leafIds r.1.nodePool b.nodePool.length r.1.nodePool.length
      = (List.range' b.ssectorCount (r.1.ssectorCount - b.ssectorCount)).map subsectorId := by
  intro fuel
  induction fuel with
  | zero =>
    intro b prev rSegs noSegs r h
    simp only [CreateNode] at h
    cases h
  | succ fuel ih =>
    intro b prev rSegs noSegs r h hp hcount
    obtain ⟨_, hc⟩ := CreateNode_cases pf fuel b prev rSegs noSegs r h
    obtain ⟨n1, _, _, _⟩ := enter_pool b prev hp
    have s1 := enter_ssectors b prev
    have hleaf : ∀ b1 : Builder, b1.nodePool.length = b.nodePool.length + 1 →
        b1.ssectorCount = b.ssectorCount →
        CreateNode.leaf b1 b.nodePool.length b.scan.convexList.length rSegs noSegs = .ok r →
        b.ssectorCount ≤ r.1.ssectorCount ∧
        leafIds r.1.nodePool b.nodePool.length r.1.nodePool.length
          = (List.range' b.ssectorCount (r.1.ssectorCount - b.ssectorCount)).map subsectorId := by
      intro b1 hn hs hl
      obtain ⟨l1, l2, l3⟩ := leaf_id _ _ _ _ _ _ hl (by omega)
      rw [l1, l3, hn, hs, leafIds_one, l2, hs]
      have e : b.ssectorCount + 1 - b.ssectorCount = 1 := by omega
      rw [e]
      refine ⟨by omega, ?_⟩
      have hsub : isSubsector (subsectorId b.ssectorCount) = true := isSubsector_leafId _
      rw [hsub]
      rfl
    rcases hc with ⟨_, hl⟩ | ⟨_, b2, nl, nr, hpn, hl⟩ |
      ⟨_, b2, nl, nr, b3, rNode, nr2, lSegs, b4, lNode, nl2, x, hpn, hr, hl, hres⟩
    · exact hleaf _ n1 s1 hl
    · have hc2 := PartitionNode_core pf _ _ _ _ _ _ _ _ hpn
      exact hleaf b2 (hc2.2.2.2.2.2.2.2.2.2.1.trans n1)
        ((PartitionNode_ssectors pf _ _ _ _ _ _ _ _ hpn).trans s1) hl
    · have hc2 := PartitionNode_core pf _ _ _ _ _ _ _ _ hpn
      have n2 : b2.nodePool.length = b.nodePool.length + 1 := hc2.2.2.2.2.2.2.2.2.2.1.trans n1
      have s2 : b2.ssectorCount = b.ssectorCount :=
        (PartitionNode_ssectors pf _ _ _ _ _ _ _ _ hpn).trans s1
      have hc4 : b4.nodeCount + 1 ≤ 0x8000 := by
        rw [hres] at hcount
        exact hcount
      have m2 := CreateNode_nodeCount pf _ _ _ _ _ _ hl
      have m2 : b3.nodeCount ≤ b4.nodeCount := m2
      have hp1 : ∀ p, prev = some p →
          p < (CreateNode.mark b2 b.scan.convexList.length).nodePool.length := by
        intro p hpp
        have := hp p hpp
        show p < b2.nodePool.length
        omega
      obtain ⟨i1, i2⟩ := ih _ _ _ _ _ hr hp1 (by show b3.nodeCount ≤ 0x8000; omega)
      obtain ⟨j1, j2, _⟩ := CreateNode_ids_below pf _ _ _ _ _ _ hr hp1
        (by show b3.nodeCount ≤ 0x8000; omega)
      have i1 : b.ssectorCount ≤ b3.ssectorCount := by
        have : b2.ssectorCount ≤ b3.ssectorCount := i1
        omega
      have i2 : leafIds b3.nodePool (b.nodePool.length + 1) b3.nodePool.length
          = (List.range' b.ssectorCount (b3.ssectorCount - b.ssectorCount)).map subsectorId := by
        have : leafIds b3.nodePool b2.nodePool.length b3.nodePool.length
          = (List.range' b2.ssectorCount (b3.ssectorCount - b2.ssectorCount)).map subsectorId := i2
        rw [n2, s2] at this
        exact this
      have j1 : b.nodePool.length + 1 < b3.nodePool.length := by
        have : b2.nodePool.length < b3.nodePool.length := j1
        omega
      have j2 : rNode = b.nodePool.length + 1 := by
        have : rNode = b2.nodePool.length := j2
        omega
      obtain ⟨c1, _, _, c4, _, _⟩ := setChild0_pool b3 b.nodePool.length rNode (by omega)
      have hp2 : ∀ p, some rNode = some p →
          p < (CreateNode.setChild0 b3 b.nodePool.length rNode).nodePool.length := by
        intro p hpp
        injection hpp with hpp
        rw [c1]
        omega
      obtain ⟨k1, k2⟩ := ih _ _ _ _ _ hl hp2 (by show b4.nodeCount ≤ 0x8000; omega)
      obtain ⟨q1, q2, q3⟩ := CreateNode_ids_below pf _ _ _ _ _ _ hl hp2
        (by show b4.nodeCount ≤ 0x8000; omega)
      rw [c1] at k2 q1 q2 q3
      have k1 : b3.ssectorCount ≤ b4.ssectorCount := k1
      have k2 : leafIds b4.nodePool b3.nodePool.length b4.nodePool.length
          = (List.range' b3.ssectorCount (b4.ssectorCount - b3.ssectorCount)).map subsectorId := k2
      have q1 : b3.nodePool.length < b4.nodePool.length := q1
      have q2 : lNode = b3.nodePool.length := q2
      have q3 : ∀ y, y < b3.nodePool.length → (nodeAt b4.nodePool y).id
          = (nodeAt (CreateNode.setChild0 b3 b.nodePool.length rNode).nodePool y).id := q3
      obtain ⟨f1, _, _, f4, _, _, _, f8, f9⟩ := finish_pool b4 b.nodePool.length lNode
        b.scan.convexList.length b2.partitionAlias (by omega) (by omega) (by omega)
      rw [hres]
      have hssc : (CreateNode.finish (CreateNode.setChild1 b4 b.nodePool.length lNode)
          b.nodePool.length lNode b.scan.convexList.length b2.partitionAlias).ssectorCount
          = b4.ssectorCount := rfl
      simp only [hssc, f1]
      refine ⟨by omega, ?_⟩
      rw [leafIds_split _ b.nodePool.length (b.nodePool.length + 1) _ (by omega) (by omega),
        leafIds_split _ (b.nodePool.length + 1) b3.nodePool.length _ (by omega) (by omega),
        leafIds_one, f4]
      have hroot : isSubsector (toUSHORT b4.nodeCount) = false := by
        apply isSubsector_of_lt
        unfold toUSHORT
        rw [Nat.mod_eq_of_lt (by omega)]
        omega
      rw [hroot]
      have e1 : leafIds (CreateNode.finish (CreateNode.setChild1 b4 b.nodePool.length lNode)
          b.nodePool.length lNode b.scan.convexList.length b2.partitionAlias).nodePool
          (b.nodePool.length + 1) b3.nodePool.length
          = leafIds b3.nodePool (b.nodePool.length + 1) b3.nodePool.length := by
        apply leafIds_congr
        intro y h1 h2
        rw [f9 y (by omega) (by omega), q3 y h2, c4 y (by omega)]
      have e2 : leafIds (CreateNode.finish (CreateNode.setChild1 b4 b.nodePool.length lNode)
          b.nodePool.length lNode b.scan.convexList.length b2.partitionAlias).nodePool
          b3.nodePool.length b4.nodePool.length
          = leafIds b4.nodePool b3.nodePool.length b4.nodePool.length := by
        apply leafIds_congr
        intro y h1 h2
        by_cases hy : y = lNode
        · rw [hy, f8]
        · rw [f9 y (by omega) hy]
      rw [e1, e2, i2, k2, ← List.map_append, range'_join _ _ _ i1 k1]
      rfl

theorem order_perm : ∀ (t : Shape) (lo hi : Nat), t.Spans lo hi →
    t.order.Perm (List.range' lo (hi - lo)) := by
  intro t
  induction t with
  | leaf i =>
    intro lo hi h
    obtain ⟨h1, h2⟩ := h
    have e : hi - lo = 1 := by omega
    rw [e, h1]
    exact List.Perm.refl _
  | node i r l ihr ihl =>
    intro lo hi h
    obtain ⟨h1, m, h2, h3⟩ := h
    have b1 := (Spans_root _ _ _ h2).2
    have b2 := (Spans_root _ _ _ h3).2
    have e1 : List.range' lo (hi - lo) = lo :: List.range' (lo + 1) (hi - (lo + 1)) := by
      have e : hi - lo = (hi - (lo + 1)) + 1 := by omega
      rw [e]
      rfl
    rw [e1, ← range'_join (lo + 1) m hi (by omega) (by omega), h1]
    simp only [Shape.order]
    have p1 : (r.order ++ l.order ++ [lo]).Perm (lo :: (r.order ++ l.order)) :=
      List.perm_append_singleton lo _
    exact p1.trans (List.Perm.cons lo (List.Perm.append (ihr _ _ h2) (ihl _ _ h3)))

theorem childFields_append : ∀ (l1 l2 : List wNode),
    childFields (l1 ++ l2) = childFields l1 ++ childFields l2 := by
  intro l1
  induction l1 with
  | nil =>
    intro l2
    rfl
  | cons n rest ih =>
    intro l2
    show n.child0 :: n.child1 :: childFields (rest ++ l2) = _
    rw [ih]
    rfl

theorem interiorOf_single (pool : List NODE) (i : Nat) :
    interiorOf pool [i] = if isSubsector (nodeAt pool i).id then [] else [i] := by
  unfold interiorOf
  cases h : isSubsector (nodeAt pool i).id <;> simp [h]

/-- The child fields of the interior nodes of a tree are, together with the id of the
root, the ids of the nodes of the tree. -/
theorem children_perm (pool : List NODE) : ∀ (t : Shape), t.Built pool →
    (childFields ((interiorOf pool t.order).map (fun x => (nodeAt pool x).Data))
      ++ [(nodeAt pool t.root).id]).Perm (t.order.map (fun x => (nodeAt pool x).id)) := by
  intro t
  induction t with
  | leaf i =>
    intro h
    have h : isSubsector (nodeAt pool i).id = true := h
    simp only [Shape.order, Shape.root, interiorOf_single, h, if_true, List.map_nil, childFields,
      List.nil_append, List.map_cons]
    exact List.Perm.refl _
  | node i r l ihr ihl =>
    intro h
    obtain ⟨h1, h2, h3, h4, h5⟩ := h
    simp only [Shape.order, Shape.root, interiorOf_append, interiorOf_single, h1, List.map_append,
      childFields_append, List.map_cons, List.map_nil, childFields, Bool.false_eq_true, if_false]
    rw [h2, h3]
    apply List.Perm.append_right
    have p := List.Perm.append (ihr h4) (ihl h5)
    refine List.Perm.trans ?_ p
    rw [List.append_assoc, List.append_assoc]
    apply List.Perm.append_left
    have q : (childFields ((interiorOf pool l.order).map (fun x => (nodeAt pool x).Data))
        ++ [(nodeAt pool r.root).id]).Perm
        ([(nodeAt pool r.root).id]
          ++ childFields ((interiorOf pool l.order).map (fun x => (nodeAt pool x).Data))) :=
      List.perm_append_comm
    have q2 := List.Perm.append_right [(nodeAt pool l.root).id] q
    simp only [List.append_assoc, List.singleton_append] at q2 ⊢
    exact q2

/-- A tree has one leaf more than it has interior nodes. -/
theorem leaf_count (pool : List NODE) : ∀ (t : Shape), t.Built pool →
    ((t.order.map (fun x => (nodeAt pool x).id)).filter isSubsector).length
      = (interiorOf pool t.order).length + 1 := by
  intro t
  induction t with
  | leaf i =>
    intro h
    have h : isSubsector (nodeAt pool i).id = true := h
    simp [Shape.order, interiorOf_single, h]
  | node i r l ihr ihl =>
    intro h
    obtain ⟨h1, h2, h3, h4, h5⟩ := h
    simp only [Shape.order, interiorOf_append, interiorOf_single, h1, List.map_append,
      List.filter_append, List.length_append, ihr h4, ihl h5, List.map_cons, List.map_nil,
      List.filter_cons, List.filter_nil, Bool.false_eq_true, if_false, List.length_nil,
      List.length_singleton]
    omega

theorem subsectorId_of_lt (k : Nat) (h : k < 0x8000) : subsectorId k = 0x8000 ||| k := by
  have e := Nat.mul_add_lt_is_or (show k < 2 ^ 15 from h) 1
  norm_num at e
  unfold subsectorId toUSHORT
  rw [Nat.mod_eq_of_lt (show k < 65536 by omega), ← e, Nat.mod_eq_of_lt (by omega)]

theorem subsectorIds_nodup (s n : Nat) (hs : s ≤ 0x8000) (hn : n ≤ 0x8000) :
    ((List.range s).map (fun k => 0x8000 ||| k) ++ List.range n).Nodup := by
  have hor : ∀ k, k < 0x8000 → 0x8000 ||| k = 32768 + k := by
    intro k hk
    have e := Nat.mul_add_lt_is_or (show k < 2 ^ 15 from hk) 1
    norm_num at e
    exact e.symm
  apply List.Nodup.append
  · apply List.Nodup.map_on _ (List.nodup_range s)
    intro x hx y hy e
    have hx := List.mem_range.mp hx
    have hy := List.mem_range.mp hy
    rw [hor x (by omega), hor y (by omega)] at e
    omega
  · exact List.nodup_range n
  · intro a h1 h2
    obtain ⟨k, hk, e⟩ := List.mem_map.mp h1
    have hk := List.mem_range.mp hk
    have h2 := List.mem_range.mp h2
    rw [hor k (by omega)] at e
    omega

theorem interior_of_leaf_root (pool : List NODE) (t : Shape) (hb : t.Built pool)
    (h : isSubsector (nodeAt pool t.root).id = true) : interiorOf pool t.order = [] := by
  cases t with
  | leaf i =>
    have h : isSubsector (nodeAt pool i).id = true := h
    rw [Shape.order, interiorOf_single, h]
    rfl
  | node i r l =>
    have h : isSubsector (nodeAt pool i).id = true := h
    rw [hb.1] at h
    cases h

/-- C40, counterexample.  The Classic build of `leftWallRoom`, a convex room of one
sector, completes with a single leaf: `nodeCount` is 0, `ssectorCount` is 1, and the one
node of the pool has the id `0x8000`.  `GetNodes` returns an empty array, so that there
is no child field at all, and the subsector id `0x8000 | 0`, with `0 < ssectorCount`,
appears in none. -/
theorem single_leaf_has_no_child_field :
    (CreateNODES (fun _ _ => 0) freshBuilder leftWallRoom classicOptions).toOption.map
        (fun r => (r.1.nodeCount, r.1.ssectorCount, r.1.nodePool.map (fun n => n.id),
          r.2.nodes.map childFields,
          (childFields (r.2.nodes.getD [])).count (0x8000 ||| 0)))
      = some (0, 1, [0x8000], some [], 0) := by
  decide!

/-- C40 (amended).  After a completed build by `CreateNode` from empty pools with fewer
than `0x8000` interior nodes, `ssectorCount = nodeCount + 1` and the node pool holds
`nodeCount + ssectorCount` entries.  The child fields of the records that `GetNodes`
returns, together with the id of the root, are the subsector ids `0x8000 | k` with
`k < ssectorCount` and the interior ids below `nodeCount`, each exactly once (the list on
the right has no duplicates).  When there is an interior node, the root has the id
`nodeCount - 1`, so that every subsector id `0x8000 | k` with `k < ssectorCount` and every
interior id below `nodeCount - 1` appears as exactly one child field, and no other value
appears as a child field. -/
theorem full_binary_tree (pf : PartitionFn) (fuel : Nat) (b : Builder)
    (rSegs noSegs : Nat) (r : Builder × Nat × Nat × Nat)
    (hpool : b.nodePool = []) (hcount : b.nodeCount = 0) (hssc : b.ssectorCount = 0)
    (hstart : b.nodeStart = none)
    (hbuild : CreateNode pf fuel b none rSegs noSegs = .ok r)
    (h16 : r.1.nodeCount < 0x8000) :
    r.1.ssectorCount = r.1.nodeCount + 1 ∧
    r.1.nodePool.length = r.1.nodeCount + r.1.ssectorCount ∧
    ∃ nodes : List wNode,
      GetNodes r.1 = some nodes ∧ nodes.length = r.1.nodeCount ∧
      (childFields nodes ++ [(nodeAt r.1.nodePool r.2.1).id]).Perm
        ((List.range r.1.ssectorCount).map (fun k => 0x8000 ||| k)
          ++ List.range r.1.nodeCount) ∧
      ((List.range r.1.ssectorCount).map (fun k => 0x8000 ||| k)
        ++ List.range r.1.nodeCount).Nodup ∧
      (1 ≤ r.1.nodeCount →
        (nodeAt r.1.nodePool r.2.1).id = r.1.nodeCount - 1 ∧
        (childFields nodes).Perm
          ((List.range r.1.ssectorCount).map (fun k => 0x8000 ||| k)
            ++ List.range (r.1.nodeCount - 1))) := by
  obtain ⟨hroot, t, hr0, h3⟩ := CreateNode_nodes pf fuel b none rSegs noSegs r hbuild
    (fun _ h => by cases h) (by omega)
  obtain ⟨p1, p2, p3, p4, _, p6, p7, _, _, p10, _⟩ := h3
  obtain ⟨_, l2⟩ := CreateNode_leaves pf fuel b none rSegs noSegs r hbuild
    (fun _ h => by cases h) (by omega)
  rw [hpool] at p1 l2 hroot hr0
  rw [hcount] at p4
  rw [hssc] at l2
  simp only [List.length_nil, Nat.sub_zero] at p1 p4 l2 hroot hr0
  have hperm := order_perm t _ _ p1
  rw [Nat.sub_zero] at hperm
  have hids : (interiorOf r.1.nodePool t.order).map (fun x => (nodeAt r.1.nodePool x).id)
      = List.range r.1.nodeCount := by
    rw [List.range_eq_range']
    exact p4
  have hlenI : (interiorOf r.1.nodePool t.order).length = r.1.nodeCount := by
    have := congrArg List.length hids
    simpa using this
  have hleaf : ((t.order.map (fun x => (nodeAt r.1.nodePool x).id)).filter isSubsector).Perm
      ((List.range r.1.ssectorCount).map subsectorId) := by
    rw [List.range_eq_range', ← l2]
    unfold leafIds
    rw [Nat.sub_zero]
    exact (hperm.map _).filter _
  have hcnt := leaf_count r.1.nodePool t p2
  have hs1 : r.1.ssectorCount = r.1.nodeCount + 1 := by
    have := hleaf.length_eq
    rw [hcnt, hlenI] at this
    simpa using this.symm
  have hint : (t.order.map (fun x => (nodeAt r.1.nodePool x).id)).filter
      (fun v => !isSubsector v) = List.range r.1.nodeCount := by
    rw [← hids, List.filter_map]
    rfl
  have hall : (t.order.map (fun x => (nodeAt r.1.nodePool x).id)).Perm
      ((List.range r.1.ssectorCount).map subsectorId ++ List.range r.1.nodeCount) := by
    have := (List.filter_append_perm isSubsector
      (t.order.map (fun x => (nodeAt r.1.nodePool x).id))).symm
    rw [hint] at this
    exact this.trans (List.Perm.append_right _ hleaf)
  have hmap : (List.range r.1.ssectorCount).map subsectorId
      = (List.range r.1.ssectorCount).map (fun k => 0x8000 ||| k) := by
    apply List.map_congr_left
    intro k hk
    have := List.mem_range.mp hk
    exact subsectorId_of_lt k (by omega)
  rw [hmap] at hall
  have hlen : r.1.nodePool.length = r.1.nodeCount + r.1.ssectorCount := by
    have h1 := Spans_length t _ _ p1
    have h2 := hall.length_eq
    simp only [List.length_map, List.length_append, List.length_range] at h2
    omega
  have hch : Chain r.1.nodePool t.order none := by
    have := Linked_chain r.1.nodePool t p3
    rw [p7] at this
    exact this
  have hst : r.1.nodeStart = t.order.head? := by
    rw [order_head]
    exact p10 hstart
  have hget := loop_chain r.1.nodePool r.1.nodeCount t.order hch
    (by rw [Spans_length t _ _ p1]; omega) hlenI
  have hcf := children_perm r.1.nodePool t p2
  rw [hr0, ← hroot] at hcf
  have hb := hcf.trans hall
  refine ⟨hs1, hlen, _, ?_, ?_, hb, subsectorIds_nodup _ _ (by omega) (by omega), ?_⟩
  · unfold GetNodes
    rw [hst]
    exact hget
  · simp only [List.length_map]
    exact hlenI
  · intro h1
    have hsub : isSubsector (nodeAt r.1.nodePool t.root).id = false := by
      cases hx : isSubsector (nodeAt r.1.nodePool t.root).id with
      | false => rfl
      | true =>
        have := interior_of_leaf_root r.1.nodePool t p2 hx
        rw [this] at hlenI
        simp only [List.length_nil] at hlenI
        omega
    have hid := p6 hsub
    rw [hr0, ← hroot] at hid
    have hid2 : (nodeAt r.1.nodePool r.2.1).id = r.1.nodeCount - 1 := by omega
    refine ⟨hid2, ?_⟩
    have e : List.range r.1.nodeCount
        = List.range (r.1.nodeCount - 1) ++ [r.1.nodeCount - 1] := by
      have e2 : r.1.nodeCount = (r.1.nodeCount - 1) + 1 := by omega
      conv_lhs => rw [e2]
      exact List.range_succ _
    rw [hid2, e, ← List.append_assoc] at hb
    exact (List.perm_append_right_iff _).mp hb

theorem full_binary_tree_witness :
    dividedRoomBuilt.1.ssectorCount = dividedRoomBuilt.1.nodeCount + 1 ∧
    dividedRoomBuilt.1.nodePool.length
      = dividedRoomBuilt.1.nodeCount + dividedRoomBuilt.1.ssectorCount ∧
    ∃ nodes : List wNode,
      GetNodes dividedRoomBuilt.1 = some nodes ∧ nodes.length = dividedRoomBuilt.1.nodeCount ∧
      (childFields nodes
        ++ [(nodeAt dividedRoomBuilt.1.nodePool dividedRoomBuilt.2.1).id]).Perm
        ((List.range dividedRoomBuilt.1.ssectorCount).map (fun k => 0x8000 ||| k)
          ++ List.range dividedRoomBuilt.1.nodeCount) ∧
      ((List.range dividedRoomBuilt.1.ssectorCount).map (fun k => 0x8000 ||| k)
        ++ List.range dividedRoomBuilt.1.nodeCount).Nodup ∧
      (1 ≤ dividedRoomBuilt.1.nodeCount →
        (nodeAt dividedRoomBuilt.1.nodePool dividedRoomBuilt.2.1).id
          = dividedRoomBuilt.1.nodeCount - 1 ∧
        (childFields nodes).Perm
          ((List.range dividedRoomBuilt.1.ssectorCount).map (fun k => 0x8000 ||| k)
            ++ List.range (dividedRoomBuilt.1.nodeCount - 1))) :=
  full_binary_tree Algorithm1 10 dividedRoom 0 dividedRoom.segCount dividedRoomBuilt
    rfl rfl rfl rfl dividedRoom_builds (by decide)

end ZenNode
